import Mathlib

/-!
# HISSTools partitioned convolution and FFT kernel: a verification development

Shallow embedding of `ConvolvePartitioned.hpp` and `HISSTools_FFT_Core.h`.

* `uintptr_t` values are modelled as `Nat`; signed `intptr_t` results as `Int`.
* Sample buffers are total maps `Nat → R` over a field `R` (exact arithmetic);
  every definition is computable and can be evaluated over `ℚ`.
* The program definitions come first, the theorems follow.
-/

namespace HISSTools

variable {R : Type}

/-! ## Definitions -/

/-- Error codes returned by the convolvers (`ConvolveErrors.h`). -/
inductive ConvolveError where
  | None
  | InChanOutOfRange
  | OutChanOutOfRange
  | MemUnavailable
  | MemAllocTooSmall
  | TimeImpulseTooLong
  | TimeLengthOutOfRange
  | PartitionLengthTooLarge
  | FFTSizeMaxTooSmall
  | FFTSizeMaxTooLarge
  | FFTSizeMaxNonPowerOfTwo
  | FFTSizeOutOfRange
  | FFTSizeNonPowerOfTwo
  deriving DecidableEq

/-- A split complex buffer: separate real and imaginary arrays. -/
@[ext]
structure Split (R : Type) where
  realp : Nat → R
  imagp : Nat → R

/-- The pointer arithmetic of `offset_split_pointer`: both arrays advanced by `offset`. -/
def offset_split_pointer {R : Type} (complex_2 : Split R) (offset : Nat) : Split R :=
  { realp := fun i => complex_2.realp (offset + i),
    imagp := fun i => complex_2.imagp (offset + i) }

/-- The effect of `std::fill_n(buf + start, n, v)`. -/
def fill_n {R : Type} (buf : Nat → R) (start n : Nat) (v : R) : Nat → R :=
  fun i => if start ≤ i ∧ i < start + n then v else buf i

/-- The effect of `std::copy_n(src + from, n, dst + to)` for non-overlapping buffers. -/
def copy_n {R : Type} (src : Nat → R) (src_pos n : Nat) (dst : Nat → R) (dst_pos : Nat) :
    Nat → R :=
  fun i => if dst_pos ≤ i ∧ i < dst_pos + n then src (src_pos + (i - dst_pos)) else dst i

/-- `MIN_FFT_SIZE_LOG2` of `convolve_partitioned`. -/
def MIN_FFT_SIZE_LOG2 : Nat := 5

/-- `MAX_FFT_SIZE_LOG2` of `convolve_partitioned`. -/
def MAX_FFT_SIZE_LOG2 : Nat := 20

/-- The `while (bit_shift)` loop of `convolve_partitioned::log2`; the fuel bounds the number
of iterations and `value` itself is always enough. -/
def log2_loop : Nat → Nat → Nat → Nat
  | 0, _, bit_count => bit_count
  | fuel + 1, bit_shift, bit_count =>
    if bit_shift ≠ 0 then log2_loop fuel (bit_shift >>> 1) (bit_count + 1) else bit_count

/-- The function `convolve_partitioned::log2`. -/
def log2 (value : Nat) : Nat :=
  let bit_count := log2_loop value value 0
  if value = 1 <<< (bit_count - 1) then bit_count - 1 else bit_count

/-- The data members of `convolve_partitioned<T, IO>`; `m_rand_dist_max` is the upper end of
the range of `m_rand_dist`. The four `m_fft_buffers` and the split buffers are separate maps
(the allocation keeps them disjoint). -/
@[ext]
structure convolve_partitioned (R : Type) where
  m_offset : Nat
  m_length : Nat
  m_max_impulse_length : Nat
  m_max_fft_size_log2 : Nat
  m_fft_size_log2 : Nat
  m_rw_counter : Nat
  m_input_position : Nat
  m_partitions_done : Nat
  m_last_partition : Nat
  m_num_partitions : Nat
  m_valid_partitions : Nat
  m_fft_buffers_0 : Nat → R
  m_fft_buffers_1 : Nat → R
  m_fft_buffers_2 : Nat → R
  m_fft_buffers_3 : Nat → R
  m_impulse_buffer : Split R
  m_input_buffer : Split R
  m_accum_buffer : Split R
  m_partition_temp : Split R
  m_reset_offset : Int
  m_reset_flag : Bool
  m_rand_dist_max : Nat

/-- The member `get_fft_size`. -/
def get_fft_size {R : Type} (st : convolve_partitioned R) : Nat :=
  1 <<< st.m_fft_size_log2

/-- The member `get_max_fft_size`. -/
def get_max_fft_size {R : Type} (st : convolve_partitioned R) : Nat :=
  1 <<< st.m_max_fft_size_log2

/-- The member `set_max_fft_size`. -/
def set_max_fft_size {R : Type} (st : convolve_partitioned R) (max_fft_size : Nat) :
    ConvolveError × convolve_partitioned R :=
  let max_fft_size_log2 := log2 max_fft_size
  let error := ConvolveError.None
  let (error, max_fft_size_log2) :=
    if max_fft_size_log2 > MAX_FFT_SIZE_LOG2 then
      (ConvolveError.FFTSizeOutOfRange, MAX_FFT_SIZE_LOG2)
    else (error, max_fft_size_log2)
  let (error, max_fft_size_log2) :=
    if max_fft_size_log2 ≠ 0 ∧ max_fft_size_log2 < MIN_FFT_SIZE_LOG2 then
      (ConvolveError.FFTSizeOutOfRange, MIN_FFT_SIZE_LOG2)
    else (error, max_fft_size_log2)
  let error :=
    if max_fft_size ≠ 1 <<< max_fft_size_log2 then ConvolveError.FFTSizeNonPowerOfTwo
    else error
  (error, { st with m_max_fft_size_log2 := max_fft_size_log2 })

/-- The member `set_fft_size`. -/
def set_fft_size {R : Type} (st : convolve_partitioned R) (fft_size : Nat) :
    ConvolveError × convolve_partitioned R :=
  let fft_size_log2 := log2 fft_size
  let error := ConvolveError.None
  if fft_size_log2 < MIN_FFT_SIZE_LOG2 ∨ fft_size_log2 > st.m_max_fft_size_log2 then
    (ConvolveError.FFTSizeOutOfRange, st)
  else
    let error :=
      if fft_size ≠ 1 <<< fft_size_log2 then ConvolveError.FFTSizeNonPowerOfTwo else error
    let st1 :=
      if fft_size_log2 ≠ st.m_fft_size_log2 then
        { st with m_num_partitions := 0, m_fft_size_log2 := fft_size_log2 }
      else st
    (error, { st1 with m_rand_dist_max := (fft_size >>> 1) - 1 })

/-- The member `set_length`. -/
def set_length {R : Type} (st : convolve_partitioned R) (length : Nat) :
    ConvolveError × convolve_partitioned R :=
  ((if length > st.m_max_impulse_length then ConvolveError.PartitionLengthTooLarge
    else ConvolveError.None),
   { st with m_length := min length st.m_max_impulse_length })

/-- The member `set_offset`. -/
def set_offset {R : Type} (st : convolve_partitioned R) (offset : Nat) :
    convolve_partitioned R :=
  { st with m_offset := offset }

/-- The member `set_reset_offset`. -/
def set_reset_offset {R : Type} (st : convolve_partitioned R) (offset : Int) :
    convolve_partitioned R :=
  { st with m_reset_offset := offset }

/-- The member `reset`. -/
def reset {R : Type} (st : convolve_partitioned R) : convolve_partitioned R :=
  { st with m_reset_flag := true }

/-- Lines 46-63 of the constructor: the member initialisers followed by the four setter
calls. `u` supplies the members that are not initialised there (raw memory). -/
def ctor_init {R : Type} (u : convolve_partitioned R)
    (max_fft_size max_length offset length : Nat) : convolve_partitioned R :=
  let s0 : convolve_partitioned R :=
    { u with
      m_max_impulse_length := max_length,
      m_fft_size_log2 := 0,
      m_input_position := 0,
      m_partitions_done := 0,
      m_last_partition := 0,
      m_num_partitions := 0,
      m_valid_partitions := 0,
      m_reset_offset := -1,
      m_reset_flag := true }
  let s1 := (set_max_fft_size s0 max_fft_size).2
  let s2 := (set_fft_size s1 (get_max_fft_size s1)).2
  let s3 := set_offset s2 offset
  (set_length s3 length).2

/-- The constructor of `convolve_partitioned`. The rounding of `m_max_impulse_length` takes a
remainder by `max_fft_size >> 1`; when that is zero the C++ behaviour is undefined and the
model returns `none`. The rounding is done in `uintptr_t` (64 bits here): the quotient plus
one does not wrap, the product with `max_fft_size >> 1` does, modulo `2 ^ 64`. The freshly
allocated buffers keep the contents of `u`. -/
def ctor {R : Type} (u : convolve_partitioned R)
    (max_fft_size max_length offset length : Nat) : Option (convolve_partitioned R) :=
  let s := ctor_init u max_fft_size max_length offset length
  let max_fft_size := get_max_fft_size s
  if max_fft_size >>> 1 = 0 then none
  else
    some
      (if s.m_max_impulse_length % (max_fft_size >>> 1) ≠ 0 then
        { s with
          m_max_impulse_length :=
            ((s.m_max_impulse_length / (max_fft_size >>> 1) + 1) * (max_fft_size >>> 1))
              % 2 ^ 64 }
      else s)

/-- The transforms behind the buffer-to-buffer calls
`hisstools_rfft(setup, input, output, in_length, log2n)` and
`hisstools_rifft(setup, input, output, log2n)`. These wrappers are declared in
`HISSTools_FFT.h`, which is not among the sources; they are taken as parameters.
`rfft log2n x` is the split half-spectrum (`2^(log2n-1)` bins) of the samples `x`, and
`rifft log2n s` the `2^log2n` time samples of the half-spectrum `s`. -/
structure FFTKernel (R : Type) where
  rfft : Nat → (Nat → R) → Split R
  rifft : Nat → Split R → Nat → R

/-- The first `n` samples of a buffer, as read by a callee that is handed `n` samples. -/
def first_n {R : Type} [Zero R] (buf : Nat → R) (n : Nat) : Nat → R :=
  fun i => if i < n then buf i else 0

/-- The first `n` bins of a split buffer, as read by a callee that is handed `n` bins. -/
def first_bins {R : Type} [Zero R] (s : Split R) (n : Nat) : Split R :=
  { realp := first_n s.realp n, imagp := first_n s.imagp n }

/-- Writing `n` bins of `src` into `dst` from bin `offset` on. -/
def store_bins {R : Type} (dst : Split R) (offset n : Nat) (src : Split R) : Split R :=
  { realp := copy_n src.realp 0 n dst.realp offset,
    imagp := copy_n src.imagp 0 n dst.imagp offset }

/-- The loading loop of `convolve_partitioned::set`
(`for (; length > 0; buffer_position += fft_size_halved, num_partitions++)`).
`buffer_temp_2` is the offset of the moving split pointer into the impulse buffer.
The result is `none` when the fuel runs out before `length` reaches zero. -/
def set_loop {R : Type} [Zero R] (K : FFTKernel R) (input : Nat → R)
    (fft_size fft_size_halved fft_size_log2 : Nat) :
    Nat → Nat → Nat → Nat → (Nat → R) → Nat → Split R → Option (Nat × (Nat → R) × Split R)
  | 0, length, _, num_partitions, buffer_temp_1, _, impulse =>
    if length > 0 then none else some (num_partitions, buffer_temp_1, impulse)
  | fuel + 1, length, buffer_position, num_partitions, buffer_temp_1, buffer_temp_2, impulse =>
    if length > 0 then
      let num_samples := min fft_size_halved length
      let length := length - num_samples
      let buffer_temp_1 := copy_n input buffer_position num_samples buffer_temp_1 0
      let buffer_temp_1 := fill_n buffer_temp_1 num_samples (fft_size - num_samples) 0
      let impulse :=
        store_bins impulse buffer_temp_2 fft_size_halved
          (K.rfft fft_size_log2 (first_n buffer_temp_1 fft_size))
      set_loop K input fft_size fft_size_halved fft_size_log2 fuel length
        (buffer_position + fft_size_halved) (num_partitions + 1) buffer_temp_1
        (buffer_temp_2 + fft_size_halved) impulse
    else some (num_partitions, buffer_temp_1, impulse)

/-- The number of samples `convolve_partitioned::set` decides to load, before the check
against `m_max_impulse_length` (the two assignments to `length` at lines 171-172).
`input` is `none` for a null pointer. -/
def set_effective_length {R : Type} (st : convolve_partitioned R)
    (input : Option (Nat → R)) (length : Nat) : Nat :=
  let length := if input.isNone ∨ length ≤ st.m_offset then 0 else length - st.m_offset
  if st.m_length ≠ 0 ∧ st.m_length < length then st.m_length else length

/-- The member `set`. -/
def set {R : Type} [Zero R] (K : FFTKernel R) (st : convolve_partitioned R)
    (input : Option (Nat → R)) (length : Nat) :
    Option (ConvolveError × convolve_partitioned R) :=
  let error := ConvolveError.None
  let fft_size := get_fft_size st
  let fft_size_halved := fft_size >>> 1
  let length := set_effective_length st input length
  let (length, error) :=
    if length > st.m_max_impulse_length then
      (st.m_max_impulse_length, ConvolveError.MemAllocTooSmall)
    else (length, error)
  match set_loop K (input.getD (fun _ => 0)) fft_size fft_size_halved st.m_fft_size_log2
      length length st.m_offset 0 st.m_partition_temp.realp 0 st.m_impulse_buffer with
  | none => none
  | some (num_partitions, buffer_temp_1, impulse) =>
    some (error,
      reset
        { st with
          m_num_partitions := num_partitions,
          m_partition_temp := { st.m_partition_temp with realp := buffer_temp_1 },
          m_impulse_buffer := impulse })

/-- One vector multiply-accumulate of `process_partition`: lanes `v * W .. v * W + W - 1`
of `out` receive the complex product of the same lanes of `in_1` and `in_2`. -/
def vec_mac {R : Type} [Add R] [Sub R] [Mul R] (W : Nat) (in_1 in_2 out : Split R) (v : Nat) :
    Split R :=
  { realp := fun e =>
      if v * W ≤ e ∧ e < v * W + W then
        out.realp e + (in_1.realp e * in_2.realp e - in_1.imagp e * in_2.imagp e)
      else out.realp e,
    imagp := fun e =>
      if v * W ≤ e ∧ e < v * W + W then
        out.imagp e + (in_1.realp e * in_2.imagp e + in_1.imagp e * in_2.realp e)
      else out.imagp e }

/-- The unrolled loop of `process_partition`
(`for (uintptr_t i = 0; i + 3 < num_vecs; i += 4)`). -/
def process_partition_loop {R : Type} [Add R] [Sub R] [Mul R] (W : Nat) (in_1 in_2 : Split R)
    (num_vecs : Nat) : Nat → Nat → Split R → Split R
  | 0, _, out => out
  | fuel + 1, i, out =>
    if i + 3 < num_vecs then
      let out := vec_mac W in_1 in_2 out (i + 0)
      let out := vec_mac W in_1 in_2 out (i + 1)
      let out := vec_mac W in_1 in_2 out (i + 2)
      let out := vec_mac W in_1 in_2 out (i + 3)
      process_partition_loop W in_1 in_2 num_vecs fuel (i + 4) out
    else out

/-- The static member `process_partition`, for a vector type of `W` lanes
(`SIMDLimits<T>::max_size`, defined outside the sources at hand). The three buffers are
distinct memory; the result is the triple of their contents afterwards. -/
def process_partition {R : Type} [Zero R] [Add R] [Sub R] [Mul R] (W : Nat)
    (in_1 in_2 out : Split R) (num_bins : Nat) : Split R × Split R × Split R :=
  let num_vecs := num_bins / W
  let nyquist_1 := in_1.imagp 0
  let nyquist_2 := in_2.imagp 0
  let out := { out with imagp := Function.update out.imagp 0 (out.imagp 0 + nyquist_1 * nyquist_2) }
  let in_1 := { in_1 with imagp := Function.update in_1.imagp 0 0 }
  let in_2 := { in_2 with imagp := Function.update in_2.imagp 0 0 }
  let out := process_partition_loop W in_1 in_2 num_vecs num_vecs 0 out
  let in_1 := { in_1 with imagp := Function.update in_1.imagp 0 nyquist_1 }
  let in_2 := { in_2 with imagp := Function.update in_2.imagp 0 nyquist_2 }
  (in_1, in_2, out)

/-- Writing back through a split pointer that was offset into `buf`: the bins of `buf` from
`offset` on take the contents of `win`. -/
def write_back {R : Type} (buf : Split R) (offset : Nat) (win : Split R) : Split R :=
  { realp := fun i => if offset ≤ i then win.realp (i - offset) else buf.realp i,
    imagp := fun i => if offset ≤ i then win.imagp (i - offset) else buf.imagp i }

/-- The static member `scale_store` for a vector type of `W` lanes:
`fft_size / (W * 2)` vectors of `temp` are scaled by `1 / (fft_size << 2)` and stored to
`out`, from `fft_size >> 1` on when `offset` is set. -/
def scale_store {R : Type} [Field R] (W : Nat) (out temp : Nat → R) (fft_size : Nat)
    (offset : Bool) : Nat → R :=
  let out_ptr := if offset then fft_size >>> 1 else 0
  let scale : R := 1 / ((fft_size <<< 2 : Nat) : R)
  fun e =>
    if out_ptr ≤ e ∧ e < out_ptr + (fft_size / (W * 2)) * W then temp (e - out_ptr) * scale
    else out e

/-- The effect of `impl::add_cast_n(src + src_pos, n, dst + dst_pos)`: the samples are added
to the destination. -/
def add_n {R : Type} [Add R] (src : Nat → R) (src_pos n : Nat) (dst : Nat → R) (dst_pos : Nat) :
    Nat → R :=
  fun i =>
    if dst_pos ≤ i ∧ i < dst_pos + n then dst i + src (src_pos + (i - dst_pos)) else dst i

/-- The body of the inner `for (uintptr_t i = next_partition; i < m_last_partition; i++)`
loop of `process`: one partition is multiplied and accumulated through the split pointers
`ir_temp` and `in_temp` (offsets into the impulse and input buffers), and
`m_partitions_done` is incremented. -/
def partition_mac {R : Type} [Zero R] [Add R] [Sub R] [Mul R] (W fft_size_halved : Nat)
    (ir_temp in_temp : Nat) (st : convolve_partitioned R) : convolve_partitioned R :=
  let r := process_partition W (offset_split_pointer st.m_input_buffer in_temp)
    (offset_split_pointer st.m_impulse_buffer ir_temp) st.m_accum_buffer fft_size_halved
  { st with
    m_input_buffer := write_back st.m_input_buffer in_temp r.1,
    m_impulse_buffer := write_back st.m_impulse_buffer ir_temp r.2.1,
    m_accum_buffer := r.2.2,
    m_partitions_done := st.m_partitions_done + 1 }

/-- The inner `for (uintptr_t i = next_partition; i < m_last_partition; i++)` loop of
`process`, run for `count` partitions: both split pointers advance by one partition after
each body. -/
def partition_for {R : Type} [Zero R] [Add R] [Sub R] [Mul R] (W fft_size_halved : Nat) :
    Nat → Nat → Nat → convolve_partitioned R → convolve_partitioned R
  | 0, _, _, st => st
  | count + 1, ir_temp, in_temp, st =>
    partition_for W fft_size_halved count (ir_temp + fft_size_halved)
      (in_temp + fft_size_halved) (partition_mac W fft_size_halved ir_temp in_temp st)

/-- The scheduling loop `while (num_partitions_to_do > 0)` of `process`. -/
def partition_while {R : Type} [Zero R] [Add R] [Sub R] [Mul R] (W fft_size_halved : Nat) :
    Nat → Int → convolve_partitioned R → convolve_partitioned R
  | 0, _, st => st
  | fuel + 1, num_partitions_to_do, st =>
    if num_partitions_to_do > 0 then
      let next_partition :=
        if st.m_last_partition < st.m_num_partitions then st.m_last_partition else 0
      let last_partition :=
        min st.m_num_partitions (next_partition + num_partitions_to_do.toNat)
      let num_partitions_to_do := num_partitions_to_do - ((last_partition - next_partition : Nat) : Int)
      let st := { st with m_last_partition := last_partition }
      let st := partition_for W fft_size_halved (last_partition - next_partition)
        ((st.m_partitions_done + 1) * fft_size_halved) (next_partition * fft_size_halved) st
      partition_while W fft_size_halved fuel num_partitions_to_do st
    else st

/-- The block `if (fft_now) { ... }` of `process`: forward transform of the input ring into
the history slot, multiply-accumulate with the first impulse partition, inverse transform,
scaled store to the output ring, and the update of the counters. The result carries the
wrapped `rw_counter`. -/
def fft_step {R : Type} [Field R] (K : FFTKernel R) (W : Nat) (st : convolve_partitioned R)
    (rw_counter : Nat) : convolve_partitioned R × Nat :=
  let fft_size := get_fft_size st
  let fft_size_halved := fft_size >>> 1
  let fft_input := if rw_counter = fft_size then st.m_fft_buffers_1 else st.m_fft_buffers_0
  let in_temp := st.m_input_position * fft_size_halved
  let input_buffer :=
    store_bins st.m_input_buffer in_temp fft_size_halved
      (K.rfft st.m_fft_size_log2 (first_n fft_input fft_size))
  let r := process_partition W (offset_split_pointer input_buffer in_temp)
    st.m_impulse_buffer st.m_accum_buffer fft_size_halved
  let input_buffer := write_back input_buffer in_temp r.1
  let impulse_buffer := r.2.1
  let accum := r.2.2
  let fft_buffers_2 :=
    copy_n (K.rifft st.m_fft_size_log2 (first_bins accum fft_size_halved)) 0 fft_size
      st.m_fft_buffers_2 0
  let fft_buffers_3 :=
    scale_store W st.m_fft_buffers_3 fft_buffers_2 fft_size (decide (rw_counter ≠ fft_size))
  let accum : Split R :=
    { realp := fill_n accum.realp 0 fft_size_halved 0,
      imagp := fill_n accum.imagp 0 fft_size_halved 0 }
  let rw_counter := rw_counter &&& (fft_size - 1)
  let valid_partitions := min st.m_num_partitions (st.m_valid_partitions + 1)
  let input_position :=
    if st.m_input_position ≠ 0 then st.m_input_position - 1 else st.m_num_partitions - 1
  ({ st with
      m_input_buffer := input_buffer,
      m_impulse_buffer := impulse_buffer,
      m_accum_buffer := accum,
      m_fft_buffers_2 := fft_buffers_2,
      m_fft_buffers_3 := fft_buffers_3,
      m_valid_partitions := valid_partitions,
      m_input_position := input_position,
      m_last_partition := input_position + 1,
      m_partitions_done := 0 },
   rw_counter)

/-- One iteration of the main loop `while (samples_remaining > 0)` of `process`. The loop
variables are the state, `rw_counter`, `samples_remaining`, the positions of the `in` and
`out` pointers and the contents of the output array. -/
def process_iter {R : Type} [Field R] (K : FFTKernel R) (W : Nat) (inp : Nat → R)
    (accumulate : Bool)
    (v : convolve_partitioned R × Nat × Nat × Nat × Nat × (Nat → R)) :
    convolve_partitioned R × Nat × Nat × Nat × Nat × (Nat → R) :=
  let st := v.1
  let rw_counter := v.2.1
  let samples_remaining := v.2.2.1
  let in_pos := v.2.2.2.1
  let out_pos := v.2.2.2.2.1
  let out := v.2.2.2.2.2
  let fft_size := get_fft_size st
  let fft_size_halved := fft_size >>> 1
  let hop_mask := fft_size_halved - 1
  let till_next_fft := fft_size_halved - (rw_counter &&& hop_mask)
  let loop_size := if samples_remaining < till_next_fft then samples_remaining else till_next_fft
  let hi_counter := (rw_counter + fft_size_halved) &&& (fft_size - 1)
  let st :=
    { st with
      m_fft_buffers_0 := copy_n inp in_pos loop_size st.m_fft_buffers_0 rw_counter,
      m_fft_buffers_1 := copy_n inp in_pos loop_size st.m_fft_buffers_1 hi_counter }
  let out :=
    if accumulate then add_n st.m_fft_buffers_3 rw_counter loop_size out out_pos
    else copy_n st.m_fft_buffers_3 rw_counter loop_size out out_pos
  let samples_remaining := samples_remaining - loop_size
  let rw_counter := rw_counter + loop_size
  let in_pos := in_pos + loop_size
  let out_pos := out_pos + loop_size
  let fft_counter := rw_counter &&& hop_mask
  let fft_now := decide (fft_counter = 0)
  let num_partitions_to_do : Int :=
    if fft_now then ((st.m_valid_partitions : Int) - (st.m_partitions_done : Int)) - 1
    else
      ((((st.m_valid_partitions - 1) * fft_counter) / fft_size_halved : Nat) : Int)
        - (st.m_partitions_done : Int)
  let st := partition_while W fft_size_halved num_partitions_to_do.toNat num_partitions_to_do st
  let r := if fft_now then fft_step K W st rw_counter else (st, rw_counter)
  (r.1, r.2, samples_remaining, in_pos, out_pos, out)

/-- The main loop `while (samples_remaining > 0)` of `process`; `none` when the fuel runs out
with samples still remaining. -/
def process_loop {R : Type} [Field R] (K : FFTKernel R) (W : Nat) (inp : Nat → R)
    (accumulate : Bool) :
    Nat → convolve_partitioned R × Nat × Nat × Nat × Nat × (Nat → R) →
      Option (convolve_partitioned R × Nat × Nat × Nat × Nat × (Nat → R))
  | 0, v => if v.2.2.1 > 0 then none else some v
  | fuel + 1, v =>
    if v.2.2.1 > 0 then process_loop K W inp accumulate fuel (process_iter K W inp accumulate v)
    else some v

/-- The reset block of `process` (`if (m_reset_flag) { ... }`): the four FFT buffers and the
accumulator, contiguous in one allocation of `6 * max_fft_size` samples, are cleared over
`5 * max_fft_size` samples, the counters are reset and the new `rw_counter` is returned.
`rnd` is the value drawn from `m_rand_dist` when the reset offset is negative. -/
def process_reset {R : Type} [Zero R] (rnd : Nat) (st : convolve_partitioned R) :
    convolve_partitioned R × Nat :=
  let fft_size_halved := get_fft_size st >>> 1
  let max_fft_size := get_max_fft_size st
  let rw_counter :=
    if st.m_reset_offset < 0 then rnd else st.m_reset_offset.toNat % fft_size_halved
  ({ st with
      m_fft_buffers_0 := fill_n st.m_fft_buffers_0 0 max_fft_size 0,
      m_fft_buffers_1 := fill_n st.m_fft_buffers_1 0 max_fft_size 0,
      m_fft_buffers_2 := fill_n st.m_fft_buffers_2 0 max_fft_size 0,
      m_fft_buffers_3 := fill_n st.m_fft_buffers_3 0 max_fft_size 0,
      m_accum_buffer :=
        { realp := fill_n st.m_accum_buffer.realp 0 (max_fft_size >>> 1) 0,
          imagp := fill_n st.m_accum_buffer.imagp 0 (max_fft_size >>> 1) 0 },
      m_input_position := 0,
      m_partitions_done := 0,
      m_last_partition := 0,
      m_valid_partitions := 1,
      m_reset_flag := false },
   rw_counter)

/-- The member `process`, called with `in = inp + in_pos` and `out = out + out_pos`. The
result is the convolver afterwards together with the contents of the output array, or
`none` if the main loop does not terminate. -/
def process {R : Type} [Field R] (K : FFTKernel R) (W : Nat) (rnd : Nat)
    (st : convolve_partitioned R) (inp : Nat → R) (in_pos : Nat) (out : Nat → R)
    (out_pos : Nat) (num_samples : Nat) (accumulate : Bool) :
    Option (convolve_partitioned R × (Nat → R)) :=
  if st.m_num_partitions = 0 then
    some (st, fill_n out out_pos (if accumulate then 0 else num_samples) 0)
  else
    let r := if st.m_reset_flag then process_reset rnd st else (st, st.m_rw_counter)
    match process_loop K W inp accumulate num_samples
        (r.1, r.2, num_samples, in_pos, out_pos, out) with
    | none => none
    | some v => some ({ v.1 with m_rw_counter := v.2.1 }, v.2.2.2.2.2)

/-- One scheduled multiply-accumulate taken on its own: the next input-history slot (the
cursor `m_last_partition`, wrapped to 0 at `m_num_partitions`) is paired with the impulse
partition `m_partitions_done + 1`, and the cursor moves on. The scheduling loop of `process`
is a repetition of this step. -/
def sched_step {R : Type} [Zero R] [Add R] [Sub R] [Mul R] (W fft_size_halved : Nat)
    (st : convolve_partitioned R) : convolve_partitioned R :=
  let next_partition :=
    if st.m_last_partition < st.m_num_partitions then st.m_last_partition else 0
  { partition_mac W fft_size_halved ((st.m_partitions_done + 1) * fft_size_halved)
      (next_partition * fft_size_halved) st with
    m_last_partition := next_partition + 1 }

/-- A sequence of `process` calls on consecutive blocks of one input stream: block sizes
`ns`, the `in` and `out` pointers starting at `pos` and advancing by each block size. -/
def process_seq {R : Type} [Field R] (K : FFTKernel R) (W : Nat) (rnd : Nat) (inp : Nat → R)
    (accumulate : Bool) :
    List Nat → convolve_partitioned R → Nat → (Nat → R) →
      Option (convolve_partitioned R × (Nat → R))
  | [], st, _, out => some (st, out)
  | n :: ns, st, pos, out =>
    match process K W rnd st inp pos out pos n accumulate with
    | none => none
    | some r => process_seq K W rnd inp accumulate ns r.1 (pos + n) r.2

/-- The zero-padded impulse partition: `n` samples of `input` from `pos` on, followed by
zeros. -/
def ir_partition {R : Type} [Zero R] (input : Nat → R) (pos n : Nat) : Nat → R :=
  fun i => if i < n then input (pos + i) else 0

/-- A kernel over `ℚ` whose forward transform only unzips the samples into a split buffer
and whose inverse zips them back; used to evaluate the model on concrete inputs. -/
def unzip_kernel : FFTKernel ℚ :=
  { rfft := fun _ x => { realp := fun k => x (2 * k), imagp := fun k => x (2 * k + 1) },
    rifft := fun _ s i => if i % 2 = 0 then s.realp (i / 2) else s.imagp (i / 2) }

/-- A convolver over `ℚ` with every member zero, used to evaluate the model. -/
def zero_state : convolve_partitioned ℚ :=
  { m_offset := 0, m_length := 0, m_max_impulse_length := 0, m_max_fft_size_log2 := 0,
    m_fft_size_log2 := 0, m_rw_counter := 0, m_input_position := 0, m_partitions_done := 0,
    m_last_partition := 0, m_num_partitions := 0, m_valid_partitions := 0,
    m_fft_buffers_0 := fun _ => 0, m_fft_buffers_1 := fun _ => 0,
    m_fft_buffers_2 := fun _ => 0, m_fft_buffers_3 := fun _ => 0,
    m_impulse_buffer := ⟨fun _ => 0, fun _ => 0⟩, m_input_buffer := ⟨fun _ => 0, fun _ => 0⟩,
    m_accum_buffer := ⟨fun _ => 0, fun _ => 0⟩, m_partition_temp := ⟨fun _ => 0, fun _ => 0⟩,
    m_reset_offset := 0, m_reset_flag := false, m_rand_dist_max := 0 }

/-! ### The FFT kernel (`HISSTools_FFT_Core.h`), scalar instantiation

The passes are embedded for `vec_size = 1`, the instantiation `hisstools_fft` selects for
buffers that are not vector-aligned. Pointers into a split buffer are indices; the real and
imaginary pointers of a pass always move together and share one index. -/

/-- The type `Setup<T>`: the largest supported size and the twiddle tables. -/
structure Setup (R : Type) where
  max_fft_log2 : Nat
  tables : Nat → Split R

/-- `trig_table_offset`. -/
def trig_table_offset : Nat := 3

/-- The type `Vector4x<T, 1>`: four scalars `mData[0..3]` with lane-wise arithmetic. -/
structure Vector4x (R : Type) where
  d0 : R
  d1 : R
  d2 : R
  d3 : R

instance {R : Type} [Add R] : Add (Vector4x R) :=
  ⟨fun a b => ⟨a.d0 + b.d0, a.d1 + b.d1, a.d2 + b.d2, a.d3 + b.d3⟩⟩

instance {R : Type} [Sub R] : Sub (Vector4x R) :=
  ⟨fun a b => ⟨a.d0 - b.d0, a.d1 - b.d1, a.d2 - b.d2, a.d3 - b.d3⟩⟩

instance {R : Type} [Mul R] : Mul (Vector4x R) :=
  ⟨fun a b => ⟨a.d0 * b.d0, a.d1 * b.d1, a.d2 * b.d2, a.d3 * b.d3⟩⟩

/-- Reading the `Vector4x` that a `Vector4x *` of index `p` points to (scalars `4p .. 4p+3`). -/
def load4 {R : Type} (buf : Nat → R) (p : Nat) : Vector4x R :=
  ⟨buf (4 * p), buf (4 * p + 1), buf (4 * p + 2), buf (4 * p + 3)⟩

/-- Writing a `Vector4x` through a `Vector4x *` of index `p`. -/
def store4 {R : Type} (buf : Nat → R) (p : Nat) (v : Vector4x R) : Nat → R :=
  fun i =>
    if i = 4 * p then v.d0
    else if i = 4 * p + 1 then v.d1
    else if i = 4 * p + 2 then v.d2
    else if i = 4 * p + 3 then v.d3
    else buf i

/-- The scalar `shuffler::shuffle4`: the values stored through `ptr1 .. ptr4`. -/
def shuffle4 {R : Type} (A B C D : Vector4x R) :
    Vector4x R × Vector4x R × Vector4x R × Vector4x R :=
  (⟨A.d0, C.d0, B.d0, D.d0⟩, ⟨A.d2, C.d2, B.d2, D.d2⟩,
   ⟨A.d1, C.d1, B.d1, D.d1⟩, ⟨A.d3, C.d3, B.d3, D.d3⟩)

/-- One iteration of the loop of `pass_1_2_reorder`, with `r1_ptr .. r4_ptr` (and
`i1_ptr .. i4_ptr`) at the given indices. -/
def pass_1_2_reorder_body {R : Type} [Add R] [Sub R] (input : Split R)
    (r1_ptr r2_ptr r3_ptr r4_ptr : Nat) : Split R :=
  let r1 := load4 input.realp r1_ptr
  let i1 := load4 input.imagp r1_ptr
  let r2 := load4 input.realp r2_ptr
  let i2 := load4 input.imagp r2_ptr
  let r3 := load4 input.realp r3_ptr
  let i3 := load4 input.imagp r3_ptr
  let r4 := load4 input.realp r4_ptr
  let i4 := load4 input.imagp r4_ptr
  let r5 := r1 + r3
  let r6 := r2 + r4
  let r7 := r1 - r3
  let r8 := r2 - r4
  let i5 := i1 + i3
  let i6 := i2 + i4
  let i7 := i1 - i3
  let i8 := i2 - i4
  let rA := r5 + r6
  let rB := r5 - r6
  let rC := r7 + i8
  let rD := r7 - i8
  let iA := i5 + i6
  let iB := i5 - i6
  let iC := i7 - r8
  let iD := i7 + r8
  let sr := shuffle4 rA rB rC rD
  let si := shuffle4 iA iB iC iD
  { realp :=
      store4 (store4 (store4 (store4 input.realp r1_ptr sr.1) r2_ptr sr.2.1) r3_ptr sr.2.2.1)
        r4_ptr sr.2.2.2,
    imagp :=
      store4 (store4 (store4 (store4 input.imagp r1_ptr si.1) r2_ptr si.2.1) r3_ptr si.2.2.1)
        r4_ptr si.2.2.2 }

/-- The loop `for (uintptr_t i = 0; i < length >> 4; i++)` of `pass_1_2_reorder`, run for
`n` iterations: the eight pointers are post-incremented once in every iteration. -/
def pass_1_2_reorder_loop {R : Type} [Add R] [Sub R] (length : Nat) :
    Nat → Split R → Split R
  | 0, input => input
  | n + 1, input =>
    pass_1_2_reorder_body (pass_1_2_reorder_loop length n input)
      n ((length >>> 4) + n) ((length >>> 4) + (length >>> 4) + n)
      ((length >>> 4) + (length >>> 4) + (length >>> 4) + n)

/-- The function `pass_1_2_reorder<T, 1>`. -/
def pass_1_2_reorder {R : Type} [Add R] [Sub R] (input : Split R) (length : Nat) : Split R :=
  pass_1_2_reorder_loop length (length >>> 4) input

/-- The function `pass_3_twiddle<T, 1>`; `sqrt2_2` is the constant `SQRT_2_2`. -/
def pass_3_twiddle {R : Type} [Zero R] [One R] [Neg R] (sqrt2_2 : R) :
    Vector4x R × Vector4x R :=
  (⟨1, sqrt2_2, 0, -sqrt2_2⟩, ⟨0, -sqrt2_2, -1, -sqrt2_2⟩)

/-- One iteration of the loop of `pass_3_reorder`, with `r1_ptr` and `r2_ptr` at the given
indices (before their increments). -/
def pass_3_reorder_body {R : Type} [Add R] [Sub R] [Mul R] (tr ti : Vector4x R)
    (input : Split R) (r1_ptr r2_ptr : Nat) : Split R :=
  let r1 := load4 input.realp r1_ptr
  let r2 := load4 input.realp (r1_ptr + 1)
  let i1 := load4 input.imagp r1_ptr
  let i2 := load4 input.imagp (r1_ptr + 1)
  let r3 := load4 input.realp r2_ptr
  let r4 := load4 input.realp (r2_ptr + 1)
  let i3 := load4 input.imagp r2_ptr
  let i4 := load4 input.imagp (r2_ptr + 1)
  let r5 := (r3 * tr) - (i3 * ti)
  let i5 := (r3 * ti) + (i3 * tr)
  let r6 := (r4 * tr) - (i4 * ti)
  let i6 := (r4 * ti) + (i4 * tr)
  { realp :=
      store4 (store4 (store4 (store4 input.realp r1_ptr (r1 + r5)) (r1_ptr + 1) (r1 - r5))
        r2_ptr (r2 + r6)) (r2_ptr + 1) (r2 - r6),
    imagp :=
      store4 (store4 (store4 (store4 input.imagp r1_ptr (i1 + i5)) (r1_ptr + 1) (i1 - i5))
        r2_ptr (i2 + i6)) (r2_ptr + 1) (i2 - i6) }

/-- The loop `for (uintptr_t i = 0, j = 0; i < length >> 1; i += 8)` of `pass_3_reorder`. -/
def pass_3_reorder_loop {R : Type} [Add R] [Sub R] [Mul R] (tr ti : Vector4x R)
    (length offset outerLoop : Nat) : Nat → Nat → Nat → Nat → Nat → Split R → Split R
  | 0, _, _, _, _, input => input
  | fuel + 1, i, j, r1_ptr, r2_ptr, input =>
    if i < length >>> 1 then
      let input := pass_3_reorder_body tr ti input r1_ptr r2_ptr
      let r1_ptr := r1_ptr + 2
      let r2_ptr := r2_ptr + 2
      let j := j + 1
      if j % outerLoop = 0 then
        pass_3_reorder_loop tr ti length offset outerLoop fuel (i + 8) j (r1_ptr + offset)
          (r2_ptr + offset) input
      else
        pass_3_reorder_loop tr ti length offset outerLoop fuel (i + 8) j r1_ptr r2_ptr input
    else input

/-- The function `pass_3_reorder<T, 1>`. -/
def pass_3_reorder {R : Type} [Zero R] [One R] [Neg R] [Add R] [Sub R] [Mul R] (sqrt2_2 : R)
    (input : Split R) (length : Nat) : Split R :=
  let offset := length >>> 5
  let outerLoop := length >>> 6
  let t := pass_3_twiddle sqrt2_2
  pass_3_reorder_loop t.1 t.2 length offset outerLoop length 0 0 0 offset input

/-- One iteration of the loop of `pass_3`, with `r_ptr` at the given index. -/
def pass_3_body {R : Type} [Add R] [Sub R] [Mul R] (tr ti : Vector4x R)
    (input : Split R) (r_ptr : Nat) : Split R :=
  let r1 := load4 input.realp r_ptr
  let r2 := load4 input.realp (r_ptr + 1)
  let i1 := load4 input.imagp r_ptr
  let i2 := load4 input.imagp (r_ptr + 1)
  let r3 := (r2 * tr) - (i2 * ti)
  let i3 := (r2 * ti) + (i2 * tr)
  { realp := store4 (store4 input.realp r_ptr (r1 + r3)) (r_ptr + 1) (r1 - r3),
    imagp := store4 (store4 input.imagp r_ptr (i1 + i3)) (r_ptr + 1) (i1 - i3) }

/-- The loop `for (uintptr_t i = 0; i < length >> 3; i++)` of `pass_3`, run for `n`
iterations: `r_ptr` and `i_ptr` are post-incremented twice in every iteration. -/
def pass_3_loop {R : Type} [Add R] [Sub R] [Mul R] (tr ti : Vector4x R) :
    Nat → Split R → Split R
  | 0, input => input
  | n + 1, input => pass_3_body tr ti (pass_3_loop tr ti n input) (2 * n)

/-- The function `pass_3<T, 1>`. -/
def pass_3 {R : Type} [Zero R] [One R] [Neg R] [Add R] [Sub R] [Mul R] (sqrt2_2 : R)
    (input : Split R) (length : Nat) : Split R :=
  let t := pass_3_twiddle sqrt2_2
  pass_3_loop t.1 t.2 (length >>> 3) input

/-- The body of the inner loop of `pass_trig_table_reorder<T, 1>`. -/
def pass_trig_table_reorder_body {R : Type} [Add R] [Sub R] [Mul R] (table : Split R)
    (incr : Nat) (input : Split R) (tr_ptr r1_ptr r2_ptr : Nat) : Split R :=
  let tr := table.realp tr_ptr
  let ti := table.imagp tr_ptr
  let r1 := input.realp r1_ptr
  let i1 := input.imagp r1_ptr
  let r2 := input.realp r2_ptr
  let i2 := input.imagp r2_ptr
  let r3 := input.realp (r1_ptr + incr)
  let i3 := input.imagp (r1_ptr + incr)
  let r4 := input.realp (r2_ptr + incr)
  let i4 := input.imagp (r2_ptr + incr)
  let r5 := (r2 * tr) - (i2 * ti)
  let i5 := (r2 * ti) + (i2 * tr)
  let r6 := (r4 * tr) - (i4 * ti)
  let i6 := (r4 * ti) + (i4 * tr)
  { realp :=
      Function.update (Function.update (Function.update (Function.update input.realp
        r1_ptr (r1 + r5)) (r1_ptr + incr) (r1 - r5)) r2_ptr (r3 + r6)) (r2_ptr + incr) (r3 - r6),
    imagp :=
      Function.update (Function.update (Function.update (Function.update input.imagp
        r1_ptr (i1 + i5)) (r1_ptr + incr) (i1 - i5)) r2_ptr (i3 + i6)) (r2_ptr + incr) (i3 - i6) }

/-- The inner loop `for (; i < loop; i += (vec_size << 1))` of `pass_trig_table_reorder`;
the result is `i`, the two data pointers and the buffer. -/
def pass_trig_table_reorder_inner {R : Type} [Add R] [Sub R] [Mul R] (table : Split R)
    (incr loop : Nat) : Nat → Nat → Nat → Nat → Nat → Split R → Nat × Nat × Nat × Split R
  | 0, i, _, r1_ptr, r2_ptr, input => (i, r1_ptr, r2_ptr, input)
  | fuel + 1, i, tr_ptr, r1_ptr, r2_ptr, input =>
    if i < loop then
      pass_trig_table_reorder_inner table incr loop fuel (i + 2) (tr_ptr + 1) (r1_ptr + 1)
        (r2_ptr + 1) (pass_trig_table_reorder_body table incr input tr_ptr r1_ptr r2_ptr)
    else (i, r1_ptr, r2_ptr, input)

/-- The outer loop `for (uintptr_t i = 0, j = 0; i < (length >> 1); loop += size)` of
`pass_trig_table_reorder`. -/
def pass_trig_table_reorder_outer {R : Type} [Add R] [Sub R] [Mul R] (table : Split R)
    (length size incr offset outerLoop : Nat) :
    Nat → Nat → Nat → Nat → Nat → Nat → Split R → Split R
  | 0, _, _, _, _, _, input => input
  | fuel + 1, i, j, loop, r1_ptr, r2_ptr, input =>
    if i < length >>> 1 then
      let r := pass_trig_table_reorder_inner table incr loop size i 0 r1_ptr r2_ptr input
      let i := r.1
      let r1_ptr := r.2.1 + incr
      let r2_ptr := r.2.2.1 + incr
      let input := r.2.2.2
      let j := j + 1
      if j % outerLoop = 0 then
        pass_trig_table_reorder_outer table length size incr offset outerLoop fuel i j
          (loop + size) (r1_ptr + offset) (r2_ptr + offset) input
      else
        pass_trig_table_reorder_outer table length size incr offset outerLoop fuel i j
          (loop + size) r1_ptr r2_ptr input
    else input

/-- The function `pass_trig_table_reorder<T, 1>`. -/
def pass_trig_table_reorder {R : Type} [Add R] [Sub R] [Mul R] (input : Split R)
    (setup : Setup R) (length pass : Nat) : Split R :=
  let size := 2 <<< pass
  let incr := size / (1 <<< 1)
  let loop := size
  let offset := (length >>> pass) / (1 <<< 1)
  let outerLoop := ((length >>> 1) / size) / (1 <<< pass)
  pass_trig_table_reorder_outer (setup.tables (pass - (trig_table_offset - 1))) length size
    incr offset outerLoop length 0 0 loop 0 offset input

/-- The body of the inner loop of `pass_trig_table<T, 1>`. -/
def pass_trig_table_body {R : Type} [Add R] [Sub R] [Mul R] (table : Split R)
    (input : Split R) (tr_ptr r1_ptr r2_ptr : Nat) : Split R :=
  let tr := table.realp tr_ptr
  let ti := table.imagp tr_ptr
  let r1 := input.realp r1_ptr
  let i1 := input.imagp r1_ptr
  let r2 := input.realp r2_ptr
  let i2 := input.imagp r2_ptr
  let r3 := (r2 * tr) - (i2 * ti)
  let i3 := (r2 * ti) + (i2 * tr)
  { realp := Function.update (Function.update input.realp r1_ptr (r1 + r3)) r2_ptr (r1 - r3),
    imagp := Function.update (Function.update input.imagp r1_ptr (i1 + i3)) r2_ptr (i1 - i3) }

/-- The inner loop `for (; i < loop; i += (vec_size << 1))` of `pass_trig_table`; the result
is `i`, the two data pointers and the buffer. -/
def pass_trig_table_inner {R : Type} [Add R] [Sub R] [Mul R] (table : Split R) (loop : Nat) :
    Nat → Nat → Nat → Nat → Nat → Split R → Nat × Nat × Nat × Split R
  | 0, i, _, r1_ptr, r2_ptr, input => (i, r1_ptr, r2_ptr, input)
  | fuel + 1, i, tr_ptr, r1_ptr, r2_ptr, input =>
    if i < loop then
      pass_trig_table_inner table loop fuel (i + 2) (tr_ptr + 1) (r1_ptr + 1) (r2_ptr + 1)
        (pass_trig_table_body table input tr_ptr r1_ptr r2_ptr)
    else (i, r1_ptr, r2_ptr, input)

/-- The outer loop `for (uintptr_t i = 0; i < length; loop += size)` of `pass_trig_table`. -/
def pass_trig_table_outer {R : Type} [Add R] [Sub R] [Mul R] (table : Split R)
    (length size incr : Nat) : Nat → Nat → Nat → Nat → Nat → Split R → Split R
  | 0, _, _, _, _, input => input
  | fuel + 1, i, loop, r1_ptr, r2_ptr, input =>
    if i < length then
      let r := pass_trig_table_inner table loop size i 0 r1_ptr r2_ptr input
      pass_trig_table_outer table length size incr fuel r.1 (loop + size) (r.2.1 + incr)
        (r.2.2.1 + incr) r.2.2.2
    else input

/-- The function `pass_trig_table<T, 1>`. -/
def pass_trig_table {R : Type} [Add R] [Sub R] [Mul R] (input : Split R)
    (setup : Setup R) (length pass : Nat) : Split R :=
  let size := 2 <<< pass
  let incr := size / (1 <<< 1)
  let loop := size
  pass_trig_table_outer (setup.tables (pass - (trig_table_offset - 1))) length size incr
    length 0 loop 0 ((size >>> 1) / 1) input

/-- The body of the loop of `pass_real_trig_table<ifft, T>`; the four stores are made in the
order of the source, so that they may hit the same element. -/
def pass_real_trig_table_body {R : Type} [Add R] [Sub R] [Mul R] [Neg R] (ifft : Bool)
    (table : Split R) (input : Split R) (tr_ptr r1_ptr r2_ptr : Nat) : Split R :=
  let tr := if ifft then -table.realp tr_ptr else table.realp tr_ptr
  let ti := table.imagp tr_ptr
  let r1 := input.realp r1_ptr
  let i1 := input.imagp r1_ptr
  let r2 := input.realp r2_ptr
  let i2 := input.imagp r2_ptr
  let r3 := r1 + r2
  let i3 := i1 + i2
  let r4 := r1 - r2
  let i4 := i1 - i2
  let t1 := (tr * i3) + (ti * r4)
  let t2 := (ti * i3) - (tr * r4)
  { realp := Function.update (Function.update input.realp r1_ptr (r3 + t1)) r2_ptr (r3 - t1),
    imagp := Function.update (Function.update input.imagp r1_ptr (t2 + i4)) r2_ptr (t2 - i4) }

/-- The loop `for (uintptr_t i = 0; i < (length >> 1); i++)` of `pass_real_trig_table`, run
for `n` iterations: `r1_ptr` and `tr_ptr` start at 1 and move up, `r2_ptr` starts at
`lengthM1` and moves down. -/
def pass_real_trig_table_loop {R : Type} [Add R] [Sub R] [Mul R] [Neg R] (ifft : Bool)
    (table : Split R) (lengthM1 : Nat) : Nat → Split R → Split R
  | 0, input => input
  | n + 1, input =>
    pass_real_trig_table_body ifft table (pass_real_trig_table_loop ifft table lengthM1 n input)
      (1 + n) (1 + n) (lengthM1 - n)

/-- The function `pass_real_trig_table<ifft, T>`. -/
def pass_real_trig_table {R : Type} [Add R] [Sub R] [Mul R] [Neg R] (ifft : Bool)
    (input : Split R) (setup : Setup R) (fft_log2 : Nat) : Split R :=
  let length := 1 <<< (fft_log2 - 1)
  let lengthM1 := length - 1
  let table := setup.tables (fft_log2 - trig_table_offset)
  let t1 := input.realp 0 + input.imagp 0
  let t2 := input.realp 0 - input.imagp 0
  let input : Split R :=
    { realp := Function.update input.realp 0 (if ifft then t1 else t1 + t1),
      imagp := Function.update input.imagp 0 (if ifft then t2 else t2 + t2) }
  pass_real_trig_table_loop ifft table lengthM1 (length >>> 1) input

/-- Writing a list of scalars to consecutive elements from index 0 on. -/
def store_list {R : Type} (buf : Nat → R) (vals : List R) : Nat → R :=
  fun i => if h : i < vals.length then vals.get ⟨i, h⟩ else buf i

/-- The function `small_fft` (complex FFTs of 2, 4 or 8 points). -/
def small_fft {R : Type} [Zero R] [One R] [Neg R] [Add R] [Sub R] [Mul R] (sqrt2_2 : R)
    (input : Split R) (fft_log2 : Nat) : Split R :=
  let r1_ptr := input.realp
  let i1_ptr := input.imagp
  if fft_log2 = 1 then
    let r1 := r1_ptr 0
    let r2 := r1_ptr 1
    let i1 := i1_ptr 0
    let i2 := i1_ptr 1
    { realp := store_list r1_ptr [r1 + r2, r1 - r2],
      imagp := store_list i1_ptr [i1 + i2, i1 - i2] }
  else if fft_log2 = 2 then
    let r5 := r1_ptr 0
    let r6 := r1_ptr 1
    let r7 := r1_ptr 2
    let r8 := r1_ptr 3
    let i5 := i1_ptr 0
    let i6 := i1_ptr 1
    let i7 := i1_ptr 2
    let i8 := i1_ptr 3
    let r1 := r5 + r7
    let r2 := r5 - r7
    let r3 := r6 + r8
    let r4 := r6 - r8
    let i1 := i5 + i7
    let i2 := i5 - i7
    let i3 := i6 + i8
    let i4 := i6 - i8
    { realp := store_list r1_ptr [r1 + r3, r2 + i4, r1 - r3, r2 - i4],
      imagp := store_list i1_ptr [i1 + i3, i2 - r4, i1 - i3, i2 + r4] }
  else if fft_log2 = 3 then
    let r1 := r1_ptr 0 + r1_ptr 4
    let r2 := r1_ptr 0 - r1_ptr 4
    let r3 := r1_ptr 2 + r1_ptr 6
    let r4 := r1_ptr 2 - r1_ptr 6
    let r5 := r1_ptr 1 + r1_ptr 5
    let r6 := r1_ptr 1 - r1_ptr 5
    let r7 := r1_ptr 3 + r1_ptr 7
    let r8 := r1_ptr 3 - r1_ptr 7
    let i1 := i1_ptr 0 + i1_ptr 4
    let i2 := i1_ptr 0 - i1_ptr 4
    let i3 := i1_ptr 2 + i1_ptr 6
    let i4 := i1_ptr 2 - i1_ptr 6
    let i5 := i1_ptr 1 + i1_ptr 5
    let i6 := i1_ptr 1 - i1_ptr 5
    let i7 := i1_ptr 3 + i1_ptr 7
    let i8 := i1_ptr 3 - i1_ptr 7
    let input : Split R :=
      { realp := store_list r1_ptr
          [r1 + r3, r2 + i4, r1 - r3, r2 - i4, r5 + r7, r6 + i8, r5 - r7, r6 - i8],
        imagp := store_list i1_ptr
          [i1 + i3, i2 - r4, i1 - i3, i2 + r4, i5 + i7, i6 - r8, i5 - i7, i6 + r8] }
    pass_3 sqrt2_2 input 8
  else input

/-- The function `small_real_fft<ifft, T>` (real FFTs of 2 or 4 points). -/
def small_real_fft {R : Type} [Add R] [Sub R] (ifft : Bool) (input : Split R)
    (fft_log2 : Nat) : Split R :=
  let r1_ptr := input.realp
  let i1_ptr := input.imagp
  if fft_log2 = 1 then
    let r1 := if ifft then r1_ptr 0 else r1_ptr 0 + r1_ptr 0
    let r2 := if ifft then i1_ptr 0 else i1_ptr 0 + i1_ptr 0
    { realp := store_list r1_ptr [r1 + r2],
      imagp := store_list i1_ptr [r1 - r2] }
  else if fft_log2 = 2 then
    if !ifft then
      let r1 := r1_ptr 0 + r1_ptr 1
      let r2 := r1_ptr 0 - r1_ptr 1
      let i1 := i1_ptr 0 + i1_ptr 1
      let i2 := i1_ptr 1 - i1_ptr 0
      let r3 := r1 + i1
      let i3 := r1 - i1
      { realp := store_list r1_ptr [r3 + r3, r2 + r2],
        imagp := store_list i1_ptr [i3 + i3, i2 + i2] }
    else
      let i1 := r1_ptr 0
      let r2 := r1_ptr 1 + r1_ptr 1
      let i2 := i1_ptr 0
      let r4 := i1_ptr 1 + i1_ptr 1
      let r1 := i1 + i2
      let r3 := i1 - i2
      { realp := store_list r1_ptr [r1 + r2, r1 - r2],
        imagp := store_list i1_ptr [r3 - r4, r3 + r4] }
  else input

/-- The loop `for (i = 4; i < (fft_log2 >> 1); i++)` of `fft_passes`, run over the passes
`i .. i + n - 1`. -/
def fft_passes_reorder_loop {R : Type} [Add R] [Sub R] [Mul R] (setup : Setup R)
    (length : Nat) : Nat → Nat → Split R → Split R
  | 0, _, input => input
  | n + 1, i, input =>
    fft_passes_reorder_loop setup length n (i + 1) (pass_trig_table_reorder input setup length i)

/-- The loop `for (; i < fft_log2; i++)` of `fft_passes`, run over the passes
`i .. i + n - 1`. -/
def fft_passes_loop {R : Type} [Add R] [Sub R] [Mul R] (setup : Setup R)
    (length : Nat) : Nat → Nat → Split R → Split R
  | 0, _, input => input
  | n + 1, i, input =>
    fft_passes_loop setup length n (i + 1) (pass_trig_table input setup length i)

/-- The function `fft_passes<T, 1>`. The two `for` loops run over `4 ≤ i < fft_log2 >> 1`
and over the remaining `i < fft_log2`. -/
def fft_passes {R : Type} [Zero R] [One R] [Neg R] [Add R] [Sub R] [Mul R] (sqrt2_2 : R)
    (input : Split R) (setup : Setup R) (fft_log2 : Nat) : Split R :=
  let length := 1 <<< fft_log2
  let input := pass_1_2_reorder input length
  let input :=
    if fft_log2 > 5 then pass_3_reorder sqrt2_2 input length else pass_3 sqrt2_2 input length
  let input :=
    if 3 < fft_log2 >>> 1 then pass_trig_table_reorder input setup length 3
    else pass_trig_table input setup length 3
  let n1 := (fft_log2 >>> 1) - 4
  let input := fft_passes_reorder_loop setup length n1 4 input
  let i := 4 + n1
  fft_passes_loop setup length (fft_log2 - i) i input

/-- The function `hisstools_fft`, on the scalar path. -/
def hisstools_fft {R : Type} [Zero R] [One R] [Neg R] [Add R] [Sub R] [Mul R] (sqrt2_2 : R)
    (input : Split R) (setup : Setup R) (fft_log2 : Nat) : Split R :=
  if fft_log2 ≥ 4 then fft_passes sqrt2_2 input setup fft_log2
  else small_fft sqrt2_2 input fft_log2

/-- The function `hisstools_ifft`: the forward transform on the buffer with the real and
imaginary pointers swapped. -/
def hisstools_ifft {R : Type} [Zero R] [One R] [Neg R] [Add R] [Sub R] [Mul R] (sqrt2_2 : R)
    (input : Split R) (setup : Setup R) (fft_log2 : Nat) : Split R :=
  let swap : Split R := { realp := input.imagp, imagp := input.realp }
  let r := hisstools_fft sqrt2_2 swap setup fft_log2
  { realp := r.imagp, imagp := r.realp }

/-- The in-place function `hisstools_rfft(Split<T> *, Setup<T> *, uintptr_t)`. -/
def hisstools_rfft {R : Type} [Zero R] [One R] [Neg R] [Add R] [Sub R] [Mul R] (sqrt2_2 : R)
    (input : Split R) (setup : Setup R) (fft_log2 : Nat) : Split R :=
  if fft_log2 ≥ 3 then
    pass_real_trig_table false (hisstools_fft sqrt2_2 input setup (fft_log2 - 1)) setup fft_log2
  else small_real_fft false input fft_log2

/-- The in-place function `hisstools_rifft(Split<T> *, Setup<T> *, uintptr_t)`. -/
def hisstools_rifft {R : Type} [Zero R] [One R] [Neg R] [Add R] [Sub R] [Mul R] (sqrt2_2 : R)
    (input : Split R) (setup : Setup R) (fft_log2 : Nat) : Split R :=
  if fft_log2 ≥ 3 then
    hisstools_ifft sqrt2_2 (pass_real_trig_table true input setup fft_log2) setup (fft_log2 - 1)
  else small_real_fft true input fft_log2

/-! ### Specification vocabulary over `ℝ` and `ℂ` -/

/-- The complex sample `n` of a split buffer of reals. -/
def cplx (s : Split ℝ) (n : Nat) : ℂ := ⟨s.realp n, s.imagp n⟩

/-- The unnormalised forward DFT of size `N`:
`X[k] = ∑ n < N, x[n] * exp (-2 * π * i * n * k / N)`. -/
noncomputable def dft (N : Nat) (x : Nat → ℂ) (k : Nat) : ℂ :=
  ∑ n in Finset.range N, x n * Complex.exp (-2 * Real.pi * Complex.I * n * k / N)

/-- The root of unity `exp (-2 * π * i / N)`. -/
noncomputable def omega (N : Nat) : ℂ := Complex.exp (-2 * Real.pi * Complex.I / N)

/-- The lane `j` of a `Vector4x` (`mData[j]`). -/
def Vector4x.lane {R : Type} (v : Vector4x R) : Nat → R
  | 0 => v.d0
  | 1 => v.d1
  | 2 => v.d2
  | _ => v.d3

/-- The complex twiddle factor held in lane `j` of a pair of `Vector4x`. -/
def twiddle4 (tr ti : Vector4x ℝ) (j : Nat) : ℂ := ⟨tr.lane j, ti.lane j⟩

/-- The eight powers of `omega 8`, with `√2 / 2` as in pass three. -/
noncomputable def w8 : Nat → ℂ
  | 0 => 1
  | 1 => ⟨Real.sqrt 2 / 2, -(Real.sqrt 2 / 2)⟩
  | 2 => ⟨0, -1⟩
  | 3 => ⟨-(Real.sqrt 2 / 2), -(Real.sqrt 2 / 2)⟩
  | 4 => ⟨-1, 0⟩
  | 5 => ⟨-(Real.sqrt 2 / 2), Real.sqrt 2 / 2⟩
  | 6 => ⟨0, 1⟩
  | 7 => ⟨Real.sqrt 2 / 2, Real.sqrt 2 / 2⟩
  | _ => 1

/-- The four powers of `omega 4`. -/
noncomputable def w4 : Nat → ℂ
  | 0 => 1
  | 1 => ⟨0, -1⟩
  | 2 => ⟨-1, 0⟩
  | 3 => ⟨0, 1⟩
  | _ => 1

/-- The two powers of `omega 2`. -/
noncomputable def w2 : Nat → ℂ
  | 0 => 1
  | 1 => ⟨-1, 0⟩
  | _ => 1

/-- Real samples packed into a split buffer: `realp[k] = x[2k]`, `imagp[k] = x[2k+1]`. -/
def unzip {R : Type} (x : Nat → R) : Split R :=
  { realp := fun k => x (2 * k), imagp := fun k => x (2 * k + 1) }

/-- The convolver with the two input rings replaced. -/
def with_io (st : convolve_partitioned R) (b0 b1 : Nat → R) : convolve_partitioned R :=
  { st with m_fft_buffers_0 := b0, m_fft_buffers_1 := b1 }

/-- The signed number of scheduled partitions of one sub-block: everything left when the
sub-block ends on a hop boundary (`fft_counter = 0`), the proportional quota otherwise. -/
def sched_todo (valid done fft_counter half : Nat) : Int :=
  if fft_counter = 0 then ((valid : Int) - (done : Int)) - 1
  else ((((valid - 1) * fft_counter) / half : Nat) : Int) - (done : Int)

/-- `process_iter` with arithmetic in closed form: the masks are remainders and the
scheduling loop is the iterated single step. -/
def process_iter_alt [Field R] (K : FFTKernel R) (W : Nat) (inp : Nat → R)
    (accumulate : Bool)
    (v : convolve_partitioned R × Nat × Nat × Nat × Nat × (Nat → R)) :
    convolve_partitioned R × Nat × Nat × Nat × Nat × (Nat → R) :=
  let st := v.1
  let rw_counter := v.2.1
  let half := 2 ^ (st.m_fft_size_log2 - 1)
  let loop_size := min v.2.2.1 (half - rw_counter % half)
  let st1 := with_io st (copy_n inp v.2.2.2.1 loop_size st.m_fft_buffers_0 rw_counter)
    (copy_n inp v.2.2.2.1 loop_size st.m_fft_buffers_1
      ((rw_counter + half) % 2 ^ st.m_fft_size_log2))
  let out :=
    if accumulate then add_n st.m_fft_buffers_3 rw_counter loop_size v.2.2.2.2.2 v.2.2.2.2.1
    else copy_n st.m_fft_buffers_3 rw_counter loop_size v.2.2.2.2.2 v.2.2.2.2.1
  let fft_counter := (rw_counter + loop_size) % half
  let st2 := (sched_step W half)^[
    (sched_todo st.m_valid_partitions st.m_partitions_done fft_counter half).toNat] st1
  let r := if fft_counter = 0 then fft_step K W st2 (rw_counter + loop_size)
    else (st2, rw_counter + loop_size)
  (r.1, r.2, v.2.2.1 - loop_size, v.2.2.2.1 + loop_size, v.2.2.2.2.1 + loop_size, out)

/-- The convolver with the stored read/write counter replaced. -/
def with_rw (st : convolve_partitioned R) (x : Nat) : convolve_partitioned R :=
  { st with m_rw_counter := x }

/-- The Hermitian spectrum of length `F` that a packed half-spectrum stands for: bin 0 is
`realp[0]`, the Nyquist bin `F/2` is `imagp[0]`, and the upper bins are the conjugates of the
lower ones. -/
def herm (F : Nat) (S : Split ℝ) (k : Nat) : ℂ :=
  if k = 0 then ((S.realp 0 : ℝ) : ℂ)
  else if k = F / 2 then ((S.imagp 0 : ℝ) : ℂ)
  else if k < F / 2 then ⟨S.realp k, S.imagp k⟩
  else ⟨S.realp (F - k), -S.imagp (F - k)⟩

/-- Modelled from the spec: the exact forward real transform behind the buffer-to-buffer
`hisstools_rfft` (declared in `HISSTools_FFT.h`, not among the sources): twice the DFT of the
`2 ^ log2n` real samples, the real Nyquist value packed into `imagp[0]`. -/
noncomputable def exact_rfft (log2n : Nat) (x : Nat → ℝ) : Split ℝ :=
  { realp := fun k => 2 * (dft (2 ^ log2n) (fun n => ((x n : ℝ) : ℂ)) k).re,
    imagp := fun k =>
      if k = 0 then 2 * (dft (2 ^ log2n) (fun n => ((x n : ℝ) : ℂ)) (2 ^ log2n / 2)).re
      else 2 * (dft (2 ^ log2n) (fun n => ((x n : ℝ) : ℂ)) k).im }

/-- Modelled from the spec: the exact inverse real transform behind the buffer-to-buffer
`hisstools_rifft`: the unnormalised inverse DFT of the Hermitian spectrum of the packed
input. -/
noncomputable def exact_rifft (log2n : Nat) (S : Split ℝ) (n : Nat) : ℝ :=
  (∑ k in Finset.range (2 ^ log2n),
    herm (2 ^ log2n) S k * Complex.exp (2 * Real.pi * Complex.I * k * n / (2 ^ log2n : ℕ))).re

/-- Modelled from the spec: the kernel's transforms in exact real arithmetic. -/
noncomputable def exact_kernel : FFTKernel ℝ :=
  { rfft := exact_rfft, rifft := exact_rifft }

/-- The packed complex multiply-accumulate over `num_bins` bins: bin 0 holds two real
values (DC and Nyquist) that are multiplied separately. -/
def packed_mac {R : Type} [Add R] [Sub R] [Mul R] (in_1 in_2 out : Split R) (num_bins : Nat) :
    Split R :=
  { realp := fun k =>
      if k < num_bins then
        if k = 0 then out.realp 0 + in_1.realp 0 * in_2.realp 0
        else out.realp k + (in_1.realp k * in_2.realp k - in_1.imagp k * in_2.imagp k)
      else out.realp k,
    imagp := fun k =>
      if k < num_bins then
        if k = 0 then out.imagp 0 + in_1.imagp 0 * in_2.imagp 0
        else out.imagp k + (in_1.realp k * in_2.imagp k + in_1.imagp k * in_2.realp k)
      else out.imagp k }

/-- The complex multiply-accumulate of `process_partition` applied to the lanes
`lo ≤ e < hi`. -/
def mac_range {R : Type} [Add R] [Sub R] [Mul R] (in_1 in_2 out : Split R) (lo hi : Nat) :
    Split R :=
  { realp := fun e =>
      if lo ≤ e ∧ e < hi then
        out.realp e + (in_1.realp e * in_2.realp e - in_1.imagp e * in_2.imagp e)
      else out.realp e,
    imagp := fun e =>
      if lo ≤ e ∧ e < hi then
        out.imagp e + (in_1.realp e * in_2.imagp e + in_1.imagp e * in_2.realp e)
      else out.imagp e }

/-- Agreement of two split buffers on their first `n` bins. -/
def bins_eq {R : Type} (n : Nat) (a b : Split R) : Prop :=
  ∀ k, k < n → a.realp k = b.realp k ∧ a.imagp k = b.imagp k

/-- The window transformed at the end of hop `t` of the stream `xv`: the hop just received
in the lower half, the hop before it (nothing before the first) in the upper half. -/
def hop_window {R : Type} [Zero R] (xv : Nat → R) (half t : Nat) : Nat → R :=
  fun i =>
    if i < half then xv (t * half + i)
    else if i < 2 * half ∧ t ≠ 0 then xv ((t - 1) * half + (i - half))
    else 0

/-- The history slot that receives the spectrum of hop `s`: `m_input_position` starts at 0
and steps downwards, wrapping from 0 to `P - 1`. -/
def slot (P s : Nat) : Nat := (P - s % P) % P

/-- The accumulator during hop `t` after `d` scheduled partitions: the spectra of the hops
`t - 1, t - 2, ...` multiplied with the impulse partitions `1, 2, ...`. -/
def hop_accum {R : Type} [Zero R] [Add R] [Sub R] [Mul R] (K : FFTKernel R) (lg : Nat)
    (Hs : Nat → Split R) (xv : Nat → R) (t : Nat) : Nat → Split R
  | 0 => ⟨fun _ => 0, fun _ => 0⟩
  | d + 1 =>
    packed_mac (K.rfft lg (hop_window xv (2 ^ (lg - 1)) (t - (d + 1)))) (Hs (d + 1))
      (hop_accum K lg Hs xv t d) (2 ^ (lg - 1))

/-- The spectrum handed to the inverse transform at the end of hop `t`. -/
def hop_total {R : Type} [Zero R] [Add R] [Sub R] [Mul R] (K : FFTKernel R) (lg P : Nat)
    (Hs : Nat → Split R) (xv : Nat → R) (t : Nat) : Split R :=
  packed_mac (K.rfft lg (hop_window xv (2 ^ (lg - 1)) t)) (Hs 0)
    (hop_accum K lg Hs xv t (min P (t + 1) - 1)) (2 ^ (lg - 1))

/-- The scaled output block stored at the end of hop `t`. -/
def hop_output {R : Type} [Field R] (K : FFTKernel R) (lg P : Nat)
    (Hs : Nat → Split R) (xv : Nat → R) (t i : Nat) : R :=
  K.rifft lg (first_bins (hop_total K lg P Hs xv t) (2 ^ (lg - 1))) i
    * (1 / ((2 ^ lg <<< 2 : Nat) : R))

/-- The state of the convolver at the start of hop `t` (after `t` transforms since the
reset), for the virtual stream `xv` that begins with the `r` zeros of the reset offset. -/
structure HopInv {R : Type} [Field R] (K : FFTKernel R) (lg P : Nat) (Hs : Nat → Split R)
    (xv : Nat → R) (r t : Nat) (st : convolve_partitioned R) : Prop where
  lg_eq : st.m_fft_size_log2 = lg
  num_eq : st.m_num_partitions = P
  imp : ∀ q, q < P →
    bins_eq (2 ^ (lg - 1)) (offset_split_pointer st.m_impulse_buffer (q * 2 ^ (lg - 1))) (Hs q)
  pos : st.m_input_position = slot P t
  last : 1 ≤ t → st.m_last_partition = slot P t + 1
  valid : st.m_valid_partitions = min P (t + 1)
  done : st.m_partitions_done = 0
  acc : bins_eq (2 ^ (lg - 1)) st.m_accum_buffer ⟨fun _ => 0, fun _ => 0⟩
  hist : ∀ s, s < t → t < s + P →
    bins_eq (2 ^ (lg - 1)) (offset_split_pointer st.m_input_buffer (slot P s * 2 ^ (lg - 1)))
      (K.rfft lg (hop_window xv (2 ^ (lg - 1)) s))
  ring0 : t % 2 = 0 → ∀ i, i < 2 ^ (lg - 1) →
    st.m_fft_buffers_0 (2 ^ (lg - 1) + i) = if t = 0 then 0 else xv ((t - 1) * 2 ^ (lg - 1) + i)
  ring1 : t % 2 = 1 → ∀ i, i < 2 ^ (lg - 1) →
    st.m_fft_buffers_1 (2 ^ (lg - 1) + i) = xv ((t - 1) * 2 ^ (lg - 1) + i)
  start : t = 0 → ∀ i, i < r →
    st.m_fft_buffers_0 i = xv i ∧ st.m_fft_buffers_1 (2 ^ (lg - 1) + i) = xv i
  outring : ∀ i, i < 2 ^ (lg - 1) →
    st.m_fft_buffers_3 (t % 2 * 2 ^ (lg - 1) + i)
      = if t = 0 then 0 else hop_output K lg P Hs xv (t - 1) i

/-- The output stream in terms of the hop outputs: virtual position `v` receives sample
`v % half` of the block stored at the end of hop `v / half - 1`; the first hop is silent. -/
def hop_stream {R : Type} [Field R] (K : FFTKernel R) (lg P : Nat)
    (Hs : Nat → Split R) (xv : Nat → R) (v : Nat) : R :=
  if v < 2 ^ (lg - 1) then 0
  else hop_output K lg P Hs xv (v / 2 ^ (lg - 1) - 1) (v % 2 ^ (lg - 1))

/-- The input stream as the convolver sees it after a reset to `rw_counter = r`: the `r`
ring positions before the first sample are silent, then sample `v - r` of the stream that
starts at `inp + ip`. -/
def virt {R : Type} [Zero R] (inp : Nat → R) (ip r v : Nat) : R :=
  if v < r then 0 else inp (ip + (v - r))

/-- The linear convolution of the stream `x` with the first `len` samples of `h`, delayed
by `delay` samples: `∑ k < len, h[k] * x[n - delay - k]`, terms with a negative stream index
being zero. -/
noncomputable def delayed_convolution (h : Nat → ℝ) (len : Nat) (x : Nat → ℝ) (delay n : Nat) :
    ℝ :=
  ∑ k in Finset.range len, if k + delay ≤ n then h k * x (n - delay - k) else 0

/-- A convolver over `ℝ` with every member zero, from which concrete convolvers are built. -/
def zero_state_real : convolve_partitioned ℝ :=
  { m_offset := 0, m_length := 0, m_max_impulse_length := 0, m_max_fft_size_log2 := 0,
    m_fft_size_log2 := 0, m_rw_counter := 0, m_input_position := 0, m_partitions_done := 0,
    m_last_partition := 0, m_num_partitions := 0, m_valid_partitions := 0,
    m_fft_buffers_0 := fun _ => 0, m_fft_buffers_1 := fun _ => 0,
    m_fft_buffers_2 := fun _ => 0, m_fft_buffers_3 := fun _ => 0,
    m_impulse_buffer := ⟨fun _ => 0, fun _ => 0⟩, m_input_buffer := ⟨fun _ => 0, fun _ => 0⟩,
    m_accum_buffer := ⟨fun _ => 0, fun _ => 0⟩, m_partition_temp := ⟨fun _ => 0, fun _ => 0⟩,
    m_reset_offset := 0, m_reset_flag := false, m_rand_dist_max := 0 }

/-- Reversal of the low `u` bits of `b`. -/
def rev : Nat → Nat → Nat
  | 0, _ => 0
  | u + 1, b => (b % 2) * 2 ^ u + rev u (b / 2)

/-- The DFT of size `2 ^ s` of the decimated sequence `x[m + k * 2 ^ (n - s)]`, `k < 2 ^ s`:
the intermediate result of a decimation-in-time FFT of size `2 ^ n`. -/
noncomputable def sub_dft (x : Nat → ℂ) (n s m t : Nat) : ℂ :=
  ∑ k in Finset.range (2 ^ s), x (m + k * 2 ^ (n - s)) * omega (2 ^ s) ^ (k * t)

/-- The layout of the buffer after the reordering passes have built the sub-DFTs of size
`2 ^ s`: the top `s` index bits are bit-reversed. -/
def LayR (x : Nat → ℂ) (n s : Nat) (buf : Nat → ℂ) : Prop :=
  ∀ top c t, top < 2 ^ s → c < 2 ^ (n - 2 * s) → t < 2 ^ s →
    buf (top * 2 ^ (n - s) + c * 2 ^ s + t) = sub_dft x n s (c * 2 ^ s + rev s top) t

/-- The layout of the buffer during the non-reordering passes: block `b` of size `2 ^ s`
holds the sub-DFT of the bit-reversed offset. -/
def LayN (x : Nat → ℂ) (n s : Nat) (buf : Nat → ℂ) : Prop :=
  ∀ b t, b < 2 ^ (n - s) → t < 2 ^ s →
    buf (b * 2 ^ s + t) = sub_dft x n s (rev (n - s) b) t

/-- An in-place radix-2 pass over blocks of `2 ^ (p + 1)` elements with twiddles `T`. -/
def IsPass (n p : Nat) (T : Nat → ℂ) (a b : Nat → ℂ) : Prop :=
  ∀ k e t, k < 2 ^ (n - p - 1) → e < 2 → t < 2 ^ p →
    b (k * 2 ^ (p + 1) + e * 2 ^ p + t)
      = a (k * 2 ^ (p + 1) + t) + (-1) ^ e * T t * a (k * 2 ^ (p + 1) + 2 ^ p + t)

/-- A reordering radix-2 pass: the butterflies pair blocks that lie `2 ^ (n - p - 1)`
apart and the results are stored with two index bits exchanged. -/
def IsPassR (n p : Nat) (T : Nat → ℂ) (a b : Nat → ℂ) : Prop :=
  ∀ top h c e t, top < 2 ^ p → h < 2 → c < 2 ^ (n - 2 * p - 2) → e < 2 → t < 2 ^ p →
    b (top * 2 ^ (n - p) + h * 2 ^ (n - p - 1) + c * 2 ^ (p + 1) + e * 2 ^ p + t)
      = a (top * 2 ^ (n - p) + c * 2 ^ (p + 1) + h * 2 ^ p + t)
        + (-1) ^ e * T t
          * a (top * 2 ^ (n - p) + 2 ^ (n - p - 1) + c * 2 ^ (p + 1) + h * 2 ^ p + t)

/-- A counted loop whose body depends on the iteration number: `step 0`, then `step 1`, ...,
`step (M - 1)`. -/
def iter_steps {S : Type} (step : Nat → S → S) : Nat → S → S
  | 0, s => s
  | M + 1, s => step M (iter_steps step M s)

/-- The position of the first data pointer of a reordering pass at its `K`-th block: it
advances by `u` per block and by a further `off` after every `oL` blocks. -/
def rbase (u off oL : Nat) : Nat → Nat
  | 0 => 0
  | K + 1 => rbase u off oL K + u + (if (K + 1) % oL = 0 then off else 0)

/-- The block number of the first data pointer at the `K`-th step of a reordering pass. -/
def rblk (oL K : Nat) : Nat := 2 * (K / oL) * oL + K % oL

/-- The 4-point DFT of `(a, b, c, d)` at frequency `m`. -/
noncomputable def dft4 (a b c d : ℂ) (m : Nat) : ℂ :=
  a + omega 4 ^ m * b + omega 4 ^ (2 * m) * c + omega 4 ^ (3 * m) * d

/-- The twiddle tables hold the exact values that `create_setup` computes: table
`i - trig_table_offset` (for `trig_table_offset ≤ i ≤ max_fft_log2`) has `2 ^ (i - 1)` entries
`cos (-j * π / 2 ^ (i - 1))`, `sin (-j * π / 2 ^ (i - 1))`. -/
def exact_tables (setup : Setup ℝ) : Prop :=
  ∀ i j, trig_table_offset ≤ i → i ≤ setup.max_fft_log2 → j < 2 ^ (i - 1) →
    (setup.tables (i - trig_table_offset)).realp j
        = Real.cos (-(j : ℝ) * Real.pi / ((2 ^ (i - 1) : ℕ) : ℝ)) ∧
    (setup.tables (i - trig_table_offset)).imagp j
        = Real.sin (-(j : ℝ) * Real.pi / ((2 ^ (i - 1) : ℕ) : ℝ))

/-- The function `create_setup<T>` over exact reals: table `i - trig_table_offset`, for
`trig_table_offset ≤ i ≤ max_fft_log2`, receives `length = 2 ^ (i - 1)` entries
`cos (-j * π / length)`, `sin (-j * π / length)`. Elements that the function does not write
read as 0 here. -/
noncomputable def create_setup (max_fft_log2 : Nat) : Setup ℝ :=
  { max_fft_log2 := max_fft_log2,
    tables := fun q =>
      { realp := fun j =>
          if q + trig_table_offset ≤ max_fft_log2 ∧ j < 2 ^ (q + trig_table_offset - 1) then
            Real.cos (-(j : ℝ) * Real.pi / ((2 ^ (q + trig_table_offset - 1) : ℕ) : ℝ))
          else 0,
        imagp := fun j =>
          if q + trig_table_offset ≤ max_fft_log2 ∧ j < 2 ^ (q + trig_table_offset - 1) then
            Real.sin (-(j : ℝ) * Real.pi / ((2 ^ (q + trig_table_offset - 1) : ℕ) : ℝ))
          else 0 } }

/-- Two convolvers between which `process` cannot tell a difference: the counters agree,
the impulse spectra agree on the `m_num_partitions` partitions, the input and output rings
agree over the FFT size, the accumulator over the hop, and the input-history slots agree
where the schedule will read them (the `m_valid_partitions - 1` slots after
`m_input_position`). Everything else (the stale part of the input history, memory that
`process` never reads) may differ. -/
structure Sync {R : Type} (a b : convolve_partitioned R) : Prop where
  lg_pos : 1 ≤ a.m_fft_size_log2
  lg_eq : a.m_fft_size_log2 = b.m_fft_size_log2
  num_eq : a.m_num_partitions = b.m_num_partitions
  valid_eq : a.m_valid_partitions = b.m_valid_partitions
  done_eq : a.m_partitions_done = b.m_partitions_done
  last_eq : a.m_last_partition = b.m_last_partition
  pos_eq : a.m_input_position = b.m_input_position
  imp : bins_eq (a.m_num_partitions * 2 ^ (a.m_fft_size_log2 - 1))
    a.m_impulse_buffer b.m_impulse_buffer
  ring0 : ∀ i, i < 2 ^ a.m_fft_size_log2 → a.m_fft_buffers_0 i = b.m_fft_buffers_0 i
  ring1 : ∀ i, i < 2 ^ a.m_fft_size_log2 → a.m_fft_buffers_1 i = b.m_fft_buffers_1 i
  ring3 : ∀ i, i < 2 ^ a.m_fft_size_log2 → a.m_fft_buffers_3 i = b.m_fft_buffers_3 i
  acc : bins_eq (2 ^ (a.m_fft_size_log2 - 1)) a.m_accum_buffer b.m_accum_buffer
  valid_pos : 1 ≤ a.m_valid_partitions
  valid_le : a.m_valid_partitions ≤ a.m_num_partitions
  done_lt : a.m_partitions_done < a.m_valid_partitions
  pos_lt : a.m_input_position < a.m_num_partitions
  cursor : a.m_valid_partitions = 1 ∨
    (if a.m_last_partition < a.m_num_partitions then a.m_last_partition else 0)
      = (a.m_input_position + 1 + a.m_partitions_done) % a.m_num_partitions
  hist : ∀ j, 1 ≤ j → j < a.m_valid_partitions →
    bins_eq (2 ^ (a.m_fft_size_log2 - 1))
      (offset_split_pointer a.m_input_buffer
        ((a.m_input_position + j) % a.m_num_partitions * 2 ^ (a.m_fft_size_log2 - 1)))
      (offset_split_pointer b.m_input_buffer
        ((a.m_input_position + j) % a.m_num_partitions * 2 ^ (a.m_fft_size_log2 - 1)))

/-- A sequence of `process` calls on one convolver, each with its own `in` and `out`
positions, block size and `accumulate` flag (`(in_pos, out_pos, num_samples, accumulate)`),
threading the convolver and the output array. -/
def process_calls {R : Type} [Field R] (K : FFTKernel R) (W : Nat) (rnd : Nat) (inp : Nat → R) :
    List (Nat × Nat × Nat × Bool) → convolve_partitioned R → (Nat → R) →
      Option (convolve_partitioned R × (Nat → R))
  | [], st, out => some (st, out)
  | c :: cs, st, out =>
    match process K W rnd st inp c.1 out c.2.1 c.2.2.1 c.2.2.2 with
    | none => none
    | some r => process_calls K W rnd inp cs r.1 r.2

/-- Two convolvers at a call boundary that agree on what survives a reset: either both have
the reset flag set and agree on the FFT size, the number of partitions, the impulse spectra
and a non-negative reset offset, or both have it clear, cannot be told apart by `process`
and store the same read/write counter. -/
def Aligned {R : Type} (a b : convolve_partitioned R) : Prop :=
  (a.m_reset_flag = true ∧ b.m_reset_flag = true ∧ 1 ≤ a.m_fft_size_log2 ∧
    a.m_fft_size_log2 = b.m_fft_size_log2 ∧ a.m_num_partitions = b.m_num_partitions ∧
    bins_eq (a.m_num_partitions * 2 ^ (a.m_fft_size_log2 - 1))
      a.m_impulse_buffer b.m_impulse_buffer ∧
    a.m_reset_offset = b.m_reset_offset ∧ 0 ≤ a.m_reset_offset ∧
    a.m_fft_size_log2 ≤ a.m_max_fft_size_log2 ∧ b.m_fft_size_log2 ≤ b.m_max_fft_size_log2) ∨
  (a.m_reset_flag = false ∧ b.m_reset_flag = false ∧ Sync a b ∧
    a.m_rw_counter = b.m_rw_counter ∧ a.m_rw_counter < 2 ^ a.m_fft_size_log2)

/-- A convolver over `ℚ` of FFT size 32 with two partitions, the reset flag set and stale
contents `x` in every buffer that a reset makes irrelevant. -/
def stale_state (x : ℚ) (c : Nat) : convolve_partitioned ℚ :=
  { zero_state with
    m_fft_size_log2 := 5, m_max_fft_size_log2 := 5, m_num_partitions := 2,
    m_reset_flag := true, m_reset_offset := 3,
    m_rw_counter := c, m_input_position := c, m_partitions_done := c, m_last_partition := c,
    m_valid_partitions := c,
    m_fft_buffers_0 := fun _ => x, m_fft_buffers_1 := fun _ => x, m_fft_buffers_2 := fun _ => x,
    m_fft_buffers_3 := fun _ => x, m_input_buffer := ⟨fun _ => x, fun _ => x⟩,
    m_accum_buffer := ⟨fun _ => x, fun _ => x⟩,
    m_impulse_buffer := ⟨fun i => (i : ℚ), fun _ => 1⟩ }

/-- Counters of the calls that `process` makes: forward transforms (`hisstools_rfft`),
inverse transforms (`hisstools_rifft`) and partition multiply-accumulates
(`process_partition`). The counters are not members of the convolver; the functions
`*_work` below are the code of `process` with a counter incremented at each call site. -/
@[ext]
structure Work where
  rffts : Nat
  riffts : Nat
  macs : Nat
  deriving DecidableEq

/-- The inner `for` loop of `process` (see `partition_for`), counting one
`process_partition` call per iteration. -/
def partition_for_work {R : Type} [Zero R] [Add R] [Sub R] [Mul R] (W fft_size_halved : Nat) :
    Nat → Nat → Nat → convolve_partitioned R × Work → convolve_partitioned R × Work
  | 0, _, _, s => s
  | count + 1, ir_temp, in_temp, s =>
    partition_for_work W fft_size_halved count (ir_temp + fft_size_halved)
      (in_temp + fft_size_halved)
      (partition_mac W fft_size_halved ir_temp in_temp s.1, { s.2 with macs := s.2.macs + 1 })

/-- The scheduling loop `while (num_partitions_to_do > 0)` of `process` (see
`partition_while`), with the counters threaded through. -/
def partition_while_work {R : Type} [Zero R] [Add R] [Sub R] [Mul R]
    (W fft_size_halved : Nat) :
    Nat → Int → convolve_partitioned R × Work → convolve_partitioned R × Work
  | 0, _, s => s
  | fuel + 1, num_partitions_to_do, s =>
    if num_partitions_to_do > 0 then
      let st := s.1
      let next_partition :=
        if st.m_last_partition < st.m_num_partitions then st.m_last_partition else 0
      let last_partition :=
        min st.m_num_partitions (next_partition + num_partitions_to_do.toNat)
      let num_partitions_to_do := num_partitions_to_do - ((last_partition - next_partition : Nat) : Int)
      let st := { st with m_last_partition := last_partition }
      let s := partition_for_work W fft_size_halved (last_partition - next_partition)
        ((st.m_partitions_done + 1) * fft_size_halved) (next_partition * fft_size_halved)
        (st, s.2)
      partition_while_work W fft_size_halved fuel num_partitions_to_do s
    else s

/-- One iteration of the main loop of `process` (see `process_iter`) with the counters: the
block `if (fft_now)` makes one call each of `hisstools_rfft`, `process_partition` and
`hisstools_rifft`. -/
def process_iter_work {R : Type} [Field R] (K : FFTKernel R) (W : Nat) (inp : Nat → R)
    (accumulate : Bool)
    (v : convolve_partitioned R × Nat × Nat × Nat × Nat × (Nat → R)) (w : Work) :
    (convolve_partitioned R × Nat × Nat × Nat × Nat × (Nat → R)) × Work :=
  let st := v.1
  let rw_counter := v.2.1
  let samples_remaining := v.2.2.1
  let in_pos := v.2.2.2.1
  let out_pos := v.2.2.2.2.1
  let out := v.2.2.2.2.2
  let fft_size := get_fft_size st
  let fft_size_halved := fft_size >>> 1
  let hop_mask := fft_size_halved - 1
  let till_next_fft := fft_size_halved - (rw_counter &&& hop_mask)
  let loop_size := if samples_remaining < till_next_fft then samples_remaining else till_next_fft
  let hi_counter := (rw_counter + fft_size_halved) &&& (fft_size - 1)
  let st :=
    { st with
      m_fft_buffers_0 := copy_n inp in_pos loop_size st.m_fft_buffers_0 rw_counter,
      m_fft_buffers_1 := copy_n inp in_pos loop_size st.m_fft_buffers_1 hi_counter }
  let out :=
    if accumulate then add_n st.m_fft_buffers_3 rw_counter loop_size out out_pos
    else copy_n st.m_fft_buffers_3 rw_counter loop_size out out_pos
  let samples_remaining := samples_remaining - loop_size
  let rw_counter := rw_counter + loop_size
  let in_pos := in_pos + loop_size
  let out_pos := out_pos + loop_size
  let fft_counter := rw_counter &&& hop_mask
  let fft_now := decide (fft_counter = 0)
  let num_partitions_to_do : Int :=
    if fft_now then ((st.m_valid_partitions : Int) - (st.m_partitions_done : Int)) - 1
    else
      ((((st.m_valid_partitions - 1) * fft_counter) / fft_size_halved : Nat) : Int)
        - (st.m_partitions_done : Int)
  let s := partition_while_work W fft_size_halved num_partitions_to_do.toNat
    num_partitions_to_do (st, w)
  let r := if fft_now then fft_step K W s.1 rw_counter else (s.1, rw_counter)
  let w : Work :=
    if fft_now then
      { rffts := s.2.rffts + 1, riffts := s.2.riffts + 1, macs := s.2.macs + 1 }
    else s.2
  ((r.1, r.2, samples_remaining, in_pos, out_pos, out), w)

/-- The main loop of `process` (see `process_loop`) with the counters. -/
def process_loop_work {R : Type} [Field R] (K : FFTKernel R) (W : Nat) (inp : Nat → R)
    (accumulate : Bool) :
    Nat → (convolve_partitioned R × Nat × Nat × Nat × Nat × (Nat → R)) × Work →
      Option ((convolve_partitioned R × Nat × Nat × Nat × Nat × (Nat → R)) × Work)
  | 0, s => if s.1.2.2.1 > 0 then none else some s
  | fuel + 1, s =>
    if s.1.2.2.1 > 0 then
      process_loop_work K W inp accumulate fuel (process_iter_work K W inp accumulate s.1 s.2)
    else some s

/-- The member `process` (see `process`) with the counters: the early return and the reset
block make no call. -/
def process_work {R : Type} [Field R] (K : FFTKernel R) (W : Nat) (rnd : Nat)
    (st : convolve_partitioned R) (inp : Nat → R) (in_pos : Nat) (out : Nat → R)
    (out_pos : Nat) (num_samples : Nat) (accumulate : Bool) (w : Work) :
    Option (convolve_partitioned R × (Nat → R) × Work) :=
  if st.m_num_partitions = 0 then
    some (st, fill_n out out_pos (if accumulate then 0 else num_samples) 0, w)
  else
    let r := if st.m_reset_flag then process_reset rnd st else (st, st.m_rw_counter)
    match process_loop_work K W inp accumulate num_samples
        ((r.1, r.2, num_samples, in_pos, out_pos, out), w) with
    | none => none
    | some s => some ({ s.1.1 with m_rw_counter := s.1.2.1 }, s.1.2.2.2.2.2, s.2)

/-- A sequence of `process` calls on consecutive blocks (see `process_seq`) with the
counters. -/
def process_seq_work {R : Type} [Field R] (K : FFTKernel R) (W : Nat) (rnd : Nat)
    (inp : Nat → R) (accumulate : Bool) :
    List Nat → convolve_partitioned R → Nat → (Nat → R) → Work →
      Option (convolve_partitioned R × (Nat → R) × Work)
  | [], st, _, out, w => some (st, out, w)
  | n :: ns, st, pos, out, w =>
    match process_work K W rnd st inp pos out pos n accumulate w with
    | none => none
    | some r => process_seq_work K W rnd inp accumulate ns r.1 (pos + n) r.2.1 r.2.2

/-- The proportional quota of scheduled partitions at phase `c` of a hop. -/
def quota (valid c half : Nat) : Nat := (valid - 1) * c / half

/-- The convolver and the counters `m` samples into a window of one hop that started at
phase `c0` of a hop with `v0` valid partitions: before the hop boundary nothing but the
quota of scheduled partitions has been done; from the boundary on, one transform pair, the
`v0` partitions of the finished hop and the quota of the new hop. -/
def InWindow {R : Type} (P lg v0 c0 m : Nat) (st : convolve_partitioned R) (rw : Nat)
    (w : Work) : Prop :=
  st.m_fft_size_log2 = lg ∧ st.m_num_partitions = P ∧ st.m_reset_flag = false ∧
  rw < 2 ^ lg ∧
  (if c0 + m < 2 ^ (lg - 1) then
    st.m_valid_partitions = v0 ∧ rw % 2 ^ (lg - 1) = c0 + m ∧
    st.m_partitions_done = quota v0 (c0 + m) (2 ^ (lg - 1)) ∧
    w = { rffts := 0, riffts := 0,
          macs := quota v0 (c0 + m) (2 ^ (lg - 1)) - quota v0 c0 (2 ^ (lg - 1)) }
  else
    st.m_valid_partitions = min P (v0 + 1) ∧ rw % 2 ^ (lg - 1) = c0 + m - 2 ^ (lg - 1) ∧
    st.m_partitions_done = quota (min P (v0 + 1)) (c0 + m - 2 ^ (lg - 1)) (2 ^ (lg - 1)) ∧
    w = { rffts := 1, riffts := 1,
          macs := v0 - quota v0 c0 (2 ^ (lg - 1))
            + quota (min P (v0 + 1)) (c0 + m - 2 ^ (lg - 1)) (2 ^ (lg - 1)) })

/-- The scheduling state of a convolver between two `process` calls, some time after a
reset: the reset flag is clear, between 1 and `m_num_partitions` partitions are valid, the
stored read/write counter is below the FFT size and `m_partitions_done` is the quota of the
current phase of the hop. -/
def Scheduled {R : Type} (st : convolve_partitioned R) : Prop :=
  st.m_reset_flag = false ∧ 1 ≤ st.m_fft_size_log2 ∧
  1 ≤ st.m_valid_partitions ∧ st.m_valid_partitions ≤ st.m_num_partitions ∧
  st.m_rw_counter < 2 ^ st.m_fft_size_log2 ∧
  st.m_partitions_done
    = quota st.m_valid_partitions (st.m_rw_counter % 2 ^ (st.m_fft_size_log2 - 1))
        (2 ^ (st.m_fft_size_log2 - 1))

/-- A convolver over `ℚ` as the constructor and `set` leave it: FFT size 32, room for 64
impulse samples, reset offset 0, loaded with an impulse of 20 samples (two partitions). The
reset flag is set. -/
def loaded_state : Option (convolve_partitioned ℚ) :=
  match ctor zero_state 32 64 0 0 with
  | none => none
  | some s =>
    match set unzip_kernel (set_reset_offset s 0) (some (fun _ => 1)) 20 with
    | none => none
    | some r => some r.2

/-- A scheduled convolver over `ℚ` in the steady state: FFT size 32, three partitions, all
valid, 5 samples into a hop with one scheduled partition done. -/
def steady_state : convolve_partitioned ℚ :=
  { zero_state with
    m_fft_size_log2 := 5, m_max_fft_size_log2 := 5, m_num_partitions := 3,
    m_valid_partitions := 3, m_rw_counter := 5 + 8, m_partitions_done := 1,
    m_last_partition := 2, m_input_position := 0 }

/-! ### The multi-stage convolver (`MonoConvolve.hpp`)

The sub-convolver classes `TimeDomainConvolve` and `PartitionedConvolve` and the cell
`MemorySwap` are declared in headers that are not among the sources; their operations are
parameters of the definitions below. -/

/-- The latency modes of `MonoConvolve.hpp`. -/
inductive LatencyMode where
  | kLatencyZero
  | kLatencyShort
  | kLatencyMedium
  deriving DecidableEq

/-- The operations of `TimeDomainConvolve` that `MonoConvolve` calls. The class is declared
in `TimeDomainConvolve.hpp`, which is not among the sources, so its operations are a
parameter: the constructor `TimeDomainConvolve(offset, length)`, `set(input, length)`,
`reset()` and `process(in, out, num_samples)`, which is handed the contents of the
destination buffer and yields the object afterwards, the new contents of the destination
and its return value. -/
structure TimeOps (TD R : Type) where
  ctor : Nat → Nat → TD
  set : TD → (Nat → R) → Nat → TD
  reset : TD → TD
  process : TD → (Nat → R) → (Nat → R) → Nat → TD × (Nat → R) × Bool

/-- The operations of `PartitionedConvolve` that `MonoConvolve` calls. The class is declared
in `PartitionedConvolve.hpp`, which is not among the sources, so its operations are a
parameter: the constructor `PartitionedConvolve(max_fft_size, max_length, offset, length)`,
`set(input, length)`, `reset()`, `set_reset_offset(offset)` and
`process(in, out, num_samples)` as for `TimeOps`. -/
structure PartOps (PC R : Type) where
  ctor : Nat → Nat → Nat → Nat → PC
  set : PC → (Nat → R) → Nat → PC
  reset : PC → PC
  set_reset_offset : PC → Int → PC
  process : PC → (Nat → R) → (Nat → R) → Nat → PC × (Nat → R) × Bool

/-- The contents of a `MemorySwap<PartitionedConvolve>` cell, which is also what a handle
`MemorySwap<PartitionedConvolve>::Ptr` shows through `get()` and `get_size()`: the pointer
(`none` for a null pointer) and the size. `MemorySwap.hpp` is not among the sources. -/
structure MemorySwap (PC : Type) where
  ptr : Option PC
  size : Nat

/-- Modelled from the spec: `equal(alloc, free, size)` of the memory-swap cell, "if the
current published size differs from `size`, allocate a new instance via `alloc(size)`, swap
it in" (`MemorySwap.hpp` is not among the sources). -/
def MemorySwap.equal {PC : Type} (cell : MemorySwap PC) (alloc : Nat → PC) (size : Nat) :
    MemorySwap PC :=
  if cell.size ≠ size then { ptr := some (alloc size), size := size } else cell

/-- The handle that `attempt()` returns: the cell, or an empty handle when the cell is
contended (`busy`). -/
def MemorySwap.attempt {PC : Type} (busy : Bool) (cell : MemorySwap PC) : MemorySwap PC :=
  if busy then { ptr := none, size := 0 } else cell

/-- The data members of `MonoConvolve`. `m_allocator` is the lambda assigned in
`set_partitions`, represented by the two values it captures, `(offset, largestSize)`;
`m_rand_dist_max` is the upper end of the range of `m_rand_dist`. -/
structure MonoConvolve (TD PC : Type) where
  m_allocator : Nat × Nat
  m_sizes : List Nat
  m_time : Option TD
  m_part_1 : Option PC
  m_part_2 : Option PC
  m_part_3 : Option PC
  m_part_4 : MemorySwap PC
  m_length : Nat
  m_reset_offset : Int
  m_reset : Bool
  m_rand_dist_max : Nat

/-- The conversion of a `uint32_t` argument to the `int` parameter of
`check_and_store_fft_size` (two's complement). -/
def to_int32 (x : Nat) : Int :=
  if x % 2 ^ 32 < 2 ^ 31 then ((x % 2 ^ 32 : Nat) : Int) else ((x % 2 ^ 32 : Nat) : Int) - 2 ^ 32

/-- The lambda `check_and_store_fft_size` of `set_partitions`, acting on `m_sizes`:
`Except.error` is the `std::runtime_error` thrown. -/
def check_and_store_fft_size (m_sizes : List Nat) (size prev : Int) :
    Except String (List Nat) :=
  if size ≥ 1 <<< 5 ∧ size ≤ 1 <<< 20 ∧ size > prev then Except.ok (m_sizes ++ [size.toNat])
  else if size ≠ 0 then Except.error "invalid FFT size or order"
  else Except.ok m_sizes

/-- The four "sanity check" calls of `set_partitions` followed by the test for an empty
`m_sizes`. -/
def check_sizes (m_sizes : List Nat) (A B C D : Nat) : Except String (List Nat) :=
  match check_and_store_fft_size m_sizes (to_int32 A) 0 with
  | Except.error e => Except.error e
  | Except.ok s1 =>
    match check_and_store_fft_size s1 (to_int32 B) (to_int32 A) with
    | Except.error e => Except.error e
    | Except.ok s2 =>
      match check_and_store_fft_size s2 (to_int32 C) (to_int32 B) with
      | Except.error e => Except.error e
      | Except.ok s3 =>
        match check_and_store_fft_size s3 (to_int32 D) (to_int32 C) with
        | Except.error e => Except.error e
        | Except.ok s4 =>
          if s4.length = 0 then Except.error "no valid FFT sizes given" else Except.ok s4

/-- The lambda `create_part` of `set_partitions`: the new object and the advanced `offset`
(`uint32_t` arithmetic). -/
def create_part {PC R : Type} (ops : PartOps PC R) (offset size next : Nat) : PC × Nat :=
  let half := ((next + 2 ^ 32 - size) % 2 ^ 32) >>> 1
  (ops.ctor size half offset half, (offset + half) % 2 ^ 32)

/-- The allocator lambda `m_allocator` with captures `(offset, largestSize)`, applied to
`size` (`uintptr_t` arithmetic). -/
def allocate {PC R : Type} (ops : PartOps PC R) (captured : Nat × Nat) (size : Nat) : PC :=
  ops.ctor captured.2 ((max size captured.2 + 2 ^ 64 - captured.1) % 2 ^ 64) captured.1 0

/-- The private member `set_reset_offset(PartPtr &part4, intptr_t offset)`; the handle is
the cell `m_part_4`, `rnd` is the value drawn from `m_rand_dist` for a negative `offset`.
`m_sizes[i]` is `getD i 0`: the index is in range whenever the corresponding stage exists in
a state built by the constructor. -/
def MonoConvolve.set_reset_offset {TD PC R : Type} (ops : PartOps PC R) (rnd : Nat)
    (st : MonoConvolve TD PC) (offset : Int) : MonoConvolve TD PC :=
  let offset := if offset < 0 then (rnd : Int) else offset
  let n := st.m_sizes.length
  let shift_1 : Int := ((st.m_sizes.getD (n - 3) 0 >>> 3 : Nat) : Int)
  let shift_2 : Int := ((st.m_sizes.getD (n - 2) 0 >>> 3 : Nat) : Int)
  let shift_3 : Int := ((st.m_sizes.getD (n - 1) 0 >>> 3 : Nat) : Int)
  let p4 := st.m_part_4.ptr.map (fun p => ops.set_reset_offset p offset)
  { st with
    m_part_1 := st.m_part_1.map (fun p => ops.set_reset_offset p (offset + shift_1)),
    m_part_2 := st.m_part_2.map (fun p => ops.set_reset_offset p (offset + shift_2)),
    m_part_3 := st.m_part_3.map (fun p => ops.set_reset_offset p (offset + shift_3)),
    m_part_4 := { st.m_part_4 with ptr := p4 },
    m_reset_offset := offset }

/-- The part of `set_partitions` after the sanity checks (from "Lock to ensure we have
exclusive access" on), for the checked `m_sizes`; the implementation of
`MemorySwap::equal` is the parameter `equal`. -/
def MonoConvolve.build_partitions {TD PC R : Type} (tops : TimeOps TD R) (ops : PartOps PC R)
    (equal : MemorySwap PC → (Nat → PC) → Nat → MemorySwap PC) (rnd : Nat)
    (st : MonoConvolve TD PC) (max_length : Nat) (zero_latency : Bool) (m_sizes : List Nat) :
    MonoConvolve TD PC :=
  let n := m_sizes.length
  let offset := if zero_latency then m_sizes.getD 0 0 >>> 1 else 0
  let largestSize := m_sizes.getD (n - 1) 0
  let m_time := if zero_latency then some (tops.ctor 0 (m_sizes.getD 0 0 >>> 1)) else st.m_time
  let r1 := if n = 4 then
      let r := create_part ops offset (m_sizes.getD 0 0) (m_sizes.getD 1 0)
      (some r.1, r.2)
    else (st.m_part_1, offset)
  let r2 := if n > 2 then
      let r := create_part ops r1.2 (m_sizes.getD (n - 3) 0) (m_sizes.getD (n - 2) 0)
      (some r.1, r.2)
    else (st.m_part_2, r1.2)
  let r3 := if n > 1 then
      let r := create_part ops r2.2 (m_sizes.getD (n - 2) 0) (m_sizes.getD (n - 1) 0)
      (some r.1, r.2)
    else (st.m_part_3, r2.2)
  let m_allocator := (r3.2, largestSize)
  let part_4 := equal st.m_part_4 (allocate ops m_allocator) max_length
  MonoConvolve.set_reset_offset ops rnd
    { st with
      m_sizes := m_sizes, m_time := m_time, m_part_1 := r1.1, m_part_2 := r2.1,
      m_part_3 := r3.1, m_allocator := m_allocator, m_part_4 := part_4,
      m_rand_dist_max := (m_sizes.getD (n - 1) 0 >>> 1) - 1 }
    (-1)

/-- The member `set_partitions`: the sanity checks, which may throw, followed by the
construction of the sub-convolvers. -/
def MonoConvolve.set_partitions {TD PC R : Type} (tops : TimeOps TD R) (ops : PartOps PC R)
    (equal : MemorySwap PC → (Nat → PC) → Nat → MemorySwap PC) (rnd : Nat)
    (st : MonoConvolve TD PC) (max_length : Nat) (zero_latency : Bool) (A B C D : Nat) :
    Except String (MonoConvolve TD PC) :=
  match check_sizes st.m_sizes A B C D with
  | Except.error e => Except.error e
  | Except.ok m_sizes =>
    Except.ok (MonoConvolve.build_partitions tops ops equal rnd st max_length zero_latency m_sizes)

/-- The members as the constructors initialise them before calling `set_partitions`. -/
def MonoConvolve.init (TD PC : Type) : MonoConvolve TD PC :=
  { m_allocator := (0, 0), m_sizes := [], m_time := none, m_part_1 := none, m_part_2 := none,
    m_part_3 := none, m_part_4 := { ptr := none, size := 0 }, m_length := 0,
    m_reset_offset := 0, m_reset := false, m_rand_dist_max := 0 }

/-- The constructor `MonoConvolve(max_length, zero_latency, A, B, C, D)`. -/
def MonoConvolve.ctor {TD PC R : Type} (tops : TimeOps TD R) (ops : PartOps PC R)
    (equal : MemorySwap PC → (Nat → PC) → Nat → MemorySwap PC) (rnd : Nat)
    (max_length : Nat) (zero_latency : Bool) (A B C D : Nat) :
    Except String (MonoConvolve TD PC) :=
  MonoConvolve.set_partitions tops ops equal rnd (MonoConvolve.init TD PC) max_length
    zero_latency A B C D

/-- The constructor `MonoConvolve(max_length, latency)`. -/
def MonoConvolve.ctor_latency {TD PC R : Type} (tops : TimeOps TD R) (ops : PartOps PC R)
    (equal : MemorySwap PC → (Nat → PC) → Nat → MemorySwap PC) (rnd : Nat)
    (max_length : Nat) (latency : LatencyMode) : Except String (MonoConvolve TD PC) :=
  match latency with
  | LatencyMode.kLatencyZero =>
    MonoConvolve.set_partitions tops ops equal rnd (MonoConvolve.init TD PC) max_length true
      256 1024 4096 16384
  | LatencyMode.kLatencyShort =>
    MonoConvolve.set_partitions tops ops equal rnd (MonoConvolve.init TD PC) max_length false
      256 1024 4096 16384
  | LatencyMode.kLatencyMedium =>
    MonoConvolve.set_partitions tops ops equal rnd (MonoConvolve.init TD PC) max_length false
      1024 4096 16384 0

/-- The member `set(input, length, request_resize)`. -/
def MonoConvolve.set {TD PC R : Type} (tops : TimeOps TD R) (ops : PartOps PC R)
    (equal : MemorySwap PC → (Nat → PC) → Nat → MemorySwap PC)
    (st : MonoConvolve TD PC) (input : Nat → R) (length : Nat) (request_resize : Bool) :
    ConvolveError × MonoConvolve TD PC :=
  let part4 :=
    if request_resize then equal st.m_part_4 (allocate ops st.m_allocator) length
    else st.m_part_4
  let st1 : MonoConvolve TD PC := { st with m_length := 0, m_part_4 := part4 }
  let p4 := part4.ptr.map
    (fun p => ops.set_reset_offset (ops.set p input length) st1.m_reset_offset)
  let st2 : MonoConvolve TD PC :=
    if part4.ptr.isSome then
      { st1 with
        m_time := st1.m_time.map (fun t => tops.set t input length),
        m_part_1 := st1.m_part_1.map (fun p => ops.set p input length),
        m_part_2 := st1.m_part_2.map (fun p => ops.set p input length),
        m_part_3 := st1.m_part_3.map (fun p => ops.set p input length),
        m_part_4 := { part4 with ptr := p4 },
        m_length := length,
        m_reset := true }
    else st1
  ((if length ≠ 0 ∧ part4.ptr.isNone then ConvolveError.MemUnavailable
    else if length > part4.size then ConvolveError.MemAllocTooSmall
    else ConvolveError.None), st2)

/-- The member `reset`. -/
def MonoConvolve.reset {TD PC : Type} (st : MonoConvolve TD PC) :
    ConvolveError × MonoConvolve TD PC :=
  (ConvolveError.None, { st with m_reset := true })

/-- The static member `sum` on scalars: `out[i] = out[i] + temp[i]` for `i < N`. -/
def MonoConvolve.sum {R : Type} [Add R] (temp out : Nat → R) (N : Nat) : Nat → R :=
  fun i => if i < N then out i + temp i else out i

/-- The static member `sum` on `SIMDType<float, 4>`: `N` vectors of four lanes. -/
def MonoConvolve.sum_vec {R : Type} [Add R] (temp out : Nat → R) (N : Nat) : Nat → R :=
  fun i => if i < N * 4 then out i + temp i else out i

/-- The static member `process_and_sum` for a sub-convolver with `process` operation `proc`;
`unaligned` stands for `is_unaligned(out) || is_unaligned(temp)`. The result is the object
afterwards and the contents of `temp` and `out`. -/
def MonoConvolve.process_and_sum {S R : Type} [Add R]
    (proc : S → (Nat → R) → (Nat → R) → Nat → S × (Nat → R) × Bool) (unaligned : Bool)
    (obj : Option S) (inp temp out : Nat → R) (num_samples : Nat) (accumulate : Bool) :
    Option S × (Nat → R) × (Nat → R) :=
  match obj with
  | none => (none, temp, out)
  | some o =>
    let r := proc o inp (if accumulate then temp else out) num_samples
    let temp := if accumulate then r.2.1 else temp
    let out := if accumulate then out else r.2.1
    if r.2.2 && accumulate then
      if num_samples % 4 ≠ 0 ∨ unaligned then
        (some r.1, temp, MonoConvolve.sum temp out num_samples)
      else (some r.1, temp, MonoConvolve.sum_vec temp out (num_samples / 4))
    else (some r.1, temp, out)

/-- The member `process(in, temp, out, num_samples, accumulate)`; `busy` says whether
`m_part_4.attempt()` finds the cell contended. The result is the convolver afterwards and
the contents of `temp` and `out`. -/
def MonoConvolve.process {TD PC R : Type} [Add R] (tops : TimeOps TD R) (ops : PartOps PC R)
    (busy unaligned : Bool) (st : MonoConvolve TD PC) (inp temp out : Nat → R)
    (num_samples : Nat) (accumulate : Bool) :
    MonoConvolve TD PC × (Nat → R) × (Nat → R) :=
  let part_4 := MemorySwap.attempt busy st.m_part_4
  if st.m_length ≠ 0 ∧ st.m_length ≤ part_4.size then
    let m_time := if st.m_reset then st.m_time.map tops.reset else st.m_time
    let m_part_1 := if st.m_reset then st.m_part_1.map ops.reset else st.m_part_1
    let m_part_2 := if st.m_reset then st.m_part_2.map ops.reset else st.m_part_2
    let m_part_3 := if st.m_reset then st.m_part_3.map ops.reset else st.m_part_3
    let p4 := if st.m_reset then part_4.ptr.map ops.reset else part_4.ptr
    let r0 := MonoConvolve.process_and_sum tops.process unaligned m_time inp temp out
      num_samples accumulate
    let r1 := MonoConvolve.process_and_sum ops.process unaligned m_part_1 inp r0.2.1 r0.2.2
      num_samples (accumulate || m_time.isSome)
    let r2 := MonoConvolve.process_and_sum ops.process unaligned m_part_2 inp r1.2.1 r1.2.2
      num_samples (accumulate || m_part_1.isSome)
    let r3 := MonoConvolve.process_and_sum ops.process unaligned m_part_3 inp r2.2.1 r2.2.2
      num_samples (accumulate || m_part_2.isSome)
    let r4 := MonoConvolve.process_and_sum ops.process unaligned p4 inp r3.2.1 r3.2.2
      num_samples (accumulate || m_part_3.isSome)
    ({ st with
        m_time := r0.1, m_part_1 := r1.1, m_part_2 := r2.1, m_part_3 := r3.1,
        m_part_4 := if busy then st.m_part_4 else { st.m_part_4 with ptr := r4.1 },
        m_reset := false },
      r4.2.1, r4.2.2)
  else (st, temp, out)

/-- What a recording sub-convolver has seen: how it was constructed and the calls it
received since. -/
inductive Call where
  | ctor_time (offset length : Nat)
  | ctor_part (max_fft_size max_length offset length : Nat)
  | set (length : Nat)
  | reset
  | set_reset_offset (offset : Int)
  | process (num_samples : Nat)
  deriving DecidableEq

/-- The number a recording sub-convolver writes to its destination: the length of a
time-domain convolver, the FFT size of a partitioned one. -/
def Call.tag : List Call → ℚ
  | Call.ctor_time _ length :: _ => (length : ℚ)
  | Call.ctor_part max_fft_size _ _ _ :: _ => (max_fft_size : ℚ)
  | _ => 0

/-- A time-domain convolver that only records its calls; `process` writes the tag to
`num_samples` samples of the destination and returns `true`. -/
def record_time : TimeOps (List Call) ℚ :=
  { ctor := fun offset length => [Call.ctor_time offset length],
    set := fun o _ length => o ++ [Call.set length],
    reset := fun o => o ++ [Call.reset],
    process := fun o _ dst n =>
      (o ++ [Call.process n], fun i => if i < n then Call.tag o else dst i, true) }

/-- A partitioned convolver that only records its calls. -/
def record_part : PartOps (List Call) ℚ :=
  { ctor := fun max_fft_size max_length offset length =>
      [Call.ctor_part max_fft_size max_length offset length],
    set := fun o _ length => o ++ [Call.set length],
    reset := fun o => o ++ [Call.reset],
    set_reset_offset := fun o x => o ++ [Call.set_reset_offset x],
    process := fun o _ dst n =>
      (o ++ [Call.process n], fun i => if i < n then Call.tag o else dst i, true) }

/-- The convolver over recording sub-convolvers built by
`MonoConvolve(1000, false, 100)`. -/
def mono_100 : MonoConvolve (List Call) (List Call) :=
  MonoConvolve.set_reset_offset record_part 5
    { MonoConvolve.init (List Call) (List Call) with
      m_sizes := [100], m_allocator := (0, 100),
      m_part_4 := { ptr := some [Call.ctor_part 100 1000 0 0], size := 1000 },
      m_rand_dist_max := 49 }
    (-1)

/-- The length of the impulse-response segment of the non-final stage `i` for the FFT sizes
`s`: `(s[i+1] - s[i]) / 2`. -/
def stage_length (s : List Nat) (i : Nat) : Nat := (s.getD (i + 1) 0 - s.getD i 0) / 2

/-- The start of the impulse-response segment of stage `i`: the first stage starts at
`s[0] / 2` behind a time-domain head and at 0 without one, each further stage where the
segment of the stage before it ends. -/
def stage_offset (zero_latency : Bool) (s : List Nat) : Nat → Nat
  | 0 => if zero_latency then s.getD 0 0 / 2 else 0
  | i + 1 => stage_offset zero_latency s i + stage_length s i

/-- The existing intermediate partitioned stages of a convolver, in the order
`m_part_1`, `m_part_2`, `m_part_3`. -/
def MonoConvolve.stages {TD PC : Type} (st : MonoConvolve TD PC) : List PC :=
  [st.m_part_1, st.m_part_2, st.m_part_3].filterMap id

/-- The number of sub-convolvers whose impulse-response segment contains the sample index
`k`: the head `[0, s[0]/2)` when present, the non-final stages
`[offset i, offset i + length i)` and the final stage from its offset on. -/
def cover_count (zero_latency : Bool) (s : List Nat) (k : Nat) : Nat :=
  (if zero_latency = true ∧ k < s.getD 0 0 / 2 then 1 else 0)
  + ((List.range (s.length - 1)).filter
      (fun i => decide (stage_offset zero_latency s i ≤ k ∧
        k < stage_offset zero_latency s i + stage_length s i))).length
  + (if stage_offset zero_latency s (s.length - 1) ≤ k then 1 else 0)

/-- The convolver over recording sub-convolvers built by
`MonoConvolve(100000, kLatencyZero)`, with 5 drawn from `m_rand_dist`. -/
def mono_zero_latency : MonoConvolve (List Call) (List Call) :=
  MonoConvolve.build_partitions record_time record_part MemorySwap.equal 5
    (MonoConvolve.init (List Call) (List Call)) 100000 true [256, 1024, 4096, 16384]

/-- The convolver over recording sub-convolvers built by `MonoConvolve(1000, true, 256)`:
a time-domain head and the final stage only. -/
def mono_head_256 : MonoConvolve (List Call) (List Call) :=
  MonoConvolve.build_partitions record_time record_part MemorySwap.equal 5
    (MonoConvolve.init (List Call) (List Call)) 1000 true [256]

/-- The convolver `mono_head_256` after `set(ir, 500, false)`. -/
def mono_head_256_set : MonoConvolve (List Call) (List Call) :=
  (MonoConvolve.set record_time record_part MemorySwap.equal mono_head_256
    (fun _ => (1 : ℚ)) 500 false).2

/-- The convolver built by `MonoConvolve(1000, false, 100)` after `set(ir, 2000, false)`:
the impulse response is longer than the final stage's buffer of size 1000. -/
def mono_100_long : MonoConvolve (List Call) (List Call) :=
  (MonoConvolve.set record_time record_part MemorySwap.equal mono_100
    (fun _ => (1 : ℚ)) 2000 false).2

/-- The two complex values that one butterfly of `pass_real_trig_table` stores, at `r1_ptr`
and at `r2_ptr`, from the values it reads at `a = r1_ptr`, `b = r2_ptr` and the twiddle at
`t = tr_ptr`. -/
def real_pass_pair {R : Type} [Add R] [Sub R] [Mul R] [Neg R] (ifft : Bool)
    (table : Split R) (input : Split R) (t a b : Nat) : (R × R) × (R × R) :=
  let tr := if ifft then -table.realp t else table.realp t
  let ti := table.imagp t
  let r1 := input.realp a
  let i1 := input.imagp a
  let r2 := input.realp b
  let i2 := input.imagp b
  let r3 := r1 + r2
  let i3 := i1 + i2
  let r4 := r1 - r2
  let i4 := i1 - i2
  let t1 := (tr * i3) + (ti * r4)
  let t2 := (ti * i3) - (tr * r4)
  ((r3 + t1, t2 + i4), (r3 - t1, t2 - i4))

/-- The element `k` of the buffer after `pass_real_trig_table` on `M` complex elements:
element 0 from the sum and difference of its two parts, the elements below the middle as the
first value of their butterfly, the middle and those above as the second, the rest as
before. -/
def real_pass_at {R : Type} [Add R] [Sub R] [Mul R] [Neg R] (ifft : Bool)
    (table : Split R) (input : Split R) (M k : Nat) : R × R :=
  if k = 0 then
    (if ifft then input.realp 0 + input.imagp 0
      else (input.realp 0 + input.imagp 0) + (input.realp 0 + input.imagp 0),
     if ifft then input.realp 0 - input.imagp 0
      else (input.realp 0 - input.imagp 0) + (input.realp 0 - input.imagp 0))
  else if 2 * k < M then (real_pass_pair ifft table input k k (M - k)).1
  else if k < M then (real_pass_pair ifft table input (M - k) (M - k) k).2
  else (input.realp k, input.imagp k)

/-! ### The error codes of `ConvolveErrors.h` -/

/-- The declaration `enum ConvolveError { ... }` of `ConvolveErrors.h`: the enumerators in
the order of the source, each with its initialiser when it has one. -/
def ConvolveErrors_h : List (String × Option Nat) :=
  [("CONVOLVE_ERR_NONE", some 0),
   ("CONVOLVE_ERR_IN_CHAN_OUT_OF_RANGE", none),
   ("CONVOLVE_ERR_OUT_CHAN_OUT_OF_RANGE", none),
   ("CONVOLVE_ERR_MEM_UNAVAILABLE", none),
   ("CONVOLVE_ERR_MEM_ALLOC_TOO_SMALL", none),
   ("CONVOLVE_ERR_TIME_IMPULSE_TOO_LONG", none),
   ("CONVOLVE_ERR_TIME_LENGTH_OUT_OF_RANGE", none),
   ("CONVOLVE_ERR_PARTITION_LENGTH_TOO_LARGE", none),
   ("CONVOLVE_ERR_FFT_SIZE_MAX_TOO_SMALL", none),
   ("CONVOLVE_ERR_FFT_SIZE_MAX_TOO_LARGE", none),
   ("CONVOLVE_ERR_FFT_SIZE_MAX_NON_POWER_OF_TWO", none),
   ("CONVOLVE_ERR_FFT_SIZE_OUT_OF_RANGE", none),
   ("CONVOLVE_ERR_FFT_SIZE_NON_POWER_OF_TWO", none)]

/-- The values of the enumerators of an unscoped C++ enumeration: the initialiser when there
is one, otherwise the value of the enumerator before plus one (`next`; 0 for the first). -/
def enum_values : List (String × Option Nat) → Nat → List (String × Nat)
  | [], _ => []
  | (name, some v) :: rest, _ => (name, v) :: enum_values rest (v + 1)
  | (name, none) :: rest, next => (name, next) :: enum_values rest (next + 1)

/-- The enumerator of `ConvolveErrors.h` behind each error of the model. -/
def ConvolveError.enumerator : ConvolveError → String
  | ConvolveError.None => "CONVOLVE_ERR_NONE"
  | ConvolveError.InChanOutOfRange => "CONVOLVE_ERR_IN_CHAN_OUT_OF_RANGE"
  | ConvolveError.OutChanOutOfRange => "CONVOLVE_ERR_OUT_CHAN_OUT_OF_RANGE"
  | ConvolveError.MemUnavailable => "CONVOLVE_ERR_MEM_UNAVAILABLE"
  | ConvolveError.MemAllocTooSmall => "CONVOLVE_ERR_MEM_ALLOC_TOO_SMALL"
  | ConvolveError.TimeImpulseTooLong => "CONVOLVE_ERR_TIME_IMPULSE_TOO_LONG"
  | ConvolveError.TimeLengthOutOfRange => "CONVOLVE_ERR_TIME_LENGTH_OUT_OF_RANGE"
  | ConvolveError.PartitionLengthTooLarge => "CONVOLVE_ERR_PARTITION_LENGTH_TOO_LARGE"
  | ConvolveError.FFTSizeMaxTooSmall => "CONVOLVE_ERR_FFT_SIZE_MAX_TOO_SMALL"
  | ConvolveError.FFTSizeMaxTooLarge => "CONVOLVE_ERR_FFT_SIZE_MAX_TOO_LARGE"
  | ConvolveError.FFTSizeMaxNonPowerOfTwo => "CONVOLVE_ERR_FFT_SIZE_MAX_NON_POWER_OF_TWO"
  | ConvolveError.FFTSizeOutOfRange => "CONVOLVE_ERR_FFT_SIZE_OUT_OF_RANGE"
  | ConvolveError.FFTSizeNonPowerOfTwo => "CONVOLVE_ERR_FFT_SIZE_NON_POWER_OF_TWO"

/-- The integer code of an error: the value of its enumerator in `ConvolveErrors.h`. -/
def ConvolveError.code (e : ConvolveError) : Option Nat :=
  (enum_values ConvolveErrors_h 0).lookup e.enumerator

/-- A convolver over `ℚ` about to run an FFT-due step: FFT size 32, one partition with a
zero impulse spectrum, 128 in every real bin of the accumulator and 7 in every sample of the
output ring. -/
def store_state : convolve_partitioned ℚ :=
  { zero_state with
    m_fft_size_log2 := 5, m_max_fft_size_log2 := 5, m_num_partitions := 1,
    m_valid_partitions := 1, m_accum_buffer := ⟨fun _ => 128, fun _ => 0⟩,
    m_fft_buffers_3 := fun _ => 7 }

/-! ### The loop states of `process` reached after a reset -/

/-- The spectrum held in slot `j` of the input history: the `fft_size / 2` bins from
`j * fft_size / 2` on. -/
def slot_content {R : Type} [Zero R] (st : convolve_partitioned R) (j : Nat) : Split R :=
  first_bins (offset_split_pointer st.m_input_buffer (j * 2 ^ (st.m_fft_size_log2 - 1)))
    (2 ^ (st.m_fft_size_log2 - 1))

/-- Whether the sub-block of the main loop of `process` that starts at `rw_counter` with
`samples_remaining` samples left ends on a hop boundary (`fft_now`). -/
def fft_due {R : Type} (st : convolve_partitioned R) (rw_counter samples_remaining : Nat) :
    Bool :=
  let fft_size_halved := get_fft_size st >>> 1
  let hop_mask := fft_size_halved - 1
  let till_next_fft := fft_size_halved - (rw_counter &&& hop_mask)
  let loop_size := if samples_remaining < till_next_fft then samples_remaining else till_next_fft
  decide ((rw_counter + loop_size) &&& hop_mask = 0)

/-- The loop states of `process` that are reached after a reset: the state the reset block
leaves (`reset`), the state after one more sub-block of the main loop, for any input,
block position and `accumulate` flag (`step`), and the state with the counter written back
at the end of a call (`store`). The list holds the spectra that the FFT-due steps since the
reset have written to the input history, the most recent first. -/
inductive Traced {R : Type} [Field R] (K : FFTKernel R) (W rnd : Nat) :
    convolve_partitioned R → Nat → List (Split R) → Prop
  | reset (st : convolve_partitioned R) (hflag : st.m_reset_flag = true)
      (hP : 1 ≤ st.m_num_partitions) (hlg : 1 ≤ st.m_fft_size_log2)
      (hrnd : st.m_reset_offset < 0 → rnd < 2 ^ st.m_fft_size_log2) :
      Traced K W rnd (process_reset rnd st).1 (process_reset rnd st).2 []
  | store (st : convolve_partitioned R) (rw : Nat) (h : List (Split R)) :
      Traced K W rnd st rw h → Traced K W rnd (with_rw st rw) rw h
  | step (st : convolve_partitioned R) (rw : Nat) (h : List (Split R)) (inp : Nat → R)
      (accumulate : Bool) (rem ip op : Nat) (out : Nat → R) :
      Traced K W rnd st rw h → 0 < rem →
      Traced K W rnd (process_iter K W inp accumulate (st, rw, rem, ip, op, out)).1
        (process_iter K W inp accumulate (st, rw, rem, ip, op, out)).2.1
        (if fft_due st rw rem then
          slot_content (process_iter K W inp accumulate (st, rw, rem, ip, op, out)).1
            st.m_input_position :: h
        else h)

/-- What holds in every loop state reached after a reset. -/
structure TraceInv {R : Type} [Zero R] (st : convolve_partitioned R) (rw : Nat)
    (h : List (Split R)) : Prop where
  flag : st.m_reset_flag = false
  lg_pos : 1 ≤ st.m_fft_size_log2
  num_pos : 1 ≤ st.m_num_partitions
  valid_pos : 1 ≤ st.m_valid_partitions
  valid_le : st.m_valid_partitions ≤ st.m_num_partitions
  valid_eq : st.m_valid_partitions = min st.m_num_partitions (h.length + 1)
  rw_lt : rw < 2 ^ st.m_fft_size_log2
  done_eq : st.m_partitions_done
    = quota st.m_valid_partitions (rw % 2 ^ (st.m_fft_size_log2 - 1))
        (2 ^ (st.m_fft_size_log2 - 1))
  pos_lt : st.m_input_position < st.m_num_partitions
  last_le : st.m_last_partition ≤ st.m_num_partitions
  cursor : st.m_valid_partitions = 1 ∨
    (if st.m_last_partition < st.m_num_partitions then st.m_last_partition else 0)
      = (st.m_input_position + 1 + st.m_partitions_done) % st.m_num_partitions
  hist : ∀ j, 1 ≤ j → j < st.m_valid_partitions →
    h.get? (j - 1)
      = some (slot_content st ((st.m_input_position + j) % st.m_num_partitions))

/-- The state of the convolver `stale_state 7 3` after its reset and one sub-block of 13
samples of a constant input 1 that ends on the first hop boundary. -/
def hop_state : convolve_partitioned ℚ :=
  (process_iter unzip_kernel 4 (fun _ => 1) false
    ((process_reset 0 (stale_state 7 3)).1, (process_reset 0 (stale_state 7 3)).2, 20, 0, 0,
      fun _ => 0)).1

/-! ### The AIFF header parser (`IAudioFile.hpp`, `BaseAudioFile.hpp`) -/

/-- `BaseAudioFile::Endianness`. -/
inductive Endianness where
  | Little
  | Big
  deriving DecidableEq

/-- `BaseAudioFile::Error`. -/
inductive Error where
  | None
  | CouldNotAllocate
  | FileError
  | CouldNotOpen
  | BadFormat
  | UnknownFormat
  | UnsupportedPCMFormat
  | WrongAIFCVersion
  | UnsupportedAIFCFormat
  | UnsupportedWaveFormat
  | CouldNotWrite
  deriving DecidableEq

/-- `AIFC_CURRENT_SPECIFICATION` of `BaseAudioFile::AiffVersion`. -/
def AIFC_CURRENT_SPECIFICATION : Nat := 0xA2805140

/-- `IAudioFile::AIFFTag`. -/
inductive AIFFTag where
  | Unknown
  | Version
  | Common
  | Audio
  deriving DecidableEq

/-- The values of the enumerators of `AIFFTag`, as `static_cast<uint32_t>(tag)` gives them. -/
def AIFFTag.val : AIFFTag → Nat
  | AIFFTag.Unknown => 0x0
  | AIFFTag.Version => 0x1
  | AIFFTag.Common => 0x2
  | AIFFTag.Audio => 0x4

/-- The declarations that `IAudioFile.hpp` uses and that are not among the sources, taken as
parameters over the type `F` of `AudioFileFormat` values: the constructors
`AudioFileFormat(FileType::AIFF)` (`aiff`) and
`AudioFileFormat(FileType::AIFF, NumericType::Integer, bit_depth, Endianness::Big)`
(`aiff_pcm`), `AIFCCompression::to_format(tag, bit_depth)` on the bytes from `tag` on,
`get_file_type() == FileType::None` for a format, `is_valid`, `header_endianness`, and
`get_bytes<T, N>(bytes, endianness)` on the bytes from `bytes` on. -/
structure AudioFileDecls (F : Type) where
  aiff : F
  aiff_pcm : Nat → F
  to_format : List Nat → Nat → F
  file_type_none : F → Bool
  is_valid : F → Bool
  header_endianness : F → Endianness
  get_bytes : Nat → List Nat → Endianness → Nat

/-- The stream `m_file` as the reader uses it: the bytes of the file, the read position, and
whether the platform lets `seekg` move the position past the end of the file. -/
structure FileStream where
  bytes : List Nat
  pos : Nat
  past_end : Bool

/-- The members of `IAudioFile` that `parse_aiff_header` reads or writes (`m_sampling_rate`,
which it only writes, from a converter that is not among the sources, is left out). -/
structure IAudioFile (F : Type) where
  m_file : FileStream
  m_format : F
  m_num_channels : Nat
  m_num_frames : Nat
  m_pcm_offset : Nat

/-- The accessor `frames()`: the frame count `m_num_frames` (`getFrames` in
`BaseAudioFile.hpp`). -/
def frames {F : Type} (f : IAudioFile F) : Nat := f.m_num_frames

/-- The effect of reading `got` into a buffer from its start. -/
def write_bytes (buffer got : List Nat) : List Nat := got ++ buffer.drop got.length

/-- The member `read_internal`: whether `numBytes` bytes were read, the bytes read, and the
reader afterwards. -/
def read_internal {F : Type} (f : IAudioFile F) (numBytes : Nat) :
    Bool × List Nat × IAudioFile F :=
  let got := (f.m_file.bytes.drop f.m_file.pos).take numBytes
  (decide (got.length = numBytes), got,
    { f with m_file := { f.m_file with pos := f.m_file.pos + got.length } })

/-- The member `position_internal`. -/
def position_internal {F : Type} (f : IAudioFile F) : Nat := f.m_file.pos

/-- The member `seek_internal`: a seek to a position in the file succeeds, one past the end
does where the platform allows it. -/
def seek_internal {F : Type} (f : IAudioFile F) (position : Nat) : Bool × IAudioFile F :=
  if position ≤ f.m_file.bytes.length ∨ f.m_file.past_end = true then
    (true, { f with m_file := { f.m_file with pos := position } })
  else (false, f)

/-- The member `advance_internal`, in `uintptr_t` arithmetic. -/
def advance_internal {F : Type} (f : IAudioFile F) (offset : Nat) : Bool × IAudioFile F :=
  seek_internal f ((position_internal f + offset) % 2 ^ 64)

/-- The member `get_u32`. -/
def get_u32 {F : Type} (D : AudioFileDecls F) (bytes : List Nat) (endianness : Endianness) :
    Nat :=
  D.get_bytes 4 bytes endianness % 2 ^ 32

/-- The member `get_u16`. -/
def get_u16 {F : Type} (D : AudioFileDecls F) (bytes : List Nat) (endianness : Endianness) :
    Nat :=
  D.get_bytes 2 bytes endianness % 2 ^ 16

/-- The characters of a C string that `strncmp` and `strncpy` look at when given the bound
`n`: at most `n`, up to the first NUL. -/
def c_chars (s : List Nat) (n : Nat) : List Nat := (s.take n).takeWhile (fun c => c ≠ 0)

/-- The static member `match_tag`: `strncmp(a, b, 4) == 0`. -/
def match_tag (a b : List Nat) : Bool := decide (c_chars a 4 = c_chars b 4)

/-- The effect of `strncpy(tag, header, 4)`: the characters up to the first NUL, padded with
NULs to four. -/
def strncpy_4 (header : List Nat) : List Nat :=
  c_chars header 4 ++ List.replicate (4 - (c_chars header 4).length) 0

/-- `paddedLength` of `BaseAudioFile.hpp` at `uint32_t` (called as `padded_length`). -/
def padded_length (length : Nat) : Nat := (length + (length &&& 0x1)) % 2 ^ 32

/-- The string literal `"FVER"`. -/
def tag_FVER : List Nat := [0x46, 0x56, 0x45, 0x52, 0]

/-- The string literal `"COMM"`. -/
def tag_COMM : List Nat := [0x43, 0x4F, 0x4D, 0x4D, 0]

/-- The string literal `"SSND"`. -/
def tag_SSND : List Nat := [0x53, 0x53, 0x4E, 0x44, 0]

/-- The string literal `"AIFC"`. -/
def tag_AIFC : List Nat := [0x41, 0x49, 0x46, 0x43, 0]

/-- The member `read_chunk_header`: the `bool` it returns, `tag`, `chunk_size` and the reader
afterwards. -/
def read_chunk_header {F : Type} (D : AudioFileDecls F) (f : IAudioFile F) (tag : List Nat)
    (chunk_size : Nat) : Bool × List Nat × Nat × IAudioFile F :=
  let r := read_internal f 8
  let header := write_bytes (List.replicate 8 0) r.2.1
  if r.1 = false then (false, tag, chunk_size, r.2.2)
  else
    (true, strncpy_4 header,
      get_u32 D (header.drop 4) (D.header_endianness r.2.2.m_format), r.2.2)

/-- The member `read_chunk`: the `bool` it returns, the buffer `data` and the reader
afterwards (with `read_size == 0` nothing is written to `data`, which may then be null). -/
def read_chunk {F : Type} (f : IAudioFile F) (data : List Nat) (read_size chunk_size : Nat) :
    Bool × List Nat × IAudioFile F :=
  if read_size ≠ 0 ∧ read_size > chunk_size then (false, data, f)
  else
    let r := if read_size ≠ 0 then read_internal f read_size else (true, [], f)
    if r.1 = false then (false, write_bytes data r.2.1, r.2.2)
    else
      let s := advance_internal r.2.2 ((padded_length chunk_size + 2 ^ 32 - read_size) % 2 ^ 32)
      (s.1, write_bytes data r.2.1, s.2)

/-- The member `get_aiff_chunk_header`: the `bool` it returns, `enumerated_tag`,
`chunk_size` and the reader afterwards. -/
def get_aiff_chunk_header {F : Type} (D : AudioFileDecls F) (f : IAudioFile F)
    (chunk_size : Nat) : Bool × AIFFTag × Nat × IAudioFile F :=
  let r := read_chunk_header D f [0, 0, 0, 0] chunk_size
  if r.1 = false then (false, AIFFTag.Unknown, r.2.2.1, r.2.2.2)
  else
    let tag := r.2.1
    let enumerated_tag :=
      if match_tag tag tag_FVER then AIFFTag.Version
      else if match_tag tag tag_COMM then AIFFTag.Common
      else if match_tag tag tag_SSND then AIFFTag.Audio
      else AIFFTag.Unknown
    (true, enumerated_tag, r.2.2.1, r.2.2.2)

/-- The body of the `switch (tag)` in `parse_aiff_header`: either the error that the body
returns with, or the reader, the buffer `chunk` and `format_check` at the `break`. -/
def aiff_chunk_body {F : Type} (D : AudioFileDecls F) (fileSubtype : List Nat)
    (tag : AIFFTag) (chunk_size : Nat) (f : IAudioFile F) (chunk : List Nat)
    (format_check : Nat) :
    Except (Error × IAudioFile F) (IAudioFile F × List Nat × Nat) :=
  match tag with
  | AIFFTag.Common =>
    let r := read_chunk f chunk
      (if chunk_size > 22 then 22 else (if chunk_size < 18 then 18 else chunk_size)) chunk_size
    if r.1 = false then Except.error (Error.BadFormat, r.2.2)
    else
      let chunk := r.2.1
      let f := r.2.2
      let f := { f with m_num_channels := get_u16 D chunk (D.header_endianness f.m_format) }
      let f :=
        { f with m_num_frames := get_u32 D (chunk.drop 2) (D.header_endianness f.m_format) }
      let bit_depth := get_u16 D (chunk.drop 6) (D.header_endianness f.m_format)
      let format_check :=
        if frames f = 0 then format_check ||| AIFFTag.Audio.val else format_check
      if match_tag fileSubtype tag_AIFC then
        let f := { f with m_format := D.to_format (chunk.drop 18) bit_depth }
        if D.file_type_none f.m_format then Except.error (Error.UnsupportedAIFCFormat, f)
        else if D.is_valid f.m_format = false then
          Except.error (Error.UnsupportedPCMFormat, f)
        else Except.ok (f, chunk, format_check)
      else
        let f := { f with m_format := D.aiff_pcm bit_depth }
        if D.is_valid f.m_format = false then
          Except.error (Error.UnsupportedPCMFormat, f)
        else Except.ok (f, chunk, format_check)
  | AIFFTag.Version =>
    let r := read_chunk f chunk 4 chunk_size
    if r.1 = false then Except.error (Error.BadFormat, r.2.2)
    else if get_u32 D r.2.1 (D.header_endianness r.2.2.m_format) ≠ AIFC_CURRENT_SPECIFICATION
    then Except.error (Error.WrongAIFCVersion, r.2.2)
    else Except.ok (r.2.2, r.2.1, format_check)
  | AIFFTag.Audio =>
    let r := read_chunk f chunk 4 chunk_size
    if r.1 = false then Except.error (Error.BadFormat, r.2.2)
    else
      let f := r.2.2
      Except.ok
        ({ f with m_pcm_offset :=
            (position_internal f + 4 + get_u32 D r.2.1 (D.header_endianness f.m_format))
              % 2 ^ 64 },
          r.2.1, format_check)
  | AIFFTag.Unknown =>
    let r := read_chunk f chunk 0 chunk_size
    if r.1 = false then Except.error (Error.BadFormat, r.2.2)
    else Except.ok (r.2.2, chunk, format_check)

/-- The loop `while (get_aiff_chunk_header(tag, chunk_size))` of `parse_aiff_header` with the
check that follows it. The loop variables are the reader, the buffer `chunk`, `format_check`
and `chunk_size`; the result is `none` when the fuel runs out. -/
def parse_aiff_loop {F : Type} (D : AudioFileDecls F) (fileSubtype : List Nat) :
    Nat → IAudioFile F → List Nat → Nat → Nat → Option (Error × IAudioFile F)
  | 0, _, _, _, _ => none
  | fuel + 1, f, chunk, format_check, chunk_size =>
    let h := get_aiff_chunk_header D f chunk_size
    if h.1 = false then
      let format_valid := AIFFTag.Common.val ||| AIFFTag.Audio.val
      if ((2 ^ 32 - 1) ^^^ format_check) &&& format_valid ≠ 0 then
        some (Error.BadFormat, h.2.2.2)
      else some (Error.None, h.2.2.2)
    else
      let format_check := format_check ||| h.2.1.val
      match aiff_chunk_body D fileSubtype h.2.1 h.2.2.1 h.2.2.2 chunk format_check with
      | Except.error e => some e
      | Except.ok s => parse_aiff_loop D fileSubtype fuel s.1 s.2.1 s.2.2 h.2.2.1

/-- The member `parse_aiff_header`: the error it returns and the reader afterwards, or `none`
when the fuel runs out. `chunk` is the contents of the local buffer `char chunk[22]`, which
the code does not initialise; `chunk_size`, not initialised either, is written before it is
read. -/
def parse_aiff_header {F : Type} (D : AudioFileDecls F) (fileSubtype : List Nat)
    (chunk : List Nat) (fuel : Nat) (f : IAudioFile F) : Option (Error × IAudioFile F) :=
  parse_aiff_loop D fileSubtype fuel { f with m_format := D.aiff } chunk 0 0

/-- A chunk of an AIFF / AIFC file: a tag of four characters and the data bytes. -/
structure Chunk where
  tag : List Nat
  data : List Nat

/-- The four bytes of a 32-bit value, most significant first. -/
def be32 (n : Nat) : List Nat := [n / 2 ^ 24 % 256, n / 2 ^ 16 % 256, n / 2 ^ 8 % 256, n % 256]

/-- The value of the first four bytes, most significant first. -/
def be_val (bs : List Nat) : Nat :=
  ((bs.getD 0 0 * 256 + bs.getD 1 0) * 256 + bs.getD 2 0) * 256 + bs.getD 3 0

/-- The bytes of a chunk in the file: tag, size (big-endian), data and a pad byte after data
of odd length. -/
def Chunk.encode (c : Chunk) : List Nat :=
  c.tag ++ be32 c.data.length ++ c.data ++ List.replicate (c.data.length % 2) 0

/-- The bytes of a chunk sequence. -/
def encode_chunks : List Chunk → List Nat
  | [] => []
  | c :: cs => c.encode ++ encode_chunks cs

/-- The buffer `chunk` after the parser has handled the chunk `c`: a `COMM` chunk is read
into it up to 22 bytes, an `FVER` or `SSND` chunk up to 4. -/
def chunk_buffer (buffer : List Nat) (c : Chunk) : List Nat :=
  if c.tag = tag_COMM.take 4 then write_bytes buffer (c.data.take 22)
  else if c.tag = tag_FVER.take 4 ∨ c.tag = tag_SSND.take 4 then
    write_bytes buffer (c.data.take 4)
  else buffer

/-- The frame count of a `COMM` chunk: the 32-bit value at byte 2. -/
def Chunk.frame_count (c : Chunk) : Nat := be_val (c.data.drop 2)

/-- The failure of a chunk, if it fails, when the parser's buffer holds `buffer` before it:
an `FVER` or `SSND` chunk of less than 4 bytes and a `COMM` chunk of less than 18 are a bad
format, an `FVER` chunk with another value than `AIFC_CURRENT_SPECIFICATION` is a wrong
version, and a `COMM` chunk fails on a format that is not supported. -/
def chunk_failure {F : Type} (D : AudioFileDecls F) (aifc : Bool) (buffer : List Nat)
    (c : Chunk) : Option Error :=
  if c.tag = tag_FVER.take 4 then
    if c.data.length < 4 then some Error.BadFormat
    else if be_val c.data ≠ AIFC_CURRENT_SPECIFICATION then some Error.WrongAIFCVersion
    else none
  else if c.tag = tag_COMM.take 4 then
    if c.data.length < 18 then some Error.BadFormat
    else
      let bit_depth :=
        get_u16 D ((chunk_buffer buffer c).drop 6) Endianness.Big
      if aifc then
        if D.file_type_none (D.to_format ((chunk_buffer buffer c).drop 18) bit_depth) then
          some Error.UnsupportedAIFCFormat
        else if D.is_valid (D.to_format ((chunk_buffer buffer c).drop 18) bit_depth) = false
        then some Error.UnsupportedPCMFormat
        else none
      else if D.is_valid (D.aiff_pcm bit_depth) = false then
        some Error.UnsupportedPCMFormat
      else none
  else if c.tag = tag_SSND.take 4 then
    if c.data.length < 4 then some Error.BadFormat else none
  else none

/-- No chunk of a sequence fails, from a parser's buffer that holds `buffer`. -/
def no_failure {F : Type} (D : AudioFileDecls F) (aifc : Bool) :
    List Chunk → List Nat → Prop
  | [], _ => True
  | c :: cs, buffer =>
    chunk_failure D aifc buffer c = none ∧ no_failure D aifc cs (chunk_buffer buffer c)

/-- Formats for the evaluation of the reader: plain AIFF, PCM of a bit depth, and a
compressed format named by its four characters. -/
inductive TestFormat where
  | aiff
  | pcm (bit_depth : Nat)
  | compressed (tag : List Nat) (bit_depth : Nat)
  deriving DecidableEq

/-- Declarations for the evaluation of the reader: big-endian headers, every PCM depth that
is a multiple of 8 up to 32 valid, the compression `NONE` supported. -/
def test_decls : AudioFileDecls TestFormat :=
  { aiff := TestFormat.aiff
    aiff_pcm := TestFormat.pcm
    to_format := fun tag bit_depth => TestFormat.compressed (tag.take 4) bit_depth
    file_type_none := fun fmt =>
      match fmt with
      | TestFormat.compressed tag _ => decide (tag ≠ [0x4E, 0x4F, 0x4E, 0x45])
      | _ => false
    is_valid := fun fmt =>
      match fmt with
      | TestFormat.aiff => true
      | TestFormat.pcm b => decide (b % 8 = 0 ∧ 0 < b ∧ b ≤ 32)
      | TestFormat.compressed _ b => decide (b % 8 = 0 ∧ 0 < b ∧ b ≤ 32)
    header_endianness := fun _ => Endianness.Big
    get_bytes := fun n bytes e =>
      match e with
      | Endianness.Big => (bytes.take n).foldl (fun acc b => acc * 256 + b) 0
      | Endianness.Little => (bytes.take n).foldr (fun b acc => acc * 256 + b) 0 }

/-- A reader opened on a file, at byte 12 (after `FORM`, the size and the subtype). -/
def test_reader (bytes : List Nat) : IAudioFile TestFormat :=
  { m_file := { bytes := bytes, pos := 12, past_end := true }
    m_format := TestFormat.aiff, m_num_channels := 0, m_num_frames := 0, m_pcm_offset := 0 }

/-- A `COMM` chunk: 2 channels, 5 frames, 16 bits, and a sample rate field. -/
def test_COMM : Chunk :=
  { tag := [0x43, 0x4F, 0x4D, 0x4D]
    data := [0, 2, 0, 0, 0, 5, 0, 16, 0x40, 0x0E, 0xAC, 0x44, 0, 0, 0, 0, 0, 0] }

/-- An `FVER` chunk with the value `v`. -/
def test_FVER (v : Nat) : Chunk := { tag := [0x46, 0x56, 0x45, 0x52], data := be32 v }

/-- An `SSND` chunk with offset 0, block size 0 and three data bytes. -/
def test_SSND : Chunk :=
  { tag := [0x53, 0x53, 0x4E, 0x44], data := [0, 0, 0, 0, 0, 0, 0, 0, 1, 2, 3] }

/-- The twelve bytes of the file header before the chunks. -/
def test_form (subtype : List Nat) : List Nat :=
  [0x46, 0x4F, 0x52, 0x4D, 0, 0, 0, 0] ++ subtype

/-- The enumerated tag of a chunk tag. -/
def classify (tag : List Nat) : AIFFTag :=
  if tag = tag_FVER.take 4 then AIFFTag.Version
  else if tag = tag_COMM.take 4 then AIFFTag.Common
  else if tag = tag_SSND.take 4 then AIFFTag.Audio
  else AIFFTag.Unknown

/-- The assumptions on the declarations that are taken as parameters: the header of every
format that the AIFF parser installs is big-endian, and `get_bytes<uint32_t, 4>` of a
big-endian value is the value of the four bytes, most significant first. -/
structure AudioFileDecls.big_endian_headers {F : Type} (D : AudioFileDecls F) : Prop where
  aiff : D.header_endianness D.aiff = Endianness.Big
  aiff_pcm : ∀ b, D.header_endianness (D.aiff_pcm b) = Endianness.Big
  to_format : ∀ t b, D.header_endianness (D.to_format t b) = Endianness.Big
  get_bytes : ∀ bs : List Nat, 4 ≤ bs.length → D.get_bytes 4 bs Endianness.Big = be_val bs

/-- The result of the parser on a chunk sequence, chunk by chunk: the first failure, or the
check of `format_check` after the last chunk. -/
def walk {F : Type} (D : AudioFileDecls F) (aifc : Bool) :
    List Chunk → List Nat → Nat → Error
  | [], _, x =>
    if ((2 ^ 32 - 1) ^^^ x) &&& (AIFFTag.Common.val ||| AIFFTag.Audio.val) ≠ 0 then
      Error.BadFormat
    else Error.None
  | c :: cs, buffer, x =>
    match chunk_failure D aifc buffer c with
    | some e => e
    | none =>
      walk D aifc cs (chunk_buffer buffer c)
        (if c.tag = tag_COMM.take 4 ∧ c.frame_count = 0 then
          (x ||| (classify c.tag).val) ||| AIFFTag.Audio.val
        else x ||| (classify c.tag).val)

/-- The well-formed chunks: a tag of four characters, data of less than `2^32 - 1` bytes,
every one of them a byte. -/
def Chunk.wf (c : Chunk) : Prop :=
  c.tag.length = 4 ∧ c.data.length + 1 < 2 ^ 32 ∧ ∀ b ∈ c.data, b < 256

/-! ### `extractErrorsFromFlags` (`BaseAudioFile.hpp`) -/

/-- The values of the enumerators of `BaseAudioFile::Error`. -/
def Error.val : Error → Nat
  | Error.None => 0
  | Error.CouldNotAllocate => 1 <<< 0
  | Error.FileError => 1 <<< 1
  | Error.CouldNotOpen => 1 <<< 2
  | Error.BadFormat => 1 <<< 3
  | Error.UnknownFormat => 1 <<< 4
  | Error.UnsupportedPCMFormat => 1 <<< 5
  | Error.WrongAIFCVersion => 1 <<< 6
  | Error.UnsupportedAIFCFormat => 1 <<< 7
  | Error.UnsupportedWaveFormat => 1 <<< 8
  | Error.CouldNotWrite => 1 <<< 9

/-- The member `setErrorBit` on the flag word: `mErrorFlags |= static_cast<int>(error)`. -/
def setErrorBit (flags : Nat) (error : Error) : Nat := flags ||| error.val

/-- The bit pattern of the `int` expression `1 << i`: `2^i` for `i < 31`; from `i = 31` on the
shift overflows or exceeds the width of `int`, its value is not defined by the language and
`ub i` stands for what the platform yields. -/
def shift_one (ub : Nat → Nat) (i : Nat) : Nat := if i < 31 then 1 <<< i else ub i

/-- The loop `for (int i = 0; i <= static_cast<int>(Error::CouldNotWrite); i++)` of
`extractErrorsFromFlags`, with `count` iterations left from `i` on. The vector holds the
values `static_cast<Error>(i)` that were pushed, as the underlying integers. -/
def extract_loop (ub : Nat → Nat) (flags : Nat) : Nat → Nat → List Nat → List Nat
  | 0, _, errors => errors
  | count + 1, i, errors =>
    extract_loop ub flags count (i + 1)
      (if flags &&& shift_one ub i ≠ 0 then errors ++ [i] else errors)

/-- The static member `extractErrorsFromFlags` (for a flag word that is not negative): the
underlying integers of the elements of the vector it returns. -/
def extractErrorsFromFlags (ub : Nat → Nat) (flags : Nat) : List Nat :=
  extract_loop ub flags (Error.CouldNotWrite.val + 1) 0 []

/-! ### A short stage list of `MonoConvolve` -/

/-- The convolver over recording sub-convolvers built by
`MonoConvolve(100000, kLatencyShort)`, with 5 drawn from `m_rand_dist`. -/
def mono_short : MonoConvolve (List Call) (List Call) :=
  MonoConvolve.build_partitions record_time record_part MemorySwap.equal 5
    (MonoConvolve.init (List Call) (List Call)) 100000 false [256, 1024, 4096, 16384]

/-! ### The sample conversions of `read_audio` (`IAudioFile.hpp`) -/

/-- `BaseAudioFile::PCMFormat`. -/
inductive PCMFormat where
  | Int8
  | Int16
  | Int24
  | Int32
  | Float32
  | Float64
  deriving DecidableEq

/-- The overload `convert(uint8_t value, uint8_t, T)` of `IAudioFile`. -/
def convert_uint8 {R : Type} [Field R] (value : Nat) : R := ((value : R) - 128) / 128

/-- The generic `convert<T, U, V>(V value, T, U)` at `T = int32_t` for a `uint32_t` value:
`static_cast<U>(*reinterpret_cast<int32_t*>(&value))`, the bits read as a two's complement
integer. -/
def convert_as_int32 {R : Type} [Field R] (value : Nat) : R := ((to_int32 value : Int) : R)

/-- The generic `convert<T, U, V>(V value, T, U)` at `T = uint8_t` for an `int` value that is
not negative: `static_cast<U>(*reinterpret_cast<uint8_t*>(&value))`, the first byte of the
`int` in memory, which is its lowest byte on a little-endian host and its highest on a
big-endian one. -/
def convert_as_uint8 {R : Type} [Field R] (host_little : Bool) (value : Nat) : R :=
  (((if host_little then value % 256 else value / 2 ^ 24 % 256) : Nat) : R)

/-- The overload `convert(uint32_t value, uint32_t, T)`: the value read as `int32_t`, times
`T(-1.0) / static_cast<T>(int32_t(1) << int32_t(31))` (the shift gives `-2^31` in two's
complement). -/
def convert_uint32 {R : Type} [Field R] (value : Nat) : R :=
  convert_as_int32 value * ((-1 : R) / ((to_int32 (1 <<< 31) : Int) : R))

/-- One sample of the instantiation `read_loop<uint32_t, uint32_t, N, Shift>`:
`convert(get_bytes<uint32_t, N>(...) << Shift, uint32_t(0), V(0))` for the value `raw` that
`get_bytes` returns. The first argument is a `uint32_t`, and the overload for `uint32_t` is
the most specialised exact match. -/
def read_loop_uint32 {R : Type} [Field R] (Shift raw : Nat) : R :=
  convert_uint32 ((raw <<< Shift) % 2 ^ 32)

/-- One sample of the instantiation `read_loop<uint8_t, uint8_t, 1, 0>`:
`convert(get_bytes<uint8_t, 1>(...) << 0, uint8_t(0), V(0))`. The shift promotes its left
operand, so the first argument is an `int`; the generic template matches the three argument
types exactly and is selected, the overload for `uint8_t` would need a conversion of the
first argument and is not. -/
def read_loop_uint8 {R : Type} [Field R] (host_little : Bool) (raw : Nat) : R :=
  convert_as_uint8 host_little (raw <<< 0)

/-- One sample of `read_audio` for the integer formats: the `switch (get_pcm_format())` over
the value `raw` that `get_bytes` returns for the sample. The float formats read the bits as
IEEE values and are not covered (`none`). -/
def read_audio_sample {R : Type} [Field R] (host_little wave : Bool) (format : PCMFormat)
    (raw : Nat) : Option R :=
  match format with
  | PCMFormat.Int8 =>
    if wave then some (read_loop_uint8 host_little raw) else some (read_loop_uint32 24 raw)
  | PCMFormat.Int16 => some (read_loop_uint32 16 raw)
  | PCMFormat.Int24 => some (read_loop_uint32 8 raw)
  | PCMFormat.Int32 => some (read_loop_uint32 0 raw)
  | PCMFormat.Float32 => none
  | PCMFormat.Float64 => none

/-- The bytes of a signed sample of `8 * N` bits as the unsigned value that `get_bytes`
returns (two's complement). -/
def sample_bits (N : Nat) (s : Int) : Nat := (s % 2 ^ (8 * N)).toNat

/-! ### `deinterleave` and `interleave` (`HISSTools_FFT_Core.h`) -/

/-- The lane-wise unpack of the low halves (`_mm_unpacklo_pd`, `_mm_unpacklo_ps` and their
256-bit and 512-bit forms): within each 128-bit lane of `c` elements the elements of the low
half of `a` and `b` alternate. A register is the map from element index to element. -/
def unpacklo {α : Type} (c : Nat) (a b : Nat → α) : Nat → α :=
  fun i => if i % c % 2 = 0 then a (i / c * c + i % c / 2) else b (i / c * c + i % c / 2)

/-- The lane-wise unpack of the high halves (`_mm_unpackhi_pd`, `_mm_unpackhi_ps` and their
256-bit and 512-bit forms). -/
def unpackhi {α : Type} (c : Nat) (a b : Nat → α) : Nat → α :=
  fun i =>
    if i % c % 2 = 0 then a (i / c * c + c / 2 + i % c / 2)
    else b (i / c * c + c / 2 + i % c / 2)

/-- `_mm_shuffle_ps` and `_mm256_shuffle_ps`: within each lane of four floats, elements 0 and
1 are picked from `a` and elements 2 and 3 from `b`, each by two bits of `imm8`. -/
def shuffle_ps {α : Type} (imm8 : Nat) (a b : Nat → α) : Nat → α :=
  fun i =>
    if i % 4 < 2 then a (i / 4 * 4 + ((imm8 >>> (2 * (i % 4))) &&& 3))
    else b (i / 4 * 4 + ((imm8 >>> (2 * (i % 4))) &&& 3))

/-- `_mm256_permute2f128_pd` and `_mm256_permute2f128_ps` on registers with 128-bit lanes of
`c` elements: each half of the result is the lane of `a` or `b` that four bits of `imm8`
select, or zero when bit 3 of them is set. -/
def permute2f128 {α : Type} [Zero α] (c imm8 : Nat) (a b : Nat → α) : Nat → α :=
  fun i =>
    let control := (imm8 >>> (4 * (i / c))) &&& 15
    if control &&& 8 ≠ 0 then 0
    else if control &&& 2 = 0 then a ((control &&& 1) * c + i % c)
    else b ((control &&& 1) * c + i % c)

/-- The register `input[j]` of `W` elements in an array of elements. -/
def load_vec {α : Type} (W : Nat) (input : Nat → α) (j : Nat) : Nat → α :=
  fun i => input (j * W + i)

/-- The array of two registers `output[0]`, `output[1]` of `W` elements each. -/
def store_vec2 {α : Type} [Zero α] (W : Nat) (v0 v1 : Nat → α) : Nat → α :=
  fun i => if i < W then v0 i else if i < 2 * W then v1 (i - W) else 0

/-- The scalar `deinterleave` (`SIMDType<T, 1>`): `(*outReal, *outImag)`. -/
def deinterleave_1 {α : Type} (input : Nat → α) : (Nat → α) × (Nat → α) :=
  (fun _ => input 0, fun _ => input 1)

/-- The scalar `interleave`. -/
def interleave_1 {α : Type} [Zero α] (inReal inImag : Nat → α) : Nat → α :=
  store_vec2 1 inReal inImag

/-- The specialisation `deinterleave(const SIMDType<double, 2> *...)` for SSE. -/
def deinterleave_double_2 {α : Type} (input : Nat → α) : (Nat → α) × (Nat → α) :=
  (unpacklo 2 (load_vec 2 input 0) (load_vec 2 input 1),
   unpackhi 2 (load_vec 2 input 0) (load_vec 2 input 1))

/-- The specialisation `interleave` for `SIMDType<double, 2>` (SSE). -/
def interleave_double_2 {α : Type} [Zero α] (inReal inImag : Nat → α) : Nat → α :=
  store_vec2 2 (unpacklo 2 inReal inImag) (unpackhi 2 inReal inImag)

/-- The specialisation `deinterleave` for `SIMDType<float, 4>` (SSE). -/
def deinterleave_float_4 {α : Type} (input : Nat → α) : (Nat → α) × (Nat → α) :=
  (shuffle_ps 0x88 (load_vec 4 input 0) (load_vec 4 input 1),
   shuffle_ps 0xDD (load_vec 4 input 0) (load_vec 4 input 1))

/-- The specialisation `interleave` for `SIMDType<float, 4>` (SSE). -/
def interleave_float_4 {α : Type} [Zero α] (inReal inImag : Nat → α) : Nat → α :=
  store_vec2 4 (unpacklo 4 inReal inImag) (unpackhi 4 inReal inImag)

/-- The specialisation `deinterleave` for `SIMDType<double, 4>` (AVX). -/
def deinterleave_double_4 {α : Type} [Zero α] (input : Nat → α) : (Nat → α) × (Nat → α) :=
  let v1 := permute2f128 2 0x20 (load_vec 4 input 0) (load_vec 4 input 1)
  let v2 := permute2f128 2 0x31 (load_vec 4 input 0) (load_vec 4 input 1)
  (unpacklo 2 v1 v2, unpackhi 2 v1 v2)

/-- The specialisation `interleave` for `SIMDType<double, 4>` (AVX). -/
def interleave_double_4 {α : Type} [Zero α] (inReal inImag : Nat → α) : Nat → α :=
  let v1 := unpacklo 2 inReal inImag
  let v2 := unpackhi 2 inReal inImag
  store_vec2 4 (permute2f128 2 0x20 v1 v2) (permute2f128 2 0x31 v1 v2)

/-- The specialisation `deinterleave` for `SIMDType<float, 8>` (AVX). -/
def deinterleave_float_8 {α : Type} [Zero α] (input : Nat → α) : (Nat → α) × (Nat → α) :=
  let v1 := permute2f128 4 0x20 (load_vec 8 input 0) (load_vec 8 input 1)
  let v2 := permute2f128 4 0x31 (load_vec 8 input 0) (load_vec 8 input 1)
  (shuffle_ps 0x88 v1 v2, shuffle_ps 0xDD v1 v2)

/-- The specialisation `interleave` for `SIMDType<float, 8>` (AVX). -/
def interleave_float_8 {α : Type} [Zero α] (inReal inImag : Nat → α) : Nat → α :=
  let v1 := unpacklo 4 inReal inImag
  let v2 := unpackhi 4 inReal inImag
  store_vec2 8 (permute2f128 4 0x20 v1 v2) (permute2f128 4 0x31 v1 v2)

/-- The specialisation `deinterleave` for `SIMDType<double, 8>` (AVX-512). -/
def deinterleave_double_8 {α : Type} (input : Nat → α) : (Nat → α) × (Nat → α) :=
  (unpacklo 2 (load_vec 8 input 0) (load_vec 8 input 1),
   unpackhi 2 (load_vec 8 input 0) (load_vec 8 input 1))

/-- The specialisation `interleave` for `SIMDType<double, 8>` (AVX-512). -/
def interleave_double_8 {α : Type} [Zero α] (inReal inImag : Nat → α) : Nat → α :=
  store_vec2 8 (unpacklo 2 inReal inImag) (unpackhi 2 inReal inImag)

/-- The specialisation `deinterleave` for `SIMDType<float, 16>` (AVX-512). -/
def deinterleave_float_16 {α : Type} (input : Nat → α) : (Nat → α) × (Nat → α) :=
  (unpacklo 4 (load_vec 16 input 0) (load_vec 16 input 1),
   unpackhi 4 (load_vec 16 input 0) (load_vec 16 input 1))

/-- The specialisation `interleave` for `SIMDType<float, 16>` (AVX-512). -/
def interleave_float_16 {α : Type} [Zero α] (inReal inImag : Nat → α) : Nat → α :=
  store_vec2 16 (unpacklo 4 inReal inImag) (unpackhi 4 inReal inImag)

/-- `vuzp1q_f64` and the first register of `vuzpq_f32`: the elements of even index of the
concatenation of `a` and `b` (registers of `W` elements). -/
def vuzp1 {α : Type} (W : Nat) (a b : Nat → α) : Nat → α :=
  fun i => if 2 * i < W then a (2 * i) else b (2 * i - W)

/-- `vuzp2q_f64` and the second register of `vuzpq_f32`: the elements of odd index. -/
def vuzp2 {α : Type} (W : Nat) (a b : Nat → α) : Nat → α :=
  fun i => if 2 * i + 1 < W then a (2 * i + 1) else b (2 * i + 1 - W)

/-- `vzip1q_f64` and the first register of `vzipq_f32`: the low halves of `a` and `b`,
alternating. -/
def vzip1 {α : Type} (a b : Nat → α) : Nat → α :=
  fun i => if i % 2 = 0 then a (i / 2) else b (i / 2)

/-- `vzip2q_f64` and the second register of `vzipq_f32`: the high halves, alternating. -/
def vzip2 {α : Type} (W : Nat) (a b : Nat → α) : Nat → α :=
  fun i => if i % 2 = 0 then a (W / 2 + i / 2) else b (W / 2 + i / 2)

/-- The NEON specialisations of `deinterleave` for `SIMDType<double, 2>` (`W = 2`) and
`SIMDType<float, 4>` (`W = 4`). -/
def deinterleave_neon {α : Type} (W : Nat) (input : Nat → α) : (Nat → α) × (Nat → α) :=
  (vuzp1 W (load_vec W input 0) (load_vec W input 1),
   vuzp2 W (load_vec W input 0) (load_vec W input 1))

/-- The NEON specialisations of `interleave`. -/
def interleave_neon {α : Type} [Zero α] (W : Nat) (inReal inImag : Nat → α) : Nat → α :=
  store_vec2 W (vzip1 inReal inImag) (vzip2 W inReal inImag)

/-! ### `unzip_zero` (`HISSTools_FFT_Core.h`) -/

/-- The loop of the converting `unzip_complex<T, U>` (`*realp++ = *input++;
*imagp++ = *input++`) with `count` iterations left from `i` on. The input array is the list
of the samples that may be read; a read outside it has no defined behaviour (`none`). -/
def unzip_complex_loop {R : Type} (input : List R) :
    Nat → Nat → Split R → Option (Split R)
  | 0, _, output => some output
  | count + 1, i, output =>
    match input[2 * i]?, input[2 * i + 1]? with
    | some re, some im =>
      unzip_complex_loop input count (i + 1)
        { realp := fun k => if k = i then re else output.realp k,
          imagp := fun k => if k = i then im else output.imagp k }
    | _, _ => none

/-- The converting overload `unzip_complex(const U *input, Split<T> *output, half_length)`. -/
def unzip_complex {R : Type} (input : List R) (output : Split R) (half_length : Nat) :
    Option (Split R) :=
  unzip_complex_loop input half_length 0 output

/-- The loop `for (uintptr_t i = end_point1 + 1; i < end_point2; i++)` of `unzip_zero`, with
`count` iterations left from `i` on. -/
def zero_pad_loop {R : Type} [Zero R] : Nat → Nat → Split R → Split R
  | 0, _, output => output
  | count + 1, i, output =>
    zero_pad_loop count (i + 1)
      { realp := fun k => if k = i then 0 else output.realp k,
        imagp := fun k => if k = i then 0 else output.imagp k }

/-- The function `unzip_zero` (`uintptr_t` of 64 bits): `none` when a read leaves the input
array. -/
def unzip_zero {R : Type} [Zero R] (input : List R) (output : Split R)
    (in_length log2n : Nat) : Option (Split R) :=
  match input[(in_length + 2 ^ 64 - 1) % 2 ^ 64]? with
  | none => none
  | some odd_sample =>
    let fft_size := (1 <<< log2n) % 2 ^ 64
    let in_length := min fft_size in_length
    match unzip_complex input output (in_length >>> 1) with
    | none => none
    | some output =>
      if fft_size > in_length then
        let end_point1 := in_length >>> 1
        let end_point2 := fft_size >>> 1
        let output : Split R :=
          { realp := fun k =>
              if k = end_point1 then (if in_length &&& 1 ≠ 0 then odd_sample else 0)
              else output.realp k,
            imagp := fun k => if k = end_point1 then 0 else output.imagp k }
        some (zero_pad_loop (end_point2 - (end_point1 + 1)) (end_point1 + 1) output)
      else some output

/-- The input truncated to `n` samples and padded with zeros. -/
def truncate_pad {R : Type} [Zero R] (input : List R) (n : Nat) : Nat → R :=
  fun i => if i < min n input.length then input.getD i 0 else 0

/-! ### The capacity of the impulse and input-history buffers -/

/-- The number of elements that the constructor asks of `allocate_aligned<T>` for the impulse
and input-history buffers (line 78): the `uintptr_t` product `m_max_impulse_length * 4`, which
wraps modulo `2 ^ 64`. `m_max_impulse_length` does not change after the constructor. -/
def impulse_alloc_size {R : Type} (st : convolve_partitioned R) : Nat :=
  (st.m_max_impulse_length * 4) % 2 ^ 64

/-- The element offset inside that allocation of its four parts (lines 78-81): part 0 is
`m_impulse_buffer.realp`, part 1 `m_impulse_buffer.imagp`, part 2 `m_input_buffer.realp` and
part 3 `m_input_buffer.imagp`, each `m_max_impulse_length` elements after the one before. -/
def impulse_part_offset {R : Type} (st : convolve_partitioned R) (part : Nat) : Nat :=
  part * st.m_max_impulse_length

/-- What keeps the spectra inside the impulse and input-history buffers: the FFT size is at
most the maximum FFT size, `m_max_impulse_length` is a multiple of half the maximum FFT size,
the partitions fit into `m_max_impulse_length` elements, and the allocation has four times
that many elements (its size did not wrap). -/
structure Capacity {R : Type} (st : convolve_partitioned R) : Prop where
  lg_min : 5 ≤ st.m_fft_size_log2
  lg_max : st.m_fft_size_log2 ≤ st.m_max_fft_size_log2
  multiple : 2 ^ (st.m_max_fft_size_log2 - 1) ∣ st.m_max_impulse_length
  fits : st.m_num_partitions * 2 ^ (st.m_fft_size_log2 - 1) ≤ st.m_max_impulse_length
  alloc : impulse_alloc_size st = 4 * st.m_max_impulse_length

/-! ### The scheduling loop of `process` with its rounds counted -/

/-- The scheduling loop `while (num_partitions_to_do > 0)` of `process` (see
`partition_while` and `partition_while_work`) with the number of times its body runs counted.
The result is the value of `num_partitions_to_do` when the loop is left, either by its
condition or because the fuel ran out, the number of rounds, and the convolver with the call
counters. -/
def partition_while_rounds {R : Type} [Zero R] [Add R] [Sub R] [Mul R]
    (W fft_size_halved : Nat) :
    Nat → Int → convolve_partitioned R × Work → Int × Nat × (convolve_partitioned R × Work)
  | 0, num_partitions_to_do, s => (num_partitions_to_do, 0, s)
  | fuel + 1, num_partitions_to_do, s =>
    if num_partitions_to_do > 0 then
      let st := s.1
      let next_partition :=
        if st.m_last_partition < st.m_num_partitions then st.m_last_partition else 0
      let last_partition :=
        min st.m_num_partitions (next_partition + num_partitions_to_do.toNat)
      let num_partitions_to_do := num_partitions_to_do - ((last_partition - next_partition : Nat) : Int)
      let st := { st with m_last_partition := last_partition }
      let s := partition_for_work W fft_size_halved (last_partition - next_partition)
        ((st.m_partitions_done + 1) * fft_size_halved) (next_partition * fft_size_halved)
        (st, s.2)
      let r := partition_while_rounds W fft_size_halved fuel num_partitions_to_do s
      (r.1, r.2.1 + 1, r.2.2)
    else (num_partitions_to_do, 0, s)

/-- One iteration of the main loop of `process` (see `process_iter`) that reports, next to
the new loop variables, the number of samples it consumes (`loop_size`), the value of
`num_partitions_to_do` before and after the scheduling loop, the number of rounds of that
loop and the number of `process_partition` calls made inside it. -/
def process_iter_rounds {R : Type} [Field R] (K : FFTKernel R) (W : Nat) (inp : Nat → R)
    (accumulate : Bool)
    (v : convolve_partitioned R × Nat × Nat × Nat × Nat × (Nat → R)) :
    (convolve_partitioned R × Nat × Nat × Nat × Nat × (Nat → R)) × Nat × Int × Int × Nat × Nat :=
  let st := v.1
  let rw_counter := v.2.1
  let samples_remaining := v.2.2.1
  let in_pos := v.2.2.2.1
  let out_pos := v.2.2.2.2.1
  let out := v.2.2.2.2.2
  let fft_size := get_fft_size st
  let fft_size_halved := fft_size >>> 1
  let hop_mask := fft_size_halved - 1
  let till_next_fft := fft_size_halved - (rw_counter &&& hop_mask)
  let loop_size := if samples_remaining < till_next_fft then samples_remaining else till_next_fft
  let hi_counter := (rw_counter + fft_size_halved) &&& (fft_size - 1)
  let st :=
    { st with
      m_fft_buffers_0 := copy_n inp in_pos loop_size st.m_fft_buffers_0 rw_counter,
      m_fft_buffers_1 := copy_n inp in_pos loop_size st.m_fft_buffers_1 hi_counter }
  let out :=
    if accumulate then add_n st.m_fft_buffers_3 rw_counter loop_size out out_pos
    else copy_n st.m_fft_buffers_3 rw_counter loop_size out out_pos
  let samples_remaining := samples_remaining - loop_size
  let rw_counter := rw_counter + loop_size
  let in_pos := in_pos + loop_size
  let out_pos := out_pos + loop_size
  let fft_counter := rw_counter &&& hop_mask
  let fft_now := decide (fft_counter = 0)
  let num_partitions_to_do : Int :=
    if fft_now then ((st.m_valid_partitions : Int) - (st.m_partitions_done : Int)) - 1
    else
      ((((st.m_valid_partitions - 1) * fft_counter) / fft_size_halved : Nat) : Int)
        - (st.m_partitions_done : Int)
  let s := partition_while_rounds W fft_size_halved num_partitions_to_do.toNat
    num_partitions_to_do (st, { rffts := 0, riffts := 0, macs := 0 })
  let r := if fft_now then fft_step K W s.2.2.1 rw_counter else (s.2.2.1, rw_counter)
  ((r.1, r.2, samples_remaining, in_pos, out_pos, out),
    loop_size, num_partitions_to_do, s.1, s.2.1, s.2.2.2.macs)

/-! ## Theorems -/

theorem log2_loop_eq (fuel bit_shift bit_count : Nat) (h : bit_shift ≤ fuel) :
    log2_loop fuel bit_shift bit_count = bit_count + Nat.size bit_shift := by
  induction fuel generalizing bit_shift bit_count with
  | zero =>
    have : bit_shift = 0 := by omega
    subst this
    simp [log2_loop]
  | succ n ih =>
    unfold log2_loop
    by_cases hb : bit_shift = 0
    · subst hb; simp
    · simp only [ne_eq, hb, not_false_eq_true, if_true]
      have hlt : bit_shift >>> 1 ≤ n := by
        rw [Nat.shiftRight_eq_div_pow]
        have : bit_shift / 2 ^ 1 < bit_shift := Nat.div_lt_self (by omega) (by norm_num)
        omega
      rw [ih _ _ hlt]
      have hs : Nat.size bit_shift = Nat.size (bit_shift >>> 1) + 1 := by
        have h2 : bit_shift >>> 1 = bit_shift / 2 := by
          rw [Nat.shiftRight_eq_div_pow, pow_one]
        rw [h2]
        conv_lhs => rw [← Nat.bit_decomp bit_shift]
        rw [Nat.size_bit]
        · rw [Nat.div2_val]
        · rw [Nat.bit_decomp]; exact hb
      omega

theorem log2_loop_self (value : Nat) : log2_loop value value 0 = Nat.size value := by
  rw [log2_loop_eq _ _ _ (le_refl _)]; simp

theorem log2_eq (value : Nat) :
    log2 value = if value = 2 ^ (Nat.size value - 1) then Nat.size value - 1
      else Nat.size value := by
  unfold log2
  simp only [log2_loop_self, Nat.one_shiftLeft]

/-- `log2 value` is an upper bound: `value ≤ 2 ^ log2 value`. -/
theorem le_two_pow_log2 (value : Nat) : value ≤ 2 ^ log2 value := by
  rw [log2_eq]
  split_ifs with h
  · exact le_of_eq h
  · exact le_of_lt (Nat.lt_size_self value)

/-- `log2 value` is the least exponent: any `k` with `value ≤ 2 ^ k` is at least `log2 value`. -/
theorem log2_le_of_le_two_pow (value k : Nat) (hv : 1 ≤ value) (h : value ≤ 2 ^ k) :
    log2 value ≤ k := by
  rw [log2_eq]
  have hpos : 0 < Nat.size value := Nat.size_pos.mpr (by omega)
  have h1 : 2 ^ (Nat.size value - 1) ≤ value := Nat.lt_size.mp (by omega)
  split_ifs with he
  · rw [he] at h
    exact (Nat.pow_le_pow_iff_right (by norm_num)).mp h
  · have h2 : 2 ^ (Nat.size value - 1) < 2 ^ k := lt_of_lt_of_le (lt_of_le_of_ne h1 (Ne.symm he)) h
    have := (Nat.pow_lt_pow_iff_right (by norm_num : 1 < 2)).mp h2
    omega

theorem log2_unique (value c : Nat) (hv : 1 ≤ value) (hc1 : value ≤ 2 ^ c)
    (hc2 : ∀ k, value ≤ 2 ^ k → c ≤ k) : log2 value = c :=
  le_antisymm (log2_le_of_le_two_pow value c hv hc1) (hc2 _ (le_two_pow_log2 value))

theorem log2_two_pow (k : Nat) : log2 (2 ^ k) = k := by
  apply log2_unique _ _ Nat.one_le_two_pow (le_refl _)
  intro j hj
  exact (Nat.pow_le_pow_iff_right (by norm_num)).mp hj

theorem eq_two_pow_log2_iff (value : Nat) : value = 2 ^ log2 value ↔ ∃ k, value = 2 ^ k := by
  constructor
  · intro h; exact ⟨_, h⟩
  · rintro ⟨k, rfl⟩; rw [log2_two_pow]

/-! ### `set_fft_size` (C9) -/

theorem set_fft_size_fst {R : Type} (st : convolve_partitioned R) (s : Nat) :
    (set_fft_size st s).1 =
      if log2 s < 5 ∨ log2 s > st.m_max_fft_size_log2 then ConvolveError.FFTSizeOutOfRange
      else if s ≠ 1 <<< log2 s then ConvolveError.FFTSizeNonPowerOfTwo
      else ConvolveError.None := by
  unfold set_fft_size
  dsimp only [MIN_FFT_SIZE_LOG2]
  split_ifs <;> rfl

theorem set_fft_size_log2_field {R : Type} (st : convolve_partitioned R) (s : Nat) :
    (set_fft_size st s).2.m_fft_size_log2 =
      if log2 s < 5 ∨ log2 s > st.m_max_fft_size_log2 then st.m_fft_size_log2
      else if log2 s ≠ st.m_fft_size_log2 then log2 s else st.m_fft_size_log2 := by
  unfold set_fft_size
  dsimp only [MIN_FFT_SIZE_LOG2]
  split_ifs <;> rfl

theorem set_fft_size_num_partitions {R : Type} (st : convolve_partitioned R) (s : Nat) :
    (set_fft_size st s).2.m_num_partitions =
      if log2 s < 5 ∨ log2 s > st.m_max_fft_size_log2 then st.m_num_partitions
      else if log2 s ≠ st.m_fft_size_log2 then 0 else st.m_num_partitions := by
  unfold set_fft_size
  dsimp only [MIN_FFT_SIZE_LOG2]
  split_ifs <;> rfl

/-- C9: for a requested size `s ≥ 1` with `c` the least exponent such that `s ≤ 2 ^ c`,
`set_fft_size` returns `FFTSizeOutOfRange` exactly when `c < 5` or `c > m_max_fft_size_log2`,
and then leaves `m_fft_size_log2` and `m_num_partitions` unchanged; otherwise it returns
`FFTSizeNonPowerOfTwo` exactly when `s` is not a power of two and `None` when it is, the FFT
size becomes `2 ^ c`, and `m_num_partitions` is zeroed exactly when `c` differs from the
previous `m_fft_size_log2`. -/
theorem set_fft_size_spec {R : Type} (st : convolve_partitioned R) (s c : Nat) (hs : 1 ≤ s)
    (hc1 : s ≤ 2 ^ c) (hc2 : ∀ k, s ≤ 2 ^ k → c ≤ k) :
    ((set_fft_size st s).1 = ConvolveError.FFTSizeOutOfRange ↔
        (c < 5 ∨ st.m_max_fft_size_log2 < c)) ∧
    ((c < 5 ∨ st.m_max_fft_size_log2 < c) →
        (set_fft_size st s).2.m_fft_size_log2 = st.m_fft_size_log2 ∧
        (set_fft_size st s).2.m_num_partitions = st.m_num_partitions) ∧
    (¬ (c < 5 ∨ st.m_max_fft_size_log2 < c) →
        ((set_fft_size st s).1 = ConvolveError.FFTSizeNonPowerOfTwo ↔ ¬ ∃ k, s = 2 ^ k) ∧
        ((set_fft_size st s).1 = ConvolveError.None ↔ ∃ k, s = 2 ^ k) ∧
        get_fft_size (set_fft_size st s).2 = 2 ^ c ∧
        (c ≠ st.m_fft_size_log2 → (set_fft_size st s).2.m_num_partitions = 0) ∧
        (c = st.m_fft_size_log2 →
          (set_fft_size st s).2.m_num_partitions = st.m_num_partitions)) := by
  have hl : log2 s = c := log2_unique s c hs hc1 hc2
  have hp : s = 2 ^ c ↔ ∃ k, s = 2 ^ k := by rw [← hl]; exact eq_two_pow_log2_iff s
  have hg : ∀ t : convolve_partitioned R, get_fft_size t = 2 ^ t.m_fft_size_log2 := by
    intro t; unfold get_fft_size; rw [Nat.one_shiftLeft]
  rw [hg, set_fft_size_fst, set_fft_size_log2_field, set_fft_size_num_partitions, hl,
    Nat.one_shiftLeft]
  by_cases hr : c < 5 ∨ st.m_max_fft_size_log2 < c
  · have hr2 : c < 5 ∨ c > st.m_max_fft_size_log2 := hr
    simp [hr2, hr]
  · have hr2 : ¬ (c < 5 ∨ c > st.m_max_fft_size_log2) := hr
    simp only [hr, hr2, if_false, false_imp_iff, not_false_eq_true, true_imp_iff, ← hp]
    refine ⟨?_, trivial, ?_, ?_, ?_, ?_, ?_⟩
    · split_ifs <;> simp
    · split_ifs with h <;> simp_all
    · split_ifs with h <;> simp_all
    · split_ifs with h
      · rfl
      · simp only [ne_eq, not_not] at h; rw [h]
    · intro h; simp [h]
    · intro h; simp [h]

/-- C9 witness: the request `48` rounds up to `2 ^ 6`. -/
theorem set_fft_size_spec_witness :
    ((set_fft_size { zero_state with m_max_fft_size_log2 := 10 } 48).1
        = ConvolveError.FFTSizeOutOfRange ↔ (6 < 5 ∨ 10 < 6)) ∧
    ((6 < 5 ∨ 10 < 6) →
        (set_fft_size { zero_state with m_max_fft_size_log2 := 10 } 48).2.m_fft_size_log2 = 0 ∧
        (set_fft_size { zero_state with m_max_fft_size_log2 := 10 } 48).2.m_num_partitions = 0) ∧
    (¬ (6 < 5 ∨ 10 < 6) →
        ((set_fft_size { zero_state with m_max_fft_size_log2 := 10 } 48).1
            = ConvolveError.FFTSizeNonPowerOfTwo ↔ ¬ ∃ k, 48 = 2 ^ k) ∧
        ((set_fft_size { zero_state with m_max_fft_size_log2 := 10 } 48).1
            = ConvolveError.None ↔ ∃ k, 48 = 2 ^ k) ∧
        get_fft_size (set_fft_size { zero_state with m_max_fft_size_log2 := 10 } 48).2 = 2 ^ 6 ∧
        (6 ≠ 0 → (set_fft_size { zero_state with m_max_fft_size_log2 := 10 } 48).2.m_num_partitions
            = 0) ∧
        (6 = 0 → (set_fft_size { zero_state with m_max_fft_size_log2 := 10 } 48).2.m_num_partitions
            = 0)) :=
  set_fft_size_spec { zero_state with m_max_fft_size_log2 := 10 } 48 6 (by decide) (by decide)
    (by
      intro k hk
      by_contra hlt
      have h5 : k ≤ 5 := by omega
      have : 2 ^ k ≤ 2 ^ 5 := Nat.pow_le_pow_right (by norm_num) h5
      omega)

/-! ### The constructor (C10) -/

theorem set_max_fft_size_snd {R : Type} (st : convolve_partitioned R) (v : Nat) :
    (set_max_fft_size st v).2 =
      { st with m_max_fft_size_log2 :=
          if (if log2 v > 20 then 20 else log2 v) ≠ 0 ∧ (if log2 v > 20 then 20 else log2 v) < 5
          then 5 else (if log2 v > 20 then 20 else log2 v) } := by
  unfold set_max_fft_size
  simp only [MAX_FFT_SIZE_LOG2, MIN_FFT_SIZE_LOG2]
  split_ifs <;> rfl

theorem one_le_log2 (v : Nat) (h : 2 ≤ v) : 1 ≤ log2 v := by
  by_contra h0
  have h1 : log2 v = 0 := by omega
  have := le_two_pow_log2 v
  rw [h1] at this
  omega

/-- C10, counterexample: with `max_fft_size = 1` the setters called by the constructor leave
both `m_max_fft_size_log2` and `m_fft_size_log2` at `0` (outside `[5, 20]`), and the rounding
of `m_max_impulse_length` then takes a remainder by zero. -/
theorem ctor_one_counterexample :
    (ctor_init zero_state 1 0 0 0).m_max_fft_size_log2 = 0 ∧
    (ctor_init zero_state 1 0 0 0).m_fft_size_log2 = 0 ∧
    (ctor zero_state 1 0 0 0).isNone = true := by
  refine ⟨by decide, by decide, by decide⟩

/-- C10, amended: for every `max_fft_size ≥ 2` the constructor completes and both
`m_max_fft_size_log2` and `m_fft_size_log2` lie in `[5, 20]`, so the FFT size is a power of
two between `2 ^ 5` and `2 ^ 20` and the partition length `fft_size / 2` is at least 16. -/
theorem ctor_log2_bounds {R : Type} (u : convolve_partitioned R)
    (max_fft_size max_length offset length : Nat) (h : 2 ≤ max_fft_size) :
    ∃ s, ctor u max_fft_size max_length offset length = some s ∧
      5 ≤ s.m_max_fft_size_log2 ∧ s.m_max_fft_size_log2 ≤ 20 ∧
      5 ≤ s.m_fft_size_log2 ∧ s.m_fft_size_log2 ≤ 20 ∧
      get_fft_size s = 2 ^ s.m_fft_size_log2 ∧
      2 ^ 5 ≤ get_fft_size s ∧ get_fft_size s ≤ 2 ^ 20 ∧
      16 ≤ get_fft_size s >>> 1 := by
  have h1 := one_le_log2 max_fft_size h
  obtain ⟨m, hm, hm5, hm20⟩ : ∃ m, (if (if log2 max_fft_size > 20 then 20 else log2 max_fft_size) ≠ 0
        ∧ (if log2 max_fft_size > 20 then 20 else log2 max_fft_size) < 5
      then 5 else (if log2 max_fft_size > 20 then 20 else log2 max_fft_size)) = m ∧ 5 ≤ m ∧ m ≤ 20 := by
    refine ⟨_, rfl, ?_, ?_⟩ <;> split_ifs <;> omega
  have hinit : (ctor_init u max_fft_size max_length offset length).m_max_fft_size_log2 = m ∧
      (ctor_init u max_fft_size max_length offset length).m_fft_size_log2 = m := by
    unfold ctor_init
    simp only [set_max_fft_size_snd, hm, set_length, set_offset, get_max_fft_size,
      Nat.one_shiftLeft]
    unfold set_fft_size
    simp only [log2_two_pow, MIN_FFT_SIZE_LOG2]
    have : ¬ (m < 5 ∨ m > m) := by omega
    simp only [this, if_false]
    have h0 : m ≠ 0 := by omega
    simp [h0]
  have hpow5 : 2 ^ 5 ≤ 2 ^ m := Nat.pow_le_pow_right (by norm_num) hm5
  have hpow20 : 2 ^ m ≤ 2 ^ 20 := Nat.pow_le_pow_right (by norm_num) hm20
  have hhalf : 16 ≤ 2 ^ m >>> 1 := by
    rw [Nat.shiftRight_eq_div_pow]; norm_num at hpow5 ⊢; omega
  have hne : ¬ ((1 <<< m) >>> 1 = 0) := by
    rw [Nat.one_shiftLeft]; omega
  unfold ctor
  simp only [get_max_fft_size, hinit.1, hne, if_false]
  refine ⟨_, rfl, ?_⟩
  split_ifs <;> simp only [get_fft_size, hinit.1, hinit.2, Nat.one_shiftLeft] <;>
    exact ⟨hm5, hm20, hm5, hm20, trivial, hpow5, hpow20, hhalf⟩

/-- C10 witness: a constructor call with `max_fft_size = 100`. -/
theorem ctor_log2_bounds_witness :
    2 ≤ 100 ∧ ∃ s, ctor zero_state 100 1000 0 0 = some s ∧
      5 ≤ s.m_max_fft_size_log2 ∧ s.m_max_fft_size_log2 ≤ 20 ∧
      5 ≤ s.m_fft_size_log2 ∧ s.m_fft_size_log2 ≤ 20 ∧
      get_fft_size s = 2 ^ s.m_fft_size_log2 ∧
      2 ^ 5 ≤ get_fft_size s ∧ get_fft_size s ≤ 2 ^ 20 ∧
      16 ≤ get_fft_size s >>> 1 :=
  ⟨by decide, ctor_log2_bounds zero_state 100 1000 0 0 (by decide)⟩

/-! ### `set` and `set_length` (C7, C8) -/

theorem first_n_fill_copy {R : Type} [Zero R] (input temp : Nat → R) (pos n F : Nat)
    (h : n ≤ F) :
    first_n (fill_n (copy_n input pos n temp 0) n (F - n) 0) F = ir_partition input pos n := by
  funext i
  unfold first_n fill_n copy_n ir_partition
  by_cases h1 : i < n
  · have h2 : i < F := by omega
    have h3 : ¬ (n ≤ i ∧ i < n + (F - n)) := by omega
    have h4 : 0 ≤ i ∧ i < 0 + n := by omega
    simp only [h1, h2, h3, h4, if_true, if_false, and_self, Nat.sub_zero]
  · by_cases h2 : i < F
    · have h3 : n ≤ i ∧ i < n + (F - n) := by omega
      simp only [h1, h2, h3, if_true, if_false, and_self]
    · simp only [h1, h2, if_false]

theorem ceil_div_step (L half : Nat) (hhalf : 0 < half) (hL : 0 < L) :
    (L + half - 1) / half = (L - min half L + half - 1) / half + 1 := by
  by_cases h : half ≤ L
  · rw [min_eq_left h]
    have : L + half - 1 = (L - half + half - 1) + half := by omega
    rw [this, Nat.add_div_right _ hhalf]
  · have hmin : min half L = L := min_eq_right (by omega)
    rw [hmin]
    have h1 : (L - L + half - 1) / half = 0 := by
      apply Nat.div_eq_of_lt; omega
    have h2 : (L + half - 1) / half = 1 := by
      apply Nat.div_eq_of_lt_le <;> omega
    rw [h1, h2]

/-- The loading loop terminates within `length` iterations and fills one half-spectrum per
partition: partition `q` is the transform of the zero-padded samples of `input` from
`buffer_position + q * fft_size_halved` on. Bins outside the written range are untouched. -/
theorem set_loop_spec {R : Type} [Zero R] (K : FFTKernel R) (input : Nat → R)
    (F half lg : Nat) (hhalf : 0 < half) (hF : half ≤ F) :
    ∀ (fuel L bp np : Nat) (temp : Nat → R) (off : Nat) (imp : Split R), L ≤ fuel →
      ∃ temp1 imp1,
        set_loop K input F half lg fuel L bp np temp off imp
          = some (np + (L + half - 1) / half, temp1, imp1) ∧
        (∀ q k, q < (L + half - 1) / half → k < half →
          imp1.realp (off + q * half + k)
            = (K.rfft lg (ir_partition input (bp + q * half) (min half (L - q * half)))).realp k ∧
          imp1.imagp (off + q * half + k)
            = (K.rfft lg (ir_partition input (bp + q * half) (min half (L - q * half)))).imagp k) ∧
        (∀ i, i < off ∨ off + (L + half - 1) / half * half ≤ i →
          imp1.realp i = imp.realp i ∧ imp1.imagp i = imp.imagp i) := by
  intro fuel
  induction fuel with
  | zero =>
    intro L bp np temp off imp hL
    have hL0 : L = 0 := by omega
    subst hL0
    have hc : (0 + half - 1) / half = 0 := by apply Nat.div_eq_of_lt; omega
    refine ⟨temp, imp, ?_, ?_, ?_⟩
    · simp only [set_loop, hc]; simp
    · intro q k hq; rw [hc] at hq; omega
    · intro i _; exact ⟨rfl, rfl⟩
  | succ n ih =>
    intro L bp np temp off imp hL
    by_cases hL0 : L = 0
    · subst hL0
      have hc : (0 + half - 1) / half = 0 := by apply Nat.div_eq_of_lt; omega
      refine ⟨temp, imp, ?_, ?_, ?_⟩
      · simp only [set_loop, hc]; simp
      · intro q k hq; rw [hc] at hq; omega
      · intro i _; exact ⟨rfl, rfl⟩
    · have hpos : 0 < L := Nat.pos_of_ne_zero hL0
      have hns : min half L ≤ F := le_trans (min_le_left _ _) hF
      have hns1 : 1 ≤ min half L := by
        rcases le_total half L with h | h
        · rw [min_eq_left h]; omega
        · rw [min_eq_right h]; omega
      have hstep := ceil_div_step L half hhalf hpos
      obtain ⟨temp1, imp1, heq, hpart, hout⟩ :=
        ih (L - min half L) (bp + half) (np + 1)
          (fill_n (copy_n input bp (min half L) temp 0) (min half L) (F - min half L) 0)
          (off + half)
          (store_bins imp off half
            (K.rfft lg (first_n
              (fill_n (copy_n input bp (min half L) temp 0) (min half L) (F - min half L) 0) F)))
          (by omega)
      refine ⟨temp1, imp1, ?_, ?_, ?_⟩
      · rw [set_loop]
        simp only [gt_iff_lt, hpos, if_true]
        rw [heq, hstep]
        congr 2
        omega
      · intro q k hq hk
        rw [hstep] at hq
        rcases Nat.eq_zero_or_pos q with hq0 | hqpos
        · subst hq0
          have h1 := hout (off + 0 * half + k) (Or.inl (by omega))
          rw [h1.1, h1.2]
          simp only [store_bins, copy_n, first_n_fill_copy _ _ _ _ _ hns]
          have hc : off ≤ off + k ∧ off + k < off + half := by omega
          simp only [hc, and_self, if_true, Nat.zero_mul, Nat.add_zero, Nat.sub_zero,
            Nat.add_sub_cancel_left, Nat.zero_add]
        · obtain ⟨q1, rfl⟩ : ∃ q1, q = q1 + 1 := ⟨q - 1, by omega⟩
          have h1 := hpart q1 k (by omega) hk
          have e1 : off + half + q1 * half + k = off + (q1 + 1) * half + k := by ring
          have e2 : bp + half + q1 * half = bp + (q1 + 1) * half := by ring
          have e3 : min half (L - min half L - q1 * half) = min half (L - (q1 + 1) * half) := by
            have : (q1 + 1) * half = q1 * half + half := by ring
            rcases le_total half L with h | h
            · rw [min_eq_left h, this]; congr 1; omega
            · rw [min_eq_right h, this]
              have h0 : L - L - q1 * half = 0 := by omega
              have h0b : L - (q1 * half + half) = 0 := by
                have : 0 ≤ q1 * half := Nat.zero_le _
                omega
              rw [h0, h0b]
          rw [e1, e2, e3] at h1
          exact h1
      · intro i hi
        rw [hstep] at hi
        have hmul : ((L - min half L + half - 1) / half + 1) * half
            = (L - min half L + half - 1) / half * half + half := by ring
        rw [hmul] at hi
        have h1 := hout i (by omega)
        rw [h1.1, h1.2]
        simp only [store_bins, copy_n]
        have hc : ¬ (off ≤ i ∧ i < off + half) := by omega
        simp only [hc, if_false, and_self]

theorem half_pos_of_log2 (lg : Nat) (h : 1 ≤ lg) : 0 < (1 <<< lg) >>> 1 := by
  rw [Nat.one_shiftLeft, Nat.shiftRight_eq_div_pow, pow_one]
  have : 2 ^ 1 ≤ 2 ^ lg := Nat.pow_le_pow_right (by norm_num) h
  omega

theorem half_le_size (lg : Nat) : (1 <<< lg) >>> 1 ≤ 1 <<< lg := by
  rw [Nat.shiftRight_eq_div_pow]
  exact Nat.div_le_self _ _

/-- The result of `set` for an FFT size of at least 2: the error code, the new partition
count and the contents of the impulse buffer, in terms of the clamped load length. -/
theorem set_result {R : Type} [Zero R] (K : FFTKernel R) (st : convolve_partitioned R)
    (input : Option (Nat → R)) (len : Nat) (h : 1 ≤ st.m_fft_size_log2) :
    ∃ temp1 imp1,
      set K st input len =
        some ((if set_effective_length st input len > st.m_max_impulse_length
                then ConvolveError.MemAllocTooSmall else ConvolveError.None),
          reset { st with
            m_num_partitions :=
              (min (set_effective_length st input len) st.m_max_impulse_length
                + (get_fft_size st >>> 1) - 1) / (get_fft_size st >>> 1),
            m_partition_temp := { st.m_partition_temp with realp := temp1 },
            m_impulse_buffer := imp1 }) ∧
      (∀ q k,
        q < (min (set_effective_length st input len) st.m_max_impulse_length
                + (get_fft_size st >>> 1) - 1) / (get_fft_size st >>> 1) →
        k < get_fft_size st >>> 1 →
        imp1.realp (q * (get_fft_size st >>> 1) + k)
          = (K.rfft st.m_fft_size_log2 (ir_partition (input.getD (fun _ => 0))
              (st.m_offset + q * (get_fft_size st >>> 1))
              (min (get_fft_size st >>> 1)
                (min (set_effective_length st input len) st.m_max_impulse_length
                  - q * (get_fft_size st >>> 1))))).realp k ∧
        imp1.imagp (q * (get_fft_size st >>> 1) + k)
          = (K.rfft st.m_fft_size_log2 (ir_partition (input.getD (fun _ => 0))
              (st.m_offset + q * (get_fft_size st >>> 1))
              (min (get_fft_size st >>> 1)
                (min (set_effective_length st input len) st.m_max_impulse_length
                  - q * (get_fft_size st >>> 1))))).imagp k) ∧
      (∀ i,
        (min (set_effective_length st input len) st.m_max_impulse_length
                + (get_fft_size st >>> 1) - 1) / (get_fft_size st >>> 1)
          * (get_fft_size st >>> 1) ≤ i →
        imp1.realp i = st.m_impulse_buffer.realp i ∧
        imp1.imagp i = st.m_impulse_buffer.imagp i) := by
  have hhalf : 0 < get_fft_size st >>> 1 := half_pos_of_log2 _ h
  have hF : get_fft_size st >>> 1 ≤ get_fft_size st := half_le_size _
  generalize hE : set_effective_length st input len = eff
  by_cases hc : eff > st.m_max_impulse_length
  · have hmin : min eff st.m_max_impulse_length = st.m_max_impulse_length :=
      min_eq_right (le_of_lt hc)
    obtain ⟨temp1, imp1, heq, hpart, hout⟩ :=
      set_loop_spec K (input.getD (fun _ => 0)) (get_fft_size st) (get_fft_size st >>> 1)
        st.m_fft_size_log2 hhalf hF st.m_max_impulse_length st.m_max_impulse_length
        st.m_offset 0 st.m_partition_temp.realp 0 st.m_impulse_buffer (le_refl _)
    refine ⟨temp1, imp1, ?_, ?_, ?_⟩
    · unfold set
      simp only [hE, hc, if_true, heq, hmin, Nat.zero_add]
    · intro q k hq hk
      rw [hmin] at hq ⊢
      have := hpart q k hq hk
      simpa only [Nat.zero_add] using this
    · intro i hi
      rw [hmin] at hi
      exact hout i (Or.inr (by simpa only [Nat.zero_add] using hi))
  · have hmin : min eff st.m_max_impulse_length = eff := min_eq_left (by omega)
    obtain ⟨temp1, imp1, heq, hpart, hout⟩ :=
      set_loop_spec K (input.getD (fun _ => 0)) (get_fft_size st) (get_fft_size st >>> 1)
        st.m_fft_size_log2 hhalf hF eff eff
        st.m_offset 0 st.m_partition_temp.realp 0 st.m_impulse_buffer (le_refl _)
    refine ⟨temp1, imp1, ?_, ?_, ?_⟩
    · unfold set
      simp only [hE, hc, if_false, heq, hmin, Nat.zero_add]
    · intro q k hq hk
      rw [hmin] at hq ⊢
      have := hpart q k hq hk
      simpa only [Nat.zero_add] using this
    · intro i hi
      rw [hmin] at hi
      exact hout i (Or.inr (by simpa only [Nat.zero_add] using hi))

theorem slice_length (p half L : Nat) :
    min ((p + 1) * half) L - p * half = min half (L - p * half) := by
  have : (p + 1) * half = p * half + half := by ring
  rw [this]
  omega

/-- C7: for a convolver with FFT size `F = 2 ^ m_fft_size_log2 ≥ 2`, offset `o`, length
limit `m` (0 meaning unlimited) and capacity `cap`, and a non-null input of length `len`,
with `L = min (len - o, m if m ≠ 0, cap)`: `set` returns, `m_num_partitions` is
`⌈L / (F/2)⌉`, the reset flag is set, and for every `p < m_num_partitions` the `p`-th
half-spectrum of the impulse buffer is the real FFT of the input samples
`[o + p * F/2, o + min ((p+1) * F/2, L))` zero-padded to `F` samples. -/
theorem set_partitions_spec {R : Type} [Zero R] (K : FFTKernel R)
    (st : convolve_partitioned R) (input : Nat → R) (len : Nat)
    (h : 1 ≤ st.m_fft_size_log2) :
    ∃ e st1, set K st (some input) len = some (e, st1) ∧
      st1.m_num_partitions =
        (min (min (len - st.m_offset) (if st.m_length ≠ 0 then st.m_length else len - st.m_offset))
            st.m_max_impulse_length + 2 ^ st.m_fft_size_log2 / 2 - 1)
          / (2 ^ st.m_fft_size_log2 / 2) ∧
      st1.m_reset_flag = true ∧
      ∀ p k, p < st1.m_num_partitions → k < 2 ^ st.m_fft_size_log2 / 2 →
        st1.m_impulse_buffer.realp (p * (2 ^ st.m_fft_size_log2 / 2) + k)
          = (K.rfft st.m_fft_size_log2
              (ir_partition input (st.m_offset + p * (2 ^ st.m_fft_size_log2 / 2))
                (min ((p + 1) * (2 ^ st.m_fft_size_log2 / 2))
                    (min (min (len - st.m_offset)
                      (if st.m_length ≠ 0 then st.m_length else len - st.m_offset))
                      st.m_max_impulse_length)
                  - p * (2 ^ st.m_fft_size_log2 / 2)))).realp k ∧
        st1.m_impulse_buffer.imagp (p * (2 ^ st.m_fft_size_log2 / 2) + k)
          = (K.rfft st.m_fft_size_log2
              (ir_partition input (st.m_offset + p * (2 ^ st.m_fft_size_log2 / 2))
                (min ((p + 1) * (2 ^ st.m_fft_size_log2 / 2))
                    (min (min (len - st.m_offset)
                      (if st.m_length ≠ 0 then st.m_length else len - st.m_offset))
                      st.m_max_impulse_length)
                  - p * (2 ^ st.m_fft_size_log2 / 2)))).imagp k := by
  obtain ⟨temp1, imp1, heq, hpart, -⟩ := set_result K st (some input) len h
  have hhalf : get_fft_size st >>> 1 = 2 ^ st.m_fft_size_log2 / 2 := by
    unfold get_fft_size
    rw [Nat.one_shiftLeft, Nat.shiftRight_eq_div_pow, pow_one]
  have heff : set_effective_length st (some input) len
      = min (len - st.m_offset) (if st.m_length ≠ 0 then st.m_length else len - st.m_offset) := by
    unfold set_effective_length
    simp only [Option.isNone_some, Bool.false_eq_true, false_or]
    split_ifs <;> omega
  rw [hhalf, heff] at heq hpart
  refine ⟨_, _, heq, rfl, rfl, ?_⟩
  intro p k hp hk
  have := hpart p k hp hk
  simp only [reset, Option.getD_some] at this ⊢
  rw [slice_length]
  exact this

/-- C7 witness: three partitions for 40 samples at FFT size 32. -/
theorem set_partitions_spec_witness :
    ∃ e st1, set unzip_kernel { zero_state with m_fft_size_log2 := 5, m_max_impulse_length := 64 }
        (some (fun i => (i : ℚ))) 40 = some (e, st1) ∧ st1.m_num_partitions = 3 ∧
      st1.m_reset_flag = true := by
  obtain ⟨e, st1, h1, h2, h3, -⟩ :=
    set_partitions_spec unzip_kernel
      { zero_state with m_fft_size_log2 := 5, m_max_impulse_length := 64 }
      (fun i => (i : ℚ)) 40 (by decide)
  exact ⟨e, st1, h1, by rw [h2]; decide, h3⟩

/-- C8: `set` (on a convolver with FFT size at least 2) returns `MemAllocTooSmall` exactly
when the effective IR length (input length minus offset, zero for a null input, then clamped
to the non-zero length limit) exceeds `m_max_impulse_length`, and then exactly
`m_max_impulse_length` samples are loaded (the partitions are the transforms of the first
`m_max_impulse_length` samples after the offset); otherwise it returns `None`.
`set_length` returns `PartitionLengthTooLarge` exactly when `length > m_max_impulse_length`
and always stores `min (length, m_max_impulse_length)`. -/
theorem set_error_spec {R : Type} [Zero R] (K : FFTKernel R) (st : convolve_partitioned R)
    (input : Option (Nat → R)) (len length : Nat) (h : 1 ≤ st.m_fft_size_log2) :
    (∃ e st1, set K st input len = some (e, st1) ∧
      (e = ConvolveError.MemAllocTooSmall ↔
        (if st.m_length ≠ 0 ∧
              st.m_length < (if input.isNone ∨ len ≤ st.m_offset then 0 else len - st.m_offset)
          then st.m_length
          else (if input.isNone ∨ len ≤ st.m_offset then 0 else len - st.m_offset))
          > st.m_max_impulse_length) ∧
      (e ≠ ConvolveError.MemAllocTooSmall → e = ConvolveError.None) ∧
      (e = ConvolveError.MemAllocTooSmall →
        st1.m_num_partitions =
          (st.m_max_impulse_length + 2 ^ st.m_fft_size_log2 / 2 - 1)
            / (2 ^ st.m_fft_size_log2 / 2) ∧
        ∀ p k, p < st1.m_num_partitions → k < 2 ^ st.m_fft_size_log2 / 2 →
          st1.m_impulse_buffer.realp (p * (2 ^ st.m_fft_size_log2 / 2) + k)
            = (K.rfft st.m_fft_size_log2
                (ir_partition (input.getD (fun _ => 0))
                  (st.m_offset + p * (2 ^ st.m_fft_size_log2 / 2))
                  (min ((p + 1) * (2 ^ st.m_fft_size_log2 / 2)) st.m_max_impulse_length
                    - p * (2 ^ st.m_fft_size_log2 / 2)))).realp k ∧
          st1.m_impulse_buffer.imagp (p * (2 ^ st.m_fft_size_log2 / 2) + k)
            = (K.rfft st.m_fft_size_log2
                (ir_partition (input.getD (fun _ => 0))
                  (st.m_offset + p * (2 ^ st.m_fft_size_log2 / 2))
                  (min ((p + 1) * (2 ^ st.m_fft_size_log2 / 2)) st.m_max_impulse_length
                    - p * (2 ^ st.m_fft_size_log2 / 2)))).imagp k)) ∧
    ((set_length st length).1 = ConvolveError.PartitionLengthTooLarge ↔
      length > st.m_max_impulse_length) ∧
    ((set_length st length).1 ≠ ConvolveError.PartitionLengthTooLarge →
      (set_length st length).1 = ConvolveError.None) ∧
    (set_length st length).2.m_length = min length st.m_max_impulse_length := by
  refine ⟨?_, ?_, ?_, rfl⟩
  · obtain ⟨temp1, imp1, heq, hpart, -⟩ := set_result K st input len h
    have hhalf : get_fft_size st >>> 1 = 2 ^ st.m_fft_size_log2 / 2 := by
      unfold get_fft_size
      rw [Nat.one_shiftLeft, Nat.shiftRight_eq_div_pow, pow_one]
    have heff : set_effective_length st input len
        = (if st.m_length ≠ 0 ∧
              st.m_length < (if input.isNone ∨ len ≤ st.m_offset then 0 else len - st.m_offset)
          then st.m_length
          else (if input.isNone ∨ len ≤ st.m_offset then 0 else len - st.m_offset)) := rfl
    rw [hhalf] at heq hpart
    rw [← heff]
    refine ⟨_, _, heq, ?_, ?_, ?_⟩
    · split_ifs with hc <;> simp [hc]
    · split_ifs with hc <;> simp [hc]
    · intro he
      have hc : set_effective_length st input len > st.m_max_impulse_length := by
        by_contra hn
        simp only [hn, if_false] at he
        exact absurd he (by decide)
      have hmin : min (set_effective_length st input len) st.m_max_impulse_length
          = st.m_max_impulse_length := min_eq_right (le_of_lt hc)
      rw [hmin] at hpart
      refine ⟨by simp only [reset, hmin], ?_⟩
      intro p k hp hk
      simp only [reset, hmin] at hp ⊢
      rw [slice_length]
      exact hpart p k hp hk
  · unfold set_length
    split_ifs with hc <;> simp [hc]
  · unfold set_length
    split_ifs with hc <;> simp [hc]

/-- C8 witness: 100 samples offered to a convolver with room for 64. -/
theorem set_error_spec_witness :
    ∃ st1, set unzip_kernel { zero_state with m_fft_size_log2 := 5, m_max_impulse_length := 64 }
        (some (fun i => (i : ℚ))) 100 = some (ConvolveError.MemAllocTooSmall, st1) ∧
      st1.m_num_partitions = 4 := by
  obtain ⟨⟨e, st1, h1, h2, -, h4⟩, -⟩ :=
    set_error_spec unzip_kernel
      { zero_state with m_fft_size_log2 := 5, m_max_impulse_length := 64 }
      (some (fun i => (i : ℚ))) 100 0 (by decide)
  have he : e = ConvolveError.MemAllocTooSmall := h2.mpr (by decide)
  subst he
  exact ⟨st1, h1, by rw [(h4 rfl).1]; decide⟩


/-! ### Small transforms (C4, C6) -/

@[simp] theorem Vector4x.add_d0 {R : Type} [Add R] (a b : Vector4x R) : (a + b).d0 = a.d0 + b.d0 := rfl
@[simp] theorem Vector4x.add_d1 {R : Type} [Add R] (a b : Vector4x R) : (a + b).d1 = a.d1 + b.d1 := rfl
@[simp] theorem Vector4x.add_d2 {R : Type} [Add R] (a b : Vector4x R) : (a + b).d2 = a.d2 + b.d2 := rfl
@[simp] theorem Vector4x.add_d3 {R : Type} [Add R] (a b : Vector4x R) : (a + b).d3 = a.d3 + b.d3 := rfl
@[simp] theorem Vector4x.sub_d0 {R : Type} [Sub R] (a b : Vector4x R) : (a - b).d0 = a.d0 - b.d0 := rfl
@[simp] theorem Vector4x.sub_d1 {R : Type} [Sub R] (a b : Vector4x R) : (a - b).d1 = a.d1 - b.d1 := rfl
@[simp] theorem Vector4x.sub_d2 {R : Type} [Sub R] (a b : Vector4x R) : (a - b).d2 = a.d2 - b.d2 := rfl
@[simp] theorem Vector4x.sub_d3 {R : Type} [Sub R] (a b : Vector4x R) : (a - b).d3 = a.d3 - b.d3 := rfl
@[simp] theorem Vector4x.mul_d0 {R : Type} [Mul R] (a b : Vector4x R) : (a * b).d0 = a.d0 * b.d0 := rfl
@[simp] theorem Vector4x.mul_d1 {R : Type} [Mul R] (a b : Vector4x R) : (a * b).d1 = a.d1 * b.d1 := rfl
@[simp] theorem Vector4x.mul_d2 {R : Type} [Mul R] (a b : Vector4x R) : (a * b).d2 = a.d2 * b.d2 := rfl
@[simp] theorem Vector4x.mul_d3 {R : Type} [Mul R] (a b : Vector4x R) : (a * b).d3 = a.d3 * b.d3 := rfl

theorem pass_3_body_spec (tr ti : Vector4x ℝ) (s : Split ℝ) (r i : Nat) :
    cplx (pass_3_body tr ti s r) i =
      if 4 * r ≤ i ∧ i < 4 * r + 4 then cplx s i + twiddle4 tr ti (i - 4 * r) * cplx s (i + 4)
      else if 4 * r + 4 ≤ i ∧ i < 4 * r + 8 then
        cplx s (i - 4) - twiddle4 tr ti (i - 4 * r - 4) * cplx s i
      else cplx s i := by
  by_cases h : 4 * r ≤ i ∧ i < 4 * r + 8
  · obtain ⟨j, hj, rfl⟩ : ∃ j, j < 8 ∧ i = 4 * r + j := ⟨i - 4 * r, by omega, by omega⟩
    interval_cases j <;>
      simp [pass_3_body, cplx, store4, load4, twiddle4, Vector4x.lane, Complex.ext_iff,
        mul_add, add_assoc] <;> constructor <;> ring
  · have h1 : ¬ (4 * r ≤ i ∧ i < 4 * r + 4) := by omega
    have h2 : ¬ (4 * r + 4 ≤ i ∧ i < 4 * r + 8) := by omega
    have e0 : i ≠ 4 * r := by omega
    have e1 : i ≠ 4 * r + 1 := by omega
    have e2 : i ≠ 4 * r + 2 := by omega
    have e3 : i ≠ 4 * r + 3 := by omega
    have e4 : i ≠ 4 * (r + 1) := by omega
    have e5 : i ≠ 4 * (r + 1) + 1 := by omega
    have e6 : i ≠ 4 * (r + 1) + 2 := by omega
    have e7 : i ≠ 4 * (r + 1) + 3 := by omega
    simp [pass_3_body, cplx, store4, h1, h2, e0, e1, e2, e3, e4, e5, e6, e7]

theorem dft_eq_omega (N : Nat) (x : Nat → ℂ) (k : Nat) :
    dft N x k = ∑ n in Finset.range N, x n * omega N ^ (n * k) := by
  unfold dft omega
  apply Finset.sum_congr rfl
  intro n _
  rw [← Complex.exp_nat_mul]
  congr 2
  push_cast
  ring

theorem cexp_neg_mul_I (θ : ℝ) :
    Complex.exp (-(θ : ℂ) * Complex.I) = ⟨Real.cos θ, -Real.sin θ⟩ := by
  have h : -(θ : ℂ) * Complex.I = ((-θ : ℝ) : ℂ) * Complex.I := by push_cast; ring
  rw [h]
  apply Complex.ext
  · rw [Complex.exp_ofReal_mul_I_re, Real.cos_neg]
  · rw [Complex.exp_ofReal_mul_I_im, Real.sin_neg]

theorem omega_eq (N : Nat) :
    omega N = ⟨Real.cos (2 * Real.pi / N), -Real.sin (2 * Real.pi / N)⟩ := by
  rw [← cexp_neg_mul_I]
  unfold omega
  congr 1
  push_cast
  ring

theorem omega_two : omega 2 = -1 := by
  rw [omega_eq]
  have : (2 * Real.pi / (2 : ℕ) : ℝ) = Real.pi := by push_cast; ring
  rw [this, Real.cos_pi, Real.sin_pi]
  apply Complex.ext <;> simp

theorem omega_four : omega 4 = -Complex.I := by
  rw [omega_eq]
  have : (2 * Real.pi / (4 : ℕ) : ℝ) = Real.pi / 2 := by push_cast; ring
  rw [this, Real.cos_pi_div_two, Real.sin_pi_div_two]
  apply Complex.ext <;> simp

theorem omega_eight : omega 8 = ⟨Real.sqrt 2 / 2, -(Real.sqrt 2 / 2)⟩ := by
  rw [omega_eq]
  have : (2 * Real.pi / (8 : ℕ) : ℝ) = Real.pi / 4 := by push_cast; ring
  rw [this, Real.cos_pi_div_four, Real.sin_pi_div_four]

theorem omega_pow_self (N : Nat) (hN : 0 < N) : omega N ^ N = 1 := by
  unfold omega
  rw [← Complex.exp_nat_mul]
  have hN0 : (N : ℂ) ≠ 0 := by exact_mod_cast hN.ne'
  have : (N : ℂ) * (-2 * Real.pi * Complex.I / N) = -(2 * Real.pi * Complex.I) := by
    field_simp
    ring
  rw [this, Complex.exp_neg, Complex.exp_two_pi_mul_I, inv_one]

theorem omega_pow_mod (N m : Nat) (hN : 0 < N) : omega N ^ m = omega N ^ (m % N) := by
  conv_lhs => rw [← Nat.div_add_mod m N]
  rw [pow_add, pow_mul, omega_pow_self N hN, one_pow, one_mul]

theorem sqrt2_2_sq : (Real.sqrt 2 / 2) * (Real.sqrt 2 / 2) = 1 / 2 := by
  have h : Real.sqrt 2 * Real.sqrt 2 = 2 := Real.mul_self_sqrt (by norm_num)
  field_simp

theorem w8_succ (j : Nat) (hj : j < 7) : w8 (j + 1) = w8 j * omega 8 := by
  rw [omega_eight]
  have hs := sqrt2_2_sq
  interval_cases j <;> apply Complex.ext <;> simp [w8] <;> linarith

theorem omega_eight_pow_lt (j : Nat) (hj : j < 8) : omega 8 ^ j = w8 j := by
  induction j with
  | zero => simp [w8]
  | succ n ih => rw [pow_succ, ih (by omega), w8_succ n (by omega)]

theorem omega_eight_pow (m : Nat) : omega 8 ^ m = w8 (m % 8) := by
  rw [omega_pow_mod 8 m (by norm_num), omega_eight_pow_lt _ (Nat.mod_lt _ (by norm_num))]

theorem small_fft_three_eq (sq : ℝ) (input : Split ℝ) :
    small_fft sq input 3 =
      pass_3_body (pass_3_twiddle sq).1 (pass_3_twiddle sq).2
        { realp := store_list input.realp
            [input.realp 0 + input.realp 4 + (input.realp 2 + input.realp 6),
             input.realp 0 - input.realp 4 + (input.imagp 2 - input.imagp 6),
             input.realp 0 + input.realp 4 - (input.realp 2 + input.realp 6),
             input.realp 0 - input.realp 4 - (input.imagp 2 - input.imagp 6),
             input.realp 1 + input.realp 5 + (input.realp 3 + input.realp 7),
             input.realp 1 - input.realp 5 + (input.imagp 3 - input.imagp 7),
             input.realp 1 + input.realp 5 - (input.realp 3 + input.realp 7),
             input.realp 1 - input.realp 5 - (input.imagp 3 - input.imagp 7)],
          imagp := store_list input.imagp
            [input.imagp 0 + input.imagp 4 + (input.imagp 2 + input.imagp 6),
             input.imagp 0 - input.imagp 4 - (input.realp 2 - input.realp 6),
             input.imagp 0 + input.imagp 4 - (input.imagp 2 + input.imagp 6),
             input.imagp 0 - input.imagp 4 + (input.realp 2 - input.realp 6),
             input.imagp 1 + input.imagp 5 + (input.imagp 3 + input.imagp 7),
             input.imagp 1 - input.imagp 5 - (input.realp 3 - input.realp 7),
             input.imagp 1 + input.imagp 5 - (input.imagp 3 + input.imagp 7),
             input.imagp 1 - input.imagp 5 + (input.realp 3 - input.realp 7)] } 0 := rfl

theorem store_list_lt {R : Type} (buf : Nat → R) (vals : List R) (i : Nat) (h : i < vals.length) :
    store_list buf vals i = vals.get ⟨i, h⟩ := by
  unfold store_list; rw [dif_pos h]

theorem store_list_8 {R : Type} (buf : Nat → R) (a0 a1 a2 a3 a4 a5 a6 a7 : R) :
    store_list buf [a0, a1, a2, a3, a4, a5, a6, a7] 0 = a0 ∧
    store_list buf [a0, a1, a2, a3, a4, a5, a6, a7] 1 = a1 ∧
    store_list buf [a0, a1, a2, a3, a4, a5, a6, a7] 2 = a2 ∧
    store_list buf [a0, a1, a2, a3, a4, a5, a6, a7] 3 = a3 ∧
    store_list buf [a0, a1, a2, a3, a4, a5, a6, a7] 4 = a4 ∧
    store_list buf [a0, a1, a2, a3, a4, a5, a6, a7] 5 = a5 ∧
    store_list buf [a0, a1, a2, a3, a4, a5, a6, a7] 6 = a6 ∧
    store_list buf [a0, a1, a2, a3, a4, a5, a6, a7] 7 = a7 :=
  ⟨rfl, rfl, rfl, rfl, rfl, rfl, rfl, rfl⟩

theorem small_fft_three (input : Split ℝ) (k : Nat) (hk : k < 8) :
    cplx (small_fft (Real.sqrt 2 / 2) input 3) k = dft 8 (cplx input) k := by
  rw [dft_eq_omega, small_fft_three_eq, pass_3_body_spec]
  simp only [Finset.sum_range_succ, Finset.sum_range_zero, omega_eight_pow]
  obtain ⟨h0, h1, h2, h3, h4, h5, h6, h7⟩ := store_list_8 input.realp
             (input.realp 0 + input.realp 4 + (input.realp 2 + input.realp 6))
             (input.realp 0 - input.realp 4 + (input.imagp 2 - input.imagp 6))
             (input.realp 0 + input.realp 4 - (input.realp 2 + input.realp 6))
             (input.realp 0 - input.realp 4 - (input.imagp 2 - input.imagp 6))
             (input.realp 1 + input.realp 5 + (input.realp 3 + input.realp 7))
             (input.realp 1 - input.realp 5 + (input.imagp 3 - input.imagp 7))
             (input.realp 1 + input.realp 5 - (input.realp 3 + input.realp 7))
             (input.realp 1 - input.realp 5 - (input.imagp 3 - input.imagp 7))
  obtain ⟨g0, g1, g2, g3, g4, g5, g6, g7⟩ := store_list_8 input.imagp
            (input.imagp 0 + input.imagp 4 + (input.imagp 2 + input.imagp 6))
            (input.imagp 0 - input.imagp 4 - (input.realp 2 - input.realp 6))
            (input.imagp 0 + input.imagp 4 - (input.imagp 2 + input.imagp 6))
            (input.imagp 0 - input.imagp 4 + (input.realp 2 - input.realp 6))
            (input.imagp 1 + input.imagp 5 + (input.imagp 3 + input.imagp 7))
            (input.imagp 1 - input.imagp 5 - (input.realp 3 - input.realp 7))
            (input.imagp 1 + input.imagp 5 - (input.imagp 3 + input.imagp 7))
            (input.imagp 1 - input.imagp 5 + (input.realp 3 - input.realp 7))
  interval_cases k <;>
    simp only [Nat.reduceMul, Nat.reduceAdd, Nat.reduceSub, Nat.reduceMod, Nat.reduceLeDiff,
      Nat.reduceLT, zero_le, and_self, and_true, true_and, and_false, false_and, if_true,
      if_false, le_refl, Nat.zero_lt_succ, Nat.lt_irrefl, Nat.not_succ_le_zero,
      w8, cplx, twiddle4, pass_3_twiddle, Vector4x.lane,
      h0, h1, h2, h3, h4, h5, h6, h7, g0, g1, g2, g3, g4, g5, g6, g7, Complex.ext_iff,
      Complex.add_re, Complex.add_im, Complex.mul_re, Complex.mul_im, Complex.sub_re,
      Complex.sub_im, Complex.one_re, Complex.one_im, Complex.zero_re, Complex.zero_im] <;>
    constructor <;> ring

theorem omega_four_pow (m : Nat) : omega 4 ^ m = w4 (m % 4) := by
  rw [omega_pow_mod 4 m (by norm_num)]
  have h : m % 4 < 4 := Nat.mod_lt _ (by norm_num)
  generalize m % 4 = j at h
  rw [omega_four]
  interval_cases j <;> apply Complex.ext <;> simp [w4, pow_succ]

theorem omega_two_pow (m : Nat) : omega 2 ^ m = w2 (m % 2) := by
  rw [omega_pow_mod 2 m (by norm_num)]
  have h : m % 2 < 2 := Nat.mod_lt _ (by norm_num)
  generalize m % 2 = j at h
  rw [omega_two]
  interval_cases j <;> apply Complex.ext <;> simp [w2]

theorem store_list_4 {R : Type} (buf : Nat → R) (a0 a1 a2 a3 : R) :
    store_list buf [a0, a1, a2, a3] 0 = a0 ∧
    store_list buf [a0, a1, a2, a3] 1 = a1 ∧
    store_list buf [a0, a1, a2, a3] 2 = a2 ∧
    store_list buf [a0, a1, a2, a3] 3 = a3 :=
  ⟨rfl, rfl, rfl, rfl⟩

theorem store_list_2 {R : Type} (buf : Nat → R) (a0 a1 : R) :
    store_list buf [a0, a1] 0 = a0 ∧ store_list buf [a0, a1] 1 = a1 ∧
    ∀ i, 2 ≤ i → store_list buf [a0, a1] i = buf i := by
  refine ⟨rfl, rfl, ?_⟩
  intro i hi
  unfold store_list
  rw [dif_neg]
  simp only [List.length_cons, List.length_nil]
  omega

theorem store_list_1 {R : Type} (buf : Nat → R) (a0 : R) :
    store_list buf [a0] 0 = a0 ∧ ∀ i, 1 ≤ i → store_list buf [a0] i = buf i := by
  refine ⟨rfl, ?_⟩
  intro i hi
  unfold store_list
  rw [dif_neg]
  simp only [List.length_cons, List.length_nil]
  omega

theorem small_fft_two (sq : ℝ) (input : Split ℝ) (k : Nat) (hk : k < 4) :
    cplx (small_fft sq input 2) k = dft 4 (cplx input) k := by
  rw [dft_eq_omega]
  simp only [Finset.sum_range_succ, Finset.sum_range_zero, omega_four_pow]
  have e : small_fft sq input 2 =
      { realp := store_list input.realp
          [input.realp 0 + input.realp 2 + (input.realp 1 + input.realp 3),
           input.realp 0 - input.realp 2 + (input.imagp 1 - input.imagp 3),
           input.realp 0 + input.realp 2 - (input.realp 1 + input.realp 3),
           input.realp 0 - input.realp 2 - (input.imagp 1 - input.imagp 3)],
        imagp := store_list input.imagp
          [input.imagp 0 + input.imagp 2 + (input.imagp 1 + input.imagp 3),
           input.imagp 0 - input.imagp 2 - (input.realp 1 - input.realp 3),
           input.imagp 0 + input.imagp 2 - (input.imagp 1 + input.imagp 3),
           input.imagp 0 - input.imagp 2 + (input.realp 1 - input.realp 3)] } := rfl
  rw [e]
  obtain ⟨h0, h1, h2, h3⟩ := store_list_4 input.realp
          (input.realp 0 + input.realp 2 + (input.realp 1 + input.realp 3))
          (input.realp 0 - input.realp 2 + (input.imagp 1 - input.imagp 3))
          (input.realp 0 + input.realp 2 - (input.realp 1 + input.realp 3))
          (input.realp 0 - input.realp 2 - (input.imagp 1 - input.imagp 3))
  obtain ⟨g0, g1, g2, g3⟩ := store_list_4 input.imagp
          (input.imagp 0 + input.imagp 2 + (input.imagp 1 + input.imagp 3))
          (input.imagp 0 - input.imagp 2 - (input.realp 1 - input.realp 3))
          (input.imagp 0 + input.imagp 2 - (input.imagp 1 + input.imagp 3))
          (input.imagp 0 - input.imagp 2 + (input.realp 1 - input.realp 3))
  interval_cases k <;>
    simp only [Nat.reduceMul, Nat.reduceAdd, Nat.reduceMod, w4, cplx,
      h0, h1, h2, h3, g0, g1, g2, g3, Complex.ext_iff,
      Complex.add_re, Complex.add_im, Complex.mul_re, Complex.mul_im,
      Complex.one_re, Complex.one_im, Complex.zero_re, Complex.zero_im] <;>
    constructor <;> ring

theorem small_fft_one (sq : ℝ) (input : Split ℝ) (k : Nat) (hk : k < 2) :
    cplx (small_fft sq input 1) k = dft 2 (cplx input) k := by
  rw [dft_eq_omega]
  simp only [Finset.sum_range_succ, Finset.sum_range_zero, omega_two_pow]
  have e : small_fft sq input 1 =
      { realp := store_list input.realp [input.realp 0 + input.realp 1, input.realp 0 - input.realp 1],
        imagp := store_list input.imagp [input.imagp 0 + input.imagp 1, input.imagp 0 - input.imagp 1] } := rfl
  rw [e]
  obtain ⟨h0, h1, -⟩ := store_list_2 input.realp (input.realp 0 + input.realp 1)
    (input.realp 0 - input.realp 1)
  obtain ⟨g0, g1, -⟩ := store_list_2 input.imagp (input.imagp 0 + input.imagp 1)
    (input.imagp 0 - input.imagp 1)
  interval_cases k <;>
    simp only [Nat.reduceMul, Nat.reduceAdd, Nat.reduceMod, w2, cplx,
      h0, h1, g0, g1, Complex.ext_iff,
      Complex.add_re, Complex.add_im, Complex.mul_re, Complex.mul_im,
      Complex.one_re, Complex.one_im, Complex.zero_re, Complex.zero_im] <;>
    constructor <;> ring

/-- C4: for `fft_log2 ∈ {1, 2, 3}` and a split buffer of `N = 2 ^ fft_log2` complex samples,
over exact real arithmetic with `SQRT_2_2 = √2 / 2`, `small_fft` leaves in natural order the
unnormalised forward DFT `X[k] = ∑ n < N, x[n] * exp (-2 π i n k / N)` for every `k < N`. -/
theorem small_fft_dft (input : Split ℝ) (fft_log2 k : Nat)
    (h : fft_log2 = 1 ∨ fft_log2 = 2 ∨ fft_log2 = 3) (hk : k < 2 ^ fft_log2) :
    cplx (small_fft (Real.sqrt 2 / 2) input fft_log2) k = dft (2 ^ fft_log2) (cplx input) k := by
  rcases h with rfl | rfl | rfl
  · exact small_fft_one _ input k hk
  · exact small_fft_two _ input k hk
  · exact small_fft_three input k hk

/-- C4 witness: bin 5 of an 8-point transform. -/
theorem small_fft_dft_witness :
    cplx (small_fft (Real.sqrt 2 / 2) ⟨fun n => (n : ℝ), fun n => 1 - (n : ℝ)⟩ 3) 5
      = dft (2 ^ 3) (cplx ⟨fun n => (n : ℝ), fun n => 1 - (n : ℝ)⟩) 5 :=
  small_fft_dft ⟨fun n => (n : ℝ), fun n => 1 - (n : ℝ)⟩ 3 5 (Or.inr (Or.inr rfl)) (by norm_num)

/-- C6: for `N ∈ {2, 4}` real samples `x` packed as `realp[k] = x[2k]`, `imagp[k] = x[2k+1]`,
over exact arithmetic `hisstools_rfft` (`small_real_fft<false>`) leaves `realp[0] = 2 X[0]`,
`imagp[0] = 2 X[N/2]` and `realp[k] + i imagp[k] = 2 X[k]` for `0 < k < N/2`, where `X` is the
unnormalised forward DFT of `x`. -/
theorem small_real_fft_spec (sq : ℝ) (setup : Setup ℝ) (x : Nat → ℝ) (fft_log2 : Nat)
    (h : fft_log2 = 1 ∨ fft_log2 = 2) :
    ((hisstools_rfft sq (unzip x) setup fft_log2).realp 0 : ℂ)
      = 2 * dft (2 ^ fft_log2) (fun n => (x n : ℂ)) 0 ∧
    ((hisstools_rfft sq (unzip x) setup fft_log2).imagp 0 : ℂ)
      = 2 * dft (2 ^ fft_log2) (fun n => (x n : ℂ)) (2 ^ fft_log2 / 2) ∧
    ∀ k, 0 < k → k < 2 ^ fft_log2 / 2 →
      cplx (hisstools_rfft sq (unzip x) setup fft_log2) k
        = 2 * dft (2 ^ fft_log2) (fun n => (x n : ℂ)) k := by
  rcases h with rfl | rfl
  · have e : hisstools_rfft sq (unzip x) setup 1 =
        { realp := store_list (unzip x).realp [x 0 + x 0 + (x 1 + x 1)],
          imagp := store_list (unzip x).imagp [x 0 + x 0 - (x 1 + x 1)] } := rfl
    rw [e]
    obtain ⟨h0, -⟩ := store_list_1 (unzip x).realp (x 0 + x 0 + (x 1 + x 1))
    obtain ⟨g0, -⟩ := store_list_1 (unzip x).imagp (x 0 + x 0 - (x 1 + x 1))
    simp only [dft_eq_omega, Nat.reducePow, Nat.reduceDiv, Finset.sum_range_succ, Finset.sum_range_zero, omega_two_pow, h0, g0]
    refine ⟨?_, ?_, ?_⟩
    · simp [w2, Complex.ext_iff]; ring
    · simp [w2, Complex.ext_iff]; ring
    · intro k hk1 hk2; omega
  · have e : hisstools_rfft sq (unzip x) setup 2 =
        { realp := store_list (unzip x).realp
            [x 0 + x 2 + (x 1 + x 3) + (x 0 + x 2 + (x 1 + x 3)), x 0 - x 2 + (x 0 - x 2)],
          imagp := store_list (unzip x).imagp
            [x 0 + x 2 - (x 1 + x 3) + (x 0 + x 2 - (x 1 + x 3)), x 3 - x 1 + (x 3 - x 1)] } := rfl
    rw [e]
    obtain ⟨h0, h1, -⟩ := store_list_2 (unzip x).realp
      (x 0 + x 2 + (x 1 + x 3) + (x 0 + x 2 + (x 1 + x 3))) (x 0 - x 2 + (x 0 - x 2))
    obtain ⟨g0, g1, -⟩ := store_list_2 (unzip x).imagp
      (x 0 + x 2 - (x 1 + x 3) + (x 0 + x 2 - (x 1 + x 3))) (x 3 - x 1 + (x 3 - x 1))
    simp only [dft_eq_omega, Nat.reducePow, Nat.reduceDiv, Finset.sum_range_succ, Finset.sum_range_zero, omega_four_pow, h0, g0]
    refine ⟨?_, ?_, ?_⟩
    · simp [w4, Complex.ext_iff]; ring
    · simp [w4, Complex.ext_iff]; ring
    · intro k hk1 hk2
      have hk : k = 1 := by omega
      subst hk
      simp [w4, Complex.ext_iff, cplx, h1, g1]
      constructor <;> ring

/-- C6 witness: the 4-point real transform of the samples `1, 2, 3, 4`. -/
theorem small_real_fft_spec_witness :
    ((hisstools_rfft (0 : ℝ) (unzip (fun n => (n : ℝ) + 1)) ⟨0, fun _ => ⟨fun _ => 0, fun _ => 0⟩⟩
        2).imagp 0 : ℂ)
      = 2 * dft (2 ^ 2) (fun n => (((n : ℝ) + 1 : ℝ) : ℂ)) (2 ^ 2 / 2) :=
  (small_real_fft_spec 0 ⟨0, fun _ => ⟨fun _ => 0, fun _ => 0⟩⟩ (fun n => (n : ℝ) + 1) 2
    (Or.inr rfl)).2.1

/-! ### Block-size independence of `process` (C2) -/

theorem sched_step_num [Zero R] [Add R] [Sub R] [Mul R] (W half : Nat)
    (st : convolve_partitioned R) :
    (sched_step W half st).m_num_partitions = st.m_num_partitions := rfl

theorem sched_step_done [Zero R] [Add R] [Sub R] [Mul R] (W half : Nat)
    (st : convolve_partitioned R) :
    (sched_step W half st).m_partitions_done = st.m_partitions_done + 1 := rfl

theorem sched_step_last [Zero R] [Add R] [Sub R] [Mul R] (W half : Nat)
    (st : convolve_partitioned R) :
    (sched_step W half st).m_last_partition =
      (if st.m_last_partition < st.m_num_partitions then st.m_last_partition else 0) + 1 := rfl

theorem sched_iter_num [Zero R] [Add R] [Sub R] [Mul R] (W half k : Nat)
    (st : convolve_partitioned R) :
    ((sched_step W half)^[k] st).m_num_partitions = st.m_num_partitions := by
  induction k generalizing st with
  | zero => rfl
  | succ n ih => rw [Function.iterate_succ_apply, ih, sched_step_num]

theorem sched_iter_done [Zero R] [Add R] [Sub R] [Mul R] (W half k : Nat)
    (st : convolve_partitioned R) :
    ((sched_step W half)^[k] st).m_partitions_done = st.m_partitions_done + k := by
  induction k generalizing st with
  | zero => rfl
  | succ n ih => rw [Function.iterate_succ_apply, ih, sched_step_done]; omega

theorem partition_for_eq_iterate [Zero R] [Add R] [Sub R] [Mul R] (W half : Nat) :
    ∀ (c : Nat) (st : convolve_partitioned R) (L : Nat),
      (if st.m_last_partition < st.m_num_partitions then st.m_last_partition else 0) + (c + 1)
        = L →
      L ≤ st.m_num_partitions →
      partition_for W half (c + 1) ((st.m_partitions_done + 1) * half)
        ((if st.m_last_partition < st.m_num_partitions then st.m_last_partition else 0) * half)
        { st with m_last_partition := L } = (sched_step W half)^[c + 1] st := by
  intro c
  induction c with
  | zero =>
    intro st L hL _
    subst hL
    rfl
  | succ n ih =>
    intro st L hL hle
    rw [Function.iterate_succ_apply, partition_for]
    have hnext : (if (sched_step W half st).m_last_partition
          < (sched_step W half st).m_num_partitions
        then (sched_step W half st).m_last_partition else 0)
        = (if st.m_last_partition < st.m_num_partitions then st.m_last_partition else 0) + 1 := by
      rw [sched_step_last, sched_step_num]
      rw [if_pos]
      omega
    have := ih (sched_step W half st) L (by rw [hnext]; omega) (by rw [sched_step_num]; exact hle)
    rw [← this, hnext, sched_step_done]
    have e1 : (st.m_partitions_done + 1) * half + half = (st.m_partitions_done + 1 + 1) * half := by
      ring
    have e2 : (if st.m_last_partition < st.m_num_partitions then st.m_last_partition else 0) * half
        + half
        = ((if st.m_last_partition < st.m_num_partitions then st.m_last_partition else 0) + 1)
          * half := by ring
    rw [e1, e2]
    rfl

theorem partition_while_eq_iterate [Zero R] [Add R] [Sub R] [Mul R] (W half : Nat) :
    ∀ (fuel : Nat) (T : Int) (st : convolve_partitioned R),
      1 ≤ st.m_num_partitions → T.toNat ≤ fuel →
      partition_while W half fuel T st = (sched_step W half)^[T.toNat] st := by
  intro fuel
  induction fuel with
  | zero =>
    intro T st _ hT
    have : T.toNat = 0 := by omega
    rw [this]
    rfl
  | succ n ih =>
    intro T st hnum hT
    rw [partition_while]
    by_cases hpos : T > 0
    · simp only [hpos, if_true]
      obtain ⟨t, rfl⟩ : ∃ t : Nat, T = (t : Int) := ⟨T.toNat, by omega⟩
      have ht : 0 < t := by omega
      simp only [Int.toNat_ofNat] at hT ⊢
      set next := (if st.m_last_partition < st.m_num_partitions then st.m_last_partition else 0)
        with hnext
      have hnlt : next < st.m_num_partitions := by
        rw [hnext]; split_ifs with h
        · exact h
        · omega
      set last := min st.m_num_partitions (next + t) with hlast
      have hc : ∃ c, last - next = c + 1 := ⟨last - next - 1, by omega⟩
      obtain ⟨c, hc⟩ := hc
      rw [hc]
      have hA := partition_for_eq_iterate W half c st last (by omega) (by omega)
      rw [← hnext] at hA
      rw [hA]
      have hsub : ((t : Int) - ((c + 1 : Nat) : Int)) = ((t - (c + 1) : Nat) : Int) := by
        omega
      rw [hsub, ih _ _ (by rw [sched_iter_num]; exact hnum) (by simp only [Int.toNat_ofNat]; omega)]
      simp only [Int.toNat_ofNat]
      rw [← Function.iterate_add_apply]
      congr 1
      omega
    · simp only [hpos, if_false]
      have : T.toNat = 0 := by omega
      rw [this]
      rfl

theorem halved_eq (lg : Nat) (h : 1 ≤ lg) : (2 ^ lg) >>> 1 = 2 ^ (lg - 1) := by
  rw [Nat.shiftRight_eq_div_pow, pow_one]
  obtain ⟨m, rfl⟩ : ∃ m, lg = m + 1 := ⟨lg - 1, by omega⟩
  rw [pow_succ]; simp

theorem process_iter_eq_alt [Field R] (K : FFTKernel R) (W : Nat) (inp : Nat → R)
    (accumulate : Bool)
    (v : convolve_partitioned R × Nat × Nat × Nat × Nat × (Nat → R))
    (hlg : 1 ≤ v.1.m_fft_size_log2) (hnum : 1 ≤ v.1.m_num_partitions) :
    process_iter K W inp accumulate v = process_iter_alt K W inp accumulate v := by
  obtain ⟨st, rw, rem, ip, op, out⟩ := v
  simp only at hlg hnum
  unfold process_iter process_iter_alt with_io sched_todo
  simp only [get_fft_size, Nat.one_shiftLeft, halved_eq _ hlg, Nat.and_pow_two_sub_one_eq_mod,
    decide_eq_true_eq]
  have hmin : ∀ a b : Nat, (if a < b then a else b) = min a b := by
    intro a b; split_ifs with h
    · exact (min_eq_left (le_of_lt h)).symm
    · exact (min_eq_right (by omega)).symm
  simp only [hmin]
  have key : ∀ (T : Int) (st1 : convolve_partitioned R),
      st1.m_num_partitions = st.m_num_partitions →
      partition_while W (2 ^ (st.m_fft_size_log2 - 1)) T.toNat T st1
        = (sched_step W (2 ^ (st.m_fft_size_log2 - 1)))^[T.toNat] st1 :=
    fun T st1 h => partition_while_eq_iterate _ _ _ _ _ (by rw [h]; exact hnum) (le_refl _)
  have key2 := fun (T : Int) (b0 b1 : Nat → R) =>
    key T { st with m_fft_buffers_0 := b0, m_fft_buffers_1 := b1 } rfl
  simp only [key2]

/-- unfolding of `process_iter_alt` with every intermediate value named -/
theorem process_iter_alt_eq [Field R] (K : FFTKernel R) (W : Nat) (inp : Nat → R)
    (accumulate : Bool) (st : convolve_partitioned R) (rw rem ip op : Nat) (out : Nat → R)
    (H L hi c : Nat) (S : convolve_partitioned R) (b0 b1 out1 : Nat → R)
    (rem1 ip1 op1 rw1 : Nat)
    (hH : H = 2 ^ (st.m_fft_size_log2 - 1))
    (hL : L = min rem (H - rw % H))
    (hhi : hi = (rw + H) % 2 ^ st.m_fft_size_log2)
    (hb0 : b0 = copy_n inp ip L st.m_fft_buffers_0 rw)
    (hb1 : b1 = copy_n inp ip L st.m_fft_buffers_1 hi)
    (hout : out1 = if accumulate then add_n st.m_fft_buffers_3 rw L out op
      else copy_n st.m_fft_buffers_3 rw L out op)
    (hc : c = (rw + L) % H)
    (hS : S = (sched_step W H)^[
      (sched_todo st.m_valid_partitions st.m_partitions_done c H).toNat] (with_io st b0 b1))
    (hrem : rem1 = rem - L) (hip : ip1 = ip + L) (hop : op1 = op + L) (hrw : rw1 = rw + L) :
    process_iter_alt K W inp accumulate (st, rw, rem, ip, op, out) =
      ((if c = 0 then fft_step K W S rw1 else (S, rw1)).1,
       (if c = 0 then fft_step K W S rw1 else (S, rw1)).2, rem1, ip1, op1, out1) := by
  subst hH hL hhi hb0 hb1 hout hc hS hrem hip hop hrw
  rfl

theorem sched_step_with_io [Zero R] [Add R] [Sub R] [Mul R] (W half : Nat)
    (st : convolve_partitioned R) (b0 b1 : Nat → R) :
    sched_step W half (with_io st b0 b1) = with_io (sched_step W half st) b0 b1 := rfl

theorem sched_iter_with_io [Zero R] [Add R] [Sub R] [Mul R] (W half k : Nat)
    (st : convolve_partitioned R) (b0 b1 : Nat → R) :
    (sched_step W half)^[k] (with_io st b0 b1) = with_io ((sched_step W half)^[k] st) b0 b1 := by
  induction k generalizing st with
  | zero => rfl
  | succ n ih =>
    rw [Function.iterate_succ_apply, Function.iterate_succ_apply, sched_step_with_io, ih]

theorem with_io_with_io (st : convolve_partitioned R) (a0 a1 b0 b1 : Nat → R) :
    with_io (with_io st a0 a1) b0 b1 = with_io st b0 b1 := rfl

theorem sched_iter_fields [Zero R] [Add R] [Sub R] [Mul R] (W half k : Nat)
    (st : convolve_partitioned R) :
    ((sched_step W half)^[k] st).m_fft_size_log2 = st.m_fft_size_log2 ∧
    ((sched_step W half)^[k] st).m_valid_partitions = st.m_valid_partitions ∧
    ((sched_step W half)^[k] st).m_fft_buffers_0 = st.m_fft_buffers_0 ∧
    ((sched_step W half)^[k] st).m_fft_buffers_1 = st.m_fft_buffers_1 ∧
    ((sched_step W half)^[k] st).m_fft_buffers_2 = st.m_fft_buffers_2 ∧
    ((sched_step W half)^[k] st).m_fft_buffers_3 = st.m_fft_buffers_3 ∧
    ((sched_step W half)^[k] st).m_input_position = st.m_input_position ∧
    ((sched_step W half)^[k] st).m_max_fft_size_log2 = st.m_max_fft_size_log2 ∧
    ((sched_step W half)^[k] st).m_reset_offset = st.m_reset_offset ∧
    ((sched_step W half)^[k] st).m_reset_flag = st.m_reset_flag := by
  induction k generalizing st with
  | zero => exact ⟨rfl, rfl, rfl, rfl, rfl, rfl, rfl, rfl, rfl, rfl⟩
  | succ n ih =>
    rw [Function.iterate_succ_apply]
    exact ih (sched_step W half st)

theorem copy_n_merge (src : Nat → R) (sp a b : Nat) (dst : Nat → R) (dp : Nat) :
    copy_n src (sp + a) b (copy_n src sp a dst dp) (dp + a) = copy_n src sp (a + b) dst dp := by
  funext i
  unfold copy_n
  by_cases h1 : dp + a ≤ i ∧ i < dp + a + b
  · have h2 : dp ≤ i ∧ i < dp + (a + b) := by omega
    rw [if_pos h1, if_pos h2]
    congr 1; omega
  · rw [if_neg h1]
    by_cases h3 : dp ≤ i ∧ i < dp + a
    · have h2 : dp ≤ i ∧ i < dp + (a + b) := by omega
      rw [if_pos h3, if_pos h2]
    · have h2 : ¬ (dp ≤ i ∧ i < dp + (a + b)) := by omega
      rw [if_neg h3, if_neg h2]

theorem add_n_merge [Add R] (src : Nat → R) (sp a b : Nat) (dst : Nat → R) (dp : Nat) :
    add_n src (sp + a) b (add_n src sp a dst dp) (dp + a) = add_n src sp (a + b) dst dp := by
  funext i
  unfold add_n
  by_cases h1 : dp + a ≤ i ∧ i < dp + a + b
  · have h2 : dp ≤ i ∧ i < dp + (a + b) := by omega
    have h3 : ¬ (dp ≤ i ∧ i < dp + a) := by omega
    rw [if_pos h1, if_pos h2, if_neg h3]
    congr 2; omega
  · rw [if_neg h1]
    by_cases h3 : dp ≤ i ∧ i < dp + a
    · have h2 : dp ≤ i ∧ i < dp + (a + b) := by omega
      rw [if_pos h3, if_pos h2]
    · have h2 : ¬ (dp ≤ i ∧ i < dp + (a + b)) := by omega
      rw [if_neg h3, if_neg h2]

/-- the partition quota is monotone in the hop position and bounded by `valid - 1` -/
theorem quota_mono (v half c1 c2 : Nat) (h : c1 ≤ c2) :
    (v - 1) * c1 / half ≤ (v - 1) * c2 / half :=
  Nat.div_le_div_right (Nat.mul_le_mul_left _ h)

theorem quota_le (v half c : Nat) (hc : c ≤ half) : (v - 1) * c / half ≤ v - 1 := by
  rcases Nat.eq_zero_or_pos half with h0 | hpos
  · subst h0; simp
  · calc (v - 1) * c / half ≤ (v - 1) * half / half :=
        Nat.div_le_div_right (Nat.mul_le_mul_left _ hc)
      _ = v - 1 := Nat.mul_div_cancel _ hpos

theorem todo_merge (v d half c1 c2 : Nat) (hc1 : c1 < half) (hc1pos : c1 ≠ 0)
    (h12 : c2 = 0 ∨ c1 ≤ c2) :
    (sched_todo v d c1 half).toNat
      + (sched_todo v (d + (sched_todo v d c1 half).toNat) c2 half).toNat
      = (sched_todo v d c2 half).toNat := by
  unfold sched_todo
  simp only [hc1pos, if_false]
  have hq1 := quota_le v half c1 (le_of_lt hc1)
  by_cases hc2 : c2 = 0
  · simp only [hc2, if_true]
    generalize (v - 1) * c1 / half = q1 at hq1 ⊢
    omega
  · simp only [hc2, if_false]
    have hq := quota_mono v half c1 c2 (by omega)
    generalize (v - 1) * c1 / half = q1 at hq1 hq ⊢
    generalize (v - 1) * c2 / half = q2 at hq ⊢
    omega

theorem mod_add_of_lt (rw a half : Nat) (h : a < half - rw % half) :
    (rw + a) % half = rw % half + a := by
  rw [Nat.add_mod, Nat.mod_eq_of_lt (a := a) (by omega), Nat.mod_eq_of_lt (by omega)]

theorem hi_add_of_lt (rw a lg : Nat) (hlg : 1 ≤ lg) (h : a < 2 ^ (lg - 1) - rw % 2 ^ (lg - 1)) :
    (rw + a + 2 ^ (lg - 1)) % 2 ^ lg = (rw + 2 ^ (lg - 1)) % 2 ^ lg + a := by
  obtain ⟨m, rfl⟩ : ∃ m, lg = m + 1 := ⟨lg - 1, by omega⟩
  simp only [Nat.add_sub_cancel] at *
  have hF : 2 ^ (m + 1) = 2 * 2 ^ m := by rw [pow_succ]; ring
  rw [hF]
  have hpos : 0 < 2 ^ m := pow_pos (by norm_num) m
  generalize 2 ^ m = H at *
  -- write rw = q * H + r
  have hr := Nat.mod_lt rw hpos
  have hdiv := Nat.div_add_mod rw H
  generalize rw % H = r at *
  generalize rw / H = q at *
  subst hdiv
  rcases Nat.even_or_odd' q with ⟨j, hj | hj⟩
  · subst hj
    have e1 : H * (2 * j) + r + a + H = (r + a + H) + (2 * H) * j := by ring
    have e2 : H * (2 * j) + r + H = (r + H) + (2 * H) * j := by ring
    rw [e1, e2, Nat.add_mul_mod_self_left, Nat.add_mul_mod_self_left,
      Nat.mod_eq_of_lt (by omega), Nat.mod_eq_of_lt (by omega)]
    omega
  · subst hj
    have e1 : H * (2 * j + 1) + r + a + H = (r + a) + (2 * H) * (j + 1) := by ring
    have e2 : H * (2 * j + 1) + r + H = r + (2 * H) * (j + 1) := by ring
    rw [e1, e2, Nat.add_mul_mod_self_left, Nat.add_mul_mod_self_left,
      Nat.mod_eq_of_lt (by omega), Nat.mod_eq_of_lt (by omega)]

theorem process_iter_alt_merge [Field R] (K : FFTKernel R) (W : Nat) (inp : Nat → R)
    (accumulate : Bool) (st : convolve_partitioned R) (rw a b ip op : Nat) (out : Nat → R)
    (hlg : 1 ≤ st.m_fft_size_log2) (ha : 0 < a)
    (hlt : a < 2 ^ (st.m_fft_size_log2 - 1) - rw % 2 ^ (st.m_fft_size_log2 - 1)) :
    process_iter_alt K W inp accumulate
      ((process_iter_alt K W inp accumulate (st, rw, a, ip, op, out)).1,
       (process_iter_alt K W inp accumulate (st, rw, a, ip, op, out)).2.1,
       b,
       (process_iter_alt K W inp accumulate (st, rw, a, ip, op, out)).2.2.2.1,
       (process_iter_alt K W inp accumulate (st, rw, a, ip, op, out)).2.2.2.2.1,
       (process_iter_alt K W inp accumulate (st, rw, a, ip, op, out)).2.2.2.2.2)
      = process_iter_alt K W inp accumulate (st, rw, a + b, ip, op, out) := by
  set H := 2 ^ (st.m_fft_size_log2 - 1) with hH
  have hc1 : (rw + a) % H = rw % H + a := mod_add_of_lt _ _ _ hlt
  have hc1ne : ¬ ((rw + a) % H = 0) := by omega
  -- the first sub-block
  have hfirst := process_iter_alt_eq K W inp accumulate st rw a ip op out H a
    ((rw + H) % 2 ^ st.m_fft_size_log2) ((rw + a) % H)
    ((sched_step W H)^[
      (sched_todo st.m_valid_partitions st.m_partitions_done ((rw + a) % H) H).toNat]
      (with_io st (copy_n inp ip a st.m_fft_buffers_0 rw)
        (copy_n inp ip a st.m_fft_buffers_1 ((rw + H) % 2 ^ st.m_fft_size_log2))))
    _ _ _ 0 (ip + a) (op + a) (rw + a) hH (min_eq_left (le_of_lt hlt)).symm rfl rfl rfl rfl rfl
    rfl (by omega) rfl rfl rfl
  simp only [hc1ne, if_false] at hfirst
  rw [hfirst]
  simp only
  set T1 := (sched_todo st.m_valid_partitions st.m_partitions_done ((rw + a) % H) H).toNat
    with hT1
  set S1 := (sched_step W H)^[T1]
      (with_io st (copy_n inp ip a st.m_fft_buffers_0 rw)
        (copy_n inp ip a st.m_fft_buffers_1 ((rw + H) % 2 ^ st.m_fft_size_log2))) with hS1
  obtain ⟨f1, f2, f3, f4, -, f6, -⟩ := sched_iter_fields W H T1
      (with_io st (copy_n inp ip a st.m_fft_buffers_0 rw)
        (copy_n inp ip a st.m_fft_buffers_1 ((rw + H) % 2 ^ st.m_fft_size_log2)))
  have fd := sched_iter_done W H T1
      (with_io st (copy_n inp ip a st.m_fft_buffers_0 rw)
        (copy_n inp ip a st.m_fft_buffers_1 ((rw + H) % 2 ^ st.m_fft_size_log2)))
  rw [← hS1] at f1 f2 f3 f4 f6 fd
  change S1.m_fft_size_log2 = st.m_fft_size_log2 at f1
  change S1.m_valid_partitions = st.m_valid_partitions at f2
  change S1.m_fft_buffers_0 = copy_n inp ip a st.m_fft_buffers_0 rw at f3
  change S1.m_fft_buffers_1 = copy_n inp ip a st.m_fft_buffers_1 _ at f4
  change S1.m_fft_buffers_3 = st.m_fft_buffers_3 at f6
  change S1.m_partitions_done = st.m_partitions_done + T1 at fd
  -- sizes of the second sub-block and of the merged one
  set L2 := min b (H - (rw + a) % H) with hL2
  have hL : min (a + b) (H - rw % H) = a + L2 := by
    rw [hL2, hc1]; omega
  have hsecond := process_iter_alt_eq K W inp accumulate S1 (rw + a) b (ip + a) (op + a)
    (if accumulate then add_n st.m_fft_buffers_3 rw a out op
      else copy_n st.m_fft_buffers_3 rw a out op) H L2
    ((rw + H) % 2 ^ st.m_fft_size_log2 + a) ((rw + (a + L2)) % H)
    ((sched_step W H)^[
      (sched_todo st.m_valid_partitions st.m_partitions_done ((rw + (a + L2)) % H) H).toNat]
      (with_io st (copy_n inp ip (a + L2) st.m_fft_buffers_0 rw)
        (copy_n inp ip (a + L2) st.m_fft_buffers_1 ((rw + H) % 2 ^ st.m_fft_size_log2))))
    (copy_n inp ip (a + L2) st.m_fft_buffers_0 rw)
    (copy_n inp ip (a + L2) st.m_fft_buffers_1 ((rw + H) % 2 ^ st.m_fft_size_log2))
    (if accumulate then add_n st.m_fft_buffers_3 rw (a + L2) out op
      else copy_n st.m_fft_buffers_3 rw (a + L2) out op)
    (a + b - (a + L2)) (ip + (a + L2)) (op + (a + L2)) (rw + (a + L2))
    (by rw [f1]) rfl
    (by rw [f1]; exact (hi_add_of_lt rw a _ hlg hlt).symm)
    (by rw [f3, copy_n_merge])
    (by rw [f4, copy_n_merge])
    (by rw [f6]; cases accumulate
        · simp only [Bool.false_eq_true, if_false, copy_n_merge]
        · simp only [if_true, add_n_merge])
    (by rw [Nat.add_assoc])
    (by
      rw [f2, fd, hS1, ← sched_iter_with_io, with_io_with_io,
        ← Function.iterate_add_apply, hT1]
      congr 1
      have hHpos : 0 < H := by rw [hH]; exact pow_pos (by norm_num) _
      have h12 : (rw + (a + L2)) % H = 0 ∨ (rw + a) % H ≤ (rw + (a + L2)) % H := by
        by_cases h0 : (rw + (a + L2)) % H = 0
        · exact Or.inl h0
        · right
          have h1 : a + L2 ≤ H - rw % H := by rw [← hL]; exact min_le_right _ _
          have h2 : (rw + (a + L2)) % H = rw % H + (a + L2) := by
            rcases Nat.lt_or_ge (a + L2) (H - rw % H) with h3 | h3
            · exact mod_add_of_lt _ _ _ h3
            · exfalso
              apply h0
              have h4 : a + L2 = H - rw % H := by omega
              have hmod := Nat.mod_lt rw hHpos
              have hdm := Nat.div_add_mod rw H
              have : rw + (a + L2) = H * (rw / H + 1) := by
                rw [h4, Nat.mul_add, Nat.mul_one]; omega
              rw [this, Nat.mul_mod_right]
          rw [hc1, h2]; omega
      have hm := todo_merge st.m_valid_partitions st.m_partitions_done H ((rw + a) % H)
        ((rw + (a + L2)) % H) (by rw [hc1]; omega) hc1ne h12
      omega)
    (by omega) (by omega) (by omega) (by omega)
  rw [hsecond]
  have hmerged := process_iter_alt_eq K W inp accumulate st rw (a + b) ip op out H (a + L2)
    ((rw + H) % 2 ^ st.m_fft_size_log2) ((rw + (a + L2)) % H)
    ((sched_step W H)^[
      (sched_todo st.m_valid_partitions st.m_partitions_done ((rw + (a + L2)) % H) H).toNat]
      (with_io st (copy_n inp ip (a + L2) st.m_fft_buffers_0 rw)
        (copy_n inp ip (a + L2) st.m_fft_buffers_1 ((rw + H) % 2 ^ st.m_fft_size_log2))))
    _ _ _ (a + b - (a + L2)) (ip + (a + L2)) (op + (a + L2)) (rw + (a + L2))
    hH hL.symm rfl rfl rfl rfl rfl rfl rfl rfl rfl rfl
  rw [hmerged]

theorem fft_step_fields [Field R] (K : FFTKernel R) (W : Nat) (S : convolve_partitioned R)
    (x : Nat) :
    (fft_step K W S x).1.m_fft_size_log2 = S.m_fft_size_log2 ∧
    (fft_step K W S x).1.m_num_partitions = S.m_num_partitions ∧
    (fft_step K W S x).1.m_reset_flag = S.m_reset_flag ∧
    (fft_step K W S x).1.m_max_fft_size_log2 = S.m_max_fft_size_log2 ∧
    (fft_step K W S x).1.m_reset_offset = S.m_reset_offset :=
  ⟨rfl, rfl, rfl, rfl, rfl⟩

theorem process_iter_alt_fields [Field R] (K : FFTKernel R) (W : Nat) (inp : Nat → R)
    (accumulate : Bool) (st : convolve_partitioned R) (rw rem ip op : Nat) (out : Nat → R) :
    (process_iter_alt K W inp accumulate (st, rw, rem, ip, op, out)).1.m_fft_size_log2
      = st.m_fft_size_log2 ∧
    (process_iter_alt K W inp accumulate (st, rw, rem, ip, op, out)).1.m_num_partitions
      = st.m_num_partitions ∧
    (process_iter_alt K W inp accumulate (st, rw, rem, ip, op, out)).1.m_reset_flag
      = st.m_reset_flag ∧
    (process_iter_alt K W inp accumulate (st, rw, rem, ip, op, out)).2.2.1
      = rem - min rem (2 ^ (st.m_fft_size_log2 - 1) - rw % 2 ^ (st.m_fft_size_log2 - 1)) ∧
    (process_iter_alt K W inp accumulate (st, rw, rem, ip, op, out)).2.2.2.1
      = ip + min rem (2 ^ (st.m_fft_size_log2 - 1) - rw % 2 ^ (st.m_fft_size_log2 - 1)) ∧
    (process_iter_alt K W inp accumulate (st, rw, rem, ip, op, out)).2.2.2.2.1
      = op + min rem (2 ^ (st.m_fft_size_log2 - 1) - rw % 2 ^ (st.m_fft_size_log2 - 1)) := by
  refine ⟨?_, ?_, ?_, rfl, rfl, rfl⟩
  all_goals
    unfold process_iter_alt
    simp only
    obtain ⟨f1, -, -, -, -, -, -, -, -, f10⟩ := sched_iter_fields W
      (2 ^ (st.m_fft_size_log2 - 1))
      ((sched_todo st.m_valid_partitions st.m_partitions_done
        ((rw + min rem (2 ^ (st.m_fft_size_log2 - 1) - rw % 2 ^ (st.m_fft_size_log2 - 1))) %
          2 ^ (st.m_fft_size_log2 - 1)) (2 ^ (st.m_fft_size_log2 - 1))).toNat)
      (with_io st (copy_n inp ip
          (min rem (2 ^ (st.m_fft_size_log2 - 1) - rw % 2 ^ (st.m_fft_size_log2 - 1)))
          st.m_fft_buffers_0 rw)
        (copy_n inp ip
          (min rem (2 ^ (st.m_fft_size_log2 - 1) - rw % 2 ^ (st.m_fft_size_log2 - 1)))
          st.m_fft_buffers_1 ((rw + 2 ^ (st.m_fft_size_log2 - 1)) % 2 ^ st.m_fft_size_log2)))
    have fn := sched_iter_num W
      (2 ^ (st.m_fft_size_log2 - 1))
      ((sched_todo st.m_valid_partitions st.m_partitions_done
        ((rw + min rem (2 ^ (st.m_fft_size_log2 - 1) - rw % 2 ^ (st.m_fft_size_log2 - 1))) %
          2 ^ (st.m_fft_size_log2 - 1)) (2 ^ (st.m_fft_size_log2 - 1))).toNat)
      (with_io st (copy_n inp ip
          (min rem (2 ^ (st.m_fft_size_log2 - 1) - rw % 2 ^ (st.m_fft_size_log2 - 1)))
          st.m_fft_buffers_0 rw)
        (copy_n inp ip
          (min rem (2 ^ (st.m_fft_size_log2 - 1) - rw % 2 ^ (st.m_fft_size_log2 - 1)))
          st.m_fft_buffers_1 ((rw + 2 ^ (st.m_fft_size_log2 - 1)) % 2 ^ st.m_fft_size_log2)))
    split_ifs
    · first
        | exact (fft_step_fields K W _ _).1.trans f1
        | exact (fft_step_fields K W _ _).2.1.trans fn
        | exact (fft_step_fields K W _ _).2.2.1.trans f10
    · first
        | exact f1
        | exact fn
        | exact f10

/-- the first sub-block does not depend on how many samples follow it -/
theorem process_iter_alt_rem [Field R] (K : FFTKernel R) (W : Nat) (inp : Nat → R)
    (accumulate : Bool) (st : convolve_partitioned R) (rw rem rem2 ip op : Nat) (out : Nat → R)
    (h1 : 2 ^ (st.m_fft_size_log2 - 1) - rw % 2 ^ (st.m_fft_size_log2 - 1) ≤ rem) (h2 : rem ≤ rem2) :
    process_iter_alt K W inp accumulate (st, rw, rem2, ip, op, out) =
      ((process_iter_alt K W inp accumulate (st, rw, rem, ip, op, out)).1,
       (process_iter_alt K W inp accumulate (st, rw, rem, ip, op, out)).2.1,
       (process_iter_alt K W inp accumulate (st, rw, rem, ip, op, out)).2.2.1 + (rem2 - rem),
       (process_iter_alt K W inp accumulate (st, rw, rem, ip, op, out)).2.2.2.1,
       (process_iter_alt K W inp accumulate (st, rw, rem, ip, op, out)).2.2.2.2.1,
       (process_iter_alt K W inp accumulate (st, rw, rem, ip, op, out)).2.2.2.2.2) := by
  unfold process_iter_alt
  simp only
  have e1 : min rem2 (2 ^ (st.m_fft_size_log2 - 1) - rw % 2 ^ (st.m_fft_size_log2 - 1))
      = 2 ^ (st.m_fft_size_log2 - 1) - rw % 2 ^ (st.m_fft_size_log2 - 1) :=
    min_eq_right (by omega)
  have e2 : min rem (2 ^ (st.m_fft_size_log2 - 1) - rw % 2 ^ (st.m_fft_size_log2 - 1))
      = 2 ^ (st.m_fft_size_log2 - 1) - rw % 2 ^ (st.m_fft_size_log2 - 1) :=
    min_eq_right h1
  rw [e1, e2]
  congr 3
  omega

theorem process_loop_zero_rem [Field R] (K : FFTKernel R) (W : Nat) (inp : Nat → R)
    (accumulate : Bool) (fuel : Nat) (st : convolve_partitioned R) (rw ip op : Nat)
    (out : Nat → R) :
    process_loop K W inp accumulate fuel (st, rw, 0, ip, op, out)
      = some (st, rw, 0, ip, op, out) := by
  cases fuel <;> simp [process_loop]

theorem process_loop_step [Field R] (K : FFTKernel R) (W : Nat) (inp : Nat → R)
    (accumulate : Bool) (fuel : Nat) (st : convolve_partitioned R) (rw rem ip op : Nat)
    (out : Nat → R) (hrem : 0 < rem) (hlg : 1 ≤ st.m_fft_size_log2)
    (hnum : 1 ≤ st.m_num_partitions) :
    process_loop K W inp accumulate (fuel + 1) (st, rw, rem, ip, op, out)
      = process_loop K W inp accumulate fuel
          (process_iter_alt K W inp accumulate (st, rw, rem, ip, op, out)) := by
  rw [process_loop]
  simp only [gt_iff_lt, hrem, if_true]
  rw [process_iter_eq_alt K W inp accumulate _ hlg hnum]

theorem till_pos (lg rw : Nat) : 0 < 2 ^ (lg - 1) - rw % 2 ^ (lg - 1) := by
  have := Nat.mod_lt rw (pow_pos (by norm_num : 0 < 2) (lg - 1))
  omega

theorem process_loop_total [Field R] (K : FFTKernel R) (W : Nat) (inp : Nat → R)
    (accumulate : Bool) :
    ∀ (rem : Nat) (st : convolve_partitioned R) (rw ip op : Nat) (out : Nat → R),
      1 ≤ st.m_fft_size_log2 → 1 ≤ st.m_num_partitions →
      ∃ v : convolve_partitioned R × Nat × Nat × Nat × Nat × (Nat → R),
        (∀ fuel, rem ≤ fuel →
          process_loop K W inp accumulate fuel (st, rw, rem, ip, op, out) = some v) ∧
        v.2.2.1 = 0 ∧ v.1.m_fft_size_log2 = st.m_fft_size_log2 ∧
        v.1.m_num_partitions = st.m_num_partitions ∧ v.1.m_reset_flag = st.m_reset_flag ∧
        v.2.2.2.1 = ip + rem ∧ v.2.2.2.2.1 = op + rem := by
  intro rem
  induction rem using Nat.strong_induction_on with
  | _ rem ih =>
    intro st rw ip op out hlg hnum
    rcases Nat.eq_zero_or_pos rem with h0 | hpos
    · subst h0
      exact ⟨(st, rw, 0, ip, op, out), fun fuel _ => process_loop_zero_rem K W inp accumulate fuel
        st rw ip op out, rfl, rfl, rfl, rfl, rfl, rfl⟩
    · obtain ⟨g1, g2, g3, g4, g5, g6⟩ :=
        process_iter_alt_fields K W inp accumulate st rw rem ip op out
      have htill := till_pos st.m_fft_size_log2 rw
      set u := process_iter_alt K W inp accumulate (st, rw, rem, ip, op, out) with hu
      have hlt : u.2.2.1 < rem := by rw [g4]; omega
      obtain ⟨v, hv, hv0, hv1, hv2, hv3, hv4, hv5⟩ :=
        ih u.2.2.1 hlt u.1 u.2.1 u.2.2.2.1 u.2.2.2.2.1 u.2.2.2.2.2 (by rw [g1]; exact hlg)
          (by rw [g2]; exact hnum)
      refine ⟨v, ?_, hv0, by rw [hv1, g1], by rw [hv2, g2], by rw [hv3, g3], ?_, ?_⟩
      · intro fuel hfuel
        obtain ⟨f, rfl⟩ : ∃ f, fuel = f + 1 := ⟨fuel - 1, by omega⟩
        rw [process_loop_step K W inp accumulate f st rw rem ip op out hpos hlg hnum, ← hu]
        exact hv f (by omega)
      · rw [hv4, g5]; omega
      · rw [hv5, g6]; omega

theorem process_loop_split [Field R] (K : FFTKernel R) (W : Nat) (inp : Nat → R)
    (accumulate : Bool) :
    ∀ (N1 : Nat) (st : convolve_partitioned R) (rw N2 ip op : Nat) (out : Nat → R),
      1 ≤ st.m_fft_size_log2 → 1 ≤ st.m_num_partitions →
      ∀ v1 v2 : convolve_partitioned R × Nat × Nat × Nat × Nat × (Nat → R),
        (∀ fuel, N1 ≤ fuel →
          process_loop K W inp accumulate fuel (st, rw, N1, ip, op, out) = some v1) →
        (∀ fuel, N2 ≤ fuel →
          process_loop K W inp accumulate fuel
            (v1.1, v1.2.1, N2, v1.2.2.2.1, v1.2.2.2.2.1, v1.2.2.2.2.2) = some v2) →
        ∀ fuel, N1 + N2 ≤ fuel →
          process_loop K W inp accumulate fuel (st, rw, N1 + N2, ip, op, out) = some v2 := by
  intro N1
  induction N1 using Nat.strong_induction_on with
  | _ N1 ih =>
    intro st rw N2 ip op out hlg hnum v1 v2 h1 h2 fuel hfuel
    rcases Nat.eq_zero_or_pos N1 with h0 | hpos
    · subst h0
      have e := h1 0 (le_refl _)
      rw [process_loop_zero_rem] at e
      have e1 : v1 = (st, rw, 0, ip, op, out) := (Option.some.inj e).symm
      subst e1
      rw [Nat.zero_add]
      exact h2 fuel (by omega)
    · obtain ⟨g1, g2, g3, g4, g5, g6⟩ :=
        process_iter_alt_fields K W inp accumulate st rw N1 ip op out
      have htill := till_pos st.m_fft_size_log2 rw
      obtain ⟨f, rfl⟩ : ∃ f, fuel = f + 1 := ⟨fuel - 1, by omega⟩
      rw [process_loop_step K W inp accumulate f st rw (N1 + N2) ip op out (by omega) hlg hnum]
      have h1s := h1 (N1 - 1 + 1) (by omega)
      rw [process_loop_step K W inp accumulate (N1 - 1) st rw N1 ip op out hpos hlg hnum] at h1s
      set u := process_iter_alt K W inp accumulate (st, rw, N1, ip, op, out) with hu
      rcases Nat.lt_or_ge N1 (2 ^ (st.m_fft_size_log2 - 1) - rw % 2 ^ (st.m_fft_size_log2 - 1))
        with hlt | hge
      · -- the first call ends inside the hop
        have hrem0 : u.2.2.1 = 0 := by rw [g4, min_eq_left (le_of_lt hlt)]; omega
        have hueta : u = (u.1, u.2.1, 0, u.2.2.2.1, u.2.2.2.2.1, u.2.2.2.2.2) := by
          rw [← hrem0]
        have hv1 : v1 = u := by
          rw [hueta, process_loop_zero_rem] at h1s
          rw [hueta]
          exact (Option.some.inj h1s).symm
        rcases Nat.eq_zero_or_pos N2 with h20 | h2pos
        · subst h20
          have e := h2 0 (le_refl _)
          rw [process_loop_zero_rem] at e
          have hv2 : v2 = v1 := by
            rw [← Option.some.inj e, hv1]
            exact hueta.symm
          rw [hv2, Nat.add_zero, ← hu, hueta, process_loop_zero_rem, ← hueta, hv1]
        · have hm := process_iter_alt_merge K W inp accumulate st rw N1 N2 ip op out hlg hpos hlt
          rw [← hm, ← hu, ← hv1]
          have h2s := h2 (f + 1) (by omega)
          rw [process_loop_step K W inp accumulate f v1.1 v1.2.1 N2 _ _ _ h2pos
            (by rw [hv1, g1]; exact hlg) (by rw [hv1, g2]; exact hnum)] at h2s
          exact h2s
      · -- the first call reaches the hop boundary
        have hrem : u.2.2.1 < N1 := by rw [g4]; omega
        have hrw := process_iter_alt_rem K W inp accumulate st rw N1 (N1 + N2) ip op out hge
          (by omega)
        rw [hrw, ← hu]
        have e3 : N1 + N2 - N1 = N2 := by omega
        rw [e3]
        obtain ⟨w, hw, -⟩ := process_loop_total K W inp accumulate u.2.2.1 u.1 u.2.1 u.2.2.2.1
          u.2.2.2.2.1 u.2.2.2.2.2 (by rw [g1]; exact hlg) (by rw [g2]; exact hnum)
        have hwv : w = v1 := by
          have := hw (N1 - 1) (by omega)
          have hueta : u = (u.1, u.2.1, u.2.2.1, u.2.2.2.1, u.2.2.2.2.1, u.2.2.2.2.2) := rfl
          rw [← hueta, h1s] at this
          exact (Option.some.inj this).symm
        subst hwv
        exact ih u.2.2.1 hrem u.1 u.2.1 N2 u.2.2.2.1 u.2.2.2.2.1 u.2.2.2.2.2
          (by rw [g1]; exact hlg) (by rw [g2]; exact hnum) w v2 hw h2 f (by omega)

theorem sched_iter_with_rw [Zero R] [Add R] [Sub R] [Mul R] (W half k : Nat)
    (st : convolve_partitioned R) (x : Nat) :
    (sched_step W half)^[k] (with_rw st x) = with_rw ((sched_step W half)^[k] st) x := by
  induction k generalizing st with
  | zero => rfl
  | succ n ih =>
    rw [Function.iterate_succ_apply, Function.iterate_succ_apply]
    exact ih (sched_step W half st)

theorem process_iter_alt_with_rw [Field R] (K : FFTKernel R) (W : Nat) (inp : Nat → R)
    (accumulate : Bool) (st : convolve_partitioned R) (x rw rem ip op : Nat) (out : Nat → R) :
    process_iter_alt K W inp accumulate (with_rw st x, rw, rem, ip, op, out) =
      (with_rw (process_iter_alt K W inp accumulate (st, rw, rem, ip, op, out)).1 x,
       (process_iter_alt K W inp accumulate (st, rw, rem, ip, op, out)).2) := by
  have h := process_iter_alt_eq K W inp accumulate (with_rw st x) rw rem ip op out
    (2 ^ (st.m_fft_size_log2 - 1))
    (min rem (2 ^ (st.m_fft_size_log2 - 1) - rw % 2 ^ (st.m_fft_size_log2 - 1)))
    ((rw + 2 ^ (st.m_fft_size_log2 - 1)) % 2 ^ st.m_fft_size_log2)
    ((rw + min rem (2 ^ (st.m_fft_size_log2 - 1) - rw % 2 ^ (st.m_fft_size_log2 - 1)))
      % 2 ^ (st.m_fft_size_log2 - 1))
    (with_rw ((sched_step W (2 ^ (st.m_fft_size_log2 - 1)))^[
      (sched_todo st.m_valid_partitions st.m_partitions_done
        ((rw + min rem (2 ^ (st.m_fft_size_log2 - 1) - rw % 2 ^ (st.m_fft_size_log2 - 1)))
          % 2 ^ (st.m_fft_size_log2 - 1)) (2 ^ (st.m_fft_size_log2 - 1))).toNat]
      (with_io st _ _)) x)
    _ _ _ _ _ _ _ rfl rfl rfl rfl rfl rfl rfl
    (by rw [← sched_iter_with_rw]; rfl) rfl rfl rfl rfl
  rw [h]
  unfold process_iter_alt
  simp only
  split_ifs <;> rfl

theorem process_loop_with_rw [Field R] (K : FFTKernel R) (W : Nat) (inp : Nat → R)
    (accumulate : Bool) (x : Nat) :
    ∀ (rem : Nat) (st : convolve_partitioned R) (rw ip op : Nat) (out : Nat → R),
      1 ≤ st.m_fft_size_log2 → 1 ≤ st.m_num_partitions →
      ∀ v : convolve_partitioned R × Nat × Nat × Nat × Nat × (Nat → R),
        (∀ fuel, rem ≤ fuel →
          process_loop K W inp accumulate fuel (st, rw, rem, ip, op, out) = some v) →
        ∀ fuel, rem ≤ fuel →
          process_loop K W inp accumulate fuel (with_rw st x, rw, rem, ip, op, out)
            = some (with_rw v.1 x, v.2) := by
  intro rem
  induction rem using Nat.strong_induction_on with
  | _ rem ih =>
    intro st rw ip op out hlg hnum v hv fuel hfuel
    rcases Nat.eq_zero_or_pos rem with h0 | hpos
    · subst h0
      have e := hv 0 (le_refl _)
      rw [process_loop_zero_rem] at e
      rw [← Option.some.inj e, process_loop_zero_rem]
    · obtain ⟨g1, g2, g3, g4, g5, g6⟩ :=
        process_iter_alt_fields K W inp accumulate st rw rem ip op out
      have htill := till_pos st.m_fft_size_log2 rw
      obtain ⟨f, rfl⟩ : ∃ f, fuel = f + 1 := ⟨fuel - 1, by omega⟩
      rw [process_loop_step K W inp accumulate f (with_rw st x) rw rem ip op out hpos hlg hnum,
        process_iter_alt_with_rw]
      set u := process_iter_alt K W inp accumulate (st, rw, rem, ip, op, out) with hu
      have hlt : u.2.2.1 < rem := by rw [g4]; omega
      refine ih u.2.2.1 hlt u.1 u.2.1 u.2.2.2.1 u.2.2.2.2.1 u.2.2.2.2.2 (by rw [g1]; exact hlg)
        (by rw [g2]; exact hnum) v ?_ f (by omega)
      intro fuel2 hfuel2
      obtain ⟨w, hw, -⟩ := process_loop_total K W inp accumulate u.2.2.1 u.1 u.2.1 u.2.2.2.1
          u.2.2.2.2.1 u.2.2.2.2.2 (by rw [g1]; exact hlg) (by rw [g2]; exact hnum)
      have h1 := hv (rem - 1 + 1) (by omega)
      rw [process_loop_step K W inp accumulate (rem - 1) st rw rem ip op out hpos hlg hnum,
        ← hu] at h1
      have h2 := hw (rem - 1) (by omega)
      have hueta : u = (u.1, u.2.1, u.2.2.1, u.2.2.2.1, u.2.2.2.2.1, u.2.2.2.2.2) := rfl
      rw [← hueta, h1] at h2
      rw [hw fuel2 hfuel2, ← Option.some.inj h2]

theorem process_reset_fields [Zero R] (rnd : Nat) (st : convolve_partitioned R) :
    (process_reset rnd st).1.m_fft_size_log2 = st.m_fft_size_log2 ∧
    (process_reset rnd st).1.m_num_partitions = st.m_num_partitions ∧
    (process_reset rnd st).1.m_reset_flag = false :=
  ⟨rfl, rfl, rfl⟩

theorem process_eq [Field R] (K : FFTKernel R) (W : Nat) (rnd : Nat)
    (st : convolve_partitioned R) (inp : Nat → R) (in_pos : Nat) (out : Nat → R)
    (out_pos N : Nat) (accumulate : Bool) (hnum : 1 ≤ st.m_num_partitions)
    (r : convolve_partitioned R × Nat)
    (hr : r = if st.m_reset_flag then process_reset rnd st else (st, st.m_rw_counter))
    (v : convolve_partitioned R × Nat × Nat × Nat × Nat × (Nat → R))
    (hv : process_loop K W inp accumulate N (r.1, r.2, N, in_pos, out_pos, out) = some v) :
    process K W rnd st inp in_pos out out_pos N accumulate
      = some (with_rw v.1 v.2.1, v.2.2.2.2.2) := by
  unfold process
  have h0 : ¬ st.m_num_partitions = 0 := by omega
  simp only [h0, if_false]
  rw [← hr, hv]
  rfl

/-- The split of one `process` call into two, with the facts about the intermediate
convolver that later proofs need. -/
theorem process_split_aux [Field R] (K : FFTKernel R) (W : Nat) (rnd : Nat)
    (st : convolve_partitioned R) (inp : Nat → R) (in_pos : Nat) (out : Nat → R)
    (out_pos N1 N2 : Nat) (accumulate : Bool)
    (hlg : 1 ≤ st.m_fft_size_log2) (hnum : 1 ≤ st.m_num_partitions) :
    ∃ st1 out1 st2 out2,
      process K W rnd st inp in_pos out out_pos N1 accumulate = some (st1, out1) ∧
      process K W rnd st1 inp (in_pos + N1) out1 (out_pos + N1) N2 accumulate
        = some (st2, out2) ∧
      process K W rnd st inp in_pos out out_pos (N1 + N2) accumulate = some (st2, out2) ∧
      st1.m_fft_size_log2 = st.m_fft_size_log2 ∧
      st1.m_num_partitions = st.m_num_partitions := by
  set r := (if st.m_reset_flag then process_reset rnd st else (st, st.m_rw_counter)) with hr
  have hrf : r.1.m_fft_size_log2 = st.m_fft_size_log2 ∧
      r.1.m_num_partitions = st.m_num_partitions ∧ r.1.m_reset_flag = false := by
    rw [hr]
    by_cases hf : st.m_reset_flag = true
    · simp only [hf, if_true]; exact process_reset_fields rnd st
    · simp only [hf, if_false]
      exact ⟨rfl, rfl, by simpa using hf⟩
  obtain ⟨hr1, hr2, hr3⟩ := hrf
  obtain ⟨v1, hv1, hv1rem, hv1lg, hv1num, hv1flag, hv1ip, hv1op⟩ :=
    process_loop_total K W inp accumulate N1 r.1 r.2 in_pos out_pos out (by rw [hr1]; exact hlg)
      (by rw [hr2]; exact hnum)
  obtain ⟨v2, hv2, -⟩ :=
    process_loop_total K W inp accumulate N2 v1.1 v1.2.1 v1.2.2.2.1 v1.2.2.2.2.1 v1.2.2.2.2.2
      (by rw [hv1lg, hr1]; exact hlg) (by rw [hv1num, hr2]; exact hnum)
  have h12 := process_loop_split K W inp accumulate N1 r.1 r.2 N2 in_pos out_pos out
    (by rw [hr1]; exact hlg) (by rw [hr2]; exact hnum) v1 v2 hv1 hv2 (N1 + N2) (le_refl _)
  refine ⟨with_rw v1.1 v1.2.1, v1.2.2.2.2.2, with_rw v2.1 v2.2.1, v2.2.2.2.2.2, ?_, ?_, ?_,
    (by show v1.1.m_fft_size_log2 = st.m_fft_size_log2; rw [hv1lg, hr1]),
    (by show v1.1.m_num_partitions = st.m_num_partitions; rw [hv1num, hr2])⟩
  · exact process_eq K W rnd st inp in_pos out out_pos N1 accumulate hnum r hr v1
      (hv1 N1 (le_refl _))
  · have hw := process_loop_with_rw K W inp accumulate v1.2.1 N2 v1.1 v1.2.1 v1.2.2.2.1
      v1.2.2.2.2.1 v1.2.2.2.2.2 (by rw [hv1lg, hr1]; exact hlg)
      (by rw [hv1num, hr2]; exact hnum) v2 hv2 N2 (le_refl _)
    rw [hv1ip, hv1op] at hw
    have hflag : (with_rw v1.1 v1.2.1).m_reset_flag = false := by
      show v1.1.m_reset_flag = false
      rw [hv1flag, hr3]
    have := process_eq K W rnd (with_rw v1.1 v1.2.1) inp (in_pos + N1) v1.2.2.2.2.2
      (out_pos + N1) N2 accumulate
      (by show 1 ≤ v1.1.m_num_partitions; rw [hv1num, hr2]; exact hnum)
      (with_rw v1.1 v1.2.1, v1.2.1)
      (by rw [hflag]; rfl)
      (with_rw v2.1 v1.2.1, v2.2) hw
    exact this
  · exact process_eq K W rnd st inp in_pos out out_pos (N1 + N2) accumulate hnum r hr v2 h12

/-- C2: for every convolver with FFT size at least 2 and `m_num_partitions ≥ 1`, every input
stream and every split `N = N1 + N2`, one `process` call on `N` samples returns the same
output array and the same final convolver (counters, rings, input history, accumulator) as a
call on the first `N1` samples followed by a call on the remaining `N2` samples; all three
calls terminate. The reset offset (or the value drawn for a negative one) is the same in
both runs. -/
theorem process_split [Field R] (K : FFTKernel R) (W : Nat) (rnd : Nat)
    (st : convolve_partitioned R) (inp : Nat → R) (in_pos : Nat) (out : Nat → R)
    (out_pos N1 N2 : Nat) (accumulate : Bool)
    (hlg : 1 ≤ st.m_fft_size_log2) (hnum : 1 ≤ st.m_num_partitions) :
    ∃ st1 out1 st2 out2,
      process K W rnd st inp in_pos out out_pos N1 accumulate = some (st1, out1) ∧
      process K W rnd st1 inp (in_pos + N1) out1 (out_pos + N1) N2 accumulate
        = some (st2, out2) ∧
      process K W rnd st inp in_pos out out_pos (N1 + N2) accumulate = some (st2, out2) := by
  obtain ⟨st1, out1, st2, out2, h1, h2, h3, -⟩ :=
    process_split_aux K W rnd st inp in_pos out out_pos N1 N2 accumulate hlg hnum
  exact ⟨st1, out1, st2, out2, h1, h2, h3⟩

/-- C2 witness: 7 samples through a convolver of FFT size 32, as 3 + 4. -/
theorem process_split_witness :
    ∃ st1 out1 st2 out2,
      process unzip_kernel 1 0
          { zero_state with m_fft_size_log2 := 5, m_max_fft_size_log2 := 5,
                            m_num_partitions := 1, m_reset_flag := true }
          (fun i => (i : ℚ)) 0 (fun _ => 0) 0 3 false = some (st1, out1) ∧
      process unzip_kernel 1 0 st1 (fun i => (i : ℚ)) (0 + 3) out1 (0 + 3) 4 false
        = some (st2, out2) ∧
      process unzip_kernel 1 0
          { zero_state with m_fft_size_log2 := 5, m_max_fft_size_log2 := 5,
                            m_num_partitions := 1, m_reset_flag := true }
          (fun i => (i : ℚ)) 0 (fun _ => 0) 0 (3 + 4) false = some (st2, out2) :=
  process_split unzip_kernel 1 0
    { zero_state with m_fft_size_log2 := 5, m_max_fft_size_log2 := 5,
                      m_num_partitions := 1, m_reset_flag := true }
    (fun i => (i : ℚ)) 0 (fun _ => 0) 0 3 4 false (by decide) (by decide)

/-- Block-size independence: any non-empty sequence of `process` calls on consecutive blocks
equals one call on the whole stretch. -/
theorem process_seq_eq_process [Field R] (K : FFTKernel R) (W : Nat) (rnd : Nat)
    (inp : Nat → R) (accumulate : Bool) :
    ∀ (ns : List Nat) (n : Nat) (st : convolve_partitioned R) (pos : Nat) (out : Nat → R),
      1 ≤ st.m_fft_size_log2 → 1 ≤ st.m_num_partitions →
      process_seq K W rnd inp accumulate (n :: ns) st pos out
        = process K W rnd st inp pos out pos (n + ns.sum) accumulate := by
  intro ns
  induction ns with
  | nil =>
    intro n st pos out _ _
    simp only [process_seq, List.sum_nil, Nat.add_zero]
    cases process K W rnd st inp pos out pos n accumulate <;> rfl
  | cons m ms ih =>
    intro n st pos out hlg hnum
    obtain ⟨st1, out1, st2, out2, h1, h2, h3, h4, h5⟩ :=
      process_split_aux K W rnd st inp pos out pos n (m + ms.sum) accumulate hlg hnum
    rw [process_seq, h1]
    simp only [List.sum_cons]
    rw [ih m st1 (pos + n) out1 (by rw [h4]; exact hlg) (by rw [h5]; exact hnum), h2, h3]

/-! ### Linear convolution by `process` (C1) -/

theorem omega_isPrimitiveRoot (F : Nat) (hF : F ≠ 0) : IsPrimitiveRoot (omega F) F := by
  have h := Complex.isPrimitiveRoot_exp F hF
  have e : omega F = (Complex.exp (2 * Real.pi * Complex.I / F))⁻¹ := by
    unfold omega
    rw [← Complex.exp_neg]
    congr 1
    ring
  rw [e]
  exact IsPrimitiveRoot.inv_iff.mpr h

theorem omega_ne_zero (F : Nat) : omega F ≠ 0 := Complex.exp_ne_zero _

theorem cexp_pos_eq (F k n : Nat) :
    Complex.exp (2 * Real.pi * Complex.I * k * n / F) = (omega F ^ (k * n))⁻¹ := by
  unfold omega
  rw [← Complex.exp_nat_mul, ← Complex.exp_neg]
  congr 1
  push_cast
  ring

/-- orthogonality of the powers of `omega F` -/
theorem omega_orthogonal (F : Nat) (hF : 0 < F) (a n : Nat) :
    ∑ k in Finset.range F, omega F ^ (a * k) * (omega F ^ (k * n))⁻¹
      = if a % F = n % F then (F : ℂ) else 0 := by
  have hprim := omega_isPrimitiveRoot F (by omega)
  have hne := omega_ne_zero F
  set u : ℂ := omega F ^ a * (omega F ^ n)⁻¹ with hu
  have hterm : ∀ k, omega F ^ (a * k) * (omega F ^ (k * n))⁻¹ = u ^ k := by
    intro k
    rw [hu, mul_pow, inv_pow, ← pow_mul, ← pow_mul, Nat.mul_comm n k]
  simp only [hterm]
  have hu1 : u = 1 ↔ a % F = n % F := by
    have : u = omega F ^ ((a : ℤ) - (n : ℤ)) := by
      rw [hu, zpow_sub₀ hne, zpow_natCast, zpow_natCast, div_eq_mul_inv]
    rw [this, hprim.zpow_eq_one_iff_dvd]
    constructor
    · intro h
      have h2 : ((a : ℤ) - n) % F = 0 := Int.emod_eq_zero_of_dvd h
      have h3 : (a : ℤ) % F = (n : ℤ) % F := by
        have := Int.emod_eq_emod_iff_emod_sub_eq_zero.mpr h2
        exact this
      exact_mod_cast h3
    · intro h
      have h3 : (a : ℤ) % F = (n : ℤ) % F := by exact_mod_cast h
      exact Int.dvd_of_emod_eq_zero (Int.emod_eq_emod_iff_emod_sub_eq_zero.mp h3)
  by_cases h : a % F = n % F
  · rw [if_pos h, hu1.mpr h]
    simp
  · rw [if_neg h]
    have hu_ne : u ≠ 1 := fun e => h (hu1.mp e)
    rw [geom_sum_eq hu_ne]
    have huF : u ^ F = 1 := by
      rw [hu, mul_pow, inv_pow, ← pow_mul, ← pow_mul, Nat.mul_comm a F, Nat.mul_comm n F,
        pow_mul, pow_mul, hprim.pow_eq_one, one_pow, one_pow, inv_one, mul_one]
    rw [huF, sub_self, zero_div]

/-- the circular convolution theorem for the unnormalised transform pair -/
theorem dft_mul_inverse (F : Nat) (hF : 0 < F) (a b : Nat → ℂ) (n : Nat) (hn : n < F) :
    ∑ k in Finset.range F,
        dft F a k * dft F b k * Complex.exp (2 * Real.pi * Complex.I * k * n / F)
      = (F : ℂ) * ∑ m in Finset.range F, b m * a ((n + F - m) % F) := by
  simp only [dft_eq_omega, cexp_pos_eq]
  have h1 : ∀ k ∈ Finset.range F,
      (∑ p in Finset.range F, a p * omega F ^ (p * k))
        * (∑ m in Finset.range F, b m * omega F ^ (m * k)) * (omega F ^ (k * n))⁻¹
      = ∑ m in Finset.range F, ∑ p in Finset.range F,
          b m * a p * (omega F ^ ((p + m) * k) * (omega F ^ (k * n))⁻¹) := by
    intro k _
    rw [Finset.sum_mul_sum, Finset.sum_mul, Finset.sum_comm]
    apply Finset.sum_congr rfl
    intro m _
    rw [Finset.sum_mul]
    apply Finset.sum_congr rfl
    intro p _
    rw [Nat.add_mul, pow_add]
    ring
  rw [Finset.sum_congr rfl h1, Finset.sum_comm, Finset.mul_sum]
  apply Finset.sum_congr rfl
  intro m hm
  rw [Finset.sum_comm]
  have h2 : ∀ p ∈ Finset.range F,
      ∑ k in Finset.range F, b m * a p * (omega F ^ ((p + m) * k) * (omega F ^ (k * n))⁻¹)
        = b m * a p * (if (p + m) % F = n % F then (F : ℂ) else 0) := by
    intro p _
    rw [← Finset.mul_sum, omega_orthogonal F hF]
  rw [Finset.sum_congr rfl h2]
  have hm' : m < F := Finset.mem_range.mp hm
  have h3 : ∀ p ∈ Finset.range F,
      b m * a p * (if (p + m) % F = n % F then (F : ℂ) else 0)
        = if p = (n + F - m) % F then (F : ℂ) * (b m * a ((n + F - m) % F)) else 0 := by
    intro p hp
    have hp' : p < F := Finset.mem_range.mp hp
    have hiff : (p + m) % F = n % F ↔ p = (n + F - m) % F := by
      rw [Nat.mod_eq_of_lt hn]
      constructor
      · intro h
        rcases Nat.lt_or_ge (p + m) F with h4 | h4
        · rw [Nat.mod_eq_of_lt h4] at h
          have : n + F - m = p + F := by omega
          rw [this, Nat.add_mod_right, Nat.mod_eq_of_lt hp']
        · have h5 : (p + m) % F = p + m - F := by
            rw [Nat.mod_eq_sub_mod h4, Nat.mod_eq_of_lt (by omega)]
          rw [h5] at h
          have : n + F - m = p := by omega
          rw [this, Nat.mod_eq_of_lt hp']
      · intro h
        rcases Nat.lt_or_ge n m with h4 | h4
        · have h5 : (n + F - m) % F = n + F - m := Nat.mod_eq_of_lt (by omega)
          rw [h5] at h
          subst h
          have : n + F - m + m = n + F := by omega
          rw [this, Nat.add_mod_right, Nat.mod_eq_of_lt hn]
        · have h5 : (n + F - m) % F = n - m := by
            have : n + F - m = (n - m) + F := by omega
            rw [this, Nat.add_mod_right, Nat.mod_eq_of_lt (by omega)]
          rw [h5] at h
          subst h
          have : n - m + m = n := by omega
          rw [this, Nat.mod_eq_of_lt hn]
    by_cases hc : (p + m) % F = n % F
    · rw [if_pos hc, if_pos (hiff.mp hc), ← hiff.mp hc]; ring
    · rw [if_neg hc, if_neg (fun e => hc (hiff.mpr e))]; ring
  rw [Finset.sum_congr rfl h3, Finset.sum_ite_eq']
  rw [if_pos (Finset.mem_range.mpr (Nat.mod_lt _ hF))]

theorem omega_conj (F : Nat) : (starRingEnd ℂ) (omega F) = (omega F)⁻¹ := by
  unfold omega
  rw [← Complex.exp_conj, ← Complex.exp_neg]
  congr 1
  simp only [map_div₀, map_mul, map_neg, Complex.conj_I, Complex.conj_ofReal, map_ofNat,
    Complex.conj_natCast]
  ring

theorem dft_conj (F : Nat) (hF : 0 < F) (a : Nat → ℝ) (k : Nat) (hk : k < F) :
    (starRingEnd ℂ) (dft F (fun n => ((a n : ℝ) : ℂ)) k)
      = dft F (fun n => ((a n : ℝ) : ℂ)) ((F - k) % F) := by
  rw [dft_eq_omega, dft_eq_omega, map_sum]
  apply Finset.sum_congr rfl
  intro n _
  rw [map_mul, Complex.conj_ofReal, map_pow, omega_conj]
  congr 1
  have hne := omega_ne_zero F
  have h1 : omega F ^ (n * ((F - k) % F)) * omega F ^ (n * k) = 1 := by
    rw [← pow_add, ← Nat.mul_add]
    rcases Nat.eq_zero_or_pos k with h0 | hpos
    · subst h0
      simp
    · rw [Nat.mod_eq_of_lt (by omega)]
      have : F - k + k = F := by omega
      rw [this, Nat.mul_comm, pow_mul, omega_pow_self F hF, one_pow]
  rw [inv_pow]
  exact (eq_inv_of_mul_eq_one_left h1).symm

theorem dft_real_of_self_conj (F : Nat) (hF : 0 < F) (a : Nat → ℝ) (k : Nat) (hk : k < F)
    (h : (F - k) % F = k) : (dft F (fun n => ((a n : ℝ) : ℂ)) k).im = 0 := by
  have := dft_conj F hF a k hk
  rw [h] at this
  exact Complex.conj_eq_iff_im.mp this

theorem herm_exact_rfft (lg : Nat) (hlg : 1 ≤ lg) (a : Nat → ℝ) (k : Nat) (hk : k < 2 ^ lg) :
    herm (2 ^ lg) (exact_rfft lg a) k = 2 * dft (2 ^ lg) (fun n => ((a n : ℝ) : ℂ)) k := by
  have hF : 0 < 2 ^ lg := pow_pos (by norm_num) lg
  obtain ⟨m, rfl⟩ : ∃ m, lg = m + 1 := ⟨lg - 1, by omega⟩
  have hhalf : 2 ^ (m + 1) / 2 = 2 ^ m := by rw [pow_succ]; simp
  have hFeq : 2 ^ (m + 1) = 2 ^ m + 2 ^ m := by rw [pow_succ]; ring
  have hmpos : 0 < 2 ^ m := pow_pos (by norm_num) m
  unfold herm
  by_cases h0 : k = 0
  · subst h0
    simp only [if_true, exact_rfft]
    have him := dft_real_of_self_conj (2 ^ (m + 1)) hF a 0 hF (by simp)
    apply Complex.ext
    · simp
    · simp [him]
  · rw [if_neg h0]
    by_cases h1 : k = 2 ^ (m + 1) / 2
    · rw [if_pos h1]
      simp only [exact_rfft, if_true]
      have him := dft_real_of_self_conj (2 ^ (m + 1)) hF a (2 ^ (m + 1) / 2) (by omega)
        (by rw [hhalf, hFeq, Nat.add_sub_cancel, Nat.mod_eq_of_lt (by omega)])
      rw [h1]
      apply Complex.ext
      · simp
      · simp [him]
    · rw [if_neg h1]
      by_cases h2 : k < 2 ^ (m + 1) / 2
      · rw [if_pos h2]
        simp only [exact_rfft, h0, if_false]
        apply Complex.ext <;> simp
      · rw [if_neg h2]
        have hk2 : 2 ^ (m + 1) - k ≠ 0 := by omega
        simp only [exact_rfft, hk2, if_false]
        have hc := dft_conj (2 ^ (m + 1)) hF a (2 ^ (m + 1) - k) (by omega)
        have e : (2 ^ (m + 1) - (2 ^ (m + 1) - k)) % 2 ^ (m + 1) = k := by
          have : 2 ^ (m + 1) - (2 ^ (m + 1) - k) = k := by omega
          rw [this, Nat.mod_eq_of_lt hk]
        rw [e] at hc
        rw [← hc]
        apply Complex.ext <;> simp

theorem herm_packed_mac (half : Nat) (hhalf : 0 < half) (a b out : Split ℝ) (k : Nat)
    (hk : k < 2 * half) :
    herm (2 * half) (packed_mac a b out half) k
      = herm (2 * half) out k + herm (2 * half) a k * herm (2 * half) b k := by
  have hdiv : 2 * half / 2 = half := by omega
  unfold herm packed_mac
  rw [hdiv]
  by_cases h0 : k = 0
  · subst h0
    simp only [if_true, hhalf]
    push_cast
    ring
  · simp only [h0, if_false]
    by_cases h1 : k = half
    · simp only [h1, if_true, hhalf]
      push_cast
      ring
    · simp only [h1, if_false]
      by_cases h2 : k < half
      · simp only [h2, if_true, h0, if_false]
        apply Complex.ext <;> simp
      · have h3 : 2 * half - k < half := by omega
        have h4 : 2 * half - k ≠ 0 := by omega
        simp only [h2, if_false, h3, if_true, h4]
        apply Complex.ext <;> simp <;> ring

theorem herm_first_bins (half : Nat) (hhalf : 0 < half) (S : Split ℝ) (k : Nat)
    (hk : k < 2 * half) :
    herm (2 * half) (first_bins S half) k = herm (2 * half) S k := by
  have hdiv : 2 * half / 2 = half := by omega
  unfold herm first_bins first_n
  rw [hdiv]
  by_cases h0 : k = 0
  · simp [h0, hhalf]
  · by_cases h1 : k = half
    · simp [h0, h1, hhalf]
    · by_cases h2 : k < half
      · simp [h0, h1, h2]
      · have h3 : 2 * half - k < half := by omega
        simp [h0, h1, h2, h3]

theorem herm_zero (F : Nat) (k : Nat) : herm F ⟨fun _ => 0, fun _ => 0⟩ k = 0 := by
  unfold herm
  split_ifs <;> simp <;> rfl

theorem vec_mac_eq {R : Type} [Add R] [Sub R] [Mul R] (W : Nat) (a b out : Split R) (v : Nat) :
    vec_mac W a b out v = mac_range a b out (v * W) (v * W + W) := rfl

theorem mac_range_merge {R : Type} [Add R] [Sub R] [Mul R] (a b out : Split R) (l m h : Nat)
    (h1 : l ≤ m) (h2 : m ≤ h) :
    mac_range a b (mac_range a b out l m) m h = mac_range a b out l h := by
  unfold mac_range
  ext e
  · dsimp only
    by_cases c1 : l ≤ e ∧ e < m
    · have c2 : ¬ (m ≤ e ∧ e < h) := by omega
      have c3 : l ≤ e ∧ e < h := by omega
      simp only [if_pos c1, if_neg c2, if_pos c3]
    · by_cases c2 : m ≤ e ∧ e < h
      · have c3 : l ≤ e ∧ e < h := by omega
        simp only [if_neg c1, if_pos c2, if_pos c3]
      · have c3 : ¬ (l ≤ e ∧ e < h) := by omega
        simp only [if_neg c1, if_neg c2, if_neg c3]
  · dsimp only
    by_cases c1 : l ≤ e ∧ e < m
    · have c2 : ¬ (m ≤ e ∧ e < h) := by omega
      have c3 : l ≤ e ∧ e < h := by omega
      simp only [if_pos c1, if_neg c2, if_pos c3]
    · by_cases c2 : m ≤ e ∧ e < h
      · have c3 : l ≤ e ∧ e < h := by omega
        simp only [if_neg c1, if_pos c2, if_pos c3]
      · have c3 : ¬ (l ≤ e ∧ e < h) := by omega
        simp only [if_neg c1, if_neg c2, if_neg c3]

theorem process_partition_loop_spec {R : Type} [Add R] [Sub R] [Mul R] (W : Nat)
    (a b : Split R) (q : Nat) :
    ∀ (fuel j : Nat) (out : Split R), j ≤ q → q - j ≤ fuel →
      process_partition_loop W a b (4 * q) fuel (4 * j) out
        = mac_range a b out (4 * j * W) (4 * q * W) := by
  intro fuel
  induction fuel with
  | zero =>
    intro j out hj hf
    have : j = q := by omega
    subst this
    unfold process_partition_loop mac_range
    ext e <;> dsimp only <;> rw [if_neg (by omega)]
  | succ n ih =>
    intro j out hj hf
    rw [process_partition_loop]
    by_cases hlt : 4 * j + 3 < 4 * q
    · rw [if_pos hlt]
      dsimp only
      have e4 : 4 * j + 4 = 4 * (j + 1) := by ring
      rw [e4, ih (j + 1) _ (by omega) (by omega)]
      simp only [vec_mac_eq, Nat.add_zero]
      have b1 : (4 * j + 1) * W = 4 * j * W + W := by ring
      have b2 : (4 * j + 2) * W = 4 * j * W + W + W := by ring
      have b3 : (4 * j + 3) * W = 4 * j * W + W + W + W := by ring
      have b4 : 4 * (j + 1) * W = 4 * j * W + W + W + W + W := by ring
      have hle : 4 * (j + 1) * W ≤ 4 * q * W := Nat.mul_le_mul_right _ (by omega)
      rw [b4] at hle
      rw [b1, b2, b3, b4]
      generalize 4 * j * W = A at hle ⊢
      generalize 4 * q * W = Q at hle ⊢
      rw [mac_range_merge a b out A (A + W) (A + W + W) (by omega) (by omega),
        mac_range_merge a b out A (A + W + W) (A + W + W + W) (by omega) (by omega),
        mac_range_merge a b out A (A + W + W + W) (A + W + W + W + W) (by omega) (by omega),
        mac_range_merge a b out A (A + W + W + W + W) Q (by omega) hle]
    · rw [if_neg hlt]
      have : j = q := by omega
      subst this
      unfold mac_range
      ext e <;> dsimp only <;> rw [if_neg (by omega)]

theorem process_partition_spec {R : Type} [Field R] (W : Nat) (a b out : Split R) (half : Nat)
    (hW : 0 < W) (hhalf : 0 < half) (hdiv : 4 * W ∣ half) :
    process_partition W a b out half = (a, b, packed_mac a b out half) := by
  obtain ⟨q, hq⟩ := hdiv
  have hnv : half / W = 4 * q := by
    rw [hq]
    have : 4 * W * q = W * (4 * q) := by ring
    rw [this, Nat.mul_div_cancel_left _ hW]
  have hend : 4 * q * W = half := by rw [hq]; ring
  unfold process_partition
  simp only [hnv]
  have hl := process_partition_loop_spec W
    { a with imagp := Function.update a.imagp 0 0 }
    { b with imagp := Function.update b.imagp 0 0 } q q 0
    { out with imagp := Function.update out.imagp 0 (out.imagp 0 + a.imagp 0 * b.imagp 0) }
    (Nat.zero_le _) (by omega)
  have hl2 : process_partition_loop W { a with imagp := Function.update a.imagp 0 0 }
      { b with imagp := Function.update b.imagp 0 0 } (4 * q) (4 * q) 0
      { out with imagp := Function.update out.imagp 0 (out.imagp 0 + a.imagp 0 * b.imagp 0) }
      = mac_range { a with imagp := Function.update a.imagp 0 0 }
        { b with imagp := Function.update b.imagp 0 0 }
        { out with imagp := Function.update out.imagp 0 (out.imagp 0 + a.imagp 0 * b.imagp 0) }
        0 half := by
    have h0 : 4 * 0 = 0 := rfl
    have := process_partition_loop_spec W
      { a with imagp := Function.update a.imagp 0 0 }
      { b with imagp := Function.update b.imagp 0 0 } q (4 * q) 0
      { out with imagp := Function.update out.imagp 0 (out.imagp 0 + a.imagp 0 * b.imagp 0) }
      (Nat.zero_le _) (by omega)
    rw [h0, hend] at this
    simpa using this
  rw [hl2]
  refine Prod.ext ?_ (Prod.ext ?_ ?_)
  · ext e <;> simp
  · ext e <;> simp
  · unfold mac_range packed_mac
    ext e
    · dsimp only
      by_cases he : e < half
      · by_cases h0 : e = 0
        · subst h0
          simp [hhalf]
        · simp [he, h0, Function.update_noteq h0]
      · simp [he]
    · dsimp only
      by_cases he : e < half
      · by_cases h0 : e = 0
        · subst h0
          simp [hhalf]
        · simp [he, h0, Function.update_noteq h0]
      · have h0 : e ≠ 0 := by omega
        simp [he, Function.update_noteq h0]

theorem write_back_self {R : Type} (buf : Split R) (off : Nat) :
    write_back buf off (offset_split_pointer buf off) = buf := by
  unfold write_back offset_split_pointer
  ext i
  · dsimp only
    split_ifs with h
    · congr 1; omega
    · rfl
  · dsimp only
    split_ifs with h
    · congr 1; omega
    · rfl

theorem sched_step_bufs {R : Type} [Field R] (W half : Nat) (st : convolve_partitioned R)
    (hW : 0 < W) (hhalf : 0 < half) (hdiv : 4 * W ∣ half) :
    (sched_step W half st).m_input_buffer = st.m_input_buffer ∧
    (sched_step W half st).m_impulse_buffer = st.m_impulse_buffer ∧
    (sched_step W half st).m_accum_buffer =
      packed_mac
        (offset_split_pointer st.m_input_buffer
          ((if st.m_last_partition < st.m_num_partitions then st.m_last_partition else 0) * half))
        (offset_split_pointer st.m_impulse_buffer ((st.m_partitions_done + 1) * half))
        st.m_accum_buffer half := by
  unfold sched_step partition_mac
  dsimp only
  rw [process_partition_spec W _ _ _ half hW hhalf hdiv]
  dsimp only
  exact ⟨write_back_self _ _, write_back_self _ _, rfl⟩

theorem sched_iter_bufs {R : Type} [Field R] (W half : Nat)
    (hW : 0 < W) (hhalf : 0 < half) (hdiv : 4 * W ∣ half) (k : Nat)
    (st : convolve_partitioned R) :
    ((sched_step W half)^[k] st).m_input_buffer = st.m_input_buffer ∧
    ((sched_step W half)^[k] st).m_impulse_buffer = st.m_impulse_buffer := by
  induction k with
  | zero => exact ⟨rfl, rfl⟩
  | succ n ih =>
    rw [Function.iterate_succ_apply']
    obtain ⟨h1, h2, -⟩ := sched_step_bufs W half ((sched_step W half)^[n] st) hW hhalf hdiv
    exact ⟨h1.trans ih.1, h2.trans ih.2⟩

theorem get_fft_size_eq {R : Type} (st : convolve_partitioned R) :
    get_fft_size st = 2 ^ st.m_fft_size_log2 := by
  unfold get_fft_size
  rw [Nat.one_shiftLeft]

theorem and_mask (x lg : Nat) : x &&& (2 ^ lg - 1) = x % 2 ^ lg := Nat.and_pow_two_sub_one_eq_mod x lg

theorem fft_step_closed {R : Type} [Field R] (K : FFTKernel R) (W : Nat)
    (S : convolve_partitioned R) (x : Nat) (hlg : 1 ≤ S.m_fft_size_log2)
    (hW : 0 < W) (hdiv : 4 * W ∣ 2 ^ (S.m_fft_size_log2 - 1)) :
    (fft_step K W S x).2 = x % 2 ^ S.m_fft_size_log2 ∧
    (fft_step K W S x).1.m_input_buffer =
      store_bins S.m_input_buffer (S.m_input_position * 2 ^ (S.m_fft_size_log2 - 1))
        (2 ^ (S.m_fft_size_log2 - 1))
        (K.rfft S.m_fft_size_log2
          (first_n (if x = 2 ^ S.m_fft_size_log2 then S.m_fft_buffers_1 else S.m_fft_buffers_0)
            (2 ^ S.m_fft_size_log2))) ∧
    (fft_step K W S x).1.m_impulse_buffer = S.m_impulse_buffer ∧
    (∀ k, k < 2 ^ (S.m_fft_size_log2 - 1) →
      (fft_step K W S x).1.m_accum_buffer.realp k = 0 ∧
      (fft_step K W S x).1.m_accum_buffer.imagp k = 0) ∧
    (fft_step K W S x).1.m_fft_buffers_3 =
      scale_store W S.m_fft_buffers_3
        (copy_n (K.rifft S.m_fft_size_log2
          (first_bins
            (packed_mac
              (offset_split_pointer
                (store_bins S.m_input_buffer (S.m_input_position * 2 ^ (S.m_fft_size_log2 - 1))
                  (2 ^ (S.m_fft_size_log2 - 1))
                  (K.rfft S.m_fft_size_log2
                    (first_n
                      (if x = 2 ^ S.m_fft_size_log2 then S.m_fft_buffers_1
                        else S.m_fft_buffers_0)
                      (2 ^ S.m_fft_size_log2))))
                (S.m_input_position * 2 ^ (S.m_fft_size_log2 - 1)))
              S.m_impulse_buffer S.m_accum_buffer (2 ^ (S.m_fft_size_log2 - 1)))
            (2 ^ (S.m_fft_size_log2 - 1)))) 0 (2 ^ S.m_fft_size_log2) S.m_fft_buffers_2 0)
        (2 ^ S.m_fft_size_log2) (decide (x ≠ 2 ^ S.m_fft_size_log2)) ∧
    (fft_step K W S x).1.m_fft_buffers_0 = S.m_fft_buffers_0 ∧
    (fft_step K W S x).1.m_fft_buffers_1 = S.m_fft_buffers_1 ∧
    (fft_step K W S x).1.m_valid_partitions = min S.m_num_partitions (S.m_valid_partitions + 1) ∧
    (fft_step K W S x).1.m_input_position =
      (if S.m_input_position ≠ 0 then S.m_input_position - 1 else S.m_num_partitions - 1) ∧
    (fft_step K W S x).1.m_last_partition =
      (if S.m_input_position ≠ 0 then S.m_input_position - 1 else S.m_num_partitions - 1) + 1 ∧
    (fft_step K W S x).1.m_partitions_done = 0 := by
  have hhalf : 0 < 2 ^ (S.m_fft_size_log2 - 1) := pow_pos (by norm_num) _
  unfold fft_step
  dsimp only
  rw [get_fft_size_eq, halved_eq _ hlg,
    process_partition_spec W _ _ _ (2 ^ (S.m_fft_size_log2 - 1)) hW hhalf hdiv]
  dsimp only
  rw [write_back_self]
  refine ⟨and_mask _ _, rfl, rfl, ?_, rfl, rfl, rfl, rfl, rfl, rfl, rfl⟩
  intro k hk
  unfold fill_n
  have : 0 ≤ k ∧ k < 0 + 2 ^ (S.m_fft_size_log2 - 1) := by omega
  exact ⟨if_pos this, if_pos this⟩

theorem slot_eq (P s : Nat) (hP : 1 ≤ P) :
    slot P s = if s % P = 0 then 0 else P - s % P := by
  unfold slot
  have hlt : s % P < P := Nat.mod_lt _ (by omega)
  split_ifs with h
  · rw [h, Nat.sub_zero, Nat.mod_self]
  · exact Nat.mod_eq_of_lt (by omega)

theorem slot_lt (P s : Nat) (hP : 1 ≤ P) : slot P s < P := Nat.mod_lt _ (by omega)

theorem slot_zero (P : Nat) : slot P 0 = 0 := by
  unfold slot
  rw [Nat.zero_mod, Nat.sub_zero, Nat.mod_self]

theorem succ_mod_cases (P s : Nat) (hP : 1 ≤ P) :
    (s + 1) % P = if s % P + 1 = P then 0 else s % P + 1 := by
  have hlt : s % P < P := Nat.mod_lt _ (by omega)
  by_cases h1 : P = 1
  · subst h1
    rw [Nat.mod_one, Nat.mod_one]
    rfl
  · rw [Nat.add_mod, Nat.mod_eq_of_lt (show 1 < P by omega)]
    split_ifs with h
    · rw [h, Nat.mod_self]
    · exact Nat.mod_eq_of_lt (by omega)

theorem slot_succ (P t : Nat) (hP : 1 ≤ P) :
    slot P (t + 1) = if slot P t ≠ 0 then slot P t - 1 else P - 1 := by
  rw [slot_eq P (t + 1) hP, slot_eq P t hP, succ_mod_cases P t hP]
  have hlt : t % P < P := Nat.mod_lt _ (by omega)
  by_cases h0 : t % P = 0
  · by_cases h1 : t % P + 1 = P
    · rw [if_pos h1, if_pos rfl, if_pos h0, if_neg (by simp)]
      omega
    · rw [if_neg h1, if_neg (by omega), if_pos h0, if_neg (by simp)]
      omega
  · by_cases h1 : t % P + 1 = P
    · rw [if_pos h1, if_pos rfl, if_neg h0, if_pos (by omega)]
      omega
    · rw [if_neg h1, if_neg (by omega), if_neg h0, if_pos (by omega)]
      omega

theorem slot_wrap (P s : Nat) (hP : 1 ≤ P) :
    (if slot P (s + 1) + 1 < P then slot P (s + 1) + 1 else 0) = slot P s := by
  rw [slot_succ P s hP]
  have := slot_lt P s hP
  split_ifs <;> omega

theorem slot_ne (P s t : Nat) (hP : 1 ≤ P) (hst : s < t) (htP : t < s + P) :
    slot P s ≠ slot P t := by
  have hmod : s % P ≠ t % P := by
    intro h
    have h0 : (t - s) % P = 0 := Nat.sub_mod_eq_zero_of_mod_eq h.symm
    have hd : P ∣ t - s := Nat.dvd_of_mod_eq_zero h0
    have := Nat.le_of_dvd (by omega) hd
    omega
  rw [slot_eq P s hP, slot_eq P t hP]
  have h1 : s % P < P := Nat.mod_lt _ (by omega)
  have h2 : t % P < P := Nat.mod_lt _ (by omega)
  split_ifs <;> omega

theorem bins_eq_packed_mac {R : Type} [Add R] [Sub R] [Mul R] (n : Nat)
    (a a1 b b1 o o1 : Split R) (ha : bins_eq n a a1) (hb : bins_eq n b b1)
    (ho : bins_eq n o o1) :
    bins_eq n (packed_mac a b o n) (packed_mac a1 b1 o1 n) := by
  intro k hk
  have hn : 0 < n := by omega
  unfold packed_mac
  dsimp only
  rw [if_pos hk, if_pos hk, if_pos hk, if_pos hk]
  rw [(ha k hk).1, (ha k hk).2, (hb k hk).1, (hb k hk).2, (ho k hk).1, (ho k hk).2,
    (ha 0 hn).1, (ha 0 hn).2, (hb 0 hn).1, (hb 0 hn).2, (ho 0 hn).1, (ho 0 hn).2]
  exact ⟨rfl, rfl⟩

theorem first_bins_congr {R : Type} [Zero R] (n : Nat) (a b : Split R) (h : bins_eq n a b) :
    first_bins a n = first_bins b n := by
  unfold first_bins first_n
  ext k
  · dsimp only
    split_ifs with hk
    · exact (h k hk).1
    · rfl
  · dsimp only
    split_ifs with hk
    · exact (h k hk).2
    · rfl

/-- The scheduled partitions of hop `t`: after `j` steps the accumulator holds `hop_accum`
and the cursor stands behind the slot of hop `t - j`. -/
theorem sched_iter_accum {R : Type} [Field R] (K : FFTKernel R) (W lg P : Nat)
    (Hs : Nat → Split R) (xv : Nat → R) (t : Nat) (st : convolve_partitioned R)
    (hW : 0 < W) (hdiv : 4 * W ∣ 2 ^ (lg - 1)) (hP : 1 ≤ P)
    (hnum : st.m_num_partitions = P)
    (himp : ∀ q, q < P →
      bins_eq (2 ^ (lg - 1)) (offset_split_pointer st.m_impulse_buffer (q * 2 ^ (lg - 1))) (Hs q))
    (hlast : 1 ≤ t → st.m_last_partition = slot P t + 1)
    (hdone : st.m_partitions_done = 0)
    (hacc : bins_eq (2 ^ (lg - 1)) st.m_accum_buffer ⟨fun _ => 0, fun _ => 0⟩)
    (hhist : ∀ s, s < t → t < s + P →
      bins_eq (2 ^ (lg - 1)) (offset_split_pointer st.m_input_buffer (slot P s * 2 ^ (lg - 1)))
        (K.rfft lg (hop_window xv (2 ^ (lg - 1)) s))) :
    ∀ j, j ≤ t → j < P →
      bins_eq (2 ^ (lg - 1)) ((sched_step W (2 ^ (lg - 1)))^[j] st).m_accum_buffer
        (hop_accum K lg Hs xv t j) ∧
      (1 ≤ t → ((sched_step W (2 ^ (lg - 1)))^[j] st).m_last_partition = slot P (t - j) + 1) := by
  have hhalf : 0 < 2 ^ (lg - 1) := pow_pos (by norm_num) _
  intro j
  induction j with
  | zero =>
    intro _ _
    exact ⟨hacc, hlast⟩
  | succ n ih =>
    intro hjt hjP
    obtain ⟨ih1, ih2⟩ := ih (by omega) (by omega)
    rw [Function.iterate_succ_apply']
    obtain ⟨-, -, hA⟩ := sched_step_bufs W (2 ^ (lg - 1))
      ((sched_step W (2 ^ (lg - 1)))^[n] st) hW hhalf hdiv
    obtain ⟨hB1, hB2⟩ := sched_iter_bufs W (2 ^ (lg - 1)) hW hhalf hdiv n st
    have hN := sched_iter_num W (2 ^ (lg - 1)) n st
    have hD := sched_iter_done W (2 ^ (lg - 1)) n st
    have ht1 : 1 ≤ t := by omega
    have hL := ih2 ht1
    have hnext : (if ((sched_step W (2 ^ (lg - 1)))^[n] st).m_last_partition
          < ((sched_step W (2 ^ (lg - 1)))^[n] st).m_num_partitions
        then ((sched_step W (2 ^ (lg - 1)))^[n] st).m_last_partition else 0)
        = slot P (t - (n + 1)) := by
      rw [hL, hN, hnum]
      have e : t - n = (t - (n + 1)) + 1 := by omega
      rw [e]
      exact slot_wrap P (t - (n + 1)) hP
    constructor
    · rw [hA, hnext, hB1, hB2, hD, hdone, Nat.zero_add]
      exact bins_eq_packed_mac _ _ _ _ _ _ _
        (hhist (t - (n + 1)) (by omega) (by omega)) (himp (n + 1) hjP) ih1
    · intro _
      rw [sched_step_last, hnext]

theorem two_pow_eq_double (lg : Nat) (hlg : 1 ≤ lg) : 2 ^ lg = 2 * 2 ^ (lg - 1) := by
  obtain ⟨m, rfl⟩ : ∃ m, lg = m + 1 := ⟨lg - 1, by omega⟩
  rw [Nat.add_sub_cancel, pow_succ]
  ring

theorem parity_mul_add_mod (t H ρ : Nat) (hρ : ρ < H) : (t % 2 * H + ρ) % H = ρ := by
  rw [Nat.add_comm, Nat.add_mul_mod_self_right, Nat.mod_eq_of_lt hρ]

/-- the window read by the transform at the end of hop `t` -/
theorem hop_window_eq {R : Type} [Zero R] (xv inp b0 b1 : Nat → R) (lg t r ρ ip : Nat)
    (hlg : 1 ≤ lg) (hρ : ρ = if t = 0 then r else 0) (hr : r < 2 ^ (lg - 1))
    (h0 : t % 2 = 0 → ∀ i, i < 2 ^ (lg - 1) →
      b0 (2 ^ (lg - 1) + i) = if t = 0 then 0 else xv ((t - 1) * 2 ^ (lg - 1) + i))
    (h1 : t % 2 = 1 → ∀ i, i < 2 ^ (lg - 1) →
      b1 (2 ^ (lg - 1) + i) = xv ((t - 1) * 2 ^ (lg - 1) + i))
    (hs : t = 0 → ∀ i, i < r → b0 i = xv i ∧ b1 (2 ^ (lg - 1) + i) = xv i)
    (hx : ∀ i, i < 2 ^ (lg - 1) - ρ → inp (ip + i) = xv (t * 2 ^ (lg - 1) + ρ + i)) :
    first_n
      (if t % 2 * 2 ^ (lg - 1) + ρ + (2 ^ (lg - 1) - ρ) = 2 ^ lg then
        copy_n inp ip (2 ^ (lg - 1) - ρ) b1
          ((t % 2 * 2 ^ (lg - 1) + ρ + 2 ^ (lg - 1)) % 2 ^ lg)
      else copy_n inp ip (2 ^ (lg - 1) - ρ) b0 (t % 2 * 2 ^ (lg - 1) + ρ)) (2 ^ lg)
      = hop_window xv (2 ^ (lg - 1)) t := by
  have hF := two_pow_eq_double lg hlg
  have hH : 0 < 2 ^ (lg - 1) := pow_pos (by norm_num) _
  have hρlt : ρ < 2 ^ (lg - 1) := by rw [hρ]; split_ifs <;> omega
  rcases Nat.mod_two_eq_zero_or_one t with hpar | hpar
  · -- even hop: ring 0
    have hne : ¬ (t % 2 * 2 ^ (lg - 1) + ρ + (2 ^ (lg - 1) - ρ) = 2 ^ lg) := by
      rw [hpar, hF]; omega
    rw [if_neg hne, hpar, Nat.zero_mul, Nat.zero_add]
    funext i
    unfold first_n copy_n hop_window
    by_cases hi1 : i < 2 ^ (lg - 1)
    · have hiF : i < 2 ^ lg := by omega
      rw [if_pos hiF, if_pos hi1]
      by_cases hi2 : ρ ≤ i
      · rw [if_pos (by omega), hx (i - ρ) (by omega)]
        congr 1
        omega
      · rw [if_neg (by omega)]
        have ht0 : t = 0 := by
          by_contra hne0
          rw [if_neg hne0] at hρ
          omega
        rw [if_pos ht0] at hρ
        subst ht0
        rw [(hs rfl i (by omega)).1, Nat.zero_mul, Nat.zero_add]
    · rw [if_neg hi1]
      by_cases hiF : i < 2 ^ lg
      · rw [if_pos hiF, if_neg (by omega)]
        have := h0 hpar (i - 2 ^ (lg - 1)) (by omega)
        have e : 2 ^ (lg - 1) + (i - 2 ^ (lg - 1)) = i := by omega
        rw [e] at this
        rw [this]
        by_cases ht0 : t = 0
        · rw [if_pos ht0, if_neg (by omega)]
        · rw [if_neg ht0, if_pos (by omega)]
      · rw [if_neg hiF, if_neg (by omega)]
  · -- odd hop: ring 1
    have ht0 : t ≠ 0 := by omega
    rw [if_neg ht0] at hρ
    subst hρ
    have he : t % 2 * 2 ^ (lg - 1) + 0 + (2 ^ (lg - 1) - 0) = 2 ^ lg := by
      rw [hpar, hF]; omega
    have hhi : (t % 2 * 2 ^ (lg - 1) + 0 + 2 ^ (lg - 1)) % 2 ^ lg = 0 := by
      rw [hpar, hF]
      have : 1 * 2 ^ (lg - 1) + 0 + 2 ^ (lg - 1) = 2 * 2 ^ (lg - 1) := by omega
      rw [this, Nat.mod_self]
    rw [if_pos he, hhi]
    funext i
    unfold first_n copy_n hop_window
    by_cases hi1 : i < 2 ^ (lg - 1)
    · have hiF : i < 2 ^ lg := by omega
      rw [if_pos hiF, if_pos hi1, if_pos (by omega), hx (i - 0) (by omega)]
      congr 1
    · rw [if_neg hi1]
      by_cases hiF : i < 2 ^ lg
      · rw [if_pos hiF, if_neg (by omega), if_pos (by omega)]
        have := h1 hpar (i - 2 ^ (lg - 1)) (by omega)
        have e : 2 ^ (lg - 1) + (i - 2 ^ (lg - 1)) = i := by omega
        rw [e] at this
        exact this
      · rw [if_neg hiF, if_neg (by omega)]

theorem sched_todo_boundary (v : Nat) (H : Nat) : (sched_todo v 0 0 H).toNat = v - 1 := by
  unfold sched_todo
  rw [if_pos rfl]
  omega

theorem scale_store_at {R : Type} [Field R] (W : Nat) (out temp : Nat → R) (lg : Nat)
    (hlg : 1 ≤ lg) (hW : 0 < W) (hdiv : 4 * W ∣ 2 ^ (lg - 1)) (offset : Bool) (e : Nat) :
    scale_store W out temp (2 ^ lg) offset e =
      if (if offset then 2 ^ (lg - 1) else 0) ≤ e ∧
          e < (if offset then 2 ^ (lg - 1) else 0) + 2 ^ (lg - 1) then
        temp (e - (if offset then 2 ^ (lg - 1) else 0)) * (1 / ((2 ^ lg <<< 2 : Nat) : R))
      else out e := by
  have hF := two_pow_eq_double lg hlg
  have hcount : 2 ^ lg / (W * 2) * W = 2 ^ (lg - 1) := by
    obtain ⟨q, hq⟩ := hdiv
    rw [hF, hq]
    have : 2 * (4 * W * q) = (W * 2) * (4 * q) := by ring
    rw [this, Nat.mul_div_cancel_left _ (by omega)]
    ring
  unfold scale_store
  simp only [halved_eq lg hlg, hcount]

theorem block_disjoint (a b H k : Nat) (hk : k < H) (hab : a ≠ b) :
    ¬ (b * H ≤ a * H + k ∧ a * H + k < b * H + H) := by
  intro h
  rcases Nat.lt_or_gt_of_ne hab with hlt | hgt
  · have : (a + 1) * H ≤ b * H := Nat.mul_le_mul_right _ hlt
    rw [Nat.add_mul, Nat.one_mul] at this
    omega
  · have : (b + 1) * H ≤ a * H := Nat.mul_le_mul_right _ hgt
    rw [Nat.add_mul, Nat.one_mul] at this
    omega

theorem bins_eq_store_bins {R : Type} (dst src : Split R) (a H : Nat) :
    bins_eq H (offset_split_pointer (store_bins dst a H src) a) src := by
  intro k hk
  unfold offset_split_pointer store_bins copy_n
  dsimp only
  have hc : a ≤ a + k ∧ a + k < a + H := by omega
  rw [if_pos hc, if_pos hc, Nat.add_sub_cancel_left, Nat.zero_add]
  exact ⟨rfl, rfl⟩

/-- the transform block at the end of hop `t` re-establishes the invariant for hop `t + 1` -/
theorem hop_inv_next {R : Type} [Field R] (K : FFTKernel R) (W lg P : Nat) (Hs : Nat → Split R)
    (xv : Nat → R) (r t : Nat) (st S : convolve_partitioned R) (inp : Nat → R)
    (ip : Nat) (ρ : Nat)
    (hlg : 1 ≤ lg) (hW : 0 < W) (hdiv : 4 * W ∣ 2 ^ (lg - 1)) (hP : 1 ≤ P)
    (hr : r < 2 ^ (lg - 1))
    (hinv : HopInv K lg P Hs xv r t st)
    (hρ : ρ = if t = 0 then r else 0)
    (hx : ∀ i, i < 2 ^ (lg - 1) - ρ → inp (ip + i) = xv (t * 2 ^ (lg - 1) + ρ + i))
    (gS_lg : S.m_fft_size_log2 = lg)
    (gS_valid : S.m_valid_partitions = min P (t + 1))
    (gS_b0 : S.m_fft_buffers_0 = copy_n inp ip (2 ^ (lg - 1) - ρ) st.m_fft_buffers_0
      (t % 2 * 2 ^ (lg - 1) + ρ))
    (gS_b1 : S.m_fft_buffers_1 = copy_n inp ip (2 ^ (lg - 1) - ρ) st.m_fft_buffers_1
      ((t % 2 * 2 ^ (lg - 1) + ρ + 2 ^ (lg - 1)) % 2 ^ lg))
    (gS_pos : S.m_input_position = slot P t)
    (gS_num : S.m_num_partitions = P)
    (gS_in : S.m_input_buffer = st.m_input_buffer)
    (gS_imp : S.m_impulse_buffer = st.m_impulse_buffer)
    (hSacc : bins_eq (2 ^ (lg - 1)) S.m_accum_buffer
      (hop_accum K lg Hs xv t (min P (t + 1) - 1))) :
    HopInv K lg P Hs xv r (t + 1)
      (fft_step K W S (t % 2 * 2 ^ (lg - 1) + ρ + (2 ^ (lg - 1) - ρ))).1 := by
  have hF := two_pow_eq_double lg hlg
  have hH : 0 < 2 ^ (lg - 1) := pow_pos (by norm_num) _
  have hρlt : ρ < 2 ^ (lg - 1) := by rw [hρ]; split_ifs <;> omega
  have hpar := Nat.mod_two_eq_zero_or_one t
  have hwin := hop_window_eq xv inp st.m_fft_buffers_0 st.m_fft_buffers_1 lg t r ρ ip hlg hρ hr
      hinv.ring0 hinv.ring1 hinv.start hx
  obtain ⟨-, c_in, c_imp, c_acc, c_b3, c_b0, c_b1, c_valid, c_pos, c_last, c_done⟩ :=
    fft_step_closed K W S (t % 2 * 2 ^ (lg - 1) + ρ + (2 ^ (lg - 1) - ρ))
      (by rw [gS_lg]; exact hlg) hW (by rw [gS_lg]; exact hdiv)
  obtain ⟨c_lg, c_num, -, -, -⟩ :=
    fft_step_fields K W S (t % 2 * 2 ^ (lg - 1) + ρ + (2 ^ (lg - 1) - ρ))
  have d_in : (fft_step K W S (t % 2 * 2 ^ (lg - 1) + ρ + (2 ^ (lg - 1) - ρ))).1.m_input_buffer
      = store_bins st.m_input_buffer (slot P t * 2 ^ (lg - 1)) (2 ^ (lg - 1))
          (K.rfft lg (hop_window xv (2 ^ (lg - 1)) t)) := by
    rw [c_in, gS_lg, gS_b0, gS_b1, gS_pos, gS_in, hwin]
  have d_b3 : (fft_step K W S (t % 2 * 2 ^ (lg - 1) + ρ + (2 ^ (lg - 1) - ρ))).1.m_fft_buffers_3
      = scale_store W S.m_fft_buffers_3
        (copy_n (K.rifft lg
          (first_bins
            (packed_mac
              (offset_split_pointer
                (store_bins st.m_input_buffer (slot P t * 2 ^ (lg - 1)) (2 ^ (lg - 1))
                  (K.rfft lg (hop_window xv (2 ^ (lg - 1)) t)))
                (slot P t * 2 ^ (lg - 1)))
              st.m_impulse_buffer S.m_accum_buffer (2 ^ (lg - 1)))
            (2 ^ (lg - 1)))) 0 (2 ^ lg) S.m_fft_buffers_2 0)
        (2 ^ lg) (decide (t % 2 * 2 ^ (lg - 1) + ρ + (2 ^ (lg - 1) - ρ) ≠ 2 ^ lg)) := by
    rw [c_b3, gS_lg, gS_b0, gS_b1, gS_pos, gS_in, gS_imp, hwin]
  clear c_in c_b3 hwin
  refine ⟨c_lg.trans gS_lg, c_num.trans gS_num, ?_, ?_, ?_, ?_, c_done, ?_, ?_, ?_, ?_, ?_, ?_⟩
  · intro q hq
    rw [c_imp, gS_imp]
    exact hinv.imp q hq
  · rw [c_pos, gS_pos, gS_num, ← slot_succ P t hP]
  · intro _
    rw [c_last, gS_pos, gS_num, ← slot_succ P t hP]
  · rw [c_valid, gS_num, gS_valid]
    omega
  · intro k hk
    exact c_acc k (by rw [gS_lg]; exact hk)
  · intro s hs hsP
    rw [d_in]
    by_cases hst : s = t
    · subst hst
      exact bins_eq_store_bins _ _ _ _
    · have hne : slot P s ≠ slot P t := slot_ne P s t hP (by omega) (by omega)
      intro k hk
      have hold := hinv.hist s (by omega) (by omega) k hk
      unfold offset_split_pointer at hold ⊢
      unfold store_bins copy_n
      dsimp only at hold ⊢
      rw [if_neg (block_disjoint _ _ _ k hk hne), if_neg (block_disjoint _ _ _ k hk hne)]
      exact hold
  · intro hp i hi
    have hodd : t % 2 = 1 := by omega
    have hρ0 : ρ = 0 := by rw [hρ, if_neg (by omega)]
    have e1 : t % 2 * 2 ^ (lg - 1) + ρ = 2 ^ (lg - 1) := by rw [hodd, hρ0]; omega
    rw [c_b0, gS_b0, if_neg (by omega), Nat.add_sub_cancel, e1]
    unfold copy_n
    rw [if_pos (by omega), Nat.add_sub_cancel_left, hx i (by omega), hρ0]
    rfl
  · intro hp i hi
    have hev : t % 2 = 0 := by omega
    have hhi : (t % 2 * 2 ^ (lg - 1) + ρ + 2 ^ (lg - 1)) % 2 ^ lg = ρ + 2 ^ (lg - 1) := by
      rw [hev, Nat.zero_mul, Nat.zero_add]
      exact Nat.mod_eq_of_lt (by omega)
    rw [c_b1, gS_b1, hhi, Nat.add_sub_cancel]
    unfold copy_n
    by_cases hi2 : ρ ≤ i
    · rw [if_pos (by omega), hx (2 ^ (lg - 1) + i - (ρ + 2 ^ (lg - 1))) (by omega)]
      congr 1
      omega
    · rw [if_neg (by omega)]
      have ht0 : t = 0 := by
        by_contra hne0
        rw [if_neg hne0] at hρ
        omega
      subst ht0
      rw [(hinv.start rfl i (by rw [if_pos rfl] at hρ; omega)).2, Nat.zero_mul, Nat.zero_add]
  · intro h0
    omega
  · intro i hi
    rw [if_neg (by omega), Nat.add_sub_cancel, d_b3,
      scale_store_at W _ _ lg hlg hW hdiv]
    have hptr : (if decide (t % 2 * 2 ^ (lg - 1) + ρ + (2 ^ (lg - 1) - ρ) ≠ 2 ^ lg) = true
        then 2 ^ (lg - 1) else 0) = (t + 1) % 2 * 2 ^ (lg - 1) := by
      rcases hpar with hpar | hpar
      · have h2 : (t + 1) % 2 = 1 := by omega
        rw [hpar, h2, Nat.zero_mul, Nat.one_mul, if_pos]
        rw [decide_eq_true_eq, hF]
        omega
      · have h2 : (t + 1) % 2 = 0 := by omega
        have hρ0 : ρ = 0 := by rw [hρ, if_neg (by omega)]
        rw [hpar, h2, Nat.zero_mul, Nat.one_mul, if_neg]
        rw [decide_eq_true_eq, hF, hρ0]
        omega
    rw [hptr, if_pos (by omega), Nat.add_sub_cancel_left]
    unfold hop_output copy_n
    rw [if_pos (by omega), Nat.sub_zero, Nat.zero_add]
    congr 2
    apply first_bins_congr
    unfold hop_total
    apply bins_eq_packed_mac
    · exact bins_eq_store_bins _ _ _ _
    · have := hinv.imp 0 (by omega)
      intro k hk
      have h2 := this k hk
      unfold offset_split_pointer at h2
      dsimp only at h2
      rw [Nat.zero_mul, Nat.zero_add] at h2
      exact h2
    · exact hSacc

theorem hop_step {R : Type} [Field R] (K : FFTKernel R) (W lg P : Nat) (Hs : Nat → Split R)
    (xv : Nat → R) (r t : Nat) (st : convolve_partitioned R) (inp : Nat → R)
    (rem ip op : Nat) (out : Nat → R) (ρ : Nat)
    (hlg : 1 ≤ lg) (hW : 0 < W) (hdiv : 4 * W ∣ 2 ^ (lg - 1)) (hP : 1 ≤ P)
    (hr : r < 2 ^ (lg - 1))
    (hinv : HopInv K lg P Hs xv r t st)
    (hρ : ρ = if t = 0 then r else 0)
    (hrem : 2 ^ (lg - 1) - ρ ≤ rem)
    (hx : ∀ i, i < 2 ^ (lg - 1) - ρ → inp (ip + i) = xv (t * 2 ^ (lg - 1) + ρ + i)) :
    ∃ st1, process_iter_alt K W inp false (st, t % 2 * 2 ^ (lg - 1) + ρ, rem, ip, op, out)
        = (st1, (t + 1) % 2 * 2 ^ (lg - 1), rem - (2 ^ (lg - 1) - ρ), ip + (2 ^ (lg - 1) - ρ),
            op + (2 ^ (lg - 1) - ρ),
            copy_n st.m_fft_buffers_3 (t % 2 * 2 ^ (lg - 1) + ρ) (2 ^ (lg - 1) - ρ) out op) ∧
      HopInv K lg P Hs xv r (t + 1) st1 := by
  have hF := two_pow_eq_double lg hlg
  have hH : 0 < 2 ^ (lg - 1) := pow_pos (by norm_num) _
  have hρlt : ρ < 2 ^ (lg - 1) := by rw [hρ]; split_ifs <;> omega
  have hlgeq := hinv.lg_eq
  have e_mod : (t % 2 * 2 ^ (lg - 1) + ρ) % 2 ^ (lg - 1) = ρ := parity_mul_add_mod _ _ _ hρlt
  have e_c : (t % 2 * 2 ^ (lg - 1) + ρ + (2 ^ (lg - 1) - ρ)) % 2 ^ (lg - 1) = 0 := by
    have : t % 2 * 2 ^ (lg - 1) + ρ + (2 ^ (lg - 1) - ρ) = (t % 2 + 1) * 2 ^ (lg - 1) := by
      rw [Nat.add_mul, Nat.one_mul]; omega
    rw [this, Nat.mul_mod_left]
  have hiter := process_iter_alt_eq K W inp false st (t % 2 * 2 ^ (lg - 1) + ρ) rem ip op out
    (2 ^ (lg - 1)) (2 ^ (lg - 1) - ρ) ((t % 2 * 2 ^ (lg - 1) + ρ + 2 ^ (lg - 1)) % 2 ^ lg) 0
    ((sched_step W (2 ^ (lg - 1)))^[min P (t + 1) - 1]
      (with_io st
        (copy_n inp ip (2 ^ (lg - 1) - ρ) st.m_fft_buffers_0 (t % 2 * 2 ^ (lg - 1) + ρ))
        (copy_n inp ip (2 ^ (lg - 1) - ρ) st.m_fft_buffers_1
          ((t % 2 * 2 ^ (lg - 1) + ρ + 2 ^ (lg - 1)) % 2 ^ lg))))
    _ _ (copy_n st.m_fft_buffers_3 (t % 2 * 2 ^ (lg - 1) + ρ) (2 ^ (lg - 1) - ρ) out op)
    (rem - (2 ^ (lg - 1) - ρ)) (ip + (2 ^ (lg - 1) - ρ)) (op + (2 ^ (lg - 1) - ρ))
    (t % 2 * 2 ^ (lg - 1) + ρ + (2 ^ (lg - 1) - ρ))
    (by rw [hlgeq]) (by rw [e_mod]; exact (min_eq_right hrem).symm) (by rw [hlgeq])
    rfl rfl rfl e_c.symm
    (by rw [hinv.valid, hinv.done, sched_todo_boundary]) rfl rfl rfl rfl
  rw [if_pos rfl] at hiter
  have hd_le_t : min P (t + 1) - 1 ≤ t := by omega
  have hd_lt_P : min P (t + 1) - 1 < P := by omega
  obtain ⟨hSacc, -⟩ := sched_iter_accum K W lg P Hs xv t
    (with_io st
        (copy_n inp ip (2 ^ (lg - 1) - ρ) st.m_fft_buffers_0 (t % 2 * 2 ^ (lg - 1) + ρ))
        (copy_n inp ip (2 ^ (lg - 1) - ρ) st.m_fft_buffers_1
          ((t % 2 * 2 ^ (lg - 1) + ρ + 2 ^ (lg - 1)) % 2 ^ lg))) hW hdiv hP
    hinv.num_eq hinv.imp hinv.last hinv.done hinv.acc hinv.hist (min P (t + 1) - 1)
    hd_le_t hd_lt_P
  obtain ⟨fS_lg, fS_valid, fS_b0, fS_b1, -, -, fS_pos, -, -, -⟩ :=
    sched_iter_fields W (2 ^ (lg - 1)) (min P (t + 1) - 1)
      (with_io st
        (copy_n inp ip (2 ^ (lg - 1) - ρ) st.m_fft_buffers_0 (t % 2 * 2 ^ (lg - 1) + ρ))
        (copy_n inp ip (2 ^ (lg - 1) - ρ) st.m_fft_buffers_1
          ((t % 2 * 2 ^ (lg - 1) + ρ + 2 ^ (lg - 1)) % 2 ^ lg)))
  have fS_num := sched_iter_num W (2 ^ (lg - 1)) (min P (t + 1) - 1)
      (with_io st
        (copy_n inp ip (2 ^ (lg - 1) - ρ) st.m_fft_buffers_0 (t % 2 * 2 ^ (lg - 1) + ρ))
        (copy_n inp ip (2 ^ (lg - 1) - ρ) st.m_fft_buffers_1
          ((t % 2 * 2 ^ (lg - 1) + ρ + 2 ^ (lg - 1)) % 2 ^ lg)))
  obtain ⟨fS_in, fS_imp⟩ :=
    sched_iter_bufs W (2 ^ (lg - 1)) hW hH hdiv (min P (t + 1) - 1)
      (with_io st
        (copy_n inp ip (2 ^ (lg - 1) - ρ) st.m_fft_buffers_0 (t % 2 * 2 ^ (lg - 1) + ρ))
        (copy_n inp ip (2 ^ (lg - 1) - ρ) st.m_fft_buffers_1
          ((t % 2 * 2 ^ (lg - 1) + ρ + 2 ^ (lg - 1)) % 2 ^ lg)))
  have hnext := hop_inv_next K W lg P Hs xv r t st
    ((sched_step W (2 ^ (lg - 1)))^[min P (t + 1) - 1]
      (with_io st
        (copy_n inp ip (2 ^ (lg - 1) - ρ) st.m_fft_buffers_0 (t % 2 * 2 ^ (lg - 1) + ρ))
        (copy_n inp ip (2 ^ (lg - 1) - ρ) st.m_fft_buffers_1
          ((t % 2 * 2 ^ (lg - 1) + ρ + 2 ^ (lg - 1)) % 2 ^ lg))))
    inp ip ρ hlg hW hdiv hP hr hinv hρ hx (fS_lg.trans hlgeq) (fS_valid.trans hinv.valid)
    fS_b0 fS_b1 (fS_pos.trans hinv.pos) (fS_num.trans hinv.num_eq) fS_in fS_imp hSacc
  refine ⟨_, ?_, hnext⟩
  rw [hiter]
  refine Prod.ext rfl (Prod.ext ?_ rfl)
  have c_rw := (fft_step_closed K W
    ((sched_step W (2 ^ (lg - 1)))^[min P (t + 1) - 1]
      (with_io st
        (copy_n inp ip (2 ^ (lg - 1) - ρ) st.m_fft_buffers_0 (t % 2 * 2 ^ (lg - 1) + ρ))
        (copy_n inp ip (2 ^ (lg - 1) - ρ) st.m_fft_buffers_1
          ((t % 2 * 2 ^ (lg - 1) + ρ + 2 ^ (lg - 1)) % 2 ^ lg))))
    (t % 2 * 2 ^ (lg - 1) + ρ + (2 ^ (lg - 1) - ρ))
    (by rw [fS_lg.trans hlgeq]; exact hlg) hW (by rw [fS_lg.trans hlgeq]; exact hdiv)).1
  dsimp only
  rw [c_rw, fS_lg.trans hlgeq, hF]
  rcases Nat.mod_two_eq_zero_or_one t with hpar | hpar
  · have h2 : (t + 1) % 2 = 1 := by omega
    rw [hpar, h2, Nat.zero_mul, Nat.one_mul]
    have : 0 + ρ + (2 ^ (lg - 1) - ρ) = 2 ^ (lg - 1) := by omega
    rw [this]
    exact Nat.mod_eq_of_lt (by omega)
  · have h2 : (t + 1) % 2 = 0 := by omega
    have hρ0 : ρ = 0 := by rw [hρ, if_neg (by omega)]
    rw [hpar, h2, Nat.zero_mul, Nat.one_mul, hρ0]
    have : 2 ^ (lg - 1) + 0 + (2 ^ (lg - 1) - 0) = 2 * 2 ^ (lg - 1) := by omega
    rw [this, Nat.mod_self]

theorem process_loop_done {R : Type} [Field R] (K : FFTKernel R) (W : Nat) (inp : Nat → R)
    (accumulate : Bool) (fuel : Nat)
    (v : convolve_partitioned R × Nat × Nat × Nat × Nat × (Nat → R)) (h : v.2.2.1 = 0) :
    process_loop K W inp accumulate fuel v = some v := by
  cases fuel <;> simp [process_loop, h]

theorem process_iter_alt_out {R : Type} [Field R] (K : FFTKernel R) (W : Nat) (inp : Nat → R)
    (st : convolve_partitioned R) (rw rem ip op : Nat) (out : Nat → R) :
    (process_iter_alt K W inp false (st, rw, rem, ip, op, out)).2.2.2.2.2
      = copy_n st.m_fft_buffers_3 rw
          (min rem (2 ^ (st.m_fft_size_log2 - 1) - rw % 2 ^ (st.m_fft_size_log2 - 1))) out op :=
  rfl

/-- what a read of the output ring during hop `t` returns -/
theorem outring_read {R : Type} [Field R] (K : FFTKernel R) (lg P : Nat) (Hs : Nat → Split R)
    (xv : Nat → R) (r t : Nat) (st : convolve_partitioned R)
    (hinv : HopInv K lg P Hs xv r t st) (j : Nat) (hj : j < 2 ^ (lg - 1)) :
    st.m_fft_buffers_3 (t % 2 * 2 ^ (lg - 1) + j)
      = hop_stream K lg P Hs xv (t * 2 ^ (lg - 1) + j) := by
  have hH : 0 < 2 ^ (lg - 1) := pow_pos (by norm_num) _
  rw [hinv.outring j hj]
  unfold hop_stream
  by_cases ht : t = 0
  · subst ht
    rw [if_pos rfl, Nat.zero_mul, Nat.zero_add, if_pos hj]
  · have hge : ¬ (t * 2 ^ (lg - 1) + j < 2 ^ (lg - 1)) := by
      have : 1 * 2 ^ (lg - 1) ≤ t * 2 ^ (lg - 1) := Nat.mul_le_mul_right _ (by omega)
      omega
    rw [if_neg ht, if_neg hge]
    have hdiv : (t * 2 ^ (lg - 1) + j) / 2 ^ (lg - 1) = t := by
      rw [Nat.add_comm, Nat.add_mul_div_right _ _ hH, Nat.div_eq_of_lt hj, Nat.zero_add]
    have hmod : (t * 2 ^ (lg - 1) + j) % 2 ^ (lg - 1) = j := by
      rw [Nat.add_comm, Nat.add_mul_mod_self_right, Nat.mod_eq_of_lt hj]
    rw [hdiv, hmod]

theorem hop_loop {R : Type} [Field R] (K : FFTKernel R) (W lg P : Nat) (Hs : Nat → Split R)
    (xv : Nat → R) (r : Nat) (inp : Nat → R)
    (hlg : 1 ≤ lg) (hW : 0 < W) (hdiv : 4 * W ∣ 2 ^ (lg - 1)) (hP : 1 ≤ P)
    (hr : r < 2 ^ (lg - 1)) :
    ∀ (rem t : Nat) (st : convolve_partitioned R) (ip op : Nat) (out : Nat → R),
      HopInv K lg P Hs xv r t st →
      (∀ i, i < rem → inp (ip + i) = xv (t * 2 ^ (lg - 1) + (if t = 0 then r else 0) + i)) →
      ∃ v : convolve_partitioned R × Nat × Nat × Nat × Nat × (Nat → R),
        (∀ fuel, rem ≤ fuel →
          process_loop K W inp false fuel
            (st, t % 2 * 2 ^ (lg - 1) + (if t = 0 then r else 0), rem, ip, op, out) = some v) ∧
        (∀ i, i < rem →
          v.2.2.2.2.2 (op + i)
            = hop_stream K lg P Hs xv (t * 2 ^ (lg - 1) + (if t = 0 then r else 0) + i)) ∧
        (∀ j, j < op → v.2.2.2.2.2 j = out j) := by
  have hH : 0 < 2 ^ (lg - 1) := pow_pos (by norm_num) _
  intro rem
  induction rem using Nat.strong_induction_on with
  | _ rem ih =>
    intro t st ip op out hinv hx
    obtain ⟨ρ, hρ⟩ : ∃ ρ, ρ = if t = 0 then r else 0 := ⟨_, rfl⟩
    rw [← hρ] at hx ⊢
    have hρlt : ρ < 2 ^ (lg - 1) := by rw [hρ]; split_ifs <;> omega
    have e_mod : (t % 2 * 2 ^ (lg - 1) + ρ) % 2 ^ (lg - 1) = ρ := parity_mul_add_mod _ _ _ hρlt
    have hstlg : 1 ≤ st.m_fft_size_log2 := by rw [hinv.lg_eq]; exact hlg
    have hstnum : 1 ≤ st.m_num_partitions := by rw [hinv.num_eq]; exact hP
    by_cases hfull : 2 ^ (lg - 1) - ρ ≤ rem
    · -- a whole hop
      obtain ⟨st1, hstep, hinv1⟩ := hop_step K W lg P Hs xv r t st inp rem ip op out ρ
        hlg hW hdiv hP hr hinv hρ hfull (fun i hi => hx i (by omega))
      have hx1 : ∀ i, i < rem - (2 ^ (lg - 1) - ρ) →
          inp (ip + (2 ^ (lg - 1) - ρ) + i)
            = xv ((t + 1) * 2 ^ (lg - 1) + (if t + 1 = 0 then r else 0) + i) := by
        intro i hi
        rw [if_neg (by omega), Nat.add_assoc, hx _ (by omega)]
        congr 1
        rw [Nat.add_mul, Nat.one_mul]
        omega
      obtain ⟨v, hv1, hv2, hv3⟩ := ih (rem - (2 ^ (lg - 1) - ρ)) (by omega) (t + 1) st1
        (ip + (2 ^ (lg - 1) - ρ)) (op + (2 ^ (lg - 1) - ρ))
        (copy_n st.m_fft_buffers_3 (t % 2 * 2 ^ (lg - 1) + ρ) (2 ^ (lg - 1) - ρ) out op)
        hinv1 hx1
      rw [if_neg (by omega), Nat.add_zero] at hv1
      refine ⟨v, ?_, ?_, ?_⟩
      · intro fuel hfuel
        obtain ⟨f, rfl⟩ : ∃ f, fuel = f + 1 := ⟨fuel - 1, by omega⟩
        rw [process_loop_step K W inp false f st _ rem ip op out (by omega) hstlg hstnum,
          hstep]
        exact hv1 f (by omega)
      · intro i hi
        by_cases hi1 : i < 2 ^ (lg - 1) - ρ
        · rw [hv3 (op + i) (by omega)]
          unfold copy_n
          rw [if_pos (by omega), Nat.add_sub_cancel_left]
          have := outring_read K lg P Hs xv r t st hinv (ρ + i) (by omega)
          rw [← Nat.add_assoc, ← Nat.add_assoc] at this
          exact this
        · have := hv2 (i - (2 ^ (lg - 1) - ρ)) (by omega)
          have e1 : op + (2 ^ (lg - 1) - ρ) + (i - (2 ^ (lg - 1) - ρ)) = op + i := by omega
          have e2 : (t + 1) * 2 ^ (lg - 1) + (if t + 1 = 0 then r else 0)
              + (i - (2 ^ (lg - 1) - ρ)) = t * 2 ^ (lg - 1) + ρ + i := by
            rw [if_neg (by omega), Nat.add_mul, Nat.one_mul]
            omega
          rw [e1, e2] at this
          exact this
      · intro j hj
        rw [hv3 j (by omega)]
        unfold copy_n
        rw [if_neg (by omega)]
    · -- the last, partial block
      have hmin : min rem (2 ^ (st.m_fft_size_log2 - 1)
          - (t % 2 * 2 ^ (lg - 1) + ρ) % 2 ^ (st.m_fft_size_log2 - 1)) = rem := by
        rw [hinv.lg_eq, e_mod]
        exact min_eq_left (by omega)
      by_cases hrem0 : rem = 0
      · subst hrem0
        refine ⟨(st, t % 2 * 2 ^ (lg - 1) + ρ, 0, ip, op, out), ?_, ?_, ?_⟩
        · intro fuel _
          exact process_loop_done K W inp false fuel _ rfl
        · intro i hi
          omega
        · intro j _
          rfl
      · refine ⟨process_iter_alt K W inp false
          (st, t % 2 * 2 ^ (lg - 1) + ρ, rem, ip, op, out), ?_, ?_, ?_⟩
        · intro fuel hfuel
          obtain ⟨f, rfl⟩ : ∃ f, fuel = f + 1 := ⟨fuel - 1, by omega⟩
          rw [process_loop_step K W inp false f st _ rem ip op out (by omega) hstlg hstnum]
          apply process_loop_done
          rw [(process_iter_alt_fields K W inp false st _ rem ip op out).2.2.2.1, hmin]
          omega
        · intro i hi
          rw [process_iter_alt_out, hmin]
          unfold copy_n
          rw [if_pos (by omega), Nat.add_sub_cancel_left]
          have := outring_read K lg P Hs xv r t st hinv (ρ + i) (by omega)
          rw [← Nat.add_assoc, ← Nat.add_assoc] at this
          exact this
        · intro j hj
          rw [process_iter_alt_out, hmin]
          unfold copy_n
          rw [if_neg (by omega)]

theorem process_reset_inv {R : Type} [Field R] (K : FFTKernel R) (lg P : Nat)
    (Hs : Nat → Split R) (xv : Nat → R) (r rnd : Nat) (st : convolve_partitioned R)
    (hlg : 1 ≤ lg) (hP : 1 ≤ P)
    (hstlg : st.m_fft_size_log2 = lg) (hnum : st.m_num_partitions = P)
    (hmax : lg ≤ st.m_max_fft_size_log2)
    (himp : ∀ q, q < P →
      bins_eq (2 ^ (lg - 1)) (offset_split_pointer st.m_impulse_buffer (q * 2 ^ (lg - 1))) (Hs q))
    (hr : r < 2 ^ (lg - 1)) (hxv : ∀ i, i < r → xv i = 0) :
    HopInv K lg P Hs xv r 0 (process_reset rnd st).1 := by
  have hF := two_pow_eq_double lg hlg
  have hH : 0 < 2 ^ (lg - 1) := pow_pos (by norm_num) _
  have hle : 2 ^ lg ≤ 2 ^ st.m_max_fft_size_log2 := Nat.pow_le_pow_right (by norm_num) hmax
  have hmaxF : get_max_fft_size st = 2 ^ st.m_max_fft_size_log2 := by
    unfold get_max_fft_size
    rw [Nat.one_shiftLeft]
  have hhalfle : 2 ^ (lg - 1) ≤ get_max_fft_size st >>> 1 := by
    rw [hmaxF, Nat.shiftRight_eq_div_pow, pow_one]
    omega
  have hmaxle : 2 ^ lg ≤ get_max_fft_size st := by rw [hmaxF]; exact hle
  refine ⟨hstlg, hnum, himp, ?_, ?_, ?_, rfl, ?_, ?_, ?_, ?_, ?_, ?_⟩
  · rw [slot_zero]
    rfl
  · intro h
    omega
  · show 1 = min P (0 + 1)
    omega
  · intro k hk
    show fill_n st.m_accum_buffer.realp 0 (get_max_fft_size st >>> 1) 0 k = 0 ∧
      fill_n st.m_accum_buffer.imagp 0 (get_max_fft_size st >>> 1) 0 k = 0
    unfold fill_n
    rw [if_pos (by omega), if_pos (by omega)]
    exact ⟨rfl, rfl⟩
  · intro s hs
    omega
  · intro _ i hi
    show fill_n st.m_fft_buffers_0 0 (get_max_fft_size st) 0 (2 ^ (lg - 1) + i) = _
    unfold fill_n
    rw [if_pos (by omega), if_pos rfl]
  · intro h
    omega
  · intro _ i hi
    show fill_n st.m_fft_buffers_0 0 (get_max_fft_size st) 0 i = xv i ∧
      fill_n st.m_fft_buffers_1 0 (get_max_fft_size st) 0 (2 ^ (lg - 1) + i) = xv i
    unfold fill_n
    rw [if_pos (show 0 ≤ i ∧ i < 0 + get_max_fft_size st by omega),
      if_pos (show 0 ≤ 2 ^ (lg - 1) + i ∧ 2 ^ (lg - 1) + i < 0 + get_max_fft_size st by omega),
      hxv i hi]
    exact ⟨rfl, rfl⟩
  · intro i hi
    show fill_n st.m_fft_buffers_3 0 (get_max_fft_size st) 0 (0 % 2 * 2 ^ (lg - 1) + i) = _
    unfold fill_n
    rw [if_pos (by omega), if_pos rfl]

/-- The output of the first `process` call after a reset, in terms of the hop outputs. -/
theorem process_fresh {R : Type} [Field R] (K : FFTKernel R) (W lg P : Nat)
    (Hs : Nat → Split R) (rnd : Nat) (st : convolve_partitioned R) (inp : Nat → R)
    (ip : Nat) (out : Nat → R) (op N r : Nat)
    (hlg : 1 ≤ lg) (hW : 0 < W) (hdiv : 4 * W ∣ 2 ^ (lg - 1)) (hP : 1 ≤ P)
    (hstlg : st.m_fft_size_log2 = lg) (hnum : st.m_num_partitions = P)
    (hmax : lg ≤ st.m_max_fft_size_log2) (hflag : st.m_reset_flag = true)
    (hro : 0 ≤ st.m_reset_offset)
    (hr : r = st.m_reset_offset.toNat % 2 ^ (lg - 1))
    (himp : ∀ q, q < P →
      bins_eq (2 ^ (lg - 1)) (offset_split_pointer st.m_impulse_buffer (q * 2 ^ (lg - 1)))
        (Hs q)) :
    ∃ st1 out1, process K W rnd st inp ip out op N false = some (st1, out1) ∧
      ∀ i, i < N → out1 (op + i) = hop_stream K lg P Hs (virt inp ip r) (r + i) := by
  have hH : 0 < 2 ^ (lg - 1) := pow_pos (by norm_num) _
  have hrlt : r < 2 ^ (lg - 1) := by rw [hr]; exact Nat.mod_lt _ hH
  have hinv := process_reset_inv K lg P Hs (virt inp ip r) r rnd st hlg hP hstlg hnum hmax himp
    hrlt (by intro i hi; unfold virt; rw [if_pos hi])
  have hrw : (process_reset rnd st).2 = r := by
    unfold process_reset
    dsimp only
    rw [if_neg (by omega), get_fft_size_eq, hstlg, halved_eq lg hlg, hr]
  obtain ⟨v, hv1, hv2, -⟩ := hop_loop K W lg P Hs (virt inp ip r) r inp hlg hW hdiv hP hrlt
    N 0 (process_reset rnd st).1 ip op out hinv
    (by
      intro i hi
      rw [if_pos rfl, Nat.zero_mul, Nat.zero_add]
      unfold virt
      rw [if_neg (by omega), Nat.add_sub_cancel_left])
  rw [if_pos rfl, Nat.zero_mod, Nat.zero_mul, Nat.zero_add] at hv1
  simp only [if_pos, Nat.zero_mul, Nat.zero_add] at hv2
  have hproc := process_eq K W rnd st inp ip out op N false (by omega)
    (process_reset rnd st) (by rw [hflag]; rfl) v (by rw [hrw]; exact hv1 N (le_refl _))
  exact ⟨_, _, hproc, hv2⟩

theorem herm_hop_accum (K : FFTKernel ℝ) (lg : Nat) (Hs : Nat → Split ℝ) (xv : Nat → ℝ)
    (t : Nat) (k : Nat) (hk : k < 2 * 2 ^ (lg - 1)) :
    ∀ d, herm (2 * 2 ^ (lg - 1)) (hop_accum K lg Hs xv t d) k
      = ∑ j in Finset.range d,
          herm (2 * 2 ^ (lg - 1)) (K.rfft lg (hop_window xv (2 ^ (lg - 1)) (t - (j + 1)))) k
            * herm (2 * 2 ^ (lg - 1)) (Hs (j + 1)) k := by
  have hH : 0 < 2 ^ (lg - 1) := pow_pos (by norm_num) _
  intro d
  induction d with
  | zero =>
    rw [Finset.sum_range_zero]
    exact herm_zero _ _
  | succ n ih =>
    rw [Finset.sum_range_succ, ← ih]
    exact herm_packed_mac _ hH _ _ _ k hk

theorem herm_hop_total (K : FFTKernel ℝ) (lg P : Nat) (Hs : Nat → Split ℝ) (xv : Nat → ℝ)
    (t : Nat) (k : Nat) (hk : k < 2 * 2 ^ (lg - 1)) :
    herm (2 * 2 ^ (lg - 1)) (hop_total K lg P Hs xv t) k
      = ∑ j in Finset.range (min P (t + 1) - 1 + 1),
          herm (2 * 2 ^ (lg - 1)) (K.rfft lg (hop_window xv (2 ^ (lg - 1)) (t - j))) k
            * herm (2 * 2 ^ (lg - 1)) (Hs j) k := by
  have hH : 0 < 2 ^ (lg - 1) := pow_pos (by norm_num) _
  unfold hop_total
  rw [herm_packed_mac _ hH _ _ _ k hk, herm_hop_accum K lg Hs xv t k hk, Finset.sum_range_succ']
  rfl

/-- With the exact transforms, the block stored at the end of hop `t` is the sum of the
circular convolutions of the impulse partitions with the windows of the last hops. -/
theorem hop_output_exact (lg P : Nat) (hp : Nat → Nat → ℝ) (xv : Nat → ℝ) (t i : Nat)
    (hlg : 1 ≤ lg) (hi : i < 2 ^ lg) :
    hop_output exact_kernel lg P (fun q => exact_rfft lg (hp q)) xv t i
      = ∑ j in Finset.range (min P (t + 1) - 1 + 1),
          ∑ m in Finset.range (2 ^ lg),
            hp j m * hop_window xv (2 ^ (lg - 1)) (t - j) ((i + 2 ^ lg - m) % 2 ^ lg) := by
  have hF := two_pow_eq_double lg hlg
  have hH : 0 < 2 ^ (lg - 1) := pow_pos (by norm_num) _
  have hFpos : 0 < 2 ^ lg := pow_pos (by norm_num) _
  unfold hop_output
  show exact_rifft lg _ i * _ = _
  unfold exact_rifft
  have hsum : ∑ k in Finset.range (2 ^ lg),
      herm (2 ^ lg)
          (first_bins (hop_total exact_kernel lg P (fun q => exact_rfft lg (hp q)) xv t)
            (2 ^ (lg - 1))) k
        * Complex.exp (2 * Real.pi * Complex.I * k * i / (2 ^ lg : ℕ))
      = (((4 * (2 ^ lg : ℕ) * ∑ j in Finset.range (min P (t + 1) - 1 + 1),
          ∑ m in Finset.range (2 ^ lg),
            hp j m * hop_window xv (2 ^ (lg - 1)) (t - j) ((i + 2 ^ lg - m) % 2 ^ lg) : ℝ)) : ℂ) := by
    have h1 : ∀ k ∈ Finset.range (2 ^ lg),
        herm (2 ^ lg)
          (first_bins (hop_total exact_kernel lg P (fun q => exact_rfft lg (hp q)) xv t)
            (2 ^ (lg - 1))) k
          * Complex.exp (2 * Real.pi * Complex.I * k * i / (2 ^ lg : ℕ))
        = ∑ j in Finset.range (min P (t + 1) - 1 + 1),
            4 * (dft (2 ^ lg) (fun n => ((hop_window xv (2 ^ (lg - 1)) (t - j) n : ℝ) : ℂ)) k
              * dft (2 ^ lg) (fun n => ((hp j n : ℝ) : ℂ)) k
              * Complex.exp (2 * Real.pi * Complex.I * k * i / (2 ^ lg : ℕ))) := by
      intro k hk
      have hk1 : k < 2 ^ lg := Finset.mem_range.mp hk
      have hk2 : k < 2 * 2 ^ (lg - 1) := by omega
      rw [hF, herm_first_bins _ hH _ k hk2, herm_hop_total exact_kernel lg P _ xv t k hk2,
        Finset.sum_mul]
      apply Finset.sum_congr rfl
      intro j _
      rw [← hF]
      show herm (2 ^ lg) (exact_rfft lg _) k * herm (2 ^ lg) (exact_rfft lg _) k * _ = _
      rw [herm_exact_rfft lg hlg _ k hk1, herm_exact_rfft lg hlg _ k hk1]
      ring
    rw [Finset.sum_congr rfl h1, Finset.sum_comm]
    have h2 : ∀ j ∈ Finset.range (min P (t + 1) - 1 + 1),
        ∑ k in Finset.range (2 ^ lg),
          4 * (dft (2 ^ lg) (fun n => ((hop_window xv (2 ^ (lg - 1)) (t - j) n : ℝ) : ℂ)) k
              * dft (2 ^ lg) (fun n => ((hp j n : ℝ) : ℂ)) k
              * Complex.exp (2 * Real.pi * Complex.I * k * i / (2 ^ lg : ℕ)))
        = 4 * ((2 ^ lg : ℕ) : ℂ) * ∑ m in Finset.range (2 ^ lg),
            ((hp j m : ℝ) : ℂ)
              * ((hop_window xv (2 ^ (lg - 1)) (t - j) ((i + 2 ^ lg - m) % 2 ^ lg) : ℝ) : ℂ) := by
      intro j _
      rw [← Finset.mul_sum, dft_mul_inverse (2 ^ lg) hFpos _ _ i hi]
      ring
    rw [Finset.sum_congr rfl h2]
    push_cast
    rw [Finset.mul_sum]
  rw [hsum, Complex.ofReal_re]
  have hshift : ((2 ^ lg <<< 2 : ℕ) : ℝ) = 4 * ((2 ^ lg : ℕ) : ℝ) := by
    rw [Nat.shiftLeft_eq]
    push_cast
    ring
  rw [hshift]
  have hne : ((2 ^ lg : ℕ) : ℝ) ≠ 0 := by positivity
  field_simp

theorem hop_window_circ (xv : Nat → ℝ) (H s i m : Nat) (hH : 0 < H) (hi : i < H)
    (hm : m < H) :
    hop_window xv H s ((i + 2 * H - m) % (2 * H))
      = if m ≤ s * H + i then xv (s * H + i - m) else 0 := by
  unfold hop_window
  by_cases hmi : m ≤ i
  · have e : i + 2 * H - m = (i - m) + 2 * H := by omega
    rw [e, Nat.add_mod_right, Nat.mod_eq_of_lt (by omega), if_pos (by omega), if_pos (by omega)]
    congr 1
    omega
  · rw [Nat.mod_eq_of_lt (by omega), if_neg (by omega)]
    by_cases hs : s = 0
    · subst hs
      rw [if_neg (by omega), if_neg (by omega)]
    · obtain ⟨s1, rfl⟩ : ∃ s1, s = s1 + 1 := ⟨s - 1, by omega⟩
      have e : (s1 + 1) * H = s1 * H + H := Nat.succ_mul _ _
      rw [if_pos (by omega), if_pos (by omega), Nat.add_sub_cancel, e]
      congr 1
      omega

theorem sum_blocks (g : Nat → ℝ) (H : Nat) :
    ∀ J, ∑ j in Finset.range J, ∑ m in Finset.range H, g (j * H + m)
      = ∑ k in Finset.range (J * H), g k := by
  intro J
  induction J with
  | zero => simp
  | succ n ih =>
    rw [Finset.sum_range_succ, ih, Nat.succ_mul, Finset.sum_range_add]

theorem sum_range_vanish (g : Nat → ℝ) (A B : Nat)
    (h1 : ∀ k, A ≤ k → k < B → g k = 0) (h2 : ∀ k, B ≤ k → k < A → g k = 0) :
    ∑ k in Finset.range A, g k = ∑ k in Finset.range B, g k := by
  rcases le_total A B with hAB | hBA
  · apply Finset.sum_subset (Finset.range_mono hAB)
    intro k hk hk2
    rw [Finset.mem_range] at hk hk2
    exact h1 k (by omega) hk
  · symm
    apply Finset.sum_subset (Finset.range_mono hBA)
    intro k hk hk2
    rw [Finset.mem_range] at hk hk2
    exact h2 k (by omega) hk

/-- With the exact transforms, the block stored at the end of hop `t` is the linear
convolution of the stream with the loaded samples of the impulse response. -/
theorem hop_output_conv (lg P len : Nat) (h xv : Nat → ℝ) (t i : Nat)
    (hlg : 1 ≤ lg) (hP : 1 ≤ P) (hlen : len ≤ P * 2 ^ (lg - 1)) (hi : i < 2 ^ (lg - 1)) :
    hop_output exact_kernel lg P
        (fun q => exact_rfft lg
          (ir_partition h (q * 2 ^ (lg - 1)) (min (2 ^ (lg - 1)) (len - q * 2 ^ (lg - 1)))))
        xv t i
      = ∑ k in Finset.range len,
          h k * (if k ≤ t * 2 ^ (lg - 1) + i then xv (t * 2 ^ (lg - 1) + i - k) else 0) := by
  have hF := two_pow_eq_double lg hlg
  have hH : 0 < 2 ^ (lg - 1) := pow_pos (by norm_num) _
  rw [hop_output_exact lg P _ xv t i hlg (by omega)]
  have hJ : min P (t + 1) - 1 + 1 = min P (t + 1) := by omega
  rw [hJ]
  obtain ⟨g, hg⟩ : ∃ g : Nat → ℝ, g = fun k => (if k < len then h k else 0)
      * (if k ≤ t * 2 ^ (lg - 1) + i then xv (t * 2 ^ (lg - 1) + i - k) else 0) := ⟨_, rfl⟩
  have hinner : ∀ j ∈ Finset.range (min P (t + 1)),
      ∑ m in Finset.range (2 ^ lg),
        ir_partition h (j * 2 ^ (lg - 1)) (min (2 ^ (lg - 1)) (len - j * 2 ^ (lg - 1))) m
          * hop_window xv (2 ^ (lg - 1)) (t - j) ((i + 2 ^ lg - m) % 2 ^ lg)
      = ∑ m in Finset.range (2 ^ (lg - 1)), g (j * 2 ^ (lg - 1) + m) := by
    intro j hj
    have hjt : j ≤ t := by
      have := Finset.mem_range.mp hj
      omega
    have e : (t - j) * 2 ^ (lg - 1) + j * 2 ^ (lg - 1) = t * 2 ^ (lg - 1) := by
      rw [← Nat.add_mul, Nat.sub_add_cancel hjt]
    have hsplit : 2 ^ lg = 2 ^ (lg - 1) + 2 ^ (lg - 1) := by omega
    rw [hsplit, Finset.sum_range_add, ← hsplit]
    have hz : ∑ m in Finset.range (2 ^ (lg - 1)),
        ir_partition h (j * 2 ^ (lg - 1)) (min (2 ^ (lg - 1)) (len - j * 2 ^ (lg - 1)))
            (2 ^ (lg - 1) + m)
          * hop_window xv (2 ^ (lg - 1)) (t - j)
              ((i + 2 ^ lg - (2 ^ (lg - 1) + m)) % 2 ^ lg) = 0 := by
      apply Finset.sum_eq_zero
      intro m _
      unfold ir_partition
      rw [if_neg (by omega), zero_mul]
    rw [hz, add_zero]
    apply Finset.sum_congr rfl
    intro m hm
    have hm1 : m < 2 ^ (lg - 1) := Finset.mem_range.mp hm
    rw [hF, hop_window_circ xv _ (t - j) i m hH hi hm1, hg]
    unfold ir_partition
    dsimp only
    by_cases c1 : j * 2 ^ (lg - 1) + m < len
    · rw [if_pos (by omega), if_pos c1]
      by_cases c2 : m ≤ (t - j) * 2 ^ (lg - 1) + i
      · rw [if_pos c2, if_pos (by omega)]
        congr 2
        omega
      · rw [if_neg c2, if_neg (by omega)]
    · rw [if_neg (by omega), if_neg c1, zero_mul, zero_mul]
  rw [Finset.sum_congr rfl hinner, sum_blocks g,
    sum_range_vanish g (min P (t + 1) * 2 ^ (lg - 1)) len]
  · apply Finset.sum_congr rfl
    intro k hk
    rw [hg]
    dsimp only
    rw [if_pos (Finset.mem_range.mp hk)]
  · intro k hk1 hk2
    rw [hg]
    dsimp only
    rcases le_total P (t + 1) with hc | hc
    · rw [min_eq_left hc] at hk1
      omega
    · rw [min_eq_right hc, Nat.add_mul, Nat.one_mul] at hk1
      have hn : ¬ (k ≤ t * 2 ^ (lg - 1) + i) := by omega
      rw [if_neg hn, mul_zero]
  · intro k hk1 _
    rw [hg]
    dsimp only
    have hn : ¬ (k < len) := by omega
    rw [if_neg hn, zero_mul]

/-- The output stream with the exact transforms is the delayed linear convolution. -/
theorem hop_stream_exact (lg P len : Nat) (h inp : Nat → ℝ) (ip r n : Nat)
    (hlg : 1 ≤ lg) (hP : 1 ≤ P) (hlen : len ≤ P * 2 ^ (lg - 1)) :
    hop_stream exact_kernel lg P
        (fun q => exact_rfft lg
          (ir_partition h (q * 2 ^ (lg - 1)) (min (2 ^ (lg - 1)) (len - q * 2 ^ (lg - 1)))))
        (virt inp ip r) (r + n)
      = delayed_convolution h len (fun j => inp (ip + j)) (2 ^ (lg - 1)) n := by
  have hH : 0 < 2 ^ (lg - 1) := pow_pos (by norm_num) _
  unfold hop_stream delayed_convolution
  by_cases hv : r + n < 2 ^ (lg - 1)
  · rw [if_pos hv]
    symm
    apply Finset.sum_eq_zero
    intro k _
    rw [if_neg (by omega)]
  · rw [if_neg hv, hop_output_conv lg P len h _ _ _ hlg hP hlen (Nat.mod_lt _ hH)]
    have hdm := Nat.div_add_mod (r + n) (2 ^ (lg - 1))
    have hq : 1 ≤ (r + n) / 2 ^ (lg - 1) := by
      rw [Nat.one_le_div_iff hH]
      omega
    have hpos : ((r + n) / 2 ^ (lg - 1) - 1) * 2 ^ (lg - 1) + (r + n) % 2 ^ (lg - 1)
        = r + n - 2 ^ (lg - 1) := by
      rw [Nat.sub_mul, Nat.one_mul, Nat.mul_comm]
      have : 2 ^ (lg - 1) * 1 ≤ 2 ^ (lg - 1) * ((r + n) / 2 ^ (lg - 1)) :=
        Nat.mul_le_mul_left _ hq
      omega
    rw [hpos]
    apply Finset.sum_congr rfl
    intro k _
    unfold virt
    by_cases c1 : k + 2 ^ (lg - 1) ≤ n
    · rw [if_pos c1, if_pos (by omega), if_neg (by omega)]
      congr 2
      omega
    · rw [if_neg c1]
      by_cases c2 : k ≤ r + n - 2 ^ (lg - 1)
      · rw [if_pos c2, if_pos (by omega), mul_zero]
      · rw [if_neg c2, mul_zero]

theorem le_ceil_mul (len H : Nat) (hH : 0 < H) : len ≤ (len + H - 1) / H * H := by
  have h1 := Nat.div_add_mod (len + H - 1) H
  have h2 := Nat.mod_lt (len + H - 1) hH
  rw [Nat.mul_comm] at h1
  omega

theorem one_le_ceil (len H : Nat) (hH : 0 < H) (hlen : 1 ≤ len) : 1 ≤ (len + H - 1) / H := by
  rw [Nat.one_le_div_iff hH]
  omega

/-- The convolution theorem for the convolver: a freshly loaded impulse response, then any
sequence of `process` calls. -/
theorem process_convolution_aux (W rnd : Nat) (st0 : convolve_partitioned ℝ) (h : Nat → ℝ)
    (L : Nat) (x : Nat → ℝ)
    (hlg : 1 ≤ st0.m_fft_size_log2) (hmax : st0.m_fft_size_log2 ≤ st0.m_max_fft_size_log2)
    (hW : 0 < W) (hdiv : 4 * W ∣ 2 ^ (st0.m_fft_size_log2 - 1))
    (hoff : st0.m_offset = 0) (hL1 : 1 ≤ L) (hL2 : L ≤ st0.m_max_impulse_length)
    (hro : 0 ≤ st0.m_reset_offset) :
    ∃ err st, set exact_kernel st0 (some h) L = some (err, st) ∧
      ∀ (ns : List Nat) (pos : Nat) (out : Nat → ℝ),
        ∃ st1 out1, process_seq exact_kernel W rnd x false ns st pos out = some (st1, out1) ∧
          ∀ n, n < ns.sum →
            out1 (pos + n)
              = delayed_convolution h
                  (if st0.m_length ≠ 0 ∧ st0.m_length < L then st0.m_length else L)
                  (fun j => x (pos + j)) (2 ^ (st0.m_fft_size_log2 - 1)) n := by
  have hH : 0 < 2 ^ (st0.m_fft_size_log2 - 1) := pow_pos (by norm_num) _
  obtain ⟨len, hlen⟩ : ∃ len, len = if st0.m_length ≠ 0 ∧ st0.m_length < L then st0.m_length
      else L := ⟨_, rfl⟩
  rw [← hlen]
  have hlen1 : 1 ≤ len := by rw [hlen]; split_ifs <;> omega
  have hlen2 : len ≤ st0.m_max_impulse_length := by rw [hlen]; split_ifs <;> omega
  have heff : set_effective_length st0 (some h) L = len := by
    unfold set_effective_length
    have hc : ¬ ((some h).isNone = true ∨ L ≤ 0) := by
      simp only [Option.isNone_some, Bool.false_eq_true, false_or]
      omega
    simp only [hoff, Nat.sub_zero, if_neg hc]
    exact hlen.symm
  have hhalf : get_fft_size st0 >>> 1 = 2 ^ (st0.m_fft_size_log2 - 1) := by
    rw [get_fft_size_eq, halved_eq _ hlg]
  obtain ⟨temp1, imp1, heq, hpart, -⟩ := set_result exact_kernel st0 (some h) L hlg
  rw [heff, hhalf, min_eq_left hlen2] at heq hpart
  rw [hoff] at hpart
  obtain ⟨S, hS⟩ : ∃ S, S = reset { st0 with
        m_num_partitions :=
          (len + 2 ^ (st0.m_fft_size_log2 - 1) - 1) / 2 ^ (st0.m_fft_size_log2 - 1),
        m_partition_temp := { st0.m_partition_temp with realp := temp1 },
        m_impulse_buffer := imp1 } := ⟨_, rfl⟩
  rw [← hS] at heq
  have hSlg : S.m_fft_size_log2 = st0.m_fft_size_log2 := by rw [hS]; rfl
  have hSnum : S.m_num_partitions
      = (len + 2 ^ (st0.m_fft_size_log2 - 1) - 1) / 2 ^ (st0.m_fft_size_log2 - 1) := by
    rw [hS]; rfl
  have hSmax : S.m_max_fft_size_log2 = st0.m_max_fft_size_log2 := by rw [hS]; rfl
  have hSflag : S.m_reset_flag = true := by rw [hS]; rfl
  have hSro : S.m_reset_offset = st0.m_reset_offset := by rw [hS]; rfl
  have hSimp : S.m_impulse_buffer = imp1 := by rw [hS]; rfl
  have hP := one_le_ceil len _ hH hlen1
  refine ⟨_, S, heq, ?_⟩
  intro ns pos out
  cases ns with
  | nil =>
    refine ⟨_, _, rfl, ?_⟩
    intro n hn
    simp at hn
  | cons n0 ns1 =>
    rw [process_seq_eq_process exact_kernel W rnd x false ns1 n0 S pos out
      (by rw [hSlg]; exact hlg) (by rw [hSnum]; exact hP)]
    obtain ⟨st1, out1, hproc, hout⟩ := process_fresh exact_kernel W st0.m_fft_size_log2
      ((len + 2 ^ (st0.m_fft_size_log2 - 1) - 1) / 2 ^ (st0.m_fft_size_log2 - 1))
      (fun q => exact_rfft st0.m_fft_size_log2
          (ir_partition h (q * 2 ^ (st0.m_fft_size_log2 - 1))
            (min (2 ^ (st0.m_fft_size_log2 - 1)) (len - q * 2 ^ (st0.m_fft_size_log2 - 1)))))
      rnd S x pos out pos (n0 + ns1.sum)
      (st0.m_reset_offset.toNat % 2 ^ (st0.m_fft_size_log2 - 1))
      hlg hW hdiv hP hSlg hSnum (by rw [hSmax]; exact hmax) hSflag (by rw [hSro]; exact hro)
      (by rw [hSro])
      (by
        intro q hq k hk
        have := hpart q k hq hk
        simp only [Option.getD_some, Nat.zero_add] at this
        rw [hSimp]
        exact this)
    refine ⟨st1, out1, hproc, ?_⟩
    intro n hn
    rw [List.sum_cons] at hn
    rw [hout n hn]
    exact hop_stream_exact _ _ len h x pos _ n hlg hP (le_ceil_mul len _ hH)

/-- C1 counterexample: a convolver with FFT size 32 and length limit `m_length = 1` is set
with the two-sample impulse response `h = (1, 1)`; the unit impulse is then processed as one
block of 18 samples. Only `h[0]` was loaded, so output sample 17 is `h[0] * x[1] = 0`, whereas
the sum over `k < L = 2` of `h[k] * x[17 - 16 - k]` is `h[1] * x[0] = 1`. -/
theorem process_length_limit_counterexample :
    ∃ err st st1 out1,
      set exact_kernel
          { zero_state_real with m_fft_size_log2 := 5, m_max_fft_size_log2 := 5,
                                 m_max_impulse_length := 64, m_length := 1 }
          (some (fun _ => 1)) 2 = some (err, st) ∧
      process_seq exact_kernel 1 0 (fun j => if j = 0 then 1 else 0) false [18] st 0
          (fun _ => 0) = some (st1, out1) ∧
      out1 17 = 0 ∧
      delayed_convolution (fun _ => 1) 2 (fun j => if j = 0 then 1 else 0) 16 17 = 1 := by
  obtain ⟨err, st, hset, hproc⟩ := process_convolution_aux 1 0
    { zero_state_real with m_fft_size_log2 := 5, m_max_fft_size_log2 := 5,
                           m_max_impulse_length := 64, m_length := 1 }
    (fun _ => 1) 2 (fun j => if j = 0 then 1 else 0)
    (by decide) (by decide) (by decide) (by decide) rfl (by decide) (by decide) (by decide)
  obtain ⟨st1, out1, hp, hout⟩ := hproc [18] 0 (fun _ => 0)
  refine ⟨err, st, st1, out1, hset, hp, ?_, ?_⟩
  · have h17 := hout 17 (by decide)
    rw [Nat.zero_add] at h17
    rw [h17]
    simp [delayed_convolution]
  · simp [delayed_convolution, Finset.sum_range_succ]

/-- C1 (amended): over exact real arithmetic (`exact_kernel`), for a convolver with FFT size
`F = 2 ^ m_fft_size_log2 ≥ 2` not above the maximum, a vector width `W ≥ 1` with `4 * W`
dividing `F / 2`, offset 0, any non-negative reset offset and any length limit `m_length`:
`set` with an impulse response `h` of length `L` (`1 ≤ L ≤ m_max_impulse_length`) returns,
and every sequence of `process` calls (`accumulate == false`) on consecutive blocks of a
stream `x` returns with output sample `n` equal to
`∑ k < len, h[k] * x[n - F/2 - k]` (terms with a negative stream index are zero), where
`len = m_length` if `0 < m_length < L` and `len = L` otherwise: the linear convolution with
the loaded part of `h`, delayed by exactly `F / 2` samples. -/
theorem process_convolution (W rnd : Nat) (st0 : convolve_partitioned ℝ) (h : Nat → ℝ)
    (L : Nat) (x : Nat → ℝ)
    (hlg : 1 ≤ st0.m_fft_size_log2) (hmax : st0.m_fft_size_log2 ≤ st0.m_max_fft_size_log2)
    (hW : 0 < W) (hdiv : 4 * W ∣ 2 ^ (st0.m_fft_size_log2 - 1))
    (hoff : st0.m_offset = 0) (hL1 : 1 ≤ L) (hL2 : L ≤ st0.m_max_impulse_length)
    (hro : 0 ≤ st0.m_reset_offset) :
    ∃ err st, set exact_kernel st0 (some h) L = some (err, st) ∧
      ∀ (ns : List Nat) (pos : Nat) (out : Nat → ℝ),
        ∃ st1 out1, process_seq exact_kernel W rnd x false ns st pos out = some (st1, out1) ∧
          ∀ n, n < ns.sum →
            out1 (pos + n)
              = delayed_convolution h
                  (if st0.m_length ≠ 0 ∧ st0.m_length < L then st0.m_length else L)
                  (fun j => x (pos + j)) (2 ^ (st0.m_fft_size_log2 - 1)) n :=
  process_convolution_aux W rnd st0 h L x hlg hmax hW hdiv hoff hL1 hL2 hro

/-- C1 witness: FFT size 32, no length limit, reset offset 5, `h = (1, 1)`, the unit impulse
processed as blocks of 10 and 8 samples: the output is silent up to sample 15 and carries
`h[0]`, `h[1]` at samples 16 and 17. -/
theorem process_convolution_witness :
    ∃ err st st1 out1,
      set exact_kernel
          { zero_state_real with m_fft_size_log2 := 5, m_max_fft_size_log2 := 5,
                                 m_max_impulse_length := 64, m_reset_offset := 5 }
          (some (fun _ => 1)) 2 = some (err, st) ∧
      process_seq exact_kernel 1 0 (fun j => if j = 0 then 1 else 0) false [10, 8] st 0
          (fun _ => 0) = some (st1, out1) ∧
      out1 15 = 0 ∧ out1 16 = 1 ∧ out1 17 = 1 := by
  obtain ⟨err, st, hset, hproc⟩ := process_convolution 1 0
    { zero_state_real with m_fft_size_log2 := 5, m_max_fft_size_log2 := 5,
                           m_max_impulse_length := 64, m_reset_offset := 5 }
    (fun _ => 1) 2 (fun j => if j = 0 then 1 else 0)
    (by decide) (by decide) (by decide) (by decide) rfl (by decide) (by decide) (by decide)
  obtain ⟨st1, out1, hp, hout⟩ := hproc [10, 8] 0 (fun _ => 0)
  have h15 := hout 15 (by decide)
  have h16 := hout 16 (by decide)
  have h17 := hout 17 (by decide)
  rw [Nat.zero_add] at h15 h16 h17
  refine ⟨err, st, st1, out1, hset, hp, ?_, ?_, ?_⟩
  · rw [h15]
    simp [delayed_convolution, zero_state_real, Finset.sum_range_succ]
  · rw [h16]
    simp [delayed_convolution, zero_state_real, Finset.sum_range_succ]
  · rw [h17]
    simp [delayed_convolution, zero_state_real, Finset.sum_range_succ]

/-! ### The complex FFT passes (C5) -/

theorem rev_lt : ∀ u b, rev u b < 2 ^ u := by
  intro u
  induction u with
  | zero => intro b; simp [rev]
  | succ n ih =>
    intro b
    rw [rev, pow_succ]
    have h1 := ih (b / 2)
    have h2 : b % 2 < 2 := Nat.mod_lt _ (by norm_num)
    have h3 : b % 2 * 2 ^ n ≤ 1 * 2 ^ n := Nat.mul_le_mul_right _ (by omega)
    omega

theorem rev_double (u b : Nat) : rev (u + 1) (2 * b) = rev u b := by
  rw [rev]
  have h1 : 2 * b % 2 = 0 := by omega
  have h2 : 2 * b / 2 = b := by omega
  rw [h1, h2, Nat.zero_mul, Nat.zero_add]

theorem rev_double_add (u b h : Nat) (hh : h < 2) :
    rev (u + 1) (2 * b + h) = h * 2 ^ u + rev u b := by
  rw [rev]
  have h1 : (2 * b + h) % 2 = h := by omega
  have h2 : (2 * b + h) / 2 = b := by omega
  rw [h1, h2]

theorem omega_sq (N : Nat) (hN : 0 < N) : omega (2 * N) ^ 2 = omega N := by
  unfold omega
  rw [← Complex.exp_nat_mul]
  congr 1
  have hN0 : (N : ℂ) ≠ 0 := by exact_mod_cast hN.ne'
  push_cast
  field_simp
  ring

theorem omega_half (N : Nat) (hN : 0 < N) : omega (2 * N) ^ N = -1 := by
  unfold omega
  rw [← Complex.exp_nat_mul]
  have hN0 : (N : ℂ) ≠ 0 := by exact_mod_cast hN.ne'
  have : (N : ℂ) * (-2 * Real.pi * Complex.I / ((2 * N : ℕ) : ℂ)) = -(Real.pi * Complex.I) := by
    push_cast
    field_simp
    ring
  rw [this, Complex.exp_neg, Complex.exp_pi_mul_I]
  norm_num

theorem sum_even_odd (f : Nat → ℂ) :
    ∀ M, ∑ k in Finset.range (2 * M), f k
      = ∑ k in Finset.range M, f (2 * k) + ∑ k in Finset.range M, f (2 * k + 1) := by
  intro M
  induction M with
  | zero => simp
  | succ n ih =>
    have e : 2 * (n + 1) = 2 * n + 1 + 1 := by ring
    rw [e, Finset.sum_range_succ, Finset.sum_range_succ, ih, Finset.sum_range_succ,
      Finset.sum_range_succ]
    ring

theorem sub_dft_period (x : Nat → ℂ) (n s m t : Nat) :
    sub_dft x n s m (t + 2 ^ s) = sub_dft x n s m t := by
  unfold sub_dft
  apply Finset.sum_congr rfl
  intro k _
  congr 1
  have e : k * (t + 2 ^ s) = k * t + 2 ^ s * k := by ring
  rw [e, pow_add, pow_mul (omega (2 ^ s)) (2 ^ s) k,
    omega_pow_self _ (pow_pos (by norm_num) s), one_pow, mul_one]

/-- The decimation-in-time step. -/
theorem sub_dft_succ (x : Nat → ℂ) (n s m t : Nat) (hs : s < n) :
    sub_dft x n (s + 1) m t
      = sub_dft x n s m t + omega (2 ^ (s + 1)) ^ t * sub_dft x n s (m + 2 ^ (n - s - 1)) t := by
  have hpos : 0 < 2 ^ s := pow_pos (by norm_num) s
  have hdbl : 2 ^ (s + 1) = 2 * 2 ^ s := by rw [pow_succ]; ring
  have hsq : omega (2 ^ (s + 1)) ^ 2 = omega (2 ^ s) := by
    rw [hdbl]
    exact omega_sq _ hpos
  have hstride : 2 * 2 ^ (n - (s + 1)) = 2 ^ (n - s) := by
    obtain ⟨d, rfl⟩ : ∃ d, n = s + 1 + d := ⟨n - (s + 1), by omega⟩
    have e1 : s + 1 + d - (s + 1) = d := by omega
    have e2 : s + 1 + d - s = d + 1 := by omega
    rw [e1, e2, pow_succ]
    ring
  have hsub : n - s - 1 = n - (s + 1) := by omega
  unfold sub_dft
  rw [show Finset.range (2 ^ (s + 1)) = Finset.range (2 * 2 ^ s) from by rw [hdbl],
    sum_even_odd, Finset.mul_sum, hsub]
  congr 1
  · apply Finset.sum_congr rfl
    intro k _
    have e1 : 2 * k * 2 ^ (n - (s + 1)) = k * 2 ^ (n - s) := by
      rw [← hstride]; ring
    have e2 : omega (2 ^ (s + 1)) ^ (2 * k * t) = omega (2 ^ s) ^ (k * t) := by
      rw [← hsq, ← pow_mul]
      congr 1
      ring
    rw [e1, e2]
  · apply Finset.sum_congr rfl
    intro k _
    have e1 : m + (2 * k + 1) * 2 ^ (n - (s + 1)) = m + 2 ^ (n - (s + 1)) + k * 2 ^ (n - s) := by
      rw [← hstride]; ring
    have e2 : omega (2 ^ (s + 1)) ^ ((2 * k + 1) * t)
        = omega (2 ^ (s + 1)) ^ t * omega (2 ^ s) ^ (k * t) := by
      rw [← hsq, ← pow_mul, ← pow_add]
      congr 1
      ring
    rw [e1, e2]
    ring

/-- The butterfly: both halves of the larger sub-DFT. -/
theorem sub_dft_butterfly (x : Nat → ℂ) (n s m e t : Nat) (hs : s < n) (he : e < 2) :
    sub_dft x n (s + 1) m (e * 2 ^ s + t)
      = sub_dft x n s m t
        + (-1) ^ e * omega (2 ^ (s + 1)) ^ t * sub_dft x n s (m + 2 ^ (n - s - 1)) t := by
  have hpos : 0 < 2 ^ s := pow_pos (by norm_num) s
  rw [sub_dft_succ x n s m _ hs]
  interval_cases e
  · simp
  · have hh : omega (2 ^ (s + 1)) ^ (2 ^ s) = -1 := by
      have hdbl : 2 ^ (s + 1) = 2 * 2 ^ s := by rw [pow_succ]; ring
      rw [hdbl]
      exact omega_half _ hpos
    rw [Nat.one_mul, Nat.add_comm (2 ^ s) t, sub_dft_period, sub_dft_period, pow_add, hh]
    ring

theorem sub_dft_full (x : Nat → ℂ) (n t : Nat) : sub_dft x n n 0 t = dft (2 ^ n) x t := by
  rw [dft_eq_omega]
  unfold sub_dft
  apply Finset.sum_congr rfl
  intro k _
  rw [Nat.sub_self, pow_zero, Nat.mul_one, Nat.zero_add]

theorem pow_split (s : Nat) : 2 ^ (s + 1) = 2 ^ s + 2 ^ s := by
  rw [pow_succ]; ring

theorem layN_step (x : Nat → ℂ) (n s : Nat) (T : Nat → ℂ) (a b : Nat → ℂ) (hs : s < n)
    (hT : ∀ t, t < 2 ^ s → T t = omega (2 ^ (s + 1)) ^ t)
    (ha : LayN x n s a) (hp : IsPass n s T a b) : LayN x n (s + 1) b := by
  have hpos : 0 < 2 ^ s := pow_pos (by norm_num) s
  have hsub : n - s - 1 = n - (s + 1) := by omega
  have hu : n - s = (n - (s + 1)) + 1 := by omega
  intro b1 t1 hb1 ht1
  rw [pow_split] at ht1
  obtain ⟨e, t, he, ht, rfl⟩ : ∃ e t, e < 2 ∧ t < 2 ^ s ∧ t1 = e * 2 ^ s + t := by
    by_cases h : t1 < 2 ^ s
    · exact ⟨0, t1, by norm_num, h, by omega⟩
    · exact ⟨1, t1 - 2 ^ s, by norm_num, by omega, by omega⟩
  rw [← Nat.add_assoc, hp b1 e t (by rw [hsub]; exact hb1) he ht, hT t ht,
    sub_dft_butterfly x n s _ e t hs he]
  have hb2 : 2 * b1 + 1 < 2 ^ (n - s) := by
    rw [hu, pow_split]
    omega
  have i1 : b1 * 2 ^ (s + 1) + t = (2 * b1) * 2 ^ s + t := by rw [pow_succ]; ring
  have i2 : b1 * 2 ^ (s + 1) + 2 ^ s + t = (2 * b1 + 1) * 2 ^ s + t := by rw [pow_succ]; ring
  rw [i1, i2, ha (2 * b1) t (by omega) ht, ha (2 * b1 + 1) t hb2 ht, hu, rev_double,
    rev_double_add _ _ 1 (by norm_num), ← hu, hsub, Nat.one_mul, Nat.add_comm (2 ^ (n - (s + 1)))]

theorem layR_step (x : Nat → ℂ) (n s : Nat) (T : Nat → ℂ) (a b : Nat → ℂ)
    (hs : 2 * s + 2 ≤ n)
    (hT : ∀ t, t < 2 ^ s → T t = omega (2 ^ (s + 1)) ^ t)
    (ha : LayR x n s a) (hp : IsPassR n s T a b) : LayR x n (s + 1) b := by
  have hpos : 0 < 2 ^ s := pow_pos (by norm_num) s
  have hsub : n - s - 1 = n - (s + 1) := by omega
  have hc2 : n - 2 * s - 2 = n - 2 * (s + 1) := by omega
  intro top1 c1 t1 htop1 hc1 ht1
  rw [pow_split] at ht1 htop1
  obtain ⟨e, t, he, ht, rfl⟩ : ∃ e t, e < 2 ∧ t < 2 ^ s ∧ t1 = e * 2 ^ s + t := by
    by_cases h : t1 < 2 ^ s
    · exact ⟨0, t1, by norm_num, h, by omega⟩
    · exact ⟨1, t1 - 2 ^ s, by norm_num, by omega, by omega⟩
  obtain ⟨top, h, htop, hh, rfl⟩ : ∃ top h, top < 2 ^ s ∧ h < 2 ∧ top1 = 2 * top + h :=
    ⟨top1 / 2, top1 % 2, by omega, by omega, by omega⟩
  have hstride : 2 * 2 ^ (n - (s + 1)) = 2 ^ (n - s) := by
    obtain ⟨d, rfl⟩ : ∃ d, n = s + 1 + d := ⟨n - (s + 1), by omega⟩
    have e1 : s + 1 + d - (s + 1) = d := by omega
    have e2 : s + 1 + d - s = d + 1 := by omega
    rw [e1, e2, pow_succ]
    ring
  have hcs : 2 * 2 ^ (n - 2 * (s + 1)) * 2 ^ s = 2 ^ (n - (s + 1)) := by
    obtain ⟨d, rfl⟩ : ∃ d, n = 2 * s + 2 + d := ⟨n - (2 * s + 2), by omega⟩
    have e1 : 2 * s + 2 + d - 2 * (s + 1) = d := by omega
    have e2 : 2 * s + 2 + d - (s + 1) = d + s + 1 := by omega
    rw [e1, e2, pow_succ, pow_add]
    ring
  have hcrange : 2 ^ (n - 2 * s) = 4 * 2 ^ (n - 2 * (s + 1)) := by
    obtain ⟨d, rfl⟩ : ∃ d, n = 2 * s + 2 + d := ⟨n - (2 * s + 2), by omega⟩
    have e1 : 2 * s + 2 + d - 2 * (s + 1) = d := by omega
    have e2 : 2 * s + 2 + d - 2 * s = d + 2 := by omega
    rw [e1, e2, pow_add]
    ring
  have idx : (2 * top + h) * 2 ^ (n - (s + 1)) + c1 * 2 ^ (s + 1) + (e * 2 ^ s + t)
      = top * 2 ^ (n - s) + h * 2 ^ (n - s - 1) + c1 * 2 ^ (s + 1) + e * 2 ^ s + t := by
    rw [hsub, ← hstride]; ring
  rw [idx, hp top h c1 e t htop hh (by rw [hc2]; exact hc1) he ht, hT t ht]
  have i1 : top * 2 ^ (n - s) + c1 * 2 ^ (s + 1) + h * 2 ^ s + t
      = top * 2 ^ (n - s) + (2 * c1 + h) * 2 ^ s + t := by rw [pow_succ]; ring
  have i2 : top * 2 ^ (n - s) + 2 ^ (n - s - 1) + c1 * 2 ^ (s + 1) + h * 2 ^ s + t
      = top * 2 ^ (n - s) + (2 * 2 ^ (n - 2 * (s + 1)) + 2 * c1 + h) * 2 ^ s + t := by
    rw [hsub, ← hcs, pow_succ]; ring
  rw [i1, i2, ha top (2 * c1 + h) t htop (by omega) ht,
    ha top (2 * 2 ^ (n - 2 * (s + 1)) + 2 * c1 + h) t htop (by omega) ht,
    sub_dft_butterfly x n s _ e t (by omega) he, rev_double_add _ _ _ hh]
  have m1 : (2 * c1 + h) * 2 ^ s + rev s top = c1 * 2 ^ (s + 1) + (h * 2 ^ s + rev s top) := by
    rw [pow_succ]; ring
  have m2 : (2 * 2 ^ (n - 2 * (s + 1)) + 2 * c1 + h) * 2 ^ s + rev s top
      = c1 * 2 ^ (s + 1) + (h * 2 ^ s + rev s top) + 2 ^ (n - s - 1) := by
    rw [hsub, ← hcs, pow_succ]; ring
  rw [m1, m2]

theorem layR_to_layN (x : Nat → ℂ) (n s : Nat) (buf : Nat → ℂ) (h1 : 2 * s ≤ n)
    (h2 : n ≤ 2 * s + 1) (hl : LayR x n s buf) : LayN x n s buf := by
  intro b t hb ht
  rcases Nat.eq_or_lt_of_le h1 with he | hlt
  · -- n = 2 * s
    have e1 : n - s = s := by omega
    have e2 : n - 2 * s = 0 := by omega
    rw [e1] at hb ⊢
    have := hl b 0 t hb (by rw [e2]; norm_num) ht
    rw [e1, Nat.zero_mul, Nat.add_zero, Nat.zero_add] at this
    exact this
  · have e1 : n - s = s + 1 := by omega
    have e2 : n - 2 * s = 1 := by omega
    rw [e1] at hb ⊢
    rw [pow_split] at hb
    have := hl (b / 2) (b % 2) t (by omega) (by rw [e2]; omega) ht
    rw [e1] at this
    have idx : b / 2 * 2 ^ (s + 1) + b % 2 * 2 ^ s + t = b * 2 ^ s + t := by
      have hb2 : b = 2 * (b / 2) + b % 2 := by omega
      rw [pow_succ]
      nth_rewrite 3 [hb2]
      ring
    rw [idx] at this
    rw [this, rev]

theorem layN_final (x : Nat → ℂ) (n : Nat) (buf : Nat → ℂ) (hl : LayN x n n buf) (t : Nat)
    (ht : t < 2 ^ n) : buf t = dft (2 ^ n) x t := by
  have := hl 0 t (by rw [Nat.sub_self]; norm_num) ht
  rw [Nat.zero_mul, Nat.zero_add, Nat.sub_self] at this
  rw [this, ← sub_dft_full]
  rfl

theorem iter_steps_front {S : Type} (step : Nat → S → S) :
    ∀ M s, iter_steps step (M + 1) s = iter_steps (fun J => step (J + 1)) M (step 0 s) := by
  intro M
  induction M with
  | zero => intro s; rfl
  | succ n ih =>
    intro s
    show step (n + 1) (iter_steps step (n + 1) s) = _
    rw [ih]
    rfl

/-- Steps with pairwise disjoint footprints, each reading only its own footprint: every
element is the result of the one step that owns it, applied to the initial buffer. -/
theorem iter_steps_scatter (step : Nat → Split ℝ → Split ℝ) (foot : Nat → Nat → Prop)
    (M0 : Nat)
    (hout : ∀ J s idx, J < M0 → ¬ foot J idx → cplx (step J s) idx = cplx s idx)
    (hloc : ∀ J s s1, J < M0 → (∀ idx, foot J idx → cplx s idx = cplx s1 idx) →
      ∀ idx, foot J idx → cplx (step J s) idx = cplx (step J s1) idx)
    (hdisj : ∀ J J1 idx, J < M0 → J1 < M0 → foot J idx → foot J1 idx → J = J1) :
    ∀ M s, M ≤ M0 →
      (∀ J idx, J < M → foot J idx → cplx (iter_steps step M s) idx = cplx (step J s) idx) ∧
      (∀ idx, (∀ J, J < M → ¬ foot J idx) → cplx (iter_steps step M s) idx = cplx s idx) := by
  intro M
  induction M with
  | zero =>
    intro s _
    exact ⟨fun J idx hJ => absurd hJ (Nat.not_lt_zero _), fun idx _ => rfl⟩
  | succ n ih =>
    intro s hM
    obtain ⟨ih1, ih2⟩ := ih s (by omega)
    constructor
    · intro J idx hJ hf
      show cplx (step n (iter_steps step n s)) idx = _
      by_cases hJn : J = n
      · subst hJn
        apply hloc J _ _ (by omega) _ idx hf
        intro idx1 hf1
        apply ih2
        intro J1 hJ1 hf2
        have := hdisj J1 J idx1 (by omega) (by omega) hf2 hf1
        omega
      · have hnf : ¬ foot n idx := by
          intro hfn
          have := hdisj J n idx (by omega) (by omega) hf hfn
          omega
        rw [hout n _ idx (by omega) hnf]
        exact ih1 J idx (by omega) hf
    · intro idx hno
      show cplx (step n (iter_steps step n s)) idx = _
      rw [hout n _ idx (by omega) (hno n (by omega))]
      exact ih2 idx (fun J hJ => hno J (by omega))

theorem cplx_update (r i : Nat → ℝ) (idx : Nat) :
    cplx { realp := r, imagp := i } idx = ⟨r idx, i idx⟩ := rfl

/-- One butterfly of `pass_trig_table` in complex terms. -/
theorem pass_trig_table_body_cplx (table s : Split ℝ) (tr r1 r2 idx : Nat) (h12 : r1 ≠ r2) :
    cplx (pass_trig_table_body table s tr r1 r2) idx =
      if idx = r1 then cplx s r1 + cplx table tr * cplx s r2
      else if idx = r2 then cplx s r1 - cplx table tr * cplx s r2
      else cplx s idx := by
  unfold pass_trig_table_body cplx
  dsimp only
  by_cases c1 : idx = r1
  · subst c1
    rw [if_pos rfl, Function.update_noteq h12, Function.update_same,
      Function.update_noteq h12, Function.update_same]
    apply Complex.ext <;> simp <;> ring
  · rw [if_neg c1]
    by_cases c2 : idx = r2
    · subst c2
      rw [if_pos rfl, Function.update_same, Function.update_same]
      apply Complex.ext <;> simp <;> ring
    · rw [if_neg c2, Function.update_noteq c2, Function.update_noteq c1,
        Function.update_noteq c2, Function.update_noteq c1]

theorem pass_trig_table_inner_eq (table : Split ℝ) (loop : Nat) :
    ∀ (cnt fuel i tr r1 r2 : Nat) (input : Split ℝ), cnt ≤ fuel → i + 2 * cnt = loop →
      pass_trig_table_inner table loop fuel i tr r1 r2 input
        = (loop, r1 + cnt, r2 + cnt,
            iter_steps (fun τ s => pass_trig_table_body table s (tr + τ) (r1 + τ) (r2 + τ))
              cnt input) := by
  intro cnt
  induction cnt with
  | zero =>
    intro fuel i tr r1 r2 input _ hi
    have : i = loop := by omega
    subst this
    cases fuel with
    | zero => rfl
    | succ f =>
      rw [pass_trig_table_inner, if_neg (by omega)]
      rfl
  | succ n ih =>
    intro fuel i tr r1 r2 input hf hi
    obtain ⟨f, rfl⟩ : ∃ f, fuel = f + 1 := ⟨fuel - 1, by omega⟩
    rw [pass_trig_table_inner, if_pos (by omega), ih f (i + 2) (tr + 1) (r1 + 1) (r2 + 1) _
      (by omega) (by omega), iter_steps_front]
    have e : (fun τ s => pass_trig_table_body table s (tr + 1 + τ) (r1 + 1 + τ) (r2 + 1 + τ))
        = (fun J => (fun τ s => pass_trig_table_body table s (tr + τ) (r1 + τ) (r2 + τ))
            (J + 1)) := by
      funext τ s
      have a1 : tr + 1 + τ = tr + (τ + 1) := by omega
      have a2 : r1 + 1 + τ = r1 + (τ + 1) := by omega
      have a3 : r2 + 1 + τ = r2 + (τ + 1) := by omega
      rw [a1, a2, a3]
    rw [e]
    have b1 : r1 + 1 + n = r1 + (n + 1) := by omega
    have b2 : r2 + 1 + n = r2 + (n + 1) := by omega
    rw [b1, b2]
    rfl

theorem pass_trig_table_outer_eq (table : Split ℝ) (length h : Nat) (hh : 0 < h) :
    ∀ (cnt fuel K : Nat) (input : Split ℝ), cnt ≤ fuel → (K + cnt) * (2 * h) = length →
      pass_trig_table_outer table length (2 * h) h fuel (K * (2 * h)) (K * (2 * h) + 2 * h)
          (K * (2 * h)) (K * (2 * h) + h) input
        = iter_steps (fun K1 s =>
            iter_steps (fun τ s => pass_trig_table_body table s τ ((K + K1) * (2 * h) + τ)
              ((K + K1) * (2 * h) + h + τ)) h s) cnt input := by
  intro cnt
  induction cnt with
  | zero =>
    intro fuel K input _ hK
    rw [Nat.add_zero] at hK
    cases fuel with
    | zero => rfl
    | succ f =>
      rw [pass_trig_table_outer, if_neg (by omega)]
      rfl
  | succ n ih =>
    intro fuel K input hf hK
    obtain ⟨f, rfl⟩ : ∃ f, fuel = f + 1 := ⟨fuel - 1, by omega⟩
    have hlt : K * (2 * h) < length := by
      rw [← hK, Nat.add_mul, Nat.add_mul]
      have : 0 < 1 * (2 * h) := by omega
      omega
    rw [pass_trig_table_outer, if_pos hlt]
    dsimp only
    rw [pass_trig_table_inner_eq table (K * (2 * h) + 2 * h) h (2 * h) (K * (2 * h)) 0
      (K * (2 * h)) (K * (2 * h) + h) input (by omega) (by omega)]
    dsimp only
    have e1 : K * (2 * h) + 2 * h = (K + 1) * (2 * h) := by ring
    have e2 : K * (2 * h) + h + h = (K + 1) * (2 * h) := by ring
    rw [e2, e1, ih f (K + 1) _ (by omega) (by rw [← hK]; ring), iter_steps_front]
    have e : (fun K1 (s : Split ℝ) =>
        iter_steps (fun τ s => pass_trig_table_body table s τ ((K + 1 + K1) * (2 * h) + τ)
          ((K + 1 + K1) * (2 * h) + h + τ)) h s)
        = (fun J => (fun K1 (s : Split ℝ) =>
            iter_steps (fun τ s => pass_trig_table_body table s τ ((K + K1) * (2 * h) + τ)
              ((K + K1) * (2 * h) + h + τ)) h s) (J + 1)) := by
      funext K1 s
      have a1 : K + 1 + K1 = K + (K1 + 1) := by omega
      rw [a1]
    rw [e]
    dsimp only
    simp only [Nat.zero_add, Nat.add_zero]

/-- One block of `pass_trig_table`: the butterflies of the inner loop. -/
theorem pass_trig_block_spec (table s : Split ℝ) (base h : Nat) :
    (∀ t, t < h →
      cplx (iter_steps (fun τ s => pass_trig_table_body table s τ (base + τ) (base + h + τ))
          h s) (base + t)
        = cplx s (base + t) + cplx table t * cplx s (base + h + t) ∧
      cplx (iter_steps (fun τ s => pass_trig_table_body table s τ (base + τ) (base + h + τ))
          h s) (base + h + t)
        = cplx s (base + t) - cplx table t * cplx s (base + h + t)) ∧
    (∀ idx, idx < base ∨ base + 2 * h ≤ idx →
      cplx (iter_steps (fun τ s => pass_trig_table_body table s τ (base + τ) (base + h + τ))
          h s) idx = cplx s idx) := by
  have key := iter_steps_scatter
    (fun τ s => pass_trig_table_body table s τ (base + τ) (base + h + τ))
    (fun τ idx => idx = base + τ ∨ idx = base + h + τ) h
    (by
      intro J s idx hJ hnf
      dsimp only
      rw [pass_trig_table_body_cplx table s J _ _ idx (by omega),
        if_neg (fun hc => hnf (Or.inl hc)), if_neg (fun hc => hnf (Or.inr hc))])
    (by
      intro J s s1 hJ hag idx hf
      dsimp only
      rw [pass_trig_table_body_cplx table s J _ _ idx (by omega),
        pass_trig_table_body_cplx table s1 J _ _ idx (by omega),
        hag (base + J) (Or.inl rfl), hag (base + h + J) (Or.inr rfl)]
      rcases hf with hf | hf
      · rw [if_pos hf, if_pos hf]
      · have hne : ¬ idx = base + J := by omega
        rw [if_neg hne, if_neg hne, if_pos hf, if_pos hf])
    (by
      intro J J1 idx hJ hJ1 hf hf1
      rcases hf with hf | hf <;> rcases hf1 with hf1 | hf1 <;> omega)
    h s (le_refl _)
  obtain ⟨k1, k2⟩ := key
  refine ⟨?_, ?_⟩
  · intro t ht
    constructor
    · rw [k1 t (base + t) ht (Or.inl rfl)]
      dsimp only
      rw [pass_trig_table_body_cplx table s t _ _ _ (by omega), if_pos rfl]
    · rw [k1 t (base + h + t) ht (Or.inr rfl)]
      dsimp only
      rw [pass_trig_table_body_cplx table s t _ _ _ (by omega), if_neg (by omega), if_pos rfl]
  · intro idx hidx
    apply k2
    intro J hJ hf
    rcases hf with hf | hf <;> omega

theorem shift_two (p : Nat) : 2 <<< p = 2 * 2 ^ p := by
  rw [Nat.shiftLeft_eq]

theorem pow_sub_one_double (n p : Nat) (hp : p < n) : 2 ^ (n - p - 1) * (2 * 2 ^ p) = 2 ^ n := by
  obtain ⟨d, rfl⟩ : ∃ d, n = p + 1 + d := ⟨n - (p + 1), by omega⟩
  have e1 : p + 1 + d - p - 1 = d := by omega
  rw [e1, pow_add, pow_succ]
  ring

/-- `pass_trig_table` is an in-place radix-2 pass with the twiddles of its table. -/
theorem pass_trig_table_isPass (input : Split ℝ) (setup : Setup ℝ) (n p : Nat) (hp : p < n) :
    IsPass n p (fun t => cplx (setup.tables (p - 2)) t) (cplx input)
      (cplx (pass_trig_table input setup (2 ^ n) p)) := by
  have hh : 0 < 2 ^ p := pow_pos (by norm_num) p
  have hcnt := pow_sub_one_double n p hp
  have hfuel : 2 ^ (n - p - 1) ≤ 2 ^ n := by
    rw [← hcnt]
    exact Nat.le_mul_of_pos_right _ (by omega)
  have hloop := pass_trig_table_outer_eq (setup.tables (p - 2)) (2 ^ n) (2 ^ p) hh
    (2 ^ (n - p - 1)) (2 ^ n) 0 input hfuel (by rw [Nat.zero_add]; exact hcnt)
  simp only [Nat.zero_mul, Nat.zero_add] at hloop
  have hpass : pass_trig_table input setup (2 ^ n) p
      = iter_steps (fun K1 s =>
          iter_steps (fun τ s => pass_trig_table_body (setup.tables (p - 2)) s τ
            (K1 * (2 * 2 ^ p) + τ) (K1 * (2 * 2 ^ p) + 2 ^ p + τ)) (2 ^ p) s)
          (2 ^ (n - p - 1)) input := by
    rw [← hloop]
    unfold pass_trig_table trig_table_offset
    simp only [shift_two, Nat.shiftLeft_eq, Nat.shiftRight_eq_div_pow, pow_one, Nat.one_mul,
      Nat.div_one]
    have e : 2 * 2 ^ p / 2 = 2 ^ p := by omega
    rw [e]
  rw [hpass]
  obtain ⟨k1, -⟩ := iter_steps_scatter
    (fun K1 s =>
          iter_steps (fun τ s => pass_trig_table_body (setup.tables (p - 2)) s τ
            (K1 * (2 * 2 ^ p) + τ) (K1 * (2 * 2 ^ p) + 2 ^ p + τ)) (2 ^ p) s)
    (fun K idx => K * (2 * 2 ^ p) ≤ idx ∧ idx < K * (2 * 2 ^ p) + 2 * 2 ^ p)
    (2 ^ (n - p - 1))
    (by
      intro J s idx _ hnf
      exact (pass_trig_block_spec (setup.tables (p - 2)) s (J * (2 * 2 ^ p)) (2 ^ p)).2 idx
        (by omega))
    (by
      intro J s s1 _ hag idx hf
      obtain ⟨hf1, hf2⟩ := hf
      obtain ⟨t, ht, hcase⟩ : ∃ t, t < 2 ^ p ∧
          (idx = J * (2 * 2 ^ p) + t ∨ idx = J * (2 * 2 ^ p) + 2 ^ p + t) := by
        by_cases hc : idx < J * (2 * 2 ^ p) + 2 ^ p
        · exact ⟨idx - J * (2 * 2 ^ p), by omega, Or.inl (by omega)⟩
        · exact ⟨idx - J * (2 * 2 ^ p) - 2 ^ p, by omega, Or.inr (by omega)⟩
      have g1 := hag (J * (2 * 2 ^ p) + t) (by omega)
      have g2 := hag (J * (2 * 2 ^ p) + 2 ^ p + t) (by omega)
      rcases hcase with hc | hc
      · rw [hc, ((pass_trig_block_spec (setup.tables (p - 2)) s (J * (2 * 2 ^ p))
            (2 ^ p)).1 t ht).1,
          ((pass_trig_block_spec (setup.tables (p - 2)) s1 (J * (2 * 2 ^ p))
            (2 ^ p)).1 t ht).1, g1, g2]
      · rw [hc, ((pass_trig_block_spec (setup.tables (p - 2)) s (J * (2 * 2 ^ p))
            (2 ^ p)).1 t ht).2,
          ((pass_trig_block_spec (setup.tables (p - 2)) s1 (J * (2 * 2 ^ p))
            (2 ^ p)).1 t ht).2, g1, g2])
    (by
      intro J J1 idx _ _ hf hf1
      obtain ⟨a1, a2⟩ := hf
      obtain ⟨b1, b2⟩ := hf1
      rcases Nat.lt_trichotomy J J1 with hlt | heq | hgt
      · have : (J + 1) * (2 * 2 ^ p) ≤ J1 * (2 * 2 ^ p) := Nat.mul_le_mul_right _ hlt
        rw [Nat.add_mul, Nat.one_mul] at this
        omega
      · exact heq
      · have : (J1 + 1) * (2 * 2 ^ p) ≤ J * (2 * 2 ^ p) := Nat.mul_le_mul_right _ hgt
        rw [Nat.add_mul, Nat.one_mul] at this
        omega)
    (2 ^ (n - p - 1)) input (le_refl _)
  intro k e t hk he ht
  have hidx : k * 2 ^ (p + 1) = k * (2 * 2 ^ p) := by rw [pow_succ]; ring
  rw [hidx, k1 k _ hk (by interval_cases e <;> omega)]
  dsimp only
  interval_cases e
  · rw [Nat.zero_mul, Nat.add_zero,
      ((pass_trig_block_spec (setup.tables (p - 2)) input (k * (2 * 2 ^ p)) (2 ^ p)).1 t ht).1]
    simp
  · rw [Nat.one_mul,
      ((pass_trig_block_spec (setup.tables (p - 2)) input (k * (2 * 2 ^ p)) (2 ^ p)).1 t ht).2]
    ring

theorem succ_div_cases (P s : Nat) (hP : 1 ≤ P) :
    (s + 1) / P = if s % P + 1 = P then s / P + 1 else s / P := by
  have hdm := Nat.div_add_mod s P
  have hlt : s % P < P := Nat.mod_lt _ (by omega)
  split_ifs with h
  · have e : s + 1 = P * (s / P + 1) := by rw [Nat.mul_add, Nat.mul_one]; omega
    rw [e, Nat.mul_div_cancel_left _ (by omega)]
  · have e : s + 1 = (s % P + 1) + P * (s / P) := by omega
    rw [e, Nat.add_mul_div_left _ _ (by omega), Nat.div_eq_of_lt (by omega), Nat.zero_add]

theorem rbase_closed (u off oL : Nat) (hoL : 1 ≤ oL) :
    ∀ K, rbase u off oL K = (K / oL) * (oL * u + off) + (K % oL) * u := by
  intro K
  induction K with
  | zero => simp [rbase]
  | succ n ih =>
    rw [rbase, ih, succ_mod_cases oL n hoL, succ_div_cases oL n hoL]
    by_cases h : n % oL + 1 = oL
    · rw [if_pos h, if_pos h, if_pos rfl]
      have hoLeq : oL * u = (n % oL) * u + u := by
        nth_rewrite 1 [← h]
        ring
      rw [Nat.add_mul, Nat.one_mul, Nat.zero_mul, Nat.add_zero, hoLeq]
      ring
    · rw [if_neg h, if_neg h, if_neg (by omega)]
      ring

theorem rbase_decomp (u off oL top c : Nat) (hoL : 1 ≤ oL) (hc : c < oL) :
    rbase u off oL (top * oL + c) = top * (oL * u + off) + c * u := by
  rw [rbase_closed u off oL hoL]
  have h1 : (top * oL + c) / oL = top := by
    rw [Nat.add_comm, Nat.add_mul_div_right _ _ (by omega), Nat.div_eq_of_lt hc, Nat.zero_add]
  have h2 : (top * oL + c) % oL = c := by
    rw [Nat.add_comm, Nat.add_mul_mod_self_right, Nat.mod_eq_of_lt hc]
  rw [h1, h2]

/-- One double butterfly of `pass_trig_table_reorder` in complex terms. -/
theorem pass_trig_table_reorder_body_cplx (table s : Split ℝ) (incr tr r1 r2 idx : Nat)
    (hincr : 0 < incr) (h12 : r1 + incr < r2) :
    cplx (pass_trig_table_reorder_body table incr s tr r1 r2) idx =
      if idx = r1 then cplx s r1 + cplx table tr * cplx s r2
      else if idx = r1 + incr then cplx s r1 - cplx table tr * cplx s r2
      else if idx = r2 then cplx s (r1 + incr) + cplx table tr * cplx s (r2 + incr)
      else if idx = r2 + incr then cplx s (r1 + incr) - cplx table tr * cplx s (r2 + incr)
      else cplx s idx := by
  unfold pass_trig_table_reorder_body cplx
  dsimp only
  by_cases c1 : idx = r1
  · subst c1
    rw [if_pos rfl, Function.update_noteq (by omega), Function.update_noteq (by omega),
      Function.update_noteq (by omega), Function.update_same,
      Function.update_noteq (by omega), Function.update_noteq (by omega),
      Function.update_noteq (by omega), Function.update_same]
    apply Complex.ext <;> simp <;> ring
  · rw [if_neg c1]
    by_cases c2 : idx = r1 + incr
    · subst c2
      rw [if_pos rfl, Function.update_noteq (by omega), Function.update_noteq (by omega),
        Function.update_same,
        Function.update_noteq (by omega), Function.update_noteq (by omega),
        Function.update_same]
      apply Complex.ext <;> simp <;> ring
    · rw [if_neg c2]
      by_cases c3 : idx = r2
      · subst c3
        rw [if_pos rfl, Function.update_noteq (by omega), Function.update_same,
          Function.update_noteq (by omega), Function.update_same]
        apply Complex.ext <;> simp <;> ring
      · rw [if_neg c3]
        by_cases c4 : idx = r2 + incr
        · subst c4
          rw [if_pos rfl, Function.update_same, Function.update_same]
          apply Complex.ext <;> simp <;> ring
        · rw [if_neg c4, Function.update_noteq c4, Function.update_noteq c3,
            Function.update_noteq c2, Function.update_noteq c1,
            Function.update_noteq c4, Function.update_noteq c3,
            Function.update_noteq c2, Function.update_noteq c1]

theorem pass_trig_table_reorder_inner_eq (table : Split ℝ) (incr loop : Nat) :
    ∀ (cnt fuel i tr r1 r2 : Nat) (input : Split ℝ), cnt ≤ fuel → i + 2 * cnt = loop →
      pass_trig_table_reorder_inner table incr loop fuel i tr r1 r2 input
        = (loop, r1 + cnt, r2 + cnt,
            iter_steps (fun τ s =>
              pass_trig_table_reorder_body table incr s (tr + τ) (r1 + τ) (r2 + τ))
              cnt input) := by
  intro cnt
  induction cnt with
  | zero =>
    intro fuel i tr r1 r2 input _ hi
    have : i = loop := by omega
    subst this
    cases fuel with
    | zero => rfl
    | succ f =>
      rw [pass_trig_table_reorder_inner, if_neg (by omega)]
      rfl
  | succ n ih =>
    intro fuel i tr r1 r2 input hf hi
    obtain ⟨f, rfl⟩ : ∃ f, fuel = f + 1 := ⟨fuel - 1, by omega⟩
    rw [pass_trig_table_reorder_inner, if_pos (by omega),
      ih f (i + 2) (tr + 1) (r1 + 1) (r2 + 1) _ (by omega) (by omega), iter_steps_front]
    have e : (fun τ s =>
          pass_trig_table_reorder_body table incr s (tr + 1 + τ) (r1 + 1 + τ) (r2 + 1 + τ))
        = (fun J => (fun τ s =>
            pass_trig_table_reorder_body table incr s (tr + τ) (r1 + τ) (r2 + τ)) (J + 1)) := by
      funext τ s
      have a1 : tr + 1 + τ = tr + (τ + 1) := by omega
      have a2 : r1 + 1 + τ = r1 + (τ + 1) := by omega
      have a3 : r2 + 1 + τ = r2 + (τ + 1) := by omega
      rw [a1, a2, a3]
    rw [e]
    have b1 : r1 + 1 + n = r1 + (n + 1) := by omega
    have b2 : r2 + 1 + n = r2 + (n + 1) := by omega
    rw [b1, b2]
    rfl

theorem pass_trig_table_reorder_outer_eq (table : Split ℝ) (length h offset oL : Nat)
    (hh : 0 < h) :
    ∀ (cnt fuel K : Nat) (input : Split ℝ), cnt ≤ fuel →
      (K + cnt) * (2 * h) = length >>> 1 →
      pass_trig_table_reorder_outer table length (2 * h) h offset oL fuel (K * (2 * h)) K
          (K * (2 * h) + 2 * h) (rbase (2 * h) offset oL K)
          (rbase (2 * h) offset oL K + offset) input
        = iter_steps (fun K1 s =>
            iter_steps (fun τ s => pass_trig_table_reorder_body table h s τ
              (rbase (2 * h) offset oL (K + K1) + τ)
              (rbase (2 * h) offset oL (K + K1) + offset + τ)) h s) cnt input := by
  intro cnt
  induction cnt with
  | zero =>
    intro fuel K input _ hK
    rw [Nat.add_zero] at hK
    cases fuel with
    | zero => rfl
    | succ f =>
      rw [pass_trig_table_reorder_outer, if_neg (by omega)]
      rfl
  | succ n ih =>
    intro fuel K input hf hK
    obtain ⟨f, rfl⟩ : ∃ f, fuel = f + 1 := ⟨fuel - 1, by omega⟩
    have hlt : K * (2 * h) < length >>> 1 := by
      rw [← hK, Nat.add_mul, Nat.add_mul]
      have : 0 < 1 * (2 * h) := by omega
      omega
    rw [pass_trig_table_reorder_outer, if_pos hlt]
    dsimp only
    rw [pass_trig_table_reorder_inner_eq table h (K * (2 * h) + 2 * h) h (2 * h) (K * (2 * h)) 0
      (rbase (2 * h) offset oL K) (rbase (2 * h) offset oL K + offset) input (by omega)
      (by omega)]
    dsimp only
    have e1 : K * (2 * h) + 2 * h = (K + 1) * (2 * h) := by ring
    have hnext : ∀ (s : Split ℝ),
        pass_trig_table_reorder_outer table length (2 * h) h offset oL f ((K + 1) * (2 * h))
          (K + 1) ((K + 1) * (2 * h) + 2 * h) (rbase (2 * h) offset oL (K + 1))
          (rbase (2 * h) offset oL (K + 1) + offset) s
        = iter_steps (fun K1 s =>
            iter_steps (fun τ s => pass_trig_table_reorder_body table h s τ
              (rbase (2 * h) offset oL (K + 1 + K1) + τ)
              (rbase (2 * h) offset oL (K + 1 + K1) + offset + τ)) h s) n s :=
      fun s => ih f (K + 1) s (by omega) (by rw [← hK]; ring)
    have hfront : iter_steps (fun K1 s =>
            iter_steps (fun τ s => pass_trig_table_reorder_body table h s τ
              (rbase (2 * h) offset oL (K + K1) + τ)
              (rbase (2 * h) offset oL (K + K1) + offset + τ)) h s) (n + 1) input
        = iter_steps (fun K1 s =>
            iter_steps (fun τ s => pass_trig_table_reorder_body table h s τ
              (rbase (2 * h) offset oL (K + 1 + K1) + τ)
              (rbase (2 * h) offset oL (K + 1 + K1) + offset + τ)) h s) n
            (iter_steps (fun τ s => pass_trig_table_reorder_body table h s τ
              (rbase (2 * h) offset oL K + τ)
              (rbase (2 * h) offset oL K + offset + τ)) h input) := by
      rw [iter_steps_front]
      have e : (fun K1 (s : Split ℝ) =>
            iter_steps (fun τ s => pass_trig_table_reorder_body table h s τ
              (rbase (2 * h) offset oL (K + 1 + K1) + τ)
              (rbase (2 * h) offset oL (K + 1 + K1) + offset + τ)) h s)
          = (fun J => (fun K1 (s : Split ℝ) =>
            iter_steps (fun τ s => pass_trig_table_reorder_body table h s τ
              (rbase (2 * h) offset oL (K + K1) + τ)
              (rbase (2 * h) offset oL (K + K1) + offset + τ)) h s) (J + 1)) := by
        funext K1 s
        have a1 : K + 1 + K1 = K + (K1 + 1) := by omega
        rw [a1]
      rw [e]
      rfl
    rw [hfront, ← hnext]
    simp only [Nat.zero_add]
    by_cases hw : (K + 1) % oL = 0
    · rw [if_pos hw]
      have r1 : rbase (2 * h) offset oL K + h + h + offset = rbase (2 * h) offset oL (K + 1) := by
        rw [rbase, if_pos hw]; ring
      have r2 : rbase (2 * h) offset oL K + offset + h + h + offset
          = rbase (2 * h) offset oL (K + 1) + offset := by
        rw [rbase, if_pos hw]; ring
      rw [r1, r2, e1]
    · rw [if_neg hw]
      have r1 : rbase (2 * h) offset oL K + h + h = rbase (2 * h) offset oL (K + 1) := by
        rw [rbase, if_neg hw]; ring
      have r2 : rbase (2 * h) offset oL K + offset + h + h
          = rbase (2 * h) offset oL (K + 1) + offset := by
        rw [rbase, if_neg hw]; ring
      rw [r1, r2, e1]

/-- One block pair of `pass_trig_table_reorder`: the double butterflies of the inner loop. -/
theorem pass_trig_reorder_block_spec (table s : Split ℝ) (b1 b2 h : Nat)
    (h12 : b1 + 2 * h ≤ b2) :
    (∀ t, t < h →
      cplx (iter_steps (fun τ s => pass_trig_table_reorder_body table h s τ (b1 + τ) (b2 + τ))
          h s) (b1 + t)
        = cplx s (b1 + t) + cplx table t * cplx s (b2 + t) ∧
      cplx (iter_steps (fun τ s => pass_trig_table_reorder_body table h s τ (b1 + τ) (b2 + τ))
          h s) (b1 + t + h)
        = cplx s (b1 + t) - cplx table t * cplx s (b2 + t) ∧
      cplx (iter_steps (fun τ s => pass_trig_table_reorder_body table h s τ (b1 + τ) (b2 + τ))
          h s) (b2 + t)
        = cplx s (b1 + t + h) + cplx table t * cplx s (b2 + t + h) ∧
      cplx (iter_steps (fun τ s => pass_trig_table_reorder_body table h s τ (b1 + τ) (b2 + τ))
          h s) (b2 + t + h)
        = cplx s (b1 + t + h) - cplx table t * cplx s (b2 + t + h)) ∧
    (∀ idx, ¬ (b1 ≤ idx ∧ idx < b1 + 2 * h) → ¬ (b2 ≤ idx ∧ idx < b2 + 2 * h) →
      cplx (iter_steps (fun τ s => pass_trig_table_reorder_body table h s τ (b1 + τ) (b2 + τ))
          h s) idx = cplx s idx) := by
  have key := iter_steps_scatter
    (fun τ s => pass_trig_table_reorder_body table h s τ (b1 + τ) (b2 + τ))
    (fun τ idx => idx = b1 + τ ∨ idx = b1 + τ + h ∨ idx = b2 + τ ∨ idx = b2 + τ + h) h
    (by
      intro J s idx hJ hnf
      dsimp only
      rw [pass_trig_table_reorder_body_cplx table s h J _ _ idx (by omega) (by omega),
        if_neg (fun hc => hnf (Or.inl hc)), if_neg (fun hc => hnf (Or.inr (Or.inl hc))),
        if_neg (fun hc => hnf (Or.inr (Or.inr (Or.inl hc)))),
        if_neg (fun hc => hnf (Or.inr (Or.inr (Or.inr hc))))])
    (by
      intro J s s1 hJ hag idx hf
      dsimp only
      rw [pass_trig_table_reorder_body_cplx table s h J _ _ idx (by omega) (by omega),
        pass_trig_table_reorder_body_cplx table s1 h J _ _ idx (by omega) (by omega),
        hag (b1 + J) (Or.inl rfl), hag (b1 + J + h) (Or.inr (Or.inl rfl)),
        hag (b2 + J) (Or.inr (Or.inr (Or.inl rfl))),
        hag (b2 + J + h) (Or.inr (Or.inr (Or.inr rfl)))]
      rcases hf with hf | hf | hf | hf
      · rw [if_pos hf, if_pos hf]
      · have n1 : ¬ idx = b1 + J := by omega
        rw [if_neg n1, if_neg n1, if_pos hf, if_pos hf]
      · have n1 : ¬ idx = b1 + J := by omega
        have n2 : ¬ idx = b1 + J + h := by omega
        rw [if_neg n1, if_neg n1, if_neg n2, if_neg n2, if_pos hf, if_pos hf]
      · have n1 : ¬ idx = b1 + J := by omega
        have n2 : ¬ idx = b1 + J + h := by omega
        have n3 : ¬ idx = b2 + J := by omega
        rw [if_neg n1, if_neg n1, if_neg n2, if_neg n2, if_neg n3, if_neg n3, if_pos hf,
          if_pos hf])
    (by
      intro J J1 idx hJ hJ1 hf hf1
      rcases hf with hf | hf | hf | hf <;> rcases hf1 with hf1 | hf1 | hf1 | hf1 <;> omega)
    h s (le_refl _)
  obtain ⟨k1, k2⟩ := key
  refine ⟨?_, ?_⟩
  · intro t ht
    have n1 : ¬ b1 + t + h = b1 + t := by omega
    have n2 : ¬ b2 + t = b1 + t := by omega
    have n3 : ¬ b2 + t = b1 + t + h := by omega
    have n4 : ¬ b2 + t + h = b1 + t := by omega
    have n5 : ¬ b2 + t + h = b1 + t + h := by omega
    have n6 : ¬ b2 + t + h = b2 + t := by omega
    refine ⟨?_, ?_, ?_, ?_⟩
    · rw [k1 t (b1 + t) ht (Or.inl rfl)]
      dsimp only
      rw [pass_trig_table_reorder_body_cplx table s h t _ _ _ (by omega) (by omega), if_pos rfl]
    · rw [k1 t (b1 + t + h) ht (Or.inr (Or.inl rfl))]
      dsimp only
      rw [pass_trig_table_reorder_body_cplx table s h t _ _ _ (by omega) (by omega),
        if_neg n1, if_pos rfl]
    · rw [k1 t (b2 + t) ht (Or.inr (Or.inr (Or.inl rfl)))]
      dsimp only
      rw [pass_trig_table_reorder_body_cplx table s h t _ _ _ (by omega) (by omega),
        if_neg n2, if_neg n3, if_pos rfl]
    · rw [k1 t (b2 + t + h) ht (Or.inr (Or.inr (Or.inr rfl)))]
      dsimp only
      rw [pass_trig_table_reorder_body_cplx table s h t _ _ _ (by omega) (by omega),
        if_neg n4, if_neg n5, if_neg n6, if_pos rfl]
  · intro idx hn1 hn2
    apply k2
    intro J hJ hf
    rcases hf with hf | hf | hf | hf <;> omega

theorem rbase_eq_blk (u oL K : Nat) (hoL : 1 ≤ oL) :
    rbase u (oL * u) oL K = rblk oL K * u := by
  rw [rbase_closed u (oL * u) oL hoL, rblk]
  ring

theorem div_mod_of_lt (X c P : Nat) (hc : c < P) : (X * P + c) / P = X ∧ (X * P + c) % P = c := by
  constructor
  · rw [Nat.add_comm, Nat.add_mul_div_right _ _ (by omega), Nat.div_eq_of_lt hc, Nat.zero_add]
  · rw [Nat.add_comm, Nat.add_mul_mod_self_right, Nat.mod_eq_of_lt hc]

theorem rblk_inj (oL K K1 : Nat) (hoL : 1 ≤ oL) :
    (rblk oL K = rblk oL K1 → K = K1) ∧ rblk oL K ≠ rblk oL K1 + oL := by
  have hK := Nat.mod_lt K (show 0 < oL by omega)
  have hK1 := Nat.mod_lt K1 (show 0 < oL by omega)
  have a1 := div_mod_of_lt (2 * (K / oL)) (K % oL) oL hK
  have a2 := div_mod_of_lt (2 * (K1 / oL)) (K1 % oL) oL hK1
  have a3 := div_mod_of_lt (2 * (K1 / oL) + 1) (K1 % oL) oL hK1
  constructor
  · intro h
    unfold rblk at h
    have d1 := a1.1
    have m1 := a1.2
    rw [h, a2.1] at d1
    rw [h, a2.2] at m1
    have e1 := Nat.div_add_mod K oL
    have e2 := Nat.div_add_mod K1 oL
    have : K / oL = K1 / oL := by omega
    rw [this, ← m1] at e1
    omega
  · intro h
    unfold rblk at h
    have e : 2 * (K1 / oL) * oL + K1 % oL + oL = (2 * (K1 / oL) + 1) * oL + K1 % oL := by ring
    rw [e] at h
    have d1 := a1.1
    rw [h, a3.1] at d1
    omega

theorem rblk_decomp (oL top c : Nat) (hc : c < oL) : rblk oL (top * oL + c) = 2 * top * oL + c := by
  unfold rblk
  rw [(div_mod_of_lt top c oL hc).1, (div_mod_of_lt top c oL hc).2]

/-- The pointwise result of a loop over the block pairs of a reordering pass, in block
coordinates: `bstep B1 B2` is the work on the blocks `B1` and `B2` of `2 * h` elements. -/
theorem reorder_scatter (bstep : Nat → Nat → Split ℝ → Split ℝ) (T : Nat → ℂ)
    (h oL cnt : Nat) (hoL : 1 ≤ oL)
    (hspec : ∀ (s : Split ℝ) (B1 B2 : Nat), B1 < B2 →
      (∀ t, t < h →
        cplx (bstep B1 B2 s) (B1 * (2 * h) + t)
          = cplx s (B1 * (2 * h) + t) + T t * cplx s (B2 * (2 * h) + t) ∧
        cplx (bstep B1 B2 s) (B1 * (2 * h) + t + h)
          = cplx s (B1 * (2 * h) + t) - T t * cplx s (B2 * (2 * h) + t) ∧
        cplx (bstep B1 B2 s) (B2 * (2 * h) + t)
          = cplx s (B1 * (2 * h) + t + h) + T t * cplx s (B2 * (2 * h) + t + h) ∧
        cplx (bstep B1 B2 s) (B2 * (2 * h) + t + h)
          = cplx s (B1 * (2 * h) + t + h) - T t * cplx s (B2 * (2 * h) + t + h)) ∧
      (∀ idx, ¬ (B1 * (2 * h) ≤ idx ∧ idx < B1 * (2 * h) + 2 * h) →
        ¬ (B2 * (2 * h) ≤ idx ∧ idx < B2 * (2 * h) + 2 * h) →
        cplx (bstep B1 B2 s) idx = cplx s idx))
    (s : Split ℝ) (K t : Nat) (hK : K < cnt) (ht : t < h) :
    cplx (iter_steps (fun K1 s => bstep (rblk oL K1) (rblk oL K1 + oL) s) cnt s)
        (rblk oL K * (2 * h) + t)
      = cplx s (rblk oL K * (2 * h) + t) + T t * cplx s ((rblk oL K + oL) * (2 * h) + t) ∧
    cplx (iter_steps (fun K1 s => bstep (rblk oL K1) (rblk oL K1 + oL) s) cnt s)
        (rblk oL K * (2 * h) + t + h)
      = cplx s (rblk oL K * (2 * h) + t) - T t * cplx s ((rblk oL K + oL) * (2 * h) + t) ∧
    cplx (iter_steps (fun K1 s => bstep (rblk oL K1) (rblk oL K1 + oL) s) cnt s)
        ((rblk oL K + oL) * (2 * h) + t)
      = cplx s (rblk oL K * (2 * h) + t + h)
        + T t * cplx s ((rblk oL K + oL) * (2 * h) + t + h) ∧
    cplx (iter_steps (fun K1 s => bstep (rblk oL K1) (rblk oL K1 + oL) s) cnt s)
        ((rblk oL K + oL) * (2 * h) + t + h)
      = cplx s (rblk oL K * (2 * h) + t + h)
        - T t * cplx s ((rblk oL K + oL) * (2 * h) + t + h) := by
  have hsep : ∀ B, B * (2 * h) + 2 * h ≤ (B + oL) * (2 * h) := by
    intro B
    rw [Nat.add_mul]
    have : 1 * (2 * h) ≤ oL * (2 * h) := Nat.mul_le_mul_right _ hoL
    omega
  have hlt : ∀ B, B < B + oL := fun B => by omega
  obtain ⟨k1, -⟩ := iter_steps_scatter
    (fun K1 (s : Split ℝ) => bstep (rblk oL K1) (rblk oL K1 + oL) s)
    (fun K1 idx => (rblk oL K1 * (2 * h) ≤ idx ∧ idx < rblk oL K1 * (2 * h) + 2 * h) ∨
      ((rblk oL K1 + oL) * (2 * h) ≤ idx ∧ idx < (rblk oL K1 + oL) * (2 * h) + 2 * h))
    cnt
    (by
      intro J s idx _ hnf
      exact (hspec s _ _ (hlt _)).2 idx
        (fun hc => hnf (Or.inl hc)) (fun hc => hnf (Or.inr hc)))
    (by
      intro J s s1 _ hag idx hf
      have hs := hsep (rblk oL J)
      obtain ⟨t1, ht1, hcase⟩ : ∃ t1, t1 < h ∧
          (idx = rblk oL J * (2 * h) + t1 ∨ idx = rblk oL J * (2 * h) + t1 + h ∨
           idx = (rblk oL J + oL) * (2 * h) + t1 ∨
           idx = (rblk oL J + oL) * (2 * h) + t1 + h) := by
        rcases hf with ⟨f1, f2⟩ | ⟨f1, f2⟩
        · by_cases hc : idx < rblk oL J * (2 * h) + h
          · exact ⟨idx - rblk oL J * (2 * h), by omega, Or.inl (by omega)⟩
          · exact ⟨idx - rblk oL J * (2 * h) - h, by omega, Or.inr (Or.inl (by omega))⟩
        · by_cases hc : idx < (rblk oL J + oL) * (2 * h) + h
          · exact ⟨idx - (rblk oL J + oL) * (2 * h), by omega, Or.inr (Or.inr (Or.inl (by omega)))⟩
          · exact ⟨idx - (rblk oL J + oL) * (2 * h) - h, by omega,
              Or.inr (Or.inr (Or.inr (by omega)))⟩
      have g1 := hag (rblk oL J * (2 * h) + t1) (Or.inl (by omega))
      have g2 := hag (rblk oL J * (2 * h) + t1 + h) (Or.inl (by omega))
      have g3 := hag ((rblk oL J + oL) * (2 * h) + t1) (Or.inr (by omega))
      have g4 := hag ((rblk oL J + oL) * (2 * h) + t1 + h) (Or.inr (by omega))
      obtain ⟨p1, p2, p3, p4⟩ := (hspec s _ _ (hlt (rblk oL J))).1 t1 ht1
      obtain ⟨q1, q2, q3, q4⟩ := (hspec s1 _ _ (hlt (rblk oL J))).1 t1 ht1
      dsimp only
      rcases hcase with hc | hc | hc | hc
      · rw [hc, p1, q1, g1, g3]
      · rw [hc, p2, q2, g1, g3]
      · rw [hc, p3, q3, g2, g4]
      · rw [hc, p4, q4, g2, g4])
    (by
      intro J J1 idx _ _ hf hf1
      have inj := rblk_inj oL J J1 hoL
      have inj1 := rblk_inj oL J1 J hoL
      by_contra hne
      have hblk : ∀ (A B : Nat), A ≠ B → A * (2 * h) ≤ idx → idx < A * (2 * h) + 2 * h →
          B * (2 * h) ≤ idx → idx < B * (2 * h) + 2 * h → False := by
        intro A B hAB h1 h2 h3 h4
        rcases Nat.lt_or_gt_of_ne hAB with hlt | hgt
        · have : (A + 1) * (2 * h) ≤ B * (2 * h) := Nat.mul_le_mul_right _ hlt
          rw [Nat.add_mul, Nat.one_mul] at this
          omega
        · have : (B + 1) * (2 * h) ≤ A * (2 * h) := Nat.mul_le_mul_right _ hgt
          rw [Nat.add_mul, Nat.one_mul] at this
          omega
      rcases hf with ⟨f1, f2⟩ | ⟨f1, f2⟩ <;> rcases hf1 with ⟨g1, g2⟩ | ⟨g1, g2⟩
      · exact hblk _ _ (fun hc => hne (inj.1 hc)) f1 f2 g1 g2
      · exact hblk _ _ inj.2 f1 f2 g1 g2
      · exact hblk _ _ (fun hc => inj1.2 hc.symm) f1 f2 g1 g2
      · exact hblk _ _ (fun hc => hne (inj.1 (by omega))) f1 f2 g1 g2)
    cnt s (le_refl _)
  have hs := hsep (rblk oL K)
  obtain ⟨p1, p2, p3, p4⟩ := (hspec s _ _ (hlt (rblk oL K))).1 t ht
  refine ⟨?_, ?_, ?_, ?_⟩
  · rw [k1 K _ hK (Or.inl (by omega))]
    exact p1
  · rw [k1 K _ hK (Or.inl (by omega))]
    exact p2
  · rw [k1 K _ hK (Or.inr (by omega))]
    exact p3
  · rw [k1 K _ hK (Or.inr (by omega))]
    exact p4

theorem reorder_sizes (n p : Nat) (hp : 2 * p + 2 ≤ n) :
    2 ^ n = 4 * 2 ^ (n - 2 * p - 2) * 2 ^ p * 2 ^ p ∧
    2 ^ (n - p - 1) = 2 ^ (n - 2 * p - 2) * (2 * 2 ^ p) ∧
    2 ^ (n - p) = 2 * (2 ^ (n - 2 * p - 2) * (2 * 2 ^ p)) := by
  obtain ⟨d, rfl⟩ : ∃ d, n = 2 * p + 2 + d := ⟨n - (2 * p + 2), by omega⟩
  have e1 : 2 * p + 2 + d - 2 * p - 2 = d := by omega
  have e2 : 2 * p + 2 + d - p - 1 = d + p + 1 := by omega
  have e3 : 2 * p + 2 + d - p = d + p + 2 := by omega
  rw [e1, e2, e3]
  refine ⟨?_, ?_, ?_⟩
  · rw [show 2 * p + 2 + d = d + p + p + 2 by omega, pow_add, pow_add, pow_add]
    ring
  · rw [pow_succ, pow_add]
    ring
  · rw [pow_add, pow_add]
    ring

/-- A loop over block pairs with the pointer pattern of the reordering passes is a
reordering radix-2 pass. -/
theorem isPassR_of_reorder (n p : Nat) (hp : 2 * p + 2 ≤ n)
    (bstep : Nat → Nat → Split ℝ → Split ℝ) (T : Nat → ℂ)
    (hspec : ∀ (s : Split ℝ) (B1 B2 : Nat), B1 < B2 →
      (∀ t, t < 2 ^ p →
        cplx (bstep B1 B2 s) (B1 * (2 * 2 ^ p) + t)
          = cplx s (B1 * (2 * 2 ^ p) + t) + T t * cplx s (B2 * (2 * 2 ^ p) + t) ∧
        cplx (bstep B1 B2 s) (B1 * (2 * 2 ^ p) + t + 2 ^ p)
          = cplx s (B1 * (2 * 2 ^ p) + t) - T t * cplx s (B2 * (2 * 2 ^ p) + t) ∧
        cplx (bstep B1 B2 s) (B2 * (2 * 2 ^ p) + t)
          = cplx s (B1 * (2 * 2 ^ p) + t + 2 ^ p)
            + T t * cplx s (B2 * (2 * 2 ^ p) + t + 2 ^ p) ∧
        cplx (bstep B1 B2 s) (B2 * (2 * 2 ^ p) + t + 2 ^ p)
          = cplx s (B1 * (2 * 2 ^ p) + t + 2 ^ p)
            - T t * cplx s (B2 * (2 * 2 ^ p) + t + 2 ^ p)) ∧
      (∀ idx, ¬ (B1 * (2 * 2 ^ p) ≤ idx ∧ idx < B1 * (2 * 2 ^ p) + 2 * 2 ^ p) →
        ¬ (B2 * (2 * 2 ^ p) ≤ idx ∧ idx < B2 * (2 * 2 ^ p) + 2 * 2 ^ p) →
        cplx (bstep B1 B2 s) idx = cplx s idx))
    (input : Split ℝ) :
    IsPassR n p T (cplx input)
      (cplx (iter_steps (fun K1 s =>
        bstep (rblk (2 ^ (n - 2 * p - 2)) K1)
          (rblk (2 ^ (n - 2 * p - 2)) K1 + 2 ^ (n - 2 * p - 2)) s)
        (2 ^ p * 2 ^ (n - 2 * p - 2)) input)) := by
  have hoL : 1 ≤ 2 ^ (n - 2 * p - 2) := Nat.one_le_two_pow
  obtain ⟨s1, s2, s3⟩ := reorder_sizes n p hp
  intro top h c e t htop hh2 hc he ht
  have hK : top * 2 ^ (n - 2 * p - 2) + c < 2 ^ p * 2 ^ (n - 2 * p - 2) := by
    have : (top + 1) * 2 ^ (n - 2 * p - 2) ≤ 2 ^ p * 2 ^ (n - 2 * p - 2) :=
      Nat.mul_le_mul_right _ htop
    rw [Nat.add_mul, Nat.one_mul] at this
    omega
  obtain ⟨p1, p2, p3, p4⟩ := reorder_scatter bstep T (2 ^ p)
    (2 ^ (n - 2 * p - 2)) (2 ^ p * 2 ^ (n - 2 * p - 2)) hoL hspec input
    (top * 2 ^ (n - 2 * p - 2) + c) t hK ht
  rw [rblk_decomp _ _ _ hc] at p1 p2 p3 p4
  have hpw : 2 ^ (p + 1) = 2 * 2 ^ p := by rw [pow_succ]; ring
  rw [s2, s3, hpw]
  obtain ⟨oL, hoLdef⟩ : ∃ oL, oL = 2 ^ (n - 2 * p - 2) := ⟨_, rfl⟩
  obtain ⟨H, hHdef⟩ : ∃ H, H = 2 ^ p := ⟨_, rfl⟩
  rw [← hoLdef, ← hHdef] at p1 p2 p3 p4 ⊢
  have a1 : top * (2 * (oL * (2 * H))) + c * (2 * H) + t = (2 * top * oL + c) * (2 * H) + t := by
    ring
  have a2 : top * (2 * (oL * (2 * H))) + oL * (2 * H) + c * (2 * H) + t
      = (2 * top * oL + c + oL) * (2 * H) + t := by ring
  have a3 : top * (2 * (oL * (2 * H))) + c * (2 * H) + H + t
      = (2 * top * oL + c) * (2 * H) + t + H := by ring
  have a4 : top * (2 * (oL * (2 * H))) + oL * (2 * H) + c * (2 * H) + H + t
      = (2 * top * oL + c + oL) * (2 * H) + t + H := by ring
  interval_cases h <;> interval_cases e
  · simp only [Nat.zero_mul, Nat.add_zero, pow_zero, one_mul]
    rw [a1, a2, p1]
  · simp only [Nat.zero_mul, Nat.add_zero, Nat.one_mul, pow_one]
    rw [a3, a1, a2, p2]
    ring
  · simp only [Nat.zero_mul, Nat.add_zero, Nat.one_mul, pow_zero, one_mul]
    rw [a2, a3, a4, p3]
  · simp only [Nat.one_mul, pow_one]
    rw [a4, a3, p4]
    ring

/-- `pass_trig_table_reorder` is a reordering radix-2 pass with the twiddles of its table. -/
theorem pass_trig_table_reorder_isPassR (input : Split ℝ) (setup : Setup ℝ) (n p : Nat)
    (hp : 2 * p + 2 ≤ n) :
    IsPassR n p (fun t => cplx (setup.tables (p - 2)) t) (cplx input)
      (cplx (pass_trig_table_reorder input setup (2 ^ n) p)) := by
  have hh : 0 < 2 ^ p := pow_pos (by norm_num) p
  have hoL : 1 ≤ 2 ^ (n - 2 * p - 2) := Nat.one_le_two_pow
  obtain ⟨s1, s2, s3⟩ := reorder_sizes n p hp
  have hhalf : 2 ^ n >>> 1 = 2 * 2 ^ (n - 2 * p - 2) * 2 ^ p * 2 ^ p := by
    rw [Nat.shiftRight_eq_div_pow, pow_one, s1]
    have : 4 * 2 ^ (n - 2 * p - 2) * 2 ^ p * 2 ^ p
        = 2 * (2 * 2 ^ (n - 2 * p - 2) * 2 ^ p * 2 ^ p) := by ring
    rw [this, Nat.mul_div_cancel_left _ (by norm_num)]
  have hloop := pass_trig_table_reorder_outer_eq (setup.tables (p - 2)) (2 ^ n) (2 ^ p)
    (2 ^ (n - 2 * p - 2) * (2 * 2 ^ p)) (2 ^ (n - 2 * p - 2)) hh
    (2 ^ p * 2 ^ (n - 2 * p - 2)) (2 ^ n) 0 input
    (by
      rw [s1]
      have : 2 ^ p * 2 ^ (n - 2 * p - 2) * 1 ≤ 2 ^ p * 2 ^ (n - 2 * p - 2) * (4 * 2 ^ p) :=
        Nat.mul_le_mul_left _ (by omega)
      calc 2 ^ p * 2 ^ (n - 2 * p - 2) = 2 ^ p * 2 ^ (n - 2 * p - 2) * 1 := by ring
        _ ≤ 2 ^ p * 2 ^ (n - 2 * p - 2) * (4 * 2 ^ p) := this
        _ = 4 * 2 ^ (n - 2 * p - 2) * 2 ^ p * 2 ^ p := by ring)
    (by rw [hhalf]; ring)
  simp only [Nat.zero_mul, Nat.zero_add, rbase] at hloop
  have hfun : (fun K1 (s : Split ℝ) =>
        iter_steps (fun τ s => pass_trig_table_reorder_body (setup.tables (p - 2)) (2 ^ p) s τ
          (rbase (2 * 2 ^ p) (2 ^ (n - 2 * p - 2) * (2 * 2 ^ p)) (2 ^ (n - 2 * p - 2)) K1 + τ)
          (rbase (2 * 2 ^ p) (2 ^ (n - 2 * p - 2) * (2 * 2 ^ p)) (2 ^ (n - 2 * p - 2)) K1
            + 2 ^ (n - 2 * p - 2) * (2 * 2 ^ p) + τ)) (2 ^ p) s)
      = (fun K1 (s : Split ℝ) =>
        (fun B1 B2 (s : Split ℝ) =>
          iter_steps (fun τ s => pass_trig_table_reorder_body (setup.tables (p - 2)) (2 ^ p) s τ
            (B1 * (2 * 2 ^ p) + τ) (B2 * (2 * 2 ^ p) + τ)) (2 ^ p) s)
          (rblk (2 ^ (n - 2 * p - 2)) K1)
          (rblk (2 ^ (n - 2 * p - 2)) K1 + 2 ^ (n - 2 * p - 2)) s) := by
    funext K1 s
    dsimp only
    rw [rbase_eq_blk _ _ _ hoL, Nat.add_mul]
  have hpass : pass_trig_table_reorder input setup (2 ^ n) p
      = iter_steps (fun K1 (s : Split ℝ) =>
        (fun B1 B2 (s : Split ℝ) =>
          iter_steps (fun τ s => pass_trig_table_reorder_body (setup.tables (p - 2)) (2 ^ p) s τ
            (B1 * (2 * 2 ^ p) + τ) (B2 * (2 * 2 ^ p) + τ)) (2 ^ p) s)
          (rblk (2 ^ (n - 2 * p - 2)) K1)
          (rblk (2 ^ (n - 2 * p - 2)) K1 + 2 ^ (n - 2 * p - 2)) s)
          (2 ^ p * 2 ^ (n - 2 * p - 2)) input := by
    rw [← hfun, ← hloop]
    unfold pass_trig_table_reorder trig_table_offset
    have e1 : 2 <<< p = 2 * 2 ^ p := shift_two p
    have e2 : 2 * 2 ^ p / (1 <<< 1) = 2 ^ p := by
      rw [Nat.shiftLeft_eq, Nat.one_mul, pow_one]; omega
    have e3 : 2 ^ n >>> p / (1 <<< 1) = 2 ^ (n - 2 * p - 2) * (2 * 2 ^ p) := by
      rw [Nat.shiftRight_eq_div_pow, Nat.shiftLeft_eq, Nat.one_mul, pow_one, s1]
      have : 4 * 2 ^ (n - 2 * p - 2) * 2 ^ p * 2 ^ p
          = (2 * (2 ^ (n - 2 * p - 2) * (2 * 2 ^ p))) * 2 ^ p := by ring
      rw [this, Nat.mul_div_cancel _ hh, Nat.mul_div_cancel_left _ (by norm_num)]
    have e4 : 2 ^ n >>> 1 / (2 * 2 ^ p) / (1 <<< p) = 2 ^ (n - 2 * p - 2) := by
      rw [hhalf, Nat.shiftLeft_eq, Nat.one_mul]
      have : 2 * 2 ^ (n - 2 * p - 2) * 2 ^ p * 2 ^ p
          = (2 * 2 ^ p) * (2 ^ (n - 2 * p - 2) * 2 ^ p) := by ring
      rw [this, Nat.mul_div_cancel_left _ (by omega), Nat.mul_div_cancel _ hh]
    simp only [e1, e2, e3, e4]
  rw [hpass]
  exact isPassR_of_reorder n p hp
    (fun B1 B2 (s : Split ℝ) =>
      iter_steps (fun τ s => pass_trig_table_reorder_body (setup.tables (p - 2)) (2 ^ p) s τ
        (B1 * (2 * 2 ^ p) + τ) (B2 * (2 * 2 ^ p) + τ)) (2 ^ p) s)
    (fun t => cplx (setup.tables (p - 2)) t)
    (by
      intro s B1 B2 hB
      have hsep : B1 * (2 * 2 ^ p) + 2 * 2 ^ p ≤ B2 * (2 * 2 ^ p) := by
        have : (B1 + 1) * (2 * 2 ^ p) ≤ B2 * (2 * 2 ^ p) := Nat.mul_le_mul_right _ hB
        rw [Nat.add_mul, Nat.one_mul] at this
        exact this
      exact pass_trig_reorder_block_spec (setup.tables (p - 2)) s _ _ (2 ^ p) hsep)
    input

theorem store4_lane {R : Type} (buf : Nat → R) (p : Nat) (v : Vector4x R) (q l : Nat)
    (hl : l < 4) :
    store4 buf p v (4 * q + l) = if q = p then v.lane l else buf (4 * q + l) := by
  unfold store4
  by_cases h : q = p
  · subst h
    rw [if_pos rfl]
    interval_cases l
    · simp [Vector4x.lane]
    · simp [Vector4x.lane]
    · simp [Vector4x.lane]
    · simp [Vector4x.lane]
  · rw [if_neg h, if_neg (by omega), if_neg (by omega), if_neg (by omega), if_neg (by omega)]

theorem load4_lane {R : Type} (buf : Nat → R) (p l : Nat) (hl : l < 4) :
    (load4 buf p).lane l = buf (4 * p + l) := by
  unfold load4
  interval_cases l <;> rfl

theorem lane_add {R : Type} [Add R] (a b : Vector4x R) (l : Nat) :
    (a + b).lane l = a.lane l + b.lane l := by
  unfold Vector4x.lane
  split <;> rfl

theorem lane_sub {R : Type} [Sub R] (a b : Vector4x R) (l : Nat) :
    (a - b).lane l = a.lane l - b.lane l := by
  unfold Vector4x.lane
  split <;> rfl

theorem lane_mul {R : Type} [Mul R] (a b : Vector4x R) (l : Nat) :
    (a * b).lane l = a.lane l * b.lane l := by
  unfold Vector4x.lane
  split <;> rfl

theorem pass_3_loop_eq (tr ti : Vector4x ℝ) :
    ∀ M (s : Split ℝ),
      pass_3_loop tr ti M s = iter_steps (fun k s => pass_3_body tr ti s (2 * k)) M s := by
  intro M
  induction M with
  | zero => intro s; rfl
  | succ n ih =>
    intro s
    show pass_3_body tr ti (pass_3_loop tr ti n s) (2 * n) = _
    rw [ih]
    rfl

theorem shift_pow (n k : Nat) (hk : k ≤ n) : 2 ^ n >>> k = 2 ^ (n - k) := by
  rw [Nat.shiftRight_eq_div_pow]
  exact Nat.pow_div hk (by norm_num)

/-- `pass_3` is an in-place radix-2 pass over blocks of 8 with the twiddles of
`pass_3_twiddle`. -/
theorem pass_3_isPass (sq : ℝ) (input : Split ℝ) (n : Nat) (hn : 3 ≤ n) :
    IsPass n 2 (twiddle4 (pass_3_twiddle sq).1 (pass_3_twiddle sq).2) (cplx input)
      (cplx (pass_3 sq input (2 ^ n))) := by
  have hpass : pass_3 sq input (2 ^ n)
      = iter_steps (fun k s => pass_3_body (pass_3_twiddle sq).1 (pass_3_twiddle sq).2 s (2 * k))
          (2 ^ (n - 2 - 1)) input := by
    unfold pass_3
    dsimp only
    rw [pass_3_loop_eq, shift_pow n 3 hn]
    have : n - 3 = n - 2 - 1 := by omega
    rw [this]
  rw [hpass]
  obtain ⟨k1, -⟩ := iter_steps_scatter
    (fun k s => pass_3_body (pass_3_twiddle sq).1 (pass_3_twiddle sq).2 s (2 * k))
    (fun k idx => 8 * k ≤ idx ∧ idx < 8 * k + 8) (2 ^ (n - 2 - 1))
    (by
      intro J s idx _ hnf
      dsimp only
      rw [pass_3_body_spec, if_neg (by omega), if_neg (by omega)])
    (by
      intro J s s1 _ hag idx hf
      dsimp only
      rw [pass_3_body_spec, pass_3_body_spec]
      by_cases c1 : 4 * (2 * J) ≤ idx ∧ idx < 4 * (2 * J) + 4
      · rw [if_pos c1, if_pos c1, hag idx (by omega), hag (idx + 4) (by omega)]
      · rw [if_neg c1, if_neg c1]
        by_cases c2 : 4 * (2 * J) + 4 ≤ idx ∧ idx < 4 * (2 * J) + 8
        · rw [if_pos c2, if_pos c2, hag idx (by omega), hag (idx - 4) (by omega)]
        · rw [if_neg c2, if_neg c2]
          exact hag idx hf)
    (by
      intro J J1 idx _ _ hf hf1
      omega)
    (2 ^ (n - 2 - 1)) input (le_refl _)
  intro k e t hk he ht
  have ht4 : t < 4 := by simpa using ht
  have e3 : (2 : ℕ) ^ (2 + 1) = 8 := by norm_num
  have e2 : (2 : ℕ) ^ 2 = 4 := by norm_num
  rw [e3, e2, k1 k _ hk (by interval_cases e <;> omega)]
  rw [pass_3_body_spec]
  interval_cases e
  · rw [if_pos (by omega)]
    have a1 : k * 8 + 0 * 4 + t - 4 * (2 * k) = t := by omega
    have a2 : k * 8 + 0 * 4 + t + 4 = k * 8 + 4 + t := by omega
    have a3 : k * 8 + 0 * 4 + t = k * 8 + t := by omega
    rw [a1, a2, a3]
    simp
  · rw [if_neg (by omega), if_pos (by omega)]
    have a1 : k * 8 + 1 * 4 + t - 4 * (2 * k) - 4 = t := by omega
    have a2 : k * 8 + 1 * 4 + t - 4 = k * 8 + t := by omega
    have a3 : k * 8 + 1 * 4 + t = k * 8 + 4 + t := by omega
    rw [a1, a2, a3]
    ring

theorem pass_3_twiddle_eq (t : Nat) (ht : t < 4) :
    twiddle4 (pass_3_twiddle (Real.sqrt 2 / 2)).1 (pass_3_twiddle (Real.sqrt 2 / 2)).2 t
      = omega (2 ^ (2 + 1)) ^ t := by
  have e3 : (2 : ℕ) ^ (2 + 1) = 8 := by norm_num
  rw [e3, omega_eight_pow_lt t (by omega)]
  interval_cases t <;>
    simp [twiddle4, pass_3_twiddle, Vector4x.lane, w8, Complex.ext_iff]

/-- The double butterflies of one iteration of `pass_3_reorder`, by vector index `q` and
lane `l`. -/
theorem pass_3_reorder_body_lane (tr ti : Vector4x ℝ) (s : Split ℝ) (r1 r2 q l : Nat)
    (hl : l < 4) (h12 : r1 + 2 ≤ r2) :
    cplx (pass_3_reorder_body tr ti s r1 r2) (4 * q + l) =
      if q = r1 then cplx s (4 * r1 + l) + twiddle4 tr ti l * cplx s (4 * r2 + l)
      else if q = r1 + 1 then cplx s (4 * r1 + l) - twiddle4 tr ti l * cplx s (4 * r2 + l)
      else if q = r2 then
        cplx s (4 * (r1 + 1) + l) + twiddle4 tr ti l * cplx s (4 * (r2 + 1) + l)
      else if q = r2 + 1 then
        cplx s (4 * (r1 + 1) + l) - twiddle4 tr ti l * cplx s (4 * (r2 + 1) + l)
      else cplx s (4 * q + l) := by
  unfold pass_3_reorder_body cplx twiddle4
  dsimp only
  rw [store4_lane _ _ _ _ _ hl, store4_lane _ _ _ _ _ hl, store4_lane _ _ _ _ _ hl,
    store4_lane _ _ _ _ _ hl, store4_lane _ _ _ _ _ hl, store4_lane _ _ _ _ _ hl,
    store4_lane _ _ _ _ _ hl, store4_lane _ _ _ _ _ hl]
  by_cases c1 : q = r1
  · subst c1
    rw [if_neg (by omega), if_neg (by omega), if_neg (by omega), if_pos rfl,
      if_neg (by omega), if_neg (by omega), if_neg (by omega), if_pos rfl, if_pos rfl]
    simp only [lane_add, lane_sub, lane_mul, load4_lane _ _ _ hl]
    apply Complex.ext <;> simp <;> ring
  · by_cases c2 : q = r1 + 1
    · subst c2
      rw [if_neg (by omega), if_neg (by omega), if_pos rfl,
        if_neg (by omega), if_neg (by omega), if_pos rfl, if_neg (by omega), if_pos rfl]
      simp only [lane_add, lane_sub, lane_mul, load4_lane _ _ _ hl]
      apply Complex.ext <;> simp <;> ring
    · by_cases c3 : q = r2
      · subst c3
        rw [if_neg (by omega), if_pos rfl, if_neg (by omega), if_pos rfl,
          if_neg (by omega), if_neg (by omega), if_pos rfl]
        simp only [lane_add, lane_sub, lane_mul, load4_lane _ _ _ hl]
        apply Complex.ext <;> simp <;> ring
      · by_cases c4 : q = r2 + 1
        · subst c4
          rw [if_pos rfl, if_pos rfl, if_neg (by omega), if_neg (by omega),
            if_neg (by omega), if_pos rfl]
          simp only [lane_add, lane_sub, lane_mul, load4_lane _ _ _ hl]
          apply Complex.ext <;> simp <;> ring
        · rw [if_neg c4, if_neg c3, if_neg c2, if_neg c1, if_neg c4, if_neg c3, if_neg c2,
            if_neg c1, if_neg c1, if_neg c2, if_neg c3, if_neg c4]

theorem pass_3_reorder_loop_eq (tr ti : Vector4x ℝ) (length offset oL : Nat) :
    ∀ (cnt fuel J : Nat) (input : Split ℝ), cnt ≤ fuel → (J + cnt) * 8 = length >>> 1 →
      pass_3_reorder_loop tr ti length offset oL fuel (J * 8) J (rbase 2 offset oL J)
          (rbase 2 offset oL J + offset) input
        = iter_steps (fun J1 s => pass_3_reorder_body tr ti s (rbase 2 offset oL (J + J1))
            (rbase 2 offset oL (J + J1) + offset)) cnt input := by
  intro cnt
  induction cnt with
  | zero =>
    intro fuel J input _ hJ
    rw [Nat.add_zero] at hJ
    cases fuel with
    | zero => rfl
    | succ f =>
      rw [pass_3_reorder_loop, if_neg (by omega)]
      rfl
  | succ n ih =>
    intro fuel J input hf hJ
    obtain ⟨f, rfl⟩ : ∃ f, fuel = f + 1 := ⟨fuel - 1, by omega⟩
    rw [pass_3_reorder_loop, if_pos (by omega)]
    dsimp only
    have hnext : ∀ (s : Split ℝ),
        pass_3_reorder_loop tr ti length offset oL f ((J + 1) * 8) (J + 1)
          (rbase 2 offset oL (J + 1)) (rbase 2 offset oL (J + 1) + offset) s
        = iter_steps (fun J1 s => pass_3_reorder_body tr ti s (rbase 2 offset oL (J + 1 + J1))
            (rbase 2 offset oL (J + 1 + J1) + offset)) n s :=
      fun s => ih f (J + 1) s (by omega) (by omega)
    have hfront : iter_steps (fun J1 s => pass_3_reorder_body tr ti s
          (rbase 2 offset oL (J + J1)) (rbase 2 offset oL (J + J1) + offset)) (n + 1) input
        = iter_steps (fun J1 s => pass_3_reorder_body tr ti s (rbase 2 offset oL (J + 1 + J1))
            (rbase 2 offset oL (J + 1 + J1) + offset)) n
            (pass_3_reorder_body tr ti input (rbase 2 offset oL J)
              (rbase 2 offset oL J + offset)) := by
      rw [iter_steps_front]
      have e : (fun J1 (s : Split ℝ) => pass_3_reorder_body tr ti s
            (rbase 2 offset oL (J + 1 + J1)) (rbase 2 offset oL (J + 1 + J1) + offset))
          = (fun K => (fun J1 (s : Split ℝ) => pass_3_reorder_body tr ti s
            (rbase 2 offset oL (J + J1)) (rbase 2 offset oL (J + J1) + offset)) (K + 1)) := by
        funext J1 s
        have a1 : J + 1 + J1 = J + (J1 + 1) := by omega
        rw [a1]
      rw [e]
      rfl
    rw [hfront, ← hnext]
    have e1 : J * 8 + 8 = (J + 1) * 8 := by ring
    by_cases hw : (J + 1) % oL = 0
    · rw [if_pos hw]
      have r1 : rbase 2 offset oL J + 2 + offset = rbase 2 offset oL (J + 1) := by
        rw [rbase, if_pos hw]
      have r2 : rbase 2 offset oL J + offset + 2 + offset
          = rbase 2 offset oL (J + 1) + offset := by
        rw [rbase, if_pos hw]; ring
      rw [r1, r2, e1]
    · rw [if_neg hw]
      have r1 : rbase 2 offset oL J + 2 = rbase 2 offset oL (J + 1) := by
        rw [rbase, if_neg hw]
      have r2 : rbase 2 offset oL J + offset + 2 = rbase 2 offset oL (J + 1) + offset := by
        rw [rbase, if_neg hw]; ring
      rw [r1, r2, e1]

/-- `pass_3_reorder` is a reordering radix-2 pass over blocks of 8 with the twiddles of
`pass_3_twiddle`. -/
theorem pass_3_reorder_isPassR (sq : ℝ) (input : Split ℝ) (n : Nat) (hn : 6 ≤ n) :
    IsPassR n 2 (twiddle4 (pass_3_twiddle sq).1 (pass_3_twiddle sq).2) (cplx input)
      (cplx (pass_3_reorder sq input (2 ^ n))) := by
  have hoL : 1 ≤ 2 ^ (n - 2 * 2 - 2) := Nat.one_le_two_pow
  have e6 : n - 6 = n - 2 * 2 - 2 := by omega
  have hoff : 2 ^ (n - 5) = 2 ^ (n - 2 * 2 - 2) * 2 := by
    have : n - 5 = (n - 2 * 2 - 2) + 1 := by omega
    rw [this, pow_succ]
  have hhalf : 2 ^ n >>> 1 = 2 ^ 2 * 2 ^ (n - 2 * 2 - 2) * 8 := by
    rw [shift_pow n 1 (by omega)]
    have : n - 1 = 2 + (n - 2 * 2 - 2) + 3 := by omega
    rw [this, pow_add, pow_add]
    norm_num
  have hfuel : 2 ^ 2 * 2 ^ (n - 2 * 2 - 2) ≤ 2 ^ n := by
    have : 2 ^ n = 2 ^ 2 * 2 ^ (n - 2 * 2 - 2) * 2 ^ 4 := by
      rw [← pow_add, ← pow_add]
      congr 1
      omega
    rw [this]
    exact Nat.le_mul_of_pos_right _ (by norm_num)
  have hloop := pass_3_reorder_loop_eq (pass_3_twiddle sq).1 (pass_3_twiddle sq).2 (2 ^ n)
    (2 ^ (n - 2 * 2 - 2) * 2) (2 ^ (n - 2 * 2 - 2)) (2 ^ 2 * 2 ^ (n - 2 * 2 - 2)) (2 ^ n) 0 input
    hfuel (by rw [hhalf, Nat.zero_add])
  simp only [Nat.zero_mul, Nat.zero_add, rbase] at hloop
  have hfun : (fun J1 (s : Split ℝ) =>
        pass_3_reorder_body (pass_3_twiddle sq).1 (pass_3_twiddle sq).2 s
          (rbase 2 (2 ^ (n - 2 * 2 - 2) * 2) (2 ^ (n - 2 * 2 - 2)) J1)
          (rbase 2 (2 ^ (n - 2 * 2 - 2) * 2) (2 ^ (n - 2 * 2 - 2)) J1
            + 2 ^ (n - 2 * 2 - 2) * 2))
      = (fun K1 (s : Split ℝ) =>
        (fun B1 B2 (s : Split ℝ) =>
          pass_3_reorder_body (pass_3_twiddle sq).1 (pass_3_twiddle sq).2 s (B1 * 2) (B2 * 2))
          (rblk (2 ^ (n - 2 * 2 - 2)) K1)
          (rblk (2 ^ (n - 2 * 2 - 2)) K1 + 2 ^ (n - 2 * 2 - 2)) s) := by
    funext K1 s
    dsimp only
    rw [rbase_eq_blk _ _ _ hoL, Nat.add_mul]
  have hpass : pass_3_reorder sq input (2 ^ n)
      = iter_steps (fun K1 (s : Split ℝ) =>
        (fun B1 B2 (s : Split ℝ) =>
          pass_3_reorder_body (pass_3_twiddle sq).1 (pass_3_twiddle sq).2 s (B1 * 2) (B2 * 2))
          (rblk (2 ^ (n - 2 * 2 - 2)) K1)
          (rblk (2 ^ (n - 2 * 2 - 2)) K1 + 2 ^ (n - 2 * 2 - 2)) s)
          (2 ^ 2 * 2 ^ (n - 2 * 2 - 2)) input := by
    rw [← hfun, ← hloop]
    unfold pass_3_reorder
    dsimp only
    rw [shift_pow n 5 (by omega), shift_pow n 6 (by omega), hoff, e6]
  rw [hpass]
  exact isPassR_of_reorder n 2 (by omega)
    (fun B1 B2 (s : Split ℝ) =>
      pass_3_reorder_body (pass_3_twiddle sq).1 (pass_3_twiddle sq).2 s (B1 * 2) (B2 * 2))
    (twiddle4 (pass_3_twiddle sq).1 (pass_3_twiddle sq).2)
    (by
      intro s B1 B2 hB
      have e2 : (2 : ℕ) ^ 2 = 4 := by norm_num
      rw [e2]
      refine ⟨?_, ?_⟩
      · intro t ht
        have i1 : B1 * (2 * 4) + t = 4 * (B1 * 2) + t := by ring
        have i2 : 4 * (B1 * 2) + t + 4 = 4 * (B1 * 2 + 1) + t := by ring
        have i3 : B2 * (2 * 4) + t = 4 * (B2 * 2) + t := by ring
        have i4 : 4 * (B2 * 2) + t + 4 = 4 * (B2 * 2 + 1) + t := by ring
        rw [i1, i2, i3, i4]
        rw [pass_3_reorder_body_lane _ _ s _ _ (B1 * 2) t ht (by omega),
          pass_3_reorder_body_lane _ _ s _ _ (B1 * 2 + 1) t ht (by omega),
          pass_3_reorder_body_lane _ _ s _ _ (B2 * 2) t ht (by omega),
          pass_3_reorder_body_lane _ _ s _ _ (B2 * 2 + 1) t ht (by omega)]
        have n1 : ¬ B1 * 2 + 1 = B1 * 2 := by omega
        have n2 : ¬ B2 * 2 = B1 * 2 := by omega
        have n3 : ¬ B2 * 2 = B1 * 2 + 1 := by omega
        have n4 : ¬ B2 * 2 + 1 = B1 * 2 := by omega
        have n5 : ¬ B2 * 2 + 1 = B1 * 2 + 1 := by omega
        have n6 : ¬ B2 * 2 + 1 = B2 * 2 := by omega
        rw [if_pos rfl, if_neg n1, if_pos rfl, if_neg n2, if_neg n3, if_pos rfl, if_neg n4,
          if_neg n5, if_neg n6, if_pos rfl]
        exact ⟨rfl, rfl, rfl, rfl⟩
      · intro idx hn1 hn2
        have hq : idx = 4 * (idx / 4) + idx % 4 := by omega
        dsimp only
        rw [hq, pass_3_reorder_body_lane _ _ s _ _ (idx / 4) (idx % 4) (by omega) (by omega)]
        rw [if_neg (by omega), if_neg (by omega), if_neg (by omega), if_neg (by omega)])
    input

theorem dft4_cases (a b c d : ℂ) :
    dft4 a b c d 0 = a + b + c + d ∧
    dft4 a b c d 1 = a - Complex.I * b - c + Complex.I * d ∧
    dft4 a b c d 2 = a - b + c - d ∧
    dft4 a b c d 3 = a + Complex.I * b - c - Complex.I * d := by
  have hI : (⟨0, -1⟩ : ℂ) = -Complex.I := by apply Complex.ext <;> simp
  have hI2 : (⟨0, 1⟩ : ℂ) = Complex.I := by apply Complex.ext <;> simp
  have hm1 : (⟨-1, 0⟩ : ℂ) = -1 := by apply Complex.ext <;> simp
  refine ⟨?_, ?_, ?_, ?_⟩
  · unfold dft4
    simp
  · unfold dft4
    rw [omega_four_pow 1, omega_four_pow (2 * 1), omega_four_pow (3 * 1)]
    simp only [w4, hI, hI2, hm1]
    ring
  · unfold dft4
    rw [omega_four_pow 2, omega_four_pow (2 * 2), omega_four_pow (3 * 2)]
    simp only [w4, hI, hI2, hm1]
    ring
  · unfold dft4
    rw [omega_four_pow 3, omega_four_pow (2 * 3), omega_four_pow (3 * 3)]
    simp only [w4, hI, hI2, hm1]
    ring

/-- One iteration of `pass_1_2_reorder`, by vector index `q` and lane `m`: the vector at
`r1_ptr` receives the 4-point DFT of lane 0, the one at `r2_ptr` that of lane 2, the one at
`r3_ptr` that of lane 1 and the one at `r4_ptr` that of lane 3. -/
theorem pass_1_2_reorder_body_lane (s : Split ℝ) (r1 r2 r3 r4 q m : Nat) (hm : m < 4)
    (h12 : r1 < r2) (h23 : r2 < r3) (h34 : r3 < r4) :
    cplx (pass_1_2_reorder_body s r1 r2 r3 r4) (4 * q + m) =
      if q = r1 then
        dft4 (cplx s (4 * r1 + 0)) (cplx s (4 * r2 + 0)) (cplx s (4 * r3 + 0))
          (cplx s (4 * r4 + 0)) m
      else if q = r2 then
        dft4 (cplx s (4 * r1 + 2)) (cplx s (4 * r2 + 2)) (cplx s (4 * r3 + 2))
          (cplx s (4 * r4 + 2)) m
      else if q = r3 then
        dft4 (cplx s (4 * r1 + 1)) (cplx s (4 * r2 + 1)) (cplx s (4 * r3 + 1))
          (cplx s (4 * r4 + 1)) m
      else if q = r4 then
        dft4 (cplx s (4 * r1 + 3)) (cplx s (4 * r2 + 3)) (cplx s (4 * r3 + 3))
          (cplx s (4 * r4 + 3)) m
      else cplx s (4 * q + m) := by
  unfold pass_1_2_reorder_body cplx
  dsimp only
  rw [store4_lane _ _ _ _ _ hm, store4_lane _ _ _ _ _ hm, store4_lane _ _ _ _ _ hm,
    store4_lane _ _ _ _ _ hm, store4_lane _ _ _ _ _ hm, store4_lane _ _ _ _ _ hm,
    store4_lane _ _ _ _ _ hm, store4_lane _ _ _ _ _ hm]
  have hc := fun a b c d => dft4_cases a b c d
  by_cases c1 : q = r1
  · subst c1
    rw [if_neg (by omega), if_neg (by omega), if_neg (by omega), if_pos rfl,
      if_neg (by omega), if_neg (by omega), if_neg (by omega), if_pos rfl, if_pos rfl]
    interval_cases m
    · rw [(hc _ _ _ _).1]
      apply Complex.ext <;> simp [shuffle4, Vector4x.lane, load4] <;> ring
    · rw [(hc _ _ _ _).2.1]
      apply Complex.ext <;> simp [shuffle4, Vector4x.lane, load4] <;> ring
    · rw [(hc _ _ _ _).2.2.1]
      apply Complex.ext <;> simp [shuffle4, Vector4x.lane, load4] <;> ring
    · rw [(hc _ _ _ _).2.2.2]
      apply Complex.ext <;> simp [shuffle4, Vector4x.lane, load4] <;> ring
  · by_cases c2 : q = r2
    · subst c2
      rw [if_neg (by omega), if_neg (by omega), if_pos rfl,
        if_neg (by omega), if_neg (by omega), if_pos rfl, if_neg (by omega), if_pos rfl]
      interval_cases m
      · rw [(hc _ _ _ _).1]
        apply Complex.ext <;> simp [shuffle4, Vector4x.lane, load4] <;> ring
      · rw [(hc _ _ _ _).2.1]
        apply Complex.ext <;> simp [shuffle4, Vector4x.lane, load4] <;> ring
      · rw [(hc _ _ _ _).2.2.1]
        apply Complex.ext <;> simp [shuffle4, Vector4x.lane, load4] <;> ring
      · rw [(hc _ _ _ _).2.2.2]
        apply Complex.ext <;> simp [shuffle4, Vector4x.lane, load4] <;> ring
    · by_cases c3 : q = r3
      · subst c3
        rw [if_neg (by omega), if_pos rfl, if_neg (by omega), if_pos rfl,
          if_neg (by omega), if_neg (by omega), if_pos rfl]
        interval_cases m
        · rw [(hc _ _ _ _).1]
          apply Complex.ext <;> simp [shuffle4, Vector4x.lane, load4] <;> ring
        · rw [(hc _ _ _ _).2.1]
          apply Complex.ext <;> simp [shuffle4, Vector4x.lane, load4] <;> ring
        · rw [(hc _ _ _ _).2.2.1]
          apply Complex.ext <;> simp [shuffle4, Vector4x.lane, load4] <;> ring
        · rw [(hc _ _ _ _).2.2.2]
          apply Complex.ext <;> simp [shuffle4, Vector4x.lane, load4] <;> ring
      · by_cases c4 : q = r4
        · subst c4
          rw [if_pos rfl, if_pos rfl, if_neg (by omega), if_neg (by omega),
            if_neg (by omega), if_pos rfl]
          interval_cases m
          · rw [(hc _ _ _ _).1]
            apply Complex.ext <;> simp [shuffle4, Vector4x.lane, load4] <;> ring
          · rw [(hc _ _ _ _).2.1]
            apply Complex.ext <;> simp [shuffle4, Vector4x.lane, load4] <;> ring
          · rw [(hc _ _ _ _).2.2.1]
            apply Complex.ext <;> simp [shuffle4, Vector4x.lane, load4] <;> ring
          · rw [(hc _ _ _ _).2.2.2]
            apply Complex.ext <;> simp [shuffle4, Vector4x.lane, load4] <;> ring
        · rw [if_neg c4, if_neg c3, if_neg c2, if_neg c1, if_neg c4, if_neg c3, if_neg c2,
            if_neg c1, if_neg c1, if_neg c2, if_neg c3, if_neg c4]

theorem pass_1_2_reorder_loop_eq (length : Nat) :
    ∀ M (s : Split ℝ),
      pass_1_2_reorder_loop length M s
        = iter_steps (fun i s => pass_1_2_reorder_body s i ((length >>> 4) + i)
            ((length >>> 4) + (length >>> 4) + i)
            ((length >>> 4) + (length >>> 4) + (length >>> 4) + i)) M s := by
  intro M
  induction M with
  | zero => intro s; rfl
  | succ n ih =>
    intro s
    show pass_1_2_reorder_body (pass_1_2_reorder_loop length n s) n _ _ _ = _
    rw [ih]
    rfl

theorem sub_dft_two (x : Nat → ℂ) (n m t : Nat) :
    sub_dft x n 2 m t
      = dft4 (x m) (x (m + 2 ^ (n - 2))) (x (m + 2 * 2 ^ (n - 2))) (x (m + 3 * 2 ^ (n - 2))) t := by
  unfold sub_dft dft4
  have e4 : (2 : ℕ) ^ 2 = 4 := by norm_num
  rw [e4]
  simp only [Finset.sum_range_succ, Finset.sum_range_zero, Nat.zero_mul, Nat.add_zero,
    Nat.one_mul, pow_zero, mul_one, zero_add]
  ring

theorem rev_two : rev 2 0 = 0 ∧ rev 2 1 = 2 ∧ rev 2 2 = 1 ∧ rev 2 3 = 3 := by
  refine ⟨?_, ?_, ?_, ?_⟩ <;> simp [rev]

/-- After `pass_1_2_reorder` the buffer holds the 4-point sub-DFTs in the reordered
layout. -/
theorem pass_1_2_reorder_layR (input : Split ℝ) (n : Nat) (hn : 4 ≤ n) :
    LayR (cplx input) n 2 (cplx (pass_1_2_reorder input (2 ^ n))) := by
  obtain ⟨L, hL⟩ : ∃ L, L = 2 ^ (n - 4) := ⟨_, rfl⟩
  have hLpos : 0 < L := by rw [hL]; exact pow_pos (by norm_num) _
  have hS : 2 ^ (n - 2) = 4 * L := by
    have : n - 2 = (n - 4) + 2 := by omega
    rw [this, pow_add, hL]
    ring
  have hc : 2 ^ (n - 2 * 2) = L := by
    have : n - 2 * 2 = n - 4 := by omega
    rw [this, hL]
  have hpass : pass_1_2_reorder input (2 ^ n)
      = iter_steps (fun i s => pass_1_2_reorder_body s i (L + i) (L + L + i) (L + L + L + i))
          L input := by
    unfold pass_1_2_reorder
    rw [pass_1_2_reorder_loop_eq, shift_pow n 4 hn, ← hL]
  rw [hpass]
  obtain ⟨k1, -⟩ := iter_steps_scatter
    (fun i s => pass_1_2_reorder_body s i (L + i) (L + L + i) (L + L + L + i))
    (fun i idx => idx / 4 = i ∨ idx / 4 = L + i ∨ idx / 4 = L + L + i ∨ idx / 4 = L + L + L + i)
    L
    (by
      intro J s idx _ hnf
      have hq : idx = 4 * (idx / 4) + idx % 4 := by omega
      dsimp only
      rw [hq, pass_1_2_reorder_body_lane s _ _ _ _ (idx / 4) (idx % 4) (by omega) (by omega)
        (by omega) (by omega)]
      rw [if_neg (fun hc => hnf (Or.inl hc)), if_neg (fun hc => hnf (Or.inr (Or.inl hc))),
        if_neg (fun hc => hnf (Or.inr (Or.inr (Or.inl hc)))),
        if_neg (fun hc => hnf (Or.inr (Or.inr (Or.inr hc))))])
    (by
      intro J s s1 _ hag idx hf
      have hq : idx = 4 * (idx / 4) + idx % 4 := by omega
      have g1 : ∀ l, l < 4 → cplx s (4 * J + l) = cplx s1 (4 * J + l) :=
        fun l hl => hag _ (Or.inl (by omega))
      have g2 : ∀ l, l < 4 → cplx s (4 * (L + J) + l) = cplx s1 (4 * (L + J) + l) :=
        fun l hl => hag _ (Or.inr (Or.inl (by omega)))
      have g3 : ∀ l, l < 4 → cplx s (4 * (L + L + J) + l) = cplx s1 (4 * (L + L + J) + l) :=
        fun l hl => hag _ (Or.inr (Or.inr (Or.inl (by omega))))
      have g4 : ∀ l, l < 4 →
          cplx s (4 * (L + L + L + J) + l) = cplx s1 (4 * (L + L + L + J) + l) :=
        fun l hl => hag _ (Or.inr (Or.inr (Or.inr (by omega))))
      dsimp only
      rw [hq, pass_1_2_reorder_body_lane s _ _ _ _ (idx / 4) (idx % 4) (by omega) (by omega)
        (by omega) (by omega),
        pass_1_2_reorder_body_lane s1 _ _ _ _ (idx / 4) (idx % 4) (by omega) (by omega)
        (by omega) (by omega)]
      rw [g1 0 (by norm_num), g1 1 (by norm_num), g1 2 (by norm_num), g1 3 (by norm_num),
        g2 0 (by norm_num), g2 1 (by norm_num), g2 2 (by norm_num), g2 3 (by norm_num),
        g3 0 (by norm_num), g3 1 (by norm_num), g3 2 (by norm_num), g3 3 (by norm_num),
        g4 0 (by norm_num), g4 1 (by norm_num), g4 2 (by norm_num), g4 3 (by norm_num)]
      rcases hf with hf | hf | hf | hf
      · rw [if_pos hf, if_pos hf]
      · have n1 : ¬ idx / 4 = J := by omega
        rw [if_neg n1, if_neg n1, if_pos hf, if_pos hf]
      · have n1 : ¬ idx / 4 = J := by omega
        have n2 : ¬ idx / 4 = L + J := by omega
        rw [if_neg n1, if_neg n1, if_neg n2, if_neg n2, if_pos hf, if_pos hf]
      · have n1 : ¬ idx / 4 = J := by omega
        have n2 : ¬ idx / 4 = L + J := by omega
        have n3 : ¬ idx / 4 = L + L + J := by omega
        rw [if_neg n1, if_neg n1, if_neg n2, if_neg n2, if_neg n3, if_neg n3, if_pos hf,
          if_pos hf])
    (by
      intro J J1 idx hJ hJ1 hf hf1
      rcases hf with hf | hf | hf | hf <;> rcases hf1 with hf1 | hf1 | hf1 | hf1 <;> omega)
    L input (le_refl _)
  intro top c t htop hcl ht
  have e4 : (2 : ℕ) ^ 2 = 4 := by norm_num
  rw [e4] at htop ht ⊢
  rw [hc] at hcl
  rw [hS, sub_dft_two, hS]
  obtain ⟨v0, v1, v2, v3⟩ := rev_two
  have hidx : top * (4 * L) + c * 4 + t = 4 * (top * L + c) + t := by ring
  rw [hidx, k1 c _ hcl (by interval_cases top <;> omega)]
  rw [pass_1_2_reorder_body_lane input _ _ _ _ (top * L + c) t ht (by omega) (by omega)
    (by omega)]
  interval_cases top
  · rw [if_pos (by omega), v0]
    have a0 : c * 4 + 0 = 4 * c + 0 := by ring
    have a1 : 4 * c + 0 + 4 * L = 4 * (L + c) + 0 := by ring
    have a2 : 4 * c + 0 + 2 * (4 * L) = 4 * (L + L + c) + 0 := by ring
    have a3 : 4 * c + 0 + 3 * (4 * L) = 4 * (L + L + L + c) + 0 := by ring
    rw [a0, a1, a2, a3]
  · rw [if_neg (by omega), if_pos (by omega), v1]
    have a0 : c * 4 + 2 = 4 * c + 2 := by ring
    have a1 : 4 * c + 2 + 4 * L = 4 * (L + c) + 2 := by ring
    have a2 : 4 * c + 2 + 2 * (4 * L) = 4 * (L + L + c) + 2 := by ring
    have a3 : 4 * c + 2 + 3 * (4 * L) = 4 * (L + L + L + c) + 2 := by ring
    rw [a0, a1, a2, a3]
  · rw [if_neg (by omega), if_neg (by omega), if_pos (by omega), v2]
    have a0 : c * 4 + 1 = 4 * c + 1 := by ring
    have a1 : 4 * c + 1 + 4 * L = 4 * (L + c) + 1 := by ring
    have a2 : 4 * c + 1 + 2 * (4 * L) = 4 * (L + L + c) + 1 := by ring
    have a3 : 4 * c + 1 + 3 * (4 * L) = 4 * (L + L + L + c) + 1 := by ring
    rw [a0, a1, a2, a3]
  · rw [if_neg (by omega), if_neg (by omega), if_neg (by omega), if_pos (by omega), v3]
    have a0 : c * 4 + 3 = 4 * c + 3 := by ring
    have a1 : 4 * c + 3 + 4 * L = 4 * (L + c) + 3 := by ring
    have a2 : 4 * c + 3 + 2 * (4 * L) = 4 * (L + L + c) + 3 := by ring
    have a3 : 4 * c + 3 + 3 * (4 * L) = 4 * (L + L + L + c) + 3 := by ring
    rw [a0, a1, a2, a3]

theorem omega_pow_cos_sin (p t : Nat) :
    omega (2 ^ (p + 1)) ^ t
      = ⟨Real.cos (-(t : ℝ) * Real.pi / ((2 ^ p : ℕ) : ℝ)),
         Real.sin (-(t : ℝ) * Real.pi / ((2 ^ p : ℕ) : ℝ))⟩ := by
  unfold omega
  rw [← Complex.exp_nat_mul]
  have h : (t : ℂ) * (-2 * Real.pi * Complex.I / ((2 ^ (p + 1) : ℕ) : ℂ))
      = ((-(t : ℝ) * Real.pi / ((2 ^ p : ℕ) : ℝ) : ℝ) : ℂ) * Complex.I := by
    push_cast
    rw [pow_succ]
    have h2 : (2 : ℂ) ^ p ≠ 0 := pow_ne_zero _ (by norm_num)
    field_simp
    ring
  rw [h]
  apply Complex.ext
  · rw [Complex.exp_ofReal_mul_I_re]
  · rw [Complex.exp_ofReal_mul_I_im]

theorem table_twiddle (setup : Setup ℝ) (hT : exact_tables setup) (p t : Nat) (hp : 2 ≤ p)
    (hmax : p + 1 ≤ setup.max_fft_log2) (ht : t < 2 ^ p) :
    cplx (setup.tables (p - 2)) t = omega (2 ^ (p + 1)) ^ t := by
  have := hT (p + 1) t (by unfold trig_table_offset; omega) hmax (by simpa using ht)
  unfold trig_table_offset at this
  have e1 : p + 1 - 3 = p - 2 := by omega
  have e2 : p + 1 - 1 = p := by omega
  rw [e1, e2] at this
  rw [omega_pow_cos_sin]
  unfold cplx
  rw [this.1, this.2]

theorem fft_passes_loop_layN (x : Nat → ℂ) (setup : Setup ℝ) (hT : exact_tables setup)
    (n : Nat) (hmax : n ≤ setup.max_fft_log2) :
    ∀ (cnt i : Nat) (s : Split ℝ), i + cnt = n → 2 ≤ i → LayN x n i (cplx s) →
      LayN x n n (cplx (fft_passes_loop setup (2 ^ n) cnt i s)) := by
  intro cnt
  induction cnt with
  | zero =>
    intro i s hi _ hl
    have : i = n := by omega
    subst this
    exact hl
  | succ c ih =>
    intro i s hi h2 hl
    rw [fft_passes_loop]
    apply ih (i + 1) _ (by omega) (by omega)
    exact layN_step x n i _ _ _ (by omega)
      (fun t ht => table_twiddle setup hT i t h2 (by omega) ht) hl
      (pass_trig_table_isPass s setup n i (by omega))

theorem fft_passes_reorder_loop_layR (x : Nat → ℂ) (setup : Setup ℝ)
    (hT : exact_tables setup) (n : Nat) (hmax : n ≤ setup.max_fft_log2) :
    ∀ (cnt i : Nat) (s : Split ℝ), 2 * (i + cnt) ≤ n → 2 ≤ i → LayR x n i (cplx s) →
      LayR x n (i + cnt) (cplx (fft_passes_reorder_loop setup (2 ^ n) cnt i s)) := by
  intro cnt
  induction cnt with
  | zero =>
    intro i s _ _ hl
    exact hl
  | succ c ih =>
    intro i s hi h2 hl
    rw [fft_passes_reorder_loop]
    have e : i + (c + 1) = (i + 1) + c := by omega
    rw [e]
    apply ih (i + 1) _ (by omega) (by omega)
    exact layR_step x n i _ _ _ (by omega)
      (fun t ht => table_twiddle setup hT i t h2 (by omega) ht) hl
      (pass_trig_table_reorder_isPassR s setup n i (by omega))

/-- The passes of `fft_passes` leave the DFT in natural order. -/
theorem fft_passes_layN (input : Split ℝ) (setup : Setup ℝ) (n : Nat) (h4 : 4 ≤ n)
    (hmax : n ≤ setup.max_fft_log2) (hT : exact_tables setup) :
    LayN (cplx input) n n (cplx (fft_passes (Real.sqrt 2 / 2) input setup n)) := by
  have h12 := pass_1_2_reorder_layR input n h4
  have hshift : n >>> 1 = n / 2 := by rw [Nat.shiftRight_eq_div_pow, pow_one]
  unfold fft_passes
  simp only [Nat.one_shiftLeft, hshift]
  by_cases hA : n ≤ 5
  · -- sizes 16 and 32: no further reordering
    have c1 : ¬ n > 5 := by omega
    have c2 : ¬ 3 < n / 2 := by omega
    have c3 : n / 2 - 4 = 0 := by omega
    rw [if_neg c1, if_neg c2, c3]
    show LayN _ n n (cplx (fft_passes_loop setup (2 ^ n) (n - (4 + 0)) (4 + 0) _))
    apply fft_passes_loop_layN _ setup hT n hmax _ _ _ (by omega) (by omega)
    have l2 : LayN (cplx input) n 2 (cplx (pass_1_2_reorder input (2 ^ n))) :=
      layR_to_layN _ n 2 _ (by omega) (by omega) h12
    have l3 : LayN (cplx input) n 3
        (cplx (pass_3 (Real.sqrt 2 / 2) (pass_1_2_reorder input (2 ^ n)) (2 ^ n))) :=
      layN_step _ n 2 _ _ _ (by omega) (fun t ht => pass_3_twiddle_eq t (by simpa using ht)) l2
        (pass_3_isPass _ _ n (by omega))
    exact layN_step _ n 3 _ _ _ (by omega)
      (fun t ht => table_twiddle setup hT 3 t (by omega) (by omega) ht) l3
      (pass_trig_table_isPass _ setup n 3 (by omega))
  · have c1 : n > 5 := by omega
    rw [if_pos c1]
    have r3 : LayR (cplx input) n 3
        (cplx (pass_3_reorder (Real.sqrt 2 / 2) (pass_1_2_reorder input (2 ^ n)) (2 ^ n))) :=
      layR_step _ n 2 _ _ _ (by omega) (fun t ht => pass_3_twiddle_eq t (by simpa using ht)) h12
        (pass_3_reorder_isPassR _ _ n (by omega))
    by_cases hB : n ≤ 7
    · -- sizes 64 and 128: one reordering pass
      have c2 : ¬ 3 < n / 2 := by omega
      have c3 : n / 2 - 4 = 0 := by omega
      rw [if_neg c2, c3]
      show LayN _ n n (cplx (fft_passes_loop setup (2 ^ n) (n - (4 + 0)) (4 + 0) _))
      apply fft_passes_loop_layN _ setup hT n hmax _ _ _ (by omega) (by omega)
      have l3 := layR_to_layN _ n 3 _ (by omega) (by omega) r3
      exact layN_step _ n 3 _ _ _ (by omega)
        (fun t ht => table_twiddle setup hT 3 t (by omega) (by omega) ht) l3
        (pass_trig_table_isPass _ setup n 3 (by omega))
    · -- larger sizes: reordering up to half of the passes
      have c2 : 3 < n / 2 := by omega
      rw [if_pos c2]
      have r4 : LayR (cplx input) n 4
          (cplx (pass_trig_table_reorder
            (pass_3_reorder (Real.sqrt 2 / 2) (pass_1_2_reorder input (2 ^ n)) (2 ^ n))
            setup (2 ^ n) 3)) :=
        layR_step _ n 3 _ _ _ (by omega)
          (fun t ht => table_twiddle setup hT 3 t (by omega) (by omega) ht) r3
          (pass_trig_table_reorder_isPassR _ setup n 3 (by omega))
      have rh := fft_passes_reorder_loop_layR (cplx input) setup hT n hmax (n / 2 - 4) 4 _
        (by omega) (by omega) r4
      have lh := layR_to_layN _ n (4 + (n / 2 - 4)) _ (by omega) (by omega) rh
      exact fft_passes_loop_layN _ setup hT n hmax _ _ _ (by omega) (by omega) lh

theorem exact_tables_create_setup (max_fft_log2 : Nat) :
    exact_tables (create_setup max_fft_log2) := by
  intro i j hi hmax hj
  have e : i - trig_table_offset + trig_table_offset = i := Nat.sub_add_cancel hi
  unfold create_setup
  dsimp only at hmax ⊢
  rw [e, if_pos ⟨hmax, hj⟩, if_pos ⟨hmax, hj⟩]
  exact ⟨rfl, rfl⟩

/-- C5: for every `fft_log2` with `4 ≤ fft_log2 ≤ setup.max_fft_log2`, twiddle tables holding
the exact cosines and sines, and every split buffer `input`, `hisstools_fft` on the scalar
path dispatches to `fft_passes`, and `fft_passes` leaves in element `k < 2 ^ fft_log2` the
unnormalised forward DFT `∑ n < N, x[n] * exp (-2 * π * i * n * k / N)` of the
`N = 2 ^ fft_log2` complex samples `x` that the buffer held, in natural order. -/
theorem fft_passes_dft (input : Split ℝ) (setup : Setup ℝ) (fft_log2 k : Nat)
    (h4 : 4 ≤ fft_log2) (hmax : fft_log2 ≤ setup.max_fft_log2) (hT : exact_tables setup)
    (hk : k < 2 ^ fft_log2) :
    hisstools_fft (Real.sqrt 2 / 2) input setup fft_log2
        = fft_passes (Real.sqrt 2 / 2) input setup fft_log2 ∧
    cplx (fft_passes (Real.sqrt 2 / 2) input setup fft_log2) k
        = dft (2 ^ fft_log2) (cplx input) k := by
  constructor
  · unfold hisstools_fft
    rw [if_pos h4]
  · exact layN_final _ _ _ (fft_passes_layN input setup fft_log2 h4 hmax hT) k hk

/-- C5 witness: 16 points, tables from `create_setup 4`, a ramp as input, bin 3. -/
theorem fft_passes_dft_witness :
    hisstools_fft (Real.sqrt 2 / 2) ⟨fun i => (i : ℝ), fun _ => 0⟩ (create_setup 4) 4
        = fft_passes (Real.sqrt 2 / 2) ⟨fun i => (i : ℝ), fun _ => 0⟩ (create_setup 4) 4 ∧
    cplx (fft_passes (Real.sqrt 2 / 2) ⟨fun i => (i : ℝ), fun _ => 0⟩ (create_setup 4) 4) 3
        = dft (2 ^ 4) (cplx ⟨fun i => (i : ℝ), fun _ => 0⟩) 3 :=
  fft_passes_dft ⟨fun i => (i : ℝ), fun _ => 0⟩ (create_setup 4) 4 3 (by decide) (le_refl 4)
    (exact_tables_create_setup 4) (by norm_num)

/-! ### The empty convolver (C11) -/

/-- C11: with `m_num_partitions = 0` a call of `process` on `num_samples` samples returns at
once: the convolver is returned as it was (no member is modified), with `accumulate = false`
the `num_samples` output samples from the `out` pointer on are zero and the rest of the array
is untouched, and with `accumulate = true` the whole output array is unchanged. -/
theorem process_no_partitions {R : Type} [Field R] (K : FFTKernel R) (W rnd : Nat)
    (st : convolve_partitioned R) (inp : Nat → R) (in_pos : Nat) (out : Nat → R)
    (out_pos num_samples : Nat) (accumulate : Bool) (h : st.m_num_partitions = 0) :
    ∃ out1, process K W rnd st inp in_pos out out_pos num_samples accumulate = some (st, out1) ∧
      (accumulate = false →
        (∀ i, i < num_samples → out1 (out_pos + i) = 0) ∧
        (∀ j, j < out_pos ∨ out_pos + num_samples ≤ j → out1 j = out j)) ∧
      (accumulate = true → out1 = out) := by
  refine ⟨fill_n out out_pos (if accumulate then 0 else num_samples) 0, ?_, ?_, ?_⟩
  · unfold process
    rw [if_pos h]
  · intro hacc
    subst hacc
    constructor
    · intro i hi
      unfold fill_n
      rw [if_pos]
      simp only [Bool.false_eq_true, if_false]
      omega
    · intro j hj
      unfold fill_n
      rw [if_neg]
      simp only [Bool.false_eq_true, if_false]
      omega
  · intro hacc
    subst hacc
    funext j
    unfold fill_n
    rw [if_neg]
    simp only [if_true]
    omega

theorem process_no_partitions_witness :
    zero_state.m_num_partitions = 0 ∧
    ∃ out1, process unzip_kernel 4 0 zero_state (fun _ => 1) 0 (fun _ => 7) 2 3 false
        = some (zero_state, out1) ∧
      (false = false →
        (∀ i, i < 3 → out1 (2 + i) = 0) ∧
        (∀ j, j < 2 ∨ 2 + 3 ≤ j → out1 j = (fun _ => (7 : ℚ)) j)) ∧
      (false = true → out1 = fun _ => (7 : ℚ)) :=
  ⟨rfl, process_no_partitions unzip_kernel 4 0 zero_state (fun _ => 1) 0 (fun _ => 7) 2 3 false rfl⟩

/-! ### Independence of the state before a reset (C12) -/

theorem process_partition_fst {R : Type} [Zero R] [Add R] [Sub R] [Mul R] (W : Nat)
    (a b out : Split R) (n : Nat) : (process_partition W a b out n).1 = a := by
  unfold process_partition
  dsimp only
  ext i
  · rfl
  · dsimp only
    rw [Function.update_idem, Function.update_eq_self]

theorem process_partition_snd_fst {R : Type} [Zero R] [Add R] [Sub R] [Mul R] (W : Nat)
    (a b out : Split R) (n : Nat) : (process_partition W a b out n).2.1 = b := by
  unfold process_partition
  dsimp only
  ext i
  · rfl
  · dsimp only
    rw [Function.update_idem, Function.update_eq_self]

theorem vec_mac_congr {R : Type} [Add R] [Sub R] [Mul R] (W n : Nat)
    (a a' b b' out out' : Split R) (v : Nat)
    (ha : bins_eq n a a') (hb : bins_eq n b b') (ho : bins_eq n out out') :
    bins_eq n (vec_mac W a b out v) (vec_mac W a' b' out' v) := by
  intro k hk
  unfold vec_mac
  dsimp only
  rw [(ha k hk).1, (ha k hk).2, (hb k hk).1, (hb k hk).2, (ho k hk).1, (ho k hk).2]
  exact ⟨rfl, rfl⟩

theorem process_partition_loop_congr {R : Type} [Add R] [Sub R] [Mul R] (W n : Nat)
    (a a' b b' : Split R) (num_vecs : Nat)
    (ha : bins_eq n a a') (hb : bins_eq n b b') :
    ∀ (fuel i : Nat) (out out' : Split R), bins_eq n out out' →
      bins_eq n (process_partition_loop W a b num_vecs fuel i out)
        (process_partition_loop W a' b' num_vecs fuel i out') := by
  intro fuel
  induction fuel with
  | zero =>
    intro i out out' ho
    exact ho
  | succ f ih =>
    intro i out out' ho
    unfold process_partition_loop
    split_ifs with h
    · exact ih (i + 4) _ _
        (vec_mac_congr W n a a' b b' _ _ _ ha hb
          (vec_mac_congr W n a a' b b' _ _ _ ha hb
            (vec_mac_congr W n a a' b b' _ _ _ ha hb
              (vec_mac_congr W n a a' b b' _ _ _ ha hb ho))))
    · exact ho

theorem bins_eq_update_zero {R : Type} (n : Nat) (a a' : Split R) (x : R)
    (ha : bins_eq n a a') :
    bins_eq n { a with imagp := Function.update a.imagp 0 x }
      { a' with imagp := Function.update a'.imagp 0 x } := by
  intro k hk
  refine ⟨(ha k hk).1, ?_⟩
  dsimp only
  by_cases h0 : k = 0
  · subst h0
    rw [Function.update_same, Function.update_same]
  · rw [Function.update_noteq h0, Function.update_noteq h0]
    exact (ha k hk).2

/-- The accumulator after `process_partition` depends on the three buffers only through
their first `n` bins, for every vector width. -/
theorem process_partition_congr {R : Type} [Zero R] [Add R] [Sub R] [Mul R] (W n : Nat)
    (a a' b b' out out' : Split R) (num_bins : Nat) (hn : 0 < n)
    (ha : bins_eq n a a') (hb : bins_eq n b b') (ho : bins_eq n out out') :
    bins_eq n (process_partition W a b out num_bins).2.2
      (process_partition W a' b' out' num_bins).2.2 := by
  unfold process_partition
  dsimp only
  apply process_partition_loop_congr W n _ _ _ _ _
    (bins_eq_update_zero n a a' 0 ha) (bins_eq_update_zero n b b' 0 hb)
  have h := bins_eq_update_zero n out out' (out.imagp 0 + a.imagp 0 * b.imagp 0) ho
  rw [(ho 0 hn).2, (ha 0 hn).2, (hb 0 hn).2] at h ⊢
  exact h

/-- The buffers after one scheduled multiply-accumulate, for every vector width: the input
history and the impulse spectra are left as they were. -/
theorem sched_step_bufs_any {R : Type} [Zero R] [Add R] [Sub R] [Mul R] (W half : Nat)
    (st : convolve_partitioned R) :
    (sched_step W half st).m_input_buffer = st.m_input_buffer ∧
    (sched_step W half st).m_impulse_buffer = st.m_impulse_buffer ∧
    (sched_step W half st).m_accum_buffer =
      (process_partition W
        (offset_split_pointer st.m_input_buffer
          ((if st.m_last_partition < st.m_num_partitions then st.m_last_partition else 0) * half))
        (offset_split_pointer st.m_impulse_buffer ((st.m_partitions_done + 1) * half))
        st.m_accum_buffer half).2.2 ∧
    (sched_step W half st).m_valid_partitions = st.m_valid_partitions ∧
    (sched_step W half st).m_input_position = st.m_input_position ∧
    (sched_step W half st).m_fft_size_log2 = st.m_fft_size_log2 ∧
    (sched_step W half st).m_fft_buffers_0 = st.m_fft_buffers_0 ∧
    (sched_step W half st).m_fft_buffers_1 = st.m_fft_buffers_1 ∧
    (sched_step W half st).m_fft_buffers_3 = st.m_fft_buffers_3 := by
  refine ⟨?_, ?_, rfl, rfl, rfl, rfl, rfl, rfl, rfl⟩
  · show write_back st.m_input_buffer _ (process_partition W _ _ _ _).1 = _
    rw [process_partition_fst, write_back_self]
  · show write_back st.m_impulse_buffer _ (process_partition W _ _ _ _).2.1 = _
    rw [process_partition_snd_fst, write_back_self]

theorem bins_eq_offset {R : Type} (a b : Split R) (P H q : Nat) (hq : q < P)
    (h : bins_eq (P * H) a b) :
    bins_eq H (offset_split_pointer a (q * H)) (offset_split_pointer b (q * H)) := by
  intro k hk
  have h1 : (q + 1) * H ≤ P * H := Nat.mul_le_mul_right H hq
  rw [Nat.add_mul, Nat.one_mul] at h1
  exact h (q * H + k) (by omega)

theorem sched_step_sync {R : Type} [Zero R] [Add R] [Sub R] [Mul R] (W : Nat)
    (a b : convolve_partitioned R) (h : Sync a b)
    (hd : a.m_partitions_done + 1 < a.m_valid_partitions) :
    Sync (sched_step W (2 ^ (a.m_fft_size_log2 - 1)) a)
      (sched_step W (2 ^ (a.m_fft_size_log2 - 1)) b) := by
  have hH : 0 < 2 ^ (a.m_fft_size_log2 - 1) := pow_pos (by norm_num) _
  obtain ⟨a_in, a_imp, a_acc, a_valid, a_pos, a_lg, a_b0, a_b1, a_b3⟩ :=
    sched_step_bufs_any W (2 ^ (a.m_fft_size_log2 - 1)) a
  obtain ⟨b_in, b_imp, b_acc, b_valid, b_pos, b_lg, b_b0, b_b1, b_b3⟩ :=
    sched_step_bufs_any W (2 ^ (a.m_fft_size_log2 - 1)) b
  have hcur : (if a.m_last_partition < a.m_num_partitions then a.m_last_partition else 0)
      = (a.m_input_position + 1 + a.m_partitions_done) % a.m_num_partitions := by
    rcases h.cursor with h1 | h1
    · omega
    · exact h1
  have hP : 0 < a.m_num_partitions := by have := h.valid_le; have := h.valid_pos; omega
  have hnext_lt : (a.m_input_position + 1 + a.m_partitions_done) % a.m_num_partitions
      < a.m_num_partitions := Nat.mod_lt _ hP
  refine ⟨?_, ?_, ?_, ?_, ?_, ?_, ?_, ?_, ?_, ?_, ?_, ?_, ?_, ?_, ?_, ?_, ?_, ?_⟩
  · rw [a_lg]; exact h.lg_pos
  · rw [a_lg, b_lg]; exact h.lg_eq
  · rw [sched_step_num, sched_step_num]; exact h.num_eq
  · rw [a_valid, b_valid]; exact h.valid_eq
  · rw [sched_step_done, sched_step_done, h.done_eq]
  · rw [sched_step_last, sched_step_last, h.last_eq, h.num_eq]
  · rw [a_pos, b_pos]; exact h.pos_eq
  · rw [sched_step_num, a_lg, a_imp, b_imp]; exact h.imp
  · rw [a_lg, a_b0, b_b0]; exact h.ring0
  · rw [a_lg, a_b1, b_b1]; exact h.ring1
  · rw [a_lg, a_b3, b_b3]; exact h.ring3
  · rw [a_lg, a_acc, b_acc, ← h.last_eq, ← h.num_eq, ← h.done_eq, hcur]
    apply process_partition_congr W _ _ _ _ _ _ _ _ hH
    · have := h.hist (a.m_partitions_done + 1) (by omega) hd
      rw [← Nat.add_assoc, Nat.add_right_comm] at this
      exact this
    · exact bins_eq_offset _ _ a.m_num_partitions _ _ (by have := h.valid_le; omega) h.imp
    · exact h.acc
  · rw [a_valid]; exact h.valid_pos
  · rw [a_valid, sched_step_num]; exact h.valid_le
  · rw [a_valid, sched_step_done]; exact hd
  · rw [a_pos, sched_step_num]; exact h.pos_lt
  · right
    rw [sched_step_last, sched_step_num, sched_step_done, a_pos, hcur]
    have e : a.m_input_position + 1 + (a.m_partitions_done + 1)
        = (a.m_input_position + 1 + a.m_partitions_done) + 1 := by omega
    rw [e, Nat.add_mod _ 1]
    by_cases hlt : (a.m_input_position + 1 + a.m_partitions_done) % a.m_num_partitions + 1
        < a.m_num_partitions
    · rw [if_pos hlt]
      have h1 : 1 % a.m_num_partitions = 1 := Nat.mod_eq_of_lt (by omega)
      rw [h1, Nat.mod_eq_of_lt hlt]
    · rw [if_neg hlt]
      have heq : (a.m_input_position + 1 + a.m_partitions_done) % a.m_num_partitions + 1
          = a.m_num_partitions := by omega
      have h1 : 1 % a.m_num_partitions = 1 :=
        Nat.mod_eq_of_lt (by have := h.valid_le; omega)
      rw [h1, heq, Nat.mod_self]
  · intro j hj1 hj2
    rw [a_pos, sched_step_num, a_lg, a_in, b_in]
    rw [a_valid] at hj2
    exact h.hist j hj1 hj2

theorem sched_iter_sync {R : Type} [Zero R] [Add R] [Sub R] [Mul R] (W : Nat) :
    ∀ (k : Nat) (a b : convolve_partitioned R), Sync a b →
      a.m_partitions_done + k < a.m_valid_partitions →
      Sync ((sched_step W (2 ^ (a.m_fft_size_log2 - 1)))^[k] a)
        ((sched_step W (2 ^ (a.m_fft_size_log2 - 1)))^[k] b) := by
  intro k
  induction k with
  | zero =>
    intro a b h _
    exact h
  | succ n ih =>
    intro a b h hd
    rw [Function.iterate_succ_apply, Function.iterate_succ_apply]
    have h1 := sched_step_sync W a b h (by omega)
    have h2 := ih (sched_step W (2 ^ (a.m_fft_size_log2 - 1)) a)
      (sched_step W (2 ^ (a.m_fft_size_log2 - 1)) b)
    have e : (sched_step W (2 ^ (a.m_fft_size_log2 - 1)) a).m_fft_size_log2
        = a.m_fft_size_log2 := rfl
    rw [e] at h2
    exact h2 h1 (by rw [sched_step_done]; show _ < a.m_valid_partitions; omega)

/-- The members after the FFT-due block, for every vector width. -/
theorem fft_step_any {R : Type} [Field R] (K : FFTKernel R) (W : Nat)
    (S : convolve_partitioned R) (x : Nat) (hlg : 1 ≤ S.m_fft_size_log2) :
    (fft_step K W S x).2 = x % 2 ^ S.m_fft_size_log2 ∧
    (fft_step K W S x).1.m_input_buffer =
      store_bins S.m_input_buffer (S.m_input_position * 2 ^ (S.m_fft_size_log2 - 1))
        (2 ^ (S.m_fft_size_log2 - 1))
        (K.rfft S.m_fft_size_log2
          (first_n (if x = 2 ^ S.m_fft_size_log2 then S.m_fft_buffers_1 else S.m_fft_buffers_0)
            (2 ^ S.m_fft_size_log2))) ∧
    (fft_step K W S x).1.m_impulse_buffer = S.m_impulse_buffer ∧
    (∀ k, k < 2 ^ (S.m_fft_size_log2 - 1) →
      (fft_step K W S x).1.m_accum_buffer.realp k = 0 ∧
      (fft_step K W S x).1.m_accum_buffer.imagp k = 0) ∧
    (fft_step K W S x).1.m_fft_buffers_3 =
      scale_store W S.m_fft_buffers_3
        (copy_n (K.rifft S.m_fft_size_log2
          (first_bins
            (process_partition W
              (offset_split_pointer
                (store_bins S.m_input_buffer (S.m_input_position * 2 ^ (S.m_fft_size_log2 - 1))
                  (2 ^ (S.m_fft_size_log2 - 1))
                  (K.rfft S.m_fft_size_log2
                    (first_n
                      (if x = 2 ^ S.m_fft_size_log2 then S.m_fft_buffers_1
                        else S.m_fft_buffers_0)
                      (2 ^ S.m_fft_size_log2))))
                (S.m_input_position * 2 ^ (S.m_fft_size_log2 - 1)))
              S.m_impulse_buffer S.m_accum_buffer (2 ^ (S.m_fft_size_log2 - 1))).2.2
            (2 ^ (S.m_fft_size_log2 - 1)))) 0 (2 ^ S.m_fft_size_log2) S.m_fft_buffers_2 0)
        (2 ^ S.m_fft_size_log2) (decide (x ≠ 2 ^ S.m_fft_size_log2)) ∧
    (fft_step K W S x).1.m_fft_buffers_0 = S.m_fft_buffers_0 ∧
    (fft_step K W S x).1.m_fft_buffers_1 = S.m_fft_buffers_1 ∧
    (fft_step K W S x).1.m_valid_partitions = min S.m_num_partitions (S.m_valid_partitions + 1) ∧
    (fft_step K W S x).1.m_input_position =
      (if S.m_input_position ≠ 0 then S.m_input_position - 1 else S.m_num_partitions - 1) ∧
    (fft_step K W S x).1.m_last_partition =
      (if S.m_input_position ≠ 0 then S.m_input_position - 1 else S.m_num_partitions - 1) + 1 ∧
    (fft_step K W S x).1.m_partitions_done = 0 := by
  have hhalf : 0 < 2 ^ (S.m_fft_size_log2 - 1) := pow_pos (by norm_num) _
  unfold fft_step
  dsimp only
  rw [get_fft_size_eq, halved_eq _ hlg, process_partition_fst, process_partition_snd_fst,
    write_back_self]
  refine ⟨and_mask _ _, rfl, rfl, ?_, rfl, rfl, rfl, rfl, rfl, rfl, rfl⟩
  intro k hk
  unfold fill_n
  have : 0 ≤ k ∧ k < 0 + 2 ^ (S.m_fft_size_log2 - 1) := by omega
  exact ⟨if_pos this, if_pos this⟩

theorem first_n_congr {R : Type} [Zero R] (n : Nat) (f g : Nat → R)
    (h : ∀ i, i < n → f i = g i) : first_n f n = first_n g n := by
  funext i
  unfold first_n
  split_ifs with hi
  · exact h i hi
  · rfl

theorem store_bins_congr {R : Type} (a b src : Split R) (off n H q : Nat)
    (h : bins_eq H (offset_split_pointer a q) (offset_split_pointer b q)) :
    bins_eq H (offset_split_pointer (store_bins a off n src) q)
      (offset_split_pointer (store_bins b off n src) q) := by
  intro k hk
  have h1 := h k hk
  unfold offset_split_pointer at h1 ⊢
  unfold store_bins copy_n
  dsimp only at h1 ⊢
  constructor
  · split_ifs
    · rfl
    · exact h1.1
  · split_ifs
    · rfl
    · exact h1.2

theorem scale_store_congr {R : Type} [Field R] (W : Nat) (out out' temp temp' : Nat → R)
    (F : Nat) (off : Bool) (n : Nat) (ho : ∀ i, i < n → out i = out' i)
    (ht : ∀ i, i < n → temp i = temp' i) :
    ∀ i, i < n → scale_store W out temp F off i = scale_store W out' temp' F off i := by
  intro i hi
  unfold scale_store
  split_ifs <;> first | rw [ht _ (by omega)] | exact ho i hi

theorem copy_n_zero_lt {R : Type} (src dst : Nat → R) (n i : Nat) (hi : i < n) :
    copy_n src 0 n dst 0 i = src i := by
  unfold copy_n
  rw [if_pos (by omega), Nat.sub_zero, Nat.zero_add]

theorem store_bins_same {R : Type} (a b src : Split R) (q H : Nat) :
    bins_eq H (offset_split_pointer (store_bins a q H src) q)
      (offset_split_pointer (store_bins b q H src) q) := by
  intro k hk
  have h1 := bins_eq_store_bins a src q H k hk
  have h2 := bins_eq_store_bins b src q H k hk
  exact ⟨h1.1.trans h2.1.symm, h1.2.trans h2.2.symm⟩

theorem fft_step_sync {R : Type} [Field R] (K : FFTKernel R) (W : Nat)
    (a b : convolve_partitioned R) (x : Nat) (h : Sync a b) :
    Sync (fft_step K W a x).1 (fft_step K W b x).1 ∧
      (fft_step K W a x).2 = (fft_step K W b x).2 ∧
      (fft_step K W a x).2 < 2 ^ a.m_fft_size_log2 := by
  have hH : 0 < 2 ^ (a.m_fft_size_log2 - 1) := pow_pos (by norm_num) _
  have hF := two_pow_eq_double a.m_fft_size_log2 h.lg_pos
  have hP : 0 < a.m_num_partitions := by have := h.valid_le; have := h.valid_pos; omega
  obtain ⟨a_rw, a_in, a_imp, a_acc, a_b3, a_b0, a_b1, a_valid, a_pos, a_last, a_done⟩ :=
    fft_step_any K W a x h.lg_pos
  obtain ⟨b_rw, b_in, b_imp, b_acc, b_b3, b_b0, b_b1, b_valid, b_pos, b_last, b_done⟩ :=
    fft_step_any K W b x (by rw [← h.lg_eq]; exact h.lg_pos)
  obtain ⟨a_lg, a_num, -⟩ := fft_step_fields K W a x
  obtain ⟨b_lg, b_num, -⟩ := fft_step_fields K W b x
  rw [← h.lg_eq] at b_rw b_acc
  rw [← h.lg_eq, ← h.pos_eq] at b_in b_b3
  rw [← h.num_eq, ← h.valid_eq] at b_valid
  rw [← h.pos_eq, ← h.num_eq] at b_pos b_last
  have hwin : first_n (if x = 2 ^ a.m_fft_size_log2 then b.m_fft_buffers_1
        else b.m_fft_buffers_0) (2 ^ a.m_fft_size_log2)
      = first_n (if x = 2 ^ a.m_fft_size_log2 then a.m_fft_buffers_1
        else a.m_fft_buffers_0) (2 ^ a.m_fft_size_log2) := by
    apply first_n_congr
    intro i hi
    split_ifs
    · exact (h.ring1 i hi).symm
    · exact (h.ring0 i hi).symm
  rw [hwin] at b_in b_b3
  have hpos' : (if a.m_input_position ≠ 0 then a.m_input_position - 1
      else a.m_num_partitions - 1) < a.m_num_partitions := by
    have := h.pos_lt
    split_ifs <;> omega
  have hback : ∀ j, 1 ≤ j →
      ((if a.m_input_position ≠ 0 then a.m_input_position - 1 else a.m_num_partitions - 1) + j)
        % a.m_num_partitions = (a.m_input_position + (j - 1)) % a.m_num_partitions := by
    intro j hj
    have hlt := h.pos_lt
    by_cases h0 : a.m_input_position ≠ 0
    · rw [if_pos h0]
      congr 1
      omega
    · rw [if_neg h0]
      have h00 : a.m_input_position = 0 := by omega
      rw [h00]
      have e : a.m_num_partitions - 1 + j = (0 + (j - 1)) + a.m_num_partitions := by omega
      rw [e, Nat.add_mod_right]
  refine ⟨⟨?_, ?_, ?_, ?_, ?_, ?_, ?_, ?_, ?_, ?_, ?_, ?_, ?_, ?_, ?_, ?_, ?_, ?_⟩, ?_, ?_⟩
  · rw [a_lg]; exact h.lg_pos
  · rw [a_lg, b_lg]; exact h.lg_eq
  · rw [a_num, b_num]; exact h.num_eq
  · rw [a_valid, b_valid]
  · rw [a_done, b_done]
  · rw [a_last, b_last]
  · rw [a_pos, b_pos]
  · rw [a_num, a_lg, a_imp, b_imp]; exact h.imp
  · rw [a_lg, a_b0, b_b0]; exact h.ring0
  · rw [a_lg, a_b1, b_b1]; exact h.ring1
  · rw [a_lg, a_b3, b_b3]
    apply scale_store_congr W _ _ _ _ _ _ _ h.ring3
    intro i hi
    rw [copy_n_zero_lt _ _ _ _ hi, copy_n_zero_lt _ _ _ _ hi]
    congr 1
    apply first_bins_congr
    apply process_partition_congr W _ _ _ _ _ _ _ _ hH
    · exact store_bins_same _ _ _ _ _
    · have := bins_eq_offset _ _ a.m_num_partitions _ 0 hP h.imp
      intro k hk
      have h2 := this k hk
      unfold offset_split_pointer at h2
      dsimp only at h2
      rw [Nat.zero_mul, Nat.zero_add] at h2
      exact h2
    · exact h.acc
  · rw [a_lg]
    intro k hk
    rw [(a_acc k hk).1, (a_acc k hk).2, (b_acc k hk).1, (b_acc k hk).2]
    exact ⟨rfl, rfl⟩
  · rw [a_valid]
    have := h.valid_pos
    omega
  · rw [a_valid, a_num]
    omega
  · rw [a_done, a_valid]
    have := h.valid_pos
    omega
  · rw [a_pos, a_num]; exact hpos'
  · right
    rw [a_last, a_num, a_pos, a_done, Nat.add_zero]
    by_cases hlt : (if a.m_input_position ≠ 0 then a.m_input_position - 1
        else a.m_num_partitions - 1) + 1 < a.m_num_partitions
    · rw [if_pos hlt, Nat.mod_eq_of_lt hlt]
    · rw [if_neg hlt]
      have heq : (if a.m_input_position ≠ 0 then a.m_input_position - 1
        else a.m_num_partitions - 1) + 1 = a.m_num_partitions := by omega
      rw [heq, Nat.mod_self]
  · intro j hj1 hj2
    rw [a_pos, a_num, a_lg, a_in, b_in, hback j hj1]
    rw [a_valid] at hj2
    by_cases hj : j = 1
    · subst hj
      rw [Nat.sub_self, Nat.add_zero, Nat.mod_eq_of_lt h.pos_lt]
      exact store_bins_same _ _ _ _ _
    · apply store_bins_congr
      exact h.hist (j - 1) (by omega) (by omega)
  · rw [a_rw, b_rw]
  · rw [a_rw]
    exact Nat.mod_lt _ (pow_pos (by norm_num) _)

theorem with_io_sync {R : Type} (a b : convolve_partitioned R) (x0 x1 y0 y1 : Nat → R)
    (h : Sync a b)
    (h0 : ∀ i, i < 2 ^ a.m_fft_size_log2 → x0 i = y0 i)
    (h1 : ∀ i, i < 2 ^ a.m_fft_size_log2 → x1 i = y1 i) :
    Sync (with_io a x0 x1) (with_io b y0 y1) :=
  ⟨h.lg_pos, h.lg_eq, h.num_eq, h.valid_eq, h.done_eq, h.last_eq, h.pos_eq, h.imp, h0, h1,
    h.ring3, h.acc, h.valid_pos, h.valid_le, h.done_lt, h.pos_lt, h.cursor, h.hist⟩

theorem with_rw_sync {R : Type} (a b : convolve_partitioned R) (x y : Nat)
    (h : Sync a b) : Sync (with_rw a x) (with_rw b y) :=
  ⟨h.lg_pos, h.lg_eq, h.num_eq, h.valid_eq, h.done_eq, h.last_eq, h.pos_eq, h.imp, h.ring0,
    h.ring1, h.ring3, h.acc, h.valid_pos, h.valid_le, h.done_lt, h.pos_lt, h.cursor, h.hist⟩

theorem copy_n_congr_lt {R : Type} (src : Nat → R) (sp n : Nat) (d d' : Nat → R) (dp F : Nat)
    (h : ∀ i, i < F → d i = d' i) :
    ∀ i, i < F → copy_n src sp n d dp i = copy_n src sp n d' dp i := by
  intro i hi
  unfold copy_n
  split_ifs
  · rfl
  · exact h i hi

theorem rw_add_till_le (rw H : Nat) (hH : 0 < H) (hrw : rw < 2 * H) :
    rw + (H - rw % H) ≤ 2 * H := by
  have h1 := Nat.div_add_mod rw H
  have h2 : rw / H < 2 := Nat.div_lt_of_lt_mul (by omega)
  have h3 := Nat.mod_lt rw hH
  generalize rw / H = q at h1 h2
  obtain hq | hq : q = 0 ∨ q = 1 := by omega
  · subst hq; omega
  · subst hq; omega

theorem out_read_congr {R : Type} [Add R] (accumulate : Bool) (r r' out : Nat → R)
    (rw L op F : Nat) (hle : rw + L ≤ F) (h : ∀ i, i < F → r i = r' i) :
    (if accumulate then add_n r rw L out op else copy_n r rw L out op)
      = (if accumulate then add_n r' rw L out op else copy_n r' rw L out op) := by
  cases accumulate
  · simp only [Bool.false_eq_true, if_false]
    funext i
    unfold copy_n
    split_ifs with hc
    · exact h _ (by omega)
    · rfl
  · simp only [if_true]
    funext i
    unfold add_n
    split_ifs with hc
    · rw [h _ (by omega)]
    · rfl

theorem sched_todo_bound (v d c H : Nat) (hd : d < v) (hc : c < H) :
    d + (sched_todo v d c H).toNat < v := by
  unfold sched_todo
  split_ifs with h0
  · omega
  · have := quota_le v H c (by omega)
    omega

/-- One iteration of the main loop on two convolvers that `process` cannot tell apart: the
results cannot be told apart either, and the loop variables and the output are equal. -/
theorem process_iter_alt_sync {R : Type} [Field R] (K : FFTKernel R) (W : Nat) (inp : Nat → R)
    (accumulate : Bool) (a b : convolve_partitioned R) (rw rem ip op : Nat) (out : Nat → R)
    (h : Sync a b) (hrw : rw < 2 ^ a.m_fft_size_log2) :
    Sync (process_iter_alt K W inp accumulate (a, rw, rem, ip, op, out)).1
      (process_iter_alt K W inp accumulate (b, rw, rem, ip, op, out)).1 ∧
    (process_iter_alt K W inp accumulate (a, rw, rem, ip, op, out)).2
      = (process_iter_alt K W inp accumulate (b, rw, rem, ip, op, out)).2 ∧
    (process_iter_alt K W inp accumulate (a, rw, rem, ip, op, out)).2.1
      < 2 ^ a.m_fft_size_log2 := by
  have hF := two_pow_eq_double a.m_fft_size_log2 h.lg_pos
  have hH : 0 < 2 ^ (a.m_fft_size_log2 - 1) := pow_pos (by norm_num) _
  obtain ⟨L, hL⟩ : ∃ L, L = min rem (2 ^ (a.m_fft_size_log2 - 1)
      - rw % 2 ^ (a.m_fft_size_log2 - 1)) := ⟨_, rfl⟩
  obtain ⟨c, hc⟩ : ∃ c, c = (rw + L) % 2 ^ (a.m_fft_size_log2 - 1) := ⟨_, rfl⟩
  have hcH : c < 2 ^ (a.m_fft_size_log2 - 1) := by rw [hc]; exact Nat.mod_lt _ hH
  have hle : rw + L ≤ 2 ^ a.m_fft_size_log2 := by
    have := rw_add_till_le rw (2 ^ (a.m_fft_size_log2 - 1)) hH (by omega)
    have : L ≤ 2 ^ (a.m_fft_size_log2 - 1) - rw % 2 ^ (a.m_fft_size_log2 - 1) := by
      rw [hL]; exact min_le_right _ _
    omega
  obtain ⟨k, hk⟩ : ∃ k, k = (sched_todo a.m_valid_partitions a.m_partitions_done c
      (2 ^ (a.m_fft_size_log2 - 1))).toNat := ⟨_, rfl⟩
  have hkb := sched_todo_bound a.m_valid_partitions a.m_partitions_done c
    (2 ^ (a.m_fft_size_log2 - 1)) h.done_lt hcH
  rw [← hk] at hkb
  have hio : Sync
      (with_io a (copy_n inp ip L a.m_fft_buffers_0 rw)
        (copy_n inp ip L a.m_fft_buffers_1
          ((rw + 2 ^ (a.m_fft_size_log2 - 1)) % 2 ^ a.m_fft_size_log2)))
      (with_io b (copy_n inp ip L b.m_fft_buffers_0 rw)
        (copy_n inp ip L b.m_fft_buffers_1
          ((rw + 2 ^ (a.m_fft_size_log2 - 1)) % 2 ^ a.m_fft_size_log2))) :=
    with_io_sync a b _ _ _ _ h (copy_n_congr_lt _ _ _ _ _ _ _ h.ring0)
      (copy_n_congr_lt _ _ _ _ _ _ _ h.ring1)
  have hS := sched_iter_sync W k _ _ hio hkb
  have ea := process_iter_alt_eq K W inp accumulate a rw rem ip op out
    (2 ^ (a.m_fft_size_log2 - 1)) L ((rw + 2 ^ (a.m_fft_size_log2 - 1)) % 2 ^ a.m_fft_size_log2)
    c _ _ _ _ (rem - L) (ip + L) (op + L) (rw + L)
    rfl hL rfl rfl rfl rfl hc (by rw [← hk]) rfl rfl rfl rfl
  have eb := process_iter_alt_eq K W inp accumulate b rw rem ip op out
    (2 ^ (a.m_fft_size_log2 - 1)) L ((rw + 2 ^ (a.m_fft_size_log2 - 1)) % 2 ^ a.m_fft_size_log2)
    c _ _ _ _ (rem - L) (ip + L) (op + L) (rw + L)
    (by rw [h.lg_eq]) hL (by rw [h.lg_eq]) rfl rfl rfl hc
    (by rw [← h.valid_eq, ← h.done_eq, ← hk]) rfl rfl rfl rfl
  have hout := out_read_congr accumulate a.m_fft_buffers_3 b.m_fft_buffers_3 out rw L op
    (2 ^ a.m_fft_size_log2) hle h.ring3
  rw [ea, eb, hout]
  by_cases hc0 : c = 0
  · rw [if_pos hc0, if_pos hc0]
    obtain ⟨g1, g2, g3⟩ := fft_step_sync K W _ _ (rw + L) hS
    rw [(sched_iter_fields W _ k _).1] at g3
    exact ⟨g1, Prod.ext g2 rfl, g3⟩
  · rw [if_neg hc0, if_neg hc0]
    refine ⟨hS, rfl, ?_⟩
    show rw + L < 2 ^ a.m_fft_size_log2
    rcases Nat.lt_or_ge (rw + L) (2 ^ a.m_fft_size_log2) with hlt | hge
    · exact hlt
    · exfalso
      apply hc0
      have : rw + L = 2 * 2 ^ (a.m_fft_size_log2 - 1) := by omega
      rw [hc, this, Nat.mul_mod_left]

theorem process_loop_sync {R : Type} [Field R] (K : FFTKernel R) (W : Nat) (inp : Nat → R)
    (accumulate : Bool) :
    ∀ (fuel : Nat) (va0 vb0 : convolve_partitioned R × Nat × Nat × Nat × Nat × (Nat → R)),
      Sync va0.1 vb0.1 → va0.2 = vb0.2 → va0.2.1 < 2 ^ va0.1.m_fft_size_log2 →
      ∀ va, process_loop K W inp accumulate fuel va0 = some va →
        ∃ vb, process_loop K W inp accumulate fuel vb0 = some vb ∧
          Sync va.1 vb.1 ∧ va.2 = vb.2 ∧ va.2.1 < 2 ^ va.1.m_fft_size_log2 ∧
          va.1.m_reset_flag = va0.1.m_reset_flag ∧ vb.1.m_reset_flag = vb0.1.m_reset_flag := by
  intro fuel
  induction fuel with
  | zero =>
    intro va0 vb0 hs h2 hrw va hva
    rw [process_loop] at hva ⊢
    rw [← h2]
    by_cases hrem : va0.2.2.1 > 0
    · rw [if_pos hrem] at hva
      exact absurd hva (by simp)
    · rw [if_neg hrem] at hva ⊢
      have e := Option.some.inj hva
      subst e
      exact ⟨vb0, rfl, hs, h2, hrw, rfl, rfl⟩
  | succ f ih =>
    intro va0 vb0 hs h2 hrw va hva
    rw [process_loop] at hva ⊢
    rw [← h2]
    by_cases hrem : va0.2.2.1 > 0
    · rw [if_pos hrem] at hva ⊢
      have hnumA : 1 ≤ va0.1.m_num_partitions := by
        have := hs.valid_le; have := hs.valid_pos; omega
      have hnumB : 1 ≤ vb0.1.m_num_partitions := by rw [← hs.num_eq]; exact hnumA
      rw [process_iter_eq_alt K W inp accumulate va0 hs.lg_pos hnumA] at hva
      rw [process_iter_eq_alt K W inp accumulate vb0 (by rw [← hs.lg_eq]; exact hs.lg_pos) hnumB]
      obtain ⟨a, rw, rem, ip, op, out⟩ := va0
      obtain ⟨b, rw', rem', ip', op', out'⟩ := vb0
      simp only [Prod.mk.injEq] at h2
      obtain ⟨rfl, rfl, rfl, rfl, rfl⟩ := h2
      obtain ⟨g1, g2, g3⟩ := process_iter_alt_sync K W inp accumulate a b rw rem ip op out hs hrw
      obtain ⟨fa1, -, fa3, -⟩ := process_iter_alt_fields K W inp accumulate a rw rem ip op out
      obtain ⟨-, -, fb3, -⟩ := process_iter_alt_fields K W inp accumulate b rw rem ip op out
      obtain ⟨vb, k1, k2, k3, k4, k5, k6⟩ := ih _ _ g1 g2 (by rw [fa1]; exact g3) va hva
      exact ⟨vb, k1, k2, k3, k4, k5.trans fa3, k6.trans fb3⟩
    · rw [if_neg hrem] at hva ⊢
      have e := Option.some.inj hva
      subst e
      exact ⟨vb0, rfl, hs, h2, hrw, rfl, rfl⟩

theorem process_reset_sync {R : Type} [Zero R] (rnd : Nat) (a b : convolve_partitioned R)
    (hlg : 1 ≤ a.m_fft_size_log2) (hlgeq : a.m_fft_size_log2 = b.m_fft_size_log2)
    (hnum : a.m_num_partitions = b.m_num_partitions) (hP : 1 ≤ a.m_num_partitions)
    (himp : bins_eq (a.m_num_partitions * 2 ^ (a.m_fft_size_log2 - 1))
      a.m_impulse_buffer b.m_impulse_buffer)
    (hro : a.m_reset_offset = b.m_reset_offset) (hnn : 0 ≤ a.m_reset_offset)
    (hmaxa : a.m_fft_size_log2 ≤ a.m_max_fft_size_log2)
    (hmaxb : b.m_fft_size_log2 ≤ b.m_max_fft_size_log2) :
    Sync (process_reset rnd a).1 (process_reset rnd b).1 ∧
    (process_reset rnd a).2 = (process_reset rnd b).2 ∧
    (process_reset rnd a).2 < 2 ^ a.m_fft_size_log2 := by
  have hF := two_pow_eq_double a.m_fft_size_log2 hlg
  have hH : 0 < 2 ^ (a.m_fft_size_log2 - 1) := pow_pos (by norm_num) _
  have hmA : get_max_fft_size a = 2 ^ a.m_max_fft_size_log2 := by
    unfold get_max_fft_size; rw [Nat.one_shiftLeft]
  have hmB : get_max_fft_size b = 2 ^ b.m_max_fft_size_log2 := by
    unfold get_max_fft_size; rw [Nat.one_shiftLeft]
  have hleA : 2 ^ a.m_fft_size_log2 ≤ get_max_fft_size a := by
    rw [hmA]; exact Nat.pow_le_pow_right (by norm_num) hmaxa
  have hleB : 2 ^ a.m_fft_size_log2 ≤ get_max_fft_size b := by
    rw [hmB, hlgeq]; exact Nat.pow_le_pow_right (by norm_num) hmaxb
  have hhA : 2 ^ (a.m_fft_size_log2 - 1) ≤ get_max_fft_size a >>> 1 := by
    rw [Nat.shiftRight_eq_div_pow, pow_one]; omega
  have hhB : 2 ^ (a.m_fft_size_log2 - 1) ≤ get_max_fft_size b >>> 1 := by
    rw [Nat.shiftRight_eq_div_pow, pow_one]; omega
  have hring : ∀ (f g : Nat → R) (i : Nat), i < 2 ^ a.m_fft_size_log2 →
      fill_n f 0 (get_max_fft_size a) 0 i = fill_n g 0 (get_max_fft_size b) 0 i := by
    intro f g i hi
    unfold fill_n
    rw [if_pos (by omega), if_pos (by omega)]
  have hrwA : (process_reset rnd a).2
      = a.m_reset_offset.toNat % 2 ^ (a.m_fft_size_log2 - 1) := by
    unfold process_reset
    dsimp only
    rw [if_neg (by omega), get_fft_size_eq, halved_eq _ hlg]
  have hrwB : (process_reset rnd b).2
      = a.m_reset_offset.toNat % 2 ^ (a.m_fft_size_log2 - 1) := by
    unfold process_reset
    dsimp only
    rw [if_neg (by omega), get_fft_size_eq, ← hlgeq, halved_eq _ hlg, hro]
  refine ⟨⟨hlg, hlgeq, hnum, rfl, rfl, rfl, rfl, himp, ?_, ?_, ?_, ?_, ?_, ?_, ?_, ?_, ?_, ?_⟩,
    ?_, ?_⟩
  · exact fun i hi => hring _ _ i hi
  · exact fun i hi => hring _ _ i hi
  · exact fun i hi => hring _ _ i hi
  · intro k hk
    show fill_n a.m_accum_buffer.realp 0 (get_max_fft_size a >>> 1) 0 k
        = fill_n b.m_accum_buffer.realp 0 (get_max_fft_size b >>> 1) 0 k ∧
      fill_n a.m_accum_buffer.imagp 0 (get_max_fft_size a >>> 1) 0 k
        = fill_n b.m_accum_buffer.imagp 0 (get_max_fft_size b >>> 1) 0 k
    have hk' : k < 2 ^ (a.m_fft_size_log2 - 1) := hk
    unfold fill_n
    rw [if_pos (by omega), if_pos (by omega), if_pos (by omega), if_pos (by omega)]
    exact ⟨rfl, rfl⟩
  · show 1 ≤ 1
    omega
  · exact hP
  · show 0 < 1
    omega
  · exact hP
  · left
    rfl
  · intro j hj1 hj2
    have : j < 1 := hj2
    omega
  · rw [hrwA, hrwB]
  · rw [hrwA]
    have := Nat.mod_lt a.m_reset_offset.toNat hH
    omega

/-- One `process` call on two aligned convolvers: both calls return, with the same output
array, and the convolvers are aligned again. -/
theorem process_aligned {R : Type} [Field R] (K : FFTKernel R) (W rnd : Nat) (inp : Nat → R)
    (a b : convolve_partitioned R) (ip : Nat) (out : Nat → R) (op N : Nat) (accumulate : Bool)
    (h : Aligned a b) :
    ∃ a1 b1 out1, process K W rnd a inp ip out op N accumulate = some (a1, out1) ∧
      process K W rnd b inp ip out op N accumulate = some (b1, out1) ∧ Aligned a1 b1 := by
  have hnum : a.m_num_partitions = b.m_num_partitions := by
    rcases h with h | h
    · exact h.2.2.2.2.1
    · exact h.2.2.1.num_eq
  by_cases hP0 : a.m_num_partitions = 0
  · refine ⟨a, b, fill_n out op (if accumulate then 0 else N) 0, ?_, ?_, h⟩
    · unfold process
      rw [if_pos hP0]
    · unfold process
      rw [if_pos (hnum ▸ hP0)]
  · have hP : 1 ≤ a.m_num_partitions := by omega
    have hPb : 1 ≤ b.m_num_partitions := by omega
    obtain ⟨ra, hra⟩ : ∃ ra, ra = if a.m_reset_flag then process_reset rnd a
        else (a, a.m_rw_counter) := ⟨_, rfl⟩
    obtain ⟨rb, hrb⟩ : ∃ rb, rb = if b.m_reset_flag then process_reset rnd b
        else (b, b.m_rw_counter) := ⟨_, rfl⟩
    have hr : Sync ra.1 rb.1 ∧ ra.2 = rb.2 ∧ ra.2 < 2 ^ ra.1.m_fft_size_log2 ∧
        ra.1.m_reset_flag = false ∧ rb.1.m_reset_flag = false := by
      rcases h with ⟨fa, fb, h1, h2, h3, h4, h5, h6, h7, h8⟩ | ⟨fa, fb, hs, h1, h2⟩
      · rw [fa] at hra
        rw [fb] at hrb
        simp only [if_true] at hra hrb
        rw [hra, hrb]
        obtain ⟨g1, g2, g3⟩ := process_reset_sync rnd a b h1 h2 h3 hP h4 h5 h6 h7 h8
        exact ⟨g1, g2, g3, rfl, rfl⟩
      · rw [fa] at hra
        rw [fb] at hrb
        simp only [Bool.false_eq_true, if_false] at hra hrb
        rw [hra, hrb]
        exact ⟨hs, h1, h2, fa, fb⟩
    obtain ⟨hs, hr2, hr3, hfa, hfb⟩ := hr
    have hPra : 1 ≤ ra.1.m_num_partitions := by
      have := hs.valid_le; have := hs.valid_pos; omega
    obtain ⟨va, hva, -⟩ := process_loop_total K W inp accumulate N ra.1 ra.2 ip op out
      hs.lg_pos hPra
    have hva' := hva N (le_refl _)
    obtain ⟨vb, hvb, k1, k2, k3, k4, k5⟩ := process_loop_sync K W inp accumulate N
      (ra.1, ra.2, N, ip, op, out) (rb.1, rb.2, N, ip, op, out) hs
      (by rw [hr2]) hr3 va hva'
    have pa := process_eq K W rnd a inp ip out op N accumulate hP ra hra va hva'
    have pb := process_eq K W rnd b inp ip out op N accumulate hPb rb hrb vb hvb
    have e2 : vb.2.2.2.2.2 = va.2.2.2.2.2 := by rw [k2]
    have e1 : vb.2.1 = va.2.1 := by rw [k2]
    rw [e2] at pb
    refine ⟨_, _, _, pa, pb, Or.inr ⟨?_, ?_, with_rw_sync _ _ _ _ k1, ?_, ?_⟩⟩
    · show va.1.m_reset_flag = false
      rw [k4]; exact hfa
    · show vb.1.m_reset_flag = false
      rw [k5]; exact hfb
    · show va.2.1 = vb.2.1
      rw [e1]
    · exact k3

theorem process_calls_aligned {R : Type} [Field R] (K : FFTKernel R) (W rnd : Nat)
    (inp : Nat → R) :
    ∀ (calls : List (Nat × Nat × Nat × Bool)) (a b : convolve_partitioned R) (out : Nat → R),
      Aligned a b →
      ∃ a1 b1 out1, process_calls K W rnd inp calls a out = some (a1, out1) ∧
        process_calls K W rnd inp calls b out = some (b1, out1) := by
  intro calls
  induction calls with
  | nil =>
    intro a b out _
    exact ⟨a, b, out, rfl, rfl⟩
  | cons c cs ih =>
    intro a b out h
    obtain ⟨a1, b1, out1, h1, h2, h3⟩ :=
      process_aligned K W rnd inp a b c.1 out c.2.1 c.2.2.1 c.2.2.2 h
    obtain ⟨a2, b2, out2, g1, g2⟩ := ih a1 b1 out1 h3
    refine ⟨a2, b2, out2, ?_, ?_⟩
    · rw [process_calls, h1]
      exact g1
    · rw [process_calls, h2]
      exact g2

/-- C12: two convolvers that both have the reset flag set and agree on the FFT size (at
least 2, within the allocated maximum), on `m_num_partitions`, on the impulse spectra of
those partitions and on a non-negative reset offset, but differ arbitrarily in the input
history, the input and output rings, the accumulator, the stored read/write counter and the
scheduling counters, produce the same output array under every sequence of `process` calls
on the same input (any block sizes, positions and `accumulate` flags, any vector width and
transform kernel); every call returns. -/
theorem process_calls_reset_independent {R : Type} [Field R] (K : FFTKernel R) (W rnd : Nat)
    (inp : Nat → R) (calls : List (Nat × Nat × Nat × Bool)) (a b : convolve_partitioned R)
    (out : Nat → R)
    (hfa : a.m_reset_flag = true) (hfb : b.m_reset_flag = true)
    (hlg : 1 ≤ a.m_fft_size_log2) (hlgeq : a.m_fft_size_log2 = b.m_fft_size_log2)
    (hnum : a.m_num_partitions = b.m_num_partitions)
    (himp : bins_eq (a.m_num_partitions * 2 ^ (a.m_fft_size_log2 - 1))
      a.m_impulse_buffer b.m_impulse_buffer)
    (hro : a.m_reset_offset = b.m_reset_offset) (hnn : 0 ≤ a.m_reset_offset)
    (hmaxa : a.m_fft_size_log2 ≤ a.m_max_fft_size_log2)
    (hmaxb : b.m_fft_size_log2 ≤ b.m_max_fft_size_log2) :
    ∃ a1 b1 out1, process_calls K W rnd inp calls a out = some (a1, out1) ∧
      process_calls K W rnd inp calls b out = some (b1, out1) :=
  process_calls_aligned K W rnd inp calls a b out
    (Or.inl ⟨hfa, hfb, hlg, hlgeq, hnum, himp, hro, hnn, hmaxa, hmaxb⟩)

theorem process_calls_reset_independent_witness :
    ∃ a1 b1 out1,
      process_calls unzip_kernel 4 0 (fun i => (i : ℚ)) [(0, 0, 20, false), (20, 20, 50, true)]
          (stale_state 0 0) (fun _ => 0) = some (a1, out1) ∧
      process_calls unzip_kernel 4 0 (fun i => (i : ℚ)) [(0, 0, 20, false), (20, 20, 50, true)]
          (stale_state 7 1) (fun _ => 0) = some (b1, out1) :=
  process_calls_reset_independent unzip_kernel 4 0 (fun i => (i : ℚ))
    [(0, 0, 20, false), (20, 20, 50, true)] (stale_state 0 0) (stale_state 7 1) (fun _ => 0)
    rfl rfl (by decide) rfl rfl (fun _ _ => ⟨rfl, rfl⟩) rfl (by decide) (by decide) (by decide)

/-! ### Work per hop (C13) -/

theorem partition_for_work_eq {R : Type} [Zero R] [Add R] [Sub R] [Mul R] (W half : Nat) :
    ∀ (c ir ip : Nat) (st : convolve_partitioned R) (w : Work),
      partition_for_work W half c ir ip (st, w)
        = (partition_for W half c ir ip st, { w with macs := w.macs + c }) := by
  intro c
  induction c with
  | zero =>
    intro ir ip st w
    rfl
  | succ n ih =>
    intro ir ip st w
    rw [partition_for_work, partition_for, ih]
    refine Prod.ext rfl ?_
    show ({ rffts := w.rffts, riffts := w.riffts, macs := w.macs + 1 + n } : Work)
      = { rffts := w.rffts, riffts := w.riffts, macs := w.macs + (n + 1) }
    rw [Nat.add_assoc, Nat.add_comm 1 n]

theorem partition_while_work_eq {R : Type} [Zero R] [Add R] [Sub R] [Mul R] (W half : Nat) :
    ∀ (fuel : Nat) (T : Int) (st : convolve_partitioned R) (w : Work),
      1 ≤ st.m_num_partitions → T.toNat ≤ fuel →
      partition_while_work W half fuel T (st, w)
        = (partition_while W half fuel T st, { w with macs := w.macs + T.toNat }) := by
  intro fuel
  induction fuel with
  | zero =>
    intro T st w _ hT
    have : T.toNat = 0 := by omega
    rw [this]
    rfl
  | succ n ih =>
    intro T st w hnum hT
    rw [partition_while_work, partition_while]
    by_cases hpos : T > 0
    · simp only [hpos, if_true]
      obtain ⟨t, rfl⟩ : ∃ t : Nat, T = (t : Int) := ⟨T.toNat, by omega⟩
      have ht : 0 < t := by omega
      simp only [Int.toNat_ofNat] at hT ⊢
      set next := (if st.m_last_partition < st.m_num_partitions then st.m_last_partition else 0)
        with hnext
      have hnlt : next < st.m_num_partitions := by
        rw [hnext]; split_ifs with h
        · exact h
        · omega
      set last := min st.m_num_partitions (next + t) with hlast
      rw [partition_for_work_eq]
      obtain ⟨c, hc⟩ : ∃ c, last - next = c + 1 := ⟨last - next - 1, by omega⟩
      have hA := partition_for_eq_iterate W half c st last (by omega) (by omega)
      rw [← hnext] at hA
      have hsub : ((t : Int) - ((last - next : Nat) : Int)) = ((t - (last - next) : Nat) : Int) := by
        omega
      rw [hsub, ih _ _ _ (by rw [hc, hA, sched_iter_num]; exact hnum)
        (by simp only [Int.toNat_ofNat]; omega)]
      simp only [Int.toNat_ofNat]
      have hm : w.macs + (last - next) + (t - (last - next)) = w.macs + t := by omega
      exact Prod.ext rfl (Work.ext rfl rfl hm)
    · simp only [hpos, if_false]
      have : T.toNat = 0 := by omega
      rw [this]
      rfl

/-- The instrumented iteration computes the same loop variables as `process_iter`, and its
counters grow by the scheduled partitions of the sub-block, plus one transform pair and one
more multiply-accumulate when the sub-block ends on a hop boundary. -/
theorem process_iter_work_eq {R : Type} [Field R] (K : FFTKernel R) (W : Nat) (inp : Nat → R)
    (accumulate : Bool) (st : convolve_partitioned R) (rw rem ip op : Nat) (out : Nat → R)
    (w : Work) (hlg : 1 ≤ st.m_fft_size_log2) (hnum : 1 ≤ st.m_num_partitions) :
    process_iter_work K W inp accumulate (st, rw, rem, ip, op, out) w
      = (process_iter_alt K W inp accumulate (st, rw, rem, ip, op, out),
          if (rw + min rem (2 ^ (st.m_fft_size_log2 - 1) - rw % 2 ^ (st.m_fft_size_log2 - 1)))
              % 2 ^ (st.m_fft_size_log2 - 1) = 0 then
            { rffts := w.rffts + 1, riffts := w.riffts + 1,
              macs := w.macs + (sched_todo st.m_valid_partitions st.m_partitions_done
                ((rw + min rem (2 ^ (st.m_fft_size_log2 - 1)
                  - rw % 2 ^ (st.m_fft_size_log2 - 1))) % 2 ^ (st.m_fft_size_log2 - 1))
                (2 ^ (st.m_fft_size_log2 - 1))).toNat + 1 }
          else
            { w with
              macs := w.macs + (sched_todo st.m_valid_partitions st.m_partitions_done
                ((rw + min rem (2 ^ (st.m_fft_size_log2 - 1)
                  - rw % 2 ^ (st.m_fft_size_log2 - 1))) % 2 ^ (st.m_fft_size_log2 - 1))
                (2 ^ (st.m_fft_size_log2 - 1))).toNat }) := by
  rw [← process_iter_eq_alt K W inp accumulate _ hlg hnum]
  unfold process_iter_work process_iter sched_todo
  simp only [get_fft_size, Nat.one_shiftLeft, halved_eq _ hlg, Nat.and_pow_two_sub_one_eq_mod,
    decide_eq_true_eq]
  have hmin : ∀ a b : Nat, (if a < b then a else b) = min a b := by
    intro a b; split_ifs with h
    · exact (min_eq_left (le_of_lt h)).symm
    · exact (min_eq_right (by omega)).symm
  simp only [hmin]
  have key := fun (T : Int) (b0 b1 : Nat → R) =>
    partition_while_work_eq W (2 ^ (st.m_fft_size_log2 - 1)) T.toNat T
      { st with m_fft_buffers_0 := b0, m_fft_buffers_1 := b1 } w hnum (le_refl _)
  simp only [key]

/-- The counters and the read/write counter after one iteration of the main loop. -/
theorem process_iter_alt_sched {R : Type} [Field R] (K : FFTKernel R) (W : Nat) (inp : Nat → R)
    (accumulate : Bool) (st : convolve_partitioned R) (rw rem ip op : Nat) (out : Nat → R)
    (H L c k : Nat)
    (hH : H = 2 ^ (st.m_fft_size_log2 - 1)) (hL : L = min rem (H - rw % H))
    (hc : c = (rw + L) % H)
    (hk : k = (sched_todo st.m_valid_partitions st.m_partitions_done c H).toNat) :
    (c ≠ 0 →
      (process_iter_alt K W inp accumulate (st, rw, rem, ip, op, out)).1.m_valid_partitions
        = st.m_valid_partitions ∧
      (process_iter_alt K W inp accumulate (st, rw, rem, ip, op, out)).1.m_partitions_done
        = st.m_partitions_done + k ∧
      (process_iter_alt K W inp accumulate (st, rw, rem, ip, op, out)).2.1 = rw + L) ∧
    (c = 0 →
      (process_iter_alt K W inp accumulate (st, rw, rem, ip, op, out)).1.m_valid_partitions
        = min st.m_num_partitions (st.m_valid_partitions + 1) ∧
      (process_iter_alt K W inp accumulate (st, rw, rem, ip, op, out)).1.m_partitions_done = 0 ∧
      (process_iter_alt K W inp accumulate (st, rw, rem, ip, op, out)).2.1
        = (rw + L) % 2 ^ st.m_fft_size_log2) := by
  have e := process_iter_alt_eq K W inp accumulate st rw rem ip op out
    H L ((rw + H) % 2 ^ st.m_fft_size_log2) c _ _ _ _ (rem - L) (ip + L) (op + L) (rw + L)
    hH hL rfl rfl rfl rfl hc (by rw [← hk]) rfl rfl rfl rfl
  rw [e]
  obtain ⟨f1, f2, -⟩ := sched_iter_fields W H k
    (with_io st (copy_n inp ip L st.m_fft_buffers_0 rw)
      (copy_n inp ip L st.m_fft_buffers_1 ((rw + H) % 2 ^ st.m_fft_size_log2)))
  have f3 := sched_iter_done W H k
    (with_io st (copy_n inp ip L st.m_fft_buffers_0 rw)
      (copy_n inp ip L st.m_fft_buffers_1 ((rw + H) % 2 ^ st.m_fft_size_log2)))
  have f4 := sched_iter_num W H k
    (with_io st (copy_n inp ip L st.m_fft_buffers_0 rw)
      (copy_n inp ip L st.m_fft_buffers_1 ((rw + H) % 2 ^ st.m_fft_size_log2)))
  constructor
  · intro h0
    rw [if_neg h0]
    exact ⟨f2, f3, rfl⟩
  · intro h0
    rw [if_pos h0]
    have g1 : (fft_step K W ((sched_step W H)^[k]
        (with_io st (copy_n inp ip L st.m_fft_buffers_0 rw)
          (copy_n inp ip L st.m_fft_buffers_1 ((rw + H) % 2 ^ st.m_fft_size_log2))))
        (rw + L)).2 = (rw + L) % 2 ^ st.m_fft_size_log2 := by
      unfold fft_step
      dsimp only
      rw [get_fft_size_eq, and_mask, f1]
      rfl
    refine ⟨?_, rfl, g1⟩
    show min _ _ = _
    rw [f4, f2]
    rfl

theorem quota_zero (v H : Nat) : quota v 0 H = 0 := by
  unfold quota
  rw [Nat.mul_zero, Nat.zero_div]

theorem quota_mono' (v H c1 c2 : Nat) (h : c1 ≤ c2) : quota v c1 H ≤ quota v c2 H :=
  quota_mono v H c1 c2 h

theorem quota_lt (v H c : Nat) (hv : 1 ≤ v) (hc : c ≤ H) : quota v c H < v := by
  have := quota_le v H c hc
  unfold quota
  omega

theorem add_mod_hop (rw L H : Nat) (h : rw % H + L < H) :
    (rw + L) % H = rw % H + L := by
  have hL : L < H := by omega
  rw [Nat.add_mod, Nat.mod_eq_of_lt hL, Nat.mod_eq_of_lt h]

theorem add_mod_hop_full (rw L H : Nat) (h : rw % H + L = H) :
    (rw + L) % H = 0 := by
  have h1 := Nat.div_add_mod rw H
  have : rw + L = H * (rw / H + 1) := by
    rw [Nat.mul_add, Nat.mul_one]
    omega
  rw [this, Nat.mul_mod_right]

theorem window_chunk {R : Type} [Field R] (K : FFTKernel R) (W : Nat) (inp : Nat → R)
    (accumulate : Bool) (P lg v0 c0 m : Nat) (st : convolve_partitioned R)
    (rw rem ip op : Nat) (out : Nat → R) (w : Work)
    (hlg : 1 ≤ lg) (hv0 : 1 ≤ v0) (hv0P : v0 ≤ P) (hc0 : c0 < 2 ^ (lg - 1))
    (hrem : 0 < rem) (hm : m + rem ≤ 2 ^ (lg - 1))
    (h : InWindow P lg v0 c0 m st rw w) :
    ∃ L, 1 ≤ L ∧ L ≤ rem ∧
      (process_iter_work K W inp accumulate (st, rw, rem, ip, op, out) w).1
        = process_iter_alt K W inp accumulate (st, rw, rem, ip, op, out) ∧
      (process_iter_alt K W inp accumulate (st, rw, rem, ip, op, out)).2.2.1 = rem - L ∧
      InWindow P lg v0 c0 (m + L)
        (process_iter_alt K W inp accumulate (st, rw, rem, ip, op, out)).1
        (process_iter_alt K W inp accumulate (st, rw, rem, ip, op, out)).2.1
        (process_iter_work K W inp accumulate (st, rw, rem, ip, op, out) w).2 := by
  obtain ⟨h_lg, h_num, h_flag, h_rw, h_ph⟩ := h
  have hH : 0 < 2 ^ (lg - 1) := pow_pos (by norm_num) _
  have hF := two_pow_eq_double lg hlg
  have hP : 1 ≤ st.m_num_partitions := by omega
  have hstlg : 1 ≤ st.m_fft_size_log2 := by omega
  obtain ⟨L, hL⟩ : ∃ L, L = min rem (2 ^ (lg - 1) - rw % 2 ^ (lg - 1)) := ⟨_, rfl⟩
  obtain ⟨c, hc⟩ : ∃ c, c = (rw + L) % 2 ^ (lg - 1) := ⟨_, rfl⟩
  obtain ⟨k, hk⟩ : ∃ k, k = (sched_todo st.m_valid_partitions st.m_partitions_done c
      (2 ^ (lg - 1))).toNat := ⟨_, rfl⟩
  have hmodlt := Nat.mod_lt rw hH
  have hL1 : 1 ≤ L := by rw [hL]; omega
  have hL2 : L ≤ rem := by rw [hL]; exact min_le_left _ _
  have hL3 : rw % 2 ^ (lg - 1) + L ≤ 2 ^ (lg - 1) := by
    have : L ≤ 2 ^ (lg - 1) - rw % 2 ^ (lg - 1) := by rw [hL]; exact min_le_right _ _
    omega
  have hw := process_iter_work_eq K W inp accumulate st rw rem ip op out w hstlg hP
  rw [h_lg, ← hL, ← hc, ← hk] at hw
  obtain ⟨s1, s2⟩ := process_iter_alt_sched K W inp accumulate st rw rem ip op out
    (2 ^ (lg - 1)) L c k (by rw [h_lg]) hL hc hk
  obtain ⟨g1, g2, g3, g4, -⟩ := process_iter_alt_fields K W inp accumulate st rw rem ip op out
  rw [h_lg, ← hL] at g4
  refine ⟨L, hL1, hL2, by rw [hw], g4, ?_⟩
  rw [hw]
  refine ⟨g1.trans h_lg, g2.trans h_num, g3.trans h_flag, ?_, ?_⟩
  · by_cases hc0' : c = 0
    · rw [(s2 hc0').2.2, h_lg]
      exact Nat.mod_lt _ (pow_pos (by norm_num) _)
    · rw [(s1 hc0').2.2]
      have hle := rw_add_till_le rw (2 ^ (lg - 1)) hH (by omega)
      rcases Nat.lt_or_ge (rw + L) (2 ^ lg) with hlt | hge
      · exact hlt
      · exfalso
        apply hc0'
        have hfull : rw % 2 ^ (lg - 1) + L = 2 ^ (lg - 1) := by omega
        rw [hc]
        exact add_mod_hop_full rw L _ hfull
  · by_cases hph : c0 + m < 2 ^ (lg - 1)
    · rw [if_pos hph] at h_ph
      obtain ⟨p1, p2, p3, p4⟩ := h_ph
      by_cases hfull : rw % 2 ^ (lg - 1) + L = 2 ^ (lg - 1)
      · -- the sub-block ends on the hop boundary
        have hc0' : c = 0 := by rw [hc]; exact add_mod_hop_full rw L _ hfull
        obtain ⟨t1, t2, t3⟩ := s2 hc0'
        have hk' : k = v0 - quota v0 (c0 + m) (2 ^ (lg - 1)) - 1 := by
          rw [hk, hc0', p1, p3]
          unfold sched_todo
          rw [if_pos rfl]
          omega
        have hq := quota_lt v0 (2 ^ (lg - 1)) (c0 + m) hv0 (by omega)
        have hq0 := quota_mono' v0 (2 ^ (lg - 1)) c0 (c0 + m) (by omega)
        rw [if_neg (by omega), if_pos hc0', t1, t2, t3, h_num, p1]
        have e0 : c0 + (m + L) - 2 ^ (lg - 1) = 0 := by omega
        rw [e0, quota_zero]
        refine ⟨rfl, ?_, rfl, ?_⟩
        · rw [h_lg, hF]
          have := add_mod_hop_full rw L _ hfull
          have h2 : (rw + L) % (2 * 2 ^ (lg - 1)) % 2 ^ (lg - 1) = (rw + L) % 2 ^ (lg - 1) :=
            Nat.mod_mul_left_mod _ _ _
          rw [h2, this]
        · rw [p4]
          apply Work.ext
          · show 0 + 1 = 1
            rfl
          · show 0 + 1 = 1
            rfl
          · show quota v0 (c0 + m) (2 ^ (lg - 1)) - quota v0 c0 (2 ^ (lg - 1)) + k + 1
              = v0 - quota v0 c0 (2 ^ (lg - 1)) + 0
            omega
      · -- the sub-block ends inside the hop
        have hlt : rw % 2 ^ (lg - 1) + L < 2 ^ (lg - 1) := by omega
        have hcv : c = rw % 2 ^ (lg - 1) + L := by rw [hc]; exact add_mod_hop rw L _ hlt
        have hc0' : c ≠ 0 := by omega
        obtain ⟨t1, t2, t3⟩ := s1 hc0'
        have hq1 := quota_mono' v0 (2 ^ (lg - 1)) (c0 + m) (c0 + (m + L)) (by omega)
        have hq0 := quota_mono' v0 (2 ^ (lg - 1)) c0 (c0 + m) (by omega)
        have hk' : k = quota v0 (c0 + (m + L)) (2 ^ (lg - 1))
            - quota v0 (c0 + m) (2 ^ (lg - 1)) := by
          rw [hk, p1, p3]
          unfold sched_todo
          rw [if_neg hc0', hcv, p2]
          have e : c0 + m + L = c0 + (m + L) := by omega
          rw [e]
          unfold quota
          unfold quota at hq1
          omega
        rw [if_pos (by omega), if_neg hc0', t1, t2, t3, p1, p3]
        refine ⟨rfl, ?_, ?_, ?_⟩
        · rw [← hc, hcv, p2]
          omega
        · omega
        · rw [p4]
          apply Work.ext
          · rfl
          · rfl
          · show quota v0 (c0 + m) (2 ^ (lg - 1)) - quota v0 c0 (2 ^ (lg - 1)) + k
              = quota v0 (c0 + (m + L)) (2 ^ (lg - 1)) - quota v0 c0 (2 ^ (lg - 1))
            omega
    · rw [if_neg hph] at h_ph
      obtain ⟨p1, p2, p3, p4⟩ := h_ph
      have hlt : rw % 2 ^ (lg - 1) + L < 2 ^ (lg - 1) := by omega
      have hcv : c = rw % 2 ^ (lg - 1) + L := by rw [hc]; exact add_mod_hop rw L _ hlt
      have hc0' : c ≠ 0 := by omega
      obtain ⟨t1, t2, t3⟩ := s1 hc0'
      have e : c0 + m - 2 ^ (lg - 1) + L = c0 + (m + L) - 2 ^ (lg - 1) := by omega
      have hq1 := quota_mono' (min P (v0 + 1)) (2 ^ (lg - 1)) (c0 + m - 2 ^ (lg - 1))
        (c0 + (m + L) - 2 ^ (lg - 1)) (by omega)
      have hk' : k = quota (min P (v0 + 1)) (c0 + (m + L) - 2 ^ (lg - 1)) (2 ^ (lg - 1))
          - quota (min P (v0 + 1)) (c0 + m - 2 ^ (lg - 1)) (2 ^ (lg - 1)) := by
        rw [hk, p1, p3]
        unfold sched_todo
        rw [if_neg hc0', hcv, p2, e]
        unfold quota
        unfold quota at hq1
        omega
      rw [if_neg (by omega), if_neg hc0', t1, t2, t3, p1, p3]
      refine ⟨rfl, ?_, ?_, ?_⟩
      · rw [← hc, hcv, p2]
        omega
      · omega
      · rw [p4]
        apply Work.ext
        · rfl
        · rfl
        · show v0 - quota v0 c0 (2 ^ (lg - 1))
              + quota (min P (v0 + 1)) (c0 + m - 2 ^ (lg - 1)) (2 ^ (lg - 1)) + k
            = v0 - quota v0 c0 (2 ^ (lg - 1))
              + quota (min P (v0 + 1)) (c0 + (m + L) - 2 ^ (lg - 1)) (2 ^ (lg - 1))
          omega

theorem process_loop_work_step {R : Type} [Field R] (K : FFTKernel R) (W : Nat) (inp : Nat → R)
    (accumulate : Bool) (fuel : Nat)
    (v : convolve_partitioned R × Nat × Nat × Nat × Nat × (Nat → R)) (w : Work)
    (hrem : 0 < v.2.2.1) :
    process_loop_work K W inp accumulate (fuel + 1) (v, w)
      = process_loop_work K W inp accumulate fuel (process_iter_work K W inp accumulate v w) := by
  rw [process_loop_work]
  simp only [gt_iff_lt, hrem, if_true]

theorem process_loop_work_done {R : Type} [Field R] (K : FFTKernel R) (W : Nat) (inp : Nat → R)
    (accumulate : Bool) (fuel : Nat)
    (v : convolve_partitioned R × Nat × Nat × Nat × Nat × (Nat → R)) (w : Work)
    (hrem : v.2.2.1 = 0) :
    process_loop_work K W inp accumulate fuel (v, w) = some (v, w) := by
  cases fuel <;> simp [process_loop_work, hrem]

/-- The main loop inside a window of one hop: it returns, its loop variables are those of
`process_loop`, and the counters are those of the window. -/
theorem window_loop {R : Type} [Field R] (K : FFTKernel R) (W : Nat) (inp : Nat → R)
    (accumulate : Bool) (P lg v0 c0 : Nat)
    (hlg : 1 ≤ lg) (hv0 : 1 ≤ v0) (hv0P : v0 ≤ P) (hc0 : c0 < 2 ^ (lg - 1)) :
    ∀ (rem m : Nat) (st : convolve_partitioned R) (rw ip op : Nat) (out : Nat → R) (w : Work),
      m + rem ≤ 2 ^ (lg - 1) → InWindow P lg v0 c0 m st rw w →
      ∃ s : (convolve_partitioned R × Nat × Nat × Nat × Nat × (Nat → R)) × Work,
        (∀ fuel, rem ≤ fuel →
          process_loop_work K W inp accumulate fuel ((st, rw, rem, ip, op, out), w) = some s) ∧
        (∀ fuel, rem ≤ fuel →
          process_loop K W inp accumulate fuel (st, rw, rem, ip, op, out) = some s.1) ∧
        InWindow P lg v0 c0 (m + rem) s.1.1 s.1.2.1 s.2 := by
  intro rem
  induction rem using Nat.strong_induction_on with
  | _ rem ih =>
    intro m st rw ip op out w hm h
    rcases Nat.eq_zero_or_pos rem with h0 | hpos
    · subst h0
      exact ⟨((st, rw, 0, ip, op, out), w),
        fun fuel _ => process_loop_work_done K W inp accumulate fuel _ w rfl,
        fun fuel _ => process_loop_done K W inp accumulate fuel _ rfl, h⟩
    · obtain ⟨L, hL1, hL2, e1, e2, hnext⟩ := window_chunk K W inp accumulate P lg v0 c0 m st
        rw rem ip op out w hlg hv0 hv0P hc0 hpos hm h
      obtain ⟨h_lg, h_num, -⟩ := h
      obtain ⟨u, hu⟩ : ∃ u, u = process_iter_alt K W inp accumulate (st, rw, rem, ip, op, out) :=
        ⟨_, rfl⟩
      obtain ⟨w1, hw1⟩ : ∃ w1,
          w1 = (process_iter_work K W inp accumulate (st, rw, rem, ip, op, out) w).2 := ⟨_, rfl⟩
      rw [← hu] at e1 e2 hnext
      rw [← hw1] at hnext
      have hpair : process_iter_work K W inp accumulate (st, rw, rem, ip, op, out) w
          = ((u.1, u.2.1, rem - L, u.2.2.2.1, u.2.2.2.2.1, u.2.2.2.2.2), w1) := by
        refine Prod.ext ?_ hw1.symm
        rw [e1, ← e2]
      obtain ⟨s, k1, k2, k3⟩ := ih (rem - L) (by omega) (m + L) u.1 u.2.1 u.2.2.2.1
        u.2.2.2.2.1 u.2.2.2.2.2 w1 (by omega) hnext
      have em : m + L + (rem - L) = m + rem := by omega
      rw [em] at k3
      refine ⟨s, ?_, ?_, k3⟩
      · intro fuel hfuel
        obtain ⟨f, rfl⟩ : ∃ f, fuel = f + 1 := ⟨fuel - 1, by omega⟩
        rw [process_loop_work_step K W inp accumulate f _ w hpos, hpair]
        exact k1 f (by omega)
      · intro fuel hfuel
        obtain ⟨f, rfl⟩ : ∃ f, fuel = f + 1 := ⟨fuel - 1, by omega⟩
        rw [process_loop_step K W inp accumulate f st rw rem ip op out hpos (by omega)
          (by omega), ← hu]
        have hueta : u = (u.1, u.2.1, rem - L, u.2.2.2.1, u.2.2.2.2.1, u.2.2.2.2.2) := by
          rw [← e2]
        rw [hueta]
        exact k2 f (by omega)

/-- One `process` call inside a window of one hop. -/
theorem window_process {R : Type} [Field R] (K : FFTKernel R) (W rnd : Nat) (inp : Nat → R)
    (accumulate : Bool) (P lg v0 c0 : Nat)
    (hlg : 1 ≤ lg) (hv0 : 1 ≤ v0) (hv0P : v0 ≤ P) (hc0 : c0 < 2 ^ (lg - 1))
    (m n : Nat) (st : convolve_partitioned R) (ip op : Nat) (out : Nat → R) (w : Work)
    (hm : m + n ≤ 2 ^ (lg - 1)) (h : InWindow P lg v0 c0 m st st.m_rw_counter w) :
    ∃ st1 out1 w1,
      process_work K W rnd st inp ip out op n accumulate w = some (st1, out1, w1) ∧
      process K W rnd st inp ip out op n accumulate = some (st1, out1) ∧
      InWindow P lg v0 c0 (m + n) st1 st1.m_rw_counter w1 := by
  obtain ⟨s, k1, k2, k3⟩ := window_loop K W inp accumulate P lg v0 c0 hlg hv0 hv0P hc0 n m st
    st.m_rw_counter ip op out w hm h
  obtain ⟨h_lg, h_num, h_flag, -⟩ := h
  have hP : 1 ≤ st.m_num_partitions := by omega
  refine ⟨with_rw s.1.1 s.1.2.1, s.1.2.2.2.2.2, s.2, ?_, ?_, k3⟩
  · unfold process_work
    rw [if_neg (by omega), h_flag]
    simp only [Bool.false_eq_true, if_false]
    rw [k1 n (le_refl _)]
    rfl
  · exact process_eq K W rnd st inp ip out op n accumulate hP (st, st.m_rw_counter)
      (by rw [h_flag]; rfl) s.1 (k2 n (le_refl _))

/-- A sequence of `process` calls inside a window of one hop. -/
theorem window_seq {R : Type} [Field R] (K : FFTKernel R) (W rnd : Nat) (inp : Nat → R)
    (accumulate : Bool) (P lg v0 c0 : Nat)
    (hlg : 1 ≤ lg) (hv0 : 1 ≤ v0) (hv0P : v0 ≤ P) (hc0 : c0 < 2 ^ (lg - 1)) :
    ∀ (ns : List Nat) (m : Nat) (st : convolve_partitioned R) (pos : Nat) (out : Nat → R)
      (w : Work),
      m + ns.sum ≤ 2 ^ (lg - 1) → InWindow P lg v0 c0 m st st.m_rw_counter w →
      ∃ st1 out1 w1,
        process_seq_work K W rnd inp accumulate ns st pos out w = some (st1, out1, w1) ∧
        process_seq K W rnd inp accumulate ns st pos out = some (st1, out1) ∧
        InWindow P lg v0 c0 (m + ns.sum) st1 st1.m_rw_counter w1 := by
  intro ns
  induction ns with
  | nil =>
    intro m st pos out w _ h
    exact ⟨st, out, w, rfl, rfl, h⟩
  | cons n ns ih =>
    intro m st pos out w hm h
    rw [List.sum_cons] at hm ⊢
    obtain ⟨st1, out1, w1, a1, a2, a3⟩ := window_process K W rnd inp accumulate P lg v0 c0
      hlg hv0 hv0P hc0 m n st pos pos out w (by omega) h
    obtain ⟨st2, out2, w2, b1, b2, b3⟩ := ih (m + n) st1 (pos + n) out1 w1 (by omega) a3
    refine ⟨st2, out2, w2, ?_, ?_, ?_⟩
    · rw [process_seq_work, a1]
      exact b1
    · rw [process_seq, a2]
      exact b2
    · rw [← Nat.add_assoc]
      exact b3

/-- The counters of a window of one hop that starts in a scheduled state. -/
theorem window_count {R : Type} [Field R] (K : FFTKernel R) (W rnd : Nat) (inp : Nat → R)
    (accumulate : Bool) (st : convolve_partitioned R) (ns : List Nat) (pos : Nat)
    (out : Nat → R) (hinv : Scheduled st) (hsum : ns.sum = 2 ^ (st.m_fft_size_log2 - 1)) :
    ∃ st1 out1 w,
      process_seq_work K W rnd inp accumulate ns st pos out ⟨0, 0, 0⟩ = some (st1, out1, w) ∧
      process_seq K W rnd inp accumulate ns st pos out = some (st1, out1) ∧
      w.rffts = 1 ∧ w.riffts = 1 ∧
      w.macs + quota st.m_valid_partitions
          (st.m_rw_counter % 2 ^ (st.m_fft_size_log2 - 1)) (2 ^ (st.m_fft_size_log2 - 1))
        = st.m_valid_partitions
          + quota (min st.m_num_partitions (st.m_valid_partitions + 1))
            (st.m_rw_counter % 2 ^ (st.m_fft_size_log2 - 1)) (2 ^ (st.m_fft_size_log2 - 1)) ∧
      Scheduled st1 := by
  obtain ⟨i1, i2, i3, i4, i5, i6⟩ := hinv
  have hH : 0 < 2 ^ (st.m_fft_size_log2 - 1) := pow_pos (by norm_num) _
  have hc0 := Nat.mod_lt st.m_rw_counter hH
  have h0 : InWindow st.m_num_partitions st.m_fft_size_log2 st.m_valid_partitions
      (st.m_rw_counter % 2 ^ (st.m_fft_size_log2 - 1)) 0 st st.m_rw_counter ⟨0, 0, 0⟩ := by
    refine ⟨rfl, rfl, i1, i5, ?_⟩
    rw [Nat.add_zero, if_pos hc0]
    refine ⟨rfl, rfl, i6, ?_⟩
    rw [Nat.sub_self]
  obtain ⟨st1, out1, w, a1, a2, a3⟩ := window_seq K W rnd inp accumulate st.m_num_partitions
    st.m_fft_size_log2 st.m_valid_partitions (st.m_rw_counter % 2 ^ (st.m_fft_size_log2 - 1))
    i2 i3 i4 hc0 ns 0 st pos out ⟨0, 0, 0⟩ (by omega) h0
  obtain ⟨b1, b2, b3, b4, b5⟩ := a3
  rw [Nat.zero_add, hsum, if_neg (by omega), Nat.add_sub_cancel] at b5
  obtain ⟨c1, c2, c3, c4⟩ := b5
  have hq := quota_lt st.m_valid_partitions (2 ^ (st.m_fft_size_log2 - 1))
    (st.m_rw_counter % 2 ^ (st.m_fft_size_log2 - 1)) i3 (by omega)
  refine ⟨st1, out1, w, a1, a2, ?_, ?_, ?_, ?_⟩
  · rw [c4]
  · rw [c4]
  · rw [c4]
    show st.m_valid_partitions - _ + _ + _ = _
    omega
  · refine ⟨b3, by omega, ?_, ?_, by rw [b1]; exact b4, ?_⟩
    · rw [c1]; omega
    · rw [c1, b2]; omega
    · rw [c3, c1, b1, c2]

/-- The first `process` call after a reset runs as a call on the convolver that the reset
block leaves, with the new read/write counter stored. -/
theorem process_after_reset {R : Type} [Field R] (K : FFTKernel R) (W rnd : Nat)
    (st : convolve_partitioned R) (inp : Nat → R) (ip : Nat) (out : Nat → R) (op n : Nat)
    (accumulate : Bool) (hflag : st.m_reset_flag = true) (hlg : 1 ≤ st.m_fft_size_log2)
    (hP : 1 ≤ st.m_num_partitions) :
    process K W rnd st inp ip out op n accumulate
      = process K W rnd (with_rw (process_reset rnd st).1 (process_reset rnd st).2)
          inp ip out op n accumulate := by
  obtain ⟨v, hv, -⟩ := process_loop_total K W inp accumulate n (process_reset rnd st).1
    (process_reset rnd st).2 ip op out hlg hP
  have h1 := process_eq K W rnd st inp ip out op n accumulate hP (process_reset rnd st)
    (by rw [hflag]; rfl) v (hv n (le_refl _))
  have hw := process_loop_with_rw K W inp accumulate (process_reset rnd st).2 n
    (process_reset rnd st).1 (process_reset rnd st).2 ip op out hlg hP v hv n (le_refl _)
  have h2 := process_eq K W rnd (with_rw (process_reset rnd st).1 (process_reset rnd st).2)
    inp ip out op n accumulate hP
    (with_rw (process_reset rnd st).1 (process_reset rnd st).2, (process_reset rnd st).2)
    rfl (with_rw v.1 (process_reset rnd st).2, v.2) hw
  rw [h1, h2]
  rfl

/-- The reset block of `process` leaves a scheduled convolver. -/
theorem reset_scheduled {R : Type} [Zero R] (rnd : Nat) (st : convolve_partitioned R)
    (hlg : 1 ≤ st.m_fft_size_log2) (hP : 1 ≤ st.m_num_partitions)
    (hrnd : st.m_reset_offset < 0 → rnd < 2 ^ st.m_fft_size_log2) :
    Scheduled (with_rw (process_reset rnd st).1 (process_reset rnd st).2) := by
  have hH : 0 < 2 ^ (st.m_fft_size_log2 - 1) := pow_pos (by norm_num) _
  have hF := two_pow_eq_double st.m_fft_size_log2 hlg
  refine ⟨rfl, hlg, ?_, hP, ?_, ?_⟩
  · show 1 ≤ 1
    omega
  · show (process_reset rnd st).2 < 2 ^ st.m_fft_size_log2
    unfold process_reset
    dsimp only
    split_ifs with h
    · exact hrnd h
    · rw [get_fft_size_eq, halved_eq _ hlg]
      have := Nat.mod_lt st.m_reset_offset.toNat hH
      omega
  · show 0 = quota 1 _ _
    unfold quota
    rw [Nat.sub_self, Nat.zero_mul, Nat.zero_div]

/-- A `process` call of at most one hop keeps the convolver scheduled. -/
theorem process_scheduled_hop {R : Type} [Field R] (K : FFTKernel R) (W rnd : Nat)
    (st : convolve_partitioned R) (inp : Nat → R) (ip : Nat) (out : Nat → R) (op n : Nat)
    (accumulate : Bool) (hinv : Scheduled st) (hn : n ≤ 2 ^ (st.m_fft_size_log2 - 1)) :
    ∃ st1 out1, process K W rnd st inp ip out op n accumulate = some (st1, out1) ∧
      Scheduled st1 ∧ st1.m_fft_size_log2 = st.m_fft_size_log2 ∧
      st1.m_num_partitions = st.m_num_partitions := by
  obtain ⟨i1, i2, i3, i4, i5, i6⟩ := hinv
  have hH : 0 < 2 ^ (st.m_fft_size_log2 - 1) := pow_pos (by norm_num) _
  have hc0 := Nat.mod_lt st.m_rw_counter hH
  have h0 : InWindow st.m_num_partitions st.m_fft_size_log2 st.m_valid_partitions
      (st.m_rw_counter % 2 ^ (st.m_fft_size_log2 - 1)) 0 st st.m_rw_counter ⟨0, 0, 0⟩ := by
    refine ⟨rfl, rfl, i1, i5, ?_⟩
    rw [Nat.add_zero, if_pos hc0]
    refine ⟨rfl, rfl, i6, ?_⟩
    rw [Nat.sub_self]
  obtain ⟨st1, out1, w, -, a2, a3⟩ := window_process K W rnd inp accumulate
    st.m_num_partitions st.m_fft_size_log2 st.m_valid_partitions
    (st.m_rw_counter % 2 ^ (st.m_fft_size_log2 - 1)) i2 i3 i4 hc0 0 n st ip op out ⟨0, 0, 0⟩
    (by omega) h0
  obtain ⟨b1, b2, b3, b4, b5⟩ := a3
  refine ⟨st1, out1, a2, ?_, b1, b2⟩
  rw [Nat.zero_add] at b5
  by_cases hph : st.m_rw_counter % 2 ^ (st.m_fft_size_log2 - 1) + n
      < 2 ^ (st.m_fft_size_log2 - 1)
  · rw [if_pos hph] at b5
    obtain ⟨c1, c2, c3, -⟩ := b5
    refine ⟨b3, by omega, by omega, by omega, by rw [b1]; exact b4, ?_⟩
    rw [c3, c1, b1, c2]
  · rw [if_neg hph] at b5
    obtain ⟨c1, c2, c3, -⟩ := b5
    refine ⟨b3, by omega, ?_, ?_, by rw [b1]; exact b4, ?_⟩
    · rw [c1]; omega
    · rw [c1, b2]; omega
    · rw [c3, c1, b1, c2]

/-- Every `process` call keeps the convolver scheduled. -/
theorem process_scheduled {R : Type} [Field R] (K : FFTKernel R) (W rnd : Nat)
    (inp : Nat → R) (accumulate : Bool) :
    ∀ (n : Nat) (st : convolve_partitioned R) (ip : Nat) (out : Nat → R) (op : Nat),
      Scheduled st →
      ∃ st1 out1, process K W rnd st inp ip out op n accumulate = some (st1, out1) ∧
        Scheduled st1 ∧ st1.m_fft_size_log2 = st.m_fft_size_log2 ∧
        st1.m_num_partitions = st.m_num_partitions := by
  intro n
  induction n using Nat.strong_induction_on with
  | _ n ih =>
    intro st ip out op hinv
    have hH : 0 < 2 ^ (st.m_fft_size_log2 - 1) := pow_pos (by norm_num) _
    by_cases hn : n ≤ 2 ^ (st.m_fft_size_log2 - 1)
    · exact process_scheduled_hop K W rnd st inp ip out op n accumulate hinv hn
    · obtain ⟨i1, i2, i3, i4, i5, i6⟩ := hinv
      obtain ⟨st1, out1, st2, out2, h1, h2, h3, -⟩ :=
        process_split_aux K W rnd st inp ip out op (2 ^ (st.m_fft_size_log2 - 1))
          (n - 2 ^ (st.m_fft_size_log2 - 1)) accumulate i2 (by omega)
      obtain ⟨sa, oa, ha, hsa, hlga, hnuma⟩ := process_scheduled_hop K W rnd st inp ip out op
        (2 ^ (st.m_fft_size_log2 - 1)) accumulate ⟨i1, i2, i3, i4, i5, i6⟩ (le_refl _)
      rw [h1] at ha
      have e := Option.some.inj ha
      have e1 : st1 = sa := congrArg Prod.fst e
      subst e1
      obtain ⟨sb, ob, hb, hsb, hlgb, hnumb⟩ := ih (n - 2 ^ (st.m_fft_size_log2 - 1)) (by omega)
        st1 (ip + 2 ^ (st.m_fft_size_log2 - 1)) out1 (op + 2 ^ (st.m_fft_size_log2 - 1)) hsa
      rw [h2] at hb
      have e2 := Option.some.inj hb
      have hn2 : 2 ^ (st.m_fft_size_log2 - 1) + (n - 2 ^ (st.m_fft_size_log2 - 1)) = n := by
        omega
      rw [hn2] at h3
      have e3 : st2 = sb := congrArg Prod.fst e2
      subst e3
      exact ⟨st2, out2, h3, hsb, hlgb.trans hlga, hnumb.trans hnuma⟩

/-- C13, as the code has it: in every scheduled state of a convolver (reset flag clear,
`1 ≤ m_valid_partitions ≤ m_num_partitions`, `m_partitions_done` at the quota of the current
phase; the reset block establishes this and every `process` call keeps it) and for every
sequence of `process` calls whose block sizes add up to one hop `fft_size / 2`, the calls
return and make exactly one forward and one inverse real transform. The number `macs` of
`process_partition` calls is `m_valid_partitions` plus the change of the quota caused by
`m_valid_partitions` growing at the transform; it is exactly `m_num_partitions` once
`m_valid_partitions` has reached `m_num_partitions`. The convolver is scheduled again
afterwards. -/
theorem process_window_work {R : Type} [Field R] (K : FFTKernel R) (W rnd : Nat)
    (inp : Nat → R) (accumulate : Bool) (st : convolve_partitioned R) (ns : List Nat)
    (pos : Nat) (out : Nat → R) (hinv : Scheduled st)
    (hsum : ns.sum = 2 ^ (st.m_fft_size_log2 - 1)) :
    ∃ st1 out1 w,
      process_seq_work K W rnd inp accumulate ns st pos out ⟨0, 0, 0⟩ = some (st1, out1, w) ∧
      process_seq K W rnd inp accumulate ns st pos out = some (st1, out1) ∧
      w.rffts = 1 ∧ w.riffts = 1 ∧
      w.macs + quota st.m_valid_partitions
          (st.m_rw_counter % 2 ^ (st.m_fft_size_log2 - 1)) (2 ^ (st.m_fft_size_log2 - 1))
        = st.m_valid_partitions
          + quota (min st.m_num_partitions (st.m_valid_partitions + 1))
            (st.m_rw_counter % 2 ^ (st.m_fft_size_log2 - 1)) (2 ^ (st.m_fft_size_log2 - 1)) ∧
      (st.m_valid_partitions = st.m_num_partitions → w.macs = st.m_num_partitions) ∧
      Scheduled st1 := by
  obtain ⟨st1, out1, w, h1, h2, h3, h4, h5, h6⟩ :=
    window_count K W rnd inp accumulate st ns pos out hinv hsum
  refine ⟨st1, out1, w, h1, h2, h3, h4, h5, ?_, h6⟩
  intro hv
  rw [hv, min_eq_left (Nat.le_succ _)] at h5
  omega

theorem process_window_work_witness :
    ∃ st1 out1 w,
      process_seq_work unzip_kernel 4 0 (fun i => (i : ℚ)) false [3, 10, 3] steady_state 0
          (fun _ => 0) ⟨0, 0, 0⟩ = some (st1, out1, w) ∧
      process_seq unzip_kernel 4 0 (fun i => (i : ℚ)) false [3, 10, 3] steady_state 0
          (fun _ => 0) = some (st1, out1) ∧
      w.rffts = 1 ∧ w.riffts = 1 ∧
      w.macs + quota steady_state.m_valid_partitions
          (steady_state.m_rw_counter % 2 ^ (steady_state.m_fft_size_log2 - 1))
          (2 ^ (steady_state.m_fft_size_log2 - 1))
        = steady_state.m_valid_partitions
          + quota (min steady_state.m_num_partitions (steady_state.m_valid_partitions + 1))
            (steady_state.m_rw_counter % 2 ^ (steady_state.m_fft_size_log2 - 1))
            (2 ^ (steady_state.m_fft_size_log2 - 1)) ∧
      (steady_state.m_valid_partitions = steady_state.m_num_partitions →
        w.macs = steady_state.m_num_partitions) ∧
      Scheduled st1 :=
  process_window_work unzip_kernel 4 0 (fun i => (i : ℚ)) false steady_state [3, 10, 3] 0
    (fun _ => 0) ⟨rfl, by decide, by decide, by decide, by decide, by decide⟩ (by decide)

/-- C13 fails as stated: the convolver that the constructor and `set` produce for an impulse
of two partitions (FFT size 32, reset flag set) makes one forward transform, one inverse
transform and a single `process_partition` call in its first window of 16 samples, not
`m_num_partitions = 2` calls. -/
theorem process_window_warmup_counterexample :
    ∃ st, loaded_state = some st ∧ st.m_num_partitions = 2 ∧
      get_fft_size st = 32 ∧
      (process_seq_work unzip_kernel 4 0 (fun _ => 0) false [16] st 0 (fun _ => 0)
          ⟨0, 0, 0⟩).map (fun r => r.2.2) = some ⟨1, 1, 1⟩ :=
  ⟨_, rfl, rfl, rfl, rfl⟩

/-! ### The multi-stage convolver: construction, offsets and the length gate (C14 - C20) -/

theorem check_and_store_cases (s : List Nat) (size prev : Int) :
    (size ≥ 1 <<< 5 ∧ size ≤ 1 <<< 20 ∧ size > prev ∧
      check_and_store_fft_size s size prev = Except.ok (s ++ [size.toNat])) ∨
    (¬ (size ≥ 1 <<< 5 ∧ size ≤ 1 <<< 20 ∧ size > prev) ∧ size ≠ 0 ∧
      check_and_store_fft_size s size prev = Except.error "invalid FFT size or order") ∨
    (size = 0 ∧ check_and_store_fft_size s size prev = Except.ok s) := by
  unfold check_and_store_fft_size
  by_cases h1 : size ≥ 1 <<< 5 ∧ size ≤ 1 <<< 20 ∧ size > prev
  · left
    rw [if_pos h1]
    exact ⟨h1.1, h1.2.1, h1.2.2, rfl⟩
  · rw [if_neg h1]
    by_cases h2 : size ≠ 0
    · right; left
      rw [if_pos h2]
      exact ⟨h1, h2, rfl⟩
    · right; right
      rw [if_neg h2]
      exact ⟨by omega, rfl⟩

/-- The sizes stored by one call of `check_and_store_fft_size` stay within `[2^5, 2^20]`. -/
theorem check_and_store_range (s s1 : List Nat) (size prev : Int)
    (h : check_and_store_fft_size s size prev = Except.ok s1)
    (hs : ∀ x ∈ s, 2 ^ 5 ≤ x ∧ x ≤ 2 ^ 20) : ∀ x ∈ s1, 2 ^ 5 ≤ x ∧ x ≤ 2 ^ 20 := by
  rcases check_and_store_cases s size prev with ⟨h1, h2, -, h4⟩ | ⟨-, -, h4⟩ | ⟨-, h4⟩
  · rw [h4] at h
    have e := Except.ok.inj h
    subst e
    intro x hx
    rw [List.mem_append, List.mem_singleton] at hx
    rcases hx with hx | hx
    · exact hs x hx
    · subst hx
      have e5 : (1 <<< 5 : Nat) = 32 := rfl
      have e20 : (1 <<< 20 : Nat) = 1048576 := rfl
      rw [e5] at h1
      rw [e20] at h2
      constructor
      · norm_num
        omega
      · norm_num
        omega
  · rw [h4] at h
    exact absurd h (by simp)
  · rw [h4] at h
    have e := Except.ok.inj h
    subst e
    exact hs

theorem check_sizes_range (A B C D : Nat) (s : List Nat)
    (h : check_sizes [] A B C D = Except.ok s) :
    s ≠ [] ∧ ∀ x ∈ s, 2 ^ 5 ≤ x ∧ x ≤ 2 ^ 20 := by
  unfold check_sizes at h
  cases h1 : check_and_store_fft_size [] (to_int32 A) 0 with
  | error e => rw [h1] at h; exact absurd h (by simp)
  | ok s1 =>
    rw [h1] at h
    dsimp only at h
    cases h2 : check_and_store_fft_size s1 (to_int32 B) (to_int32 A) with
    | error e => rw [h2] at h; exact absurd h (by simp)
    | ok s2 =>
      rw [h2] at h
      dsimp only at h
      cases h3 : check_and_store_fft_size s2 (to_int32 C) (to_int32 B) with
      | error e => rw [h3] at h; exact absurd h (by simp)
      | ok s3 =>
        rw [h3] at h
        dsimp only at h
        cases h4 : check_and_store_fft_size s3 (to_int32 D) (to_int32 C) with
        | error e => rw [h4] at h; exact absurd h (by simp)
        | ok s4 =>
          rw [h4] at h
          dsimp only at h
          by_cases h0 : s4.length = 0
          · rw [if_pos h0] at h
            exact absurd h (by simp)
          · rw [if_neg h0] at h
            have e := Except.ok.inj h
            subst e
            refine ⟨fun hn => h0 (by rw [hn]; rfl), ?_⟩
            exact check_and_store_range _ _ _ _ h4
              (check_and_store_range _ _ _ _ h3
                (check_and_store_range _ _ _ _ h2
                  (check_and_store_range _ _ _ _ h1 (by intro x hx; cases hx))))

theorem set_reset_offset_sizes {TD PC R : Type} (ops : PartOps PC R) (rnd : Nat)
    (st : MonoConvolve TD PC) (offset : Int) :
    (MonoConvolve.set_reset_offset ops rnd st offset).m_sizes = st.m_sizes := rfl

/-- What `set_partitions` returns when it does not throw: the convolver assembled from the
checked sizes. -/
theorem ctor_ok {TD PC R : Type} (tops : TimeOps TD R) (ops : PartOps PC R)
    (equal : MemorySwap PC → (Nat → PC) → Nat → MemorySwap PC) (rnd max_length : Nat)
    (zero_latency : Bool) (A B C D : Nat) (st : MonoConvolve TD PC)
    (h : MonoConvolve.ctor tops ops equal rnd max_length zero_latency A B C D = Except.ok st) :
    check_sizes [] A B C D = Except.ok st.m_sizes ∧
    st = MonoConvolve.build_partitions tops ops equal rnd (MonoConvolve.init TD PC) max_length
      zero_latency st.m_sizes := by
  unfold MonoConvolve.ctor MonoConvolve.set_partitions at h
  have hinit : (MonoConvolve.init TD PC).m_sizes = [] := rfl
  rw [hinit] at h
  cases hc : check_sizes [] A B C D with
  | error e => rw [hc] at h; exact absurd h (by simp)
  | ok s =>
    rw [hc] at h
    dsimp only at h
    have e := Except.ok.inj h
    have hs : st.m_sizes = s := by rw [← e]; rfl
    rw [hs]
    exact ⟨rfl, e.symm⟩

/-- C15, as the code has it: whenever the constructor's call of `set_partitions` returns
without throwing, `m_sizes` is not empty and every FFT size stored in it lies in
`[2^5, 2^20]`; no test for a power of two is made. -/
theorem set_partitions_sizes_in_range {TD PC R : Type} (tops : TimeOps TD R)
    (ops : PartOps PC R) (equal : MemorySwap PC → (Nat → PC) → Nat → MemorySwap PC)
    (rnd max_length : Nat) (zero_latency : Bool) (A B C D : Nat) (st : MonoConvolve TD PC)
    (h : MonoConvolve.ctor tops ops equal rnd max_length zero_latency A B C D = Except.ok st) :
    st.m_sizes ≠ [] ∧ ∀ x ∈ st.m_sizes, 2 ^ 5 ≤ x ∧ x ≤ 2 ^ 20 :=
  check_sizes_range A B C D st.m_sizes
    (ctor_ok tops ops equal rnd max_length zero_latency A B C D st h).1

theorem mono_100_eq :
    MonoConvolve.ctor record_time record_part MemorySwap.equal 5 1000 false 100 0 0 0
      = Except.ok mono_100 := rfl

theorem set_partitions_sizes_in_range_witness :
    mono_100.m_sizes ≠ [] ∧ ∀ x ∈ mono_100.m_sizes, 2 ^ 5 ≤ x ∧ x ≤ 2 ^ 20 :=
  set_partitions_sizes_in_range record_time record_part MemorySwap.equal 5 1000 false
    100 0 0 0 mono_100 mono_100_eq

/-- C15 fails as stated: `MonoConvolve(1000, false, 100)` returns without throwing and
stores the FFT size 100, which is not a power of two. -/
theorem set_partitions_accepts_100_counterexample :
    ∃ st, MonoConvolve.ctor record_time record_part MemorySwap.equal 5 1000 false 100 0 0 0
        = Except.ok st ∧ st.m_sizes = [100] ∧ ¬ ∃ k, 100 = 2 ^ k := by
  refine ⟨mono_100, rfl, rfl, ?_⟩
  rintro ⟨k, hk⟩
  have h6 : 2 ^ 6 < 2 ^ k := by rw [← hk]; norm_num
  have h7 : 2 ^ k < 2 ^ 7 := by rw [← hk]; norm_num
  have a := (Nat.pow_lt_pow_iff_right (by norm_num : 1 < 2)).mp h6
  have b := (Nat.pow_lt_pow_iff_right (by norm_num : 1 < 2)).mp h7
  omega

/-- C14: the code breaks the claim at `MonoConvolve(1000, false, 1024, 0, 256)`: the check
of `C = 256` compares with the previous argument `B = 0`, not with the size stored before,
so the constructor returns without throwing and `m_sizes` is `[1024, 256]`, which is not
strictly increasing; the stage built from it gets the wrapped length
`(256 - 1024) mod 2^32 >> 1`. -/
theorem set_partitions_gap_evaluation :
    ∃ st, MonoConvolve.ctor record_time record_part MemorySwap.equal 5 1000 false 1024 0 256 0
        = Except.ok st ∧ st.m_sizes = [1024, 256] ∧
      st.m_part_3 = some [Call.ctor_part 1024 2147483264 0 2147483264,
        Call.set_reset_offset 37] :=
  ⟨_, rfl, rfl, rfl⟩

theorem create_part_eq {PC R : Type} (ops : PartOps PC R) (offset size next : Nat)
    (h1 : size ≤ next) (h2 : next < 2 ^ 32) (h3 : offset + (next - size) / 2 < 2 ^ 32) :
    create_part ops offset size next
      = (ops.ctor size ((next - size) / 2) offset ((next - size) / 2),
          offset + (next - size) / 2) := by
  unfold create_part
  have e : (next + 2 ^ 32 - size) % 2 ^ 32 = next - size := by
    have : next + 2 ^ 32 - size = (next - size) + 2 ^ 32 := by omega
    rw [this, Nat.add_mod_right, Nat.mod_eq_of_lt (by omega)]
  dsimp only
  rw [e, Nat.shiftRight_eq_div_pow, pow_one, Nat.mod_eq_of_lt h3]

theorem build_one {TD PC R : Type} (tops : TimeOps TD R) (ops : PartOps PC R)
    (equal : MemorySwap PC → (Nat → PC) → Nat → MemorySwap PC) (rnd max_length : Nat)
    (zl : Bool) (a : Nat) :
    (MonoConvolve.build_partitions tops ops equal rnd (MonoConvolve.init TD PC) max_length zl
        [a]).m_time = (if zl then some (tops.ctor 0 (a / 2)) else none) ∧
    MonoConvolve.stages (MonoConvolve.build_partitions tops ops equal rnd
        (MonoConvolve.init TD PC) max_length zl [a]) = [] ∧
    (MonoConvolve.build_partitions tops ops equal rnd (MonoConvolve.init TD PC) max_length zl
        [a]).m_allocator = (stage_offset zl [a] 0, a) := by
  unfold MonoConvolve.build_partitions MonoConvolve.set_reset_offset MonoConvolve.stages
    MonoConvolve.init stage_offset
  simp only [List.length_singleton, Nat.sub_self, List.getD_cons_zero,
    Nat.shiftRight_eq_div_pow, pow_one, Nat.reduceEqDiff, if_false, gt_iff_lt, Nat.lt_irrefl,
    Nat.reduceLT, Option.map_none', List.filterMap_cons_none, id_eq, List.filterMap_nil]
  exact ⟨trivial, trivial, trivial⟩

theorem build_two {TD PC R : Type} (tops : TimeOps TD R) (ops : PartOps PC R)
    (equal : MemorySwap PC → (Nat → PC) → Nat → MemorySwap PC) (rnd max_length : Nat)
    (zl : Bool) (a b : Nat) (hab : a < b) (hb : b ≤ 2 ^ 20) :
    (MonoConvolve.build_partitions tops ops equal rnd (MonoConvolve.init TD PC) max_length zl
        [a, b]).m_time = (if zl then some (tops.ctor 0 (a / 2)) else none) ∧
    MonoConvolve.stages (MonoConvolve.build_partitions tops ops equal rnd
        (MonoConvolve.init TD PC) max_length zl [a, b])
      = [ops.set_reset_offset
          (ops.ctor a (stage_length [a, b] 0) (stage_offset zl [a, b] 0) (stage_length [a, b] 0))
          ((rnd : Int) + ((b >>> 3 : Nat) : Int))] ∧
    (MonoConvolve.build_partitions tops ops equal rnd (MonoConvolve.init TD PC) max_length zl
        [a, b]).m_allocator = (stage_offset zl [a, b] 1, b) := by
  have h20 : (2 : Nat) ^ 20 = 1048576 := by norm_num
  have h32 : (2 : Nat) ^ 32 = 4294967296 := by norm_num
  have c1 := create_part_eq ops (if zl then a / 2 else 0) a b (by omega) (by omega)
    (by split_ifs <;> omega)
  unfold MonoConvolve.build_partitions MonoConvolve.set_reset_offset MonoConvolve.stages
    MonoConvolve.init stage_offset stage_offset stage_length
  simp only [List.length_cons, List.length_singleton, List.length_nil, List.getD_cons_zero,
    List.getD_cons_succ, Nat.shiftRight_eq_div_pow, pow_one]
  simp
  rw [c1]
  exact ⟨rfl, rfl⟩

theorem build_three {TD PC R : Type} (tops : TimeOps TD R) (ops : PartOps PC R)
    (equal : MemorySwap PC → (Nat → PC) → Nat → MemorySwap PC) (rnd max_length : Nat)
    (zl : Bool) (a b c : Nat) (hab : a < b) (hbc : b < c) (hc : c ≤ 2 ^ 20) :
    (MonoConvolve.build_partitions tops ops equal rnd (MonoConvolve.init TD PC) max_length zl
        [a, b, c]).m_time = (if zl then some (tops.ctor 0 (a / 2)) else none) ∧
    MonoConvolve.stages (MonoConvolve.build_partitions tops ops equal rnd
        (MonoConvolve.init TD PC) max_length zl [a, b, c])
      = [ops.set_reset_offset
          (ops.ctor a (stage_length [a, b, c] 0) (stage_offset zl [a, b, c] 0)
            (stage_length [a, b, c] 0))
          ((rnd : Int) + ((b >>> 3 : Nat) : Int)),
         ops.set_reset_offset
          (ops.ctor b (stage_length [a, b, c] 1) (stage_offset zl [a, b, c] 1)
            (stage_length [a, b, c] 1))
          ((rnd : Int) + ((c >>> 3 : Nat) : Int))] ∧
    (MonoConvolve.build_partitions tops ops equal rnd (MonoConvolve.init TD PC) max_length zl
        [a, b, c]).m_allocator = (stage_offset zl [a, b, c] 2, c) := by
  have h20 : (2 : Nat) ^ 20 = 1048576 := by norm_num
  have h32 : (2 : Nat) ^ 32 = 4294967296 := by norm_num
  have c1 := create_part_eq ops (if zl then a / 2 else 0) a b (by omega) (by omega)
    (by split_ifs <;> omega)
  have c2 := create_part_eq ops ((if zl then a / 2 else 0) + (b - a) / 2) b c (by omega)
    (by omega) (by split_ifs <;> omega)
  unfold MonoConvolve.build_partitions MonoConvolve.set_reset_offset MonoConvolve.stages
    MonoConvolve.init stage_offset stage_offset stage_offset stage_length
  simp only [List.length_cons, List.length_singleton, List.length_nil, List.getD_cons_zero,
    List.getD_cons_succ, Nat.shiftRight_eq_div_pow, pow_one]
  simp
  rw [c1]
  dsimp only
  rw [c2]
  exact ⟨⟨rfl, rfl⟩, rfl⟩

theorem build_four {TD PC R : Type} (tops : TimeOps TD R) (ops : PartOps PC R)
    (equal : MemorySwap PC → (Nat → PC) → Nat → MemorySwap PC) (rnd max_length : Nat)
    (zl : Bool) (a b c d : Nat) (hab : a < b) (hbc : b < c) (hcd : c < d) (hd : d ≤ 2 ^ 20) :
    (MonoConvolve.build_partitions tops ops equal rnd (MonoConvolve.init TD PC) max_length zl
        [a, b, c, d]).m_time = (if zl then some (tops.ctor 0 (a / 2)) else none) ∧
    MonoConvolve.stages (MonoConvolve.build_partitions tops ops equal rnd
        (MonoConvolve.init TD PC) max_length zl [a, b, c, d])
      = [ops.set_reset_offset
          (ops.ctor a (stage_length [a, b, c, d] 0) (stage_offset zl [a, b, c, d] 0)
            (stage_length [a, b, c, d] 0))
          ((rnd : Int) + ((b >>> 3 : Nat) : Int)),
         ops.set_reset_offset
          (ops.ctor b (stage_length [a, b, c, d] 1) (stage_offset zl [a, b, c, d] 1)
            (stage_length [a, b, c, d] 1))
          ((rnd : Int) + ((c >>> 3 : Nat) : Int)),
         ops.set_reset_offset
          (ops.ctor c (stage_length [a, b, c, d] 2) (stage_offset zl [a, b, c, d] 2)
            (stage_length [a, b, c, d] 2))
          ((rnd : Int) + ((d >>> 3 : Nat) : Int))] ∧
    (MonoConvolve.build_partitions tops ops equal rnd (MonoConvolve.init TD PC) max_length zl
        [a, b, c, d]).m_allocator = (stage_offset zl [a, b, c, d] 3, d) := by
  have h20 : (2 : Nat) ^ 20 = 1048576 := by norm_num
  have h32 : (2 : Nat) ^ 32 = 4294967296 := by norm_num
  have c1 := create_part_eq ops (if zl then a / 2 else 0) a b (by omega) (by omega)
    (by split_ifs <;> omega)
  have c2 := create_part_eq ops ((if zl then a / 2 else 0) + (b - a) / 2) b c (by omega)
    (by omega) (by split_ifs <;> omega)
  have c3 := create_part_eq ops ((if zl then a / 2 else 0) + (b - a) / 2 + (c - b) / 2) c d
    (by omega) (by omega) (by split_ifs <;> omega)
  unfold MonoConvolve.build_partitions MonoConvolve.set_reset_offset MonoConvolve.stages
    MonoConvolve.init stage_offset stage_offset stage_offset stage_offset stage_length
  simp only [List.length_cons, List.length_singleton, List.length_nil, List.getD_cons_zero,
    List.getD_cons_succ, Nat.shiftRight_eq_div_pow, pow_one]
  simp
  rw [c1]
  dsimp only
  rw [c2]
  dsimp only
  rw [c3]
  exact ⟨⟨rfl, rfl, rfl⟩, rfl⟩

theorem check_and_store_length (s s1 : List Nat) (size prev : Int)
    (h : check_and_store_fft_size s size prev = Except.ok s1) :
    s1.length ≤ s.length + 1 := by
  rcases check_and_store_cases s size prev with ⟨-, -, -, h4⟩ | ⟨-, -, h4⟩ | ⟨-, h4⟩
  · rw [h4] at h
    have e := Except.ok.inj h
    subst e
    simp
  · rw [h4] at h
    exact absurd h (by simp)
  · rw [h4] at h
    have e := Except.ok.inj h
    subst e
    omega

theorem check_sizes_length (A B C D : Nat) (s : List Nat)
    (h : check_sizes [] A B C D = Except.ok s) : s.length ≤ 4 := by
  unfold check_sizes at h
  cases h1 : check_and_store_fft_size [] (to_int32 A) 0 with
  | error e => rw [h1] at h; exact absurd h (by simp)
  | ok s1 =>
    rw [h1] at h
    dsimp only at h
    cases h2 : check_and_store_fft_size s1 (to_int32 B) (to_int32 A) with
    | error e => rw [h2] at h; exact absurd h (by simp)
    | ok s2 =>
      rw [h2] at h
      dsimp only at h
      cases h3 : check_and_store_fft_size s2 (to_int32 C) (to_int32 B) with
      | error e => rw [h3] at h; exact absurd h (by simp)
      | ok s3 =>
        rw [h3] at h
        dsimp only at h
        cases h4 : check_and_store_fft_size s3 (to_int32 D) (to_int32 C) with
        | error e => rw [h4] at h; exact absurd h (by simp)
        | ok s4 =>
          rw [h4] at h
          dsimp only at h
          by_cases h0 : s4.length = 0
          · rw [if_pos h0] at h
            exact absurd h (by simp)
          · rw [if_neg h0] at h
            have e := Except.ok.inj h
            subst e
            have l1 := check_and_store_length _ _ _ _ h1
            have l2 := check_and_store_length _ _ _ _ h2
            have l3 := check_and_store_length _ _ _ _ h3
            have l4 := check_and_store_length _ _ _ _ h4
            simp only [List.length_nil] at l1
            omega

/-- The stage segments chain: counting the non-final stages among the first `m` whose
segment holds `k`, plus one when stage `m` starts at or before `k`, gives one exactly when
stage 0 starts at or before `k`. -/
theorem cover_chain (zl : Bool) (s : List Nat) (k m : Nat) :
    ((List.range m).filter
      (fun i => decide (stage_offset zl s i ≤ k ∧
        k < stage_offset zl s i + stage_length s i))).length
      + (if stage_offset zl s m ≤ k then 1 else 0)
      = (if stage_offset zl s 0 ≤ k then 1 else 0) := by
  induction m with
  | zero => simp
  | succ m ih =>
    rw [List.range_succ, List.filter_append, List.length_append]
    have e : stage_offset zl s (m + 1) = stage_offset zl s m + stage_length s m := rfl
    rw [e]
    rw [← ih]
    simp only [List.filter_cons, List.filter_nil]
    by_cases h1 : stage_offset zl s m ≤ k
    · by_cases h2 : k < stage_offset zl s m + stage_length s m
      · have h3 : ¬ stage_offset zl s m + stage_length s m ≤ k := by omega
        simp [h1, h2, h3]
      · have h3 : stage_offset zl s m + stage_length s m ≤ k := by omega
        simp [h1, h2, h3]
    · have h3 : ¬ stage_offset zl s m + stage_length s m ≤ k := by omega
      simp [h1, h3]

/-- Every sample index of the impulse response lies in the segment of exactly one
sub-convolver. -/
theorem cover_count_one (zl : Bool) (s : List Nat) (k : Nat) : cover_count zl s k = 1 := by
  unfold cover_count
  rw [add_assoc, cover_chain]
  cases zl with
  | false => simp [stage_offset]
  | true =>
    simp only [stage_offset, if_true, true_and]
    by_cases h : k < s.getD 0 0 / 2
    · rw [if_pos h, if_neg (by omega)]
    · rw [if_neg h, if_pos (by omega)]

/-- The start of a stage is at most half the FFT size of that stage, for increasing
sizes: the offset handed to the allocator never exceeds the largest FFT size. -/
theorem stage_offset_le (zl : Bool) (s : List Nat) (hs : s.Pairwise (fun x y => x < y))
    (i : Nat) (hi : i < s.length) : stage_offset zl s i ≤ s.getD i 0 / 2 := by
  induction i with
  | zero =>
    unfold stage_offset
    split_ifs <;> omega
  | succ i ih =>
    have h1 := ih (by omega)
    have e : stage_offset zl s (i + 1) = stage_offset zl s i + stage_length s i := rfl
    rw [e]
    unfold stage_length
    have hlt : s.getD i 0 < s.getD (i + 1) 0 := by
      rw [List.getD_eq_getElem _ _ (by omega : i < s.length), List.getD_eq_getElem _ _ hi]
      exact List.pairwise_iff_getElem.mp hs i (i + 1) (by omega) hi (by omega)
    omega

theorem build_part_4 {TD PC R : Type} (tops : TimeOps TD R) (ops : PartOps PC R)
    (equal : MemorySwap PC → (Nat → PC) → Nat → MemorySwap PC) (rnd max_length : Nat)
    (st0 : MonoConvolve TD PC) (zl : Bool) (s : List Nat) :
    (MonoConvolve.build_partitions tops ops equal rnd st0 max_length zl s).m_part_4
      = { equal st0.m_part_4
            (allocate ops
              (MonoConvolve.build_partitions tops ops equal rnd st0 max_length zl s).m_allocator)
            max_length with
          ptr := (equal st0.m_part_4
            (allocate ops
              (MonoConvolve.build_partitions tops ops equal rnd st0 max_length zl s).m_allocator)
            max_length).ptr.map (fun p => ops.set_reset_offset p (rnd : Int)) } := rfl

theorem allocate_eq {PC R : Type} (ops : PartOps PC R) (off largest size : Nat)
    (h1 : off ≤ largest) (h2 : largest < 2 ^ 64) (h3 : size < 2 ^ 64) :
    allocate ops (off, largest) size = ops.ctor largest (max size largest - off) off 0 := by
  unfold allocate
  dsimp only
  have e : (max size largest + 2 ^ 64 - off) % 2 ^ 64 = max size largest - off := by
    have hm : off ≤ max size largest := le_trans h1 (le_max_right _ _)
    have hM : max size largest < 2 ^ 64 := max_lt h3 h2
    have : max size largest + 2 ^ 64 - off = (max size largest - off) + 2 ^ 64 := by omega
    rw [this, Nat.add_mod_right, Nat.mod_eq_of_lt (by omega)]
  rw [e]

/-- What `build_partitions` assembles from a strictly increasing list of one to four
sizes, none above `2^20`. -/
theorem build_tiling {TD PC R : Type} (tops : TimeOps TD R) (ops : PartOps PC R)
    (equal : MemorySwap PC → (Nat → PC) → Nat → MemorySwap PC) (rnd max_length : Nat)
    (zl : Bool) (s : List Nat) (hne : s ≠ []) (hlen : s.length ≤ 4)
    (hs : s.Pairwise (fun x y => x < y)) (hr : ∀ x ∈ s, x ≤ 2 ^ 20) :
    (MonoConvolve.build_partitions tops ops equal rnd (MonoConvolve.init TD PC) max_length zl
        s).m_time = (if zl then some (tops.ctor 0 (s.getD 0 0 / 2)) else none) ∧
    MonoConvolve.stages (MonoConvolve.build_partitions tops ops equal rnd
        (MonoConvolve.init TD PC) max_length zl s)
      = (List.range (s.length - 1)).map (fun i =>
          ops.set_reset_offset
            (ops.ctor (s.getD i 0) (stage_length s i) (stage_offset zl s i) (stage_length s i))
            ((rnd : Int) + ((s.getD (i + 1) 0 >>> 3 : Nat) : Int))) ∧
    (MonoConvolve.build_partitions tops ops equal rnd (MonoConvolve.init TD PC) max_length zl
        s).m_allocator = (stage_offset zl s (s.length - 1), s.getD (s.length - 1) 0) := by
  match s, hne, hlen, hs, hr with
  | [], hne, _, _, _ => exact absurd rfl hne
  | [a], _, _, _, _ => exact build_one tops ops equal rnd max_length zl a
  | [a, b], _, _, hs, hr =>
    have hab : a < b := by
      have := List.pairwise_cons.mp hs
      exact this.1 b (by simp)
    exact build_two tops ops equal rnd max_length zl a b hab (hr b (by simp))
  | [a, b, c], _, _, hs, hr =>
    have h1 := List.pairwise_cons.mp hs
    have h2 := List.pairwise_cons.mp h1.2
    exact build_three tops ops equal rnd max_length zl a b c (h1.1 b (by simp))
      (h2.1 c (by simp)) (hr c (by simp))
  | [a, b, c, d], _, _, hs, hr =>
    have h1 := List.pairwise_cons.mp hs
    have h2 := List.pairwise_cons.mp h1.2
    have h3 := List.pairwise_cons.mp h2.2
    exact build_four tops ops equal rnd max_length zl a b c d (h1.1 b (by simp))
      (h2.1 c (by simp)) (h3.1 d (by simp)) (hr d (by simp))
  | _ :: _ :: _ :: _ :: _ :: _, _, hlen, _, _ =>
    exact absurd hlen (by simp)

/-- C16: for a strictly increasing list of sizes accepted by the constructor's call of
`set_partitions` and either value of `zero_latency`, the head (when present) is created for
`[0, s_0/2)`, the first partitioned stage starts at `s_0/2` behind a head and at 0 without
one (`stage_offset`), every non-final stage of FFT size `s_i` is created with
`offset_i` and length `(s_{i+1} - s_i)/2`, where `offset_{i+1} = offset_i + (s_{i+1} - s_i)/2`,
the allocator of the final stage creates it with the last offset and length 0, the final
stage held is one the allocator made, and every sample index of the impulse response lies
in exactly one of these segments. -/
theorem set_partitions_tiling {TD PC R : Type} (tops : TimeOps TD R) (ops : PartOps PC R)
    (equal : MemorySwap PC → (Nat → PC) → Nat → MemorySwap PC) (rnd max_length : Nat)
    (zl : Bool) (A B C D : Nat) (st : MonoConvolve TD PC)
    (h : MonoConvolve.ctor tops ops equal rnd max_length zl A B C D = Except.ok st)
    (hs : st.m_sizes.Pairwise (fun x y => x < y)) :
    (1 ≤ st.m_sizes.length ∧ st.m_sizes.length ≤ 4) ∧
    st.m_time = (if zl then some (tops.ctor 0 (st.m_sizes.getD 0 0 / 2)) else none) ∧
    MonoConvolve.stages st
      = (List.range (st.m_sizes.length - 1)).map (fun i =>
          ops.set_reset_offset
            (ops.ctor (st.m_sizes.getD i 0) (stage_length st.m_sizes i)
              (stage_offset zl st.m_sizes i) (stage_length st.m_sizes i))
            ((rnd : Int) + ((st.m_sizes.getD (i + 1) 0 >>> 3 : Nat) : Int))) ∧
    (∀ i, stage_offset zl st.m_sizes (i + 1)
      = stage_offset zl st.m_sizes i + (st.m_sizes.getD (i + 1) 0 - st.m_sizes.getD i 0) / 2) ∧
    stage_offset zl st.m_sizes 0 = (if zl then st.m_sizes.getD 0 0 / 2 else 0) ∧
    (∀ size, size < 2 ^ 64 → allocate ops st.m_allocator size
      = ops.ctor (st.m_sizes.getD (st.m_sizes.length - 1) 0)
          (max size (st.m_sizes.getD (st.m_sizes.length - 1) 0)
            - stage_offset zl st.m_sizes (st.m_sizes.length - 1))
          (stage_offset zl st.m_sizes (st.m_sizes.length - 1)) 0) ∧
    st.m_part_4
      = { equal { ptr := none, size := 0 } (allocate ops st.m_allocator) max_length with
          ptr := (equal { ptr := none, size := 0 } (allocate ops st.m_allocator)
            max_length).ptr.map (fun p => ops.set_reset_offset p (rnd : Int)) } ∧
    ∀ k, cover_count zl st.m_sizes k = 1 := by
  obtain ⟨hc, hb⟩ := ctor_ok tops ops equal rnd max_length zl A B C D st h
  obtain ⟨hne, hr⟩ := check_sizes_range A B C D st.m_sizes hc
  have hlen := check_sizes_length A B C D st.m_sizes hc
  have hpos : 1 ≤ st.m_sizes.length := by
    rcases hl : st.m_sizes with _ | ⟨x, t⟩
    · exact absurd hl hne
    · simp
  have key := build_tiling tops ops equal rnd max_length zl st.m_sizes hne hlen hs
    (fun x hx => (hr x hx).2)
  have p4 := build_part_4 tops ops equal rnd max_length (MonoConvolve.init TD PC) zl st.m_sizes
  rw [← hb] at key p4
  refine ⟨⟨hpos, hlen⟩, key.1, key.2.1, fun i => rfl, rfl, ?_, p4, cover_count_one zl _⟩
  intro size hsize
  rw [key.2.2]
  have hlast : st.m_sizes.length - 1 < st.m_sizes.length := by omega
  have hmem : st.m_sizes.getD (st.m_sizes.length - 1) 0 ∈ st.m_sizes := by
    rw [List.getD_eq_getElem _ _ hlast]
    exact List.getElem_mem _
  have hle := (hr _ hmem).2
  have hoff := stage_offset_le zl st.m_sizes hs (st.m_sizes.length - 1) hlast
  have h20 : (2 : Nat) ^ 20 = 1048576 := by norm_num
  have h64 : (2 : Nat) ^ 64 = 18446744073709551616 := by norm_num
  exact allocate_eq ops _ _ size (by omega) (by omega) hsize

theorem mono_zero_latency_eq :
    MonoConvolve.ctor record_time record_part MemorySwap.equal 5 100000 true 256 1024 4096 16384
      = Except.ok mono_zero_latency := rfl

theorem set_partitions_tiling_witness :
    mono_zero_latency.m_sizes.Pairwise (fun x y => x < y) ∧
    mono_zero_latency.m_time = some [Call.ctor_time 0 128] ∧
    MonoConvolve.stages mono_zero_latency
      = [[Call.ctor_part 256 384 128 384, Call.set_reset_offset 133],
         [Call.ctor_part 1024 1536 512 1536, Call.set_reset_offset 517],
         [Call.ctor_part 4096 6144 2048 6144, Call.set_reset_offset 2053]] ∧
    allocate record_part mono_zero_latency.m_allocator 100000
      = [Call.ctor_part 16384 91808 8192 0] ∧
    ∀ k, cover_count true mono_zero_latency.m_sizes k = 1 := by
  have h := set_partitions_tiling record_time record_part MemorySwap.equal 5 100000 true
    256 1024 4096 16384 mono_zero_latency mono_zero_latency_eq (by decide)
  exact ⟨by decide, h.2.1, h.2.2.1, h.2.2.2.2.2.1 100000 (by norm_num), h.2.2.2.2.2.2.2⟩

/-- C17: the code breaks the claim at `MonoConvolve(1000, true, 256)` followed by
`set(ir, 500, false)` and `process(in, temp, out, 64, false)`: the configuration is a head
and the final stage `D4`; the gate is passed, the head is invoked and writes to `out`, and
`D4` is invoked with `accumulate || m_part_3`, which is `false`, so it writes to `out` too:
`out` ends up holding only what `D4` wrote (256, the mark of the recording `D4`, not the
128 of the head nor their sum) and `temp` is not written. -/
theorem process_head_overwritten_evaluation :
    MonoConvolve.ctor record_time record_part MemorySwap.equal 5 1000 true 256 0 0 0
      = Except.ok mono_head_256 ∧
    mono_head_256_set.m_length = 500 ∧ mono_head_256_set.m_part_4.size = 1000 ∧
    (MonoConvolve.process record_time record_part false false mono_head_256_set
      (fun _ => 1) (fun _ => 0) (fun _ => 7) 64 false).1.m_time
      = some [Call.ctor_time 0 128, Call.set 500, Call.reset, Call.process 64] ∧
    (MonoConvolve.process record_time record_part false false mono_head_256_set
      (fun _ => 1) (fun _ => 0) (fun _ => 7) 64 false).1.m_part_4.ptr
      = some [Call.ctor_part 256 872 128 0, Call.set_reset_offset 5, Call.set 500,
          Call.set_reset_offset 5, Call.reset, Call.process 64] ∧
    (MonoConvolve.process record_time record_part false false mono_head_256_set
      (fun _ => 1) (fun _ => 0) (fun _ => 7) 64 false).2.2 0 = 256 ∧
    (MonoConvolve.process record_time record_part false false mono_head_256_set
      (fun _ => 1) (fun _ => 0) (fun _ => 7) 64 false).2.1 0 = 0 := by
  refine ⟨rfl, rfl, rfl, rfl, rfl, ?_, ?_⟩
  · simp [MonoConvolve.process, MonoConvolve.process_and_sum, MemorySwap.attempt,
      mono_head_256_set, mono_head_256, MonoConvolve.set, MonoConvolve.build_partitions,
      MonoConvolve.set_reset_offset, MonoConvolve.init, MemorySwap.equal, allocate,
      record_time, record_part, Call.tag]
  · simp [MonoConvolve.process, MonoConvolve.process_and_sum, MemorySwap.attempt,
      mono_head_256_set, mono_head_256, MonoConvolve.set, MonoConvolve.build_partitions,
      MonoConvolve.set_reset_offset, MonoConvolve.init, MemorySwap.equal, allocate,
      record_time, record_part, Call.tag]

/-- The length gate of `process`: with an empty handle of size 0, with `m_length` 0, or with
`m_length` above the size of the handle, nothing is done. -/
theorem process_skips {TD PC R : Type} [Add R] (tops : TimeOps TD R)
    (ops : PartOps PC R) (busy unaligned : Bool) (st : MonoConvolve TD PC)
    (inp temp out : Nat → R) (num_samples : Nat) (accumulate : Bool)
    (h : ((MemorySwap.attempt busy st.m_part_4).ptr = none ∧
            (MemorySwap.attempt busy st.m_part_4).size = 0) ∨
         st.m_length = 0 ∨
         (MemorySwap.attempt busy st.m_part_4).size < st.m_length) :
    MonoConvolve.process tops ops busy unaligned st inp temp out num_samples accumulate
      = (st, temp, out) := by
  unfold MonoConvolve.process
  dsimp only
  rw [if_neg]
  rintro ⟨h1, h2⟩
  rcases h with ⟨-, h3⟩ | h3 | h3
  · omega
  · exact h1 h3
  · omega

/-- C18, as the code has it: when the handle from `attempt` is empty (a null pointer of
size 0), or `m_length` is 0, or `m_length` exceeds the size of the handle, `process` does
nothing for either value of `accumulate`: the convolver, `temp` and `out` are as before the
call, so `out[0..N)` is left unchanged also with `accumulate == false`. -/
theorem process_gate_closed {TD PC R : Type} [Add R] (tops : TimeOps TD R)
    (ops : PartOps PC R) (busy unaligned : Bool) (st : MonoConvolve TD PC)
    (inp temp out : Nat → R) (num_samples : Nat) (accumulate : Bool)
    (h : ((MemorySwap.attempt busy st.m_part_4).ptr = none ∧
            (MemorySwap.attempt busy st.m_part_4).size = 0) ∨
         st.m_length = 0 ∨
         (MemorySwap.attempt busy st.m_part_4).size < st.m_length) :
    MonoConvolve.process tops ops busy unaligned st inp temp out num_samples accumulate
      = (st, temp, out) :=
  process_skips tops ops busy unaligned st inp temp out num_samples accumulate h

theorem process_gate_closed_witness :
    (((MemorySwap.attempt false mono_100.m_part_4).ptr = none ∧
        (MemorySwap.attempt false mono_100.m_part_4).size = 0) ∨
      mono_100.m_length = 0 ∨
      (MemorySwap.attempt false mono_100.m_part_4).size < mono_100.m_length) ∧
    MonoConvolve.process record_time record_part false false mono_100
      (fun _ => 1) (fun _ => 0) (fun _ => 7) 4 true = (mono_100, fun _ => 0, fun _ => 7) :=
  ⟨Or.inr (Or.inl rfl),
    process_gate_closed record_time record_part false false mono_100
      (fun _ => 1) (fun _ => 0) (fun _ => 7) 4 true (Or.inr (Or.inl rfl))⟩

/-- C18 fails as stated: the convolver built by `MonoConvolve(1000, false, 100)` has no
impulse response installed (`m_length` is 0), and `process` with `accumulate == false` on
four samples leaves the 7s of `out` in place instead of writing zeros. -/
theorem process_no_zero_fill_counterexample :
    mono_100.m_length = 0 ∧
    ∃ i, i < 4 ∧
      (MonoConvolve.process record_time record_part false false mono_100
        (fun _ => 1) (fun _ => 0) (fun _ => 7) 4 false).2.2 i ≠ 0 := by
  refine ⟨rfl, 0, by norm_num, ?_⟩
  have e : (MonoConvolve.process record_time record_part false false mono_100
      (fun _ => 1) (fun _ => 0) (fun _ => 7) 4 false).2.2 0 = 7 := rfl
  rw [e]
  norm_num

/-- C19: the code breaks the claim at `MonoConvolve(100000, kLatencyZero)` followed by
`set_reset_offset(0)`: the stages `D1`, `D2`, `D3`, constructed with the FFT sizes 256, 1024
and 4096, receive the reset offsets `0 + 1024/8`, `0 + 4096/8` and `0 + 16384/8`, an eighth
of the FFT size of the stage after them, where an eighth of their own size is 32, 128 and
512; the final stage receives 0. -/
theorem set_reset_offset_next_size_evaluation :
    MonoConvolve.ctor_latency record_time record_part MemorySwap.equal 5 100000
      LatencyMode.kLatencyZero = Except.ok mono_zero_latency ∧
    (MonoConvolve.set_reset_offset record_part 5 mono_zero_latency 0).m_part_1
      = some [Call.ctor_part 256 384 128 384, Call.set_reset_offset 133,
          Call.set_reset_offset 128] ∧
    (MonoConvolve.set_reset_offset record_part 5 mono_zero_latency 0).m_part_2
      = some [Call.ctor_part 1024 1536 512 1536, Call.set_reset_offset 517,
          Call.set_reset_offset 512] ∧
    (MonoConvolve.set_reset_offset record_part 5 mono_zero_latency 0).m_part_3
      = some [Call.ctor_part 4096 6144 2048 6144, Call.set_reset_offset 2053,
          Call.set_reset_offset 2048] ∧
    (MonoConvolve.set_reset_offset record_part 5 mono_zero_latency 0).m_part_4.ptr
      = some [Call.ctor_part 16384 91808 8192 0, Call.set_reset_offset 5,
          Call.set_reset_offset 0] :=
  ⟨rfl, rfl, rfl, rfl, rfl⟩

/-- C20, as the code has it: when `set` obtains a non-empty handle whose size is less than
`length`, it returns `MemAllocTooSmall`, the impulse response is installed in every existing
sub-convolver, `m_length` becomes `length` and a reset is requested; every `process` call
made on the convolver it leaves is then skipped by the length gate: the convolver, `temp`
and `out` are as before the call. -/
theorem set_too_small {TD PC R : Type} [Add R] (tops : TimeOps TD R) (ops : PartOps PC R)
    (equal : MemorySwap PC → (Nat → PC) → Nat → MemorySwap PC)
    (st : MonoConvolve TD PC) (input : Nat → R) (length : Nat) (request_resize : Bool)
    (part4 : MemorySwap PC) (p : PC)
    (hp : part4 = (if request_resize then equal st.m_part_4 (allocate ops st.m_allocator) length
      else st.m_part_4))
    (hptr : part4.ptr = some p) (hsize : part4.size < length) :
    (MonoConvolve.set tops ops equal st input length request_resize).1
      = ConvolveError.MemAllocTooSmall ∧
    (MonoConvolve.set tops ops equal st input length request_resize).2.m_time
      = st.m_time.map (fun t => tops.set t input length) ∧
    (MonoConvolve.set tops ops equal st input length request_resize).2.m_part_1
      = st.m_part_1.map (fun q => ops.set q input length) ∧
    (MonoConvolve.set tops ops equal st input length request_resize).2.m_part_2
      = st.m_part_2.map (fun q => ops.set q input length) ∧
    (MonoConvolve.set tops ops equal st input length request_resize).2.m_part_3
      = st.m_part_3.map (fun q => ops.set q input length) ∧
    (MonoConvolve.set tops ops equal st input length request_resize).2.m_part_4
      = { ptr := some (ops.set_reset_offset (ops.set p input length) st.m_reset_offset),
          size := part4.size } ∧
    (MonoConvolve.set tops ops equal st input length request_resize).2.m_length = length ∧
    (MonoConvolve.set tops ops equal st input length request_resize).2.m_reset = true ∧
    ∀ (busy unaligned : Bool) (inp temp out : Nat → R) (num_samples : Nat) (accumulate : Bool),
      MonoConvolve.process tops ops busy unaligned
          (MonoConvolve.set tops ops equal st input length request_resize).2
          inp temp out num_samples accumulate
        = ((MonoConvolve.set tops ops equal st input length request_resize).2, temp, out) := by
  have hsome : part4.ptr.isSome = true := by rw [hptr]; rfl
  have hnone : ¬ (length ≠ 0 ∧ part4.ptr.isNone = true) := by
    rw [hptr]
    rintro ⟨-, h⟩
    exact absurd h (by simp)
  have e1 : (MonoConvolve.set tops ops equal st input length request_resize).1
      = ConvolveError.MemAllocTooSmall := by
    unfold MonoConvolve.set
    dsimp only
    rw [← hp, if_neg hnone, if_pos hsize]
  have e2 : (MonoConvolve.set tops ops equal st input length request_resize).2
      = { st with
          m_time := st.m_time.map (fun t => tops.set t input length),
          m_part_1 := st.m_part_1.map (fun q => ops.set q input length),
          m_part_2 := st.m_part_2.map (fun q => ops.set q input length),
          m_part_3 := st.m_part_3.map (fun q => ops.set q input length),
          m_part_4 :=
            { ptr := some (ops.set_reset_offset (ops.set p input length) st.m_reset_offset),
              size := part4.size },
          m_length := length,
          m_reset := true } := by
    unfold MonoConvolve.set
    dsimp only
    rw [← hp, if_pos hsome, hptr]
    rfl
  refine ⟨e1, ?_, ?_, ?_, ?_, ?_, ?_, ?_, ?_⟩
  · rw [e2]
  · rw [e2]
  · rw [e2]
  · rw [e2]
  · rw [e2]
  · rw [e2]
  · rw [e2]
  · intro busy unaligned inp temp out num_samples accumulate
    apply process_skips
    right; right
    rw [e2]
    unfold MemorySwap.attempt
    dsimp only
    split_ifs
    · dsimp only
      omega
    · exact hsize

theorem set_too_small_witness :
    mono_100.m_part_4.ptr = some [Call.ctor_part 100 1000 0 0, Call.set_reset_offset 5] ∧
    mono_100.m_part_4.size < 2000 ∧
    (MonoConvolve.set record_time record_part MemorySwap.equal mono_100
      (fun _ => (1 : ℚ)) 2000 false).1 = ConvolveError.MemAllocTooSmall ∧
    mono_100_long.m_length = 2000 ∧
    MonoConvolve.process record_time record_part false false mono_100_long
      (fun _ => 1) (fun _ => 0) (fun _ => 7) 4 true = (mono_100_long, fun _ => 0, fun _ => 7) := by
  have h := set_too_small record_time record_part MemorySwap.equal mono_100
    (fun _ => (1 : ℚ)) 2000 false mono_100.m_part_4
    [Call.ctor_part 100 1000 0 0, Call.set_reset_offset 5] rfl rfl (by decide)
  exact ⟨rfl, by decide, h.1, h.2.2.2.2.2.2.1,
    h.2.2.2.2.2.2.2.2 false false (fun _ => 1) (fun _ => 0) (fun _ => 7) 4 true⟩

/-- C20 fails as stated: after `MonoConvolve(1000, false, 100)`, `set(ir, 2000, false)`
returns `MemAllocTooSmall` with the impulse response installed in the final stage, and the
`process` call that follows is skipped: the final stage has recorded no `process` call and
the 7s of `out` are still in place. -/
theorem process_skipped_after_set_counterexample :
    (MonoConvolve.set record_time record_part MemorySwap.equal mono_100
      (fun _ => (1 : ℚ)) 2000 false).1 = ConvolveError.MemAllocTooSmall ∧
    (MonoConvolve.process record_time record_part false false mono_100_long
      (fun _ => 1) (fun _ => 0) (fun _ => 7) 4 false).1.m_part_4.ptr
      = some [Call.ctor_part 100 1000 0 0, Call.set_reset_offset 5, Call.set 2000,
          Call.set_reset_offset 5] ∧
    (MonoConvolve.process record_time record_part false false mono_100_long
      (fun _ => 1) (fun _ => 0) (fun _ => 7) 4 false).2.2 0 = 7 :=
  ⟨rfl, rfl, rfl⟩

/-! ### The real FFT round trip (C3) -/

theorem pass_real_trig_table_body_eq {R : Type} [Add R] [Sub R] [Mul R] [Neg R] (ifft : Bool)
    (table input : Split R) (t a b : Nat) :
    pass_real_trig_table_body ifft table input t a b
      = { realp := Function.update (Function.update input.realp a
            (real_pass_pair ifft table input t a b).1.1) b
            (real_pass_pair ifft table input t a b).2.1,
          imagp := Function.update (Function.update input.imagp a
            (real_pass_pair ifft table input t a b).1.2) b
            (real_pass_pair ifft table input t a b).2.2 } := rfl

theorem real_pass_pair_congr {R : Type} [Add R] [Sub R] [Mul R] [Neg R] (ifft : Bool)
    (table s s' : Split R) (t a b : Nat)
    (h1 : s.realp a = s'.realp a) (h2 : s.imagp a = s'.imagp a)
    (h3 : s.realp b = s'.realp b) (h4 : s.imagp b = s'.imagp b) :
    real_pass_pair ifft table s t a b = real_pass_pair ifft table s' t a b := by
  unfold real_pass_pair
  rw [h1, h2, h3, h4]

/-- The state of the loop of `pass_real_trig_table` after `m` butterflies. -/
theorem pass_real_trig_table_loop_spec {R : Type} [Add R] [Sub R] [Mul R] [Neg R]
    (ifft : Bool) (table s : Split R) (M m : Nat) (hm : 2 * m ≤ M) (k : Nat) :
    ((pass_real_trig_table_loop ifft table (M - 1) m s).realp k,
      (pass_real_trig_table_loop ifft table (M - 1) m s).imagp k)
      = if 1 ≤ k ∧ k ≤ m ∧ 2 * k < M then (real_pass_pair ifft table s k k (M - k)).1
        else if M - m ≤ k ∧ k < M ∧ M ≤ 2 * k then
          (real_pass_pair ifft table s (M - k) (M - k) k).2
        else (s.realp k, s.imagp k) := by
  induction m generalizing k with
  | zero =>
    have h1 : ¬ (1 ≤ k ∧ k ≤ 0 ∧ 2 * k < M) := by omega
    have h2 : ¬ (M - 0 ≤ k ∧ k < M ∧ M ≤ 2 * k) := by omega
    rw [if_neg h1, if_neg h2]
    rfl
  | succ m ih =>
    have iha := ih (by omega) (1 + m)
    have ihb := ih (by omega) (M - 1 - m)
    rw [if_neg (by omega), if_neg (by omega)] at iha ihb
    have pa : real_pass_pair ifft table (pass_real_trig_table_loop ifft table (M - 1) m s)
        (1 + m) (1 + m) (M - 1 - m) = real_pass_pair ifft table s (1 + m) (1 + m) (M - 1 - m) :=
      real_pass_pair_congr ifft table _ s _ _ _ (congrArg Prod.fst iha) (congrArg Prod.snd iha)
        (congrArg Prod.fst ihb) (congrArg Prod.snd ihb)
    have hk := ih (by omega) k
    show ((pass_real_trig_table_body ifft table
        (pass_real_trig_table_loop ifft table (M - 1) m s) (1 + m) (1 + m) (M - 1 - m)).realp k,
      (pass_real_trig_table_body ifft table
        (pass_real_trig_table_loop ifft table (M - 1) m s) (1 + m) (1 + m) (M - 1 - m)).imagp k)
      = _
    rw [pass_real_trig_table_body_eq, pa]
    dsimp only
    by_cases hb : k = M - 1 - m
    · subst hb
      rw [Function.update_same, Function.update_same]
      have e : M - (M - 1 - m) = 1 + m := by omega
      rw [if_neg (by omega), if_pos (by omega), e]
    · rw [Function.update_noteq hb, Function.update_noteq hb]
      by_cases ha : k = 1 + m
      · subst ha
        rw [Function.update_same, Function.update_same]
        have e : M - 1 - m = M - (1 + m) := by omega
        rw [if_pos (by omega), e]
      · rw [Function.update_noteq ha, Function.update_noteq ha, hk]
        by_cases c1 : 1 ≤ k ∧ k ≤ m ∧ 2 * k < M
        · have d1 : 1 ≤ k ∧ k ≤ m + 1 ∧ 2 * k < M := by omega
          rw [if_pos c1, if_pos d1]
        · have d1 : ¬ (1 ≤ k ∧ k ≤ m + 1 ∧ 2 * k < M) := by omega
          rw [if_neg c1, if_neg d1]
          by_cases c2 : M - m ≤ k ∧ k < M ∧ M ≤ 2 * k
          · have d2 : M - (m + 1) ≤ k ∧ k < M ∧ M ≤ 2 * k := by omega
            rw [if_pos c2, if_pos d2]
          · have d2 : ¬ (M - (m + 1) ≤ k ∧ k < M ∧ M ≤ 2 * k) := by omega
            rw [if_neg c2, if_neg d2]

/-- The buffer after `pass_real_trig_table`, element by element. -/
theorem pass_real_trig_table_spec {R : Type} [Add R] [Sub R] [Mul R] [Neg R] (ifft : Bool)
    (input : Split R) (setup : Setup R) (fft_log2 : Nat) (h3 : 2 ≤ fft_log2) (k : Nat) :
    ((pass_real_trig_table ifft input setup fft_log2).realp k,
      (pass_real_trig_table ifft input setup fft_log2).imagp k)
      = real_pass_at ifft (setup.tables (fft_log2 - trig_table_offset)) input
          (2 ^ (fft_log2 - 1)) k := by
  obtain ⟨n, rfl⟩ : ∃ n, fft_log2 = n + 2 := ⟨fft_log2 - 2, by omega⟩
  have e1 : n + 2 - 1 = n + 1 := by omega
  have eM : 1 <<< (n + 2 - 1) = 2 ^ (n + 1) := by rw [Nat.shiftLeft_eq, one_mul, e1]
  have e2 : (2 : Nat) ^ (n + 1) >>> 1 = 2 ^ n := by
    rw [Nat.shiftRight_eq_div_pow, pow_one, pow_succ]
    omega
  have e3 : (2 : Nat) ^ (n + 1) = 2 * 2 ^ n := by rw [pow_succ]; ring
  have hp : 0 < 2 ^ n := Nat.pow_pos (by norm_num)
  unfold pass_real_trig_table
  dsimp only
  rw [eM, e2, pass_real_trig_table_loop_spec ifft _ _ (2 ^ (n + 1)) (2 ^ n) (by omega) k, e1]
  unfold real_pass_at
  by_cases k0 : k = 0
  · subst k0
    rw [if_neg (by omega), if_neg (by omega), if_pos rfl]
    dsimp only
    rw [Function.update_same, Function.update_same]
  · rw [if_neg k0]
    have hk1 : 1 ≤ k := by omega
    by_cases c1 : 2 * k < 2 ^ (n + 1)
    · rw [if_pos (by omega), if_pos c1]
      congr 1
      apply real_pass_pair_congr
      · exact Function.update_noteq (by omega) _ _
      · exact Function.update_noteq (by omega) _ _
      · exact Function.update_noteq (by omega) _ _
      · exact Function.update_noteq (by omega) _ _
    · rw [if_neg (by omega), if_neg c1]
      by_cases c2 : k < 2 ^ (n + 1)
      · rw [if_pos (by omega), if_pos c2]
        congr 1
        apply real_pass_pair_congr
        · exact Function.update_noteq (by omega) _ _
        · exact Function.update_noteq (by omega) _ _
        · exact Function.update_noteq (by omega) _ _
        · exact Function.update_noteq (by omega) _ _
      · rw [if_neg (by omega), if_neg c2]
        dsimp only
        rw [Function.update_noteq k0, Function.update_noteq k0]

theorem real_pass_at_lo {R : Type} [Add R] [Sub R] [Mul R] [Neg R] (ifft : Bool)
    (table input : Split R) (M k : Nat) (h1 : 1 ≤ k) (h2 : 2 * k < M) :
    real_pass_at ifft table input M k = (real_pass_pair ifft table input k k (M - k)).1 := by
  unfold real_pass_at
  rw [if_neg (by omega), if_pos h2]

theorem real_pass_at_hi {R : Type} [Add R] [Sub R] [Mul R] [Neg R] (ifft : Bool)
    (table input : Split R) (M k : Nat) (h1 : 1 ≤ k) (h2 : M ≤ 2 * k) (h3 : k < M) :
    real_pass_at ifft table input M k
      = (real_pass_pair ifft table input (M - k) (M - k) k).2 := by
  unfold real_pass_at
  rw [if_neg (by omega), if_neg (by omega), if_pos h3]

/-- The inverse real pass undoes the forward real pass up to the factor 4, for twiddles on
the unit circle whose middle entry has real part 0. -/
theorem real_pass_round_trip (T s : Split ℝ) (h k : Nat) (hh : 1 ≤ h)
    (hunit : ∀ j, 1 ≤ j → j ≤ h → T.realp j * T.realp j + T.imagp j * T.imagp j = 1)
    (hmid : T.realp h = 0) (hk : k < 2 * h) :
    real_pass_at true T
        { realp := fun j => (real_pass_at false T s (2 * h) j).1,
          imagp := fun j => (real_pass_at false T s (2 * h) j).2 } (2 * h) k
      = (4 * s.realp k, 4 * s.imagp k) := by
  by_cases k0 : k = 0
  · subst k0
    unfold real_pass_at
    simp only [if_true, Bool.false_eq_true, if_false]
    apply Prod.ext
    · dsimp only
      ring
    · dsimp only
      ring
  · by_cases c1 : 2 * k < 2 * h
    · have e : 2 * h - (2 * h - k) = k := by omega
      rw [real_pass_at_lo true _ _ _ _ (by omega) c1]
      unfold real_pass_pair
      dsimp only
      rw [real_pass_at_lo false _ _ _ _ (by omega) c1,
        real_pass_at_hi false _ _ _ (2 * h - k) (by omega) (by omega) (by omega), e]
      unfold real_pass_pair
      simp only [if_true, Bool.false_eq_true, if_false]
      have hu := hunit k (by omega) (by omega)
      apply Prod.ext
      · dsimp only
        linear_combination (2 * (s.realp k - s.realp (2 * h - k))) * hu
      · dsimp only
        linear_combination (2 * (s.imagp k + s.imagp (2 * h - k))) * hu
    · by_cases c2 : 2 * k = 2 * h
      · have e : 2 * h - k = k := by omega
        have ekh : k = h := by omega
        rw [real_pass_at_hi true _ _ _ _ (by omega) (by omega) hk]
        unfold real_pass_pair
        dsimp only
        rw [e, real_pass_at_hi false _ _ _ _ (by omega) (by omega) hk, e]
        unfold real_pass_pair
        simp only [if_true, Bool.false_eq_true, if_false]
        have hu := hunit k (by omega) (by omega)
        have hm : T.realp k = 0 := by rw [ekh]; exact hmid
        rw [hm] at hu ⊢
        apply Prod.ext
        · dsimp only
          ring
        · dsimp only
          linear_combination (4 * s.imagp k) * hu
      · have e : 2 * h - (2 * h - k) = k := by omega
        rw [real_pass_at_hi true _ _ _ _ (by omega) (by omega) hk]
        unfold real_pass_pair
        dsimp only
        rw [real_pass_at_hi false _ _ _ _ (by omega) (by omega) hk,
          real_pass_at_lo false _ _ _ (2 * h - k) (by omega) (by omega), e]
        unfold real_pass_pair
        simp only [if_true, Bool.false_eq_true, if_false]
        have hu := hunit (2 * h - k) (by omega) (by omega)
        apply Prod.ext
        · dsimp only
          linear_combination (-2 * (s.realp (2 * h - k) - s.realp k)) * hu
        · dsimp only
          linear_combination (2 * (s.imagp (2 * h - k) + s.imagp k)) * hu

/-- The twiddles that the real pass of size `2 ^ n` reads lie on the unit circle, and the
middle one has real part 0. -/
theorem real_pass_table (setup : Setup ℝ) (hT : exact_tables setup) (n : Nat) (h3 : 3 ≤ n)
    (hmax : n ≤ setup.max_fft_log2) :
    (∀ j, 1 ≤ j → j ≤ 2 ^ (n - 2) →
      (setup.tables (n - trig_table_offset)).realp j
          * (setup.tables (n - trig_table_offset)).realp j
        + (setup.tables (n - trig_table_offset)).imagp j
          * (setup.tables (n - trig_table_offset)).imagp j = 1) ∧
    (setup.tables (n - trig_table_offset)).realp (2 ^ (n - 2)) = 0 := by
  have ht : trig_table_offset ≤ n := h3
  have hpow : (2 : Nat) ^ (n - 1) = 2 * 2 ^ (n - 2) := by
    have : n - 1 = (n - 2) + 1 := by omega
    rw [this, pow_succ]
    ring
  have hp : 0 < 2 ^ (n - 2) := Nat.pow_pos (by norm_num)
  constructor
  · intro j _ hj
    obtain ⟨a, b⟩ := hT n j ht hmax (by omega)
    rw [a, b]
    have := Real.cos_sq_add_sin_sq (-(j : ℝ) * Real.pi / ((2 ^ (n - 1) : ℕ) : ℝ))
    nlinarith [this]
  · obtain ⟨a, -⟩ := hT n (2 ^ (n - 2)) ht hmax (by omega)
    rw [a, hpow]
    have hne : ((2 ^ (n - 2) : ℕ) : ℝ) ≠ 0 := by exact_mod_cast hp.ne'
    have e : -((2 ^ (n - 2) : ℕ) : ℝ) * Real.pi / ((2 * 2 ^ (n - 2) : ℕ) : ℝ)
        = -(Real.pi / 2) := by
      push_cast
      field_simp
      ring
    rw [e, Real.cos_neg, Real.cos_pi_div_two]

/-- The inverse real pass after the forward real pass multiplies the `2 ^ (n - 1)` complex
elements by 4. -/
theorem pass_real_round_trip (input : Split ℝ) (setup : Setup ℝ) (hT : exact_tables setup)
    (n : Nat) (h3 : 3 ≤ n) (hmax : n ≤ setup.max_fft_log2) (k : Nat) (hk : k < 2 ^ (n - 1)) :
    cplx (pass_real_trig_table true (pass_real_trig_table false input setup n) setup n) k
      = 4 * cplx input k := by
  have hpow : (2 : Nat) ^ (n - 1) = 2 * 2 ^ (n - 2) := by
    have : n - 1 = (n - 2) + 1 := by omega
    rw [this, pow_succ]
    ring
  have hp : 0 < 2 ^ (n - 2) := Nat.pow_pos (by norm_num)
  obtain ⟨hu, hm⟩ := real_pass_table setup hT n h3 hmax
  have s1 := pass_real_trig_table_spec true (pass_real_trig_table false input setup n) setup n
    (by omega) k
  have s0 : (pass_real_trig_table false input setup n)
      = { realp := fun j => (real_pass_at false (setup.tables (n - trig_table_offset)) input
            (2 * 2 ^ (n - 2)) j).1,
          imagp := fun j => (real_pass_at false (setup.tables (n - trig_table_offset)) input
            (2 * 2 ^ (n - 2)) j).2 } := by
    have a : ∀ j, (pass_real_trig_table false input setup n).realp j
        = (real_pass_at false (setup.tables (n - trig_table_offset)) input
            (2 * 2 ^ (n - 2)) j).1 := by
      intro j
      rw [← hpow, ← pass_real_trig_table_spec false input setup n (by omega) j]
    have b : ∀ j, (pass_real_trig_table false input setup n).imagp j
        = (real_pass_at false (setup.tables (n - trig_table_offset)) input
            (2 * 2 ^ (n - 2)) j).2 := by
      intro j
      rw [← hpow, ← pass_real_trig_table_spec false input setup n (by omega) j]
    cases hq : pass_real_trig_table false input setup n with
    | mk re im =>
      rw [hq] at a b
      congr 1
      · exact funext a
      · exact funext b
  rw [hpow] at s1 hk
  have rt := real_pass_round_trip (setup.tables (n - trig_table_offset)) input (2 ^ (n - 2)) k
    (by omega) hu hm hk
  rw [← s0, ← s1] at rt
  apply Complex.ext
  · have := congrArg Prod.fst rt
    simpa [cplx] using this
  · have := congrArg Prod.snd rt
    simpa [cplx] using this

/-- The complex transform leaves the unnormalised forward DFT for every size from 2 on. -/
theorem hisstools_fft_dft (input : Split ℝ) (setup : Setup ℝ) (hT : exact_tables setup)
    (n : Nat) (h1 : 1 ≤ n) (hmax : n ≤ setup.max_fft_log2) (k : Nat) (hk : k < 2 ^ n) :
    cplx (hisstools_fft (Real.sqrt 2 / 2) input setup n) k = dft (2 ^ n) (cplx input) k := by
  unfold hisstools_fft
  by_cases h4 : n ≥ 4
  · rw [if_pos h4]
    exact layN_final _ _ _ (fft_passes_layN input setup n h4 hmax hT) k hk
  · rw [if_neg h4]
    have : n = 1 ∨ n = 2 ∨ n = 3 := by omega
    rcases this with rfl | rfl | rfl
    · exact small_fft_one _ input k hk
    · exact small_fft_two _ input k hk
    · exact small_fft_three input k hk

/-- The inverse complex transform leaves the unnormalised inverse DFT. -/
theorem hisstools_ifft_dft (input : Split ℝ) (setup : Setup ℝ) (hT : exact_tables setup)
    (n : Nat) (h1 : 1 ≤ n) (hmax : n ≤ setup.max_fft_log2) (k : Nat) (hk : k < 2 ^ n) :
    cplx (hisstools_ifft (Real.sqrt 2 / 2) input setup n) k
      = ∑ j in Finset.range (2 ^ n), cplx input j * (omega (2 ^ n) ^ (j * k))⁻¹ := by
  have hsw : ∀ (s : Split ℝ) (j : Nat),
      cplx { realp := s.imagp, imagp := s.realp } j
        = Complex.I * (starRingEnd ℂ) (cplx s j) := by
    intro s j
    apply Complex.ext <;> simp [cplx]
  have h := hisstools_fft_dft { realp := input.imagp, imagp := input.realp } setup hT n h1
    hmax k hk
  have e : cplx (hisstools_ifft (Real.sqrt 2 / 2) input setup n) k
      = Complex.I * (starRingEnd ℂ)
          (cplx (hisstools_fft (Real.sqrt 2 / 2) { realp := input.imagp, imagp := input.realp }
            setup n) k) := by
    unfold hisstools_ifft
    exact hsw _ k
  rw [e, h, dft_eq_omega, map_sum, Finset.mul_sum]
  apply Finset.sum_congr rfl
  intro j _
  rw [hsw, map_mul, map_mul, Complex.conj_conj, Complex.conj_I, map_pow, omega_conj, inv_pow]
  have : Complex.I * (-Complex.I * cplx input j * (omega (2 ^ n) ^ (j * k))⁻¹)
      = -(Complex.I * Complex.I) * (cplx input j * (omega (2 ^ n) ^ (j * k))⁻¹) := by ring
  rw [this, Complex.I_mul_I]
  ring

/-- The inverse DFT of the forward DFT is the signal times its length. -/
theorem dft_inverse (F : Nat) (hF : 0 < F) (z : Nat → ℂ) (k : Nat) (hk : k < F) :
    ∑ j in Finset.range F, dft F z j * (omega F ^ (j * k))⁻¹ = (F : ℂ) * z k := by
  have h1 : ∀ j ∈ Finset.range F, dft F z j * (omega F ^ (j * k))⁻¹
      = ∑ m in Finset.range F, z m * (omega F ^ (m * j) * (omega F ^ (j * k))⁻¹) := by
    intro j _
    rw [dft_eq_omega, Finset.sum_mul]
    apply Finset.sum_congr rfl
    intro m _
    ring
  rw [Finset.sum_congr rfl h1, Finset.sum_comm]
  have h2 : ∀ m ∈ Finset.range F,
      ∑ j in Finset.range F, z m * (omega F ^ (m * j) * (omega F ^ (j * k))⁻¹)
        = z m * (if m % F = k % F then (F : ℂ) else 0) := by
    intro m _
    rw [← Finset.mul_sum, omega_orthogonal F hF m k]
  rw [Finset.sum_congr rfl h2]
  have h3 : ∀ m ∈ Finset.range F, z m * (if m % F = k % F then (F : ℂ) else 0)
      = if m = k then (F : ℂ) * z k else 0 := by
    intro m hm
    have hm' := Finset.mem_range.mp hm
    rw [Nat.mod_eq_of_lt hm', Nat.mod_eq_of_lt hk]
    by_cases c : m = k
    · rw [if_pos c, if_pos c, c]
      ring
    · rw [if_neg c, if_neg c, mul_zero]
  rw [Finset.sum_congr rfl h3, Finset.sum_ite_eq']
  rw [if_pos (Finset.mem_range.mpr hk)]

/-- The real round trip on the path through the complex transform (`fft_log2 ≥ 3`). -/
theorem rfft_rifft_large (input : Split ℝ) (setup : Setup ℝ) (hT : exact_tables setup)
    (n : Nat) (h3 : 3 ≤ n) (hmax : n ≤ setup.max_fft_log2) (k : Nat) (hk : k < 2 ^ (n - 1)) :
    cplx (hisstools_rifft (Real.sqrt 2 / 2)
        (hisstools_rfft (Real.sqrt 2 / 2) input setup n) setup n) k
      = (2 * 2 ^ n : ℂ) * cplx input k := by
  have hge : n ≥ 3 := h3
  unfold hisstools_rifft hisstools_rfft
  rw [if_pos hge, if_pos hge]
  rw [hisstools_ifft_dft _ setup hT (n - 1) (by omega) (by omega) k hk]
  have hj : ∀ j ∈ Finset.range (2 ^ (n - 1)),
      cplx (pass_real_trig_table true (pass_real_trig_table false
          (hisstools_fft (Real.sqrt 2 / 2) input setup (n - 1)) setup n) setup n) j
        * (omega (2 ^ (n - 1)) ^ (j * k))⁻¹
      = 4 * (dft (2 ^ (n - 1)) (cplx input) j * (omega (2 ^ (n - 1)) ^ (j * k))⁻¹) := by
    intro j hj
    have hj' := Finset.mem_range.mp hj
    rw [pass_real_round_trip _ setup hT n h3 hmax j hj',
      hisstools_fft_dft input setup hT (n - 1) (by omega) (by omega) j hj']
    ring
  rw [Finset.sum_congr rfl hj, ← Finset.mul_sum,
    dft_inverse (2 ^ (n - 1)) (Nat.pow_pos (by norm_num)) (cplx input) k hk]
  have e : ((2 ^ (n - 1) : ℕ) : ℂ) * 2 = 2 ^ n := by
    have : (2 : ℂ) ^ n = 2 ^ (n - 1) * 2 := by
      rw [← pow_succ]
      congr 1
      omega
    rw [this]
    push_cast
    rfl
  rw [← e]
  ring

/-- The real round trip of the two small sizes. -/
theorem rfft_rifft_small (sq : ℝ) (input : Split ℝ) (setup : Setup ℝ) (n : Nat)
    (h : n = 1 ∨ n = 2) (k : Nat) (hk : k < 2 ^ (n - 1)) :
    (hisstools_rifft sq (hisstools_rfft sq input setup n) setup n).realp k
      = 2 * 2 ^ n * input.realp k ∧
    (hisstools_rifft sq (hisstools_rfft sq input setup n) setup n).imagp k
      = 2 * 2 ^ n * input.imagp k := by
  rcases h with rfl | rfl
  · have hk0 : k = 0 := by
      have : k < 1 := hk
      omega
    subst hk0
    constructor
    · simp [hisstools_rifft, hisstools_rfft, small_real_fft, store_list]
      ring
    · simp [hisstools_rifft, hisstools_rfft, small_real_fft, store_list]
      ring
  · have hk2 : k = 0 ∨ k = 1 := by
      have : k < 2 := hk
      omega
    rcases hk2 with rfl | rfl
    · constructor
      · simp [hisstools_rifft, hisstools_rfft, small_real_fft, store_list]
        ring
      · simp [hisstools_rifft, hisstools_rfft, small_real_fft, store_list]
        ring
    · constructor
      · simp [hisstools_rifft, hisstools_rfft, small_real_fft, store_list]
        ring
      · simp [hisstools_rifft, hisstools_rfft, small_real_fft, store_list]
        ring

/-- The real round trip scales by twice the size, at every size. -/
theorem rfft_rifft_aux (input : Split ℝ) (setup : Setup ℝ) (hT : exact_tables setup)
    (n : Nat) (h1 : 1 ≤ n) (hmax : n ≤ setup.max_fft_log2) (k : Nat) (hk : k < 2 ^ (n - 1)) :
    (hisstools_rifft (Real.sqrt 2 / 2)
        (hisstools_rfft (Real.sqrt 2 / 2) input setup n) setup n).realp k
      = 2 * 2 ^ n * input.realp k ∧
    (hisstools_rifft (Real.sqrt 2 / 2)
        (hisstools_rfft (Real.sqrt 2 / 2) input setup n) setup n).imagp k
      = 2 * 2 ^ n * input.imagp k := by
  by_cases h3 : 3 ≤ n
  · have key := rfft_rifft_large input setup hT n h3 hmax k hk
    have e : (2 * 2 ^ n : ℂ) = ((2 * 2 ^ n : ℝ) : ℂ) := by push_cast; ring
    rw [e] at key
    constructor
    · have := congrArg Complex.re key
      rw [Complex.re_ofReal_mul] at this
      exact this
    · have := congrArg Complex.im key
      rw [Complex.im_ofReal_mul] at this
      exact this
  · exact rfft_rifft_small _ input setup n (by omega) k hk

/-- C3, as the code has it: for every real FFT size `N = 2 ^ fft_log2` with
`1 ≤ fft_log2 ≤ setup.max_fft_log2` and every split buffer `x` holding `N` real samples
(`N / 2` complex elements), over exact real arithmetic with twiddle tables holding the exact
cosines and sines, `hisstools_rfft` followed by `hisstools_rifft` yields `2 * N * x`
elementwise: a round trip scales the input by `2 N`, not by `4 N`. -/
theorem rfft_rifft_round_trip (input : Split ℝ) (setup : Setup ℝ) (fft_log2 k : Nat)
    (h1 : 1 ≤ fft_log2) (hmax : fft_log2 ≤ setup.max_fft_log2) (hT : exact_tables setup)
    (hk : k < 2 ^ (fft_log2 - 1)) :
    (hisstools_rifft (Real.sqrt 2 / 2)
        (hisstools_rfft (Real.sqrt 2 / 2) input setup fft_log2) setup fft_log2).realp k
      = 2 * 2 ^ fft_log2 * input.realp k ∧
    (hisstools_rifft (Real.sqrt 2 / 2)
        (hisstools_rfft (Real.sqrt 2 / 2) input setup fft_log2) setup fft_log2).imagp k
      = 2 * 2 ^ fft_log2 * input.imagp k :=
  rfft_rifft_aux input setup hT fft_log2 h1 hmax k hk

theorem rfft_rifft_round_trip_witness :
    1 ≤ 5 ∧ 5 ≤ (create_setup 5).max_fft_log2 ∧ exact_tables (create_setup 5) ∧
    3 < 2 ^ (5 - 1) ∧
    (hisstools_rifft (Real.sqrt 2 / 2)
        (hisstools_rfft (Real.sqrt 2 / 2) ⟨fun i => (i : ℝ), fun _ => 1⟩ (create_setup 5) 5)
        (create_setup 5) 5).realp 3
      = 2 * 2 ^ 5 * (3 : ℕ) ∧
    (hisstools_rifft (Real.sqrt 2 / 2)
        (hisstools_rfft (Real.sqrt 2 / 2) ⟨fun i => (i : ℝ), fun _ => 1⟩ (create_setup 5) 5)
        (create_setup 5) 5).imagp 3
      = 2 * 2 ^ 5 * 1 := by
  have h5 : 5 ≤ (create_setup 5).max_fft_log2 := le_refl 5
  exact ⟨by norm_num, h5, exact_tables_create_setup 5, by norm_num,
    rfft_rifft_round_trip ⟨fun i => (i : ℝ), fun _ => 1⟩ (create_setup 5) 5 3 (by norm_num) h5
      (exact_tables_create_setup 5) (by norm_num)⟩

/-- C3 fails as stated: for `N = 2` (`fft_log2 = 1`) and the samples `x = (1, 0)`, the round
trip leaves `(4, 0)`, which is `2 N x` and not `4 N x = (8, 0)`; for `N = 16`
(`fft_log2 = 4`) and `x[0] = 1` it leaves 32 in `realp[0]`, not 64. -/
theorem rfft_rifft_scale_counterexample :
    (hisstools_rifft (Real.sqrt 2 / 2)
        (hisstools_rfft (Real.sqrt 2 / 2) ⟨fun _ => 1, fun _ => 0⟩ (create_setup 1) 1)
        (create_setup 1) 1).realp 0 = 4 ∧
    (hisstools_rifft (Real.sqrt 2 / 2)
        (hisstools_rfft (Real.sqrt 2 / 2) ⟨fun _ => 1, fun _ => 0⟩ (create_setup 1) 1)
        (create_setup 1) 1).realp 0 ≠ 4 * 2 ^ 1 * 1 ∧
    (hisstools_rifft (Real.sqrt 2 / 2)
        (hisstools_rfft (Real.sqrt 2 / 2) ⟨fun _ => 1, fun _ => 0⟩ (create_setup 4) 4)
        (create_setup 4) 4).realp 0 = 32 ∧
    (hisstools_rifft (Real.sqrt 2 / 2)
        (hisstools_rfft (Real.sqrt 2 / 2) ⟨fun _ => 1, fun _ => 0⟩ (create_setup 4) 4)
        (create_setup 4) 4).realp 0 ≠ 4 * 2 ^ 4 * 1 := by
  have a := (rfft_rifft_aux ⟨fun _ => 1, fun _ => 0⟩ (create_setup 1)
    (exact_tables_create_setup 1) 1 (le_refl 1) (le_refl 1) 0 (by norm_num)).1
  have b := (rfft_rifft_aux ⟨fun _ => 1, fun _ => 0⟩ (create_setup 4)
    (exact_tables_create_setup 4) 4 (by norm_num) (le_refl 4) 0 (by norm_num)).1
  refine ⟨?_, ?_, ?_, ?_⟩
  · rw [a]; norm_num
  · rw [a]; norm_num
  · rw [b]; norm_num
  · rw [b]; norm_num

/-! ### The latency modes of the constructor and the error codes (C21, C22) -/

/-- C22: the enumerators of `ConvolveError` have the integer codes `None = 0`,
`InChanOutOfRange = 1`, `OutChanOutOfRange = 2`, `MemUnavailable = 3`,
`MemAllocTooSmall = 4`, `TimeImpulseTooLong = 5`, `TimeLengthOutOfRange = 6`,
`PartitionLengthTooLarge = 7`, `FFTSizeMaxTooSmall = 8`, `FFTSizeMaxTooLarge = 9`,
`FFTSizeMaxNonPowerOfTwo = 10`, `FFTSizeOutOfRange = 11`, `FFTSizeNonPowerOfTwo = 12`, and
the codes are all distinct. -/
theorem convolve_error_codes :
    ConvolveError.code ConvolveError.None = some 0 ∧
    ConvolveError.code ConvolveError.InChanOutOfRange = some 1 ∧
    ConvolveError.code ConvolveError.OutChanOutOfRange = some 2 ∧
    ConvolveError.code ConvolveError.MemUnavailable = some 3 ∧
    ConvolveError.code ConvolveError.MemAllocTooSmall = some 4 ∧
    ConvolveError.code ConvolveError.TimeImpulseTooLong = some 5 ∧
    ConvolveError.code ConvolveError.TimeLengthOutOfRange = some 6 ∧
    ConvolveError.code ConvolveError.PartitionLengthTooLarge = some 7 ∧
    ConvolveError.code ConvolveError.FFTSizeMaxTooSmall = some 8 ∧
    ConvolveError.code ConvolveError.FFTSizeMaxTooLarge = some 9 ∧
    ConvolveError.code ConvolveError.FFTSizeMaxNonPowerOfTwo = some 10 ∧
    ConvolveError.code ConvolveError.FFTSizeOutOfRange = some 11 ∧
    ConvolveError.code ConvolveError.FFTSizeNonPowerOfTwo = some 12 ∧
    Function.Injective ConvolveError.code := by
  refine ⟨by decide, by decide, by decide, by decide, by decide, by decide, by decide,
    by decide, by decide, by decide, by decide, by decide, by decide, ?_⟩
  intro a b h
  cases a <;> cases b <;> first | rfl | exact absurd h (by decide)

/-- C21: the three latency modes of the constructor expand to `kLatencyZero`: the sizes
(256, 1024, 4096, 16384) behind a time-domain head of 128 samples (`TimeDomainConvolve(0,
128)`); `kLatencyShort`: the same sizes with no head; `kLatencyMedium`: the sizes
(1024, 4096, 16384) with no head and no stage in `m_part_1`. -/
theorem ctor_latency_modes {TD PC R : Type} (tops : TimeOps TD R) (ops : PartOps PC R)
    (equal : MemorySwap PC → (Nat → PC) → Nat → MemorySwap PC) (rnd max_length : Nat) :
    (MonoConvolve.ctor_latency tops ops equal rnd max_length LatencyMode.kLatencyZero
        = MonoConvolve.ctor tops ops equal rnd max_length true 256 1024 4096 16384 ∧
      ∃ st, MonoConvolve.ctor_latency tops ops equal rnd max_length LatencyMode.kLatencyZero
          = Except.ok st ∧
        st.m_sizes = [256, 1024, 4096, 16384] ∧ st.m_time = some (tops.ctor 0 128) ∧
        st.m_part_1.isSome = true ∧ st.m_part_2.isSome = true ∧ st.m_part_3.isSome = true) ∧
    (MonoConvolve.ctor_latency tops ops equal rnd max_length LatencyMode.kLatencyShort
        = MonoConvolve.ctor tops ops equal rnd max_length false 256 1024 4096 16384 ∧
      ∃ st, MonoConvolve.ctor_latency tops ops equal rnd max_length LatencyMode.kLatencyShort
          = Except.ok st ∧
        st.m_sizes = [256, 1024, 4096, 16384] ∧ st.m_time = none ∧
        st.m_part_1.isSome = true ∧ st.m_part_2.isSome = true ∧ st.m_part_3.isSome = true) ∧
    (MonoConvolve.ctor_latency tops ops equal rnd max_length LatencyMode.kLatencyMedium
        = MonoConvolve.ctor tops ops equal rnd max_length false 1024 4096 16384 0 ∧
      ∃ st, MonoConvolve.ctor_latency tops ops equal rnd max_length LatencyMode.kLatencyMedium
          = Except.ok st ∧
        st.m_sizes = [1024, 4096, 16384] ∧ st.m_time = none ∧
        st.m_part_1 = none ∧ st.m_part_2.isSome = true ∧ st.m_part_3.isSome = true) :=
  ⟨⟨rfl, MonoConvolve.build_partitions tops ops equal rnd (MonoConvolve.init TD PC) max_length
      true [256, 1024, 4096, 16384], rfl, rfl, rfl, rfl, rfl, rfl⟩,
   ⟨rfl, MonoConvolve.build_partitions tops ops equal rnd (MonoConvolve.init TD PC) max_length
      false [256, 1024, 4096, 16384], rfl, rfl, rfl, rfl, rfl, rfl⟩,
   ⟨rfl, MonoConvolve.build_partitions tops ops equal rnd (MonoConvolve.init TD PC) max_length
      false [1024, 4096, 16384], rfl, rfl, rfl, rfl, rfl, rfl⟩⟩

/-! ### The scaled store and the partition multiply-accumulate (C24, C25) -/

/-- The number of samples that `scale_store` writes is half the FFT size whenever the vector
width divides it. -/
theorem scale_store_div {R : Type} [Field R] (W : Nat) (out temp : Nat → R) (lg : Nat)
    (hlg : 1 ≤ lg) (hW : 0 < W) (hdiv : W ∣ 2 ^ (lg - 1)) (offset : Bool) (e : Nat) :
    scale_store W out temp (2 ^ lg) offset e =
      if (if offset then 2 ^ (lg - 1) else 0) ≤ e ∧
          e < (if offset then 2 ^ (lg - 1) else 0) + 2 ^ (lg - 1) then
        temp (e - (if offset then 2 ^ (lg - 1) else 0)) * (1 / ((2 ^ lg <<< 2 : Nat) : R))
      else out e := by
  have hF := two_pow_eq_double lg hlg
  have hcount : 2 ^ lg / (W * 2) * W = 2 ^ (lg - 1) := by
    obtain ⟨q, hq⟩ := hdiv
    rw [hF, hq]
    have : 2 * (W * q) = (W * 2) * q := by ring
    rw [this, Nat.mul_div_cancel_left _ (by omega)]
    ring
  unfold scale_store
  simp only [halved_eq lg hlg, hcount]

/-- The output ring after an FFT-due step at read/write counter `rw`. -/
theorem fft_step_store_aux {R : Type} [Field R] (K : FFTKernel R) (W : Nat)
    (S : convolve_partitioned R) (rw : Nat) (hlg : 1 ≤ S.m_fft_size_log2) (hW : 0 < W)
    (hdiv : W ∣ 2 ^ (S.m_fft_size_log2 - 1)) (e : Nat) :
    (fft_step K W S rw).1.m_fft_buffers_3 e =
      if (if rw = 2 ^ S.m_fft_size_log2 then 0 else 2 ^ (S.m_fft_size_log2 - 1)) ≤ e ∧
          e < (if rw = 2 ^ S.m_fft_size_log2 then 0 else 2 ^ (S.m_fft_size_log2 - 1))
            + 2 ^ (S.m_fft_size_log2 - 1) then
        (fft_step K W S rw).1.m_fft_buffers_2
            (e - (if rw = 2 ^ S.m_fft_size_log2 then 0 else 2 ^ (S.m_fft_size_log2 - 1)))
          * ((1 : R) / ((4 * 2 ^ S.m_fft_size_log2 : Nat) : R))
      else S.m_fft_buffers_3 e := by
  have h4 : (2 ^ S.m_fft_size_log2 <<< 2 : Nat) = 4 * 2 ^ S.m_fft_size_log2 := by
    rw [Nat.shiftLeft_eq]
    ring
  have key : (fft_step K W S rw).1.m_fft_buffers_3
      = scale_store W S.m_fft_buffers_3 (fft_step K W S rw).1.m_fft_buffers_2
          (2 ^ S.m_fft_size_log2) (decide (rw ≠ 2 ^ S.m_fft_size_log2)) := by
    unfold fft_step
    dsimp only
    rw [get_fft_size_eq]
  rw [key, scale_store_div W _ _ _ hlg hW hdiv, h4]
  by_cases c : rw = 2 ^ S.m_fft_size_log2
  · simp only [c, ne_eq, not_true_eq_false, decide_False, Bool.false_eq_true, if_false, if_true,
      Nat.cast_one]
  · simp only [c, ne_eq, not_false_eq_true, decide_True, if_true, if_false, Nat.cast_one]

/-- C24, as the code has it: in an FFT-due step of `process` (`fft_step` at read/write
counter `rw`), the third FFT buffer receives the `fft_size` samples of the inverse FFT of
the accumulated spectrum, and `fft_size / 2` of them, scaled by `1 / (4 * fft_size)`, are
stored into the output ring: at offset 0 when `rw == fft_size` and at the second-half
offset `fft_size / 2` otherwise (`rw == fft_size / 2`); the rest of the ring is unchanged.
The vector width is assumed to divide `fft_size / 2`. -/
theorem fft_step_store {R : Type} [Field R] (K : FFTKernel R) (W : Nat)
    (S : convolve_partitioned R) (rw : Nat) (hlg : 1 ≤ S.m_fft_size_log2) (hW : 0 < W)
    (hdiv : W ∣ 2 ^ (S.m_fft_size_log2 - 1)) :
    (∃ spectrum : Split R, ∀ i, i < 2 ^ S.m_fft_size_log2 →
      (fft_step K W S rw).1.m_fft_buffers_2 i = K.rifft S.m_fft_size_log2 spectrum i) ∧
    (rw = 2 ^ S.m_fft_size_log2 → ∀ e,
      (fft_step K W S rw).1.m_fft_buffers_3 e =
        if e < 2 ^ (S.m_fft_size_log2 - 1) then
          (fft_step K W S rw).1.m_fft_buffers_2 e * ((1 : R) / ((4 * 2 ^ S.m_fft_size_log2 : Nat) : R))
        else S.m_fft_buffers_3 e) ∧
    (rw ≠ 2 ^ S.m_fft_size_log2 → ∀ e,
      (fft_step K W S rw).1.m_fft_buffers_3 e =
        if 2 ^ (S.m_fft_size_log2 - 1) ≤ e ∧ e < 2 ^ S.m_fft_size_log2 then
          (fft_step K W S rw).1.m_fft_buffers_2 (e - 2 ^ (S.m_fft_size_log2 - 1))
            * ((1 : R) / ((4 * 2 ^ S.m_fft_size_log2 : Nat) : R))
        else S.m_fft_buffers_3 e) := by
  have hF := two_pow_eq_double S.m_fft_size_log2 hlg
  refine ⟨?_, ?_, ?_⟩
  · unfold fft_step
    dsimp only
    rw [get_fft_size_eq]
    exact ⟨_, fun i hi => by
      unfold copy_n
      rw [if_pos (by omega), Nat.zero_add, Nat.sub_zero]⟩
  · intro c e
    rw [fft_step_store_aux K W S rw hlg hW hdiv e, if_pos c]
    simp only [Nat.zero_le, true_and, Nat.zero_add, Nat.sub_zero]
  · intro c e
    rw [fft_step_store_aux K W S rw hlg hW hdiv e, if_neg c]
    have : 2 ^ (S.m_fft_size_log2 - 1) + 2 ^ (S.m_fft_size_log2 - 1) = 2 ^ S.m_fft_size_log2 := by
      omega
    rw [this]

theorem fft_step_store_witness :
    1 ≤ store_state.m_fft_size_log2 ∧ 0 < 4 ∧ 4 ∣ 2 ^ (store_state.m_fft_size_log2 - 1) ∧
    (32 = 2 ^ store_state.m_fft_size_log2 → ∀ e,
      (fft_step unzip_kernel 4 store_state 32).1.m_fft_buffers_3 e =
        if e < 2 ^ (store_state.m_fft_size_log2 - 1) then
          (fft_step unzip_kernel 4 store_state 32).1.m_fft_buffers_2 e
            * ((1 : ℚ) / ((4 * 2 ^ store_state.m_fft_size_log2 : Nat) : ℚ))
        else store_state.m_fft_buffers_3 e) :=
  ⟨by decide, by decide, by decide,
    (fft_step_store unzip_kernel 4 store_state 32 (by decide) (by decide) (by decide)).2.1⟩

/-- C24 fails as stated: with FFT size 32, an FFT-due step at `rw == fft_size` stores to the
first half of the output ring (sample 0 becomes `128 / 128 = 1`, sample 16 keeps its 7), and
one at `rw == fft_size / 2` stores to the second half (sample 16 becomes 1, sample 0 keeps
its 7): the reverse of the claim. -/
theorem fft_step_store_offset_counterexample :
    (fft_step unzip_kernel 4 store_state 32).1.m_fft_buffers_3 0 = 1 ∧
    (fft_step unzip_kernel 4 store_state 32).1.m_fft_buffers_3 16 = 7 ∧
    (fft_step unzip_kernel 4 store_state 16).1.m_fft_buffers_3 16 = 1 ∧
    (fft_step unzip_kernel 4 store_state 16).1.m_fft_buffers_3 0 = 7 := by
  have e1 : (1 <<< 5 : Nat) = 32 := rfl
  have e2 : (32 >>> 1 : Nat) = 16 := rfl
  have e3 : (32 <<< 2 : Nat) = 128 := rfl
  refine ⟨?_, ?_, ?_, ?_⟩ <;>
    norm_num [e1, e2, e3, fft_step, scale_store, copy_n, store_state, zero_state, unzip_kernel,
      get_fft_size, process_partition, process_partition_loop, first_bins, first_n, fill_n,
      store_bins, offset_split_pointer, write_back, vec_mac]

/-- When fewer than four vectors fit into the bins, the unrolled loop of `process_partition`
does not run: only the Nyquist product is added. -/
theorem process_partition_short {R : Type} [Zero R] [Add R] [Sub R] [Mul R] (W : Nat)
    (a b out : Split R) (num_bins : Nat) (h : num_bins / W < 4) :
    process_partition W a b out num_bins =
      (a, b, { out with
        imagp := Function.update out.imagp 0 (out.imagp 0 + a.imagp 0 * b.imagp 0) }) := by
  have h1 := process_partition_fst W a b out num_bins
  have h2 := process_partition_snd_fst W a b out num_bins
  have h3 : (process_partition W a b out num_bins).2.2 =
      { out with
        imagp := Function.update out.imagp 0 (out.imagp 0 + a.imagp 0 * b.imagp 0) } := by
    unfold process_partition
    dsimp only
    cases hn : num_bins / W with
    | zero => rfl
    | succ n =>
      unfold process_partition_loop
      rw [if_neg (by omega)]
  exact Prod.ext h1 (Prod.ext h2 h3)

/-- C25: the code breaks the claim at the smallest permitted FFT size 32 (`num_bins = 16`)
with vectors of 8 lanes: `num_vecs` is 2, the loop `for (i = 0; i + 3 < num_vecs; i += 4)`
does not run, and for `a = 2 + 3i`, `b = 5 + 7i` in every bin and a zero accumulator no bin
receives its product (`out.re[1]` and `out.im[1]` stay 0 instead of `-11` and `29`,
`out.re[0]` stays 0 instead of 10); only the Nyquist product `out.im[0] = 21` is added. With
vectors of 4 lanes the same call gives `-11` and `29`. -/
theorem process_partition_skips_bins_evaluation :
    (process_partition 8 (⟨fun _ => 2, fun _ => 3⟩ : Split ℚ) ⟨fun _ => 5, fun _ => 7⟩
      ⟨fun _ => 0, fun _ => 0⟩ 16).2.2.realp 1 = 0 ∧
    (process_partition 8 (⟨fun _ => 2, fun _ => 3⟩ : Split ℚ) ⟨fun _ => 5, fun _ => 7⟩
      ⟨fun _ => 0, fun _ => 0⟩ 16).2.2.imagp 1 = 0 ∧
    (process_partition 8 (⟨fun _ => 2, fun _ => 3⟩ : Split ℚ) ⟨fun _ => 5, fun _ => 7⟩
      ⟨fun _ => 0, fun _ => 0⟩ 16).2.2.realp 0 = 0 ∧
    (process_partition 8 (⟨fun _ => 2, fun _ => 3⟩ : Split ℚ) ⟨fun _ => 5, fun _ => 7⟩
      ⟨fun _ => 0, fun _ => 0⟩ 16).2.2.imagp 0 = 21 ∧
    (process_partition 4 (⟨fun _ => 2, fun _ => 3⟩ : Split ℚ) ⟨fun _ => 5, fun _ => 7⟩
      ⟨fun _ => 0, fun _ => 0⟩ 16).2.2.realp 1 = -11 ∧
    (process_partition 4 (⟨fun _ => 2, fun _ => 3⟩ : Split ℚ) ⟨fun _ => 5, fun _ => 7⟩
      ⟨fun _ => 0, fun _ => 0⟩ 16).2.2.imagp 1 = 29 := by
  have h8 := process_partition_short 8 (⟨fun _ => 2, fun _ => 3⟩ : Split ℚ)
    ⟨fun _ => 5, fun _ => 7⟩ ⟨fun _ => 0, fun _ => 0⟩ 16 (by decide)
  have h4 := process_partition_spec 4 (⟨fun _ => 2, fun _ => 3⟩ : Split ℚ)
    ⟨fun _ => 5, fun _ => 7⟩ ⟨fun _ => 0, fun _ => 0⟩ 16 (by decide) (by decide) (by decide)
  rw [h8, h4]
  refine ⟨rfl, ?_, rfl, ?_, ?_, ?_⟩
  · simp
  · norm_num
  · norm_num [packed_mac]
  · norm_num [packed_mac]

/-! ### The counters of `process` in every reached state (C26 - C29) -/

/-- Induction over the sub-blocks of the main loop of `process`: a relation `Inv m` between
the number `m` of samples consumed so far and the loop state (convolver, `rw_counter`,
output array, call counters) that every sub-block carries forward holds when the loop
ends, and the loop ends. -/
theorem process_loop_induct {R : Type} [Field R] (K : FFTKernel R) (W : Nat) (inp : Nat → R)
    (accumulate : Bool) (ip0 op0 : Nat)
    (Inv : Nat → convolve_partitioned R → Nat → (Nat → R) → Work → Prop)
    (hstep : ∀ (m : Nat) (st : convolve_partitioned R) (rw rem : Nat) (out : Nat → R)
      (w : Work), Inv m st rw out w → 0 < rem → 1 ≤ st.m_fft_size_log2 →
      1 ≤ st.m_num_partitions →
      Inv (m + min rem (2 ^ (st.m_fft_size_log2 - 1) - rw % 2 ^ (st.m_fft_size_log2 - 1)))
        (process_iter_alt K W inp accumulate (st, rw, rem, ip0 + m, op0 + m, out)).1
        (process_iter_alt K W inp accumulate (st, rw, rem, ip0 + m, op0 + m, out)).2.1
        (process_iter_alt K W inp accumulate (st, rw, rem, ip0 + m, op0 + m, out)).2.2.2.2.2
        (process_iter_work K W inp accumulate (st, rw, rem, ip0 + m, op0 + m, out) w).2) :
    ∀ (rem m : Nat) (st : convolve_partitioned R) (rw : Nat) (out : Nat → R) (w : Work),
      1 ≤ st.m_fft_size_log2 → 1 ≤ st.m_num_partitions → Inv m st rw out w →
      ∃ s : (convolve_partitioned R × Nat × Nat × Nat × Nat × (Nat → R)) × Work,
        (∀ fuel, rem ≤ fuel →
          process_loop_work K W inp accumulate fuel
            ((st, rw, rem, ip0 + m, op0 + m, out), w) = some s) ∧
        (∀ fuel, rem ≤ fuel →
          process_loop K W inp accumulate fuel (st, rw, rem, ip0 + m, op0 + m, out)
            = some s.1) ∧
        Inv (m + rem) s.1.1 s.1.2.1 s.1.2.2.2.2.2 s.2 ∧
        s.1.1.m_fft_size_log2 = st.m_fft_size_log2 ∧
        s.1.1.m_num_partitions = st.m_num_partitions ∧
        s.1.1.m_reset_flag = st.m_reset_flag := by
  intro rem
  induction rem using Nat.strong_induction_on with
  | _ rem ih =>
    intro m st rw out w hlg hP h
    rcases Nat.eq_zero_or_pos rem with h0 | hpos
    · subst h0
      exact ⟨((st, rw, 0, ip0 + m, op0 + m, out), w),
        fun fuel _ => process_loop_work_done K W inp accumulate fuel _ w rfl,
        fun fuel _ => process_loop_done K W inp accumulate fuel _ rfl, h, rfl, rfl, rfl⟩
    · have hs := hstep m st rw rem out w h hpos hlg hP
      obtain ⟨f1, f2, f3, f4, f5, f6⟩ := process_iter_alt_fields K W inp accumulate st rw rem
        (ip0 + m) (op0 + m) out
      have hw := process_iter_work_eq K W inp accumulate st rw rem (ip0 + m) (op0 + m) out w
        hlg hP
      have htill := till_pos st.m_fft_size_log2 rw
      obtain ⟨L, hL⟩ : ∃ L, L = min rem
          (2 ^ (st.m_fft_size_log2 - 1) - rw % 2 ^ (st.m_fft_size_log2 - 1)) := ⟨_, rfl⟩
      have hL1 : 1 ≤ L := by
        rw [hL]
        exact le_min hpos htill
      have hL2 : L ≤ rem := by
        rw [hL]
        exact min_le_left _ _
      rw [← hL] at hs f4 f5 f6
      obtain ⟨u, hu⟩ : ∃ u, u = process_iter_alt K W inp accumulate
          (st, rw, rem, ip0 + m, op0 + m, out) := ⟨_, rfl⟩
      obtain ⟨w1, hw1⟩ : ∃ w1,
          w1 = (process_iter_work K W inp accumulate (st, rw, rem, ip0 + m, op0 + m, out) w).2 :=
        ⟨_, rfl⟩
      rw [← hu] at hs f1 f2 f3 f4 f5 f6
      rw [← hw1] at hs
      have hueta : u = (u.1, u.2.1, rem - L, ip0 + (m + L), op0 + (m + L), u.2.2.2.2.2) := by
        refine Prod.ext rfl (Prod.ext rfl (Prod.ext f4 (Prod.ext ?_ (Prod.ext ?_ rfl))))
        · rw [f5]; dsimp only; omega
        · rw [f6]; dsimp only; omega
      have hpair : process_iter_work K W inp accumulate (st, rw, rem, ip0 + m, op0 + m, out) w
          = ((u.1, u.2.1, rem - L, ip0 + (m + L), op0 + (m + L), u.2.2.2.2.2), w1) := by
        refine Prod.ext ?_ hw1.symm
        rw [hw]
        dsimp only
        rw [← hu]
        exact hueta
      obtain ⟨s, k1, k2, k3, k4, k5, k6⟩ := ih (rem - L) (by omega) (m + L) u.1 u.2.1
        u.2.2.2.2.2 w1 (by omega) (by omega) hs
      have em : m + L + (rem - L) = m + rem := by omega
      rw [em] at k3
      refine ⟨s, ?_, ?_, k3, by rw [k4, f1], by rw [k5, f2], by rw [k6, f3]⟩
      · intro fuel hfuel
        obtain ⟨f, rfl⟩ : ∃ f, fuel = f + 1 := ⟨fuel - 1, by omega⟩
        rw [process_loop_work_step K W inp accumulate f _ w hpos, hpair]
        exact k1 f (by omega)
      · intro fuel hfuel
        obtain ⟨f, rfl⟩ : ∃ f, fuel = f + 1 := ⟨fuel - 1, by omega⟩
        rw [process_loop_step K W inp accumulate f st rw rem (ip0 + m) (op0 + m) out hpos hlg hP,
          ← hu, hueta]
        exact k2 f (by omega)

/-- The same induction for one `process` call on a convolver whose reset flag is clear. -/
theorem process_induct {R : Type} [Field R] (K : FFTKernel R) (W rnd : Nat) (inp : Nat → R)
    (accumulate : Bool) (ip0 op0 : Nat)
    (Inv : Nat → convolve_partitioned R → Nat → (Nat → R) → Work → Prop)
    (hstep : ∀ (m : Nat) (st : convolve_partitioned R) (rw rem : Nat) (out : Nat → R)
      (w : Work), Inv m st rw out w → 0 < rem → 1 ≤ st.m_fft_size_log2 →
      1 ≤ st.m_num_partitions →
      Inv (m + min rem (2 ^ (st.m_fft_size_log2 - 1) - rw % 2 ^ (st.m_fft_size_log2 - 1)))
        (process_iter_alt K W inp accumulate (st, rw, rem, ip0 + m, op0 + m, out)).1
        (process_iter_alt K W inp accumulate (st, rw, rem, ip0 + m, op0 + m, out)).2.1
        (process_iter_alt K W inp accumulate (st, rw, rem, ip0 + m, op0 + m, out)).2.2.2.2.2
        (process_iter_work K W inp accumulate (st, rw, rem, ip0 + m, op0 + m, out) w).2)
    (st : convolve_partitioned R) (out : Nat → R) (w : Work) (N : Nat)
    (hflag : st.m_reset_flag = false) (hlg : 1 ≤ st.m_fft_size_log2)
    (hP : 1 ≤ st.m_num_partitions) (h0 : Inv 0 st st.m_rw_counter out w) :
    ∃ st1 out1 w1,
      process_work K W rnd st inp ip0 out op0 N accumulate w = some (st1, out1, w1) ∧
      process K W rnd st inp ip0 out op0 N accumulate = some (st1, out1) ∧
      (∃ S, st1 = with_rw S st1.m_rw_counter ∧ Inv N S st1.m_rw_counter out1 w1) ∧
      st1.m_fft_size_log2 = st.m_fft_size_log2 ∧
      st1.m_num_partitions = st.m_num_partitions ∧ st1.m_reset_flag = false := by
  obtain ⟨s, k1, k2, k3, k4, k5, k6⟩ := process_loop_induct K W inp accumulate ip0 op0 Inv hstep
    N 0 st st.m_rw_counter out w hlg hP h0
  rw [Nat.zero_add] at k3
  simp only [Nat.add_zero] at k1 k2
  refine ⟨with_rw s.1.1 s.1.2.1, s.1.2.2.2.2.2, s.2, ?_, ?_, ⟨s.1.1, rfl, k3⟩, k4, k5, ?_⟩
  · unfold process_work
    rw [if_neg (by omega), hflag]
    simp only [Bool.false_eq_true, if_false]
    rw [k1 N (le_refl _)]
    rfl
  · exact process_eq K W rnd st inp ip0 out op0 N accumulate hP (st, st.m_rw_counter)
      (by rw [hflag]; rfl) s.1 (k2 N (le_refl _))
  · show s.1.1.m_reset_flag = false
    rw [k6, hflag]

/-- The phase of the hop after `m` samples. -/
theorem phase_mod (H rw0 m : Nat) :
    (rw0 + m) % (2 * H) % H = (rw0 % H + m) % H := by
  rw [Nat.mod_mod_of_dvd _ (Dvd.intro_left 2 rfl), Nat.mod_add_mod]

/-- Counting hop boundaries: a sub-block that stays inside the hop adds none, one that ends
on the boundary adds one. -/
theorem hop_count_step (H x L : Nat) (hH : 0 < H) (hL : x % H + L ≤ H) :
    (x + L) / H = x / H + (if x % H + L = H then 1 else 0) := by
  have hx := Nat.div_add_mod x H
  have e : x + L = H * (x / H) + (x % H + L) := by omega
  rw [e, Nat.mul_add_div hH]
  by_cases c : x % H + L = H
  · rw [if_pos c, c, Nat.div_self hH]
  · rw [if_neg c, Nat.div_eq_of_lt (show x % H + L < H by omega)]

/-- The read/write counter and the number of FFT-due steps of one `process` call. -/
theorem process_rw_counter_aux {R : Type} [Field R] (K : FFTKernel R) (W rnd : Nat)
    (st : convolve_partitioned R) (inp : Nat → R) (ip : Nat) (out : Nat → R) (op N : Nat)
    (accumulate : Bool) (hP : 1 ≤ st.m_num_partitions) (hflag : st.m_reset_flag = false)
    (hlg : 1 ≤ st.m_fft_size_log2) (hrw : st.m_rw_counter < 2 ^ st.m_fft_size_log2) :
    ∃ st1 out1 w1,
      process_work K W rnd st inp ip out op N accumulate ⟨0, 0, 0⟩ = some (st1, out1, w1) ∧
      process K W rnd st inp ip out op N accumulate = some (st1, out1) ∧
      st1.m_rw_counter = (st.m_rw_counter + N) % 2 ^ st.m_fft_size_log2 ∧
      st1.m_rw_counter < 2 ^ st.m_fft_size_log2 ∧
      w1.rffts = (st.m_rw_counter % 2 ^ (st.m_fft_size_log2 - 1) + N)
        / 2 ^ (st.m_fft_size_log2 - 1) ∧
      w1.riffts = w1.rffts := by
  obtain ⟨lg, hlgdef⟩ : ∃ lg, lg = st.m_fft_size_log2 := ⟨_, rfl⟩
  obtain ⟨rw0, hrw0⟩ : ∃ rw0, rw0 = st.m_rw_counter := ⟨_, rfl⟩
  have hF := two_pow_eq_double lg (by omega)
  have hH : 0 < 2 ^ (lg - 1) := Nat.pow_pos (by norm_num)
  have key := process_induct K W rnd inp accumulate ip op
    (fun m S rw _ w => S.m_fft_size_log2 = lg ∧ rw = (rw0 + m) % 2 ^ lg ∧
      w.rffts = (rw0 % 2 ^ (lg - 1) + m) / 2 ^ (lg - 1) ∧ w.riffts = w.rffts)
    (by
      intro m S rw rem o w hinv hrem hSlg hSP
      obtain ⟨i1, i2, i3, i4⟩ := hinv
      obtain ⟨f1, -⟩ := process_iter_alt_fields K W inp accumulate S rw rem (ip + m) (op + m) o
      have hw := process_iter_work_eq K W inp accumulate S rw rem (ip + m) (op + m) o w hSlg hSP
      have hs := process_iter_alt_sched K W inp accumulate S rw rem (ip + m) (op + m) o
        _ _ _ _ rfl rfl rfl rfl
      rw [i1] at hw hs ⊢
      have htill := till_pos lg rw
      obtain ⟨L, hL⟩ : ∃ L, L = min rem (2 ^ (lg - 1) - rw % 2 ^ (lg - 1)) := ⟨_, rfl⟩
      rw [← hL] at hw hs ⊢
      have hL1 : 1 ≤ L := by rw [hL]; exact le_min hrem htill
      have hL3 : L ≤ 2 ^ (lg - 1) - rw % 2 ^ (lg - 1) := by rw [hL]; exact min_le_right _ _
      have hmod := Nat.mod_lt rw hH
      have hph : rw % 2 ^ (lg - 1) = (rw0 % 2 ^ (lg - 1) + m) % 2 ^ (lg - 1) := by
        rw [i2, hF]
        exact phase_mod _ _ _
      have hcnt := hop_count_step (2 ^ (lg - 1)) (rw0 % 2 ^ (lg - 1) + m) L hH
        (by rw [← hph]; omega)
      rw [← hph] at hcnt
      have hrwlt : rw < 2 ^ lg := by rw [i2]; exact Nat.mod_lt _ (Nat.pow_pos (by norm_num))
      have hnew : (rw + L) % 2 ^ lg = (rw0 + (m + L)) % 2 ^ lg := by
        rw [i2, Nat.mod_add_mod, Nat.add_assoc]
      have em : rw0 % 2 ^ (lg - 1) + (m + L) = rw0 % 2 ^ (lg - 1) + m + L := by omega
      refine ⟨by rw [f1, i1], ?_, ?_, ?_⟩
      · by_cases c : (rw + L) % 2 ^ (lg - 1) = 0
        · rw [(hs.2 c).2.2, hnew]
        · rw [(hs.1 c).2.2, ← hnew]
          have hlt : rw % 2 ^ (lg - 1) + L < 2 ^ (lg - 1) := by
            rcases Nat.lt_or_ge (rw % 2 ^ (lg - 1) + L) (2 ^ (lg - 1)) with h | h
            · exact h
            · exact absurd (add_mod_hop_full rw L _ (by omega)) c
          have hd := Nat.div_add_mod rw (2 ^ (lg - 1))
          have hq : rw / 2 ^ (lg - 1) < 2 := by
            rw [Nat.div_lt_iff_lt_mul hH]
            omega
          have : rw + L < 2 ^ lg := by
            rw [hF]
            generalize rw / 2 ^ (lg - 1) = q at hd hq
            interval_cases q <;> omega
          rw [Nat.mod_eq_of_lt this]
      · rw [hw]
        dsimp only
        rw [em, hcnt]
        by_cases c : (rw + L) % 2 ^ (lg - 1) = 0
        · rw [if_pos c]
          have hfull : rw % 2 ^ (lg - 1) + L = 2 ^ (lg - 1) := by
            rcases Nat.lt_or_ge (rw % 2 ^ (lg - 1) + L) (2 ^ (lg - 1)) with h | h
            · have := add_mod_hop rw L _ h
              omega
            · omega
          rw [if_pos hfull]
          dsimp only
          rw [i3]
        · rw [if_neg c]
          have hlt : rw % 2 ^ (lg - 1) + L ≠ 2 ^ (lg - 1) := by
            intro h
            exact c (add_mod_hop_full rw L _ h)
          rw [if_neg hlt]
          dsimp only
          rw [i3]
          rfl
      · rw [hw]
        dsimp only
        by_cases c : (rw + L) % 2 ^ (lg - 1) = 0
        · rw [if_pos c]
          dsimp only
          rw [i4]
        · rw [if_neg c]
          exact i4)
    st out ⟨0, 0, 0⟩ N hflag hlg hP
    (by
      refine ⟨hlgdef.symm, ?_, ?_, rfl⟩
      · rw [Nat.add_zero, Nat.mod_eq_of_lt (by rw [hrw0, hlgdef]; exact hrw)]
        exact hrw0.symm
      · dsimp only
        rw [Nat.add_zero, Nat.div_eq_of_lt (Nat.mod_lt _ hH)])
  obtain ⟨st1, out1, w1, k1, k2, ⟨S, -, -, e2, e3, e4⟩, -⟩ := key
  rw [← hlgdef, ← hrw0]
  refine ⟨st1, out1, w1, k1, k2, e2, ?_, e3, e4⟩
  rw [e2]
  exact Nat.mod_lt _ (Nat.pow_pos (by norm_num))

/-- C29: for every convolver with at least one partition, the reset flag clear and
`m_rw_counter < fft_size`, `process` on `N` samples returns, the stored counter is then
`(m_rw_counter + N) mod fft_size`, hence below `fft_size`, and the number of FFT-due steps
executed in the call (each makes one forward and one inverse transform) is
`floor(((m_rw_counter mod fft_size/2) + N) / (fft_size/2))`. -/
theorem process_rw_counter {R : Type} [Field R] (K : FFTKernel R) (W rnd : Nat)
    (st : convolve_partitioned R) (inp : Nat → R) (ip : Nat) (out : Nat → R) (op N : Nat)
    (accumulate : Bool) (hP : 1 ≤ st.m_num_partitions) (hflag : st.m_reset_flag = false)
    (hlg : 1 ≤ st.m_fft_size_log2) (hrw : st.m_rw_counter < 2 ^ st.m_fft_size_log2) :
    ∃ st1 out1 w1,
      process_work K W rnd st inp ip out op N accumulate ⟨0, 0, 0⟩ = some (st1, out1, w1) ∧
      process K W rnd st inp ip out op N accumulate = some (st1, out1) ∧
      st1.m_rw_counter = (st.m_rw_counter + N) % 2 ^ st.m_fft_size_log2 ∧
      st1.m_rw_counter < 2 ^ st.m_fft_size_log2 ∧
      w1.rffts = (st.m_rw_counter % 2 ^ (st.m_fft_size_log2 - 1) + N)
        / 2 ^ (st.m_fft_size_log2 - 1) ∧
      w1.riffts = w1.rffts :=
  process_rw_counter_aux K W rnd st inp ip out op N accumulate hP hflag hlg hrw

theorem process_rw_counter_witness :
    1 ≤ steady_state.m_num_partitions ∧ steady_state.m_reset_flag = false ∧
    1 ≤ steady_state.m_fft_size_log2 ∧
    steady_state.m_rw_counter < 2 ^ steady_state.m_fft_size_log2 ∧
    ∃ st1 out1 w1,
      process_work unzip_kernel 4 0 steady_state (fun _ => 1) 0 (fun _ => 0) 0 40 false
        ⟨0, 0, 0⟩ = some (st1, out1, w1) ∧
      process unzip_kernel 4 0 steady_state (fun _ => 1) 0 (fun _ => 0) 0 40 false
        = some (st1, out1) ∧
      st1.m_rw_counter = (steady_state.m_rw_counter + 40) % 2 ^ steady_state.m_fft_size_log2 ∧
      st1.m_rw_counter < 2 ^ steady_state.m_fft_size_log2 ∧
      w1.rffts = (steady_state.m_rw_counter % 2 ^ (steady_state.m_fft_size_log2 - 1) + 40)
        / 2 ^ (steady_state.m_fft_size_log2 - 1) ∧
      w1.riffts = w1.rffts :=
  ⟨by decide, rfl, by decide, by decide,
    process_rw_counter unzip_kernel 4 0 steady_state (fun _ => 1) 0 (fun _ => 0) 0 40 false
      (by decide) rfl (by decide) (by decide)⟩

theorem fft_due_eq {R : Type} (st : convolve_partitioned R) (rw rem : Nat)
    (hlg : 1 ≤ st.m_fft_size_log2) :
    fft_due st rw rem = decide ((rw + min rem
      (2 ^ (st.m_fft_size_log2 - 1) - rw % 2 ^ (st.m_fft_size_log2 - 1)))
        % 2 ^ (st.m_fft_size_log2 - 1) = 0) := by
  unfold fft_due
  simp only [get_fft_size, Nat.one_shiftLeft, halved_eq _ hlg, Nat.and_pow_two_sub_one_eq_mod]
  have hmin : ∀ a b : Nat, (if a < b then a else b) = min a b := by
    intro a b; split_ifs with h
    · exact (min_eq_left (le_of_lt h)).symm
    · exact (min_eq_right (by omega)).symm
  rw [hmin]

/-- The scheduled steps leave the input history and the impulse spectra as they are, for
every vector width. -/
theorem sched_iter_bufs_any {R : Type} [Zero R] [Add R] [Sub R] [Mul R] (W half : Nat) :
    ∀ (k : Nat) (st : convolve_partitioned R),
      ((sched_step W half)^[k] st).m_input_buffer = st.m_input_buffer ∧
      ((sched_step W half)^[k] st).m_impulse_buffer = st.m_impulse_buffer := by
  intro k
  induction k with
  | zero => intro st; exact ⟨rfl, rfl⟩
  | succ n ih =>
    intro st
    rw [Function.iterate_succ_apply]
    obtain ⟨a, b⟩ := ih (sched_step W half st)
    obtain ⟨c, d, -⟩ := sched_step_bufs_any W half st
    exact ⟨by rw [a, c], by rw [b, d]⟩

/-- Stepping a residue: the successor of `x mod P`, wrapped to 0 at `P`. -/
theorem succ_mod_wrap (x P : Nat) (hP : 1 ≤ P) :
    (if x % P + 1 < P then x % P + 1 else 0) = (x + 1) % P := by
  have h := Nat.mod_add_mod x P 1
  have hlt := Nat.mod_lt x (by omega : 0 < P)
  by_cases c : x % P + 1 < P
  · rw [if_pos c, ← h, Nat.mod_eq_of_lt c]
  · rw [if_neg c, ← h]
    have : x % P + 1 = P := by omega
    rw [this, Nat.mod_self]

/-- The cursor of the scheduled steps: after `k` steps from a state whose next slot is
`(pos + 1 + done) mod P`, the next slot is `(pos + 1 + done + k) mod P`, and the stored
cursor stays within `P`. -/
theorem sched_iter_cursor {R : Type} [Zero R] [Add R] [Sub R] [Mul R] (W half : Nat) :
    ∀ (k : Nat) (st : convolve_partitioned R), 1 ≤ st.m_num_partitions →
      st.m_last_partition ≤ st.m_num_partitions →
      (if st.m_last_partition < st.m_num_partitions then st.m_last_partition else 0)
        = (st.m_input_position + 1 + st.m_partitions_done) % st.m_num_partitions →
      (if ((sched_step W half)^[k] st).m_last_partition < st.m_num_partitions then
          ((sched_step W half)^[k] st).m_last_partition else 0)
        = (st.m_input_position + 1 + st.m_partitions_done + k) % st.m_num_partitions ∧
      ((sched_step W half)^[k] st).m_last_partition ≤ st.m_num_partitions := by
  intro k
  induction k with
  | zero =>
    intro st _ hl hc
    exact ⟨hc, hl⟩
  | succ n ih =>
    intro st hP hl hc
    rw [Function.iterate_succ_apply]
    have e1 : (sched_step W half st).m_num_partitions = st.m_num_partitions :=
      sched_step_num W half st
    have e2 : (sched_step W half st).m_partitions_done = st.m_partitions_done + 1 :=
      sched_step_done W half st
    have e3 := sched_step_last W half st
    have e4 : (sched_step W half st).m_input_position = st.m_input_position :=
      (sched_step_bufs_any W half st).2.2.2.2.1
    have hmod : (st.m_input_position + 1 + st.m_partitions_done) % st.m_num_partitions
        < st.m_num_partitions := Nat.mod_lt _ (by omega)
    have hnext : (if st.m_last_partition < st.m_num_partitions then st.m_last_partition else 0)
        < st.m_num_partitions := by rw [hc]; exact hmod
    have hl' : (sched_step W half st).m_last_partition ≤ (sched_step W half st).m_num_partitions := by
      rw [e1, e3]
      omega
    have hc' : (if (sched_step W half st).m_last_partition
          < (sched_step W half st).m_num_partitions
        then (sched_step W half st).m_last_partition else 0)
        = ((sched_step W half st).m_input_position + 1
            + (sched_step W half st).m_partitions_done)
          % (sched_step W half st).m_num_partitions := by
      rw [e1, e2, e3, e4, hc]
      have e5 : st.m_input_position + 1 + (st.m_partitions_done + 1)
          = (st.m_input_position + 1 + st.m_partitions_done) + 1 := by omega
      rw [e5]
      generalize st.m_input_position + 1 + st.m_partitions_done = x at hmod ⊢
      exact succ_mod_wrap x _ hP
    obtain ⟨r1, r2⟩ := ih (sched_step W half st) (by rw [e1]; exact hP) hl' hc'
    rw [e1, e2, e4] at r1
    rw [e1] at r2
    refine ⟨?_, r2⟩
    rw [r1]
    congr 1
    omega

/-- The number of scheduled partitions of a sub-block that starts at the quota: it is not
negative, and the scheduled partitions never exceed `valid - 1`. -/
theorem todo_count (valid done rw L H c k : Nat) (hv : 1 ≤ valid) (hH : 0 < H)
    (hd : done = quota valid (rw % H) H) (hL1 : 1 ≤ L) (hL : rw % H + L ≤ H)
    (hc : c = (rw + L) % H) (hk : k = (sched_todo valid done c H).toNat) :
    0 ≤ sched_todo valid done c H ∧ done + k ≤ valid - 1 ∧
    (c ≠ 0 → done + k = quota valid c H) ∧ (c = 0 → done + k = valid - 1) ∧
    (valid = 1 → k = 0) ∧ done ≤ valid - 1 := by
  have hmod := Nat.mod_lt rw hH
  have hdlt : done < valid := by rw [hd]; exact quota_lt valid H _ hv (by omega)
  by_cases c0 : c = 0
  · have e : sched_todo valid done c H = ((valid : Int) - (done : Int)) - 1 := by
      unfold sched_todo
      rw [if_pos c0]
    rw [e] at hk ⊢
    refine ⟨by omega, by omega, fun h => absurd c0 h, fun _ => by omega, fun _ => by omega,
      by omega⟩
  · have hlt : rw % H + L < H := by
      rcases Nat.lt_or_ge (rw % H + L) H with h | h
      · exact h
      · exact absurd (by rw [hc]; exact add_mod_hop_full rw L H (by omega)) c0
    have hce : c = rw % H + L := by rw [hc]; exact add_mod_hop rw L H hlt
    have hq1 : quota valid (rw % H) H ≤ quota valid c H := quota_mono' valid H _ _ (by omega)
    have hq2 : quota valid c H < valid := quota_lt valid H c hv (by omega)
    have e : sched_todo valid done c H
        = ((quota valid c H : Nat) : Int) - (done : Int) := by
      unfold sched_todo quota
      rw [if_neg c0]
    rw [e] at hk ⊢
    have h1 : valid = 1 → quota valid c H = 0 := by
      intro h
      unfold quota
      rw [h, Nat.sub_self, Nat.zero_mul, Nat.zero_div]
    refine ⟨by omega, by omega, fun _ => by omega, fun h => absurd h c0, ?_, by omega⟩
    intro h
    have := h1 h
    omega

/-- A slot other than the one that is written keeps its contents. -/
theorem slot_other {R : Type} [Zero R] (buf src : Split R) (p q H : Nat) (hpq : q ≠ p) :
    first_bins (offset_split_pointer (store_bins buf (p * H) H src) (q * H)) H
      = first_bins (offset_split_pointer buf (q * H)) H := by
  apply first_bins_congr
  intro k hk
  unfold offset_split_pointer store_bins copy_n
  dsimp only
  have hn := block_disjoint q p H k hk hpq
  rw [if_neg hn, if_neg hn]
  exact ⟨rfl, rfl⟩

/-- The slot `d` places ahead of `pos` differs from `pos`. -/
theorem add_mod_ne (pos d P : Nat) (hpos : pos < P) (hd1 : 1 ≤ d) (hd2 : d < P) :
    (pos + d) % P ≠ pos := by
  rcases Nat.lt_or_ge (pos + d) P with h | h
  · rw [Nat.mod_eq_of_lt h]
    omega
  · rw [Nat.mod_eq_sub_mod h, Nat.mod_eq_of_lt (by omega)]
    omega

/-- Stepping the input position back by one and `j` slots ahead is `j - 1` slots ahead. -/
theorem back_ahead (pos j P : Nat) (hP : 1 ≤ P) (hpos : pos < P) (hj : 1 ≤ j) :
    ((if pos ≠ 0 then pos - 1 else P - 1) + j) % P = (pos + (j - 1)) % P := by
  by_cases c : pos ≠ 0
  · rw [if_pos c]
    congr 1
    omega
  · rw [if_neg c]
    have : pos = 0 := by omega
    subst this
    have e : P - 1 + j = (0 + (j - 1)) + P := by omega
    rw [e, Nat.add_mod_right]

/-- The state after the scheduled partitions of a sub-block that starts in a state reached
after a reset. -/
theorem trace_sched {R : Type} [Field R] (W : Nat) (st : convolve_partitioned R) (rw : Nat)
    (h : List (Split R)) (b0 b1 : Nat → R) (k : Nat) (inv : TraceInv st rw h)
    (hk : st.m_partitions_done + k ≤ st.m_valid_partitions - 1) :
    ((sched_step W (2 ^ (st.m_fft_size_log2 - 1)))^[k] (with_io st b0 b1)).m_fft_size_log2
      = st.m_fft_size_log2 ∧
    ((sched_step W (2 ^ (st.m_fft_size_log2 - 1)))^[k] (with_io st b0 b1)).m_num_partitions
      = st.m_num_partitions ∧
    ((sched_step W (2 ^ (st.m_fft_size_log2 - 1)))^[k] (with_io st b0 b1)).m_reset_flag
      = false ∧
    ((sched_step W (2 ^ (st.m_fft_size_log2 - 1)))^[k] (with_io st b0 b1)).m_valid_partitions
      = st.m_valid_partitions ∧
    ((sched_step W (2 ^ (st.m_fft_size_log2 - 1)))^[k] (with_io st b0 b1)).m_partitions_done
      = st.m_partitions_done + k ∧
    ((sched_step W (2 ^ (st.m_fft_size_log2 - 1)))^[k] (with_io st b0 b1)).m_input_position
      = st.m_input_position ∧
    ((sched_step W (2 ^ (st.m_fft_size_log2 - 1)))^[k] (with_io st b0 b1)).m_input_buffer
      = st.m_input_buffer ∧
    ((sched_step W (2 ^ (st.m_fft_size_log2 - 1)))^[k] (with_io st b0 b1)).m_last_partition
      ≤ st.m_num_partitions ∧
    (st.m_valid_partitions = 1 ∨
      (if ((sched_step W (2 ^ (st.m_fft_size_log2 - 1)))^[k]
            (with_io st b0 b1)).m_last_partition < st.m_num_partitions then
          ((sched_step W (2 ^ (st.m_fft_size_log2 - 1)))^[k] (with_io st b0 b1)).m_last_partition
        else 0)
        = (st.m_input_position + 1 + (st.m_partitions_done + k)) % st.m_num_partitions) := by
  obtain ⟨f1, f2, -, -, -, -, f7, -, -, f10⟩ :=
    sched_iter_fields W (2 ^ (st.m_fft_size_log2 - 1)) k (with_io st b0 b1)
  have g1 := sched_iter_num W (2 ^ (st.m_fft_size_log2 - 1)) k (with_io st b0 b1)
  have g2 := sched_iter_done W (2 ^ (st.m_fft_size_log2 - 1)) k (with_io st b0 b1)
  have g3 := (sched_iter_bufs_any W (2 ^ (st.m_fft_size_log2 - 1)) k (with_io st b0 b1)).1
  have hfl : (with_io st b0 b1).m_reset_flag = false := inv.flag
  refine ⟨f1, g1, by rw [f10]; exact hfl, f2, g2, f7, g3, ?_, ?_⟩
  · rcases inv.cursor with hv | hc
    · have hk0 : k = 0 := by omega
      subst hk0
      exact inv.last_le
    · exact (sched_iter_cursor W (2 ^ (st.m_fft_size_log2 - 1)) k (with_io st b0 b1)
        inv.num_pos inv.last_le hc).2
  · rcases inv.cursor with hv | hc
    · left; exact hv
    · right
      have := (sched_iter_cursor W (2 ^ (st.m_fft_size_log2 - 1)) k (with_io st b0 b1)
        inv.num_pos inv.last_le hc).1
      rw [Nat.add_assoc] at this
      exact this

/-- One sub-block of the main loop carries the invariant of the reached states forward. -/
theorem trace_step {R : Type} [Field R] (K : FFTKernel R) (W : Nat) (inp : Nat → R)
    (accumulate : Bool) (st : convolve_partitioned R) (rw rem ip op : Nat) (out : Nat → R)
    (h : List (Split R)) (inv : TraceInv st rw h) (hrem : 0 < rem) :
    TraceInv (process_iter K W inp accumulate (st, rw, rem, ip, op, out)).1
      (process_iter K W inp accumulate (st, rw, rem, ip, op, out)).2.1
      (if fft_due st rw rem then
        slot_content (process_iter K W inp accumulate (st, rw, rem, ip, op, out)).1
          st.m_input_position :: h
      else h) := by
  have hlg := inv.lg_pos
  have hP := inv.num_pos
  rw [process_iter_eq_alt K W inp accumulate _ hlg hP, fft_due_eq st rw rem hlg]
  obtain ⟨H, hH⟩ : ∃ H, H = 2 ^ (st.m_fft_size_log2 - 1) := ⟨_, rfl⟩
  obtain ⟨L, hL⟩ : ∃ L, L = min rem (H - rw % H) := ⟨_, rfl⟩
  obtain ⟨c, hc⟩ : ∃ c, c = (rw + L) % H := ⟨_, rfl⟩
  obtain ⟨k, hk⟩ : ∃ k,
      k = (sched_todo st.m_valid_partitions st.m_partitions_done c H).toNat := ⟨_, rfl⟩
  obtain ⟨b0, hb0⟩ : ∃ b0, b0 = copy_n inp ip L st.m_fft_buffers_0 rw := ⟨_, rfl⟩
  obtain ⟨b1, hb1⟩ : ∃ b1, b1 = copy_n inp ip L st.m_fft_buffers_1
      ((rw + H) % 2 ^ st.m_fft_size_log2) := ⟨_, rfl⟩
  obtain ⟨S, hS⟩ : ∃ S, S = (sched_step W H)^[k] (with_io st b0 b1) := ⟨_, rfl⟩
  have halt := process_iter_alt_eq K W inp accumulate st rw rem ip op out H L
    ((rw + H) % 2 ^ st.m_fft_size_log2) c S b0 b1 _ (rem - L) (ip + L) (op + L) (rw + L)
    hH hL rfl hb0 hb1 rfl hc (by rw [hS, hk]) rfl rfl rfl rfl
  rw [halt]
  rw [← hH, ← hL, ← hc]
  have hHpos : 0 < H := by rw [hH]; exact Nat.pow_pos (by norm_num)
  have hF : 2 ^ st.m_fft_size_log2 = 2 * H := by rw [hH]; exact two_pow_eq_double _ hlg
  have hmod := Nat.mod_lt rw hHpos
  have hL1 : 1 ≤ L := by rw [hL]; exact le_min hrem (by omega)
  have hL2 : rw % H + L ≤ H := by
    have : L ≤ H - rw % H := by rw [hL]; exact min_le_right _ _
    omega
  obtain ⟨t1, t2, t3, t4, t5, t6⟩ := todo_count st.m_valid_partitions st.m_partitions_done rw L H
    c k inv.valid_pos hHpos (by rw [hH]; exact inv.done_eq) hL1 hL2 hc hk
  obtain ⟨s1, s2, s3, s4, s5, s6, s7, s8, s9⟩ := trace_sched W st rw h b0 b1 k inv t2
  rw [← hH, ← hS] at s1 s2 s3 s4 s5 s6 s7 s8 s9
  have hrwlt := inv.rw_lt
  by_cases c0 : c = 0
  · -- the sub-block ends on a hop boundary
    simp only [c0, if_true, decide_True]
    obtain ⟨a1, a2, -, -, -, -, -, a8, a9, a10, a11⟩ := fft_step_any K W S (rw + L)
      (by rw [s1]; exact hlg)
    obtain ⟨g1, g2, g3, -⟩ := fft_step_fields K W S (rw + L)
    rw [s1] at a1 a2
    rw [s2, s4] at a8
    rw [s6, s2] at a9 a10
    rw [s6, s7, ← hH] at a2
    have hpos' : (if st.m_input_position ≠ 0 then st.m_input_position - 1
        else st.m_num_partitions - 1) < st.m_num_partitions := by
      have := inv.pos_lt
      split_ifs <;> omega
    have hT_lg : (fft_step K W S (rw + L)).1.m_fft_size_log2 = st.m_fft_size_log2 := by
      rw [g1, s1]
    refine
      { flag := by rw [g3, s3]
        lg_pos := by rw [hT_lg]; exact hlg
        num_pos := by rw [g2, s2]; exact hP
        valid_pos := by rw [a8]; have := inv.valid_pos; omega
        valid_le := by rw [a8, g2, s2]; exact min_le_left _ _
        valid_eq := ?_
        rw_lt := by rw [a1, hT_lg]; exact Nat.mod_lt _ (Nat.pow_pos (by norm_num))
        done_eq := ?_
        pos_lt := by rw [a9, g2, s2]; exact hpos'
        last_le := by rw [a10, g2, s2]; omega
        cursor := ?_
        hist := ?_ }
    · rw [a8, g2, s2, List.length_cons]
      have := inv.valid_eq
      have := inv.valid_le
      omega
    · rw [a11, a1, hT_lg, ← hH, hF, Nat.mod_mod_of_dvd _ (Dvd.intro_left 2 rfl), ← hc, c0]
      exact (quota_zero _ _).symm
    · right
      rw [a10, a9, a11, g2, s2, Nat.add_zero]
      have := succ_mod_wrap (if st.m_input_position ≠ 0 then st.m_input_position - 1
        else st.m_num_partitions - 1) st.m_num_partitions hP
      rw [Nat.mod_eq_of_lt hpos'] at this
      exact this
    · intro j hj1 hj2
      rw [a8] at hj2
      rw [a9, g2, s2, back_ahead _ _ _ hP inv.pos_lt hj1]
      have hsc : ∀ q, slot_content (fft_step K W S (rw + L)).1 q
          = first_bins (offset_split_pointer (fft_step K W S (rw + L)).1.m_input_buffer (q * H))
              H := by
        intro q
        unfold slot_content
        rw [hT_lg, ← hH]
      rcases Nat.eq_or_lt_of_le hj1 with hj | hj
      · subst hj
        rw [Nat.sub_self, Nat.add_zero, Nat.mod_eq_of_lt inv.pos_lt]
        rfl
      · obtain ⟨i, rfl⟩ : ∃ i, j = i + 2 := ⟨j - 2, by omega⟩
        have e1 : i + 2 - 1 = i + 1 := by omega
        rw [e1, List.get?_cons_succ]
        have hv := inv.valid_le
        have hold := inv.hist (i + 1) (by omega) (by omega)
        rw [Nat.add_sub_cancel] at hold
        rw [hold]
        congr 1
        rw [hsc, a2]
        have hne := add_mod_ne st.m_input_position (i + 1) st.m_num_partitions inv.pos_lt
          (by omega) (by omega)
        rw [slot_other _ _ _ _ _ hne]
        unfold slot_content
        rw [← hH]
  · -- the sub-block stays inside the hop
    simp only [c0, if_false, decide_False, Bool.false_eq_true]
    have hlt : rw % H + L < H := by
      rcases Nat.lt_or_ge (rw % H + L) H with g | g
      · exact g
      · exact absurd (by rw [hc]; exact add_mod_hop_full rw L H (by omega)) c0
    have hce : c = rw % H + L := by rw [hc]; exact add_mod_hop rw L H hlt
    have hrw' : rw + L < 2 ^ st.m_fft_size_log2 := by
      rw [hF] at hrwlt ⊢
      have hd := Nat.div_add_mod rw H
      have hq : rw / H < 2 := by
        rw [Nat.div_lt_iff_lt_mul hHpos]
        omega
      generalize rw / H = q at hd hq
      interval_cases q <;> omega
    refine
      { flag := s3
        lg_pos := by rw [s1]; exact hlg
        num_pos := by rw [s2]; exact hP
        valid_pos := by rw [s4]; exact inv.valid_pos
        valid_le := by rw [s4, s2]; exact inv.valid_le
        valid_eq := by rw [s4, s2]; exact inv.valid_eq
        rw_lt := by rw [s1]; exact hrw'
        done_eq := by rw [s5, s4, s1, ← hH, ← hc]; exact t3 c0
        pos_lt := by rw [s6, s2]; exact inv.pos_lt
        last_le := by rw [s2]; exact s8
        cursor := ?_
        hist := ?_ }
    · rcases s9 with g | g
      · left; rw [s4]; exact g
      · right
        rw [s2, s6, s5]
        exact g
    · intro j hj1 hj2
      rw [s4] at hj2
      rw [inv.hist j hj1 hj2, s6, s2]
      congr 1
      unfold slot_content
      rw [s1, s7]

/-- Every loop state reached after a reset satisfies the invariant. -/
theorem traced_inv {R : Type} [Field R] (K : FFTKernel R) (W rnd : Nat)
    (st : convolve_partitioned R) (rw : Nat) (h : List (Split R))
    (ht : Traced K W rnd st rw h) : TraceInv st rw h := by
  induction ht with
  | reset st hflag hP hlg hrnd =>
    obtain ⟨a, b, c, d, e, f⟩ := reset_scheduled rnd st hlg hP hrnd
    exact
      { flag := a
        lg_pos := b
        num_pos := hP
        valid_pos := c
        valid_le := d
        valid_eq := by
          show 1 = min st.m_num_partitions (0 + 1)
          omega
        rw_lt := e
        done_eq := f
        pos_lt := hP
        last_le := Nat.zero_le _
        cursor := Or.inl rfl
        hist := by
          intro j hj1 hj2
          have : j < 1 := hj2
          omega }
  | store st rw h _ ih =>
    exact
      { flag := ih.flag
        lg_pos := ih.lg_pos
        num_pos := ih.num_pos
        valid_pos := ih.valid_pos
        valid_le := ih.valid_le
        valid_eq := ih.valid_eq
        rw_lt := ih.rw_lt
        done_eq := ih.done_eq
        pos_lt := ih.pos_lt
        last_le := ih.last_le
        cursor := ih.cursor
        hist := ih.hist }
  | step st rw h inp accumulate rem ip op out _ hrem ih =>
    exact trace_step K W inp accumulate st rw rem ip op out h ih hrem

/-- A `process` call on a convolver that holds a reached loop state with its counter
written back returns, and leaves a convolver of the same kind. -/
theorem process_traced {R : Type} [Field R] (K : FFTKernel R) (W rnd : Nat) (inp : Nat → R)
    (accumulate : Bool) (ip op N : Nat) (out : Nat → R) (st : convolve_partitioned R)
    (h : List (Split R)) (ht : Traced K W rnd st st.m_rw_counter h) :
    ∃ st1 out1 h1, process K W rnd st inp ip out op N accumulate = some (st1, out1) ∧
      Traced K W rnd st1 st1.m_rw_counter h1 := by
  have inv := traced_inv K W rnd st _ h ht
  have key := process_induct K W rnd inp accumulate ip op
    (fun _ S rw _ _ => ∃ h1, Traced K W rnd S rw h1)
    (by
      intro m S rw rem o w hinv hrem hSlg hSP
      obtain ⟨h1, t1⟩ := hinv
      have := Traced.step S rw h1 inp accumulate rem (ip + m) (op + m) o t1 hrem
      rw [process_iter_eq_alt K W inp accumulate _ hSlg hSP] at this
      exact ⟨_, this⟩)
    st out ⟨0, 0, 0⟩ N inv.flag inv.lg_pos inv.num_pos ⟨h, ht⟩
  obtain ⟨st1, out1, w1, -, k2, ⟨S, e1, h1, t1⟩, -⟩ := key
  refine ⟨st1, out1, h1, k2, ?_⟩
  rw [e1]
  exact Traced.store S _ h1 t1

/-- The quantities of one sub-block that starts in a reached state. -/
theorem trace_sub_block {R : Type} [Field R] (K : FFTKernel R) (W rnd : Nat)
    (st : convolve_partitioned R) (rw : Nat) (h : List (Split R)) (inp : Nat → R)
    (accumulate : Bool) (rem ip op : Nat) (out : Nat → R)
    (ht : Traced K W rnd st rw h) (hrem : 0 < rem)
    (H L c k : Nat) (S : convolve_partitioned R)
    (hH : H = 2 ^ (st.m_fft_size_log2 - 1)) (hL : L = min rem (H - rw % H))
    (hc : c = (rw + L) % H)
    (hk : k = (sched_todo st.m_valid_partitions st.m_partitions_done c H).toNat)
    (hS : S = (sched_step W H)^[k]
      (with_io st (copy_n inp ip L st.m_fft_buffers_0 rw)
        (copy_n inp ip L st.m_fft_buffers_1 ((rw + H) % 2 ^ st.m_fft_size_log2)))) :
    process_iter K W inp accumulate (st, rw, rem, ip, op, out)
      = process_iter_alt K W inp accumulate (st, rw, rem, ip, op, out) ∧
    fft_due st rw rem = decide (c = 0) ∧
    (process_iter K W inp accumulate (st, rw, rem, ip, op, out)).1
      = (if c = 0 then fft_step K W S (rw + L) else (S, rw + L)).1 ∧
    partition_while W H k (sched_todo st.m_valid_partitions st.m_partitions_done c H)
        (with_io st (copy_n inp ip L st.m_fft_buffers_0 rw)
          (copy_n inp ip L st.m_fft_buffers_1 ((rw + H) % 2 ^ st.m_fft_size_log2))) = S ∧
    0 ≤ sched_todo st.m_valid_partitions st.m_partitions_done c H ∧
    st.m_partitions_done + k ≤ st.m_valid_partitions - 1 ∧
    (c ≠ 0 → st.m_partitions_done + k = quota st.m_valid_partitions c H) ∧
    (c = 0 → st.m_partitions_done + k = st.m_valid_partitions - 1) := by
  have inv := traced_inv K W rnd st rw h ht
  have hlg := inv.lg_pos
  have hP := inv.num_pos
  have halt := process_iter_alt_eq K W inp accumulate st rw rem ip op out H L
    ((rw + H) % 2 ^ st.m_fft_size_log2) c S _ _ _ (rem - L) (ip + L) (op + L) (rw + L)
    hH hL rfl rfl rfl rfl hc (by rw [hS, hk]) rfl rfl rfl rfl
  have hHpos : 0 < H := by rw [hH]; exact Nat.pow_pos (by norm_num)
  have hmod := Nat.mod_lt rw hHpos
  have hL1 : 1 ≤ L := by rw [hL]; exact le_min hrem (by omega)
  have hL2 : rw % H + L ≤ H := by
    have : L ≤ H - rw % H := by rw [hL]; exact min_le_right _ _
    omega
  obtain ⟨t1, t2, t3, t4, -, -⟩ := todo_count st.m_valid_partitions st.m_partitions_done rw L H
    c k inv.valid_pos hHpos (by rw [hH]; exact inv.done_eq) hL1 hL2 hc hk
  refine ⟨process_iter_eq_alt K W inp accumulate _ hlg hP, ?_, ?_, ?_, t1, t2, t3, t4⟩
  · rw [fft_due_eq st rw rem hlg, ← hH, ← hL, ← hc]
  · rw [process_iter_eq_alt K W inp accumulate _ hlg hP, halt]
  · rw [hS]
    have := partition_while_eq_iterate W H k
      (sched_todo st.m_valid_partitions st.m_partitions_done c H)
      (with_io st (copy_n inp ip L st.m_fft_buffers_0 rw)
        (copy_n inp ip L st.m_fft_buffers_1 ((rw + H) % 2 ^ st.m_fft_size_log2)))
      hP (by rw [hk])
    rw [this, ← hk]

/-- C26: in every loop state of `process` reached after a reset with at least one partition
(the state the reset block leaves and the state at the end of every sub-block since),
`m_partitions_done` is `floor((valid_partitions - 1) * (rw mod fft_size/2) / (fft_size/2))`
and at most `valid_partitions - 1`; in the sub-block that follows the computed
`num_partitions_to_do` is not negative, so neither subtraction wraps, the scheduling loop
raises `m_partitions_done` by it to at most `valid_partitions - 1`, and when the sub-block
does not end on a hop boundary `m_partitions_done` is again the floor for the new `rw`. -/
theorem partitions_done_quota {R : Type} [Field R] (K : FFTKernel R) (W rnd : Nat)
    (st : convolve_partitioned R) (rw : Nat) (h : List (Split R)) (inp : Nat → R)
    (accumulate : Bool) (rem ip op : Nat) (out : Nat → R)
    (ht : Traced K W rnd st rw h) (hrem : 0 < rem) :
    1 ≤ st.m_num_partitions ∧
    st.m_partitions_done
      = (st.m_valid_partitions - 1) * (rw % 2 ^ (st.m_fft_size_log2 - 1))
          / 2 ^ (st.m_fft_size_log2 - 1) ∧
    st.m_partitions_done ≤ st.m_valid_partitions - 1 ∧ 1 ≤ st.m_valid_partitions ∧
    process_iter K W inp accumulate (st, rw, rem, ip, op, out)
      = process_iter_alt K W inp accumulate (st, rw, rem, ip, op, out) ∧
    0 ≤ sched_todo st.m_valid_partitions st.m_partitions_done
      ((rw + min rem (2 ^ (st.m_fft_size_log2 - 1) - rw % 2 ^ (st.m_fft_size_log2 - 1)))
        % 2 ^ (st.m_fft_size_log2 - 1)) (2 ^ (st.m_fft_size_log2 - 1)) ∧
    st.m_partitions_done + (sched_todo st.m_valid_partitions st.m_partitions_done
      ((rw + min rem (2 ^ (st.m_fft_size_log2 - 1) - rw % 2 ^ (st.m_fft_size_log2 - 1)))
        % 2 ^ (st.m_fft_size_log2 - 1)) (2 ^ (st.m_fft_size_log2 - 1))).toNat
      ≤ st.m_valid_partitions - 1 ∧
    (fft_due st rw rem = false →
      (process_iter K W inp accumulate (st, rw, rem, ip, op, out)).1.m_partitions_done
        = ((process_iter K W inp accumulate (st, rw, rem, ip, op, out)).1.m_valid_partitions - 1)
            * ((process_iter K W inp accumulate (st, rw, rem, ip, op, out)).2.1
                % 2 ^ (st.m_fft_size_log2 - 1))
            / 2 ^ (st.m_fft_size_log2 - 1)) := by
  have inv := traced_inv K W rnd st rw h ht
  have inv1 := traced_inv K W rnd _ _ _
    (Traced.step st rw h inp accumulate rem ip op out ht hrem)
  obtain ⟨e1, -, -, -, e5, e6, -, -⟩ := trace_sub_block K W rnd st rw h inp accumulate rem ip op
    out ht hrem _ _ _ _ _ rfl rfl rfl rfl rfl
  have hlg1 : (process_iter K W inp accumulate (st, rw, rem, ip, op, out)).1.m_fft_size_log2
      = st.m_fft_size_log2 := by
    rw [e1]
    exact (process_iter_alt_fields K W inp accumulate st rw rem ip op out).1
  have hd := inv.done_eq
  have hlt := quota_lt st.m_valid_partitions (2 ^ (st.m_fft_size_log2 - 1))
    (rw % 2 ^ (st.m_fft_size_log2 - 1)) inv.valid_pos
    (le_of_lt (Nat.mod_lt _ (Nat.pow_pos (by norm_num))))
  refine ⟨inv.num_pos, hd, ?_, inv.valid_pos, e1, e5, e6, ?_⟩
  · rw [hd]
    omega
  · intro _
    have := inv1.done_eq
    rw [hlg1] at this
    exact this

theorem partitions_done_quota_witness :
    Traced unzip_kernel 4 0 (process_reset 0 (stale_state 7 3)).1
      (process_reset 0 (stale_state 7 3)).2 [] ∧ 0 < 5 ∧
    (process_reset 0 (stale_state 7 3)).1.m_partitions_done
      ≤ (process_reset 0 (stale_state 7 3)).1.m_valid_partitions - 1 ∧
    0 ≤ sched_todo (process_reset 0 (stale_state 7 3)).1.m_valid_partitions
      (process_reset 0 (stale_state 7 3)).1.m_partitions_done
      (((process_reset 0 (stale_state 7 3)).2
        + min 5 (2 ^ ((process_reset 0 (stale_state 7 3)).1.m_fft_size_log2 - 1)
          - (process_reset 0 (stale_state 7 3)).2
            % 2 ^ ((process_reset 0 (stale_state 7 3)).1.m_fft_size_log2 - 1)))
        % 2 ^ ((process_reset 0 (stale_state 7 3)).1.m_fft_size_log2 - 1))
      (2 ^ ((process_reset 0 (stale_state 7 3)).1.m_fft_size_log2 - 1)) := by
  have ht : Traced unzip_kernel 4 0 (process_reset 0 (stale_state 7 3)).1
      (process_reset 0 (stale_state 7 3)).2 [] :=
    Traced.reset (stale_state 7 3) rfl (by decide) (by decide)
      (fun hneg => absurd hneg (by decide))
  have key := partitions_done_quota unzip_kernel 4 0 _ _ [] (fun _ => 1) false 5 0 0
    (fun _ => 0) ht (by decide)
  exact ⟨ht, by decide, key.2.2.1, key.2.2.2.2.2.1⟩

/-- Stepping back by one modulo `P`. -/
theorem back_mod (pos P : Nat) (hP : 1 ≤ P) (hpos : pos < P) :
    (if pos ≠ 0 then pos - 1 else P - 1) = (pos + (P - 1)) % P := by
  by_cases c : pos ≠ 0
  · rw [if_pos c]
    have e : pos + (P - 1) = (pos - 1) + P := by omega
    rw [e, Nat.add_mod_right, Nat.mod_eq_of_lt (by omega)]
  · rw [if_neg c]
    have : pos = 0 := by omega
    subst this
    rw [Nat.zero_add, Nat.mod_eq_of_lt (by omega)]

/-- The scheduled multiply-accumulates of one sub-block from a reached state, one by one:
before the `i`-th of them `i` partitions more are done, the impulse partition used is
`done + i + 1` and the input-history slot is `(pos + done + i + 1) mod P`. -/
theorem trace_macs {R : Type} [Field R] (W : Nat) (st : convolve_partitioned R) (rw : Nat)
    (h : List (Split R)) (b0 b1 : Nat → R) (k i : Nat) (inv : TraceInv st rw h)
    (hk : st.m_partitions_done + k ≤ st.m_valid_partitions - 1) (hi : i < k) :
    ((sched_step W (2 ^ (st.m_fft_size_log2 - 1)))^[i] (with_io st b0 b1)).m_partitions_done + 1
      = st.m_partitions_done + i + 1 ∧
    (if ((sched_step W (2 ^ (st.m_fft_size_log2 - 1)))^[i]
          (with_io st b0 b1)).m_last_partition
        < ((sched_step W (2 ^ (st.m_fft_size_log2 - 1)))^[i]
          (with_io st b0 b1)).m_num_partitions then
        ((sched_step W (2 ^ (st.m_fft_size_log2 - 1)))^[i] (with_io st b0 b1)).m_last_partition
      else 0)
      = (st.m_input_position + (st.m_partitions_done + i + 1)) % st.m_num_partitions ∧
    st.m_partitions_done + i + 1 ≤ st.m_valid_partitions - 1 ∧
    st.m_partitions_done + i + 1 < st.m_num_partitions ∧
    (sched_step W (2 ^ (st.m_fft_size_log2 - 1)))^[i + 1] (with_io st b0 b1)
      = { partition_mac W (2 ^ (st.m_fft_size_log2 - 1))
            ((st.m_partitions_done + i + 1) * 2 ^ (st.m_fft_size_log2 - 1))
            ((st.m_input_position + (st.m_partitions_done + i + 1)) % st.m_num_partitions
              * 2 ^ (st.m_fft_size_log2 - 1))
            ((sched_step W (2 ^ (st.m_fft_size_log2 - 1)))^[i] (with_io st b0 b1)) with
          m_last_partition :=
            (st.m_input_position + (st.m_partitions_done + i + 1)) % st.m_num_partitions + 1 } := by
  obtain ⟨-, s2, -, -, s5, -, -, -, s9⟩ := trace_sched W st rw h b0 b1 i inv (by omega)
  have hv := inv.valid_le
  have hv1 : st.m_valid_partitions ≠ 1 := by omega
  have hcur := s9.resolve_left hv1
  have e1 : st.m_input_position + 1 + (st.m_partitions_done + i)
      = st.m_input_position + (st.m_partitions_done + i + 1) := by omega
  rw [e1] at hcur
  rw [← s2] at hcur
  have hnext : (if ((sched_step W (2 ^ (st.m_fft_size_log2 - 1)))^[i]
          (with_io st b0 b1)).m_last_partition
        < ((sched_step W (2 ^ (st.m_fft_size_log2 - 1)))^[i]
          (with_io st b0 b1)).m_num_partitions then
        ((sched_step W (2 ^ (st.m_fft_size_log2 - 1)))^[i] (with_io st b0 b1)).m_last_partition
      else 0)
      = (st.m_input_position + (st.m_partitions_done + i + 1)) % st.m_num_partitions := by
    rw [hcur, s2]
  refine ⟨by rw [s5], hnext, by omega, by omega, ?_⟩
  rw [Function.iterate_succ_apply']
  generalize (sched_step W (2 ^ (st.m_fft_size_log2 - 1)))^[i] (with_io st b0 b1) = S
    at hnext s5 ⊢
  unfold sched_step
  dsimp only
  rw [hnext, s5]

/-- C27: every loop state of `process` reached after a reset with at least one partition
satisfies `1 ≤ valid_partitions ≤ num_partitions`, `input_position < num_partitions` and
`last_partition ≤ num_partitions`; a sub-block that ends on a hop boundary (an FFT-due step)
sets `valid_partitions` to `min(num_partitions, valid_partitions + 1)`, moves
`input_position` back by one modulo `num_partitions`, sets `last_partition` to the new
`input_position + 1` and `partitions_done` to 0; and every scheduled multiply-accumulate of
the sub-block uses an impulse partition `partitions_done + 1` and an input-history slot
below `num_partitions`. -/
theorem counters_in_range {R : Type} [Field R] (K : FFTKernel R) (W rnd : Nat)
    (st : convolve_partitioned R) (rw : Nat) (h : List (Split R)) (inp : Nat → R)
    (accumulate : Bool) (rem ip op : Nat) (out : Nat → R)
    (ht : Traced K W rnd st rw h) (hrem : 0 < rem)
    (H L c k : Nat) (hH : H = 2 ^ (st.m_fft_size_log2 - 1)) (hL : L = min rem (H - rw % H))
    (hc : c = (rw + L) % H)
    (hk : k = (sched_todo st.m_valid_partitions st.m_partitions_done c H).toNat) :
    (1 ≤ st.m_num_partitions ∧ 1 ≤ st.m_valid_partitions ∧
      st.m_valid_partitions ≤ st.m_num_partitions ∧
      st.m_input_position < st.m_num_partitions ∧
      st.m_last_partition ≤ st.m_num_partitions) ∧
    (fft_due st rw rem = true →
      (process_iter K W inp accumulate (st, rw, rem, ip, op, out)).1.m_valid_partitions
        = min st.m_num_partitions (st.m_valid_partitions + 1) ∧
      (process_iter K W inp accumulate (st, rw, rem, ip, op, out)).1.m_input_position
        = (st.m_input_position + (st.m_num_partitions - 1)) % st.m_num_partitions ∧
      (process_iter K W inp accumulate (st, rw, rem, ip, op, out)).1.m_last_partition
        = (process_iter K W inp accumulate (st, rw, rem, ip, op, out)).1.m_input_position + 1 ∧
      (process_iter K W inp accumulate (st, rw, rem, ip, op, out)).1.m_partitions_done = 0) ∧
    (partition_while W H k (sched_todo st.m_valid_partitions st.m_partitions_done c H)
        (with_io st (copy_n inp ip L st.m_fft_buffers_0 rw)
          (copy_n inp ip L st.m_fft_buffers_1 ((rw + H) % 2 ^ st.m_fft_size_log2)))
      = (sched_step W H)^[k]
        (with_io st (copy_n inp ip L st.m_fft_buffers_0 rw)
          (copy_n inp ip L st.m_fft_buffers_1 ((rw + H) % 2 ^ st.m_fft_size_log2))) ∧
      ∀ i, i < k →
        ((sched_step W H)^[i]
          (with_io st (copy_n inp ip L st.m_fft_buffers_0 rw)
            (copy_n inp ip L st.m_fft_buffers_1 ((rw + H) % 2 ^ st.m_fft_size_log2)))
          ).m_partitions_done + 1 < st.m_num_partitions ∧
        (if ((sched_step W H)^[i]
              (with_io st (copy_n inp ip L st.m_fft_buffers_0 rw)
                (copy_n inp ip L st.m_fft_buffers_1 ((rw + H) % 2 ^ st.m_fft_size_log2)))
              ).m_last_partition
            < ((sched_step W H)^[i]
              (with_io st (copy_n inp ip L st.m_fft_buffers_0 rw)
                (copy_n inp ip L st.m_fft_buffers_1 ((rw + H) % 2 ^ st.m_fft_size_log2)))
              ).m_num_partitions then
            ((sched_step W H)^[i]
              (with_io st (copy_n inp ip L st.m_fft_buffers_0 rw)
                (copy_n inp ip L st.m_fft_buffers_1 ((rw + H) % 2 ^ st.m_fft_size_log2)))
              ).m_last_partition
          else 0) < st.m_num_partitions) := by
  have inv := traced_inv K W rnd st rw h ht
  obtain ⟨e1, e2, e3, e4, -, e6, -, -⟩ := trace_sub_block K W rnd st rw h inp accumulate rem ip
    op out ht hrem H L c k _ hH hL hc hk rfl
  refine ⟨⟨inv.num_pos, inv.valid_pos, inv.valid_le, inv.pos_lt, inv.last_le⟩, ?_, e4, ?_⟩
  · intro hdue
    rw [e2, decide_eq_true_eq] at hdue
    rw [e3, if_pos hdue]
    obtain ⟨s1, s2, -, s4, -, s6, -, -, -⟩ := trace_sched W st rw h
      (copy_n inp ip L st.m_fft_buffers_0 rw)
      (copy_n inp ip L st.m_fft_buffers_1 ((rw + H) % 2 ^ st.m_fft_size_log2)) k inv e6
    rw [← hH] at s1 s2 s4 s6
    obtain ⟨-, -, -, -, -, -, -, a8, a9, a10, a11⟩ := fft_step_any K W
      ((sched_step W H)^[k]
        (with_io st (copy_n inp ip L st.m_fft_buffers_0 rw)
          (copy_n inp ip L st.m_fft_buffers_1 ((rw + H) % 2 ^ st.m_fft_size_log2))))
      (rw + L) (by rw [s1]; exact inv.lg_pos)
    rw [s2, s4] at a8
    rw [s6, s2] at a9 a10
    refine ⟨a8, ?_, ?_, a11⟩
    · rw [a9]
      exact back_mod _ _ inv.num_pos inv.pos_lt
    · rw [a10, a9]
  · intro i hi
    obtain ⟨m1, m2, -, m4, -⟩ := trace_macs W st rw h
      (copy_n inp ip L st.m_fft_buffers_0 rw)
      (copy_n inp ip L st.m_fft_buffers_1 ((rw + H) % 2 ^ st.m_fft_size_log2)) k i inv e6 hi
    rw [← hH] at m1 m2
    refine ⟨by rw [m1]; exact m4, ?_⟩
    rw [m2]
    exact Nat.mod_lt _ inv.num_pos

theorem counters_in_range_witness :
    Traced unzip_kernel 4 0 (process_reset 0 (stale_state 7 3)).1
      (process_reset 0 (stale_state 7 3)).2 [] ∧ 0 < 20 ∧
    fft_due (process_reset 0 (stale_state 7 3)).1 (process_reset 0 (stale_state 7 3)).2 20
      = true ∧
    (process_reset 0 (stale_state 7 3)).1.m_input_position
      < (process_reset 0 (stale_state 7 3)).1.m_num_partitions ∧
    (process_iter unzip_kernel 4 (fun _ => 1) false
        ((process_reset 0 (stale_state 7 3)).1, (process_reset 0 (stale_state 7 3)).2, 20, 0, 0,
          fun _ => 0)).1.m_valid_partitions
      = min (process_reset 0 (stale_state 7 3)).1.m_num_partitions
          ((process_reset 0 (stale_state 7 3)).1.m_valid_partitions + 1) ∧
    (process_iter unzip_kernel 4 (fun _ => 1) false
        ((process_reset 0 (stale_state 7 3)).1, (process_reset 0 (stale_state 7 3)).2, 20, 0, 0,
          fun _ => 0)).1.m_partitions_done = 0 := by
  have ht : Traced unzip_kernel 4 0 (process_reset 0 (stale_state 7 3)).1
      (process_reset 0 (stale_state 7 3)).2 [] :=
    Traced.reset (stale_state 7 3) rfl (by decide) (by decide)
      (fun hneg => absurd hneg (by decide))
  have hdue : fft_due (process_reset 0 (stale_state 7 3)).1
      (process_reset 0 (stale_state 7 3)).2 20 = true := by decide
  have key := counters_in_range unzip_kernel 4 0 _ _ [] (fun _ => 1) false 20 0 0
    (fun _ => 0) ht (by decide) _ _ _ _ rfl rfl rfl rfl
  exact ⟨ht, by decide, hdue, key.1.2.2.2.1, (key.2.1 hdue).1, (key.2.1 hdue).2.2.2⟩

/-- A split pointer advanced by no bins is the pointer itself. -/
theorem offset_split_pointer_none {R : Type} (s : Split R) (H : Nat) :
    offset_split_pointer s (0 * H) = s := by
  unfold offset_split_pointer
  simp only [Nat.zero_mul, Nat.zero_add]

/-- The slot that a transform block writes holds the spectrum of the input ring. -/
theorem fft_step_slot {R : Type} [Field R] (K : FFTKernel R) (W : Nat)
    (S : convolve_partitioned R) (x : Nat) (hlg : 1 ≤ S.m_fft_size_log2) :
    slot_content (fft_step K W S x).1 S.m_input_position
      = first_bins (K.rfft S.m_fft_size_log2
          (first_n (if x = 2 ^ S.m_fft_size_log2 then S.m_fft_buffers_1 else S.m_fft_buffers_0)
            (2 ^ S.m_fft_size_log2))) (2 ^ (S.m_fft_size_log2 - 1)) ∧
    (fft_step K W S x).1.m_fft_buffers_2
      = copy_n (K.rifft S.m_fft_size_log2
          (first_bins
            (process_partition W
              (offset_split_pointer (fft_step K W S x).1.m_input_buffer
                (S.m_input_position * 2 ^ (S.m_fft_size_log2 - 1)))
              (offset_split_pointer S.m_impulse_buffer (0 * 2 ^ (S.m_fft_size_log2 - 1)))
              S.m_accum_buffer (2 ^ (S.m_fft_size_log2 - 1))).2.2
            (2 ^ (S.m_fft_size_log2 - 1)))) 0 (2 ^ S.m_fft_size_log2) S.m_fft_buffers_2 0 := by
  obtain ⟨-, a2, -⟩ := fft_step_any K W S x hlg
  constructor
  · unfold slot_content
    rw [a2, (fft_step_fields K W S x).1]
    exact first_bins_congr _ _ _ (bins_eq_store_bins _ _ _ _)
  · rw [a2, offset_split_pointer_none]
    unfold fft_step
    simp only [get_fft_size, Nat.one_shiftLeft, halved_eq _ hlg]

/-- C28: in every sub-block of `process` that starts in a state reached after a reset, the
scheduled multiply-accumulate that runs when `partitions_done = j - 1` (the `j`-th of the
hop, `partitions_done` being 0 at the start of a hop and raised by one by each
multiply-accumulate) has `1 ≤ j ≤ valid_partitions - 1`, multiplies impulse partition `j`
with the input-history slot `(input_position + j) mod num_partitions` and adds the products
to the accumulator, and that slot holds the spectrum written by the `j`-th most recent
FFT-due step since the reset (entry `j - 1` of the history of written spectra); when the
sub-block ends on a hop boundary all `valid_partitions - 1` scheduled multiply-accumulates
of the hop are done, the slot at the old `input_position` then holds the spectrum of the
input ring and the multiply-accumulate that follows multiplies impulse partition 0 with that
slot, its result going through the inverse transform. -/
theorem scheduled_mac_pairing {R : Type} [Field R] (K : FFTKernel R) (W rnd : Nat)
    (st : convolve_partitioned R) (rw : Nat) (h : List (Split R)) (inp : Nat → R)
    (accumulate : Bool) (rem ip op : Nat) (out : Nat → R)
    (ht : Traced K W rnd st rw h) (hrem : 0 < rem)
    (H L c k : Nat) (b0 b1 : Nat → R) (hH : H = 2 ^ (st.m_fft_size_log2 - 1))
    (hL : L = min rem (H - rw % H)) (hc : c = (rw + L) % H)
    (hk : k = (sched_todo st.m_valid_partitions st.m_partitions_done c H).toNat)
    (hb0 : b0 = copy_n inp ip L st.m_fft_buffers_0 rw)
    (hb1 : b1 = copy_n inp ip L st.m_fft_buffers_1 ((rw + H) % 2 ^ st.m_fft_size_log2)) :
    partition_while W H k (sched_todo st.m_valid_partitions st.m_partitions_done c H)
        (with_io st b0 b1) = (sched_step W H)^[k] (with_io st b0 b1) ∧
    (∀ i, i < k →
      ((sched_step W H)^[i] (with_io st b0 b1)).m_partitions_done + 1
        = st.m_partitions_done + i + 1 ∧
      1 ≤ st.m_partitions_done + i + 1 ∧
      st.m_partitions_done + i + 1 ≤ st.m_valid_partitions - 1 ∧
      ((sched_step W H)^[i + 1] (with_io st b0 b1)).m_accum_buffer
        = (process_partition W
            (offset_split_pointer ((sched_step W H)^[i] (with_io st b0 b1)).m_input_buffer
              ((st.m_input_position + (st.m_partitions_done + i + 1)) % st.m_num_partitions * H))
            (offset_split_pointer ((sched_step W H)^[i] (with_io st b0 b1)).m_impulse_buffer
              ((st.m_partitions_done + i + 1) * H))
            ((sched_step W H)^[i] (with_io st b0 b1)).m_accum_buffer H).2.2 ∧
      h.get? (st.m_partitions_done + i + 1 - 1)
        = some (first_bins
            (offset_split_pointer ((sched_step W H)^[i] (with_io st b0 b1)).m_input_buffer
              ((st.m_input_position + (st.m_partitions_done + i + 1)) % st.m_num_partitions * H))
            H)) ∧
    (fft_due st rw rem = true →
      st.m_partitions_done + k = st.m_valid_partitions - 1 ∧
      slot_content (process_iter K W inp accumulate (st, rw, rem, ip, op, out)).1
          st.m_input_position
        = first_bins (K.rfft st.m_fft_size_log2
            (first_n (if rw + L = 2 ^ st.m_fft_size_log2 then b1 else b0)
              (2 ^ st.m_fft_size_log2))) H ∧
      (process_iter K W inp accumulate (st, rw, rem, ip, op, out)).1.m_fft_buffers_2
        = copy_n (K.rifft st.m_fft_size_log2
            (first_bins
              (process_partition W
                (offset_split_pointer
                  (process_iter K W inp accumulate (st, rw, rem, ip, op, out)).1.m_input_buffer
                  (st.m_input_position * H))
                (offset_split_pointer st.m_impulse_buffer (0 * H))
                ((sched_step W H)^[k] (with_io st b0 b1)).m_accum_buffer H).2.2 H))
            0 (2 ^ st.m_fft_size_log2) st.m_fft_buffers_2 0) := by
  have inv := traced_inv K W rnd st rw h ht
  subst hb0 hb1
  obtain ⟨-, e2, e3, e4, -, e6, -, e8⟩ := trace_sub_block K W rnd st rw h inp accumulate rem ip
    op out ht hrem H L c k _ hH hL hc hk rfl
  refine ⟨e4, ?_, ?_⟩
  · intro i hi
    obtain ⟨m1, -, m3, -, m5⟩ := trace_macs W st rw h
      (copy_n inp ip L st.m_fft_buffers_0 rw)
      (copy_n inp ip L st.m_fft_buffers_1 ((rw + H) % 2 ^ st.m_fft_size_log2)) k i inv e6 hi
    obtain ⟨-, -, -, -, -, -, s7, -, -⟩ := trace_sched W st rw h
      (copy_n inp ip L st.m_fft_buffers_0 rw)
      (copy_n inp ip L st.m_fft_buffers_1 ((rw + H) % 2 ^ st.m_fft_size_log2)) i inv (by omega)
    rw [← hH] at m1 m5 s7
    refine ⟨m1, by omega, m3, ?_, ?_⟩
    · rw [m5]
      rfl
    · rw [s7, inv.hist _ (by omega) (by omega)]
      unfold slot_content
      rw [← hH]
  · intro hdue
    rw [e2, decide_eq_true_eq] at hdue
    obtain ⟨s1, -, -, -, -, s6, -, -, -⟩ := trace_sched W st rw h
      (copy_n inp ip L st.m_fft_buffers_0 rw)
      (copy_n inp ip L st.m_fft_buffers_1 ((rw + H) % 2 ^ st.m_fft_size_log2)) k inv e6
    obtain ⟨-, -, f3, f4, f5, -⟩ := sched_iter_fields W H k
      (with_io st (copy_n inp ip L st.m_fft_buffers_0 rw)
        (copy_n inp ip L st.m_fft_buffers_1 ((rw + H) % 2 ^ st.m_fft_size_log2)))
    have g2 := (sched_iter_bufs_any W H k
      (with_io st (copy_n inp ip L st.m_fft_buffers_0 rw)
        (copy_n inp ip L st.m_fft_buffers_1 ((rw + H) % 2 ^ st.m_fft_size_log2)))).2
    rw [← hH] at s1 s6
    obtain ⟨t1, t2⟩ := fft_step_slot K W
      ((sched_step W H)^[k]
        (with_io st (copy_n inp ip L st.m_fft_buffers_0 rw)
          (copy_n inp ip L st.m_fft_buffers_1 ((rw + H) % 2 ^ st.m_fft_size_log2))))
      (rw + L) (by rw [s1]; exact inv.lg_pos)
    rw [s1, s6, f3, f4, ← hH] at t1
    rw [s1, s6, f5, g2, ← hH] at t2
    rw [e3, if_pos hdue]
    exact ⟨e8 hdue, t1, t2⟩

theorem scheduled_mac_pairing_witness :
    Traced unzip_kernel 4 0 hop_state 16 [slot_content hop_state 0] ∧ 0 < 16 ∧
    0 < (sched_todo hop_state.m_valid_partitions hop_state.m_partitions_done
      ((16 + min 16 (2 ^ (hop_state.m_fft_size_log2 - 1)
          - 16 % 2 ^ (hop_state.m_fft_size_log2 - 1))) % 2 ^ (hop_state.m_fft_size_log2 - 1))
      (2 ^ (hop_state.m_fft_size_log2 - 1))).toNat ∧
    [slot_content hop_state 0].get? (hop_state.m_partitions_done + 0 + 1 - 1)
      = some (first_bins
          (offset_split_pointer
            ((sched_step 4 (2 ^ (hop_state.m_fft_size_log2 - 1)))^[0]
              (with_io hop_state
                (copy_n (fun _ => 2) 0
                  (min 16 (2 ^ (hop_state.m_fft_size_log2 - 1)
                    - 16 % 2 ^ (hop_state.m_fft_size_log2 - 1)))
                  hop_state.m_fft_buffers_0 16)
                (copy_n (fun _ => 2) 0
                  (min 16 (2 ^ (hop_state.m_fft_size_log2 - 1)
                    - 16 % 2 ^ (hop_state.m_fft_size_log2 - 1)))
                  hop_state.m_fft_buffers_1
                  ((16 + 2 ^ (hop_state.m_fft_size_log2 - 1))
                    % 2 ^ hop_state.m_fft_size_log2)))).m_input_buffer
            ((hop_state.m_input_position + (hop_state.m_partitions_done + 0 + 1))
              % hop_state.m_num_partitions * 2 ^ (hop_state.m_fft_size_log2 - 1)))
          (2 ^ (hop_state.m_fft_size_log2 - 1))) := by
  have ht0 : Traced unzip_kernel 4 0 (process_reset 0 (stale_state 7 3)).1
      (process_reset 0 (stale_state 7 3)).2 [] :=
    Traced.reset (stale_state 7 3) rfl (by decide) (by decide)
      (fun hneg => absurd hneg (by decide))
  have ht : Traced unzip_kernel 4 0 hop_state 16 [slot_content hop_state 0] :=
    Traced.step _ _ [] (fun _ => 1) false 20 0 0 (fun _ => 0) ht0 (by decide)
  have hk : 0 < (sched_todo hop_state.m_valid_partitions hop_state.m_partitions_done
      ((16 + min 16 (2 ^ (hop_state.m_fft_size_log2 - 1)
          - 16 % 2 ^ (hop_state.m_fft_size_log2 - 1))) % 2 ^ (hop_state.m_fft_size_log2 - 1))
      (2 ^ (hop_state.m_fft_size_log2 - 1))).toNat := by decide
  have key := scheduled_mac_pairing unzip_kernel 4 0 hop_state 16 [slot_content hop_state 0]
    (fun _ => 2) false 16 0 0 (fun _ => 0) ht (by decide) _ _ _ _ _ _ rfl rfl rfl rfl rfl rfl
  exact ⟨ht, by decide, hk, (key.2.1 0 hk).2.2.2.2⟩

/-! ### The first block after a reset (C30) -/

/-- What the reset block of `process` leaves, for a reset offset that is not negative. -/
theorem process_reset_state {R : Type} [Zero R] (rnd : Nat) (st : convolve_partitioned R)
    (hlg : 1 ≤ st.m_fft_size_log2) (hoff : 0 ≤ st.m_reset_offset) :
    (∀ i, i < 2 ^ st.m_max_fft_size_log2 →
      (process_reset rnd st).1.m_fft_buffers_0 i = 0 ∧
      (process_reset rnd st).1.m_fft_buffers_1 i = 0 ∧
      (process_reset rnd st).1.m_fft_buffers_2 i = 0 ∧
      (process_reset rnd st).1.m_fft_buffers_3 i = 0) ∧
    (∀ i, i < 2 ^ st.m_max_fft_size_log2 / 2 →
      (process_reset rnd st).1.m_accum_buffer.realp i = 0 ∧
      (process_reset rnd st).1.m_accum_buffer.imagp i = 0) ∧
    (process_reset rnd st).2 = st.m_reset_offset.toNat % 2 ^ (st.m_fft_size_log2 - 1) ∧
    (process_reset rnd st).1.m_input_position = 0 ∧
    (process_reset rnd st).1.m_partitions_done = 0 ∧
    (process_reset rnd st).1.m_last_partition = 0 ∧
    (process_reset rnd st).1.m_valid_partitions = 1 ∧
    (process_reset rnd st).1.m_reset_flag = false := by
  refine ⟨?_, ?_, ?_, rfl, rfl, rfl, rfl, rfl⟩
  · intro i hi
    have hz : ∀ b : Nat → R, fill_n b 0 (get_max_fft_size st) 0 i = 0 := by
      intro b
      unfold fill_n get_max_fft_size
      rw [Nat.one_shiftLeft, if_pos (by omega)]
    exact ⟨hz _, hz _, hz _, hz _⟩
  · intro i hi
    have hz : ∀ b : Nat → R, fill_n b 0 (get_max_fft_size st >>> 1) 0 i = 0 := by
      intro b
      unfold fill_n get_max_fft_size
      rw [Nat.one_shiftLeft, Nat.shiftRight_eq_div_pow, pow_one, if_pos (by omega)]
    exact ⟨hz _, hz _⟩
  · unfold process_reset
    dsimp only
    rw [if_neg (by omega), get_fft_size_eq, halved_eq _ hlg]

/-- The first `process` call after a reset with a reset offset that is not negative returns,
and with `accumulate == false` it writes zeros up to the first hop boundary. -/
theorem reset_first_block_aux {R : Type} [Field R] (K : FFTKernel R) (W rnd : Nat)
    (st : convolve_partitioned R) (inp : Nat → R) (ip : Nat) (out : Nat → R) (op N : Nat)
    (hflag : st.m_reset_flag = true) (hP : 1 ≤ st.m_num_partitions)
    (hlg : 1 ≤ st.m_fft_size_log2) (hmax : st.m_fft_size_log2 ≤ st.m_max_fft_size_log2)
    (hoff : 0 ≤ st.m_reset_offset) :
    ∃ st1 out1, process K W rnd st inp ip out op N false = some (st1, out1) ∧
      ∀ i, i < min N (2 ^ (st.m_fft_size_log2 - 1)
          - st.m_reset_offset.toNat % 2 ^ (st.m_fft_size_log2 - 1)) →
        out1 (op + i) = 0 := by
  obtain ⟨hbuf, -, hr0, -⟩ := process_reset_state rnd st hlg hoff
  have hHpos : 0 < 2 ^ (st.m_fft_size_log2 - 1) := pow_pos (by norm_num) _
  have hmod := Nat.mod_lt st.m_reset_offset.toNat hHpos
  have hHmax : 2 ^ (st.m_fft_size_log2 - 1) ≤ 2 ^ st.m_max_fft_size_log2 :=
    Nat.pow_le_pow_right (by norm_num) (by omega)
  rcases Nat.eq_zero_or_pos N with h0 | hpos
  · subst h0
    obtain ⟨v, hv, -⟩ := process_loop_total K W inp false 0 (process_reset rnd st).1
      (process_reset rnd st).2 ip op out hlg hP
    refine ⟨_, _, process_eq K W rnd st inp ip out op 0 false hP (process_reset rnd st)
      (by rw [hflag]; rfl) v (hv 0 (le_refl _)), ?_⟩
    intro i hi
    rw [Nat.zero_min] at hi
    omega
  · obtain ⟨L, hL⟩ : ∃ L, L = min N (2 ^ (st.m_fft_size_log2 - 1)
        - st.m_reset_offset.toNat % 2 ^ (st.m_fft_size_log2 - 1)) := ⟨_, rfl⟩
    have hL1 : 1 ≤ L := by
      rw [hL]
      exact le_min hpos (by omega)
    have hL2 : L ≤ N := by
      rw [hL]
      exact min_le_left _ _
    have hL3 : L ≤ 2 ^ (st.m_fft_size_log2 - 1)
        - st.m_reset_offset.toNat % 2 ^ (st.m_fft_size_log2 - 1) := by
      rw [hL]
      exact min_le_right _ _
    have hrr : (process_reset rnd st).2 % 2 ^ (st.m_fft_size_log2 - 1)
        = st.m_reset_offset.toNat % 2 ^ (st.m_fft_size_log2 - 1) := by
      rw [hr0, Nat.mod_mod]
    obtain ⟨f1, f2, -, f4, f5, f6⟩ := process_iter_alt_fields K W inp false
      (process_reset rnd st).1 (process_reset rnd st).2 N ip op out
    have fo := process_iter_alt_out K W inp (process_reset rnd st).1 (process_reset rnd st).2
      N ip op out
    have elg : (process_reset rnd st).1.m_fft_size_log2 = st.m_fft_size_log2 := rfl
    rw [elg, hrr, ← hL] at f4 f5 f6 fo
    rw [elg] at f1
    have eP : (process_reset rnd st).1.m_num_partitions = st.m_num_partitions := rfl
    rw [eP] at f2
    obtain ⟨u, hu⟩ : ∃ u, u = process_iter_alt K W inp false
        ((process_reset rnd st).1, (process_reset rnd st).2, N, ip, op, out) := ⟨_, rfl⟩
    rw [← hu] at f1 f2 f4 f5 f6 fo
    have hueta : u = (u.1, u.2.1, N - L, ip + L, op + L, u.2.2.2.2.2) :=
      Prod.ext rfl (Prod.ext rfl (Prod.ext f4 (Prod.ext f5 (Prod.ext f6 rfl))))
    obtain ⟨s, -, k2, k3, -⟩ := process_loop_induct K W inp false ip op
      (fun m _ _ o _ => L ≤ m ∧ ∀ i, i < L → o (op + i) = 0)
      (by
        intro m S x rem o w hinv _ _ _
        refine ⟨by omega, ?_⟩
        intro i hi
        rw [process_iter_alt_out]
        unfold copy_n
        rw [if_neg (by omega)]
        exact hinv.2 i hi)
      (N - L) L u.1 u.2.1 u.2.2.2.2.2 ⟨0, 0, 0⟩ (by rw [f1]; exact hlg) (by rw [f2]; exact hP)
      ⟨le_refl _, by
        intro i hi
        rw [fo]
        unfold copy_n
        rw [if_pos (by omega), Nat.add_sub_cancel_left, hr0]
        exact (hbuf _ (by omega)).2.2.2⟩
    have hloop : process_loop K W inp false N
        ((process_reset rnd st).1, (process_reset rnd st).2, N, ip, op, out) = some s.1 := by
      obtain ⟨f, rfl⟩ : ∃ f, N = f + 1 := ⟨N - 1, by omega⟩
      rw [process_loop_step K W inp false f (process_reset rnd st).1 (process_reset rnd st).2
        (f + 1) ip op out hpos hlg hP, ← hu, hueta]
      exact k2 f (by omega)
    refine ⟨_, _, process_eq K W rnd st inp ip out op N false hP (process_reset rnd st)
      (by rw [hflag]; rfl) s.1 hloop, ?_⟩
    intro i hi
    rw [← hL] at hi
    exact k3.2 i hi

/-- C30: on the first `process` call (at least one partition) after the reset flag is set,
with a reset offset `r ≥ 0`, the call runs from the state the reset block leaves; in that
state, before any sample is consumed, the input rings, the transform buffer, the output ring
(each over `max_fft_size` samples) and the accumulator (over `max_fft_size / 2` bins) are
zero, `rw = r mod (fft_size / 2)` (which is `r` when `r < fft_size / 2`),
`input_position = 0`, `partitions_done = 0`, `last_partition = 0`, `valid_partitions = 1` and
the reset flag is cleared; the call returns, and with `accumulate == false` the first
`min(num_samples, fft_size / 2 - r mod (fft_size / 2))` output samples are zero. -/
theorem reset_first_block {R : Type} [Field R] (K : FFTKernel R) (W rnd : Nat)
    (st : convolve_partitioned R) (inp : Nat → R) (ip : Nat) (out : Nat → R) (op N : Nat)
    (hflag : st.m_reset_flag = true) (hP : 1 ≤ st.m_num_partitions)
    (hlg : 1 ≤ st.m_fft_size_log2) (hmax : st.m_fft_size_log2 ≤ st.m_max_fft_size_log2)
    (hoff : 0 ≤ st.m_reset_offset) :
    (∀ accumulate, process K W rnd st inp ip out op N accumulate
      = process K W rnd (with_rw (process_reset rnd st).1 (process_reset rnd st).2)
          inp ip out op N accumulate) ∧
    (∀ i, i < 2 ^ st.m_max_fft_size_log2 →
      (process_reset rnd st).1.m_fft_buffers_0 i = 0 ∧
      (process_reset rnd st).1.m_fft_buffers_1 i = 0 ∧
      (process_reset rnd st).1.m_fft_buffers_2 i = 0 ∧
      (process_reset rnd st).1.m_fft_buffers_3 i = 0) ∧
    (∀ i, i < 2 ^ st.m_max_fft_size_log2 / 2 →
      (process_reset rnd st).1.m_accum_buffer.realp i = 0 ∧
      (process_reset rnd st).1.m_accum_buffer.imagp i = 0) ∧
    (process_reset rnd st).2 = st.m_reset_offset.toNat % 2 ^ (st.m_fft_size_log2 - 1) ∧
    (st.m_reset_offset.toNat < 2 ^ (st.m_fft_size_log2 - 1) →
      (process_reset rnd st).2 = st.m_reset_offset.toNat) ∧
    (process_reset rnd st).1.m_input_position = 0 ∧
    (process_reset rnd st).1.m_partitions_done = 0 ∧
    (process_reset rnd st).1.m_last_partition = 0 ∧
    (process_reset rnd st).1.m_valid_partitions = 1 ∧
    (process_reset rnd st).1.m_reset_flag = false ∧
    ∃ st1 out1, process K W rnd st inp ip out op N false = some (st1, out1) ∧
      ∀ i, i < min N (2 ^ (st.m_fft_size_log2 - 1)
          - st.m_reset_offset.toNat % 2 ^ (st.m_fft_size_log2 - 1)) →
        out1 (op + i) = 0 := by
  obtain ⟨a1, a2, a3, a4, a5, a6, a7, a8⟩ := process_reset_state rnd st hlg hoff
  refine ⟨fun accumulate => process_after_reset K W rnd st inp ip out op N accumulate hflag hlg
    hP, a1, a2, a3, ?_, a4, a5, a6, a7, a8,
    reset_first_block_aux K W rnd st inp ip out op N hflag hP hlg hmax hoff⟩
  intro hlt
  rw [a3, Nat.mod_eq_of_lt hlt]

theorem reset_first_block_witness :
    (stale_state 7 3).m_reset_flag = true ∧ 1 ≤ (stale_state 7 3).m_num_partitions ∧
    1 ≤ (stale_state 7 3).m_fft_size_log2 ∧
    (stale_state 7 3).m_fft_size_log2 ≤ (stale_state 7 3).m_max_fft_size_log2 ∧
    0 ≤ (stale_state 7 3).m_reset_offset ∧
    (process_reset 0 (stale_state 7 3)).2 = 3 ∧
    ∃ st1 out1,
      process unzip_kernel 4 0 (stale_state 7 3) (fun _ => 1) 0 (fun _ => 5) 0 40 false
        = some (st1, out1) ∧
      ∀ i, i < 13 → out1 (0 + i) = 0 := by
  have key := reset_first_block unzip_kernel 4 0 (stale_state 7 3) (fun _ => 1) 0 (fun _ => 5)
    0 40 rfl (by decide) (by decide) (by decide) (by decide)
  exact ⟨rfl, by decide, by decide, by decide, by decide, key.2.2.2.2.1 (by decide),
    key.2.2.2.2.2.2.2.2.2.2⟩

/-! ### The AIFF header parser (C23) -/

theorem be32_length (n : Nat) : (be32 n).length = 4 := rfl

theorem be_val_be32 (n : Nat) (h : n < 2 ^ 32) : be_val (be32 n) = n := by
  unfold be_val be32
  simp only [List.getD_cons_zero, List.getD_cons_succ]
  omega

/-- The value of four bytes depends on the first four bytes only. -/
theorem be_val_congr (a b : List Nat) (h : ∀ i, i < 4 → a.getD i 0 = b.getD i 0) :
    be_val a = be_val b := by
  unfold be_val
  rw [h 0 (by omega), h 1 (by omega), h 2 (by omega), h 3 (by omega)]

theorem getD_lt_of_mem (l : List Nat) (i : Nat) (h : ∀ b ∈ l, b < 256) : l.getD i 0 < 256 := by
  rw [List.getD_eq_getElem?_getD]
  rcases Nat.lt_or_ge i l.length with hi | hi
  · rw [List.getElem?_eq_getElem hi]
    exact h _ (List.getElem_mem hi)
  · rw [List.getElem?_eq_none hi]
    exact (by decide : (0 : Nat) < 256)

theorem be_val_lt (l : List Nat) (h : ∀ b ∈ l, b < 256) : be_val l < 2 ^ 32 := by
  unfold be_val
  have h0 := getD_lt_of_mem l 0 h
  have h1 := getD_lt_of_mem l 1 h
  have h2 := getD_lt_of_mem l 2 h
  have h3 := getD_lt_of_mem l 3 h
  omega

theorem getD_write_bytes (buffer got : List Nat) (i : Nat) (h : i < got.length) :
    (write_bytes buffer got).getD i 0 = got.getD i 0 := by
  unfold write_bytes
  rw [List.getD_eq_getElem?_getD, List.getD_eq_getElem?_getD, List.getElem?_append_left h]

theorem getD_drop (l : List Nat) (k i : Nat) : (l.drop k).getD i 0 = l.getD (k + i) 0 := by
  rw [List.getD_eq_getElem?_getD, List.getD_eq_getElem?_getD, List.getElem?_drop]

theorem getD_take (l : List Nat) (k i : Nat) (h : i < k) :
    (l.take k).getD i 0 = l.getD i 0 := by
  rw [List.getD_eq_getElem?_getD, List.getD_eq_getElem?_getD, List.getElem?_take_of_lt h]

theorem write_bytes_length (buffer got : List Nat) (h : got.length ≤ buffer.length) :
    (write_bytes buffer got).length = buffer.length := by
  unfold write_bytes
  rw [List.length_append, List.length_drop]
  omega

theorem write_bytes_nil (buffer : List Nat) : write_bytes buffer [] = buffer := rfl

/-- A read inside the file: the bytes at the position are returned. -/
theorem read_internal_spec {F : Type} (f : IAudioFile F) (pre mid post : List Nat) (n : Nat)
    (hb : f.m_file.bytes = pre ++ (mid ++ post)) (hp : f.m_file.pos = pre.length)
    (hn : n ≤ mid.length) :
    read_internal f n
      = (true, mid.take n, { f with m_file := { f.m_file with pos := pre.length + n } }) := by
  unfold read_internal
  have e : (f.m_file.bytes.drop f.m_file.pos).take n = mid.take n := by
    rw [hb, hp, List.drop_left, List.take_append_of_le_length hn]
  have el : (mid.take n).length = n := by
    rw [List.length_take]
    omega
  rw [hp] at e
  simp only [hp, e, el, decide_True]

/-- A read of more bytes than the file has left fails. -/
theorem read_internal_short {F : Type} (f : IAudioFile F) (pre post : List Nat) (n : Nat)
    (hb : f.m_file.bytes = pre ++ post) (hp : f.m_file.pos = pre.length)
    (hn : post.length < n) :
    (read_internal f n).1 = false := by
  unfold read_internal
  have e : (f.m_file.bytes.drop f.m_file.pos).take n = post := by
    rw [hb, hp, List.drop_left, List.take_of_length_le (by omega)]
  simp only [e]
  exact decide_eq_false (by omega)

theorem c_chars_strncpy_4 (h : List Nat) : c_chars (strncpy_4 h) 4 = c_chars h 4 := by
  unfold strncpy_4
  have hlen : (c_chars h 4).length ≤ 4 := by
    unfold c_chars
    exact le_trans (List.takeWhile_prefix _).length_le (by rw [List.length_take]; omega)
  have hnz : ∀ a ∈ c_chars h 4, (decide (a ≠ 0)) = true := by
    intro a ha
    unfold c_chars at ha
    exact List.mem_takeWhile_imp (p := fun c => decide (c ≠ 0)) ha
  generalize c_chars h 4 = c at hlen hnz
  unfold c_chars
  rw [List.take_of_length_le (by rw [List.length_append, List.length_replicate]; omega),
    List.takeWhile_append_of_pos hnz]
  have : (List.replicate (4 - c.length) 0).takeWhile (fun c => decide (c ≠ 0)) = [] := by
    cases (4 - c.length) with
    | zero => rfl
    | succ k => rfl
  rw [this, List.append_nil]

/-- What `match_tag` answers for the tag of a chunk header against a string literal of four
characters. -/
theorem match_tag_header (tag rest lit : List Nat) (ht : tag.length = 4)
    (hl : c_chars lit 4 = lit.take 4) (hl4 : (lit.take 4).length = 4) :
    match_tag (strncpy_4 (tag ++ rest)) lit = decide (tag = lit.take 4) := by
  unfold match_tag
  rw [c_chars_strncpy_4, hl]
  have e : c_chars (tag ++ rest) 4 = tag.takeWhile (fun c => decide (c ≠ 0)) := by
    unfold c_chars
    rw [← ht, List.take_left]
  rw [e]
  by_cases h : tag = lit.take 4
  · rw [decide_eq_true h]
    apply decide_eq_true
    rw [h, ← hl]
    unfold c_chars
    rw [List.takeWhile_eq_self_iff]
    intro x hx
    exact List.mem_takeWhile_imp (p := fun c => decide (c ≠ 0)) hx
  · rw [decide_eq_false h]
    apply decide_eq_false
    intro hc
    apply h
    have hp := List.takeWhile_prefix (fun c => decide (c ≠ 0)) (l := tag)
    rw [hc] at hp
    exact (hp.eq_of_length (by rw [hl4, ht])).symm

theorem encode_length (c : Chunk) (ht : c.tag.length = 4) :
    c.encode.length = 8 + c.data.length + c.data.length % 2 := by
  unfold Chunk.encode
  simp only [List.length_append, List.length_replicate, be32_length, ht]

/-- The header of a chunk, read at its start. -/
theorem get_aiff_chunk_header_spec {F : Type} (D : AudioFileDecls F) (f : IAudioFile F)
    (pre post : List Nat) (c : Chunk) (x : Nat) (hD : D.big_endian_headers)
    (hb : f.m_file.bytes = pre ++ (c.encode ++ post)) (hp : f.m_file.pos = pre.length)
    (ht : c.tag.length = 4) (hlen : c.data.length < 2 ^ 32)
    (hfmt : D.header_endianness f.m_format = Endianness.Big) :
    get_aiff_chunk_header D f x
      = (true, classify c.tag, c.data.length,
          { f with m_file := { f.m_file with pos := pre.length + 8 } }) := by
  have hmid : c.encode = (c.tag ++ be32 c.data.length)
      ++ (c.data ++ List.replicate (c.data.length % 2) 0) := by
    unfold Chunk.encode
    simp only [List.append_assoc]
  have hr := read_internal_spec f pre (c.tag ++ be32 c.data.length)
    ((c.data ++ List.replicate (c.data.length % 2) 0) ++ post) 8
    (by rw [hb, hmid]; simp only [List.append_assoc]) hp
    (by rw [List.length_append, ht, be32_length])
  have htake : (c.tag ++ be32 c.data.length).take 8 = c.tag ++ be32 c.data.length :=
    List.take_of_length_le (by rw [List.length_append, ht, be32_length])
  rw [htake] at hr
  have hw : write_bytes (List.replicate 8 0) (c.tag ++ be32 c.data.length)
      = c.tag ++ be32 c.data.length := by
    unfold write_bytes
    rw [List.drop_of_length_le (by
      rw [List.length_replicate, List.length_append, ht, be32_length]), List.append_nil]
  have hd : (c.tag ++ be32 c.data.length).drop 4 = be32 c.data.length := by
    rw [← ht, List.drop_left]
  have hsz : get_u32 D (be32 c.data.length) Endianness.Big = c.data.length := by
    unfold get_u32
    rw [hD.get_bytes _ (by rw [be32_length]), be_val_be32 _ hlen, Nat.mod_eq_of_lt hlen]
  unfold get_aiff_chunk_header read_chunk_header
  simp only [hr, hw, hd, hfmt, hsz, Bool.true_eq_false, if_false]
  rw [match_tag_header c.tag _ tag_FVER ht rfl rfl, match_tag_header c.tag _ tag_COMM ht rfl rfl,
    match_tag_header c.tag _ tag_SSND ht rfl rfl]
  unfold classify
  simp only [decide_eq_true_eq]

/-- The chunk header at the end of the file: fewer than 8 bytes are left. -/
theorem get_aiff_chunk_header_end {F : Type} (D : AudioFileDecls F) (f : IAudioFile F)
    (pre post : List Nat) (x : Nat)
    (hb : f.m_file.bytes = pre ++ post) (hp : f.m_file.pos = pre.length)
    (hn : post.length < 8) :
    (get_aiff_chunk_header D f x).1 = false := by
  have hr := read_internal_short f pre post 8 hb hp hn
  unfold get_aiff_chunk_header read_chunk_header
  simp only [hr, if_true]

/-- The data of a chunk, read after its header, and the move to the end of the chunk. -/
theorem read_chunk_spec {F : Type} (f : IAudioFile F) (pre post : List Nat) (c : Chunk)
    (buffer : List Nat) (rs : Nat)
    (hb : f.m_file.bytes = pre ++ (c.encode ++ post)) (hp : f.m_file.pos = pre.length + 8)
    (ht : c.tag.length = 4) (hlen : c.data.length + 1 < 2 ^ 32)
    (hsize : f.m_file.bytes.length < 2 ^ 64) (hrs : rs ≤ c.data.length) :
    read_chunk f buffer rs c.data.length
      = (true, write_bytes buffer (c.data.take rs),
          { f with m_file := { f.m_file with pos := pre.length + c.encode.length } }) := by
  have hpad : padded_length c.data.length = c.data.length + c.data.length % 2 := by
    unfold padded_length
    rw [Nat.and_one_is_mod, Nat.mod_eq_of_lt (by omega)]
  have hoff : (padded_length c.data.length + 2 ^ 32 - rs) % 2 ^ 32
      = c.data.length + c.data.length % 2 - rs := by
    rw [hpad]
    have e : c.data.length + c.data.length % 2 + 2 ^ 32 - rs
        = (c.data.length + c.data.length % 2 - rs) + 2 ^ 32 := by omega
    rw [e, Nat.add_mod_right, Nat.mod_eq_of_lt (by omega)]
  have hel := encode_length c ht
  have htot : pre.length + c.encode.length ≤ f.m_file.bytes.length := by
    rw [hb]
    simp only [List.length_append]
    omega
  have hr : ∀ g : IAudioFile F, g.m_file.bytes = f.m_file.bytes → g.m_file.pos = pre.length + 8 →
      read_internal g rs = (true, c.data.take rs,
        { g with m_file := { g.m_file with pos := pre.length + 8 + rs } }) := by
    intro g hg1 hg2
    have := read_internal_spec g (pre ++ (c.tag ++ be32 c.data.length)) c.data
      (List.replicate (c.data.length % 2) 0 ++ post) rs
      (by rw [hg1, hb]; unfold Chunk.encode; simp only [List.append_assoc])
      (by rw [hg2]; simp only [List.length_append, ht, be32_length]) hrs
    rw [this]
    simp only [List.length_append, ht, be32_length]
  unfold read_chunk
  rw [if_neg (by omega)]
  by_cases h0 : rs = 0
  · subst h0
    simp only [ne_eq, not_true_eq_false, if_false, Bool.true_eq_false, List.take_zero]
    unfold advance_internal seek_internal position_internal
    rw [hoff, hp]
    have e : (pre.length + 8 + (c.data.length + c.data.length % 2 - 0)) % 2 ^ 64
        = pre.length + c.encode.length := by
      rw [Nat.mod_eq_of_lt (by omega)]
      omega
    rw [e, if_pos (Or.inl htot)]
  · rw [if_pos h0, hr f rfl hp]
    simp only [Bool.true_eq_false, if_false]
    unfold advance_internal seek_internal position_internal
    rw [hoff]
    dsimp only
    have e : (pre.length + 8 + rs + (c.data.length + c.data.length % 2 - rs)) % 2 ^ 64
        = pre.length + c.encode.length := by
      rw [Nat.mod_eq_of_lt (by omega)]
      omega
    rw [e, if_pos (Or.inl htot)]

/-- A read of more bytes than the chunk has fails. -/
theorem read_chunk_short {F : Type} (f : IAudioFile F) (buffer : List Nat) (rs len : Nat)
    (h0 : rs ≠ 0) (h : len < rs) :
    read_chunk f buffer rs len = (false, buffer, f) := by
  unfold read_chunk
  rw [if_pos ⟨h0, h⟩]

/-- The 32-bit value that the parser reads from the buffer after a read of `n ≥ k + 4` bytes
of chunk data: the value of the data bytes from `k` on. -/
theorem get_u32_buffer {F : Type} (D : AudioFileDecls F) (hD : D.big_endian_headers)
    (buffer data : List Nat) (n k : Nat) (hbuf : buffer.length = 22) (hn : n ≤ 22)
    (hk : k + 4 ≤ n) (hlen : n ≤ data.length) (hbytes : ∀ b ∈ data, b < 256) :
    get_u32 D ((write_bytes buffer (data.take n)).drop k) Endianness.Big
      = be_val (data.drop k) := by
  have hl : (data.take n).length = n := by
    rw [List.length_take]
    omega
  have hw : (write_bytes buffer (data.take n)).length = 22 := by
    rw [write_bytes_length _ _ (by omega), hbuf]
  unfold get_u32
  rw [hD.get_bytes _ (by rw [List.length_drop, hw]; omega)]
  have e : be_val ((write_bytes buffer (data.take n)).drop k) = be_val (data.drop k) := by
    apply be_val_congr
    intro i hi
    rw [getD_drop, getD_drop, getD_write_bytes _ _ _ (by omega), getD_take _ _ _ (by omega)]
  rw [e]
  exact Nat.mod_eq_of_lt (be_val_lt _ (fun b hb => hbytes b (List.mem_of_mem_drop hb)))

theorem drop_zero_eq (l : List Nat) : l.drop 0 = l := rfl

/-- The body of the `switch` on a complete chunk, after its header. -/
theorem aiff_chunk_body_spec {F : Type} (D : AudioFileDecls F) (fileSubtype : List Nat)
    (f : IAudioFile F) (pre post : List Nat) (c : Chunk) (buffer : List Nat) (y : Nat)
    (hD : D.big_endian_headers)
    (hb : f.m_file.bytes = pre ++ (c.encode ++ post)) (hp : f.m_file.pos = pre.length + 8)
    (ht : c.tag.length = 4) (hlen : c.data.length + 1 < 2 ^ 32)
    (hbytes : ∀ b ∈ c.data, b < 256) (hsize : f.m_file.bytes.length < 2 ^ 64)
    (hfmt : D.header_endianness f.m_format = Endianness.Big) (hbuf : buffer.length = 22) :
    (∀ e, chunk_failure D (match_tag fileSubtype tag_AIFC) buffer c = some e →
      ∃ g, aiff_chunk_body D fileSubtype (classify c.tag) c.data.length f buffer y
        = Except.error (e, g)) ∧
    (chunk_failure D (match_tag fileSubtype tag_AIFC) buffer c = none →
      ∃ g, aiff_chunk_body D fileSubtype (classify c.tag) c.data.length f buffer y
          = Except.ok (g, chunk_buffer buffer c,
              if c.tag = tag_COMM.take 4 ∧ c.frame_count = 0 then y ||| AIFFTag.Audio.val
              else y) ∧
        g.m_file.bytes = f.m_file.bytes ∧ g.m_file.pos = pre.length + c.encode.length ∧
        D.header_endianness g.m_format = Endianness.Big) := by
  have hne1 : tag_COMM.take 4 ≠ tag_FVER.take 4 := by decide
  have hne2 : tag_SSND.take 4 ≠ tag_FVER.take 4 := by decide
  have hne3 : tag_SSND.take 4 ≠ tag_COMM.take 4 := by decide
  by_cases hF : c.tag = tag_FVER.take 4
  · -- FVER
    have hcl : classify c.tag = AIFFTag.Version := by
      unfold classify
      rw [if_pos hF]
    have hnC : ¬ c.tag = tag_COMM.take 4 := fun h => hne1 (h.symm.trans hF)
    have hcb : chunk_buffer buffer c = write_bytes buffer (c.data.take 4) := by
      unfold chunk_buffer
      rw [if_neg hnC, if_pos (Or.inl hF)]
    rw [hcl, hcb, if_neg (fun h => hnC h.1)]
    unfold chunk_failure aiff_chunk_body
    rw [if_pos hF]
    by_cases h4 : c.data.length < 4
    · rw [if_pos h4, read_chunk_short f buffer 4 _ (by omega) h4]
      refine ⟨fun e he => ?_, fun h => absurd h (by simp)⟩
      rw [← Option.some.inj he]
      exact ⟨f, rfl⟩
    · rw [if_neg h4, read_chunk_spec f pre post c buffer 4 hb hp ht hlen hsize (by omega)]
      have hv := get_u32_buffer D hD buffer c.data 4 0 hbuf (by omega) (by omega) (by omega)
        hbytes
      rw [drop_zero_eq, drop_zero_eq] at hv
      simp only [Bool.true_eq_false, if_false, hfmt, hv]
      by_cases hm : be_val c.data ≠ AIFC_CURRENT_SPECIFICATION
      · rw [if_pos hm, if_pos hm]
        refine ⟨fun e he => ?_, fun h => absurd h (by simp)⟩
        rw [← Option.some.inj he]
        exact ⟨_, rfl⟩
      · rw [if_neg hm, if_neg hm]
        exact ⟨fun e he => absurd he (by simp), fun _ => ⟨_, rfl, rfl, rfl, hfmt⟩⟩
  · by_cases hC : c.tag = tag_COMM.take 4
    · -- COMM
      have hcl : classify c.tag = AIFFTag.Common := by
        unfold classify
        rw [if_neg hF, if_pos hC]
      have hcb : chunk_buffer buffer c = write_bytes buffer (c.data.take 22) := by
        unfold chunk_buffer
        rw [if_pos hC]
      rw [hcl]
      unfold chunk_failure aiff_chunk_body
      rw [if_neg hF, if_pos hC]
      by_cases h18 : c.data.length < 18
      · rw [if_pos h18]
        have hrs : (if c.data.length > 22 then 22
            else (if c.data.length < 18 then 18 else c.data.length)) = 18 := by
          rw [if_neg (by omega), if_pos h18]
        rw [hrs, read_chunk_short f buffer 18 _ (by omega) h18]
        refine ⟨fun e he => ?_, fun h => absurd h (by simp)⟩
        rw [← Option.some.inj he]
        exact ⟨f, rfl⟩
      · rw [if_neg h18]
        obtain ⟨rs, hrs⟩ : ∃ rs, rs = (if c.data.length > 22 then 22
            else (if c.data.length < 18 then 18 else c.data.length)) := ⟨_, rfl⟩
        have hrs1 : rs ≤ c.data.length := by
          rw [hrs]
          split_ifs <;> omega
        have hrs2 : 18 ≤ rs ∧ rs ≤ 22 := by
          rw [hrs]
          split_ifs <;> omega
        have htk : c.data.take rs = c.data.take 22 := by
          by_cases hgt : c.data.length > 22
          · rw [hrs, if_pos hgt]
          · rw [hrs, if_neg hgt, if_neg h18, List.take_of_length_le (le_refl _),
              List.take_of_length_le (by omega)]
        have h22 : (c.data.take 22).length = min 22 c.data.length := List.length_take _ _
        have hfr := get_u32_buffer D hD buffer c.data (min 22 c.data.length) 2 hbuf
          (min_le_left _ _) (by omega) (min_le_right _ _) hbytes
        have htk2 : c.data.take (min 22 c.data.length) = c.data.take 22 := by
          rcases Nat.le_total 22 c.data.length with h | h
          · rw [min_eq_left h]
          · rw [min_eq_right h, List.take_of_length_le (le_refl _),
              List.take_of_length_le h]
        rw [htk2] at hfr
        rw [← hrs, read_chunk_spec f pre post c buffer rs hb hp ht hlen hsize hrs1, htk, ← hcb]
        rw [← hcb] at hfr
        simp only [Bool.true_eq_false, if_false, hfmt, frames, hfr]
        have hfc : be_val (c.data.drop 2) = c.frame_count := rfl
        rw [hfc]
        have hbits : (if c.tag = tag_COMM.take 4 ∧ c.frame_count = 0 then
            y ||| AIFFTag.Audio.val else y)
            = (if c.frame_count = 0 then y ||| AIFFTag.Audio.val else y) := by
          by_cases h0 : c.frame_count = 0
          · rw [if_pos ⟨hC, h0⟩, if_pos h0]
          · rw [if_neg (fun h => h0 h.2), if_neg h0]
        rw [hbits]
        by_cases ha : match_tag fileSubtype tag_AIFC = true
        · rw [if_pos ha, if_pos ha]
          by_cases hn : D.file_type_none (D.to_format ((chunk_buffer buffer c).drop 18)
              (get_u16 D ((chunk_buffer buffer c).drop 6) Endianness.Big)) = true
          · rw [if_pos hn, if_pos hn]
            refine ⟨fun e he => ?_, fun h => absurd h (by simp)⟩
            rw [← Option.some.inj he]
            exact ⟨_, rfl⟩
          · rw [if_neg hn, if_neg hn]
            by_cases hv : D.is_valid (D.to_format ((chunk_buffer buffer c).drop 18)
                (get_u16 D ((chunk_buffer buffer c).drop 6) Endianness.Big)) = false
            · rw [if_pos hv, if_pos hv]
              refine ⟨fun e he => ?_, fun h => absurd h (by simp)⟩
              rw [← Option.some.inj he]
              exact ⟨_, rfl⟩
            · rw [if_neg hv, if_neg hv]
              exact ⟨fun e he => absurd he (by simp),
                fun _ => ⟨_, rfl, rfl, rfl, hD.to_format _ _⟩⟩
        · rw [if_neg ha, if_neg ha]
          by_cases hv : D.is_valid (D.aiff_pcm
              (get_u16 D ((chunk_buffer buffer c).drop 6) Endianness.Big)) = false
          · rw [if_pos hv, if_pos hv]
            refine ⟨fun e he => ?_, fun h => absurd h (by simp)⟩
            rw [← Option.some.inj he]
            exact ⟨_, rfl⟩
          · rw [if_neg hv, if_neg hv]
            exact ⟨fun e he => absurd he (by simp),
              fun _ => ⟨_, rfl, rfl, rfl, hD.aiff_pcm _⟩⟩
    · by_cases hS : c.tag = tag_SSND.take 4
      · -- SSND
        have hcl : classify c.tag = AIFFTag.Audio := by
          unfold classify
          rw [if_neg hF, if_neg hC, if_pos hS]
        have hcb : chunk_buffer buffer c = write_bytes buffer (c.data.take 4) := by
          unfold chunk_buffer
          rw [if_neg hC, if_pos (Or.inr hS)]
        rw [hcl, hcb, if_neg (fun h => hC h.1)]
        unfold chunk_failure aiff_chunk_body
        rw [if_neg hF, if_neg hC, if_pos hS]
        by_cases h4 : c.data.length < 4
        · rw [if_pos h4, read_chunk_short f buffer 4 _ (by omega) h4]
          refine ⟨fun e he => ?_, fun h => absurd h (by simp)⟩
          rw [← Option.some.inj he]
          exact ⟨f, rfl⟩
        · rw [if_neg h4, read_chunk_spec f pre post c buffer 4 hb hp ht hlen hsize (by omega)]
          simp only [Bool.true_eq_false, if_false]
          exact ⟨fun e he => absurd he (by simp), fun _ => ⟨_, rfl, rfl, rfl, hfmt⟩⟩
      · -- any other chunk
        have hcl : classify c.tag = AIFFTag.Unknown := by
          unfold classify
          rw [if_neg hF, if_neg hC, if_neg hS]
        have hcb : chunk_buffer buffer c = buffer := by
          unfold chunk_buffer
          rw [if_neg hC, if_neg (fun h => h.elim hF hS)]
        rw [hcl, hcb, if_neg (fun h => hC h.1)]
        unfold chunk_failure aiff_chunk_body
        rw [if_neg hF, if_neg hC, if_neg hS,
          read_chunk_spec f pre post c buffer 0 hb hp ht hlen hsize (by omega)]
        simp only [Bool.true_eq_false, if_false]
        exact ⟨fun e he => absurd he (by simp), fun _ => ⟨_, rfl, rfl, rfl, hfmt⟩⟩

theorem chunk_buffer_length (buffer : List Nat) (c : Chunk) (h : buffer.length = 22) :
    (chunk_buffer buffer c).length = 22 := by
  unfold chunk_buffer
  split_ifs
  · rw [write_bytes_length _ _ (by rw [List.length_take, h]; exact min_le_left _ _), h]
  · rw [write_bytes_length _ _ (by rw [List.length_take, h]; omega), h]
  · exact h

/-- The loop of the parser on the bytes of a chunk sequence follows the chunks. -/
theorem parse_aiff_loop_chunks {F : Type} (D : AudioFileDecls F) (fileSubtype : List Nat)
    (hD : D.big_endian_headers) (trail : List Nat) (htrail : trail.length < 8) :
    ∀ (cs : List Chunk) (pre : List Nat) (f : IAudioFile F) (buffer : List Nat)
      (x x0 fuel : Nat),
      f.m_file.bytes = pre ++ (encode_chunks cs ++ trail) → f.m_file.pos = pre.length →
      (∀ c ∈ cs, c.wf) → f.m_file.bytes.length < 2 ^ 64 →
      D.header_endianness f.m_format = Endianness.Big → buffer.length = 22 →
      cs.length < fuel →
      ∃ g, parse_aiff_loop D fileSubtype fuel f buffer x x0
        = some (walk D (match_tag fileSubtype tag_AIFC) cs buffer x, g) := by
  intro cs
  induction cs with
  | nil =>
    intro pre f buffer x x0 fuel hb hp _ _ _ _ hfuel
    obtain ⟨k, rfl⟩ : ∃ k, fuel = k + 1 := ⟨fuel - 1, by omega⟩
    have hend := get_aiff_chunk_header_end D f pre trail x0
      (by rw [hb]; rfl) hp htrail
    unfold parse_aiff_loop walk
    simp only [hend, if_true]
    split_ifs
    · exact ⟨_, rfl⟩
    · exact ⟨_, rfl⟩
  | cons c cs ih =>
    intro pre f buffer x x0 fuel hb hp hwf hsize hfmt hbuf hfuel
    obtain ⟨k, rfl⟩ : ∃ k, fuel = k + 1 := ⟨fuel - 1, by omega⟩
    obtain ⟨ht, hlen, hbytes⟩ := hwf c (List.mem_cons_self _ _)
    have hb1 : f.m_file.bytes = pre ++ (c.encode ++ (encode_chunks cs ++ trail)) := by
      have e : encode_chunks (c :: cs) = c.encode ++ encode_chunks cs := rfl
      rw [hb, e]
      simp only [List.append_assoc]
    have hhead := get_aiff_chunk_header_spec D f pre (encode_chunks cs ++ trail) c x0 hD hb1 hp
      ht (by omega) hfmt
    obtain ⟨b1, b2⟩ := aiff_chunk_body_spec D fileSubtype
      { f with m_file := { f.m_file with pos := pre.length + 8 } } pre
      (encode_chunks cs ++ trail) c buffer (x ||| (classify c.tag).val) hD hb1 rfl ht hlen
      hbytes hsize hfmt hbuf
    unfold parse_aiff_loop walk
    simp only [hhead, Bool.true_eq_false, if_false]
    rcases hcf : chunk_failure D (match_tag fileSubtype tag_AIFC) buffer c with _ | e
    · obtain ⟨g, hg, g1, g2, g3⟩ := b2 hcf
      rw [hg]
      dsimp only
      have hlist : (c :: cs).length = cs.length + 1 := rfl
      have := ih (pre ++ c.encode) g (chunk_buffer buffer c)
        (if c.tag = tag_COMM.take 4 ∧ c.frame_count = 0 then
          (x ||| (classify c.tag).val) ||| AIFFTag.Audio.val
        else x ||| (classify c.tag).val) c.data.length k
        (by rw [g1, hb1]; simp only [List.append_assoc])
        (by rw [g2, List.length_append])
        (fun c' hc' => hwf c' (List.mem_cons_of_mem _ hc'))
        (by rw [g1]; exact hsize) g3 (chunk_buffer_length buffer c hbuf) (by omega)
      exact this
    · obtain ⟨g, hg⟩ := b1 e hcf
      rw [hg]
      exact ⟨g, rfl⟩

theorem chunk_failure_wrong {F : Type} (D : AudioFileDecls F) (aifc : Bool)
    (buffer : List Nat) (c : Chunk) :
    chunk_failure D aifc buffer c = some Error.WrongAIFCVersion ↔
      c.tag = tag_FVER.take 4 ∧ 4 ≤ c.data.length ∧
        be_val c.data ≠ AIFC_CURRENT_SPECIFICATION := by
  unfold chunk_failure
  dsimp only
  split_ifs <;> simp_all

theorem chunk_failure_ne_none {F : Type} (D : AudioFileDecls F) (aifc : Bool)
    (buffer : List Nat) (c : Chunk) :
    chunk_failure D aifc buffer c ≠ some Error.None := by
  unfold chunk_failure
  dsimp only
  split_ifs <;> simp

/-- The wrong-version result, chunk by chunk. -/
theorem walk_wrong {F : Type} (D : AudioFileDecls F) (aifc : Bool) :
    ∀ (cs : List Chunk) (buffer : List Nat) (x : Nat),
      walk D aifc cs buffer x = Error.WrongAIFCVersion ↔
        ∃ pre c post, cs = pre ++ c :: post ∧ no_failure D aifc pre buffer ∧
          c.tag = tag_FVER.take 4 ∧ 4 ≤ c.data.length ∧
          be_val c.data ≠ AIFC_CURRENT_SPECIFICATION := by
  intro cs
  induction cs with
  | nil =>
    intro buffer x
    constructor
    · intro h
      unfold walk at h
      split_ifs at h
    · rintro ⟨pre, c, post, h, -⟩
      exact absurd h (by simp)
  | cons c cs ih =>
    intro buffer x
    unfold walk
    rcases hcf : chunk_failure D aifc buffer c with _ | e
    · dsimp only
      rw [ih]
      constructor
      · rintro ⟨pre, c', post, h1, h2, h3⟩
        exact ⟨c :: pre, c', post, by rw [h1]; rfl, ⟨hcf, h2⟩, h3⟩
      · rintro ⟨pre, c', post, h1, h2, h3⟩
        cases pre with
        | nil =>
          have hc : c = c' := (List.cons.inj h1).1
          subst hc
          have := (chunk_failure_wrong D aifc buffer c).2 h3
          rw [hcf] at this
          exact absurd this (by simp)
        | cons p pre =>
          have hc : c = p := (List.cons.inj h1).1
          subst hc
          exact ⟨pre, c', post, (List.cons.inj h1).2, h2.2, h3⟩
    · dsimp only
      constructor
      · intro he
        subst he
        exact ⟨[], c, cs, rfl, trivial, (chunk_failure_wrong D aifc buffer c).1 hcf⟩
      · rintro ⟨pre, c', post, h1, h2, h3⟩
        cases pre with
        | nil =>
          have hc : c = c' := (List.cons.inj h1).1
          subst hc
          have := (chunk_failure_wrong D aifc buffer c).2 h3
          rw [hcf] at this
          exact (Option.some.inj this)
        | cons p pre =>
          have hc : c = p := (List.cons.inj h1).1
          subst hc
          have := h2.1
          rw [hcf] at this
          exact absurd this (by simp)

/-- The bits of `format_check` after one more chunk. -/
theorem format_check_bits (c : Chunk) (x : Nat) (hx : x ≤ 7) :
    (if c.tag = tag_COMM.take 4 ∧ c.frame_count = 0 then
        (x ||| (classify c.tag).val) ||| AIFFTag.Audio.val
      else x ||| (classify c.tag).val) ≤ 7 ∧
    ((if c.tag = tag_COMM.take 4 ∧ c.frame_count = 0 then
        (x ||| (classify c.tag).val) ||| AIFFTag.Audio.val
      else x ||| (classify c.tag).val) &&& 2 ≠ 0
      ↔ (x &&& 2 ≠ 0 ∨ c.tag = tag_COMM.take 4)) ∧
    ((if c.tag = tag_COMM.take 4 ∧ c.frame_count = 0 then
        (x ||| (classify c.tag).val) ||| AIFFTag.Audio.val
      else x ||| (classify c.tag).val) &&& 4 ≠ 0
      ↔ (x &&& 4 ≠ 0 ∨ c.tag = tag_SSND.take 4 ∨
          (c.tag = tag_COMM.take 4 ∧ c.frame_count = 0))) := by
  have hne1 : tag_COMM.take 4 ≠ tag_FVER.take 4 := by decide
  have hne2 : tag_SSND.take 4 ≠ tag_FVER.take 4 := by decide
  have hne3 : tag_SSND.take 4 ≠ tag_COMM.take 4 := by decide
  by_cases hF : c.tag = tag_FVER.take 4
  · have hC : ¬ c.tag = tag_COMM.take 4 := fun h => hne1 (h.symm.trans hF)
    have hS : ¬ c.tag = tag_SSND.take 4 := fun h => hne2 (h.symm.trans hF)
    have hcl : classify c.tag = AIFFTag.Version := by
      unfold classify
      rw [if_pos hF]
    rw [hcl, if_neg (fun h => hC h.1)]
    simp only [hC, hS, false_and, or_false]
    interval_cases x <;> decide
  · by_cases hC : c.tag = tag_COMM.take 4
    · have hS : ¬ c.tag = tag_SSND.take 4 := fun h => hne3 (h.symm.trans hC)
      have hcl : classify c.tag = AIFFTag.Common := by
        unfold classify
        rw [if_neg hF, if_pos hC]
      rw [hcl]
      by_cases h0 : c.frame_count = 0
      · rw [if_pos ⟨hC, h0⟩]
        simp only [hC, hS, h0, and_self, or_true, false_or, iff_true]
        interval_cases x <;> decide
      · rw [if_neg (fun h => h0 h.2)]
        simp only [hC, hS, h0, and_false, or_false, or_true, iff_true]
        interval_cases x <;> decide
    · by_cases hS : c.tag = tag_SSND.take 4
      · have hcl : classify c.tag = AIFFTag.Audio := by
          unfold classify
          rw [if_neg hF, if_neg hC, if_pos hS]
        rw [hcl, if_neg (fun h => hC h.1)]
        simp only [hC, hS, false_and, or_false, or_true, true_or, iff_true]
        interval_cases x <;> decide
      · have hcl : classify c.tag = AIFFTag.Unknown := by
          unfold classify
          rw [if_neg hF, if_neg hC, if_neg hS]
        rw [hcl, if_neg (fun h => hC h.1)]
        simp only [hC, hS, false_and, or_false]
        interval_cases x <;> decide

theorem walk_cons_none {F : Type} (D : AudioFileDecls F) (aifc : Bool) (c : Chunk)
    (cs : List Chunk) (buffer : List Nat) (x : Nat)
    (h : chunk_failure D aifc buffer c = none) :
    walk D aifc (c :: cs) buffer x
      = walk D aifc cs (chunk_buffer buffer c)
          (if c.tag = tag_COMM.take 4 ∧ c.frame_count = 0 then
            (x ||| (classify c.tag).val) ||| AIFFTag.Audio.val
          else x ||| (classify c.tag).val) := by
  rw [walk, h]

theorem walk_cons_some {F : Type} (D : AudioFileDecls F) (aifc : Bool) (c : Chunk)
    (cs : List Chunk) (buffer : List Nat) (x : Nat) (e : Error)
    (h : chunk_failure D aifc buffer c = some e) :
    walk D aifc (c :: cs) buffer x = e := by
  rw [walk, h]

theorem walk_nil_none {F : Type} (D : AudioFileDecls F) (aifc : Bool) (buffer : List Nat)
    (x : Nat) (hx : x ≤ 7) :
    walk D aifc [] buffer x = Error.None ↔ x &&& 2 ≠ 0 ∧ x &&& 4 ≠ 0 := by
  rw [walk]
  interval_cases x <;> decide

theorem none_iff_aux (NF A B C S Z EC ES EZ : Prop) :
    (NF ∧ ((A ∨ C) ∨ EC) ∧ ((B ∨ S ∨ Z) ∨ ES ∨ EZ))
      ↔ (NF ∧ (A ∨ (C ∨ EC)) ∧ (B ∨ (S ∨ ES) ∨ (Z ∨ EZ))) := by
  tauto

/-- The result without error, chunk by chunk. -/
theorem walk_none {F : Type} (D : AudioFileDecls F) (aifc : Bool) :
    ∀ (cs : List Chunk) (buffer : List Nat) (x : Nat), x ≤ 7 →
      (walk D aifc cs buffer x = Error.None ↔
        no_failure D aifc cs buffer ∧
        (x &&& 2 ≠ 0 ∨ ∃ c ∈ cs, c.tag = tag_COMM.take 4) ∧
        (x &&& 4 ≠ 0 ∨ (∃ c ∈ cs, c.tag = tag_SSND.take 4) ∨
          ∃ c ∈ cs, c.tag = tag_COMM.take 4 ∧ c.frame_count = 0)) := by
  intro cs
  induction cs with
  | nil =>
    intro buffer x hx
    rw [walk_nil_none D aifc buffer x hx]
    have hnf : no_failure D aifc [] buffer := trivial
    simp only [List.not_mem_nil, false_and, exists_false, or_false, hnf, true_and]
  | cons c cs ih =>
    intro buffer x hx
    obtain ⟨k1, k2, k3⟩ := format_check_bits c x hx
    have hnf : no_failure D aifc (c :: cs) buffer
        ↔ chunk_failure D aifc buffer c = none ∧
          no_failure D aifc cs (chunk_buffer buffer c) := Iff.rfl
    rcases hcf : chunk_failure D aifc buffer c with _ | e
    · rw [walk_cons_none D aifc c cs buffer x hcf, ih _ _ k1, k2, k3, hnf]
      have m : ∀ p : Chunk → Prop, (∃ d ∈ c :: cs, p d) ↔ (p c ∨ ∃ d ∈ cs, p d) := fun p =>
        ⟨fun ⟨d, hm, hp⟩ => (List.mem_cons.1 hm).elim (fun e => Or.inl (e ▸ hp))
            (fun h => Or.inr ⟨d, h, hp⟩),
          fun h => h.elim (fun hp => ⟨c, List.mem_cons_self _ _, hp⟩)
            (fun ⟨d, h, hp⟩ => ⟨d, List.mem_cons_of_mem _ h, hp⟩)⟩
      have m1 : (∃ d ∈ c :: cs, d.tag = tag_COMM.take 4)
          ↔ (c.tag = tag_COMM.take 4 ∨ ∃ d ∈ cs, d.tag = tag_COMM.take 4) := m _
      have m2 : (∃ d ∈ c :: cs, d.tag = tag_SSND.take 4)
          ↔ (c.tag = tag_SSND.take 4 ∨ ∃ d ∈ cs, d.tag = tag_SSND.take 4) := m _
      have m3 : (∃ d ∈ c :: cs, d.tag = tag_COMM.take 4 ∧ d.frame_count = 0)
          ↔ ((c.tag = tag_COMM.take 4 ∧ c.frame_count = 0)
            ∨ ∃ d ∈ cs, d.tag = tag_COMM.take 4 ∧ d.frame_count = 0) := m _
      rw [m1, m2, m3, and_iff_right hcf]
      exact none_iff_aux _ _ _ _ _ _ _ _ _
    · rw [walk_cons_some D aifc c cs buffer x e hcf, hnf, hcf]
      constructor
      · intro he
        subst he
        exact absurd hcf (chunk_failure_ne_none D aifc buffer c)
      · intro h
        exact absurd h.1 (by simp)

/-- The declarations used for evaluation have big-endian headers. -/
theorem test_decls_big_endian : test_decls.big_endian_headers := by
  refine ⟨rfl, fun _ => rfl, fun _ _ => rfl, ?_⟩
  intro bs hbs
  match bs, hbs with
  | a :: b :: c :: d :: rest, _ =>
    show List.foldl (fun acc b => acc * 256 + b) 0 (List.take 4 (a :: b :: c :: d :: rest)) = _
    simp [be_val]

/-- C23: on a reader that stands at the start of a chunk sequence (well-formed chunks,
followed by fewer than 8 bytes, in a file of less than `2^64` bytes), with the declarations
that are not among the sources giving big-endian headers, `parse_aiff_header` returns, and
its result is `WrongAIFCVersion` exactly when the sequence has an `FVER` chunk of at least 4
bytes whose 32-bit value differs from `0xA2805140` with no failing chunk before it; with no
`FVER` chunk in the sequence the result is not `WrongAIFCVersion`; and the result is `None`
exactly when no chunk fails and the sequence has a `COMM` chunk and either an `SSND` chunk or
a `COMM` chunk with frame count zero. -/
theorem parse_aiff_header_version {F : Type} (D : AudioFileDecls F) (fileSubtype : List Nat)
    (chunk : List Nat) (f : IAudioFile F) (pre trail : List Nat) (cs : List Chunk)
    (fuel : Nat) (hD : D.big_endian_headers)
    (hb : f.m_file.bytes = pre ++ (encode_chunks cs ++ trail))
    (hp : f.m_file.pos = pre.length) (hwf : ∀ c ∈ cs, c.wf)
    (hsize : f.m_file.bytes.length < 2 ^ 64) (hchunk : chunk.length = 22)
    (htrail : trail.length < 8) (hfuel : cs.length < fuel) :
    ∃ r g, parse_aiff_header D fileSubtype chunk fuel f = some (r, g) ∧
      (r = Error.WrongAIFCVersion ↔
        ∃ before c after, cs = before ++ c :: after ∧
          no_failure D (match_tag fileSubtype tag_AIFC) before chunk ∧
          c.tag = tag_FVER.take 4 ∧ 4 ≤ c.data.length ∧
          be_val c.data ≠ AIFC_CURRENT_SPECIFICATION) ∧
      ((∀ c ∈ cs, c.tag ≠ tag_FVER.take 4) → r ≠ Error.WrongAIFCVersion) ∧
      (r = Error.None ↔
        no_failure D (match_tag fileSubtype tag_AIFC) cs chunk ∧
        (∃ c ∈ cs, c.tag = tag_COMM.take 4) ∧
        ((∃ c ∈ cs, c.tag = tag_SSND.take 4) ∨
          ∃ c ∈ cs, c.tag = tag_COMM.take 4 ∧ c.frame_count = 0)) := by
  obtain ⟨g, hg⟩ := parse_aiff_loop_chunks D fileSubtype hD trail htrail cs pre
    { f with m_format := D.aiff } chunk 0 0 fuel hb hp hwf hsize hD.aiff hchunk hfuel
  have hw := walk_wrong D (match_tag fileSubtype tag_AIFC) cs chunk 0
  have hn := walk_none D (match_tag fileSubtype tag_AIFC) cs chunk 0 (by omega)
  refine ⟨_, g, hg, hw, ?_, ?_⟩
  · intro hno hr
    obtain ⟨before, c, after, h1, -, h3, -⟩ := hw.1 hr
    exact hno c (by rw [h1]; exact List.mem_append_right _ (List.mem_cons_self _ _)) h3
  · rw [hn]
    have e2 : ¬ (0 &&& 2 ≠ 0) := by decide
    have e4 : ¬ (0 &&& 4 ≠ 0) := by decide
    simp only [e2, e4, false_or]

theorem parse_aiff_header_version_witness :
    test_decls.big_endian_headers ∧
    (∀ c ∈ [test_FVER 5, test_COMM, test_SSND], c.wf) ∧
    ∃ r g, parse_aiff_header test_decls [0x41, 0x49, 0x46, 0x43] (List.replicate 22 0xAA) 10
        (test_reader (test_form [0x41, 0x49, 0x46, 0x43]
          ++ (encode_chunks [test_FVER 5, test_COMM, test_SSND] ++ []))) = some (r, g) ∧
      r = Error.WrongAIFCVersion := by
  have hwf : ∀ c ∈ [test_FVER 5, test_COMM, test_SSND], c.wf := by
    intro c hc
    simp only [List.mem_cons, List.mem_singleton, List.not_mem_nil, or_false] at hc
    rcases hc with rfl | rfl | rfl
    · exact ⟨rfl, by decide, by decide⟩
    · exact ⟨rfl, by decide, by decide⟩
    · exact ⟨rfl, by decide, by decide⟩
  obtain ⟨r, g, h1, h2, -, -⟩ := parse_aiff_header_version test_decls [0x41, 0x49, 0x46, 0x43]
    (List.replicate 22 0xAA)
    (test_reader (test_form [0x41, 0x49, 0x46, 0x43]
      ++ (encode_chunks [test_FVER 5, test_COMM, test_SSND] ++ [])))
    (test_form [0x41, 0x49, 0x46, 0x43]) [] [test_FVER 5, test_COMM, test_SSND] 10
    test_decls_big_endian rfl rfl hwf (by decide) rfl (by decide) (by decide)
  exact ⟨test_decls_big_endian, hwf, r, g, h1,
    h2.2 ⟨[], test_FVER 5, [test_COMM, test_SSND], rfl, trivial, rfl, by decide, by decide⟩⟩

/-- The parser on a file with an `FVER` chunk of value 5, evaluated. -/
theorem parse_aiff_header_evaluation :
    (parse_aiff_header test_decls [0x41, 0x49, 0x46, 0x43] (List.replicate 22 0xAA) 10
      (test_reader (test_form [0x41, 0x49, 0x46, 0x43]
        ++ (encode_chunks [test_FVER 5, test_COMM, test_SSND] ++ [])))).map (fun r => r.1)
      = some Error.WrongAIFCVersion ∧
    (parse_aiff_header test_decls [0x41, 0x49, 0x46, 0x43] (List.replicate 22 0xAA) 10
      (test_reader (test_form [0x41, 0x49, 0x46, 0x43]
        ++ (encode_chunks [test_FVER 0xA2805140, test_COMM, test_SSND] ++ [])))).map
          (fun r => r.1)
      = some Error.UnsupportedAIFCFormat ∧
    (parse_aiff_header test_decls [0x41, 0x49, 0x46, 0x46] (List.replicate 22 0xAA) 10
      (test_reader (test_form [0x41, 0x49, 0x46, 0x46]
        ++ (encode_chunks [test_COMM, test_SSND] ++ [])))).map (fun r => r.1)
      = some Error.None := by
  refine ⟨by decide, by decide, by decide⟩

/-! ### `log2` as a ceiling (C39) -/

/-- C39: for every `value ≥ 1`, `convolve_partitioned::log2(value)` is the least `k` with
`2^k ≥ value` (the ceiling of the base-2 logarithm): `value ≤ 2^log2(value)` and every `k`
with `value ≤ 2^k` is at least `log2(value)`; `log2(2^k) = k` for every `k`; and `value` is a
power of two if and only if `value == 1 << log2(value)`. -/
theorem log2_ceiling (value : Nat) (hv : 1 ≤ value) :
    value ≤ 2 ^ log2 value ∧ (∀ k, value ≤ 2 ^ k → log2 value ≤ k) ∧
    (∀ k, log2 (2 ^ k) = k) ∧
    ((∃ k, value = 2 ^ k) ↔ value = 1 <<< log2 value) := by
  refine ⟨le_two_pow_log2 value, fun k hk => log2_le_of_le_two_pow value k hv hk,
    log2_two_pow, ?_⟩
  rw [Nat.one_shiftLeft]
  exact (eq_two_pow_log2_iff value).symm

theorem log2_ceiling_witness :
    1 ≤ 100 ∧ 100 ≤ 2 ^ log2 100 ∧ log2 100 ≤ 7 ∧ log2 (2 ^ 20) = 20 ∧
    ¬ (100 = 1 <<< log2 100) := by
  have key := log2_ceiling 100 (by decide)
  refine ⟨by decide, key.1, key.2.1 7 (by decide), key.2.2.1 20, ?_⟩
  intro h
  obtain ⟨k, hk⟩ := key.2.2.2.2 h
  have h6 : k ≤ 6 ∨ 7 ≤ k := by omega
  rcases h6 with h6 | h7
  · have := Nat.pow_le_pow_right (by norm_num : 0 < 2) h6
    omega
  · have := Nat.pow_le_pow_right (by norm_num : 0 < 2) h7
    omega

/-! ### `extractErrorsFromFlags` (C37) -/

/-- The loop only appends. -/
theorem extract_loop_append (ub : Nat → Nat) (flags : Nat) :
    ∀ (count i : Nat) (errors : List Nat),
      extract_loop ub flags count i errors = errors ++ extract_loop ub flags count i [] := by
  intro count
  induction count with
  | zero => intro i errors; simp [extract_loop]
  | succ n ih =>
    intro i errors
    unfold extract_loop
    split_ifs with h
    · rw [ih _ (errors ++ [i]), ih _ ([] ++ [i]), List.nil_append, List.append_assoc]
    · exact ih _ errors

/-- The loop pushes indices from `i` on only. -/
theorem extract_loop_mem (ub : Nat → Nat) (flags : Nat) :
    ∀ (count i x : Nat), x ∈ extract_loop ub flags count i [] →
      i ≤ x ∧ flags &&& shift_one ub x ≠ 0 := by
  intro count
  induction count with
  | zero => intro i x hx; simp [extract_loop] at hx
  | succ n ih =>
    intro i x hx
    unfold extract_loop at hx
    split_ifs at hx with h
    · rw [extract_loop_append, List.nil_append] at hx
      rcases List.mem_append.1 hx with h1 | h1
      · have : x = i := by simpa using h1
        subst this
        exact ⟨le_refl _, h⟩
      · have := ih _ _ h1
        exact ⟨by omega, this.2⟩
    · have := ih _ _ hx
      exact ⟨by omega, this.2⟩

/-- The loop run for `a + b` iterations is the loop run for `a` and then for `b`. -/
theorem extract_loop_split (ub : Nat → Nat) (flags : Nat) (b : Nat) :
    ∀ (a i : Nat) (errors : List Nat),
      extract_loop ub flags (a + b) i errors
        = extract_loop ub flags b (i + a) (extract_loop ub flags a i errors) := by
  intro a
  induction a with
  | zero =>
    intro i errors
    rw [Nat.zero_add]
    rfl
  | succ n ih =>
    intro i errors
    have e : n + 1 + b = (n + b) + 1 := by omega
    rw [e, extract_loop, ih, extract_loop]
    have e2 : i + 1 + n = i + (n + 1) := by omega
    rw [e2]

set_option maxRecDepth 100000 in
/-- C37: the code breaks the claim at the flag word that holds the `FileError` bit only
(`setErrorBit` on an empty word). Whatever the shifts by 31 and more yield, the first
element returned is `static_cast<Error>(1)`, which is `CouldNotAllocate`, and `FileError` is
not among the elements; where those shifts yield 0 the result is the single element
`CouldNotAllocate`, and where the shift count is taken modulo 32 the indices 33, 65, ... are
returned as well. -/
theorem extract_errors_file_error_evaluation :
    setErrorBit 0 Error.FileError = 2 ∧
    (∀ ub, (extractErrorsFromFlags ub (setErrorBit 0 Error.FileError)).head?
      = some Error.CouldNotAllocate.val) ∧
    (∀ ub, Error.FileError.val ∉ extractErrorsFromFlags ub (setErrorBit 0 Error.FileError)) ∧
    extractErrorsFromFlags (fun _ => 0) (setErrorBit 0 Error.FileError)
      = [Error.CouldNotAllocate.val] ∧
    (extractErrorsFromFlags (fun i => 1 <<< (i % 32)) (setErrorBit 0 Error.FileError)).take 3
      = [1, 33, 65] := by
  have key : ∀ ub, extractErrorsFromFlags ub (setErrorBit 0 Error.FileError)
      = [1] ++ extract_loop ub 2 510 3 [] := by
    intro ub
    have e : extractErrorsFromFlags ub (setErrorBit 0 Error.FileError)
        = extract_loop ub 2 (3 + 510) 0 [] := rfl
    have e3 : extract_loop ub 2 3 0 [] = [1] := by
      have h4 : (2 &&& 4 : Nat) = 0 := by decide
      simp [extract_loop, shift_one, h4]
    rw [e, extract_loop_split, e3, extract_loop_append]
  refine ⟨rfl, ?_, ?_, by decide, by decide⟩
  · intro ub
    rw [key]
    rfl
  · intro ub hmem
    rw [key] at hmem
    rcases List.mem_append.1 hmem with h1 | h1
    · exact absurd h1 (by decide)
    · have := (extract_loop_mem ub 2 510 3 _ h1).1
      exact absurd this (by decide)

/-! ### The stage offsets of `set_partitions` (C36) -/

/-- The start of stage `i` in closed form, for strictly increasing even sizes: half the FFT
size of the stage behind a time-domain head, and `(s[i] - s[0]) / 2` without one. -/
theorem stage_offset_closed (zl : Bool) (s : List Nat) (hs : s.Pairwise (fun x y => x < y))
    (heven : ∀ x ∈ s, x % 2 = 0) (i : Nat) (hi : i < s.length) :
    stage_offset zl s i = (if zl then s.getD i 0 / 2 else (s.getD i 0 - s.getD 0 0) / 2) ∧
    s.getD 0 0 ≤ s.getD i 0 := by
  induction i with
  | zero =>
    refine ⟨?_, le_refl _⟩
    unfold stage_offset
    split_ifs
    · rfl
    · rw [Nat.sub_self]
  | succ i ih =>
    obtain ⟨h1, h2⟩ := ih (by omega)
    have e : stage_offset zl s (i + 1) = stage_offset zl s i + stage_length s i := rfl
    have hlt : s.getD i 0 < s.getD (i + 1) 0 := by
      rw [List.getD_eq_getElem _ _ (by omega : i < s.length), List.getD_eq_getElem _ _ hi]
      exact List.pairwise_iff_getElem.mp hs i (i + 1) (by omega) hi (by omega)
    have ev : ∀ j, j < s.length → s.getD j 0 % 2 = 0 := by
      intro j hj
      rw [List.getD_eq_getElem _ _ hj]
      exact heven _ (List.getElem_mem hj)
    have e0 := ev 0 (by omega)
    have e1 := ev i (by omega)
    have e2 := ev (i + 1) hi
    refine ⟨?_, by omega⟩
    rw [e, h1]
    unfold stage_length
    split_ifs <;> omega

/-- C36: for every strictly increasing list of power-of-two FFT sizes `s_0 < ... < s_{n-1}`
accepted by the constructor's call of `set_partitions`, the partitioned stage with FFT size
`s_i` is created with IR offset `s_i / 2` when `zero_latency` is true and `(s_i - s_0) / 2`
when it is false: the intermediate stages by `create_part`, the final stage by the allocator,
which captures that offset for `i = n - 1`; the offset is the delay `s_i / 2` of the stage
less the latency (0 with a time-domain head, `s_0 / 2` without), and the captured offset does
not exceed the largest FFT size, so `max(size, largestSize) - offset` does not wrap. -/
theorem set_partitions_offsets {TD PC R : Type} (tops : TimeOps TD R) (ops : PartOps PC R)
    (equal : MemorySwap PC → (Nat → PC) → Nat → MemorySwap PC) (rnd max_length : Nat)
    (zl : Bool) (A B C D : Nat) (st : MonoConvolve TD PC)
    (h : MonoConvolve.ctor tops ops equal rnd max_length zl A B C D = Except.ok st)
    (hs : st.m_sizes.Pairwise (fun x y => x < y))
    (hpow : ∀ x ∈ st.m_sizes, ∃ k, x = 2 ^ k) :
    MonoConvolve.stages st
      = (List.range (st.m_sizes.length - 1)).map (fun i =>
          ops.set_reset_offset
            (ops.ctor (st.m_sizes.getD i 0) (stage_length st.m_sizes i)
              (if zl then st.m_sizes.getD i 0 / 2
                else (st.m_sizes.getD i 0 - st.m_sizes.getD 0 0) / 2)
              (stage_length st.m_sizes i))
            ((rnd : Int) + ((st.m_sizes.getD (i + 1) 0 >>> 3 : Nat) : Int))) ∧
    st.m_allocator
      = ((if zl then st.m_sizes.getD (st.m_sizes.length - 1) 0 / 2
            else (st.m_sizes.getD (st.m_sizes.length - 1) 0 - st.m_sizes.getD 0 0) / 2),
          st.m_sizes.getD (st.m_sizes.length - 1) 0) ∧
    (∀ i, i < st.m_sizes.length →
      ((if zl then st.m_sizes.getD i 0 / 2
          else (st.m_sizes.getD i 0 - st.m_sizes.getD 0 0) / 2 : Nat) : Int)
        = (st.m_sizes.getD i 0 : Int) / 2
          - (if zl then 0 else (st.m_sizes.getD 0 0 : Int) / 2)) ∧
    st.m_allocator.1 ≤ st.m_allocator.2 ∧
    (∀ size, size < 2 ^ 64 → allocate ops st.m_allocator size
      = ops.ctor st.m_allocator.2 (max size st.m_allocator.2 - st.m_allocator.1)
          st.m_allocator.1 0) := by
  obtain ⟨hc, hb⟩ := ctor_ok tops ops equal rnd max_length zl A B C D st h
  obtain ⟨hne, hr⟩ := check_sizes_range A B C D st.m_sizes hc
  have hlen := check_sizes_length A B C D st.m_sizes hc
  have hpos : 1 ≤ st.m_sizes.length := by
    rcases hl : st.m_sizes with _ | ⟨x, t⟩
    · exact absurd hl hne
    · simp
  have heven : ∀ x ∈ st.m_sizes, x % 2 = 0 := by
    intro x hx
    obtain ⟨k, hk⟩ := hpow x hx
    have h32 := (hr x hx).1
    rcases k with _ | k
    · rw [hk] at h32
      norm_num at h32
    · rw [hk, pow_succ, Nat.mul_mod_left]
  have key := build_tiling tops ops equal rnd max_length zl st.m_sizes hne hlen hs
    (fun x hx => (hr x hx).2)
  rw [← hb] at key
  have hcl := fun i hi => stage_offset_closed zl st.m_sizes hs heven i hi
  have hlast : st.m_sizes.length - 1 < st.m_sizes.length := by omega
  have hmem : st.m_sizes.getD (st.m_sizes.length - 1) 0 ∈ st.m_sizes := by
    rw [List.getD_eq_getElem _ _ hlast]
    exact List.getElem_mem _
  have hoff := stage_offset_le zl st.m_sizes hs (st.m_sizes.length - 1) hlast
  have hle := (hr _ hmem).2
  have h20 : (2 : Nat) ^ 20 = 1048576 := by norm_num
  have h64 : (2 : Nat) ^ 64 = 18446744073709551616 := by norm_num
  have halloc : st.m_allocator
      = ((if zl then st.m_sizes.getD (st.m_sizes.length - 1) 0 / 2
            else (st.m_sizes.getD (st.m_sizes.length - 1) 0 - st.m_sizes.getD 0 0) / 2),
          st.m_sizes.getD (st.m_sizes.length - 1) 0) := by
    rw [key.2.2, (hcl _ hlast).1]
  have hle1 : st.m_allocator.1 ≤ st.m_allocator.2 := by
    rw [key.2.2]
    show stage_offset zl st.m_sizes (st.m_sizes.length - 1)
      ≤ st.m_sizes.getD (st.m_sizes.length - 1) 0
    omega
  refine ⟨?_, halloc, ?_, hle1, ?_⟩
  · rw [key.2.1]
    apply List.map_congr_left
    intro i hi
    rw [List.mem_range] at hi
    rw [(hcl i (by omega)).1]
  · intro i hi
    have ev : st.m_sizes.getD i 0 % 2 = 0 := by
      rw [List.getD_eq_getElem _ _ hi]
      exact heven _ (List.getElem_mem hi)
    have e0 : st.m_sizes.getD 0 0 % 2 = 0 := by
      rw [List.getD_eq_getElem _ _ (by omega : 0 < st.m_sizes.length)]
      exact heven _ (List.getElem_mem _)
    have hmono := (hcl i hi).2
    split_ifs <;> omega
  · intro size hsize
    rcases hab : st.m_allocator with ⟨a, b⟩
    rw [hab] at hle1
    have hb2 : b = st.m_sizes.getD (st.m_sizes.length - 1) 0 := by
      have := key.2.2
      rw [hab] at this
      exact (Prod.mk.inj this).2
    exact allocate_eq ops a b size hle1 (by omega) hsize

theorem set_partitions_offsets_witness :
    MonoConvolve.ctor record_time record_part MemorySwap.equal 5 100000 false 256 1024 4096
      16384 = Except.ok mono_short ∧
    mono_short.m_sizes.Pairwise (fun x y => x < y) ∧
    (∀ x ∈ mono_short.m_sizes, ∃ k, x = 2 ^ k) ∧
    MonoConvolve.stages mono_short
      = [[Call.ctor_part 256 384 0 384, Call.set_reset_offset 133],
         [Call.ctor_part 1024 1536 384 1536, Call.set_reset_offset 517],
         [Call.ctor_part 4096 6144 1920 6144, Call.set_reset_offset 2053]] ∧
    mono_short.m_allocator = (8064, 16384) := by
  have hs : mono_short.m_sizes.Pairwise (fun x y => x < y) := by decide
  have hp : ∀ x ∈ mono_short.m_sizes, ∃ k, x = 2 ^ k := by
    intro x hx
    have hm : mono_short.m_sizes = [256, 1024, 4096, 16384] := rfl
    rw [hm] at hx
    simp only [List.mem_cons, List.mem_singleton, List.not_mem_nil, or_false] at hx
    rcases hx with rfl | rfl | rfl | rfl
    · exact ⟨8, by norm_num⟩
    · exact ⟨10, by norm_num⟩
    · exact ⟨12, by norm_num⟩
    · exact ⟨14, by norm_num⟩
  have key := set_partitions_offsets record_time record_part MemorySwap.equal 5 100000 false
    256 1024 4096 16384 mono_short rfl hs hp
  exact ⟨rfl, hs, hp, key.1.trans (by decide), key.2.1.trans (by decide)⟩

/-! ### The sample conversions of `read_audio` (C38) -/

theorem to_int32_shift : to_int32 (1 <<< 31) = -2 ^ 31 := by decide

/-- The bits of a signed sample, shifted to the top of a 32-bit word and read as `int32_t`. -/
theorem to_int32_sample (N : Nat) (hN : 1 ≤ N ∧ N ≤ 4) (s : Int)
    (h1 : -2 ^ (8 * N - 1) ≤ s) (h2 : s < 2 ^ (8 * N - 1)) :
    to_int32 ((sample_bits N s <<< (32 - 8 * N)) % 2 ^ 32) = s * 2 ^ (32 - 8 * N) := by
  unfold to_int32 sample_bits
  rw [Nat.shiftLeft_eq]
  obtain ⟨hN1, hN4⟩ := hN
  interval_cases N
  · norm_num at h1 h2 ⊢
    have hm : (s % 256).toNat = if 0 ≤ s then s.toNat else (s + 256).toNat := by
      split_ifs with h <;> omega
    rw [hm]
    split_ifs <;> omega
  · norm_num at h1 h2 ⊢
    have hm : (s % 65536).toNat = if 0 ≤ s then s.toNat else (s + 65536).toNat := by
      split_ifs with h <;> omega
    rw [hm]
    split_ifs <;> omega
  · norm_num at h1 h2 ⊢
    have hm : (s % 16777216).toNat = if 0 ≤ s then s.toNat else (s + 16777216).toNat := by
      split_ifs with h <;> omega
    rw [hm]
    split_ifs <;> omega
  · norm_num at h1 h2 ⊢
    have hm : (s % 4294967296).toNat = if 0 ≤ s then s.toNat else (s + 4294967296).toNat := by
      split_ifs with h <;> omega
    rw [hm]
    split_ifs <;> omega

/-- The integer formats that go through the overload for `uint32_t`: a signed sample `s` of
`8 * N` bits (`N` from 1 to 4) converts to `s / 2^(8 * N - 1)`, which lies in `[-1, 1)`. -/
theorem read_loop_uint32_exact {R : Type} [LinearOrderedField R] (N : Nat)
    (hN : 1 ≤ N ∧ N ≤ 4) (s : Int)
    (h1 : -2 ^ (8 * N - 1) ≤ s) (h2 : s < 2 ^ (8 * N - 1)) :
    (read_loop_uint32 (32 - 8 * N) (sample_bits N s) : R) = (s : R) / 2 ^ (8 * N - 1) ∧
    (-1 : R) ≤ (s : R) / 2 ^ (8 * N - 1) ∧ (s : R) / 2 ^ (8 * N - 1) < 1 := by
  have hpos : (0 : R) < 2 ^ (8 * N - 1) := pow_pos (by norm_num) _
  refine ⟨?_, ?_, ?_⟩
  · unfold read_loop_uint32 convert_uint32 convert_as_int32
    rw [to_int32_sample N hN s h1 h2, to_int32_shift]
    push_cast
    have e : (2 : R) ^ 31 = 2 ^ (32 - 8 * N) * 2 ^ (8 * N - 1) := by
      rw [← pow_add]
      congr 1
      omega
    have e2 : (2147483648 : R) = 2 ^ (32 - 8 * N) * 2 ^ (8 * N - 1) := by
      rw [← e]
      norm_num
    rw [e2]
    have h3 : (2 : R) ^ (32 - 8 * N) ≠ 0 := pow_ne_zero _ (by norm_num)
    have h4 : (2 : R) ^ (8 * N - 1) ≠ 0 := pow_ne_zero _ (by norm_num)
    field_simp
    ring
  · rw [le_div_iff₀ hpos]
    have : ((-2 ^ (8 * N - 1) : Int) : R) ≤ (s : R) := by exact_mod_cast h1
    push_cast at this
    linarith
  · rw [div_lt_iff₀ hpos, one_mul]
    have : (s : R) < ((2 ^ (8 * N - 1) : Int) : R) := by exact_mod_cast h2
    push_cast at this
    exact this

/-- C38: the code breaks the claim for 8-bit WAVE samples. For the sample byte 255 the claim
gives `(255 - 128) / 128 = 127 / 128`; `read_audio` yields 255 on a little-endian host and 0
on a big-endian one, neither of them `127 / 128`, and 255 is outside `[-1, 1)`. The overload
`convert(uint8_t, uint8_t, T)`, which computes `(u - 128) / 128`, is never selected. -/
theorem read_audio_wave_int8_evaluation :
    (convert_uint8 255 : ℚ) = 127 / 128 ∧
    (read_audio_sample true true PCMFormat.Int8 255 : Option ℚ) = some 255 ∧
    (read_audio_sample false true PCMFormat.Int8 255 : Option ℚ) = some 0 ∧
    (∀ host_little, (read_audio_sample host_little true PCMFormat.Int8 255 : Option ℚ)
      ≠ some ((255 - 128) / 128)) ∧
    ¬ ((255 : ℚ) < 1) := by
  have e1 : (read_audio_sample true true PCMFormat.Int8 255 : Option ℚ) = some 255 := by
    norm_num [read_audio_sample, read_loop_uint8, convert_as_uint8]
  have e2 : (read_audio_sample false true PCMFormat.Int8 255 : Option ℚ) = some 0 := by
    norm_num [read_audio_sample, read_loop_uint8, convert_as_uint8]
  refine ⟨by norm_num [convert_uint8], e1, e2, ?_, by norm_num⟩
  intro host_little
  cases host_little
  · rw [e2]
    norm_num
  · rw [e1]
    norm_num

/-- The other integer formats of `read_audio`: a signed 16-bit sample `s` yields `s / 2^15`,
a signed 24-bit sample `s / 2^23`, a signed 32-bit sample `s / 2^31` and a signed 8-bit AIFF
sample `s / 2^7`, each in `[-1, 1)`. -/
theorem read_audio_signed_exact {R : Type} [LinearOrderedField R] (host_little wave : Bool)
    (s : Int) :
    (-2 ^ 15 ≤ s → s < 2 ^ 15 →
      read_audio_sample host_little wave PCMFormat.Int16 (sample_bits 2 s)
        = some ((s : R) / 2 ^ 15) ∧ (-1 : R) ≤ (s : R) / 2 ^ 15 ∧ (s : R) / 2 ^ 15 < 1) ∧
    (-2 ^ 23 ≤ s → s < 2 ^ 23 →
      read_audio_sample host_little wave PCMFormat.Int24 (sample_bits 3 s)
        = some ((s : R) / 2 ^ 23) ∧ (-1 : R) ≤ (s : R) / 2 ^ 23 ∧ (s : R) / 2 ^ 23 < 1) ∧
    (-2 ^ 31 ≤ s → s < 2 ^ 31 →
      read_audio_sample host_little wave PCMFormat.Int32 (sample_bits 4 s)
        = some ((s : R) / 2 ^ 31) ∧ (-1 : R) ≤ (s : R) / 2 ^ 31 ∧ (s : R) / 2 ^ 31 < 1) ∧
    (-2 ^ 7 ≤ s → s < 2 ^ 7 →
      read_audio_sample host_little false PCMFormat.Int8 (sample_bits 1 s)
        = some ((s : R) / 2 ^ 7) ∧ (-1 : R) ≤ (s : R) / 2 ^ 7 ∧ (s : R) / 2 ^ 7 < 1) := by
  refine ⟨fun h1 h2 => ?_, fun h1 h2 => ?_, fun h1 h2 => ?_, fun h1 h2 => ?_⟩
  · obtain ⟨a, b, c⟩ := read_loop_uint32_exact (R := R) 2 (by omega) s h1 h2
    exact ⟨congrArg some a, b, c⟩
  · obtain ⟨a, b, c⟩ := read_loop_uint32_exact (R := R) 3 (by omega) s h1 h2
    exact ⟨congrArg some a, b, c⟩
  · obtain ⟨a, b, c⟩ := read_loop_uint32_exact (R := R) 4 (by omega) s h1 h2
    exact ⟨congrArg some a, b, c⟩
  · obtain ⟨a, b, c⟩ := read_loop_uint32_exact (R := R) 1 (by omega) s h1 h2
    exact ⟨congrArg some a, b, c⟩

/-! ### `deinterleave` and `interleave` (C33) -/

/-- C33: the code breaks the claim for the AVX-512 specialisations. For the 16 interleaved
values `in[i] = i`, `deinterleave` for `SIMDType<double, 8>` gives
`outReal = (0, 8, 2, 10, 4, 12, 6, 14)` and `outImag = (1, 9, 3, 11, 5, 13, 7, 15)` instead of
`outReal[k] = in[2k]`, `outImag[k] = in[2k + 1]`: for every input `outReal[1]` is `in[8]`, not
`in[2]`; `deinterleave` for `SIMDType<float, 16>` gives `outReal[1] = in[16]` and
`outReal[2] = in[1]`; `interleave` for `SIMDType<double, 8>` puts `inReal[2]` where
`inReal[1]` belongs; and for `SIMDType<float, 16>` `interleave` after `deinterleave` returns
`in[2]` at index 1, so it is not the inverse either. -/
theorem deinterleave_avx512_evaluation :
    (List.range 8).map (deinterleave_double_8 (fun i => i)).1 = [0, 8, 2, 10, 4, 12, 6, 14] ∧
    (List.range 8).map (deinterleave_double_8 (fun i => i)).2 = [1, 9, 3, 11, 5, 13, 7, 15] ∧
    (∀ (α : Type) (input : Nat → α), (deinterleave_double_8 input).1 1 = input 8) ∧
    (∀ (α : Type) (input : Nat → α),
      (deinterleave_float_16 input).1 1 = input 16 ∧
      (deinterleave_float_16 input).1 2 = input 1) ∧
    (∀ (α : Type) [Zero α] (inReal inImag : Nat → α),
      interleave_double_8 inReal inImag 2 = inReal 2) ∧
    (∀ (α : Type) [Zero α] (input : Nat → α),
      interleave_float_16 (deinterleave_float_16 input).1 (deinterleave_float_16 input).2 1
        = input 2) := by
  refine ⟨by decide, by decide, fun α input => rfl, fun α input => ⟨rfl, rfl⟩,
    fun α _ inReal inImag => rfl, fun α _ input => rfl⟩

/-- The scalar, SSE, AVX and NEON specialisations of `deinterleave` split in the order of the
scalar version: `outReal[k] = in[2k]` and `outImag[k] = in[2k + 1]` for every `k < W`. -/
theorem deinterleave_split_order {α : Type} [Zero α] (input : Nat → α) :
    ((deinterleave_1 input).1 0 = input 0 ∧ (deinterleave_1 input).2 0 = input 1) ∧
    (∀ k, k < 2 → (deinterleave_double_2 input).1 k = input (2 * k) ∧
      (deinterleave_double_2 input).2 k = input (2 * k + 1)) ∧
    (∀ k, k < 4 → (deinterleave_float_4 input).1 k = input (2 * k) ∧
      (deinterleave_float_4 input).2 k = input (2 * k + 1)) ∧
    (∀ k, k < 4 → (deinterleave_double_4 input).1 k = input (2 * k) ∧
      (deinterleave_double_4 input).2 k = input (2 * k + 1)) ∧
    (∀ k, k < 8 → (deinterleave_float_8 input).1 k = input (2 * k) ∧
      (deinterleave_float_8 input).2 k = input (2 * k + 1)) ∧
    (∀ k, k < 2 → (deinterleave_neon 2 input).1 k = input (2 * k) ∧
      (deinterleave_neon 2 input).2 k = input (2 * k + 1)) ∧
    (∀ k, k < 4 → (deinterleave_neon 4 input).1 k = input (2 * k) ∧
      (deinterleave_neon 4 input).2 k = input (2 * k + 1)) := by
  refine ⟨⟨rfl, rfl⟩, ?_, ?_, ?_, ?_, ?_, ?_⟩
  · intro k hk
    interval_cases k <;> exact ⟨rfl, rfl⟩
  · intro k hk
    interval_cases k <;> exact ⟨rfl, rfl⟩
  · intro k hk
    interval_cases k <;> exact ⟨rfl, rfl⟩
  · intro k hk
    interval_cases k <;> exact ⟨rfl, rfl⟩
  · intro k hk
    interval_cases k <;> exact ⟨rfl, rfl⟩
  · intro k hk
    interval_cases k <;> exact ⟨rfl, rfl⟩

/-- Every specialisation of `interleave` but the one for `SIMDType<float, 16>` undoes the
`deinterleave` of the same width: the `2 W` values come back in their places. -/
theorem interleave_deinterleave {α : Type} [Zero α] (input : Nat → α) :
    (∀ i, i < 2 → interleave_1 (deinterleave_1 input).1 (deinterleave_1 input).2 i
      = input i) ∧
    (∀ i, i < 4 → interleave_double_2 (deinterleave_double_2 input).1
      (deinterleave_double_2 input).2 i = input i) ∧
    (∀ i, i < 8 → interleave_float_4 (deinterleave_float_4 input).1
      (deinterleave_float_4 input).2 i = input i) ∧
    (∀ i, i < 8 → interleave_double_4 (deinterleave_double_4 input).1
      (deinterleave_double_4 input).2 i = input i) ∧
    (∀ i, i < 16 → interleave_float_8 (deinterleave_float_8 input).1
      (deinterleave_float_8 input).2 i = input i) ∧
    (∀ i, i < 16 → interleave_double_8 (deinterleave_double_8 input).1
      (deinterleave_double_8 input).2 i = input i) ∧
    (∀ i, i < 4 → interleave_neon 2 (deinterleave_neon 2 input).1
      (deinterleave_neon 2 input).2 i = input i) ∧
    (∀ i, i < 8 → interleave_neon 4 (deinterleave_neon 4 input).1
      (deinterleave_neon 4 input).2 i = input i) := by
  refine ⟨?_, ?_, ?_, ?_, ?_, ?_, ?_, ?_⟩ <;>
  · intro i hi
    interval_cases i <;> rfl

/-! ### `unzip_zero` (C40) -/

/-- The unzip loop inside the array: the bins from `i` to `i + count` are filled with the
pairs of samples, the others are kept. -/
theorem unzip_complex_loop_spec {R : Type} [Zero R] (input : List R) :
    ∀ (count i : Nat) (output : Split R), 2 * (i + count) ≤ input.length →
      ∃ out, unzip_complex_loop input count i output = some out ∧
        ∀ k, (out.realp k = if i ≤ k ∧ k < i + count then input.getD (2 * k) 0
            else output.realp k) ∧
          (out.imagp k = if i ≤ k ∧ k < i + count then input.getD (2 * k + 1) 0
            else output.imagp k) := by
  intro count
  induction count with
  | zero =>
    intro i output _
    refine ⟨output, rfl, fun k => ?_⟩
    rw [if_neg (by omega), if_neg (by omega)]
    exact ⟨rfl, rfl⟩
  | succ n ih =>
    intro i output hlen
    have h1 : 2 * i < input.length := by omega
    have h2 : 2 * i + 1 < input.length := by omega
    unfold unzip_complex_loop
    rw [List.getElem?_eq_getElem h1, List.getElem?_eq_getElem h2]
    dsimp only
    obtain ⟨out, ho, hs⟩ := ih (i + 1) _ (by omega : 2 * (i + 1 + n) ≤ input.length)
    refine ⟨out, ho, fun k => ?_⟩
    obtain ⟨a, b⟩ := hs k
    rw [a, b]
    by_cases hk : k = i
    · subst hk
      have c1 : ¬ (k + 1 ≤ k ∧ k < k + 1 + n) := by omega
      have c2 : k ≤ k ∧ k < k + (n + 1) := by omega
      simp only [c1, c2, if_true, if_false, and_self, List.getD_eq_getElem _ _ h1,
        List.getD_eq_getElem _ _ h2]
    · by_cases hr : i + 1 ≤ k ∧ k < i + 1 + n
      · have c2 : i ≤ k ∧ k < i + (n + 1) := by omega
        simp only [hr, c2, if_true, and_self]
      · have c2 : ¬ (i ≤ k ∧ k < i + (n + 1)) := by omega
        simp only [hr, c2, hk, if_false, and_self]

/-- The zero-fill loop: the bins from `i` to `i + count` are zero, the others are kept. -/
theorem zero_pad_loop_spec {R : Type} [Zero R] :
    ∀ (count i : Nat) (output : Split R) (k : Nat),
      ((zero_pad_loop count i output).realp k
        = if i ≤ k ∧ k < i + count then 0 else output.realp k) ∧
      ((zero_pad_loop count i output).imagp k
        = if i ≤ k ∧ k < i + count then 0 else output.imagp k) := by
  intro count
  induction count with
  | zero =>
    intro i output k
    rw [if_neg (by omega), if_neg (by omega)]
    exact ⟨rfl, rfl⟩
  | succ n ih =>
    intro i output k
    unfold zero_pad_loop
    obtain ⟨a, b⟩ := ih (i + 1) _ k
    rw [a, b]
    by_cases hk : k = i
    · subst hk
      have c1 : ¬ (k + 1 ≤ k ∧ k < k + 1 + n) := by omega
      have c2 : k ≤ k ∧ k < k + (n + 1) := by omega
      simp only [c1, c2, if_true, if_false, and_self]
    · by_cases hr : i + 1 ≤ k ∧ k < i + 1 + n
      · have c2 : i ≤ k ∧ k < i + (n + 1) := by omega
        simp only [hr, c2, if_true, and_self]
      · have c2 : ¬ (i ≤ k ∧ k < i + (n + 1)) := by omega
        simp only [hr, c2, hk, if_false, and_self]

theorem getD_take_lt {R : Type} [Zero R] (input : List R) (n i : Nat) (h : i < n) :
    (input.take n).getD i 0 = input.getD i 0 := by
  rw [List.getD_eq_getElem?_getD, List.getD_eq_getElem?_getD, List.getElem?_take_of_lt h]

theorem isSome_getElem_iff {R : Type} (l : List R) (i : Nat) :
    (l[i]?).isSome = true ↔ i < l.length := by
  rcases Nat.lt_or_ge i l.length with h | h
  · rw [List.getElem?_eq_getElem h]
    exact ⟨fun _ => h, fun _ => rfl⟩
  · rw [List.getElem?_eq_none h]
    exact ⟨fun hc => absurd hc (by simp), fun hc => absurd hc (by omega)⟩

/-- C40: for every `log2n ≥ 1` (below the width of `uintptr_t`) and every input array of which
`in_length ≥ 1` samples are passed, `unzip_zero` returns and fills the split output so that
for every `k < 2^(log2n - 1)`: `realp[k] = x'[2k]` and `imagp[k] = x'[2k + 1]`, where `x'` is
the input of `in_length` samples truncated to `2^log2n` samples and padded with zeros to that
length (an odd trailing sample lands in `realp` with a zero in `imagp`); and the read of
`input[in_length - 1]` is inside an array of `in_length` samples exactly when
`in_length ≥ 1`. -/
theorem unzip_zero_spec {R : Type} [Zero R] (input : List R) (output : Split R)
    (in_length log2n : Nat) (hlog : 1 ≤ log2n) (hlog64 : log2n < 64)
    (hin : 1 ≤ in_length) (hlen : in_length ≤ input.length) (h64 : input.length < 2 ^ 64) :
    (∃ out, unzip_zero input output in_length log2n = some out ∧
      ∀ k, k < 2 ^ (log2n - 1) →
        out.realp k = truncate_pad (input.take in_length) (2 ^ log2n) (2 * k) ∧
        out.imagp k = truncate_pad (input.take in_length) (2 ^ log2n) (2 * k + 1)) ∧
    (∀ n, n < 2 ^ 64 →
      (((input.take n)[(n + 2 ^ 64 - 1) % 2 ^ 64]?).isSome = true ↔ 1 ≤ n ∧ n ≤ input.length) ∧
      (n = 0 → unzip_zero (input.take n) output n log2n = none)) := by
  have hF : (1 <<< log2n) % 2 ^ 64 = 2 ^ log2n := by
    rw [Nat.one_shiftLeft]
    exact Nat.mod_eq_of_lt (Nat.pow_lt_pow_right (by norm_num) hlog64)
  have hFd : 2 ^ log2n = 2 * 2 ^ (log2n - 1) := by
    obtain ⟨m, rfl⟩ : ∃ m, log2n = m + 1 := ⟨log2n - 1, by omega⟩
    rw [Nat.add_sub_cancel, pow_succ, Nat.mul_comm]
  constructor
  · have hidx : (in_length + 2 ^ 64 - 1) % 2 ^ 64 = in_length - 1 := by
      have e : in_length + 2 ^ 64 - 1 = (in_length - 1) + 2 ^ 64 := by omega
      rw [e, Nat.add_mod_right, Nat.mod_eq_of_lt (by omega)]
    have hodd : input[(in_length + 2 ^ 64 - 1) % 2 ^ 64]?
        = some (input.getD (in_length - 1) 0) := by
      rw [hidx, List.getElem?_eq_getElem (by omega), List.getD_eq_getElem _ _ (by omega)]
    obtain ⟨m, hm⟩ : ∃ m, m = min (2 ^ log2n) in_length := ⟨_, rfl⟩
    have hm1 : m ≤ 2 ^ log2n := by rw [hm]; exact min_le_left _ _
    have hm2 : m ≤ in_length := by rw [hm]; exact min_le_right _ _
    have hhalf : m >>> 1 = m / 2 := by rw [Nat.shiftRight_eq_div_pow, pow_one]
    have hFhalf : (2 ^ log2n) >>> 1 = 2 ^ (log2n - 1) := by
      rw [Nat.shiftRight_eq_div_pow, pow_one, hFd, Nat.mul_div_cancel_left _ (by norm_num)]
    obtain ⟨out1, ho1, hs1⟩ := unzip_complex_loop_spec input (m / 2) 0 output (by omega)
    have htl : (input.take in_length).length = in_length := by
      rw [List.length_take]
      omega
    have hx : ∀ i, truncate_pad (input.take in_length) (2 ^ log2n) i
        = if i < m then input.getD i 0 else 0 := by
      intro i
      unfold truncate_pad
      rw [htl, ← hm]
      by_cases hi : i < m
      · rw [if_pos hi, if_pos hi, getD_take_lt _ _ _ (by omega)]
      · rw [if_neg hi, if_neg hi]
    unfold unzip_zero
    rw [hodd]
    dsimp only
    rw [hF, ← hm, hhalf]
    unfold unzip_complex
    rw [ho1]
    dsimp only
    by_cases hlt : 2 ^ log2n > m
    · rw [if_pos hlt, hFhalf]
      refine ⟨_, rfl, fun k hk => ?_⟩
      obtain ⟨z1, z2⟩ := zero_pad_loop_spec (R := R) (2 ^ (log2n - 1) - (m / 2 + 1)) (m / 2 + 1)
        { realp := fun k =>
            if k = m / 2 then (if m &&& 1 ≠ 0 then input.getD (in_length - 1) 0 else 0)
            else out1.realp k,
          imagp := fun k => if k = m / 2 then 0 else out1.imagp k } k
      rw [z1, z2, hx, hx]
      have hme : m = in_length := by omega
      obtain ⟨a, b⟩ := hs1 k
      by_cases hk1 : k < m / 2
      · have c1 : ¬ (m / 2 + 1 ≤ k ∧ k < m / 2 + 1 + (2 ^ (log2n - 1) - (m / 2 + 1))) := by
          omega
        have c2 : ¬ k = m / 2 := by omega
        have c3 : 0 ≤ k ∧ k < 0 + m / 2 := by omega
        have c4 : 2 * k < m := by omega
        have c5 : 2 * k + 1 < m := by omega
        simp only [c1, c2, c4, c5, if_false, if_true, a, b, c3, and_self]
      · by_cases hk2 : k = m / 2
        · rw [hk2]
          have c1 : ¬ (m / 2 + 1 ≤ m / 2 ∧
              m / 2 < m / 2 + 1 + (2 ^ (log2n - 1) - (m / 2 + 1))) := by
            omega
          have c5 : ¬ 2 * (m / 2) + 1 < m := by omega
          simp only [c1, c5, if_false, if_true]
          rw [Nat.and_one_is_mod]
          by_cases hpar : m % 2 ≠ 0
          · have c4 : 2 * (m / 2) < m := by omega
            have e : in_length - 1 = 2 * (m / 2) := by omega
            rw [if_pos hpar, if_pos c4, e]
            exact ⟨rfl, trivial⟩
          · have c4 : ¬ 2 * (m / 2) < m := by omega
            rw [if_neg hpar, if_neg c4]
            exact ⟨rfl, trivial⟩
        · have c1 : m / 2 + 1 ≤ k ∧ k < m / 2 + 1 + (2 ^ (log2n - 1) - (m / 2 + 1)) := by
            omega
          have c4 : ¬ 2 * k < m := by omega
          have c5 : ¬ 2 * k + 1 < m := by omega
          simp only [c1, c4, c5, if_false, if_true, and_self]
    · rw [if_neg hlt]
      refine ⟨_, rfl, fun k hk => ?_⟩
      obtain ⟨a, b⟩ := hs1 k
      have hme : m = 2 ^ log2n := by omega
      have c3 : 0 ≤ k ∧ k < 0 + m / 2 := by omega
      have c4 : 2 * k < m := by omega
      have c5 : 2 * k + 1 < m := by omega
      rw [a, b, hx, hx]
      simp only [c3, c4, c5, if_true, and_self]
  · intro n hn
    have hl : (input.take n).length = min n input.length := List.length_take _ _
    constructor
    · rw [isSome_getElem_iff, hl]
      rcases Nat.eq_zero_or_pos n with h0 | hpos
      · subst h0
        constructor
        · intro h
          rw [Nat.zero_min] at h
          omega
        · intro h
          omega
      · have e : (n + 2 ^ 64 - 1) % 2 ^ 64 = n - 1 := by
          have e1 : n + 2 ^ 64 - 1 = (n - 1) + 2 ^ 64 := by omega
          rw [e1, Nat.add_mod_right, Nat.mod_eq_of_lt (by omega)]
        rw [e]
        constructor
        · intro h
          have := lt_min_iff.1 h
          omega
        · intro h
          exact lt_min_iff.2 ⟨by omega, by omega⟩
    · intro h0
      subst h0
      unfold unzip_zero
      have : (input.take 0)[(0 + 2 ^ 64 - 1) % 2 ^ 64]? = none := by
        rw [List.take_zero]
        rfl
      rw [this]

theorem unzip_zero_spec_witness :
    1 ≤ 3 ∧ 3 ≤ [(5 : ℚ), 6, 7].length ∧
    ∃ out, unzip_zero [(5 : ℚ), 6, 7] ⟨fun _ => 9, fun _ => 9⟩ 3 3 = some out ∧
      (List.range 4).map out.realp = [5, 7, 0, 0] ∧
      (List.range 4).map out.imagp = [6, 0, 0, 0] := by
  obtain ⟨⟨out, h1, h2⟩, -⟩ := unzip_zero_spec [(5 : ℚ), 6, 7] ⟨fun _ => 9, fun _ => 9⟩ 3 3
    (by decide) (by decide) (by decide) (by decide) (by norm_num)
  refine ⟨by decide, by decide, out, h1, ?_, ?_⟩
  · have e : (List.range 4).map out.realp = [out.realp 0, out.realp 1, out.realp 2, out.realp 3] :=
      rfl
    rw [e, (h2 0 (by norm_num)).1, (h2 1 (by norm_num)).1, (h2 2 (by norm_num)).1,
      (h2 3 (by norm_num)).1]
    simp [truncate_pad]
  · have e : (List.range 4).map out.imagp = [out.imagp 0, out.imagp 1, out.imagp 2, out.imagp 3] :=
      rfl
    rw [e, (h2 0 (by norm_num)).2, (h2 1 (by norm_num)).2, (h2 2 (by norm_num)).2,
      (h2 3 (by norm_num)).2]
    simp [truncate_pad]

/-! ### The capacity of the buffers (C35) -/

/-- The members after the constructor's initialisers and setter calls, for a maximum FFT
size whose `log2` lies in `[5, 20]`. -/
theorem ctor_init_fields {R : Type} (u : convolve_partitioned R)
    (max_fft_size max_length offset length : Nat) (h5 : 5 ≤ log2 max_fft_size)
    (h20 : log2 max_fft_size ≤ 20) :
    (ctor_init u max_fft_size max_length offset length).m_max_fft_size_log2
      = log2 max_fft_size ∧
    (ctor_init u max_fft_size max_length offset length).m_fft_size_log2 = log2 max_fft_size ∧
    (ctor_init u max_fft_size max_length offset length).m_max_impulse_length = max_length ∧
    (ctor_init u max_fft_size max_length offset length).m_num_partitions = 0 := by
  obtain ⟨k, hk⟩ : ∃ k, k = log2 max_fft_size := ⟨_, rfl⟩
  rw [← hk] at h5 h20 ⊢
  have hm : (if (if k > 20 then 20 else k) ≠ 0 ∧ (if k > 20 then 20 else k) < 5 then 5
      else (if k > 20 then 20 else k)) = k := by
    have e : (if k > 20 then 20 else k) = k := if_neg (by omega)
    rw [e]
    exact if_neg (by omega)
  unfold ctor_init
  simp only [set_max_fft_size_snd, ← hk, hm, set_length, set_offset, get_max_fft_size,
    Nat.one_shiftLeft]
  unfold set_fft_size
  simp only [log2_two_pow, MIN_FFT_SIZE_LOG2]
  have : ¬ (k < 5 ∨ k > k) := by omega
  simp only [this, if_false]
  have h0 : k ≠ 0 := by omega
  simp [h0]

/-- The rounding of the constructor without the wrap: the least multiple of `half` that is at
least `n`, which is less than `n + half`. -/
theorem round_up_least (n half : Nat) (hh : 0 < half) :
    half ∣ (if n % half ≠ 0 then (n / half + 1) * half else n) ∧
    n ≤ (if n % half ≠ 0 then (n / half + 1) * half else n) ∧
    (∀ m, half ∣ m → n ≤ m → (if n % half ≠ 0 then (n / half + 1) * half else n) ≤ m) ∧
    (if n % half ≠ 0 then (n / half + 1) * half else n) < n + half := by
  have hdm := Nat.div_add_mod n half
  have hml := Nat.mod_lt n hh
  by_cases c : n % half ≠ 0
  · rw [if_pos c]
    refine ⟨Nat.dvd_mul_left _ _, ?_, ?_, ?_⟩
    · rw [Nat.add_mul, Nat.one_mul, Nat.mul_comm]
      omega
    · rintro m ⟨q, rfl⟩ hle
      rw [Nat.mul_comm half q]
      apply Nat.mul_le_mul_right
      by_contra hq
      have hq' : q ≤ n / half := by omega
      have : q * half ≤ n / half * half := Nat.mul_le_mul_right _ hq'
      rw [Nat.mul_comm half q] at hle
      rw [Nat.mul_comm (n / half) half] at this
      omega
    · rw [Nat.add_mul, Nat.one_mul, Nat.mul_comm]
      omega
  · rw [if_neg c]
    refine ⟨Nat.dvd_of_mod_eq_zero (by omega), le_refl _, fun m _ h => h, by omega⟩

/-- The partitions of a load of at most `cap` samples fit a capacity that is a multiple of
the hop. -/
theorem ceil_mul_le (L half cap : Nat) (hh : 0 < half) (hd : half ∣ cap) (hL : L ≤ cap) :
    (L + half - 1) / half * half ≤ cap := by
  obtain ⟨q, rfl⟩ := hd
  rw [Nat.mul_comm half q]
  apply Nat.mul_le_mul_right
  rw [Nat.div_le_iff_le_mul_add_pred hh]
  have : L ≤ half * q := hL
  omega

theorem pow_half_dvd (a b : Nat) (h1 : 1 ≤ a) (h : a ≤ b) : 2 ^ (a - 1) ∣ 2 ^ (b - 1) :=
  Nat.pow_dvd_pow 2 (by omega)

/-- `set_fft_size` keeps the partitions inside the buffers. -/
theorem set_fft_size_capacity {R : Type} (st : convolve_partitioned R) (s : Nat)
    (h : Capacity st) : Capacity (set_fft_size st s).2 := by
  have e1 := set_fft_size_log2_field st s
  have e2 := set_fft_size_num_partitions st s
  have e3 : (set_fft_size st s).2.m_max_fft_size_log2 = st.m_max_fft_size_log2 := by
    unfold set_fft_size
    dsimp only
    split_ifs <;> rfl
  have e4 : (set_fft_size st s).2.m_max_impulse_length = st.m_max_impulse_length := by
    unfold set_fft_size
    dsimp only
    split_ifs <;> rfl
  have e5 : impulse_alloc_size (set_fft_size st s).2
      = 4 * (set_fft_size st s).2.m_max_impulse_length := by
    unfold impulse_alloc_size
    rw [e4]
    exact h.alloc
  by_cases c : log2 s < 5 ∨ log2 s > st.m_max_fft_size_log2
  · rw [if_pos c] at e1 e2
    exact ⟨by rw [e1]; exact h.lg_min, by rw [e1, e3]; exact h.lg_max,
      by rw [e3, e4]; exact h.multiple, by rw [e1, e2, e4]; exact h.fits, e5⟩
  · rw [if_neg c] at e1 e2
    by_cases d : log2 s ≠ st.m_fft_size_log2
    · rw [if_pos d] at e1 e2
      exact ⟨by rw [e1]; omega, by rw [e1, e3]; omega, by rw [e3, e4]; exact h.multiple,
        by rw [e2, Nat.zero_mul]; exact Nat.zero_le _, e5⟩
    · rw [if_neg d] at e1 e2
      exact ⟨by rw [e1]; exact h.lg_min, by rw [e1, e3]; exact h.lg_max,
        by rw [e3, e4]; exact h.multiple, by rw [e1, e2, e4]; exact h.fits, e5⟩

/-- `set` returns and keeps the partitions inside the buffers. -/
theorem set_capacity {R : Type} [Zero R] (K : FFTKernel R) (st : convolve_partitioned R)
    (input : Option (Nat → R)) (len : Nat) (h : Capacity st) :
    ∃ e st1, set K st input len = some (e, st1) ∧ Capacity st1 ∧
      st1.m_fft_size_log2 = st.m_fft_size_log2 ∧
      st1.m_max_impulse_length = st.m_max_impulse_length := by
  have hlg : 1 ≤ st.m_fft_size_log2 := le_trans (by norm_num) h.lg_min
  obtain ⟨temp1, imp1, hs, -⟩ := set_result K st input len hlg
  refine ⟨_, _, hs, ⟨h.lg_min, h.lg_max, h.multiple, ?_, h.alloc⟩, rfl, rfl⟩
  show (min (set_effective_length st input len) st.m_max_impulse_length
      + (get_fft_size st >>> 1) - 1) / (get_fft_size st >>> 1) * 2 ^ (st.m_fft_size_log2 - 1)
    ≤ st.m_max_impulse_length
  rw [get_fft_size_eq, halved_eq _ hlg]
  exact ceil_mul_le _ _ _ (pow_pos (by norm_num) _)
    (dvd_trans (pow_half_dvd _ _ hlg h.lg_max) h.multiple) (min_le_right _ _)

/-- The constructor for a maximum FFT size whose `log2` lies in `[5, 20]` and a `max_length`
that the rounding does not wrap. -/
theorem ctor_rounding {R : Type} (u : convolve_partitioned R)
    (max_fft_size max_length offset length : Nat) (h5 : 5 ≤ log2 max_fft_size)
    (h20 : log2 max_fft_size ≤ 20) (hlen : max_length + 2 ^ log2 max_fft_size / 2 ≤ 2 ^ 64) :
    ∃ st, ctor u max_fft_size max_length offset length = some st ∧
      get_max_fft_size st = 2 ^ log2 max_fft_size ∧
      get_max_fft_size st >>> 1 ∣ st.m_max_impulse_length ∧
      max_length ≤ st.m_max_impulse_length ∧
      (∀ m, get_max_fft_size st >>> 1 ∣ m → max_length ≤ m → st.m_max_impulse_length ≤ m) ∧
      st.m_max_impulse_length < max_length + (get_max_fft_size st >>> 1) ∧
      (max_length + 2 ^ log2 max_fft_size / 2 ≤ 2 ^ 62 → Capacity st) := by
  obtain ⟨f1, f2, f3, f4⟩ := ctor_init_fields u max_fft_size max_length offset length h5 h20
  obtain ⟨k, hk⟩ : ∃ k, k = log2 max_fft_size := ⟨_, rfl⟩
  rw [← hk] at h5 h20 hlen f1 f2 ⊢
  have hkd : (2 : Nat) ^ k / 2 = 2 ^ (k - 1) := by
    obtain ⟨m, rfl⟩ : ∃ m, k = m + 1 := ⟨k - 1, by omega⟩
    rw [Nat.add_sub_cancel, pow_succ, Nat.mul_div_cancel _ (by norm_num)]
  have hpos : 0 < 2 ^ (k - 1) := pow_pos (by norm_num) _
  have hsh : (1 <<< k) >>> 1 = 2 ^ (k - 1) := by
    rw [Nat.one_shiftLeft, halved_eq _ (by omega)]
  rw [hkd] at hlen ⊢
  obtain ⟨r1, r2, r3, r4⟩ := round_up_least max_length (2 ^ (k - 1)) hpos
  unfold ctor
  simp only [get_max_fft_size, f1, hsh, f3]
  rw [if_neg (by omega)]
  by_cases c : max_length % 2 ^ (k - 1) ≠ 0
  · rw [if_pos c] at r1 r2 r3 r4 ⊢
    have hw : (max_length / 2 ^ (k - 1) + 1) * 2 ^ (k - 1) % 2 ^ 64
        = (max_length / 2 ^ (k - 1) + 1) * 2 ^ (k - 1) := Nat.mod_eq_of_lt (by omega)
    rw [hw]
    refine ⟨_, rfl, ?_, ?_, ?_, ?_, ?_, fun h62 => ⟨?_, ?_, ?_, ?_, ?_⟩⟩
    · exact Nat.one_shiftLeft k
    · dsimp only
      rw [hsh]
      exact r1
    · dsimp only
      exact r2
    · dsimp only
      rw [hsh]
      exact r3
    · dsimp only
      rw [hsh]
      exact r4
    · dsimp only
      rw [f2]
      exact h5
    · dsimp only
      rw [f2]
    · dsimp only
      exact r1
    · dsimp only
      rw [f4, Nat.zero_mul]
      exact Nat.zero_le _
    · unfold impulse_alloc_size
      dsimp only
      rw [Nat.mod_eq_of_lt (by omega), Nat.mul_comm]
  · rw [if_neg c] at r1 r2 r3 r4 ⊢
    refine ⟨_, rfl, ?_, ?_, ?_, ?_, ?_, fun h62 => ⟨?_, ?_, ?_, ?_, ?_⟩⟩
    · rw [f1]
      exact Nat.one_shiftLeft k
    · rw [f1, hsh, f3]
      exact r1
    · rw [f3]
    · rw [f1, hsh, f3]
      exact r3
    · rw [f1, hsh, f3]
      exact r4
    · rw [f2]
      exact h5
    · rw [f1, f2]
    · rw [f1, f3]
      exact r1
    · rw [f4, Nat.zero_mul]
      exact Nat.zero_le _
    · unfold impulse_alloc_size
      rw [f3, Nat.mod_eq_of_lt (by omega), Nat.mul_comm]

/-- With the partitions inside the buffers, every element of every partition lies inside
its part of the allocation. -/
theorem capacity_offsets {R : Type} (st : convolve_partitioned R) (h : Capacity st)
    (part j k : Nat) (hpart : part < 4) (hj : j < st.m_num_partitions)
    (hk : k < get_fft_size st >>> 1) :
    j * (get_fft_size st >>> 1) + k < st.m_max_impulse_length ∧
    impulse_part_offset st part + j * (get_fft_size st >>> 1) + k < impulse_alloc_size st := by
  have hhalf : get_fft_size st >>> 1 = 2 ^ (st.m_fft_size_log2 - 1) := by
    rw [get_fft_size_eq, halved_eq _ (le_trans (by norm_num) h.lg_min)]
  rw [hhalf] at hk ⊢
  have h1 : (j + 1) * 2 ^ (st.m_fft_size_log2 - 1)
      ≤ st.m_num_partitions * 2 ^ (st.m_fft_size_log2 - 1) :=
    Nat.mul_le_mul_right _ hj
  have h2 := h.fits
  rw [Nat.add_mul, Nat.one_mul] at h1
  have h3 : part * st.m_max_impulse_length ≤ 3 * st.m_max_impulse_length :=
    Nat.mul_le_mul_right _ (by omega)
  refine ⟨by omega, ?_⟩
  rw [h.alloc]
  unfold impulse_part_offset
  omega

/-- C35 fails as stated for a maximum FFT size that is not a power of two: `log2 48 = 6` lies
in `[5, 20]`, and the constructor called with `max_fft_size = 48` and `max_length = 100`
leaves `m_max_impulse_length = 128`, the least multiple of `get_max_fft_size() / 2 = 32` that
is at least 100. It is not a multiple of `max_fft_size / 2 = 24`, and the least multiple of
24 that is at least 100 is 120. -/
theorem ctor_rounding_counterexample :
    log2 48 = 6 ∧
    (ctor zero_state 48 100 0 0).map (fun s => s.m_max_impulse_length) = some 128 ∧
    (ctor zero_state 48 100 0 0).map (fun s => get_max_fft_size s >>> 1) = some 32 ∧
    ¬ (48 / 2 ∣ 128) ∧
    (48 / 2 ∣ 120 ∧ 100 ≤ 120 ∧ 120 < 128) := by
  refine ⟨by decide, by decide, by decide, by decide, by decide, by decide, by decide⟩

/-- The wrap of the constructor's `uintptr_t` arithmetic: with `max_fft_size = 32` and
`max_length = 2 ^ 64 - 1` the rounded `m_max_impulse_length` is 0, and with
`max_length = 2 ^ 62` it is `2 ^ 62` and the number of elements asked of the allocator,
`m_max_impulse_length * 4`, is 0. -/
theorem ctor_wrap_evaluation :
    (ctor zero_state 32 (2 ^ 64 - 1) 0 0).map (fun s => s.m_max_impulse_length) = some 0 ∧
    (ctor zero_state 32 (2 ^ 62) 0 0).map (fun s => s.m_max_impulse_length) = some (2 ^ 62) ∧
    (ctor zero_state 32 (2 ^ 62) 0 0).map (fun s => impulse_alloc_size s) = some 0 := by
  refine ⟨by decide, by decide, by decide⟩

/-- C35, amended: for every maximum FFT size with `log2` in `[5, 20]`, power of two or not,
and every `max_length` with `max_length + F / 2 ≤ 2 ^ 64`, where `F = get_max_fft_size()` is
`2 ^ log2 (max_fft_size)` (`max_fft_size` itself when that is a power of two), the
constructor returns with `m_max_impulse_length` the least multiple of `F / 2` that is at
least `max_length`, which is less than `max_length + F / 2`. When `max_length + F / 2 ≤ 2 ^ 62`
the allocation of `m_max_impulse_length * 4` elements does not wrap either and the partitions
are inside the buffers (`Capacity`); `set_fft_size`, whether it accepts the size or not, and
`set` keep them inside, so that after every `set`
`num_partitions * (fft_size / 2) ≤ m_max_impulse_length`; and with them inside, element `k`
of partition `j < num_partitions` lies below `m_max_impulse_length` in its part and inside
the allocation for each of the four parts (impulse and input history, real and imaginary). -/
theorem ctor_capacity {R : Type} [Zero R] (K : FFTKernel R) (u : convolve_partitioned R)
    (max_fft_size max_length offset length : Nat) (h5 : 5 ≤ log2 max_fft_size)
    (h20 : log2 max_fft_size ≤ 20) (hlen : max_length + 2 ^ log2 max_fft_size / 2 ≤ 2 ^ 64) :
    (∃ st, ctor u max_fft_size max_length offset length = some st ∧
      get_max_fft_size st = 2 ^ log2 max_fft_size ∧
      ((∃ k, max_fft_size = 2 ^ k) → get_max_fft_size st = max_fft_size) ∧
      get_max_fft_size st >>> 1 ∣ st.m_max_impulse_length ∧
      max_length ≤ st.m_max_impulse_length ∧
      (∀ m, get_max_fft_size st >>> 1 ∣ m → max_length ≤ m → st.m_max_impulse_length ≤ m) ∧
      st.m_max_impulse_length < max_length + (get_max_fft_size st >>> 1) ∧
      (max_length + 2 ^ log2 max_fft_size / 2 ≤ 2 ^ 62 → Capacity st)) ∧
    (∀ (st : convolve_partitioned R) (s : Nat), Capacity st →
      Capacity (set_fft_size st s).2) ∧
    (∀ (st : convolve_partitioned R) (input : Option (Nat → R)) (len : Nat), Capacity st →
      ∃ e st1, set K st input len = some (e, st1) ∧ Capacity st1 ∧
        st1.m_num_partitions * (get_fft_size st1 >>> 1) ≤ st1.m_max_impulse_length) ∧
    (∀ (st : convolve_partitioned R), Capacity st → ∀ part j k, part < 4 →
      j < st.m_num_partitions → k < get_fft_size st >>> 1 →
      j * (get_fft_size st >>> 1) + k < st.m_max_impulse_length ∧
      impulse_part_offset st part + j * (get_fft_size st >>> 1) + k
        < impulse_alloc_size st) := by
  refine ⟨?_, fun st s h => set_fft_size_capacity st s h, ?_,
    fun st h part j k hpart hj hk => capacity_offsets st h part j k hpart hj hk⟩
  · obtain ⟨st, a1, a2, a3, a4, a5, a6, a7⟩ :=
      ctor_rounding u max_fft_size max_length offset length h5 h20 hlen
    refine ⟨st, a1, a2, ?_, a3, a4, a5, a6, a7⟩
    rintro ⟨k, rfl⟩
    rw [a2, log2_two_pow]
  · intro st input len h
    obtain ⟨e, st1, hs, hc, -, -⟩ := set_capacity K st input len h
    refine ⟨e, st1, hs, hc, ?_⟩
    rw [get_fft_size_eq, halved_eq _ (le_trans (by norm_num) hc.lg_min)]
    exact hc.fits

theorem ctor_capacity_witness :
    5 ≤ log2 48 ∧ log2 48 ≤ 20 ∧ 100 + 2 ^ log2 48 / 2 ≤ 2 ^ 64 ∧
    ∃ st, ctor zero_state 48 100 0 0 = some st ∧ st.m_max_impulse_length = 128 ∧
      Capacity st := by
  have e : log2 48 = 6 := by decide
  obtain ⟨⟨st, h1, h2, -, h3, h4, h5, h6, h7⟩, -⟩ := ctor_capacity unzip_kernel zero_state 48
    100 0 0 (by decide) (by decide) (by rw [e]; norm_num)
  refine ⟨by decide, by decide, by rw [e]; norm_num, st, h1, ?_, h7 (by rw [e]; norm_num)⟩
  have e32 : (2 ^ 6 >>> 1 : Nat) = 32 := by decide
  rw [h2, e, e32] at h3 h5 h6
  have ha := h5 128 (by decide) (by decide)
  obtain ⟨q, hq⟩ := h3
  omega

/-! ### Termination of `process` (C31) -/

theorem partition_while_rounds_nonpos {R : Type} [Zero R] [Add R] [Sub R] [Mul R]
    (W half fuel : Nat) (T : Int) (s : convolve_partitioned R × Work) (hT : T ≤ 0) :
    partition_while_rounds W half fuel T s = (T, 0, s) := by
  cases fuel with
  | zero => rfl
  | succ n =>
    rw [partition_while_rounds, if_neg (by omega)]

/-- The counted loop computes the convolver of `partition_while`. -/
theorem partition_while_rounds_state {R : Type} [Zero R] [Add R] [Sub R] [Mul R]
    (W half : Nat) :
    ∀ (fuel : Nat) (T : Int) (st : convolve_partitioned R) (w : Work),
      (partition_while_rounds W half fuel T (st, w)).2.2.1 = partition_while W half fuel T st := by
  intro fuel
  induction fuel with
  | zero =>
    intro T st w
    rfl
  | succ n ih =>
    intro T st w
    rw [partition_while_rounds, partition_while]
    by_cases hpos : T > 0
    · simp only [hpos, if_true]
      rw [partition_for_work_eq, ih]
    · simp only [hpos, if_false]

/-- The counted loop computes the convolver and the call counters of
`partition_while_work`. -/
theorem partition_while_rounds_work {R : Type} [Zero R] [Add R] [Sub R] [Mul R]
    (W half : Nat) :
    ∀ (fuel : Nat) (T : Int) (s : convolve_partitioned R × Work),
      (partition_while_rounds W half fuel T s).2.2 = partition_while_work W half fuel T s := by
  intro fuel
  induction fuel with
  | zero =>
    intro T s
    rfl
  | succ n ih =>
    intro T s
    rw [partition_while_rounds, partition_while_work]
    by_cases hpos : T > 0
    · simp only [hpos, if_true]
      rw [ih]
    · simp only [hpos, if_false]

theorem partition_for_keeps {R : Type} [Zero R] [Add R] [Sub R] [Mul R] (W half : Nat) :
    ∀ (c ir ip : Nat) (st : convolve_partitioned R),
      (partition_for W half c ir ip st).m_num_partitions = st.m_num_partitions ∧
      (partition_for W half c ir ip st).m_last_partition = st.m_last_partition := by
  intro c
  induction c with
  | zero =>
    intro ir ip st
    exact ⟨rfl, rfl⟩
  | succ n ih =>
    intro ir ip st
    rw [partition_for]
    obtain ⟨a, b⟩ := ih (ir + half) (ip + half) (partition_mac W half ir ip st)
    exact ⟨a, b⟩

/-- With one unit of fuel for each partition to do the scheduling loop is left by its
condition, after at most that many rounds: every round does at least one partition. -/
theorem partition_while_rounds_exit {R : Type} [Zero R] [Add R] [Sub R] [Mul R]
    (W half : Nat) :
    ∀ (fuel : Nat) (T : Int) (s : convolve_partitioned R × Work),
      1 ≤ s.1.m_num_partitions → T.toNat ≤ fuel →
      (partition_while_rounds W half fuel T s).1 = min T 0 ∧
      (partition_while_rounds W half fuel T s).2.1 ≤ T.toNat := by
  intro fuel
  induction fuel with
  | zero =>
    intro T s _ hT
    have h0 : T ≤ 0 := by omega
    rw [partition_while_rounds_nonpos W half 0 T s h0]
    exact ⟨(min_eq_left h0).symm, Nat.zero_le _⟩
  | succ n ih =>
    intro T s hnum hT
    by_cases hpos : T > 0
    · rw [partition_while_rounds]
      simp only [hpos, if_true]
      obtain ⟨t, rfl⟩ : ∃ t : Nat, T = (t : Int) := ⟨T.toNat, by omega⟩
      have ht : 0 < t := by omega
      simp only [Int.toNat_ofNat] at hT ⊢
      set next := (if s.1.m_last_partition < s.1.m_num_partitions then s.1.m_last_partition
        else 0) with hnext
      have hnlt : next < s.1.m_num_partitions := by
        rw [hnext]
        split_ifs with h
        · exact h
        · omega
      set last := min s.1.m_num_partitions (next + t) with hlast
      have hc1 : 1 ≤ last - next := by omega
      have hc2 : last - next ≤ t := by omega
      rw [partition_for_work_eq]
      have hsub : ((t : Int) - ((last - next : Nat) : Int)) = ((t - (last - next) : Nat) : Int) := by
        omega
      rw [hsub]
      obtain ⟨a, b⟩ := ih ((t - (last - next) : Nat) : Int) (partition_for W half (last - next)
          ((s.1.m_partitions_done + 1) * half) (next * half)
          { s.1 with m_last_partition := last },
          { s.2 with macs := s.2.macs + (last - next) })
        (by
          show 1 ≤ (partition_for W half (last - next) ((s.1.m_partitions_done + 1) * half)
            (next * half) { s.1 with m_last_partition := last }).m_num_partitions
          rw [(partition_for_keeps W half _ _ _ _).1]
          exact hnum)
        (by simp only [Int.toNat_ofNat]; omega)
      simp only [Int.toNat_ofNat] at b
      refine ⟨?_, ?_⟩
      · rw [a]
        omega
      · show _ + 1 ≤ t
        omega
    · have h0 : T ≤ 0 := by omega
      rw [partition_while_rounds_nonpos W half _ T s h0]
      exact ⟨(min_eq_left h0).symm, Nat.zero_le _⟩

/-- With at most `m_num_partitions` partitions to do the scheduling loop runs at most twice:
the first round goes up to the end of the input history, the second starts again at slot 0
and does all the rest. -/
theorem partition_while_rounds_le_two {R : Type} [Zero R] [Add R] [Sub R] [Mul R]
    (W half : Nat) (fuel : Nat) (T : Int) (s : convolve_partitioned R × Work)
    (hnum : 1 ≤ s.1.m_num_partitions) (hT : T ≤ (s.1.m_num_partitions : Int)) :
    (partition_while_rounds W half fuel T s).2.1 ≤ 2 := by
  cases fuel with
  | zero => exact Nat.zero_le _
  | succ n =>
    by_cases hpos : T > 0
    · rw [partition_while_rounds]
      simp only [hpos, if_true]
      obtain ⟨t, rfl⟩ : ∃ t : Nat, T = (t : Int) := ⟨T.toNat, by omega⟩
      have ht : 0 < t := by omega
      have htP : t ≤ s.1.m_num_partitions := by omega
      simp only [Int.toNat_ofNat]
      set next := (if s.1.m_last_partition < s.1.m_num_partitions then s.1.m_last_partition
        else 0) with hnext
      have hnlt : next < s.1.m_num_partitions := by
        rw [hnext]
        split_ifs with h
        · exact h
        · omega
      set last := min s.1.m_num_partitions (next + t) with hlast
      rw [partition_for_work_eq]
      obtain ⟨k1, k2⟩ := partition_for_keeps W half (last - next)
        ((s.1.m_partitions_done + 1) * half) (next * half) { s.1 with m_last_partition := last }
      set S := partition_for W half (last - next) ((s.1.m_partitions_done + 1) * half)
        (next * half) { s.1 with m_last_partition := last } with hS
      have k1' : S.m_num_partitions = s.1.m_num_partitions := k1
      have k2' : S.m_last_partition = last := k2
      by_cases hfit : next + t ≤ s.1.m_num_partitions
      · have hz : ((t : Int) - ((last - next : Nat) : Int)) ≤ 0 := by omega
        rw [partition_while_rounds_nonpos W half n _ _ hz]
        show (0 : Nat) + 1 ≤ 2
        omega
      · have hlastP : last = s.1.m_num_partitions := by omega
        cases n with
        | zero =>
          show (0 : Nat) + 1 ≤ 2
          omega
        | succ m =>
          by_cases hpos2 : ((t : Int) - ((last - next : Nat) : Int)) > 0
          · rw [partition_while_rounds]
            simp only [hpos2, if_true]
            rw [partition_for_work_eq]
            have hn0 : (if S.m_last_partition < S.m_num_partitions then S.m_last_partition
                else 0) = 0 := by
              rw [if_neg]
              rw [k1', k2', hlastP]
              exact lt_irrefl _
            have hz : ((t : Int) - ((last - next : Nat) : Int))
                - ((min S.m_num_partitions
                    ((if S.m_last_partition < S.m_num_partitions then S.m_last_partition
                      else 0) + ((t : Int) - ((last - next : Nat) : Int)).toNat)
                  - (if S.m_last_partition < S.m_num_partitions then S.m_last_partition
                      else 0) : Nat) : Int) ≤ 0 := by
              rw [hn0, k1']
              omega
            rw [partition_while_rounds_nonpos W half m _ _ hz]
          · have hz : ((t : Int) - ((last - next : Nat) : Int)) ≤ 0 := by omega
            rw [partition_while_rounds_nonpos W half _ _ _ hz]
            show (0 : Nat) + 1 ≤ 2
            omega
    · have h0 : T ≤ 0 := by omega
      rw [partition_while_rounds_nonpos W half _ T s h0]
      exact Nat.zero_le _

/-- The reporting iteration with its quantities named: it computes the loop variables of
`process_iter`, and the scheduling loop is entered with the two input rings written and
`sched_todo` partitions to do. -/
theorem process_iter_rounds_eq {R : Type} [Field R] (K : FFTKernel R) (W : Nat) (inp : Nat → R)
    (accumulate : Bool) (st : convolve_partitioned R) (rw rem ip op : Nat) (out : Nat → R)
    (hlg : 1 ≤ st.m_fft_size_log2) :
    (process_iter_rounds K W inp accumulate (st, rw, rem, ip, op, out)).1
      = process_iter K W inp accumulate (st, rw, rem, ip, op, out) ∧
    (process_iter_rounds K W inp accumulate (st, rw, rem, ip, op, out)).2
      = (min rem (2 ^ (st.m_fft_size_log2 - 1) - rw % 2 ^ (st.m_fft_size_log2 - 1)),
         sched_todo st.m_valid_partitions st.m_partitions_done
           ((rw + min rem (2 ^ (st.m_fft_size_log2 - 1) - rw % 2 ^ (st.m_fft_size_log2 - 1)))
             % 2 ^ (st.m_fft_size_log2 - 1)) (2 ^ (st.m_fft_size_log2 - 1)),
         (partition_while_rounds W (2 ^ (st.m_fft_size_log2 - 1))
           (sched_todo st.m_valid_partitions st.m_partitions_done
             ((rw + min rem (2 ^ (st.m_fft_size_log2 - 1) - rw % 2 ^ (st.m_fft_size_log2 - 1)))
               % 2 ^ (st.m_fft_size_log2 - 1)) (2 ^ (st.m_fft_size_log2 - 1))).toNat
           (sched_todo st.m_valid_partitions st.m_partitions_done
             ((rw + min rem (2 ^ (st.m_fft_size_log2 - 1) - rw % 2 ^ (st.m_fft_size_log2 - 1)))
               % 2 ^ (st.m_fft_size_log2 - 1)) (2 ^ (st.m_fft_size_log2 - 1)))
           (with_io st
             (copy_n inp ip
               (min rem (2 ^ (st.m_fft_size_log2 - 1) - rw % 2 ^ (st.m_fft_size_log2 - 1)))
               st.m_fft_buffers_0 rw)
             (copy_n inp ip
               (min rem (2 ^ (st.m_fft_size_log2 - 1) - rw % 2 ^ (st.m_fft_size_log2 - 1)))
               st.m_fft_buffers_1 ((rw + 2 ^ (st.m_fft_size_log2 - 1)) % 2 ^ st.m_fft_size_log2)),
            { rffts := 0, riffts := 0, macs := 0 })).1,
         (partition_while_rounds W (2 ^ (st.m_fft_size_log2 - 1))
           (sched_todo st.m_valid_partitions st.m_partitions_done
             ((rw + min rem (2 ^ (st.m_fft_size_log2 - 1) - rw % 2 ^ (st.m_fft_size_log2 - 1)))
               % 2 ^ (st.m_fft_size_log2 - 1)) (2 ^ (st.m_fft_size_log2 - 1))).toNat
           (sched_todo st.m_valid_partitions st.m_partitions_done
             ((rw + min rem (2 ^ (st.m_fft_size_log2 - 1) - rw % 2 ^ (st.m_fft_size_log2 - 1)))
               % 2 ^ (st.m_fft_size_log2 - 1)) (2 ^ (st.m_fft_size_log2 - 1)))
           (with_io st
             (copy_n inp ip
               (min rem (2 ^ (st.m_fft_size_log2 - 1) - rw % 2 ^ (st.m_fft_size_log2 - 1)))
               st.m_fft_buffers_0 rw)
             (copy_n inp ip
               (min rem (2 ^ (st.m_fft_size_log2 - 1) - rw % 2 ^ (st.m_fft_size_log2 - 1)))
               st.m_fft_buffers_1 ((rw + 2 ^ (st.m_fft_size_log2 - 1)) % 2 ^ st.m_fft_size_log2)),
            { rffts := 0, riffts := 0, macs := 0 })).2.1,
         (partition_while_rounds W (2 ^ (st.m_fft_size_log2 - 1))
           (sched_todo st.m_valid_partitions st.m_partitions_done
             ((rw + min rem (2 ^ (st.m_fft_size_log2 - 1) - rw % 2 ^ (st.m_fft_size_log2 - 1)))
               % 2 ^ (st.m_fft_size_log2 - 1)) (2 ^ (st.m_fft_size_log2 - 1))).toNat
           (sched_todo st.m_valid_partitions st.m_partitions_done
             ((rw + min rem (2 ^ (st.m_fft_size_log2 - 1) - rw % 2 ^ (st.m_fft_size_log2 - 1)))
               % 2 ^ (st.m_fft_size_log2 - 1)) (2 ^ (st.m_fft_size_log2 - 1)))
           (with_io st
             (copy_n inp ip
               (min rem (2 ^ (st.m_fft_size_log2 - 1) - rw % 2 ^ (st.m_fft_size_log2 - 1)))
               st.m_fft_buffers_0 rw)
             (copy_n inp ip
               (min rem (2 ^ (st.m_fft_size_log2 - 1) - rw % 2 ^ (st.m_fft_size_log2 - 1)))
               st.m_fft_buffers_1 ((rw + 2 ^ (st.m_fft_size_log2 - 1)) % 2 ^ st.m_fft_size_log2)),
            { rffts := 0, riffts := 0, macs := 0 })).2.2.2.macs) := by
  have hmin : ∀ a b : Nat, (if a < b then a else b) = min a b := by
    intro a b
    split_ifs with h
    · exact (min_eq_left (le_of_lt h)).symm
    · exact (min_eq_right (by omega)).symm
  constructor
  · unfold process_iter_rounds process_iter
    simp only [partition_while_rounds_state]
  · unfold process_iter_rounds with_io sched_todo
    simp only [get_fft_size, Nat.one_shiftLeft, halved_eq _ hlg, Nat.and_pow_two_sub_one_eq_mod,
      decide_eq_true_eq, hmin]

/-- `process` returns for every state with a valid FFT size. -/
theorem process_returns {R : Type} [Field R] (K : FFTKernel R) (W rnd : Nat)
    (st : convolve_partitioned R) (hlg : 1 ≤ st.m_fft_size_log2)
    (hP : 1 ≤ st.m_num_partitions) (inp : Nat → R) (ip : Nat) (out : Nat → R) (op N : Nat)
    (accumulate : Bool) :
    ∃ r, process K W rnd st inp ip out op N accumulate = some r := by
  obtain ⟨r, hr⟩ : ∃ r : convolve_partitioned R × Nat,
      r = if st.m_reset_flag then process_reset rnd st else (st, st.m_rw_counter) := ⟨_, rfl⟩
  have h1 : 1 ≤ r.1.m_fft_size_log2 ∧ 1 ≤ r.1.m_num_partitions := by
    rw [hr]
    split_ifs
    · exact ⟨hlg, hP⟩
    · exact ⟨hlg, hP⟩
  obtain ⟨v, hv, -⟩ := process_loop_total K W inp accumulate N r.1 r.2 ip op out h1.1 h1.2
  exact ⟨_, process_eq K W rnd st inp ip out op N accumulate hP r hr v (hv N (le_refl _))⟩

/-- The scheduling loop of one sub-block, for any convolver with at least one partition: it
is left by its condition and makes one `process_partition` call for each partition to do. -/
theorem sub_block_sched {R : Type} [Field R] (K : FFTKernel R) (W : Nat)
    (st : convolve_partitioned R) (hlg : 1 ≤ st.m_fft_size_log2)
    (hP : 1 ≤ st.m_num_partitions) (inp : Nat → R) (accumulate : Bool)
    (rw rem ip op : Nat) (out : Nat → R) (hrem : 0 < rem) :
    (process_iter_rounds K W inp accumulate (st, rw, rem, ip, op, out)).1
      = process_iter K W inp accumulate (st, rw, rem, ip, op, out) ∧
    1 ≤ (process_iter_rounds K W inp accumulate (st, rw, rem, ip, op, out)).2.1 ∧
    (process_iter_rounds K W inp accumulate (st, rw, rem, ip, op, out)).2.1
      ≤ get_fft_size st >>> 1 ∧
    (process_iter_rounds K W inp accumulate (st, rw, rem, ip, op, out)).2.1 ≤ rem ∧
    (process_iter K W inp accumulate (st, rw, rem, ip, op, out)).2.2.1
      = rem - (process_iter_rounds K W inp accumulate (st, rw, rem, ip, op, out)).2.1 ∧
    (process_iter K W inp accumulate (st, rw, rem, ip, op, out)).2.2.2.1
      = ip + (process_iter_rounds K W inp accumulate (st, rw, rem, ip, op, out)).2.1 ∧
    (process_iter_rounds K W inp accumulate (st, rw, rem, ip, op, out)).2.2.2.1 ≤ 0 ∧
    (process_iter_rounds K W inp accumulate (st, rw, rem, ip, op, out)).2.2.2.2.2
      = (process_iter_rounds K W inp accumulate (st, rw, rem, ip, op, out)).2.2.1.toNat ∧
    (process_iter_rounds K W inp accumulate (st, rw, rem, ip, op, out)).2.2.2.2.1
      ≤ (process_iter_rounds K W inp accumulate (st, rw, rem, ip, op, out)).2.2.1.toNat := by
  obtain ⟨e1, e2⟩ := process_iter_rounds_eq K W inp accumulate st rw rem ip op out hlg
  obtain ⟨-, -, -, g4, g5, -⟩ := process_iter_alt_fields K W inp accumulate st rw rem ip op out
  rw [← process_iter_eq_alt K W inp accumulate _ hlg hP] at g4 g5
  have htill := till_pos st.m_fft_size_log2 rw
  have hH : get_fft_size st >>> 1 = 2 ^ (st.m_fft_size_log2 - 1) := by
    rw [get_fft_size_eq, halved_eq _ hlg]
  obtain ⟨T, hT⟩ : ∃ T, T = sched_todo st.m_valid_partitions st.m_partitions_done
      ((rw + min rem (2 ^ (st.m_fft_size_log2 - 1) - rw % 2 ^ (st.m_fft_size_log2 - 1)))
        % 2 ^ (st.m_fft_size_log2 - 1)) (2 ^ (st.m_fft_size_log2 - 1)) := ⟨_, rfl⟩
  obtain ⟨S0, hS0⟩ : ∃ S0, S0 = with_io st
      (copy_n inp ip
        (min rem (2 ^ (st.m_fft_size_log2 - 1) - rw % 2 ^ (st.m_fft_size_log2 - 1)))
        st.m_fft_buffers_0 rw)
      (copy_n inp ip
        (min rem (2 ^ (st.m_fft_size_log2 - 1) - rw % 2 ^ (st.m_fft_size_log2 - 1)))
        st.m_fft_buffers_1 ((rw + 2 ^ (st.m_fft_size_log2 - 1)) % 2 ^ st.m_fft_size_log2)) :=
    ⟨_, rfl⟩
  rw [← hT, ← hS0] at e2
  have hS0P : 1 ≤ S0.m_num_partitions := by
    rw [hS0]
    exact hP
  obtain ⟨x1, x2⟩ := partition_while_rounds_exit W (2 ^ (st.m_fft_size_log2 - 1)) T.toNat T
    (S0, { rffts := 0, riffts := 0, macs := 0 }) hS0P (le_refl _)
  have x3 := partition_while_rounds_work W (2 ^ (st.m_fft_size_log2 - 1)) T.toNat T
    (S0, { rffts := 0, riffts := 0, macs := 0 })
  rw [partition_while_work_eq W _ _ _ _ _ hS0P (le_refl _)] at x3
  have x4 : (partition_while_rounds W (2 ^ (st.m_fft_size_log2 - 1)) T.toNat T
      (S0, { rffts := 0, riffts := 0, macs := 0 })).2.2.2.macs = T.toNat := by
    rw [x3]
    exact Nat.zero_add _
  rw [e2]
  refine ⟨e1, le_min hrem htill, ?_, min_le_left _ _, g4, g5, ?_, x4, x2⟩
  · rw [hH]
    exact le_trans (min_le_right _ _) (Nat.sub_le _ _)
  · show (partition_while_rounds W (2 ^ (st.m_fft_size_log2 - 1)) T.toNat T
      (S0, { rffts := 0, riffts := 0, macs := 0 })).1 ≤ 0
    rw [x1]
    exact min_le_right _ _

/-- The scheduling loop of one sub-block from a loop state reached after a reset: the
number of partitions to do is not negative, and the loop runs at most twice. -/
theorem sub_block_rounds {R : Type} [Field R] (K : FFTKernel R) (W rnd : Nat)
    (st : convolve_partitioned R) (rw : Nat) (h : List (Split R))
    (ht : Traced K W rnd st rw h) (inp : Nat → R) (accumulate : Bool)
    (rem ip op : Nat) (out : Nat → R) (hrem : 0 < rem) :
    0 ≤ (process_iter_rounds K W inp accumulate (st, rw, rem, ip, op, out)).2.2.1 ∧
    (process_iter_rounds K W inp accumulate (st, rw, rem, ip, op, out)).2.2.2.1 = 0 ∧
    ((process_iter_rounds K W inp accumulate (st, rw, rem, ip, op, out)).2.2.2.2.2 : Int)
      = (process_iter_rounds K W inp accumulate (st, rw, rem, ip, op, out)).2.2.1 ∧
    (process_iter_rounds K W inp accumulate (st, rw, rem, ip, op, out)).2.2.2.2.1 ≤ 2 := by
  have inv := traced_inv K W rnd st rw h ht
  have hlg := inv.lg_pos
  have hP := inv.num_pos
  obtain ⟨-, e2⟩ := process_iter_rounds_eq K W inp accumulate st rw rem ip op out hlg
  obtain ⟨-, -, -, -, t5, t6, -, -⟩ := trace_sub_block K W rnd st rw h inp accumulate rem ip op
    out ht hrem _ _ _ _ _ rfl rfl rfl rfl rfl
  obtain ⟨T, hT⟩ : ∃ T, T = sched_todo st.m_valid_partitions st.m_partitions_done
      ((rw + min rem (2 ^ (st.m_fft_size_log2 - 1) - rw % 2 ^ (st.m_fft_size_log2 - 1)))
        % 2 ^ (st.m_fft_size_log2 - 1)) (2 ^ (st.m_fft_size_log2 - 1)) := ⟨_, rfl⟩
  obtain ⟨S0, hS0⟩ : ∃ S0, S0 = with_io st
      (copy_n inp ip
        (min rem (2 ^ (st.m_fft_size_log2 - 1) - rw % 2 ^ (st.m_fft_size_log2 - 1)))
        st.m_fft_buffers_0 rw)
      (copy_n inp ip
        (min rem (2 ^ (st.m_fft_size_log2 - 1) - rw % 2 ^ (st.m_fft_size_log2 - 1)))
        st.m_fft_buffers_1 ((rw + 2 ^ (st.m_fft_size_log2 - 1)) % 2 ^ st.m_fft_size_log2)) :=
    ⟨_, rfl⟩
  rw [← hT] at t5 t6
  rw [← hT, ← hS0] at e2
  have hS0P : S0.m_num_partitions = st.m_num_partitions := by
    rw [hS0]
    rfl
  have hv := inv.valid_le
  have hTP : T ≤ (S0.m_num_partitions : Int) := by
    rw [hS0P]
    omega
  obtain ⟨x1, -⟩ := partition_while_rounds_exit W (2 ^ (st.m_fft_size_log2 - 1)) T.toNat T
    (S0, { rffts := 0, riffts := 0, macs := 0 }) (by rw [hS0P]; exact hP) (le_refl _)
  have x2 := partition_while_rounds_le_two W (2 ^ (st.m_fft_size_log2 - 1)) T.toNat T
    (S0, { rffts := 0, riffts := 0, macs := 0 }) (by rw [hS0P]; exact hP) hTP
  have x3 := partition_while_rounds_work W (2 ^ (st.m_fft_size_log2 - 1)) T.toNat T
    (S0, { rffts := 0, riffts := 0, macs := 0 })
  rw [partition_while_work_eq W _ _ _ _ _ (by rw [hS0P]; exact hP) (le_refl _)] at x3
  have x4 : (partition_while_rounds W (2 ^ (st.m_fft_size_log2 - 1)) T.toNat T
      (S0, { rffts := 0, riffts := 0, macs := 0 })).2.2.2.macs = T.toNat := by
    rw [x3]
    exact Nat.zero_add _
  rw [e2]
  refine ⟨t5, ?_, ?_, x2⟩
  · show (partition_while_rounds W (2 ^ (st.m_fft_size_log2 - 1)) T.toNat T
      (S0, { rffts := 0, riffts := 0, macs := 0 })).1 = 0
    rw [x1]
    exact min_eq_right t5
  · show ((partition_while_rounds W (2 ^ (st.m_fft_size_log2 - 1)) T.toNat T
      (S0, { rffts := 0, riffts := 0, macs := 0 })).2.2.2.macs : Int) = T
    rw [x4]
    exact Int.toNat_of_nonneg t5

/-- C31: for a convolver with a valid FFT size (`fft_log2 ≥ 1`, so in particular for
`fft_log2 ≥ 5`) and at least one partition, `process` returns for every `num_samples`. In
each iteration of its main loop, reported by `process_iter_rounds`, the number of samples
consumed is at least 1 and at most `fft_size / 2` (and at most the samples remaining), the
scheduling loop is left by its condition (`num_partitions_to_do ≤ 0`) after at most
`num_partitions_to_do` rounds, and it makes exactly `num_partitions_to_do` calls of
`process_partition` (none when that number is not positive). In every loop state reached
after a reset the number of partitions to do is not negative, the loop ends with it at 0, and
the loop runs at most twice. -/
theorem process_terminates {R : Type} [Field R] (K : FFTKernel R) (W rnd : Nat)
    (st : convolve_partitioned R) (hlg : 1 ≤ st.m_fft_size_log2)
    (hP : 1 ≤ st.m_num_partitions) :
    (∀ (inp : Nat → R) (ip : Nat) (out : Nat → R) (op N : Nat) (accumulate : Bool),
      ∃ r, process K W rnd st inp ip out op N accumulate = some r) ∧
    (∀ (inp : Nat → R) (accumulate : Bool) (rw rem ip op : Nat) (out : Nat → R), 0 < rem →
      (process_iter_rounds K W inp accumulate (st, rw, rem, ip, op, out)).1
        = process_iter K W inp accumulate (st, rw, rem, ip, op, out) ∧
      1 ≤ (process_iter_rounds K W inp accumulate (st, rw, rem, ip, op, out)).2.1 ∧
      (process_iter_rounds K W inp accumulate (st, rw, rem, ip, op, out)).2.1
        ≤ get_fft_size st >>> 1 ∧
      (process_iter_rounds K W inp accumulate (st, rw, rem, ip, op, out)).2.1 ≤ rem ∧
      (process_iter K W inp accumulate (st, rw, rem, ip, op, out)).2.2.1
        = rem - (process_iter_rounds K W inp accumulate (st, rw, rem, ip, op, out)).2.1 ∧
      (process_iter K W inp accumulate (st, rw, rem, ip, op, out)).2.2.2.1
        = ip + (process_iter_rounds K W inp accumulate (st, rw, rem, ip, op, out)).2.1 ∧
      (process_iter_rounds K W inp accumulate (st, rw, rem, ip, op, out)).2.2.2.1 ≤ 0 ∧
      (process_iter_rounds K W inp accumulate (st, rw, rem, ip, op, out)).2.2.2.2.2
        = (process_iter_rounds K W inp accumulate (st, rw, rem, ip, op, out)).2.2.1.toNat ∧
      (process_iter_rounds K W inp accumulate (st, rw, rem, ip, op, out)).2.2.2.2.1
        ≤ (process_iter_rounds K W inp accumulate (st, rw, rem, ip, op, out)).2.2.1.toNat) ∧
    (∀ (rw : Nat) (h : List (Split R)), Traced K W rnd st rw h →
      ∀ (inp : Nat → R) (accumulate : Bool) (rem ip op : Nat) (out : Nat → R), 0 < rem →
      0 ≤ (process_iter_rounds K W inp accumulate (st, rw, rem, ip, op, out)).2.2.1 ∧
      (process_iter_rounds K W inp accumulate (st, rw, rem, ip, op, out)).2.2.2.1 = 0 ∧
      ((process_iter_rounds K W inp accumulate (st, rw, rem, ip, op, out)).2.2.2.2.2 : Int)
        = (process_iter_rounds K W inp accumulate (st, rw, rem, ip, op, out)).2.2.1 ∧
      (process_iter_rounds K W inp accumulate (st, rw, rem, ip, op, out)).2.2.2.2.1 ≤ 2) :=
  ⟨fun inp ip out op N accumulate =>
      process_returns K W rnd st hlg hP inp ip out op N accumulate,
    fun inp accumulate rw rem ip op out hrem =>
      sub_block_sched K W st hlg hP inp accumulate rw rem ip op out hrem,
    fun rw h ht inp accumulate rem ip op out hrem =>
      sub_block_rounds K W rnd st rw h ht inp accumulate rem ip op out hrem⟩

theorem process_terminates_witness :
    1 ≤ (stale_state 7 3).m_fft_size_log2 ∧ 1 ≤ (stale_state 7 3).m_num_partitions ∧
    ∃ r, process unzip_kernel 4 0 (stale_state 7 3) (fun _ => 1) 0 (fun _ => 0) 0 100 false
      = some r :=
  ⟨by decide, by decide,
    (process_terminates unzip_kernel 4 0 (stale_state 7 3) (by decide) (by decide)).1
      (fun _ => 1) 0 (fun _ => 0) 0 100 false⟩

/-- A scheduling loop that runs twice: with four partitions, the cursor at slot 3 and three
partitions to do, the first round does one partition and the second, from slot 0, two. -/
theorem partition_while_rounds_twice :
    (partition_while_rounds 4 16 3 3
      ({ stale_state 0 0 with m_num_partitions := 4, m_last_partition := 3 },
        { rffts := 0, riffts := 0, macs := 0 })).1 = 0 ∧
    (partition_while_rounds 4 16 3 3
      ({ stale_state 0 0 with m_num_partitions := 4, m_last_partition := 3 },
        { rffts := 0, riffts := 0, macs := 0 })).2.1 = 2 ∧
    (partition_while_rounds 4 16 3 3
      ({ stale_state 0 0 with m_num_partitions := 4, m_last_partition := 3 },
        { rffts := 0, riffts := 0, macs := 0 })).2.2.2.macs = 3 := by
  refine ⟨by decide, by decide, by decide⟩

/-! ### The real passes, forward then inverse (C34) -/

/-- The buffer after `pass_real_trig_table` as a function of its index. -/
theorem pass_real_trig_table_eq (ifft : Bool) (input : Split ℝ) (setup : Setup ℝ) (n : Nat)
    (h2 : 2 ≤ n) :
    pass_real_trig_table ifft input setup n
      = { realp := fun j => (real_pass_at ifft (setup.tables (n - trig_table_offset)) input
            (2 ^ (n - 1)) j).1,
          imagp := fun j => (real_pass_at ifft (setup.tables (n - trig_table_offset)) input
            (2 ^ (n - 1)) j).2 } := by
  have a : ∀ j, (pass_real_trig_table ifft input setup n).realp j
      = (real_pass_at ifft (setup.tables (n - trig_table_offset)) input (2 ^ (n - 1)) j).1 := by
    intro j
    rw [← pass_real_trig_table_spec ifft input setup n h2 j]
  have b : ∀ j, (pass_real_trig_table ifft input setup n).imagp j
      = (real_pass_at ifft (setup.tables (n - trig_table_offset)) input (2 ^ (n - 1)) j).2 := by
    intro j
    rw [← pass_real_trig_table_spec ifft input setup n h2 j]
  cases hq : pass_real_trig_table ifft input setup n with
  | mk re im =>
    rw [hq] at a b
    congr 1
    · exact funext a
    · exact funext b

/-- The inverse real pass after the forward real pass multiplies the `2 ^ (n - 1)` complex
elements by 4 when the twiddles read lie on the unit circle and the middle one has real
part 0. -/
theorem pass_real_round_trip_unit (input : Split ℝ) (setup : Setup ℝ) (n : Nat) (h3 : 3 ≤ n)
    (hunit : ∀ j, 1 ≤ j → j ≤ 2 ^ (n - 2) →
      (setup.tables (n - trig_table_offset)).realp j
          * (setup.tables (n - trig_table_offset)).realp j
        + (setup.tables (n - trig_table_offset)).imagp j
          * (setup.tables (n - trig_table_offset)).imagp j = 1)
    (hmid : (setup.tables (n - trig_table_offset)).realp (2 ^ (n - 2)) = 0)
    (k : Nat) (hk : k < 2 ^ (n - 1)) :
    cplx (pass_real_trig_table true (pass_real_trig_table false input setup n) setup n) k
      = 4 * cplx input k := by
  have hpow : (2 : Nat) ^ (n - 1) = 2 * 2 ^ (n - 2) := by
    have : n - 1 = (n - 2) + 1 := by omega
    rw [this, pow_succ]
    ring
  have hp : 0 < 2 ^ (n - 2) := Nat.pow_pos (by norm_num)
  have s1 := pass_real_trig_table_spec true (pass_real_trig_table false input setup n) setup n
    (by omega) k
  have s0 := pass_real_trig_table_eq false input setup n (by omega)
  rw [hpow] at s1 hk s0
  have rt := real_pass_round_trip (setup.tables (n - trig_table_offset)) input (2 ^ (n - 2)) k
    (by omega) hunit hmid hk
  rw [← s0, ← s1] at rt
  apply Complex.ext
  · have := congrArg Prod.fst rt
    simpa [cplx] using this
  · have := congrArg Prod.snd rt
    simpa [cplx] using this

/-- With exact tables the real round trip is 4 times the complex round trip at half the
size. -/
theorem rifft_rfft_four (input : Split ℝ) (setup : Setup ℝ) (hT : exact_tables setup)
    (n : Nat) (h3 : 3 ≤ n) (hmax : n ≤ setup.max_fft_log2) (k : Nat) (hk : k < 2 ^ (n - 1)) :
    cplx (hisstools_rifft (Real.sqrt 2 / 2)
        (hisstools_rfft (Real.sqrt 2 / 2) input setup n) setup n) k
      = 4 * cplx (hisstools_ifft (Real.sqrt 2 / 2)
          (hisstools_fft (Real.sqrt 2 / 2) input setup (n - 1)) setup (n - 1)) k := by
  have hge : n ≥ 3 := h3
  unfold hisstools_rifft hisstools_rfft
  rw [if_pos hge, if_pos hge]
  rw [hisstools_ifft_dft _ setup hT (n - 1) (by omega) (by omega) k hk,
    hisstools_ifft_dft _ setup hT (n - 1) (by omega) (by omega) k hk, Finset.mul_sum]
  apply Finset.sum_congr rfl
  intro j hj
  have hj' := Finset.mem_range.mp hj
  rw [pass_real_round_trip _ setup hT n h3 hmax j hj']
  ring

/-- The twiddles of the exact table that the real pass of size `2 ^ n` reads satisfy
`cos ^ 2 + sin ^ 2 = 1`. -/
theorem exact_tables_unit (setup : Setup ℝ) (hT : exact_tables setup) (n : Nat) (h3 : 3 ≤ n)
    (hmax : n ≤ setup.max_fft_log2) (j : Nat) (hj : j < 2 ^ (n - 1)) :
    (setup.tables (n - trig_table_offset)).realp j
        * (setup.tables (n - trig_table_offset)).realp j
      + (setup.tables (n - trig_table_offset)).imagp j
        * (setup.tables (n - trig_table_offset)).imagp j = 1 := by
  obtain ⟨a, b⟩ := hT n j h3 hmax hj
  rw [a, b]
  have := Real.cos_sq_add_sin_sq (-(j : ℝ) * Real.pi / ((2 ^ (n - 1) : ℕ) : ℝ))
  nlinarith [this]

/-- C34: for every `log2 ≥ 3` (within the setup) and every split buffer `Z` of
`2 ^ (log2 - 1)` complex values, over exact real arithmetic with the twiddle tables that
`create_setup` computes, whose entries satisfy `cos ^ 2 + sin ^ 2 = 1`:
`pass_real_trig_table<false>` followed by `pass_real_trig_table<true>` yields `4 Z`
elementwise, and consequently `hisstools_rifft` after `hisstools_rfft` equals 4 times
`hisstools_ifft` after `hisstools_fft` at half the size. -/
theorem pass_real_inverse_forward (input : Split ℝ) (setup : Setup ℝ) (fft_log2 : Nat)
    (h3 : 3 ≤ fft_log2) (hmax : fft_log2 ≤ setup.max_fft_log2) (hT : exact_tables setup) :
    (∀ j, j < 2 ^ (fft_log2 - 1) →
      (setup.tables (fft_log2 - trig_table_offset)).realp j
          * (setup.tables (fft_log2 - trig_table_offset)).realp j
        + (setup.tables (fft_log2 - trig_table_offset)).imagp j
          * (setup.tables (fft_log2 - trig_table_offset)).imagp j = 1) ∧
    (∀ k, k < 2 ^ (fft_log2 - 1) →
      cplx (pass_real_trig_table true (pass_real_trig_table false input setup fft_log2)
          setup fft_log2) k
        = 4 * cplx input k) ∧
    (∀ k, k < 2 ^ (fft_log2 - 1) →
      cplx (hisstools_rifft (Real.sqrt 2 / 2)
          (hisstools_rfft (Real.sqrt 2 / 2) input setup fft_log2) setup fft_log2) k
        = 4 * cplx (hisstools_ifft (Real.sqrt 2 / 2)
            (hisstools_fft (Real.sqrt 2 / 2) input setup (fft_log2 - 1)) setup
            (fft_log2 - 1)) k) :=
  ⟨fun j hj => exact_tables_unit setup hT fft_log2 h3 hmax j hj,
    fun k hk => pass_real_round_trip input setup hT fft_log2 h3 hmax k hk,
    fun k hk => rifft_rfft_four input setup hT fft_log2 h3 hmax k hk⟩

theorem pass_real_inverse_forward_witness :
    3 ≤ 5 ∧ 5 ≤ (create_setup 5).max_fft_log2 ∧ exact_tables (create_setup 5) ∧
    cplx (pass_real_trig_table true
        (pass_real_trig_table false ⟨fun i => (i : ℝ), fun _ => 1⟩ (create_setup 5) 5)
        (create_setup 5) 5) 8
      = 4 * cplx ⟨fun i => (i : ℝ), fun _ => 1⟩ 8 ∧
    cplx (hisstools_rifft (Real.sqrt 2 / 2)
        (hisstools_rfft (Real.sqrt 2 / 2) ⟨fun i => (i : ℝ), fun _ => 1⟩ (create_setup 5) 5)
        (create_setup 5) 5) 3
      = 4 * cplx (hisstools_ifft (Real.sqrt 2 / 2)
          (hisstools_fft (Real.sqrt 2 / 2) ⟨fun i => (i : ℝ), fun _ => 1⟩ (create_setup 5)
            (5 - 1)) (create_setup 5) (5 - 1)) 3 := by
  have h5 : 5 ≤ (create_setup 5).max_fft_log2 := le_refl 5
  have key := pass_real_inverse_forward ⟨fun i => (i : ℝ), fun _ => 1⟩ (create_setup 5) 5
    (by norm_num) h5 (exact_tables_create_setup 5)
  exact ⟨by norm_num, h5, exact_tables_create_setup 5, key.2.1 8 (by norm_num),
    key.2.2 3 (by norm_num)⟩

/-! ### The forward real pass (C32) -/

/-- The DFT of size `2 M` from the DFTs of the even and of the odd samples. -/
theorem dft_split_even_odd (M : Nat) (hM : 0 < M) (x : Nat → ℂ) (k : Nat) :
    dft (2 * M) x k
      = dft M (fun m => x (2 * m)) k + omega (2 * M) ^ k * dft M (fun m => x (2 * m + 1)) k := by
  rw [dft_eq_omega, dft_eq_omega, dft_eq_omega,
    sum_even_odd (fun n => x n * omega (2 * M) ^ (n * k)) M, Finset.mul_sum]
  congr 1
  · apply Finset.sum_congr rfl
    intro m _
    have : omega (2 * M) ^ (2 * m * k) = omega M ^ (m * k) := by
      rw [← omega_sq M hM, ← pow_mul]
      congr 1
      ring
    show x (2 * m) * omega (2 * M) ^ (2 * m * k) = x (2 * m) * omega M ^ (m * k)
    rw [this]
  · apply Finset.sum_congr rfl
    intro m _
    have : omega (2 * M) ^ ((2 * m + 1) * k) = omega (2 * M) ^ k * omega M ^ (m * k) := by
      rw [← omega_sq M hM, ← pow_mul, ← pow_add]
      congr 1
      ring
    show x (2 * m + 1) * omega (2 * M) ^ ((2 * m + 1) * k)
      = omega (2 * M) ^ k * (x (2 * m + 1) * omega M ^ (m * k))
    rw [this]
    ring

/-- The DFT of the complex sequence built from two real sequences. -/
theorem dft_pack (M : Nat) (a b : Nat → ℝ) (k : Nat) :
    dft M (fun m => (⟨a m, b m⟩ : ℂ)) k
      = dft M (fun m => ((a m : ℝ) : ℂ)) k + Complex.I * dft M (fun m => ((b m : ℝ) : ℂ)) k := by
  rw [dft_eq_omega, dft_eq_omega, dft_eq_omega, Finset.mul_sum, ← Finset.sum_add_distrib]
  apply Finset.sum_congr rfl
  intro m _
  have e : (⟨a m, b m⟩ : ℂ) = (a m : ℂ) + Complex.I * (b m : ℂ) := by
    apply Complex.ext <;> simp
  rw [e]
  ring

theorem dft_at_size (M : Nat) (hM : 0 < M) (x : Nat → ℂ) : dft M x M = dft M x 0 := by
  rw [dft_eq_omega, dft_eq_omega]
  apply Finset.sum_congr rfl
  intro m _
  rw [pow_mul', omega_pow_self M hM, one_pow, Nat.mul_zero, pow_zero]

/-- The two values one butterfly of the forward real pass stores, when the values read are
`e + i o` and `conj e + i conj o` and the twiddle is `w`. -/
theorem real_pass_pair_forward (T Z : Split ℝ) (t a b : Nat) (e o w : ℂ)
    (hw : cplx T t = w) (ha : cplx Z a = e + Complex.I * o)
    (hb : cplx Z b = (starRingEnd ℂ) e + Complex.I * (starRingEnd ℂ) o) :
    (⟨(real_pass_pair false T Z t a b).1.1, (real_pass_pair false T Z t a b).1.2⟩ : ℂ)
      = 2 * (e + w * o) ∧
    (⟨(real_pass_pair false T Z t a b).2.1, (real_pass_pair false T Z t a b).2.2⟩ : ℂ)
      = 2 * ((starRingEnd ℂ) e - (starRingEnd ℂ) w * (starRingEnd ℂ) o) := by
  have w1 : T.realp t = w.re := by
    have := congrArg Complex.re hw
    simpa [cplx] using this
  have w2 : T.imagp t = w.im := by
    have := congrArg Complex.im hw
    simpa [cplx] using this
  have a1 : Z.realp a = e.re - o.im := by
    have := congrArg Complex.re ha
    simpa [cplx] using this
  have a2 : Z.imagp a = e.im + o.re := by
    have := congrArg Complex.im ha
    simpa [cplx] using this
  have b1 : Z.realp b = e.re + o.im := by
    have := congrArg Complex.re hb
    simpa [cplx] using this
  have b2 : Z.imagp b = -e.im + o.re := by
    have := congrArg Complex.im hb
    simpa [cplx] using this
  unfold real_pass_pair
  simp only [Bool.false_eq_true, if_false]
  rw [w1, w2, a1, a2, b1, b2]
  constructor
  · apply Complex.ext
    · simp
      ring
    · simp
      ring
  · apply Complex.ext
    · simp
      ring
    · simp
      ring

/-- The forward real pass on a buffer that holds the half-size DFT of the packed samples
leaves twice the DFT of the real samples, packed. -/
theorem pass_real_forward_aux (x : Nat → ℝ) (Z : Split ℝ) (setup : Setup ℝ) (n : Nat)
    (h3 : 3 ≤ n) (hmax : n ≤ setup.max_fft_log2) (hT : exact_tables setup)
    (hZ : ∀ j, j < 2 ^ (n - 1) →
      cplx Z j = dft (2 ^ (n - 1)) (fun m => (⟨x (2 * m), x (2 * m + 1)⟩ : ℂ)) j) :
    ((pass_real_trig_table false Z setup n).realp 0 : ℂ)
      = 2 * dft (2 ^ n) (fun m => (x m : ℂ)) 0 ∧
    ((pass_real_trig_table false Z setup n).imagp 0 : ℂ)
      = 2 * dft (2 ^ n) (fun m => (x m : ℂ)) (2 ^ n / 2) ∧
    ∀ k, 0 < k → k < 2 ^ n / 2 →
      cplx (pass_real_trig_table false Z setup n) k
        = 2 * dft (2 ^ n) (fun m => (x m : ℂ)) k := by
  obtain ⟨M, hM⟩ : ∃ M, M = 2 ^ (n - 1) := ⟨_, rfl⟩
  have hMpos : 0 < M := by
    rw [hM]
    exact Nat.pow_pos (by norm_num)
  have hN : 2 ^ n = 2 * M := by
    have : n = (n - 1) + 1 := by omega
    rw [hM]
    conv_lhs => rw [this, pow_succ]
    ring
  have hhalf : 2 ^ n / 2 = M := by
    rw [hN]
    omega
  have hM4 : 4 ≤ M := by
    have : (2 : Nat) ^ 2 ≤ 2 ^ (n - 1) := Nat.pow_le_pow_right (by norm_num) (by omega)
    rw [hM]
    omega
  rw [hhalf, hN]
  rw [← hM] at hZ
  -- the spectra of the even and of the odd samples
  obtain ⟨E, hE⟩ : ∃ E : Nat → ℂ, E = dft M (fun m => ((x (2 * m) : ℝ) : ℂ)) := ⟨_, rfl⟩
  obtain ⟨O, hO⟩ : ∃ O : Nat → ℂ, O = dft M (fun m => ((x (2 * m + 1) : ℝ) : ℂ)) := ⟨_, rfl⟩
  have hX : ∀ k, dft (2 * M) (fun m => (x m : ℂ)) k = E k + omega (2 * M) ^ k * O k := by
    intro k
    rw [dft_split_even_odd M hMpos, hE, hO]
  have hZk : ∀ j, j < M → cplx Z j = E j + Complex.I * O j := by
    intro j hj
    rw [hZ j hj, dft_pack, hE, hO]
  have hEc : ∀ k, 0 < k → k < M → E (M - k) = (starRingEnd ℂ) (E k) := by
    intro k hk1 hk2
    rw [hE, dft_conj M hMpos _ k hk2, Nat.mod_eq_of_lt (by omega)]
  have hOc : ∀ k, 0 < k → k < M → O (M - k) = (starRingEnd ℂ) (O k) := by
    intro k hk1 hk2
    rw [hO, dft_conj M hMpos _ k hk2, Nat.mod_eq_of_lt (by omega)]
  have hE0 : (E 0).im = 0 := by
    rw [hE]
    exact dft_real_of_self_conj M hMpos _ 0 hMpos (by simp)
  have hO0 : (O 0).im = 0 := by
    rw [hO]
    exact dft_real_of_self_conj M hMpos _ 0 hMpos (by simp)
  have hEM : E M = E 0 := by
    rw [hE]
    exact dft_at_size M hMpos _
  have hOM : O M = O 0 := by
    rw [hO]
    exact dft_at_size M hMpos _
  have htw : ∀ t, t < M → cplx (setup.tables (n - trig_table_offset)) t = omega (2 * M) ^ t := by
    intro t ht
    have := table_twiddle setup hT (n - 1) t (by omega) (by omega) (by rw [← hM]; exact ht)
    have e1 : n - 1 - 2 = n - trig_table_offset := by
      unfold trig_table_offset
      omega
    have e2 : n - 1 + 1 = n := by omega
    rw [e1, e2, hN] at this
    exact this
  have hspec := fun k => pass_real_trig_table_spec false Z setup n (by omega) k
  rw [← hM] at hspec
  have z0 := hZk 0 hMpos
  have z0re : Z.realp 0 = (E 0).re := by
    have := congrArg Complex.re z0
    simp [cplx, hO0] at this
    exact this
  have z0im : Z.imagp 0 = (O 0).re := by
    have := congrArg Complex.im z0
    simp [cplx, hE0] at this
    exact this
  refine ⟨?_, ?_, ?_⟩
  · have := congrArg Prod.fst (hspec 0)
    simp only [real_pass_at, if_true, Bool.false_eq_true, if_false] at this
    rw [this, hX 0, pow_zero, one_mul, z0re, z0im]
    apply Complex.ext
    · simp
      ring
    · simp [hE0, hO0]
  · have := congrArg Prod.snd (hspec 0)
    simp only [real_pass_at, if_true, Bool.false_eq_true, if_false] at this
    rw [this, hX M, omega_half M hMpos, hEM, hOM, z0re, z0im]
    apply Complex.ext
    · simp
      ring
    · simp [hE0, hO0]
  · intro k hk1 hk2
    have hc : cplx (pass_real_trig_table false Z setup n) k
        = ⟨(real_pass_at false (setup.tables (n - trig_table_offset)) Z M k).1,
           (real_pass_at false (setup.tables (n - trig_table_offset)) Z M k).2⟩ := by
      unfold cplx
      rw [← hspec k]
    rw [hc, hX k]
    by_cases c1 : 2 * k < M
    · rw [real_pass_at_lo false _ _ _ _ hk1 c1]
      have hb : cplx Z (M - k)
          = (starRingEnd ℂ) (E k) + Complex.I * (starRingEnd ℂ) (O k) := by
        rw [hZk (M - k) (by omega), hEc k hk1 hk2, hOc k hk1 hk2]
      exact (real_pass_pair_forward _ Z k k (M - k) (E k) (O k) (omega (2 * M) ^ k)
        (htw k hk2) (hZk k hk2) hb).1
    · rw [real_pass_at_hi false _ _ _ _ hk1 (by omega) hk2]
      have hk0 : M - (M - k) = k := by omega
      have hb : cplx Z k
          = (starRingEnd ℂ) (E (M - k)) + Complex.I * (starRingEnd ℂ) (O (M - k)) := by
        rw [hZk k hk2, ← hEc (M - k) (by omega) (by omega), ← hOc (M - k) (by omega) (by omega),
          hk0]
      have key := (real_pass_pair_forward _ Z (M - k) (M - k) k (E (M - k)) (O (M - k))
        (omega (2 * M) ^ (M - k)) (htw (M - k) (by omega)) (hZk (M - k) (by omega)) hb).2
      rw [key, ← hEc (M - k) (by omega) (by omega), ← hOc (M - k) (by omega) (by omega), hk0]
      have hwc : (starRingEnd ℂ) (omega (2 * M) ^ (M - k)) = -(omega (2 * M) ^ k) := by
        rw [map_pow, omega_conj, inv_pow]
        have hprod : omega (2 * M) ^ (M - k) * omega (2 * M) ^ k = -1 := by
          rw [← pow_add]
          have : M - k + k = M := by omega
          rw [this, omega_half M hMpos]
        have h1 : omega (2 * M) ^ (M - k) * -(omega (2 * M) ^ k) = 1 := by
          rw [mul_neg, hprod, neg_neg]
        exact inv_eq_of_mul_eq_one_right h1
      rw [hwc]
      ring

/-- C32: for every `log2 ≥ 3` (within the setup) and `N = 2 ^ log2` real samples `x`, over
exact real arithmetic with exact twiddle tables: if the split buffer holds the `N / 2`-point
unnormalised forward DFT `Z` of the complex sequence `z[n] = x[2n] + i x[2n+1]`, then after
`pass_real_trig_table<false>` it holds `realp[0] = 2 X[0]`, `imagp[0] = 2 X[N/2]` and
`realp[k] + i imagp[k] = 2 X[k]` for `0 < k < N / 2`, where `X` is the `N`-point forward DFT
of `x`. -/
theorem pass_real_forward_dft (x : Nat → ℝ) (Z : Split ℝ) (setup : Setup ℝ) (fft_log2 : Nat)
    (h3 : 3 ≤ fft_log2) (hmax : fft_log2 ≤ setup.max_fft_log2) (hT : exact_tables setup)
    (hZ : ∀ j, j < 2 ^ (fft_log2 - 1) →
      cplx Z j = dft (2 ^ (fft_log2 - 1)) (fun m => (⟨x (2 * m), x (2 * m + 1)⟩ : ℂ)) j) :
    ((pass_real_trig_table false Z setup fft_log2).realp 0 : ℂ)
      = 2 * dft (2 ^ fft_log2) (fun m => (x m : ℂ)) 0 ∧
    ((pass_real_trig_table false Z setup fft_log2).imagp 0 : ℂ)
      = 2 * dft (2 ^ fft_log2) (fun m => (x m : ℂ)) (2 ^ fft_log2 / 2) ∧
    ∀ k, 0 < k → k < 2 ^ fft_log2 / 2 →
      cplx (pass_real_trig_table false Z setup fft_log2) k
        = 2 * dft (2 ^ fft_log2) (fun m => (x m : ℂ)) k :=
  pass_real_forward_aux x Z setup fft_log2 h3 hmax hT hZ

/-- The buffer the complex transform leaves from the packed samples satisfies the
hypothesis of C32. -/
theorem hisstools_fft_packed (x : Nat → ℝ) (setup : Setup ℝ) (hT : exact_tables setup)
    (n : Nat) (h1 : 1 ≤ n) (hmax : n ≤ setup.max_fft_log2) (j : Nat) (hj : j < 2 ^ n) :
    cplx (hisstools_fft (Real.sqrt 2 / 2) (unzip x) setup n) j
      = dft (2 ^ n) (fun m => (⟨x (2 * m), x (2 * m + 1)⟩ : ℂ)) j :=
  hisstools_fft_dft (unzip x) setup hT n h1 hmax j hj

theorem pass_real_forward_dft_witness :
    3 ≤ 3 ∧ 3 ≤ (create_setup 3).max_fft_log2 ∧ exact_tables (create_setup 3) ∧
    (∀ j, j < 2 ^ (3 - 1) →
      cplx (hisstools_fft (Real.sqrt 2 / 2) (unzip (fun n => (n : ℝ) + 1)) (create_setup 3) 2) j
        = dft (2 ^ (3 - 1))
            (fun m => (⟨((2 * m : ℕ) : ℝ) + 1, ((2 * m + 1 : ℕ) : ℝ) + 1⟩ : ℂ)) j) ∧
    cplx (pass_real_trig_table false
        (hisstools_fft (Real.sqrt 2 / 2) (unzip (fun n => (n : ℝ) + 1)) (create_setup 3) 2)
        (create_setup 3) 3) 1
      = 2 * dft (2 ^ 3) (fun m => (((m : ℝ) + 1 : ℝ) : ℂ)) 1 := by
  have h3 : 3 ≤ (create_setup 3).max_fft_log2 := le_refl 3
  have hZ : ∀ j, j < 2 ^ (3 - 1) →
      cplx (hisstools_fft (Real.sqrt 2 / 2) (unzip (fun n => (n : ℝ) + 1)) (create_setup 3) 2) j
        = dft (2 ^ (3 - 1))
            (fun m => (⟨((2 * m : ℕ) : ℝ) + 1, ((2 * m + 1 : ℕ) : ℝ) + 1⟩ : ℂ)) j :=
    fun j hj => hisstools_fft_packed (fun n => (n : ℝ) + 1) (create_setup 3)
      (exact_tables_create_setup 3) 2 (by norm_num) (by exact Nat.le_succ_of_le (le_refl 2)) j hj
  exact ⟨le_refl 3, h3, exact_tables_create_setup 3, hZ,
    (pass_real_forward_dft (fun n => (n : ℝ) + 1) _ (create_setup 3) 3 (le_refl 3) h3
      (exact_tables_create_setup 3) hZ).2.2 1 (by norm_num) (by norm_num)⟩

end HISSTools
